import Mathlib

/-!
# NewCentury: board, move generation and position records

A shallow embedding of `src/types.hpp`, `src/board.hpp` and `src/perft.hpp`.

* A bitboard (`u64`) is a natural number below `2 ^ 64`; bit `i` stands for square `i`
  (`a1 = 0`, `b1 = 1`, ..., `h8 = 63`).
* A `Square` (`u8`) is a natural number; `SQUARE_NONE = 255`.
* A loop `while (bb) { sq = poplsb(bb); ... }` visits the set bits of `bb`, least first:
  it is a traversal of `bits bb`.
* `std::string` is `List Char`.
* The headers `utils.hpp`, `move.hpp` and `attacks.hpp` are not part of the sources at hand.
  What `board.hpp` uses of them is modelled from the specification and from the values the
  test-suite asserts; every such definition says so in its doc comment.
-/

namespace NewCentury

/-! ## types.hpp -/

/-- The constant `ONES = 0xffff'ffff'ffff'ffff`. -/
def ONES : Nat := 2 ^ 64 - 1

/-- The constant `SQUARE_NONE = 255`. -/
def SQUARE_NONE : Nat := 255

/-- The enum `Color`. The third enumerator `NONE` is only the value of a default-constructed
board, on which no operation modelled here is ever run; it is left out. -/
inductive Color
  | WHITE
  | BLACK
  deriving DecidableEq, Repr

/-- The enum `PieceType`, `PAWN = 0` to `KING = 5` and `NONE = 6`. -/
inductive PieceType
  | PAWN
  | KNIGHT
  | BISHOP
  | ROOK
  | QUEEN
  | KING
  | NONE
  deriving DecidableEq, Repr

/-- The numeric value of a `PieceType` enumerator. -/
def PieceType.toNat : PieceType → Nat
  | .PAWN => 0
  | .KNIGHT => 1
  | .BISHOP => 2
  | .ROOK => 3
  | .QUEEN => 4
  | .KING => 5
  | .NONE => 6

/-- The cast `(PieceType)i`. -/
def PieceType.ofIndex : Nat → PieceType
  | 0 => .PAWN
  | 1 => .KNIGHT
  | 2 => .BISHOP
  | 3 => .ROOK
  | 4 => .QUEEN
  | 5 => .KING
  | _ => .NONE

/-- The start position record `START_FEN`. -/
def START_FEN : List Char :=
  "rnbqkbnr/pppppppp/8/8/8/8/PPPPPPPP/RNBQKBNR w KQkq - 0 1".toList

/-! ## Bitboard helpers (utils.hpp) -/

/-- Modelled from the spec: `squareToBitboard(sq)` of the missing `utils.hpp`, the bitboard
`1ULL << sq` whose only member is `sq`. The C++ shift is defined for `sq < 64` only; here a
square of 64 or more gives a number beyond the 64 bits, which is no bitboard. The theorems that
reach this function keep the squares on the board. -/
def squareToBitboard (sq : Nat) : Nat := 1 <<< sq

/-- Membership of a square in a bitboard: `bb & (1ULL << sq)` is non-zero. -/
def has (bb sq : Nat) : Bool := bb.testBit sq

/-- The complement `~bb` of a 64-bit word. -/
def not64 (bb : Nat) : Nat := ONES ^^^ (bb % 2 ^ 64)

/-- Set bits of `bb >> i`... shifted back by `i`, least first, looking at `fuel` bits. -/
def bitsAux : Nat → Nat → Nat → List Nat
  | 0, _, _ => []
  | fuel + 1, i, bb =>
    if bb = 0 then []
    else if bb % 2 = 1 then i :: bitsAux fuel (i + 1) (bb / 2)
    else bitsAux fuel (i + 1) (bb / 2)

/-- Modelled from the spec: the squares that successive `poplsb` calls (missing `utils.hpp`)
take out of a 64-bit bitboard: its members, least first. -/
def bits (bb : Nat) : List Nat := bitsAux 64 0 bb

/-- Modelled from the spec: `lsb(bb)` of the missing `utils.hpp`, the index of the least set
bit (the count of trailing zeros, 64 for the empty bitboard). -/
def lsb (bb : Nat) : Nat := (bits bb).headD 64

/-- The count `std::popcount(bb)` of set bits. -/
def popcount (bb : Nat) : Nat := (bits bb).length

/-- Modelled from the spec: `oppColor` of the missing `utils.hpp`. -/
def oppColor : Color → Color
  | .WHITE => .BLACK
  | .BLACK => .WHITE

/-- Modelled from the spec: `squareFile(sq)` of the missing `utils.hpp`, as a number
(`File::A = 0`); the tests assert `squareFile(9) == File::B`. -/
def squareFile (sq : Nat) : Nat := sq % 8

/-- Modelled from the spec: `squareRank(sq)` of the missing `utils.hpp`, as a number
(`Rank::RANK_1 = 0`); the tests assert `squareRank(41) == Rank::RANK_6`. -/
def squareRank (sq : Nat) : Nat := sq / 8

/-- Arithmetic on the `u8` type `Square`: `sq + k`. -/
def addSq (sq k : Nat) : Nat := (sq + k) % 256

/-- Arithmetic on the `u8` type `Square`: `sq - k` (for `k ≤ 256`). -/
def subSq (sq k : Nat) : Nat := (sq + 256 - k) % 256

/-! ## Attack tables (attacks.hpp) -/

/-- The square `offF - 2` files and `offR - 2` ranks away from `sq`, as a bitboard; empty when
that leaves the board. -/
def leap (sq offF offR : Nat) : Nat :=
  if sq < 64 ∧ 2 ≤ sq % 8 + offF ∧ sq % 8 + offF < 10 ∧ 2 ≤ sq / 8 + offR ∧ sq / 8 + offR < 10
  then 1 <<< ((sq / 8 + offR - 2) * 8 + (sq % 8 + offF - 2))
  else 0

/-- Modelled from the spec: `attacks::pawnAttacks(sq, color)` of the missing `attacks.hpp`, the
two squares diagonally ahead of a pawn of `color` on `sq`. -/
def pawnAttacks (sq : Nat) (color : Color) : Nat :=
  match color with
  | .WHITE => leap sq 1 3 ||| leap sq 3 3
  | .BLACK => leap sq 1 1 ||| leap sq 3 1

/-- Modelled from the spec: `attacks::knightAttacks(sq)` of the missing `attacks.hpp`. -/
def knightAttacks (sq : Nat) : Nat :=
  leap sq 0 1 ||| leap sq 0 3 ||| leap sq 1 0 ||| leap sq 1 4 |||
  leap sq 3 0 ||| leap sq 3 4 ||| leap sq 4 1 ||| leap sq 4 3

/-- Modelled from the spec: `attacks::kingAttacks(sq)` of the missing `attacks.hpp`. -/
def kingAttacks (sq : Nat) : Nat :=
  leap sq 1 1 ||| leap sq 1 2 ||| leap sq 1 3 ||| leap sq 2 1 |||
  leap sq 2 3 ||| leap sq 3 1 ||| leap sq 3 2 ||| leap sq 3 3

/-- Ray tracing: the squares met walking from file `f`, rank `r` in steps of `df - 1` files and
`dr - 1` ranks, up to and including the first occupied square or the edge of the board. -/
def rayAux (occ df dr : Nat) : Nat → Nat → Nat → Nat
  | 0, _, _ => 0
  | fuel + 1, f, r =>
    if 1 ≤ f + df ∧ f + df < 9 ∧ 1 ≤ r + dr ∧ r + dr < 9 then
      if has occ ((r + dr - 1) * 8 + (f + df - 1)) then 1 <<< ((r + dr - 1) * 8 + (f + df - 1))
      else 1 <<< ((r + dr - 1) * 8 + (f + df - 1)) ||| rayAux occ df dr fuel (f + df - 1) (r + dr - 1)
    else 0

/-- The ray from `sq` in direction (`df - 1`, `dr - 1`) under occupancy `occ`. -/
def ray (occ sq df dr : Nat) : Nat :=
  if sq < 64 then rayAux occ df dr 7 (sq % 8) (sq / 8) else 0

/-- Modelled from the spec: `attacks::rookAttacks(sq, occ)` of the missing `attacks.hpp`, by
ray tracing along the rank and the file. -/
def rookAttacks (sq occ : Nat) : Nat :=
  ray occ sq 2 1 ||| ray occ sq 0 1 ||| ray occ sq 1 2 ||| ray occ sq 1 0

/-- Modelled from the spec: `attacks::bishopAttacks(sq, occ)` of the missing `attacks.hpp`, by
ray tracing along the two diagonals. -/
def bishopAttacks (sq occ : Nat) : Nat :=
  ray occ sq 2 2 ||| ray occ sq 0 0 ||| ray occ sq 2 0 ||| ray occ sq 0 2

/-- Modelled from the spec: `attacks::queenAttacks(sq, occ)` of the missing `attacks.hpp`. -/
def queenAttacks (sq occ : Nat) : Nat :=
  bishopAttacks sq occ ||| rookAttacks sq occ

/-- Modelled from the spec: `attacks::xrayRook(sq, occ, blockers)` of the missing `attacks.hpp`,
the rook attacks that appear once the first `blockers` met from `sq` are taken off the board. -/
def xrayRook (sq occ blockers : Nat) : Nat :=
  rookAttacks sq occ ^^^ rookAttacks sq (occ ^^^ (blockers &&& rookAttacks sq occ))

/-- Modelled from the spec: `attacks::xrayBishop(sq, occ, blockers)` of the missing
`attacks.hpp`. -/
def xrayBishop (sq occ blockers : Nat) : Nat :=
  bishopAttacks sq occ ^^^ bishopAttacks sq (occ ^^^ (blockers &&& bishopAttacks sq occ))

/-- The bitboard of the squares below 64 that satisfy `p`. -/
def squaresWhere (p : Nat → Bool) : Nat :=
  (List.range 64).foldl (fun acc sq => if p sq then acc ||| 1 <<< sq else acc) 0

/-- Square `u` lies strictly between the squares `a` and `b` on a rank, file or diagonal that
`a` and `b` share. -/
def isBetween (a u b : Nat) : Bool :=
  decide ((a / 8 = u / 8 ∧ u / 8 = b / 8
      ∧ ((a % 8 < u % 8 ∧ u % 8 < b % 8) ∨ (b % 8 < u % 8 ∧ u % 8 < a % 8)))
    ∨ (a % 8 = u % 8 ∧ u % 8 = b % 8
      ∧ ((a / 8 < u / 8 ∧ u / 8 < b / 8) ∨ (b / 8 < u / 8 ∧ u / 8 < a / 8)))
    ∨ (a % 8 + u / 8 = u % 8 + a / 8 ∧ u % 8 + b / 8 = b % 8 + u / 8
      ∧ ((a % 8 < u % 8 ∧ u % 8 < b % 8) ∨ (b % 8 < u % 8 ∧ u % 8 < a % 8)))
    ∨ (a % 8 + a / 8 = u % 8 + u / 8 ∧ u % 8 + u / 8 = b % 8 + b / 8
      ∧ ((a % 8 < u % 8 ∧ u % 8 < b % 8) ∨ (b % 8 < u % 8 ∧ u % 8 < a % 8))))

/-- Square `u` lies on the rank, file or diagonal that the distinct squares `a` and `b`
share. -/
def isOnLine (a b u : Nat) : Bool :=
  decide (a ≠ b ∧ ((a / 8 = b / 8 ∧ u / 8 = a / 8)
    ∨ (a % 8 = b % 8 ∧ u % 8 = a % 8)
    ∨ (a % 8 + b / 8 = b % 8 + a / 8 ∧ a % 8 + u / 8 = u % 8 + a / 8)
    ∨ (a % 8 + a / 8 = b % 8 + b / 8 ∧ a % 8 + a / 8 = u % 8 + u / 8)))

/-- Modelled from the spec: the table `BETWEEN[a][b]` of the missing `utils.hpp`, the squares
strictly between two squares that share a rank, file or diagonal, and nothing otherwise; the
tests assert `BETWEEN[32][59] == {41, 50}`. -/
def BETWEEN (a b : Nat) : Nat :=
  if a < 64 ∧ b < 64 then squaresWhere (fun u => isBetween a u b) else 0

/-- Modelled from the spec: the table `LINE_THROUGH[a][b]` of the missing `utils.hpp`, the whole
rank, file or diagonal through two squares that share one (the two squares included), and
nothing otherwise; the tests assert `LINE_THROUGH[41][50] == {32, 41, 50, 59}`. -/
def LINE_THROUGH (a b : Nat) : Nat :=
  if a < 64 ∧ b < 64 then squaresWhere (fun u => isOnLine a b u) else 0

/-! ## Move encoding (move.hpp) -/

/-- Modelled from the spec: the value type `Move` of the missing `move.hpp`: origin square,
destination square and a flag that tells the kind of move. -/
structure Move where
  fromSq : Nat
  toSq : Nat
  flag : Nat
  deriving DecidableEq, Repr

namespace Move

/-- Modelled from the spec: the flag constants of the missing `move.hpp`. A quiet move of a
piece carries the flag `pieceType + 1`, as `Board::uciToMove` relies on. -/
def NULL_FLAG : Nat := 0
/-- Modelled from the spec: flag of a pawn push or capture. -/
def PAWN_FLAG : Nat := 1
/-- Modelled from the spec: flag of a knight move. -/
def KNIGHT_FLAG : Nat := 2
/-- Modelled from the spec: flag of a bishop move. -/
def BISHOP_FLAG : Nat := 3
/-- Modelled from the spec: flag of a rook move. -/
def ROOK_FLAG : Nat := 4
/-- Modelled from the spec: flag of a queen move. -/
def QUEEN_FLAG : Nat := 5
/-- Modelled from the spec: flag of a king move that is not castling. -/
def KING_FLAG : Nat := 6
/-- Modelled from the spec: flag of castling. -/
def CASTLING_FLAG : Nat := 7
/-- Modelled from the spec: flag of a promotion to a knight. -/
def KNIGHT_PROMOTION_FLAG : Nat := 10
/-- Modelled from the spec: flag of a promotion to a bishop. -/
def BISHOP_PROMOTION_FLAG : Nat := 11
/-- Modelled from the spec: flag of a promotion to a rook. -/
def ROOK_PROMOTION_FLAG : Nat := 12
/-- Modelled from the spec: flag of a promotion to a queen. -/
def QUEEN_PROMOTION_FLAG : Nat := 13
/-- Modelled from the spec: flag of an en-passant capture. -/
def EN_PASSANT_FLAG : Nat := 14
/-- Modelled from the spec: flag of a pawn double push. -/
def PAWN_TWO_UP_FLAG : Nat := 15

/-- Modelled from the spec: `Move::pieceType()` of the missing `move.hpp`, the type of the piece
that moves; the tests assert `KING` for castling and `PAWN` for a promotion. -/
def pieceType (m : Move) : PieceType :=
  if m.flag = NULL_FLAG then .NONE
  else if m.flag ≤ KING_FLAG then PieceType.ofIndex (m.flag - 1)
  else if m.flag = CASTLING_FLAG then .KING
  else .PAWN

/-- Modelled from the spec: `Move::promotion()` of the missing `move.hpp`, the piece type a
pawn promotes to, `NONE` for a move that is not a promotion. -/
def promotion (m : Move) : PieceType :=
  if m.flag = KNIGHT_PROMOTION_FLAG then .KNIGHT
  else if m.flag = BISHOP_PROMOTION_FLAG then .BISHOP
  else if m.flag = ROOK_PROMOTION_FLAG then .ROOK
  else if m.flag = QUEEN_PROMOTION_FLAG then .QUEEN
  else .NONE

/-- Whether a move carries a knight-, bishop- or rook-promotion flag. -/
def isUnderpromotion (m : Move) : Bool :=
  m.flag = KNIGHT_PROMOTION_FLAG || m.flag = BISHOP_PROMOTION_FLAG
    || m.flag = ROOK_PROMOTION_FLAG

end Move

/-- Modelled from the spec: the null move `MOVE_NONE` of the missing `move.hpp`. -/
def MOVE_NONE : Move := ⟨0, 0, Move.NULL_FLAG⟩

/-! ## Zobrist keys and castling tables -/

/-- The random tables `ZOBRIST_COLOR`, `ZOBRIST_PIECES` and `ZOBRIST_FILES` that `initZobrist`
draws from a Mersenne twister. Their values play no part in what is proved, so the tables are a
parameter of every operation that touches the hash. -/
structure Zobrist where
  color : Nat
  pieces : Color → PieceType → Nat → Nat
  files : Nat → Nat

/-- The constant `CASTLE_SHORT`. -/
def CASTLE_SHORT : Nat := 0
/-- The constant `CASTLE_LONG`. -/
def CASTLE_LONG : Nat := 1

/-- Modelled from the spec: the table `CASTLING_MASKS[color][side]` of the missing `utils.hpp`.
A right is the bit of the home square of its rook (`h1`, `a1`, `h8`, `a8`): `makeMove` clears
the right `1ULL << from` or `1ULL << to` when a move touches that corner. -/
def CASTLING_MASKS (color : Color) (side : Nat) : Nat :=
  match color, side with
  | .WHITE, 0 => 1 <<< 7
  | .WHITE, _ => 1 <<< 0
  | .BLACK, 0 => 1 <<< 63
  | .BLACK, _ => 1 <<< 56

/-- Modelled from the spec: the table `CASTLING_ROOK_FROM_TO[kingTo]` of the missing
`utils.hpp`: where the rook starts and ends when the king castles to `kingTo`. -/
def CASTLING_ROOK_FROM_TO (kingTo : Nat) : Nat × Nat :=
  if kingTo = 6 then (7, 5)
  else if kingTo = 2 then (0, 3)
  else if kingTo = 62 then (63, 61)
  else if kingTo = 58 then (56, 59)
  else (0, 0)

/-! ## Strings (utils.hpp and the standard library) -/

/-- White space, as `trim` sees it: blank, tab, line feed, carriage return. -/
def isWhite (c : Char) : Bool := c = ' ' || c.toNat = 9 || c.toNat = 10 || c.toNat = 13

/-- Modelled from the spec: `trim(str)` of the missing `utils.hpp`: white space is taken off
both ends. -/
def trim (s : List Char) : List Char :=
  ((s.dropWhile isWhite).reverse.dropWhile isWhite).reverse

/-- The pieces of `s` between the occurrences of `delimiter`; `cur` is the piece being read,
last character first. -/
def splitAux (delimiter : Char) : List Char → List Char → List (List Char)
  | [], cur => [cur.reverse]
  | c :: cs, cur =>
    if c = delimiter then cur.reverse :: splitAux delimiter cs []
    else splitAux delimiter cs (c :: cur)

/-- Modelled from the spec: `splitString(str, delimiter)` of the missing `utils.hpp`: the
trimmed string is cut at every delimiter. -/
def splitString (s : List Char) (delimiter : Char) : List (List Char) :=
  if trim s = [] then [] else splitAux delimiter (trim s) []

/-- The test `isdigit(c)`. -/
def isdigit (c : Char) : Bool := 48 ≤ c.toNat && c.toNat ≤ 57

/-- The test `isupper(c)`. -/
def isupper (c : Char) : Bool := 65 ≤ c.toNat && c.toNat ≤ 90

/-- Modelled from the spec: `charToInt(c)` of the missing `utils.hpp`, the value of a digit. -/
def charToInt (c : Char) : Nat := c.toNat - 48

/-- Modelled from the spec: the table `CHAR_TO_PIECE_TYPE` of the missing `utils.hpp`. Only the
twelve piece letters are looked up when the record is well formed. -/
def CHAR_TO_PIECE_TYPE (c : Char) : PieceType :=
  if c = 'P' ∨ c = 'p' then .PAWN
  else if c = 'N' ∨ c = 'n' then .KNIGHT
  else if c = 'B' ∨ c = 'b' then .BISHOP
  else if c = 'R' ∨ c = 'r' then .ROOK
  else if c = 'Q' ∨ c = 'q' then .QUEEN
  else if c = 'K' ∨ c = 'k' then .KING
  else .NONE

/-- Modelled from the spec: the table `PIECE_TO_CHAR` of the missing `utils.hpp`, indexed by
`makePiece(pt, color)`: upper case for White, lower case for Black. -/
def PIECE_TO_CHAR (pt : PieceType) (color : Color) : Char :=
  match color, pt with
  | .WHITE, .PAWN => 'P'
  | .WHITE, .KNIGHT => 'N'
  | .WHITE, .BISHOP => 'B'
  | .WHITE, .ROOK => 'R'
  | .WHITE, .QUEEN => 'Q'
  | .WHITE, .KING => 'K'
  | .BLACK, .PAWN => 'p'
  | .BLACK, .KNIGHT => 'n'
  | .BLACK, .BISHOP => 'b'
  | .BLACK, .ROOK => 'r'
  | .BLACK, .QUEEN => 'q'
  | .BLACK, .KING => 'k'
  | _, .NONE => ' '

/-- Modelled from the spec: `strToSquare(str)` of the missing `utils.hpp`: file letter and rank
digit, read from the first two characters; the tests assert `strToSquare("b7") == 49`. -/
def strToSquare (s : List Char) : Nat :=
  match s with
  | f :: r :: _ => ((r.toNat - 49) * 8 + (f.toNat - 97)) % 256
  | _ => SQUARE_NONE

/-- Modelled from the spec: the table `SQUARE_TO_STR` of the missing `utils.hpp`. -/
def SQUARE_TO_STR (sq : Nat) : List Char :=
  [Char.ofNat (97 + sq % 8), Char.ofNat (49 + sq / 8)]

/-- Decimal digits of `n`, put in front of `acc`; `fuel` bounds the number of digits. -/
def toStringAux : Nat → Nat → List Char → List Char
  | 0, _, acc => acc
  | fuel + 1, n, acc =>
    if n / 10 = 0 then Char.ofNat (48 + n % 10) :: acc
    else toStringAux fuel (n / 10) (Char.ofNat (48 + n % 10) :: acc)

/-- The function `std::to_string` on an unsigned value of at most 64 bits. -/
def to_string (n : Nat) : List Char := toStringAux 20 n []

/-- The value of the longest prefix of `s` made of digits, after `acc`, and whether a digit
was read. -/
def stoiAux : List Char → Nat → Bool → Nat × Bool
  | [], acc, seen => (acc, seen)
  | c :: cs, acc, seen =>
    if isdigit c then stoiAux cs (acc * 10 + charToInt c) true else (acc, seen)

/-- White space, as `std::stoi` and `std::stoll` skip it: blank, tab, line feed, vertical tab,
form feed, carriage return. -/
def isspace (c : Char) : Bool := c = ' ' || (9 ≤ c.toNat && c.toNat ≤ 13)

/-- The function `std::stoi`: white space is skipped, a sign may come, and the value of the
digits that follow is the result; `none` when there is no digit (`std::invalid_argument`) or the
value does not fit an `int` (`std::out_of_range`). -/
def stoi (s : List Char) : Option Int :=
  let s1 := s.dropWhile isspace
  let negative := s1.head? = some '-'
  let s2 := if s1.head? = some '-' ∨ s1.head? = some '+' then s1.tail else s1
  let r := stoiAux s2 0 false
  let value : Int := if negative then -(r.1 : Int) else (r.1 : Int)
  if r.2 ∧ -(2 ^ 31 : Int) ≤ value ∧ value < 2 ^ 31 then some value else none

/-! ## The board (board.hpp) -/

/-- The data members of `class Board`. `mColorBitboards` is the pair `white`, `black`;
`mPiecesBitboards` is the six fields `pawns` to `kings`. -/
structure Board where
  mColorToMove : Color
  white : Nat
  black : Nat
  pawns : Nat
  knights : Nat
  bishops : Nat
  rooks : Nat
  queens : Nat
  kings : Nat
  mCastlingRights : Nat
  mEnPassantSquare : Nat
  mPliesSincePawnOrCapture : Nat
  mCurrentMoveCounter : Nat
  mZobristHash : Nat
  mZobristHashes : List Nat
  mLastMove : Move
  mCaptured : PieceType
  deriving DecidableEq, Repr

namespace Board

/-- The accessor `getBitboard(Color)`, that is `mColorBitboards[color]`. -/
def colorBb (b : Board) : Color → Nat
  | .WHITE => b.white
  | .BLACK => b.black

/-- The accessor `getBitboard(PieceType)`, that is `mPiecesBitboards[pt]`. -/
def pieceBb (b : Board) : PieceType → Nat
  | .PAWN => b.pawns
  | .KNIGHT => b.knights
  | .BISHOP => b.bishops
  | .ROOK => b.rooks
  | .QUEEN => b.queens
  | .KING => b.kings
  | .NONE => 0

/-- The assignment `mColorBitboards[color] = v`. -/
def setColorBb (b : Board) (c : Color) (v : Nat) : Board :=
  match c with
  | .WHITE => { b with white := v }
  | .BLACK => { b with black := v }

/-- The assignment `mPiecesBitboards[pt] = v`. -/
def setPieceBb (b : Board) (pt : PieceType) (v : Nat) : Board :=
  match pt with
  | .PAWN => { b with pawns := v }
  | .KNIGHT => { b with knights := v }
  | .BISHOP => { b with bishops := v }
  | .ROOK => { b with rooks := v }
  | .QUEEN => { b with queens := v }
  | .KING => { b with kings := v }
  | .NONE => b

/-- The bitboard `us()` of the side to move. -/
def us (b : Board) : Nat := b.colorBb b.mColorToMove

/-- The bitboard `them()` of the side not to move. -/
def them (b : Board) : Nat := b.colorBb (oppColor b.mColorToMove)

/-- The bitboard `occupancy()`. -/
def occupancy (b : Board) : Nat := b.us ||| b.them

/-- The test `isOccupied(square)`. -/
def isOccupied (b : Board) (square : Nat) : Bool := has b.occupancy square

/-- The query `pieceTypeAt(square)`: the first piece-type bitboard that holds the square. -/
def pieceTypeAt (b : Board) (square : Nat) : PieceType :=
  if !b.isOccupied square then .NONE
  else if has b.pawns square then .PAWN
  else if has b.knights square then .KNIGHT
  else if has b.bishops square then .BISHOP
  else if has b.rooks square then .ROOK
  else if has b.queens square then .QUEEN
  else if has b.kings square then .KING
  else .NONE

/-- The private method `placePiece(color, pieceType, square)`. Its assert, that the square is
empty, is left out: the method is total here, and the theorems on `makeMove` and `legalMoves`
assume a position on which the assert holds (see `Sane`). -/
def placePiece (Z : Zobrist) (b : Board) (color : Color) (pieceType : PieceType) (square : Nat) :
    Board :=
  let b1 := b.setColorBb color (b.colorBb color ||| 1 <<< square)
  let b2 := b1.setPieceBb pieceType (b1.pieceBb pieceType ||| 1 <<< square)
  { b2 with mZobristHash := b2.mZobristHash ^^^ Z.pieces color pieceType square }

/-- The private method `removePiece(color, pieceType, square)`. Its two asserts, that a piece
of this colour and of this type stands on the square, are left out: the method is total here,
and the theorems on `makeMove` and `legalMoves` assume a position on which the asserts hold
(see `Sane`). -/
def removePiece (Z : Zobrist) (b : Board) (color : Color) (pieceType : PieceType) (square : Nat) :
    Board :=
  let b1 := b.setColorBb color (b.colorBb color ^^^ 1 <<< square)
  let b2 := b1.setPieceBb pieceType (b1.pieceBb pieceType ^^^ 1 <<< square)
  { b2 with mZobristHash := b2.mZobristHash ^^^ Z.pieces color pieceType square }

/-- The board before the constructor `Board(std::string fen)` fills it in. -/
def empty : Board :=
  { mColorToMove := .WHITE, white := 0, black := 0, pawns := 0, knights := 0, bishops := 0,
    rooks := 0, queens := 0, kings := 0, mCastlingRights := 0, mEnPassantSquare := SQUARE_NONE,
    mPliesSincePawnOrCapture := 0, mCurrentMoveCounter := 1, mZobristHash := 0,
    mZobristHashes := [], mLastMove := MOVE_NONE, mCaptured := .NONE }

/-- The loop over the piece-placement field in the constructor (lines 100-118). The state is
the board, `currentRank` and `currentFile`. -/
def parseRows (Z : Zobrist) : List Char → Board → Int → Int → Board
  | [], b, _, _ => b
  | thisChar :: rest, b, currentRank, currentFile =>
    if thisChar = '/' then parseRows Z rest b (currentRank - 1) 0
    else if isdigit thisChar then
      parseRows Z rest b currentRank (currentFile + charToInt thisChar)
    else
      let color := if isupper thisChar then Color.WHITE else Color.BLACK
      let sq := ((currentRank * 8 + currentFile) % 256).toNat
      parseRows Z rest (b.placePiece Z color (CHAR_TO_PIECE_TYPE thisChar) sq) currentRank
        (currentFile + 1)

/-- The loop over the castling field in the constructor (lines 125-134). -/
def parseCastling : List Char → Nat → Nat
  | [], rights => rights
  | thisChar :: rest, rights =>
    let color := if isupper thisChar then Color.WHITE else Color.BLACK
    let castlingRight := if thisChar = 'K' ∨ thisChar = 'k' then CASTLE_SHORT else CASTLE_LONG
    parseCastling rest (rights ||| CASTLING_MASKS color castlingRight)

/-- The constructor `Board(std::string fen)`. It fails (`none`) where the C++ code reads a
field that is not there or `stoi` throws. The `int` that `stoi` returns is stored in the `u8`
halfmove clock and in the `u16` move counter: it is taken modulo 256 and 65536. -/
def ofFen (Z : Zobrist) (fen : List Char) : Option Board :=
  let fenSplit := splitString fen ' '
  match fenSplit with
  | fenRows :: fenColor :: fenCastlingRights :: strEnPassantSquare :: counters =>
    -- Parse color to move
    let color := if fenColor = ['b'] then Color.BLACK else Color.WHITE
    let b0 : Board := { empty with
      mColorToMove := color, mZobristHash := if color = .BLACK then Z.color else 0 }
    -- Parse pieces
    let b1 := parseRows Z fenRows b0 7 0
    -- Parse castling rights
    let rights := if fenCastlingRights ≠ ['-'] then parseCastling fenCastlingRights 0 else 0
    let b2 : Board := { b1 with
      mCastlingRights := rights,
      mZobristHash := if fenCastlingRights ≠ ['-'] then b1.mZobristHash ^^^ rights
                      else b1.mZobristHash }
    -- Parse en passant target square
    let b3 : Board :=
      if strEnPassantSquare ≠ ['-'] then
        { b2 with mEnPassantSquare := strToSquare strEnPassantSquare,
                  mZobristHash := b2.mZobristHash
                    ^^^ Z.files (squareFile (strToSquare strEnPassantSquare)) }
      else b2
    -- Parse last 2 fen tokens
    match counters with
    | [] => some b3
    | [plies] =>
      (stoi plies).map (fun p => { b3 with mPliesSincePawnOrCapture := (p % 256).toNat })
    | plies :: counter :: _ =>
      (stoi plies).bind (fun p => (stoi counter).map (fun c =>
        { b3 with mPliesSincePawnOrCapture := (p % 256).toNat,
                  mCurrentMoveCounter := (c % 65536).toNat }))
  | _ => none

/-- The text of one rank in `fen()` (lines 214-239, without the final `/`), read from `file`
on; `emptySoFar` counts the empty squares not yet written. -/
def fenRank (b : Board) (rank : Nat) : Nat → Nat → Nat → List Char
  | 0, _, emptySoFar => if emptySoFar > 0 then to_string emptySoFar else []
  | todo + 1, file, emptySoFar =>
    let square := rank * 8 + file
    let pt := b.pieceTypeAt square
    if pt = .NONE then fenRank b rank todo (file + 1) (emptySoFar + 1)
    else
      let pieceColor := if has b.white square then Color.WHITE else Color.BLACK
      (if emptySoFar > 0 then to_string emptySoFar else [])
        ++ PIECE_TO_CHAR pt pieceColor :: fenRank b rank todo (file + 1) 0

/-- The piece-placement field written by `fen()`: ranks 8 down to 1, `/` between them. -/
def fenRows (b : Board) : List Char :=
  fenRank b 7 8 0 0 ++ '/' :: fenRank b 6 8 0 0 ++ '/' :: fenRank b 5 8 0 0 ++ '/' ::
  fenRank b 4 8 0 0 ++ '/' :: fenRank b 3 8 0 0 ++ '/' :: fenRank b 2 8 0 0 ++ '/' ::
  fenRank b 1 8 0 0 ++ '/' :: fenRank b 0 8 0 0

/-- The castling field written by `fen()` (lines 246-257). -/
def fenCastling (b : Board) : List Char :=
  let s :=
    (if b.mCastlingRights &&& CASTLING_MASKS .WHITE CASTLE_SHORT ≠ 0 then ['K'] else []) ++
    (if b.mCastlingRights &&& CASTLING_MASKS .WHITE CASTLE_LONG ≠ 0 then ['Q'] else []) ++
    (if b.mCastlingRights &&& CASTLING_MASKS .BLACK CASTLE_SHORT ≠ 0 then ['k'] else []) ++
    (if b.mCastlingRights &&& CASTLING_MASKS .BLACK CASTLE_LONG ≠ 0 then ['q'] else [])
  if s.length = 0 then ['-'] else s

/-- The method `fen()`. -/
def fen (b : Board) : List Char :=
  b.fenRows ++ (if b.mColorToMove = .BLACK then [' ', 'b', ' '] else [' ', 'w', ' '])
    ++ b.fenCastling ++ [' ']
    ++ (if b.mEnPassantSquare = SQUARE_NONE then ['-'] else SQUARE_TO_STR b.mEnPassantSquare)
    ++ ' ' :: to_string b.mPliesSincePawnOrCapture
    ++ ' ' :: to_string b.mCurrentMoveCounter

/-- The query `fiftyMovesDraw()`. -/
def fiftyMovesDraw (b : Board) : Bool := decide (b.mPliesSincePawnOrCapture ≥ 100)

/-- The query `isSquareAttacked(square, colorAttacking)`. -/
def isSquareAttacked (b : Board) (square : Nat) (colorAttacking : Color) : Bool :=
  let colorBb := b.colorBb colorAttacking
  if (colorBb &&& b.pawns) &&& pawnAttacks square (oppColor colorAttacking) ≠ 0 then true
  else if (colorBb &&& b.knights) &&& knightAttacks square ≠ 0 then true
  else if ((colorBb &&& b.bishops) ||| (colorBb &&& b.queens))
      &&& bishopAttacks square b.occupancy ≠ 0 then true
  else if ((colorBb &&& b.rooks) ||| (colorBb &&& b.queens))
      &&& rookAttacks square b.occupancy ≠ 0 then true
  else decide ((colorBb &&& b.kings) &&& kingAttacks square ≠ 0)

/-- The query `attackers(sq, colorAttacking)`. -/
def attackers (b : Board) (sq : Nat) (colorAttacking : Color) : Nat :=
  let a0 := b.pawns &&& pawnAttacks sq (oppColor colorAttacking)
  let a1 := a0 ||| (b.knights &&& knightAttacks sq)
  let a2 := a1 ||| (b.kings &&& kingAttacks sq)
  let a3 := a2 ||| ((b.bishops ||| b.queens) &&& bishopAttacks sq b.occupancy)
  let a4 := a3 ||| ((b.rooks ||| b.queens) &&& rookAttacks sq b.occupancy)
  a4 &&& b.colorBb colorAttacking

/-- The query `attacks(color, occ)`: every square attacked by a piece of `color`, sliders
seeing through nothing but `occ` (the whole occupancy when `occ` is `0`). -/
def attacks (b : Board) (color : Color) (occ0 : Nat) : Nat :=
  let occ := if occ0 = 0 then b.occupancy else occ0
  let colorBb := b.colorBb color
  let a0 := (bits (colorBb &&& b.pawns)).foldl (fun acc sq => acc ||| pawnAttacks sq color) 0
  let a1 := (bits (colorBb &&& b.knights)).foldl (fun acc sq => acc ||| knightAttacks sq) a0
  let a2 := (bits ((colorBb &&& b.bishops) ||| (colorBb &&& b.queens))).foldl
    (fun acc sq => acc ||| bishopAttacks sq occ) a1
  let a3 := (bits ((colorBb &&& b.rooks) ||| (colorBb &&& b.queens))).foldl
    (fun acc sq => acc ||| rookAttacks sq occ) a2
  a3 ||| kingAttacks (lsb (colorBb &&& b.kings))

/-- The query `inCheck()`. -/
def inCheck (b : Board) : Bool :=
  b.isSquareAttacked (lsb (b.us &&& b.kings)) (oppColor b.mColorToMove)

/-- The query `checkers()`. -/
def checkers (b : Board) : Nat :=
  b.attackers (lsb (b.us &&& b.kings)) (oppColor b.mColorToMove)

/-- The query `pinned()`: the pieces of the side to move pinned along a rank or file, and those
pinned along a diagonal. -/
def pinned (b : Board) : Nat × Nat :=
  let kingSquare := lsb (b.us &&& b.kings)
  let pinnersNonDiagonal := (b.rooks ||| b.queens) &&& xrayRook kingSquare b.occupancy b.us
    &&& b.them
  let pinnedNonDiagonal := (bits pinnersNonDiagonal).foldl
    (fun acc pinnerSquare => acc ||| (BETWEEN pinnerSquare kingSquare &&& b.us)) 0
  let pinnersDiagonal := (b.bishops ||| b.queens) &&& xrayBishop kingSquare b.occupancy b.us
    &&& b.them
  let pinnedDiagonal := (bits pinnersDiagonal).foldl
    (fun acc pinnerSquare => acc ||| (BETWEEN pinnerSquare kingSquare &&& b.us)) 0
  (pinnedNonDiagonal, pinnedDiagonal)

/-- First part of `makeMove` (lines 506-533): the pieces are moved and `mCaptured` is set.
`b` is the board before the move, with the hash already pushed on the history. -/
def movePieces (Z : Zobrist) (b : Board) (move : Move) : Board :=
  let stm := b.mColorToMove
  let b1 := b.removePiece Z stm move.pieceType move.fromSq
  if move.flag = Move.CASTLING_FLAG then
    let c1 := b1.placePiece Z stm .KING move.toSq
    let c2 := c1.removePiece Z stm .ROOK (CASTLING_ROOK_FROM_TO move.toSq).1
    let c3 := c2.placePiece Z stm .ROOK (CASTLING_ROOK_FROM_TO move.toSq).2
    { c3 with mCaptured := .NONE }
  else if move.flag = Move.EN_PASSANT_FLAG then
    let capturedPieceSquare := if stm = .WHITE then subSq move.toSq 8 else addSq move.toSq 8
    let c1 := b1.removePiece Z (oppColor stm) .PAWN capturedPieceSquare
    let c2 := c1.placePiece Z stm .PAWN move.toSq
    { c2 with mCaptured := .PAWN }
  else
    let captured := b1.pieceTypeAt move.toSq
    let c1 : Board := { b1 with mCaptured := captured }
    let c2 := if captured ≠ .NONE then c1.removePiece Z (oppColor stm) captured move.toSq else c1
    c2.placePiece Z stm (if move.promotion ≠ .NONE then move.promotion else move.pieceType)
      move.toSq

/-- The castling rights after a move of a piece of type `pieceType` of colour `stm` from
`fromSq` to `toSq` (lines 538-546 of `makeMove`). -/
def newCastlingRights (rights : Nat) (stm : Color) (pieceType : PieceType) (fromSq toSq : Nat) :
    Nat :=
  let rights1 :=
    if pieceType = .KING then
      (rights &&& not64 (CASTLING_MASKS stm CASTLE_SHORT)) &&& not64 (CASTLING_MASKS stm CASTLE_LONG)
    else if (1 <<< fromSq) &&& rights ≠ 0 then rights &&& not64 (1 <<< fromSq)
    else rights
  if (1 <<< toSq) &&& rights1 ≠ 0 then rights1 &&& not64 (1 <<< toSq) else rights1

/-- Second part of `makeMove` (lines 535-548): the castling rights are updated, the old value
XORed out of the hash and the new one in. `stm` is the side that moves. -/
def updateCastlingRights (b : Board) (stm : Color) (move : Move) : Board :=
  let rights := newCastlingRights b.mCastlingRights stm move.pieceType move.fromSq move.toSq
  { b with mCastlingRights := rights,
           mZobristHash := (b.mZobristHash ^^^ b.mCastlingRights) ^^^ rights }

/-- Third part of `makeMove` (lines 550-560): the en-passant square is cleared, then set after
a pawn double push. -/
def updateEnPassant (Z : Zobrist) (b : Board) (stm : Color) (move : Move) : Board :=
  let b1 : Board :=
    if b.mEnPassantSquare ≠ SQUARE_NONE then
      { b with mZobristHash := b.mZobristHash ^^^ Z.files (squareFile b.mEnPassantSquare),
               mEnPassantSquare := SQUARE_NONE }
    else b
  if move.flag = Move.PAWN_TWO_UP_FLAG then
    let ep := if stm = .WHITE then subSq move.toSq 8 else addSq move.toSq 8
    { b1 with mEnPassantSquare := ep,
              mZobristHash := b1.mZobristHash ^^^ Z.files (squareFile ep) }
  else b1

/-- Last part of `makeMove` (lines 562-573): side to move, counters and last move. -/
def updateCounters (Z : Zobrist) (b : Board) (move : Move) : Board :=
  let oppSide := oppColor b.mColorToMove
  let plies :=
    if move.pieceType = .PAWN ∨ b.mCaptured ≠ .NONE then 0
    else (b.mPliesSincePawnOrCapture + 1) % 256
  let counter :=
    if oppSide = .WHITE then (b.mCurrentMoveCounter + 1) % 65536 else b.mCurrentMoveCounter
  { b with mColorToMove := oppSide,
           mZobristHash := b.mZobristHash ^^^ Z.color,
           mPliesSincePawnOrCapture := plies,
           mCurrentMoveCounter := counter,
           mLastMove := move }

/-- The method `makeMove(Move)`. -/
def makeMove (Z : Zobrist) (b : Board) (move : Move) : Board :=
  let b0 : Board := { b with mZobristHashes := b.mZobristHashes ++ [b.mZobristHash] }
  let b1 := movePieces Z b0 move
  let b2 := updateCastlingRights b1 b.mColorToMove move
  let b3 := updateEnPassant Z b2 b.mColorToMove move
  updateCounters Z b3 move

/-- The private method `addPromotions`: the moves it pushes. -/
def addPromotions (sq targetSquare : Nat) (underpromotions : Bool) : List Move :=
  if underpromotions then
    [⟨sq, targetSquare, Move.QUEEN_PROMOTION_FLAG⟩, ⟨sq, targetSquare, Move.ROOK_PROMOTION_FLAG⟩,
     ⟨sq, targetSquare, Move.BISHOP_PROMOTION_FLAG⟩, ⟨sq, targetSquare, Move.KNIGHT_PROMOTION_FLAG⟩]
  else [⟨sq, targetSquare, Move.QUEEN_PROMOTION_FLAG⟩]

/-- King moves of `legalMoves` (lines 588-593). -/
def kingMoves (b : Board) (kingSquare theirAttacks : Nat) : List Move :=
  let targetSquares := kingAttacks kingSquare &&& not64 b.us &&& not64 theirAttacks
  (bits targetSquares).map (fun targetSquare => ⟨kingSquare, targetSquare, Move.KING_FLAG⟩)

/-- The bitboard `movableBb` of `legalMoves` (lines 605-615): where a piece other than the king
may go, given the checkers. -/
def movableBb (b : Board) (kingSquare checkers : Nat) : Nat :=
  if popcount checkers = 1 then
    if checkers &&& (b.bishops ||| b.rooks ||| b.queens) ≠ 0 then
      checkers ||| BETWEEN kingSquare (lsb checkers)
    else checkers
  else ONES

/-- Castling moves of `legalMoves` (lines 618-638). The squares next to the king are computed
from the king square, in `u8`; the code shifts `1ULL` by them, which is defined only when they
lie on the board, and stores them in the 6-bit fields of a `Move`. They do lie on the board
when a right is held with the king on its home square, which is what the castling rights
agreeing with the pieces means; the theorems on castling assume it. -/
def castlingMoves (b : Board) (kingSquare occ theirAttacks numCheckers : Nat) : List Move :=
  if numCheckers = 0 then
    (if b.mCastlingRights &&& CASTLING_MASKS b.mColorToMove CASTLE_SHORT ≠ 0 then
      let throughSquares :=
        squareToBitboard (addSq kingSquare 1) ||| squareToBitboard (addSq kingSquare 2)
      if occ &&& throughSquares = 0 ∧ theirAttacks &&& throughSquares = 0 then
        [(⟨kingSquare, addSq kingSquare 2, Move.CASTLING_FLAG⟩ : Move)]
      else []
    else []) ++
    (if b.mCastlingRights &&& CASTLING_MASKS b.mColorToMove CASTLE_LONG ≠ 0 then
      let throughSquares :=
        squareToBitboard (subSq kingSquare 1) ||| squareToBitboard (subSq kingSquare 2)
          ||| squareToBitboard (subSq kingSquare 3)
      if occ &&& throughSquares = 0
          ∧ theirAttacks &&& (throughSquares ^^^ squareToBitboard (subSq kingSquare 3)) = 0 then
        [(⟨kingSquare, subSq kingSquare 2, Move.CASTLING_FLAG⟩ : Move)]
      else []
    else [])
  else []

/-- The board of the en-passant loop of `legalMoves` once the capture by the pawn on
`ourPawnSquare` is made on it (lines 662-668). -/
def enPassantMade (Z : Zobrist) (b : Board) (ourPawnSquare : Nat) : Board :=
  let enemyColor := oppColor b.mColorToMove
  let b1 := b.removePiece Z b.mColorToMove .PAWN ourPawnSquare
  let b2 := b1.placePiece Z b1.mColorToMove .PAWN b1.mEnPassantSquare
  let capturedPawnSquare :=
    if b2.mColorToMove = .WHITE then subSq b2.mEnPassantSquare 8 else addSq b2.mEnPassantSquare 8
  b2.removePiece Z enemyColor .PAWN capturedPawnSquare

/-- One turn of the en-passant loop of `legalMoves` (lines 655-677): the capture is made on the
board, tested with `inCheck`, and undone. The state is the board and the moves so far. -/
def enPassantStep (Z : Zobrist) (st : Board × List Move) (ourPawnSquare : Nat) :
    Board × List Move :=
  let b := st.1
  -- Make the en passant move
  let b3 := b.enPassantMade Z ourPawnSquare
  let moves :=
    if !b3.inCheck then st.2 ++ [⟨ourPawnSquare, b3.mEnPassantSquare, Move.EN_PASSANT_FLAG⟩]
    else st.2
  -- Undo the en passant move
  ({ b3 with white := b.white, black := b.black, pawns := b.pawns,
             mZobristHash := b.mZobristHash }, moves)

/-- The local `pawnHasntMoved` of the pawn loop of `legalMoves` (lines 685-694). -/
def pawnHasntMoved (b : Board) (sq : Nat) : Bool :=
  if squareRank sq = 1 then decide (b.mColorToMove = .WHITE)
  else if squareRank sq = 6 then decide (b.mColorToMove = .BLACK) else false

/-- The local `willPromote` of the pawn loop of `legalMoves` (lines 685-694). -/
def willPromote (b : Board) (sq : Nat) : Bool :=
  if squareRank sq = 1 then decide (b.mColorToMove = .BLACK)
  else if squareRank sq = 6 then decide (b.mColorToMove = .WHITE) else false

/-- The local `pawnAttacks` of the pawn loop of `legalMoves` (lines 698-701): the squares the
pawn on `sq` may capture on. -/
def pawnCaptureTargets (b : Board) (kingSquare movable pinnedNonDiagonal pinnedDiagonal sq : Nat) :
    Nat :=
  let pawnAttacks0 := pawnAttacks sq b.mColorToMove &&& b.them &&& movable
  if 1 <<< sq &&& (pinnedDiagonal ||| pinnedNonDiagonal) ≠ 0 then
    pawnAttacks0 &&& LINE_THROUGH kingSquare sq
  else pawnAttacks0

/-- The local `pinnedHorizontally` of the pawn loop of `legalMoves` (lines 716-717). -/
def pinnedHorizontally (kingSquare pinnedNonDiagonal sq : Nat) : Bool :=
  decide (1 <<< sq &&& pinnedNonDiagonal > 0
    ∧ LINE_THROUGH sq kingSquare &&& ((LINE_THROUGH sq kingSquare <<< 1) % 2 ^ 64) > 0)

/-- The local `squareOneUp` of the pawn loop of `legalMoves`. -/
def squareOneUp (b : Board) (sq : Nat) : Nat :=
  if b.mColorToMove = .WHITE then addSq sq 8 else subSq sq 8

/-- The local `squareTwoUp` of the pawn loop of `legalMoves`. -/
def squareTwoUp (b : Board) (sq : Nat) : Nat :=
  if b.mColorToMove = .WHITE then addSq sq 16 else subSq sq 16

/-- Moves of the pawn on `sq` in `legalMoves` (lines 683-740): captures, then pushes. -/
def pawnMoves (b : Board) (kingSquare movable pinnedNonDiagonal pinnedDiagonal : Nat)
    (underpromotions : Bool) (sq : Nat) : List Move :=
  -- Generate this pawn's captures
  let captures :=
    (bits (pawnCaptureTargets b kingSquare movable pinnedNonDiagonal pinnedDiagonal sq)).flatMap
      (fun targetSquare =>
        if b.willPromote sq then addPromotions sq targetSquare underpromotions
        else [⟨sq, targetSquare, Move.PAWN_FLAG⟩])
  -- Generate this pawn's pushes
  let twoUp : List Move :=
    if !b.pawnHasntMoved sq then []
    else if movable &&& 1 <<< b.squareTwoUp sq ≠ 0 ∧ !b.isOccupied (b.squareTwoUp sq) then
      [⟨sq, b.squareTwoUp sq, Move.PAWN_TWO_UP_FLAG⟩]
    else []
  let pushes : List Move :=
    if 1 <<< sq &&& pinnedDiagonal ≠ 0 then []
    else if pinnedHorizontally kingSquare pinnedNonDiagonal sq then []
    else if b.isOccupied (b.squareOneUp sq) then []
    else if movable &&& 1 <<< b.squareOneUp sq ≠ 0 then
      if b.willPromote sq then addPromotions sq (b.squareOneUp sq) underpromotions
      else ⟨sq, b.squareOneUp sq, Move.PAWN_FLAG⟩ :: twoUp
    else twoUp
  captures ++ pushes

/-- Moves of the knight on `sq` in `legalMoves` (lines 744-750). -/
def knightMoves (b : Board) (movable sq : Nat) : List Move :=
  (bits (knightAttacks sq &&& not64 b.us &&& movable)).map
    (fun targetSquare => ⟨sq, targetSquare, Move.KNIGHT_FLAG⟩)

/-- Moves of the bishop on `sq` in `legalMoves` (lines 754-763). -/
def bishopMoves (b : Board) (kingSquare occ movable pinnedDiagonal sq : Nat) : List Move :=
  let bishopMoves0 := bishopAttacks sq occ &&& not64 b.us &&& movable
  let bishopMoves1 :=
    if 1 <<< sq &&& pinnedDiagonal ≠ 0 then bishopMoves0 &&& LINE_THROUGH kingSquare sq
    else bishopMoves0
  (bits bishopMoves1).map (fun targetSquare => ⟨sq, targetSquare, Move.BISHOP_FLAG⟩)

/-- Moves of the rook on `sq` in `legalMoves` (lines 767-776). -/
def rookMoves (b : Board) (kingSquare occ movable pinnedNonDiagonal sq : Nat) : List Move :=
  let rookMoves0 := rookAttacks sq occ &&& not64 b.us &&& movable
  let rookMoves1 :=
    if 1 <<< sq &&& pinnedNonDiagonal ≠ 0 then rookMoves0 &&& LINE_THROUGH kingSquare sq
    else rookMoves0
  (bits rookMoves1).map (fun targetSquare => ⟨sq, targetSquare, Move.ROOK_FLAG⟩)

/-- Moves of the queen on `sq` in `legalMoves` (lines 780-789). -/
def queenMoves (b : Board) (kingSquare occ movable pinnedNonDiagonal pinnedDiagonal sq : Nat) :
    List Move :=
  let queenMoves0 := queenAttacks sq occ &&& not64 b.us &&& movable
  let queenMoves1 :=
    if 1 <<< sq &&& (pinnedDiagonal ||| pinnedNonDiagonal) ≠ 0 then
      queenMoves0 &&& LINE_THROUGH kingSquare sq
    else queenMoves0
  (bits queenMoves1).map (fun targetSquare => ⟨sq, targetSquare, Move.QUEEN_FLAG⟩)

/-- The method `legalMoves(moves, underpromotions)`: the moves it leaves in `moves`, and the
board as it leaves it. The assert `numCheckers <= 2` is left out: the method is total here, and
the theorems that say that the search returns assume a root position on which it holds (see
`Sane`). -/
def legalMovesAux (Z : Zobrist) (b : Board) (underpromotions : Bool) : List Move × Board :=
  let enemyColor := oppColor b.mColorToMove
  let occ := b.occupancy
  let kingSquare := lsb (b.us &&& b.kings)
  let theirAttacks := b.attacks enemyColor (occ ^^^ 1 <<< kingSquare)
  let moves0 := kingMoves b kingSquare theirAttacks
  let checkers := b.checkers
  let numCheckers := popcount checkers
  -- If in double check, only king moves are allowed
  if numCheckers > 1 then (moves0, b)
  else
    let movable := movableBb b kingSquare checkers
    let moves1 := moves0 ++ castlingMoves b kingSquare occ theirAttacks numCheckers
    -- Other pieces moves (not king)
    let pinnedNonDiagonal := b.pinned.1
    let pinnedDiagonal := b.pinned.2
    let ourPawns := b.us &&& b.pawns
    let ourKnights := (b.us &&& b.knights) &&& not64 pinnedDiagonal &&& not64 pinnedNonDiagonal
    let ourBishops := (b.us &&& b.bishops) &&& not64 pinnedNonDiagonal
    let ourRooks := (b.us &&& b.rooks) &&& not64 pinnedDiagonal
    let ourQueens := b.us &&& b.queens
    -- En passant
    let st : Board × List Move :=
      if b.mEnPassantSquare ≠ SQUARE_NONE then
        (bits (ourPawns &&& pawnAttacks b.mEnPassantSquare enemyColor)).foldl
          (enPassantStep Z) (b, moves1)
      else (b, moves1)
    let b' := st.1
    let moves2 := st.2
    let moves3 := moves2 ++ (bits ourPawns).flatMap
      (pawnMoves b' kingSquare movable pinnedNonDiagonal pinnedDiagonal underpromotions)
    let moves4 := moves3 ++ (bits ourKnights).flatMap (knightMoves b' movable)
    let moves5 := moves4 ++ (bits ourBishops).flatMap
      (bishopMoves b' kingSquare occ movable pinnedDiagonal)
    let moves6 := moves5 ++ (bits ourRooks).flatMap
      (rookMoves b' kingSquare occ movable pinnedNonDiagonal)
    let moves7 := moves6 ++ (bits ourQueens).flatMap
      (queenMoves b' kingSquare occ movable pinnedNonDiagonal pinnedDiagonal)
    (moves7, b')

/-- The move list that `legalMoves(moves, underpromotions)` produces. -/
def legalMoves (Z : Zobrist) (b : Board) (underpromotions : Bool) : List Move :=
  (legalMovesAux Z b underpromotions).1

/-! ### Names for the parts of `legalMoves` -/

/-- The local `kingSquare` of `legalMoves`. -/
def kingSquare (b : Board) : Nat := lsb (b.us &&& b.kings)

/-- The local `theirAttacks` of `legalMoves`: the squares the opponent attacks once the king
of the side to move is taken off the board. -/
def theirAttacks (b : Board) : Nat :=
  b.attacks (oppColor b.mColorToMove) (b.occupancy ^^^ 1 <<< b.kingSquare)

/-- The local `movableBb` of `legalMoves`. -/
def movable (b : Board) : Nat := movableBb b b.kingSquare b.checkers

/-- The moves the en-passant loop of `legalMoves` pushes. -/
def enPassantMoves (Z : Zobrist) (b : Board) : List Move :=
  if b.mEnPassantSquare ≠ SQUARE_NONE then
    ((bits ((b.us &&& b.pawns) &&& pawnAttacks b.mEnPassantSquare (oppColor b.mColorToMove))).filter
      (fun ourPawnSquare => !(b.enPassantMade Z ourPawnSquare).inCheck)).map
      (fun ourPawnSquare => ⟨ourPawnSquare, b.mEnPassantSquare, Move.EN_PASSANT_FLAG⟩)
  else []

/-- The moves the pawn loop of `legalMoves` pushes. -/
def allPawnMoves (b : Board) (underpromotions : Bool) : List Move :=
  (bits (b.us &&& b.pawns)).flatMap
    (pawnMoves b b.kingSquare b.movable b.pinned.1 b.pinned.2 underpromotions)

/-- The moves the knight loop of `legalMoves` pushes. -/
def allKnightMoves (b : Board) : List Move :=
  (bits ((b.us &&& b.knights) &&& not64 b.pinned.2 &&& not64 b.pinned.1)).flatMap
    (knightMoves b b.movable)

/-- The moves the bishop loop of `legalMoves` pushes. -/
def allBishopMoves (b : Board) : List Move :=
  (bits ((b.us &&& b.bishops) &&& not64 b.pinned.1)).flatMap
    (bishopMoves b b.kingSquare b.occupancy b.movable b.pinned.2)

/-- The moves the rook loop of `legalMoves` pushes. -/
def allRookMoves (b : Board) : List Move :=
  (bits ((b.us &&& b.rooks) &&& not64 b.pinned.2)).flatMap
    (rookMoves b b.kingSquare b.occupancy b.movable b.pinned.1)

/-- The moves the queen loop of `legalMoves` pushes. -/
def allQueenMoves (b : Board) : List Move :=
  (bits (b.us &&& b.queens)).flatMap
    (queenMoves b b.kingSquare b.occupancy b.movable b.pinned.1 b.pinned.2)

/-- The moves `legalMoves` pushes after the king moves when there is at most one checker. -/
def nonKingMoves (Z : Zobrist) (b : Board) (underpromotions : Bool) : List Move :=
  castlingMoves b b.kingSquare b.occupancy b.theirAttacks (popcount b.checkers)
    ++ b.enPassantMoves Z ++ b.allPawnMoves underpromotions ++ b.allKnightMoves
    ++ b.allBishopMoves ++ b.allRookMoves ++ b.allQueenMoves

end Board

/-! ## Valid positions -/

namespace Board

/-- The bitboard of the first and the eighth rank. -/
def BACK_RANKS : Nat := 0xFF000000000000FF

/-- The four corner squares `a1`, `h1`, `a8`, `h8`: the bits a castling-rights mask may use. -/
def CORNERS : Nat := 1 <<< 0 ||| 1 <<< 7 ||| 1 <<< 56 ||| 1 <<< 63

/-- The home square of the king of a colour: `e1` or `e8`. -/
def kingHome : Color → Nat
  | .WHITE => 4
  | .BLACK => 60

/-- The castling rights agree with the pieces: only corner bits are used, and a right that is
held means that the king and the rook of that side stand on their home squares. -/
def castlingConsistent (b : Board) : Bool :=
  decide (b.mCastlingRights &&& not64 CORNERS = 0)
  && [Color.WHITE, Color.BLACK].all (fun c => [CASTLE_SHORT, CASTLE_LONG].all (fun side =>
      decide (b.mCastlingRights &&& CASTLING_MASKS c side = 0)
      || (has (b.colorBb c &&& b.kings) (kingHome c)
          && decide (b.colorBb c &&& b.rooks &&& CASTLING_MASKS c side ≠ 0))))

/-- The en-passant square agrees with the pieces: it is `SQUARE_NONE`, or an empty square on
the sixth rank of the side to move with an enemy pawn right behind it. -/
def enPassantConsistent (b : Board) : Bool :=
  decide (b.mEnPassantSquare = SQUARE_NONE)
  || (decide (b.mEnPassantSquare < 64)
      && decide (squareRank b.mEnPassantSquare = if b.mColorToMove = .WHITE then 5 else 2)
      && !b.isOccupied b.mEnPassantSquare
      && has (b.them &&& b.pawns)
          (if b.mColorToMove = .WHITE then b.mEnPassantSquare - 8 else b.mEnPassantSquare + 8))

/-- The bitboards are consistent, as a test: they are 64-bit words, the two colour bitboards
are disjoint, the six piece-type bitboards are pairwise disjoint, the piece types and the
colours cover the same squares, and each side has exactly one king. -/
def isConsistent (b : Board) : Bool :=
  decide (b.white < 2 ^ 64) && decide (b.black < 2 ^ 64)
  && decide (b.white &&& b.black = 0)
  && decide (b.pawns &&& b.knights = 0) && decide (b.pawns &&& b.bishops = 0)
  && decide (b.pawns &&& b.rooks = 0) && decide (b.pawns &&& b.queens = 0)
  && decide (b.pawns &&& b.kings = 0) && decide (b.knights &&& b.bishops = 0)
  && decide (b.knights &&& b.rooks = 0) && decide (b.knights &&& b.queens = 0)
  && decide (b.knights &&& b.kings = 0) && decide (b.bishops &&& b.rooks = 0)
  && decide (b.bishops &&& b.queens = 0) && decide (b.bishops &&& b.kings = 0)
  && decide (b.rooks &&& b.queens = 0) && decide (b.rooks &&& b.kings = 0)
  && decide (b.queens &&& b.kings = 0)
  && decide (b.pawns ||| b.knights ||| b.bishops ||| b.rooks ||| b.queens ||| b.kings
      = b.white ||| b.black)
  && decide (popcount (b.white &&& b.kings) = 1) && decide (popcount (b.black &&& b.kings) = 1)

/-- A valid position, as a test: the bitboards are consistent, each side has exactly one king,
and the side not to move is not in check. Whether the castling rights and the en-passant square
agree with the pieces is asked separately, by `castlingConsistent` and `enPassantConsistent`. -/
def isValid (b : Board) : Bool :=
  b.isConsistent && !b.isSquareAttacked (lsb (b.them &&& b.kings)) b.mColorToMove

/-- A valid position. -/
def Valid (b : Board) : Prop := b.isValid = true

instance (b : Board) : Decidable b.Valid := by
  unfold Valid
  exact inferInstance

end Board

/-- Whether a piece of type `pt` and colour `c` standing on `s` attacks the square `sq` when the
occupied squares are `occ`. -/
def attacksFrom (pt : PieceType) (c : Color) (occ s sq : Nat) : Bool :=
  match pt with
  | .PAWN => has (pawnAttacks s c) sq
  | .KNIGHT => has (knightAttacks s) sq
  | .BISHOP => has (bishopAttacks s occ) sq
  | .ROOK => has (rookAttacks s occ) sq
  | .QUEEN => has (queenAttacks s occ) sq
  | .KING => has (kingAttacks s) sq
  | .NONE => false

/-! ## perft.hpp -/

/-- The function `perft(board, depth)`. -/
def perft (Z : Zobrist) (b : Board) : Nat → Nat
  | 0 => 1
  | 1 => (b.legalMoves Z true).length
  | depth + 1 => ((b.legalMoves Z true).map (fun move => perft Z (b.makeMove Z move) depth)).sum

namespace Board

/-- The facts a valid position consists of. -/
structure ValidFacts (b : Board) : Prop where
  white_lt : b.white < 2 ^ 64
  black_lt : b.black < 2 ^ 64
  colors : b.white &&& b.black = 0
  pieces : ∀ p q : PieceType, p ≠ q → b.pieceBb p &&& b.pieceBb q = 0
  union : b.pawns ||| b.knights ||| b.bishops ||| b.rooks ||| b.queens ||| b.kings
    = b.white ||| b.black
  whiteKing : popcount (b.white &&& b.kings) = 1
  blackKing : popcount (b.black &&& b.kings) = 1
  notInCheck : b.isSquareAttacked (lsb (b.them &&& b.kings)) b.mColorToMove = false

end Board

namespace Board

/-- The flag of a pawn move that is not a double push or an en-passant capture: a promotion
flag on the last rank (the queen's always, the other three when underpromotions are asked
for), the pawn flag elsewhere. -/
def pawnFlagOK (willPromote u : Bool) (flag : Nat) : Prop :=
  if willPromote = true then
    flag = Move.QUEEN_PROMOTION_FLAG
      ∨ (u = true ∧ (flag = Move.ROOK_PROMOTION_FLAG ∨ flag = Move.BISHOP_PROMOTION_FLAG
        ∨ flag = Move.KNIGHT_PROMOTION_FLAG))
  else flag = Move.PAWN_FLAG

end Board

/-! ## Lines of the board -/

/-- The four kinds of line a sliding piece moves along. -/
inductive LineKind
  | rank
  | file
  | diag
  | anti
  deriving DecidableEq, Repr

/-- Two squares lie on the same line of kind `L`. -/
def LineKind.same : LineKind → Nat → Nat → Prop
  | .rank, a, b => a / 8 = b / 8
  | .file, a, b => a % 8 = b % 8
  | .diag, a, b => a % 8 + b / 8 = b % 8 + a / 8
  | .anti, a, b => a % 8 + a / 8 = b % 8 + b / 8

/-- The position of a square along a line of kind `L`: the rank along a file, the file along a
rank or a diagonal. -/
def LineKind.pos : LineKind → Nat → Nat
  | .file, a => a / 8
  | _, a => a % 8

/-- A line of kind rank or file, as a rook moves; the other two are the bishop's. -/
def LineKind.straight : LineKind → Bool
  | .rank => true
  | .file => true
  | _ => false

namespace Board

/-- A piece of colour `c` that attacks `sq`: its square `s` and type `p`. -/
def IsAttacker (b : Board) (occ sq : Nat) (c : Color) (s : Nat) (p : PieceType) : Prop :=
  has (b.colorBb c) s = true ∧ has (b.pieceBb p) s = true ∧ attacksFrom p c occ s sq = true

end Board

/-- Square `f` is occupied and is the only occupied square strictly between `a` and `s`. -/
def SoleBlocker (occ a f s : Nat) : Prop :=
  f < 64 ∧ isBetween a f s = true ∧ has occ f = true
    ∧ ∀ u, u < 64 → isBetween a u s = true → has occ u = true → u = f

namespace Board

/-- The piece of the side to move on `f` is pinned to its king by the enemy slider on `s`:
along a rank or file by a rook or queen when `σ` is `true`, along a diagonal by a bishop or
queen when it is `false`; `f` is the only occupied square between the king and `s`. -/
def PinnedBy (b : Board) (σ : Bool) (f s : Nat) : Prop :=
  has b.us f = true ∧ has b.them s = true
    ∧ ((if σ = true then has b.rooks s else has b.bishops s) = true ∨ has b.queens s = true)
    ∧ (∃ L : LineKind, L.straight = σ ∧ L.same b.kingSquare s)
    ∧ SoleBlocker b.occupancy b.kingSquare f s

end Board

namespace Board

/-- The fields that `placePiece` and `removePiece` leave alone. -/
def sameState (b b' : Board) : Prop :=
  b'.mColorToMove = b.mColorToMove ∧ b'.mCastlingRights = b.mCastlingRights
    ∧ b'.mEnPassantSquare = b.mEnPassantSquare
    ∧ b'.mPliesSincePawnOrCapture = b.mPliesSincePawnOrCapture
    ∧ b'.mCurrentMoveCounter = b.mCurrentMoveCounter ∧ b'.mZobristHashes = b.mZobristHashes
    ∧ b'.mLastMove = b.mLastMove

end Board

namespace Board

/-- A move that is neither castling nor an en-passant capture, as `legalMoves` makes them: a
piece of the side to move goes to a square its own side does not hold, along its attack set or,
for a pawn, also straight on to an empty square; a promotion is a pawn's, to a piece that is
neither king nor pawn. -/
def NormalMove (b : Board) (m : Move) : Prop :=
  m.flag ≠ Move.CASTLING_FLAG ∧ m.flag ≠ Move.EN_PASSANT_FLAG ∧ m.pieceType ≠ .NONE
    ∧ m.fromSq < 64 ∧ m.toSq < 64 ∧ has b.us m.fromSq = true
    ∧ has (b.pieceBb m.pieceType) m.fromSq = true ∧ has b.us m.toSq = false
    ∧ (m.promotion ≠ .NONE →
        m.pieceType = .PAWN ∧ m.promotion ≠ .KING ∧ m.promotion ≠ .PAWN)
    ∧ (attacksFrom m.pieceType b.mColorToMove b.occupancy m.fromSq m.toSq = true
        ∨ (m.pieceType = .PAWN ∧ has b.occupancy m.toSq = false))

/-- An en-passant capture, as `legalMoves` makes them: a pawn of the side to move that attacks
the en-passant square goes there. -/
def EnPassantMove (b : Board) (m : Move) : Prop :=
  m.flag = Move.EN_PASSANT_FLAG ∧ m.fromSq < 64 ∧ has b.us m.fromSq = true
    ∧ has b.pawns m.fromSq = true ∧ m.toSq = b.mEnPassantSquare
    ∧ b.mEnPassantSquare ≠ SQUARE_NONE
    ∧ has (pawnAttacks m.fromSq b.mColorToMove) m.toSq = true

/-- A castling move with the rook that goes with it, from `rookFrom` to `rookTo`, when the
right agrees with the pieces: king and rook stand on their home squares and the squares they
go to are empty. -/
def CastlingMove (b : Board) (m : Move) (rookFrom rookTo : Nat) : Prop :=
  m.flag = Move.CASTLING_FLAG ∧ m.fromSq = b.kingSquare
    ∧ rookFrom = (CASTLING_ROOK_FROM_TO m.toSq).1 ∧ rookTo = (CASTLING_ROOK_FROM_TO m.toSq).2
    ∧ has b.us rookFrom = true ∧ has b.rooks rookFrom = true
    ∧ has b.occupancy m.toSq = false ∧ has b.occupancy rookTo = false
    ∧ m.toSq ≠ rookTo ∧ m.toSq < 64 ∧ rookTo < 64
    ∧ (rookFrom = 0 ∨ rookFrom = 7 ∨ rookFrom = 56 ∨ rookFrom = 63)
    ∧ m.fromSq = kingHome b.mColorToMove
    ∧ (m.toSq = m.fromSq + 2 ∨ m.toSq + 2 = m.fromSq)

end Board

/-! ## Example data -/

/-- A table of Zobrist keys to run examples with. The engine draws its keys from a Mersenne
twister; any table will do here. -/
def Zobrist.sample : Zobrist :=
  ⟨12345,
   fun c pt sq => (match c with | .WHITE => 1 | .BLACK => 2) * 1000003 + pt.toNat * 10007
     + sq * 97 + 5,
   fun f => 77 + f⟩

/-- The board `Board(START_FEN)` of the tests, built with the sample keys. The empty board
stands in should the constructor fail, which it does not. -/
def Board.startBoard : Board := (Board.ofFen Zobrist.sample START_FEN).getD Board.empty

/-- The board `Board(fen)`, built with the sample keys. The empty board stands in where the
constructor fails. -/
def Board.sampleBoard (fen : String) : Board :=
  (Board.ofFen Zobrist.sample fen.toList).getD Board.empty

namespace Board

/-! ## Draw detection (board.hpp, lines 309-330) -/

/-- The query `insufficientMaterial()`. -/
def insufficientMaterial (b : Board) : Bool :=
  let numPieces := popcount b.occupancy
  if numPieces = 2 then true
  -- KB vs K
  -- KN vs K
  else decide (numPieces = 3) && (decide (b.knights > 0) || decide (b.bishops > 0))

/-- The loop of `isRepetition()` (lines 325-327): `i` runs down from its start in steps of two
while it is at least `idxAfterPawnOrCapture`. The C++ index is an `int`; where `i -= 2` would
take it below zero the loop ends, as zero is not below the bound. `fuel` bounds the number of
turns. -/
def isRepetitionLoop (b : Board) (idxAfterPawnOrCapture : Nat) : Nat → Nat → Bool
  | 0, _ => false
  | fuel + 1, i =>
    if i < idxAfterPawnOrCapture then false
    else if b.mZobristHash = b.mZobristHashes.getD i 0 then true
    else if i < 2 then false
    else isRepetitionLoop b idxAfterPawnOrCapture fuel (i - 2)

/-- The query `isRepetition()`. The loop gets as many turns as the history has entries, which
is more than it can use. -/
def isRepetition (b : Board) : Bool :=
  if b.mZobristHashes.length < 4 ∨ b.mPliesSincePawnOrCapture < 4 then false
  else
    -- `std::max(0, size - plies)`
    let idxAfterPawnOrCapture := b.mZobristHashes.length - b.mPliesSincePawnOrCapture
    isRepetitionLoop b idxAfterPawnOrCapture b.mZobristHashes.length
      (b.mZobristHashes.length - 2)

end Board

/-! ## The search (`search.hpp`)

The tree of `Node`s is a value: a node holds its children. The pointer `mParent` is not stored.
`expand` builds every child with `this` as its parent, so the parent of the child with index `i`
of a node is that node, and a `Node*` is modelled by the path that leads to the node from the
root: the list of child indices to follow. The arithmetic on `double` is modelled over an
ordered field `V` of exact values, but for a division by a zero `EVAL_SCALE`, which follows
the IEEE rules; a value stored in the `float` member `mResultsSum` is rounded by the function
`toFloat` of the environment. An `assert` of `search.hpp` that fails, and an index outside a
vector, make the function return `none`. -/

/-- The enumeration `GameState` of `types.hpp`. -/
inductive GameState
  | WON
  | LOST
  | DRAW
  | ONGOING
  deriving DecidableEq, Repr

/-- The numeric value of a state, as in `(double)mGameState`. -/
def GameState.toInt : GameState → Int
  | .WON => 1
  | .LOST => -1
  | .DRAW => 0
  | .ONGOING => 2

/-- Modelled from the spec: what the search takes from the missing `utils.hpp` and from the
standard library, as functions given from outside. The global random generator is a number,
its state: `resetRng` is the state after a reset, `randomU64` and `shuffleVector` map a state
to their result and the next state, and the shuffle permutes its argument. `sqrt`, `ln`, `exp`
and `round` are the functions of `<cmath>` over the exact values `V`, of which only the sign of
`exp` is known. `toFloat` is the conversion of a `double` to `float`, rounding to nearest with
ties to even: it is monotone, it keeps the integers up to `2^24` in absolute value, and it takes
`2^24 + 1` to `2^24`. `millisecondsElapsed n` is the clock reading that the loop obtains after
`n` iterations. `UCT_C` and `EVAL_SCALE` are the current values of the tunable parameters of
`search_params.hpp`, which `setoption` sets to any multiple of `0.01`, zero included. -/
structure SearchEnv (V : Type) [LinearOrderedField V] where
  Z : Zobrist
  UCT_C : V
  EVAL_SCALE : V
  resetRng : Nat
  randomU64 : Nat → Nat × Nat
  shuffleVector : Nat → List Move → List Move × Nat
  shuffle_perm : ∀ s ms, List.Perm (shuffleVector s ms).1 ms
  sqrt : V → V
  ln : V → V
  exp : V → V
  exp_nonneg : ∀ x, 0 ≤ exp x
  toFloat : V → V
  toFloat_mono : ∀ x y, x ≤ y → toFloat x ≤ toFloat y
  toFloat_int : ∀ k : Int, |k| ≤ 2 ^ 24 → toFloat (k : V) = (k : V)
  toFloat_above : toFloat (2 ^ 24 + 1) = 2 ^ 24
  toFloat_below : toFloat (-(2 ^ 24 + 1)) = -2 ^ 24
  round : V → Int
  millisecondsElapsed : Nat → Nat

/-- The struct `Node`, without `mParent`. `mVisits` is a `u32` and `mDepth` a `u16`. -/
structure Node (V : Type) where
  mChildren : List (Node V)
  mMoves : List Move
  mGameState : GameState
  mVisits : Nat
  mResultsSum : V
  mDepth : Nat

namespace Node

variable {V : Type} [LinearOrderedField V]

/-- The constructor `Node(board, parent, depth)`; `isRoot` says whether `parent` is null. It
returns the node, the board as `legalMoves` leaves it, and the state of the random generator
after the shuffle. -/
def new (env : SearchEnv V) (board : Board) (isRoot : Bool) (depth : Nat) (rng : Nat) :
    Option (Node V × Board × Nat) :=
  if isRoot then
    let r := board.legalMovesAux env.Z false
    if r.1.length > 0 then
      let sh := env.shuffleVector rng r.1
      some (⟨[], sh.1, .ONGOING, 0, 0, depth⟩, r.2, sh.2)
    else none
  else if board.insufficientMaterial || board.isRepetition then
    let sh := env.shuffleVector rng []
    some (⟨[], sh.1, .DRAW, 0, 0, depth⟩, board, sh.2)
  else
    let r := board.legalMovesAux env.Z false
    let state :=
      if r.1.length = 0 then (if r.2.inCheck then GameState.LOST else GameState.DRAW)
      else if r.2.fiftyMovesDraw then GameState.DRAW
      else GameState.ONGOING
    let sh := env.shuffleVector rng r.1
    some (⟨[], sh.1, state, 0, 0, depth⟩, r.2, sh.2)

/-- The node that a path leads to: the node itself for the empty path, and otherwise the node
that the rest of the path leads to from the child with the first index. -/
def get? : Node V → List Nat → Option (Node V)
  | n, [] => some n
  | n, i :: p =>
    match n.mChildren.get? i with
    | none => none
    | some c => c.get? p

/-- The tree in which the node that a path leads to is replaced: what a write through a
`Node*` does to the tree. -/
def set? : Node V → List Nat → Node V → Option (Node V)
  | _, [], new => some new
  | n, i :: p, new =>
    match n.mChildren.get? i with
    | none => none
    | some c =>
      match c.set? p new with
      | none => none
      | some c1 => some { n with mChildren := n.mChildren.set i c1 }

/-- The method `UCT()` of a node whose parent has `parentVisits` visits. -/
def UCT (env : SearchEnv V) (n : Node V) (parentVisits : Nat) : Option V :=
  if n.mVisits > 0 ∧ parentVisits > 0 then
    some (n.mResultsSum / (n.mVisits : V)
      + env.UCT_C * env.sqrt (env.ln (parentVisits : V) / (n.mVisits : V)))
  else none

/-- The loop of `select` over the children from index `i` on: the index of the best child. -/
def selectLoop (env : SearchEnv V) (parentVisits : Nat) :
    List (Node V) → Nat → V → Nat → Option Nat
  | [], _, _, bestChildIdx => some bestChildIdx
  | c :: cs, i, bestUct, bestChildIdx =>
    match c.UCT env parentVisits with
    | none => none
    | some childUct =>
      if childUct > bestUct then selectLoop env parentVisits cs (i + 1) childUct i
      else selectLoop env parentVisits cs (i + 1) bestUct bestChildIdx

/-- The index `bestChildIdx` that `select` computes for a node that it descends from. -/
def bestChildIdx (env : SearchEnv V) (n : Node V) : Option Nat :=
  if n.mMoves.length > 0 ∧ n.mChildren.length > 0 then
    match n.mChildren with
    | [] => none
    | c0 :: cs =>
      match c0.UCT env n.mVisits with
      | none => none
      | some bestUct => selectLoop env n.mVisits cs 1 bestUct 0
  else none

mutual
/-- The method `select(board)`: the path from this node to the node returned, and the board as
`select` leaves it. -/
def select (env : SearchEnv V) : Node V → Board → Option (List Nat × Board)
  | ⟨cs, ms, st, v, rs, d⟩, board =>
    if st ≠ .ONGOING ∨ cs.length ≠ ms.length then some ([], board)
    else
      match bestChildIdx env ⟨cs, ms, st, v, rs, d⟩ with
      | none => none
      | some best =>
        match ms.get? best with
        | none => none
        | some move =>
          match selectChild env cs best (board.makeMove env.Z move) with
          | none => none
          | some r => some (best :: r.1, r.2)
/-- The call `mChildren[i].select(board)`. -/
def selectChild (env : SearchEnv V) : List (Node V) → Nat → Board → Option (List Nat × Board)
  | [], _, _ => none
  | c :: _, 0, board => select env c board
  | _ :: cs, i + 1, board => selectChild env cs i board
end

/-- The method `expand(board)`: the node with its new child, the board after the move, and the
state of the random generator. The node returned by `expand` is the last child. -/
def expand (env : SearchEnv V) (n : Node V) (board : Board) (rng : Nat) :
    Option (Node V × Board × Nat) :=
  if n.mGameState = .ONGOING ∧ n.mMoves.length > 0 ∧ n.mChildren.length < n.mMoves.length then
    match n.mMoves.get? n.mChildren.length with
    | none => none
    | some move =>
      match new env (board.makeMove env.Z move) false ((n.mDepth + 1) % 65536) rng with
      | none => none
      | some (child, board1, rng1) =>
        some ({ n with mChildren := n.mChildren ++ [child] }, board1, rng1)
  else none

/-- The table `PIECE_VALUES` of `simulate`, with the piece type that indexes it. -/
def PIECE_VALUES : List (PieceType × Int) :=
  [(.PAWN, 100), (.KNIGHT, 300), (.BISHOP, 315), (.ROOK, 500), (.QUEEN, 900)]

/-- The loop of `simulate`: the material difference added to `eval`. -/
def simulateEval (board : Board) (eval : Int) : Int :=
  PIECE_VALUES.foldl
    (fun eval pv =>
      let pieceBb := board.pieceBb pv.1
      let numPiecesDiff : Int :=
        (popcount (board.us &&& pieceBb) : Int) - (popcount (board.them &&& pieceBb) : Int)
      eval + pv.2 * numPiecesDiff)
    eval

/-- The method `simulate(board)`: the value, and the state of the random generator. When
`EVAL_SCALE` is zero the quotient `-eval / EVAL_SCALE` is not a number for `eval = 0`, and so
is the value, which fails the assert on its range; for `eval > 0` the quotient is minus
infinity, `exp` of it 0 and the value 1, and for `eval < 0` the quotient is infinity and the
value -1. -/
def simulate (env : SearchEnv V) (n : Node V) (board : Board) (rng : Nat) : Option (V × Nat) :=
  if n.mGameState ≠ .ONGOING then some ((n.mGameState.toInt : V), rng)
  else
    let r := env.randomU64 rng
    let eval := simulateEval board (((r.1 % 7 : Nat) : Int) - 3)
    if env.EVAL_SCALE = 0 then
      if eval = 0 then none
      else if eval > 0 then some (1, r.2)
      else some (-1, r.2)
    else
      let wdl : V := 1 / (1 + env.exp (((-eval : Int) : V) / env.EVAL_SCALE))
      let wdl := wdl * 2
      let wdl := wdl - 1
      if wdl ≥ -1 ∧ wdl ≤ 1 then some (wdl, r.2) else none

/-- One round of the loop of `backprop` at the node `current`, with `wdl` already negated:
`current->mVisits++; current->mResultsSum += wdl`. The sum is formed in `double` and stored
in the `float` member. -/
def visit (env : SearchEnv V) (current : Node V) (wdl : V) : Node V :=
  { current with mVisits := (current.mVisits + 1) % 2 ^ 32,
                 mResultsSum := env.toFloat (current.mResultsSum + wdl) }

/-- The loop of `backprop`, started at the node that the path leads to: the rounds run from
that node up to the node at the start of the path, each with the value of the round before
negated. The result is the tree after the loop, and the value of the last round. -/
def backpropLoop (env : SearchEnv V) : Node V → List Nat → V → Option (Node V × V)
  | n, [], wdl => some (n.visit env (-wdl), -wdl)
  | n, i :: p, wdl =>
    match n.mChildren.get? i with
    | none => none
    | some c =>
      match backpropLoop env c p wdl with
      | none => none
      | some r => some (visit env { n with mChildren := n.mChildren.set i r.1 } (-r.2), -r.2)

/-- The method `backprop(wdl)` called on the node that `path` leads to from `root`: the tree
after it. -/
def backprop (env : SearchEnv V) (root : Node V) (path : List Nat) (wdl : V) :
    Option (Node V) :=
  if path ≠ [] ∧ wdl ≥ -1 ∧ wdl ≤ 1 then (backpropLoop env root path wdl).map Prod.fst
  else none

/-- The method `scoreCp()`. -/
def scoreCp (env : SearchEnv V) (n : Node V) : Option Int :=
  if n.mVisits > 0 then
    let wdl := n.mResultsSum / (n.mVisits : V)
    if wdl ≥ -1 ∧ wdl ≤ 1 then
      let wdl := (wdl + 1) / 2
      if wdl ≥ 99 / 100 then some 30000
      else if wdl ≤ 1 / 100 then some (-30000)
      else
        let cpScore := -env.EVAL_SCALE * env.ln ((1 - wdl) / wdl)
        some (max (-30000) (min (env.round cpScore) 30000))
    else none
  else none

/-- The loop of `mostVisitsMove` over the children from index `i` on. -/
def mostVisitsLoop (moves : List Move) : List (Node V) → Nat → Nat → Move → Option Move
  | [], _, _, bestMove => some bestMove
  | c :: cs, i, mostVisits, bestMove =>
    if c.mVisits > mostVisits then
      match moves.get? i with
      | none => none
      | some move => mostVisitsLoop moves cs (i + 1) c.mVisits move
    else mostVisitsLoop moves cs (i + 1) mostVisits bestMove

/-- The method `mostVisitsMove()`. -/
def mostVisitsMove (n : Node V) : Option Move :=
  if n.mMoves.length > 0 ∧ n.mChildren.length > 0 then
    match n.mChildren, n.mMoves with
    | c0 :: cs, move0 :: _ => mostVisitsLoop n.mMoves cs 1 c0.mVisits move0
    | _, _ => none
  else none

end Node

namespace Board

/-- The operator `<<=`, the fast copy `this = other`: `this` after it. -/
def fastCopy (this other : Board) : Option Board :=
  if this.mZobristHashes.length ≥ other.mZobristHashes.length then
    let hashes := this.mZobristHashes.take other.mZobristHashes.length
    if hashes = other.mZobristHashes then some { other with mZobristHashes := hashes }
    else none
  else none

end Board

/-- The variables of `search` that its loop body reads and writes, and the state of the random
generator. -/
structure SearchState (V : Type) where
  root : Node V
  board : Board
  nodes : Nat
  depthSum : Nat
  rng : Nat

section Search

variable {V : Type} [LinearOrderedField V]

/-- The start of `search`, up to its loop: the generator is reset, the working board is a copy
of the root board, and the root node is built on it. -/
def searchInit (env : SearchEnv V) (rootBoard : Board) : Option (SearchState V) :=
  match Node.new env rootBoard true 0 env.resetRng with
  | none => none
  | some (root, board, rng) => some ⟨root, board, 0, 0, rng⟩

/-- The average depth `depthSum / nodes` rounded to the nearest integer, halves away from
zero: `round(depthAvg)`. -/
def depthAvgRounded (depthSum nodes : Nat) : Int :=
  (((2 * depthSum + nodes) / (2 * nodes) : Nat) : Int)

/-- The asserts behind a call of `printInfo` in `search`: `root.scoreCp()` and
`root.mostVisitsMove()` are evaluated for it. What is printed is not modelled. -/
def printInfo (env : SearchEnv V) (root : Node V) : Option Unit :=
  match root.scoreCp env, root.mostVisitsMove with
  | some _, some _ => some ()
  | _, _ => none

/-- The body of the loop of `search` up to the test of the depth: select, expand if the
node is `ONGOING`, simulate, backprop, count the node, reset the working board, add the depth. -/
def searchIteration (env : SearchEnv V) (rootBoard : Board) (s : SearchState V) :
    Option (SearchState V) :=
  match s.root.select env s.board with
  | none => none
  | some (path, board) =>
    match s.root.get? path with
    | none => none
    | some node =>
      let expanded : Option (Node V × List Nat × Board × Nat) :=
        if node.mGameState = .ONGOING then
          match node.expand env board s.rng with
          | none => none
          | some (node1, board1, rng1) =>
            match s.root.set? path node1 with
            | none => none
            | some root1 => some (root1, path ++ [node.mChildren.length], board1, rng1)
        else some (s.root, path, board, s.rng)
      match expanded with
      | none => none
      | some (root1, path1, board1, rng1) =>
        match root1.get? path1 with
        | none => none
        | some leaf =>
          match leaf.simulate env board1 rng1 with
          | none => none
          | some (wdl, rng2) =>
            match root1.backprop env path1 wdl with
            | none => none
            | some root2 =>
              match board1.fastCopy rootBoard with
              | none => none
              | some board2 =>
                some ⟨root2, board2, (s.nodes + 1) % 2 ^ 64,
                  (s.depthSum + leaf.mDepth) % 2 ^ 64, rng2⟩

/-- The states of the loop of `search`: the state after `n` iterations, or `none` when an
assert has failed by then. -/
def searchStates (env : SearchEnv V) (rootBoard : Board) : Nat → Option (SearchState V)
  | 0 => searchInit env rootBoard
  | n + 1 =>
    match searchStates env rootBoard n with
    | none => none
    | some s => searchIteration env rootBoard s

/-- The loop of `search`, a `do ... while`, run for at most `fuel` iterations: the state when
the loop is left, or `none` when an assert fails or the fuel runs out before that. -/
def searchLoop (env : SearchEnv V) (rootBoard : Board) (searchTimeMs maxDepth maxNodes : Nat)
    (boolPrintInfo : Bool) : Nat → Int → SearchState V → Option (SearchState V)
  | 0, _, _ => none
  | fuel + 1, lastPrintedDepth, s =>
    match searchIteration env rootBoard s with
    | none => none
    | some s1 =>
      if (s1.depthSum : V) / (s1.nodes : V) ≥ (maxDepth : V) then some s1
      else
        let rounded := depthAvgRounded s1.depthSum s1.nodes
        let printed : Option Int :=
          if boolPrintInfo ∧ rounded ≠ lastPrintedDepth then
            (printInfo env s1.root).map (fun _ => rounded)
          else some lastPrintedDepth
        match printed with
        | none => none
        | some lastPrintedDepth1 =>
          if s1.nodes < maxNodes
              ∧ (s1.nodes % 512 ≠ 0 ∨ env.millisecondsElapsed s1.nodes < searchTimeMs) then
            searchLoop env rootBoard searchTimeMs maxDepth maxNodes boolPrintInfo fuel
              lastPrintedDepth1 s1
          else some s1

/-- The function `search`, with its loop run for at most `fuel` iterations: the move and the
node count that it returns. -/
def search (env : SearchEnv V) (rootBoard : Board) (searchTimeMs maxDepth maxNodes : Nat)
    (boolPrintInfo : Bool) (fuel : Nat) : Option (Move × Nat) :=
  match searchInit env rootBoard with
  | none => none
  | some s0 =>
    match searchLoop env rootBoard searchTimeMs maxDepth maxNodes boolPrintInfo fuel 0 s0 with
    | none => none
    | some s =>
      let printed : Option Unit := if boolPrintInfo then printInfo env s.root else some ()
      match printed with
      | none => none
      | some _ =>
        match s.root.mostVisitsMove with
        | none => none
        | some move => some (move, s.nodes)

end Search

/-! ### The descent of `select` and the effect of an iteration, as relations -/

namespace Node

variable {V : Type} [LinearOrderedField V]

/-- The descent of `select`: `Selected env board n path leaf board1` says that `select`, called
on `n` with the working board `board`, goes down `path` through nodes that are `ONGOING` and
have all their children, each time into the child of the best index after the move of that
index, and stops at `leaf`, which is not `ONGOING` or lacks a child, with the working board
`board1`. -/
inductive Selected (env : SearchEnv V) : Board → Node V → List Nat → Node V → Board → Prop
  | stop (board : Board) (n : Node V)
      (h : n.mGameState ≠ .ONGOING ∨ n.mChildren.length ≠ n.mMoves.length) :
      Selected env board n [] n board
  | step (board : Board) (n : Node V) (i : Nat) (move : Move) (c : Node V) (p : List Nat)
      (leaf : Node V) (board1 : Board)
      (hstate : n.mGameState = .ONGOING) (hfull : n.mChildren.length = n.mMoves.length)
      (hbest : bestChildIdx env n = some i) (hmove : n.mMoves.get? i = some move)
      (hchild : n.mChildren.get? i = some c)
      (hrest : Selected env (board.makeMove env.Z move) c p leaf board1) :
      Selected env board n (i :: p) leaf board1

/-- What one iteration of the loop of `search` does to a node on the path that `select` takes:
`Iterated env board n n1 wdl` says that the iteration, arriving at `n` with the working board
`board`, leaves `n1` in its place, and that `wdl` is the value that `backprop` adds to the
result sum of `n`. -/
inductive Iterated (env : SearchEnv V) : Board → Node V → Node V → V → Prop
  | terminal (board : Board) (n : Node V) (rng rng1 : Nat) (wdl : V)
      (hstate : n.mGameState ≠ .ONGOING)
      (hsim : n.simulate env board rng = some (wdl, rng1)) :
      Iterated env board n (n.visit env (-wdl)) (-wdl)
  | expanded (board : Board) (n : Node V) (move : Move) (child : Node V) (board1 : Board)
      (rng rng1 rng2 : Nat) (wdl : V)
      (hstate : n.mGameState = .ONGOING) (hroom : n.mChildren.length < n.mMoves.length)
      (hmove : n.mMoves.get? n.mChildren.length = some move)
      (hnew : new env (board.makeMove env.Z move) false ((n.mDepth + 1) % 65536) rng
        = some (child, board1, rng1))
      (hsim : child.simulate env board1 rng1 = some (wdl, rng2)) :
      Iterated env board n
        (visit env { n with mChildren := n.mChildren ++ [child.visit env (-wdl)] } wdl) wdl
  | descended (board : Board) (n : Node V) (i : Nat) (move : Move) (c c1 : Node V) (wdl : V)
      (hstate : n.mGameState = .ONGOING) (hfull : n.mChildren.length = n.mMoves.length)
      (hbest : bestChildIdx env n = some i) (hmove : n.mMoves.get? i = some move)
      (hchild : n.mChildren.get? i = some c)
      (hrest : Iterated env (board.makeMove env.Z move) c c1 wdl) :
      Iterated env board n (visit env { n with mChildren := n.mChildren.set i c1 } (-wdl))
        (-wdl)

/-- Every node of the tree below `n`, `n` included, satisfies `P`. -/
def All (P : Node V → Prop) (n : Node V) : Prop :=
  ∀ p m, n.get? p = some m → P m

/-- What the loop of `search` keeps true of every node: it has no more children than moves, it
has a move when it is `ONGOING`, its result sum is bounded by its visit count and by `2^24`,
and each of its children has been visited at least once and at most as often as the node
itself. -/
def Local (n : Node V) : Prop :=
  n.mChildren.length ≤ n.mMoves.length
  ∧ (n.mGameState = .ONGOING → n.mMoves ≠ [])
  ∧ |n.mResultsSum| ≤ ((min n.mVisits (2 ^ 24) : Nat) : V)
  ∧ ∀ c ∈ n.mChildren, 1 ≤ c.mVisits ∧ c.mVisits ≤ n.mVisits

/-- The invariant of the tree: every node satisfies `Local`. -/
def Sound (n : Node V) : Prop := All Local n

/-- Every node of the tree below `n` is still there in the tree below `n1`, at the end of the
same path, and with the same state. -/
def SameStates (n n1 : Node V) : Prop :=
  ∀ p m, n.get? p = some m → ∃ m1, n1.get? p = some m1 ∧ m1.mGameState = m.mGameState

end Node

/-- A sample environment for the examples: the Zobrist keys of `Zobrist.sample`, a linear
congruential generator, a shuffle that reverses the list, and crude stand-ins for the functions
of `<cmath>` and for the rounding to `float` over the rationals. -/
def SearchEnv.sample : SearchEnv ℚ where
  Z := Zobrist.sample
  UCT_C := 3 / 2
  EVAL_SCALE := 200
  resetRng := 0
  randomU64 := fun s =>
    ((6364136223846793005 * s + 1442695040888963407) % 2 ^ 64,
     (6364136223846793005 * s + 1442695040888963407) % 2 ^ 64)
  shuffleVector := fun s ms => (ms.reverse, s + 1)
  shuffle_perm := fun _ ms => List.reverse_perm ms
  sqrt := fun x => if x ≤ 0 then 0 else (x + 1) / 2
  ln := fun x => if x ≤ 0 then 0 else x - 1
  exp := fun x => if x ≤ -1 then 0 else 1 + x + x * x / 2
  exp_nonneg := fun x => by
    show 0 ≤ (if x ≤ -1 then 0 else 1 + x + x * x / 2)
    split
    · exact le_refl 0
    · nlinarith [sq_nonneg (x + 1)]
  toFloat := fun x => max (-2 ^ 24) (min x (2 ^ 24))
  toFloat_mono := fun x y h => max_le_max (le_refl _) (min_le_min h (le_refl _))
  toFloat_int := fun k hk => by
    have h := abs_le.mp hk
    have h1 : ((k : Int) : ℚ) ≤ 2 ^ 24 := by exact_mod_cast h.2
    have h2 : (-2 ^ 24 : ℚ) ≤ ((k : Int) : ℚ) := by exact_mod_cast h.1
    show max (-2 ^ 24) (min ((k : Int) : ℚ) (2 ^ 24)) = ((k : Int) : ℚ)
    rw [min_eq_left h1, max_eq_right h2]
  toFloat_above := by norm_num
  toFloat_below := by norm_num
  round := fun x => ⌊x + 1 / 2⌋
  millisecondsElapsed := fun n => n

/-- The sample environment after `setoption name EVAL_SCALE value 0`. -/
def SearchEnv.zeroScale : SearchEnv ℚ := { SearchEnv.sample with EVAL_SCALE := 0 }

namespace Board

/-- The position of C5, in the words of the specification: the position obtained from `b` by
moving the pawn of the side to move from `p` to the en-passant square and removing the enemy
pawn on the square directly behind the en-passant square. It is compared with the board on
which `legalMoves` tests the capture and with the board that `makeMove` leaves. -/
def enPassantCaptured (b : Board) (p : Nat) : Board :=
  let e := b.mEnPassantSquare
  let behind := if b.mColorToMove = .WHITE then e - 8 else e + 8
  let us1 := (b.us &&& not64 (1 <<< p)) ||| 1 <<< e
  let them1 := b.them &&& not64 (1 <<< behind)
  { b with white := if b.mColorToMove = .WHITE then us1 else them1,
           black := if b.mColorToMove = .WHITE then them1 else us1,
           pawns := (b.pawns &&& not64 (1 <<< p) &&& not64 (1 <<< behind)) ||| 1 <<< e }

end Board

/-! ## Coordinate notation -/

/-- The index of a piece type, `(u16)pieceType`. -/
def PieceType.toIndex : PieceType → Nat
  | .PAWN => 0
  | .KNIGHT => 1
  | .BISHOP => 2
  | .ROOK => 3
  | .QUEEN => 4
  | .KING => 5
  | .NONE => 6

namespace Board

end Board
/-! ## Well-formed records

The words of the specification about the text of a position: six fields separated by single
blanks (the two counters may be missing), eight ranks of eight files in the first field. -/

/-- One of the twelve piece letters. -/
def isPieceLetter (c : Char) : Bool :=
  c = 'P' || c = 'N' || c = 'B' || c = 'R' || c = 'Q' || c = 'K'
  || c = 'p' || c = 'n' || c = 'b' || c = 'r' || c = 'q' || c = 'k'

/-- A well-formed piece-placement field, read from file `file` of rank `rank` on: piece letters
and digits `1` to `8` that fill every rank up to exactly eight files, the ranks separated by
`/`, ending with the first rank. -/
def wellFormedRows : List Char → Nat → Nat → Bool
  | [], rank, file => rank = 0 && file = 8
  | c :: cs, rank, file =>
    if c = '/' then file = 8 && 0 < rank && wellFormedRows cs (rank - 1) 0
    else if isdigit c then
      1 ≤ charToInt c && file + charToInt c ≤ 8 && wellFormedRows cs rank (file + charToInt c)
    else isPieceLetter c && file < 8 && wellFormedRows cs rank (file + 1)

/-- The empty squares are merged: no digit follows a digit. -/
def mergedDigits : List Char → Bool
  | c :: d :: cs => !(isdigit c && isdigit d) && mergedDigits (d :: cs)
  | _ => true

/-- A well-formed castling field: `-`, or letters among `KQkq`. -/
def wellFormedCastling (s : List Char) : Bool :=
  s = ['-'] || (s ≠ [] && s.all (fun c => c = 'K' || c = 'Q' || c = 'k' || c = 'q'))

/-- A castling field in canonical form: `-`, or some of the letters `KQkq` in this order. -/
def canonicalCastling (s : List Char) : Bool :=
  decide (s ∈ [['-'], ['K'], ['Q'], ['k'], ['q'], ['K', 'Q'], ['K', 'k'], ['K', 'q'],
    ['Q', 'k'], ['Q', 'q'], ['k', 'q'], ['K', 'Q', 'k'], ['K', 'Q', 'q'], ['K', 'k', 'q'],
    ['Q', 'k', 'q'], ['K', 'Q', 'k', 'q']])

/-- A well-formed en-passant field: `-`, or the name of a square, a file letter `a` to `h` and
a rank digit `1` to `8`. -/
def wellFormedEnPassant (s : List Char) : Bool :=
  s = ['-'] ||
  (match s with
   | [f, r] => 97 ≤ f.toNat && f.toNat ≤ 104 && 49 ≤ r.toNat && r.toNat ≤ 56
   | _ => false)

/-- A decimal number: digits, at least one. -/
def isNumber (s : List Char) : Bool := s ≠ [] && s.all isdigit

/-- A decimal number without leading zeros. -/
def canonicalNumber (s : List Char) : Bool :=
  isNumber s && (s = ['0'] || s.head? ≠ some '0')

/-- The value of a decimal number. -/
def numberValue (s : List Char) : Nat := (stoiAux s 0 false).1

/-- The fields of a record: the text cut at every blank. -/
def fenFields (s : List Char) : List (List Char) := splitAux ' ' s []

/-- Fields joined by single blanks. -/
def joinFields : List (List Char) → List Char
  | [] => []
  | [f] => f
  | f :: g :: fs => f ++ ' ' :: joinFields (g :: fs)

/-- A well-formed record: four to six fields separated by single blanks, each well formed, the
counters decimal numbers of at most nine digits. -/
def wellFormedFen (s : List Char) : Bool :=
  match fenFields s with
  | rows :: color :: castling :: enPassant :: counters =>
    wellFormedRows rows 7 0 && (color = ['w'] || color = ['b'])
    && wellFormedCastling castling && wellFormedEnPassant enPassant
    && counters.length ≤ 2 && counters.all (fun n => isNumber n && n.length ≤ 9)
  | _ => false

/-- A well-formed record in canonical form: the empty squares of a rank merged, the castling
letters in the order `KQkq`, the counters without leading zeros. -/
def canonicalFen (s : List Char) : Bool :=
  match fenFields s with
  | rows :: color :: castling :: enPassant :: counters =>
    wellFormedRows rows 7 0 && mergedDigits rows && (color = ['w'] || color = ['b'])
    && canonicalCastling castling && wellFormedEnPassant enPassant
    && counters.length ≤ 2 && counters.all canonicalNumber
  | _ => false

/-- The counters of a record fit the fields of the board: the halfmove clock is below `2^8` and
the fullmove counter below `2^16`. -/
def countersFit (s : List Char) : Bool :=
  match fenFields s with
  | _ :: _ :: _ :: _ :: counters =>
    (match counters with
     | [] => true
     | [plies] => numberValue plies < 2 ^ 8
     | plies :: counter :: _ => numberValue plies < 2 ^ 8 && numberValue counter < 2 ^ 16)
  | _ => true

namespace Board

/-- The two boards hold the same on square `sq`. -/
def SameAt (b1 b2 : Board) (sq : Nat) : Prop :=
  (∀ c, has (b1.colorBb c) sq = has (b2.colorBb c) sq)
  ∧ ∀ p, has (b1.pieceBb p) sq = has (b2.pieceBb p) sq

/-- No bitboard holds square `sq`. -/
def EmptyAt (b : Board) (sq : Nat) : Prop :=
  (∀ c, has (b.colorBb c) sq = false) ∧ ∀ p, has (b.pieceBb p) sq = false

/-- Square `sq` comes before file `file` of rank `rank` in the order of the piece-placement
field: ranks from the eighth down, files from `a` up. -/
def readBefore (sq rank file : Nat) : Prop := rank < sq / 8 ∨ (sq / 8 = rank ∧ sq % 8 < file)

/-- The board that the constructor `Board(std::string fen)` builds from the first four fields,
before it reads the counters. -/
def fromFields (Z : Zobrist) (fenRows fenColor fenCastlingRights strEnPassantSquare : List Char) :
    Board :=
  let color := if fenColor = ['b'] then Color.BLACK else Color.WHITE
  let b0 : Board := { empty with
    mColorToMove := color, mZobristHash := if color = .BLACK then Z.color else 0 }
  let b1 := parseRows Z fenRows b0 7 0
  let rights := if fenCastlingRights ≠ ['-'] then parseCastling fenCastlingRights 0 else 0
  let b2 : Board := { b1 with
    mCastlingRights := rights,
    mZobristHash := if fenCastlingRights ≠ ['-'] then b1.mZobristHash ^^^ rights
                    else b1.mZobristHash }
  if strEnPassantSquare ≠ ['-'] then
    { b2 with mEnPassantSquare := strToSquare strEnPassantSquare,
              mZobristHash := b2.mZobristHash
                ^^^ Z.files (squareFile (strToSquare strEnPassantSquare)) }
  else b2

/-- The ranks below `rank` in the text of `fen()`, each after its `/`. -/
def fenLowerRanks (b : Board) : Nat → List Char
  | 0 => []
  | rank + 1 => '/' :: (fenRank b rank 8 0 0 ++ fenLowerRanks b rank)

/-- A board that a sequence of moves, each taken from `legalMoves` of the position it is played
in, leads to from `b0`. -/
inductive Reachable (Z : Zobrist) (b0 : Board) : Board → Prop
  | start : Reachable Z b0 b0
  | move {b : Board} {m : Move} {u : Bool} :
      Reachable Z b0 b → m ∈ b.legalMoves Z u → Reachable Z b0 (b.makeMove Z m)

end Board
/-! ### Sample trees and the board at the end of a path -/

namespace Node

/-- A node without children, moves or results that has been visited `v` times. -/
def sampleLeaf (v : Nat) : Node ℚ := ⟨[], [], .DRAW, v, 0, 1⟩

/-- A node with three moves and three children, visited 3, 5 and 5 times. -/
def sampleNode : Node ℚ :=
  ⟨[sampleLeaf 3, sampleLeaf 5, sampleLeaf 5],
   [⟨12, 28, Move.PAWN_TWO_UP_FLAG⟩, ⟨11, 27, Move.PAWN_TWO_UP_FLAG⟩, ⟨6, 21, Move.KNIGHT_FLAG⟩],
   .ONGOING, 13, 0, 0⟩

end Node

namespace Node

section Paths

variable {V : Type}

/-- The moves that label a path: the move with the first index of the path at the node, then
the moves that label the rest of the path from the child with that index. -/
def pathMoves : Node V → List Nat → Option (List Move)
  | _, [] => some []
  | n, i :: p =>
    match n.mMoves.get? i, n.mChildren.get? i with
    | some move, some c => (pathMoves c p).map (fun ms => move :: ms)
    | _, _ => none

end Paths

/-- A node of depth 65535 with one move and no child. -/
def sampleDeep : Node ℚ := ⟨[], [⟨12, 28, Move.PAWN_TWO_UP_FLAG⟩], .ONGOING, 0, 0, 65535⟩

end Node

namespace Node

variable {V : Type} [LinearOrderedField V]

/-- The node has the moves, the state and the depth of a node that the constructor builds, not
as a root, on the position `board`. -/
def Built (env : SearchEnv V) (board : Board) (node : Node V) : Prop :=
  ∃ rng c b r, new env board false node.mDepth rng = some (c, b, r)
    ∧ node.mMoves = c.mMoves ∧ node.mGameState = c.mGameState

/-- Every node of the tree below `n` has no more children than moves, and every node but `n`
was built on the position that the moves labelling its path lead to from `board`, with the
depth of `n` plus the length of the path as its depth, in `u16`. -/
def Placed (env : SearchEnv V) (board : Board) (n : Node V) : Prop :=
  ∀ p node, n.get? p = some node →
    node.mChildren.length ≤ node.mMoves.length
    ∧ (p ≠ [] → ∃ ms, n.pathMoves p = some ms
        ∧ Built env (ms.foldl (fun b m => b.makeMove env.Z m) board) node
        ∧ node.mDepth = (n.mDepth + p.length) % 65536)

end Node
/-! ## The hash computed from the position -/

/-- The XOR of `f 0`, ..., `f (n - 1)`. -/
def foldXor (f : Nat → Nat) : Nat → Nat
  | 0 => 0
  | n + 1 => foldXor f n ^^^ f n

namespace Board

end Board

namespace Board

/-- The castling rights agree with the pieces, square by square: a right is held on a corner
square only, and where one is held the king of that colour stands on its home square and a rook
of that colour in the corner. -/
def RightsAgree (b : Board) : Prop :=
  (∀ s, s < 64 → has b.mCastlingRights s = true → s = 0 ∨ s = 7 ∨ s = 56 ∨ s = 63)
  ∧ ∀ c R, (c = Color.WHITE ∧ (R = 7 ∨ R = 0) ∨ c = Color.BLACK ∧ (R = 63 ∨ R = 56)) →
      has b.mCastlingRights R = true →
      has (b.colorBb c) (kingHome c) = true ∧ has b.kings (kingHome c) = true
        ∧ has (b.colorBb c) R = true ∧ has b.rooks R = true

end Board

namespace Board

/-- The two boards show the same on square `sq`: the same piece type, and the same colour
where there is a piece. -/
def SameCell (b1 b2 : Board) (sq : Nat) : Prop :=
  b1.pieceTypeAt sq = b2.pieceTypeAt sq
    ∧ (b2.pieceTypeAt sq ≠ .NONE → has b1.white sq = has b2.white sq)

end Board
/-! ## Pseudo-legal moves -/

namespace Board

/-- The king of the side that moves is not attacked once `makeMove` has made the move. -/
def KingSafeAfter (Z : Zobrist) (b : Board) (m : Move) : Prop :=
  (b.makeMove Z m).isSquareAttacked
    (lsb ((b.makeMove Z m).colorBb b.mColorToMove &&& (b.makeMove Z m).kings))
    (oppColor b.mColorToMove) = false

/-- A pseudo-legal move of the side to move, as the specification lists them: a piece moves
along its attack set to a square not held by an own piece; a pawn is pushed one square, or two
squares from its home rank, onto empty squares; a pawn captures an enemy piece; a pawn that
leaves its seventh rank promotes; a pawn captures en passant onto the en-passant square; the
king castles with the right held, the squares between king and rook empty and the squares the
king crosses unattacked. -/
def PseudoLegal (b : Board) (m : Move) : Prop :=
  m.fromSq < 64 ∧ m.toSq < 64 ∧ has b.us m.fromSq = true ∧
  ((∃ pt : PieceType, (pt = .KNIGHT ∨ pt = .BISHOP ∨ pt = .ROOK ∨ pt = .QUEEN ∨ pt = .KING)
      ∧ m.flag = pt.toIndex + 1 ∧ has (b.pieceBb pt) m.fromSq = true
      ∧ has b.us m.toSq = false
      ∧ attacksFrom pt b.mColorToMove b.occupancy m.fromSq m.toSq = true)
  ∨ (has b.pawns m.fromSq = true ∧ m.toSq = b.squareOneUp m.fromSq
      ∧ has b.occupancy m.toSq = false ∧ pawnFlagOK (b.willPromote m.fromSq) true m.flag)
  ∨ (has b.pawns m.fromSq = true ∧ b.pawnHasntMoved m.fromSq = true
      ∧ m.toSq = b.squareTwoUp m.fromSq ∧ has b.occupancy (b.squareOneUp m.fromSq) = false
      ∧ has b.occupancy m.toSq = false ∧ m.flag = Move.PAWN_TWO_UP_FLAG)
  ∨ (has b.pawns m.fromSq = true ∧ has (pawnAttacks m.fromSq b.mColorToMove) m.toSq = true
      ∧ has b.them m.toSq = true ∧ pawnFlagOK (b.willPromote m.fromSq) true m.flag)
  ∨ (has b.pawns m.fromSq = true ∧ b.mEnPassantSquare ≠ SQUARE_NONE
      ∧ m.toSq = b.mEnPassantSquare
      ∧ has (pawnAttacks m.fromSq b.mColorToMove) m.toSq = true
      ∧ m.flag = Move.EN_PASSANT_FLAG)
  ∨ (m.flag = Move.CASTLING_FLAG ∧ m.fromSq = b.kingSquare ∧ m.toSq = m.fromSq + 2
      ∧ b.mCastlingRights &&& CASTLING_MASKS b.mColorToMove CASTLE_SHORT ≠ 0
      ∧ has b.occupancy (m.fromSq + 1) = false ∧ has b.occupancy (m.fromSq + 2) = false
      ∧ b.isSquareAttacked m.fromSq (oppColor b.mColorToMove) = false
      ∧ b.isSquareAttacked (m.fromSq + 1) (oppColor b.mColorToMove) = false
      ∧ b.isSquareAttacked (m.fromSq + 2) (oppColor b.mColorToMove) = false)
  ∨ (m.flag = Move.CASTLING_FLAG ∧ m.fromSq = b.kingSquare ∧ m.toSq + 2 = m.fromSq
      ∧ 3 ≤ m.fromSq
      ∧ b.mCastlingRights &&& CASTLING_MASKS b.mColorToMove CASTLE_LONG ≠ 0
      ∧ has b.occupancy (m.fromSq - 1) = false ∧ has b.occupancy (m.fromSq - 2) = false
      ∧ has b.occupancy (m.fromSq - 3) = false
      ∧ b.isSquareAttacked m.fromSq (oppColor b.mColorToMove) = false
      ∧ b.isSquareAttacked (m.fromSq - 1) (oppColor b.mColorToMove) = false
      ∧ b.isSquareAttacked (m.fromSq - 2) (oppColor b.mColorToMove) = false))

/-- The hypotheses on a move that is neither castling, nor en passant, nor the king's: a piece
of the side to move other than the king goes to a square its own side does not hold. -/
structure QuietShape (b : Board) (m : Move) : Prop where
  flag1 : m.flag ≠ Move.CASTLING_FLAG
  flag2 : m.flag ≠ Move.EN_PASSANT_FLAG
  piece : m.pieceType ≠ .NONE
  notKing : m.pieceType ≠ .KING
  promo : m.promotion ≠ .KING
  from_us : has b.us m.fromSq = true
  from_piece : has (b.pieceBb m.pieceType) m.fromSq = true
  to_free : has b.us m.toSq = false

end Board
namespace Node

/-- The node has a grandchild: one of its children has a child. -/
def HasGrandchild {V : Type} (n : Node V) : Prop := ∃ c ∈ n.mChildren, c.mChildren ≠ []

/-- A node of the tree that has a grandchild has as many children as moves. -/
def GrandFull {V : Type} (n : Node V) : Prop :=
  All (fun m => m.HasGrandchild → m.mChildren.length = m.mMoves.length) n

end Node
/-! ## The command `go` (uci.hpp) -/

/-- The constant `I64_MAX`. -/
def I64_MAX : Nat := 9223372036854775807

/-- The function `std::stoll`: white space is skipped, a sign may come, and the value of the
digits that follow is the result; `none` when there is no digit (`std::invalid_argument`) or the
value does not fit an `i64` (`std::out_of_range`). -/
def stoll (s : List Char) : Option Int :=
  let s1 := s.dropWhile isspace
  let negative := s1.head? = some '-'
  let s2 := if s1.head? = some '-' ∨ s1.head? = some '+' then s1.tail else s1
  let r := stoiAux s2 0 false
  let value : Int := if negative then -(r.1 : Int) else (r.1 : Int)
  if r.2 ∧ -(2 ^ 63 : Int) ≤ value ∧ value < 2 ^ 63 then some value else none

/-- The quotient `a / b` rounded to the nearest integer, a tie to the even one. -/
def roundDiv (a b : Nat) : Nat :=
  if 2 * (a % b) > b ∨ (2 * (a % b) = b ∧ (a / b) % 2 = 1) then a / b + 1 else a / b

/-- The position of the highest set bit of `n`, looking at `fuel` bits. -/
def floorLog2Aux : Nat → Nat → Nat
  | 0, _ => 0
  | fuel + 1, n => if n < 2 then 0 else floorLog2Aux fuel (n / 2) + 1

/-- The position of the highest set bit of `n < 2^64`: the exponent of `n` as a `double`. -/
def floorLog2 (n : Nat) : Nat := floorLog2Aux 64 n

/-- The conversion of an integer `0 ≤ n < 2^64` to `double`: `n` is rounded to 53 significant
bits, to the nearest such number, a tie to the even one. The result is an integer again. -/
def toDouble (n : Nat) : Nat :=
  if n < 2 ^ 53 then n else roundDiv n (2 ^ (floorLog2 n - 52)) * 2 ^ (floorLog2 n - 52)

/-- The value `(u64)(x / 25.0)` for a `double` `x` that is an integer `0 ≤ x < 2^64`: the
quotient is rounded to 53 significant bits, and the conversion to `u64` drops what follows the
point. A quotient below 1 is rounded with more bits than are kept here, and gives 0 as well. -/
def quotient25 (x : Nat) : Nat :=
  if 2 ^ 52 ≤ x / 25 then
    roundDiv x (25 * 2 ^ (floorLog2 (x / 25) - 52)) * 2 ^ (floorLog2 (x / 25) - 52)
  else roundDiv (x * 2 ^ (52 - floorLog2 (x / 25))) 25 / 2 ^ (52 - floorLog2 (x / 25))

/-- The local variables of `uci::go` that its loop writes: `milliseconds` is an `i64`,
`maxDepth` and `maxNodes` are `u64`. -/
structure GoLimits where
  milliseconds : Int
  maxDepth : Nat
  maxNodes : Nat
  isMoveTime : Bool
  deriving DecidableEq, Repr

/-- The loop of `uci::go` over the tokens from `tokens[1]` on, two at a time: `none` when
`std::stoll` throws. A last token without a partner is not looked at. -/
def goLoop (sideToMove : Color) : List (List Char) → GoLimits → Option GoLimits
  | name :: token :: rest, l =>
    match stoll token with
    | none => none
    | some value =>
      if (name = "wtime".toList ∧ sideToMove = .WHITE)
          ∨ (name = "btime".toList ∧ sideToMove = .BLACK) then
        goLoop sideToMove rest { l with milliseconds := max value 0 }
      else if name = "movetime".toList then
        goLoop sideToMove rest { l with isMoveTime := true }
      else if name = "depth".toList then
        goLoop sideToMove rest { l with maxDepth := (max value 1).toNat }
      else if name = "nodes".toList then
        goLoop sideToMove rest { l with maxNodes := (max value 0).toNat }
      else goLoop sideToMove rest l
  | _, l => some l

/-- The value `searchTimeMs` of `uci::go`. The conditional expression that initialises it has
the type `double`, because its last operand `maxSearchTimeMs / 25.0` has: `I64_MAX` and
`maxSearchTimeMs` are converted to `double`, and the result is converted to `u64`. -/
def goSearchTimeMs (l : GoLimits) : Nat :=
  let maxSearchTimeMs : Nat := (max 0 (l.milliseconds - 10)).toNat
  if l.milliseconds = (I64_MAX : Int) then toDouble I64_MAX
  else if l.isMoveTime then toDouble maxSearchTimeMs
  else quotient25 (toDouble maxSearchTimeMs)

/-- The limits with which `uci::go` calls `search`: `searchTimeMs`, `maxDepth`, `maxNodes`. -/
def goBudget (tokens : List (List Char)) (board : Board) : Option (Nat × Nat × Nat) :=
  match goLoop board.mColorToMove (tokens.drop 1) ⟨I64_MAX, I64_MAX, I64_MAX, false⟩ with
  | none => none
  | some l => some (goSearchTimeMs l, l.maxDepth, l.maxNodes)

section Go

variable {V : Type} [LinearOrderedField V]

/-- The function `uci::go`, with the loop of `search` run for at most `fuel` iterations: the
move that it prints after `bestmove`. -/
def go (env : SearchEnv V) (tokens : List (List Char)) (board : Board) (fuel : Nat) :
    Option Move :=
  match goBudget tokens board with
  | none => none
  | some (searchTimeMs, maxDepth, maxNodes) =>
    (search env board searchTimeMs maxDepth maxNodes true fuel).map Prod.fst

end Go

/-! ### The time budget in the words of the specification -/

/-- The time of the side to move that the tokens give: the value of the last `wtime` token, for
White, or `btime` token, for Black, if there is one, negative values counting as 0. -/
def goSideTime (sideToMove : Color) : List (List Char) → Option Int → Option Int
  | name :: token :: rest, t =>
    if (name = "wtime".toList ∧ sideToMove = .WHITE)
        ∨ (name = "btime".toList ∧ sideToMove = .BLACK) then
      goSideTime sideToMove rest ((stoll token).map (fun value => max value 0))
    else goSideTime sideToMove rest t
  | _, t => t

/-- A `movetime` token is present, with a token after it. -/
def goHasMoveTime : List (List Char) → Bool
  | name :: _ :: rest => name = "movetime".toList || goHasMoveTime rest
  | _ => false

/-- The time budget in the words of the specification: `I64_MAX` when no time of the side to
move is given, otherwise `max(0, T - 10)` when a `movetime` token is present and
`floor(max(0, T - 10) / 25)` when it is not. -/
def budgetInWords (T : Option Int) (moveTime : Bool) : Nat :=
  match T with
  | none => I64_MAX
  | some t => if moveTime then (max 0 (t - 10)).toNat else (max 0 (t - 10)).toNat / 25

/-- Two token lists, read two at a time as `uci::go` does, that differ at most in the values
that follow `movetime` tokens, each of them a number. -/
inductive SameButMoveTime : List (List Char) → List (List Char) → Prop
  | same (rest : List (List Char)) : SameButMoveTime rest rest
  | pair (name token : List Char) (rest1 rest2 : List (List Char)) :
      SameButMoveTime rest1 rest2 →
      SameButMoveTime (name :: token :: rest1) (name :: token :: rest2)
  | movetime (value1 value2 : List Char) (rest1 rest2 : List (List Char)) :
      stoll value1 ≠ none → stoll value2 ≠ none → SameButMoveTime rest1 rest2 →
      SameButMoveTime ("movetime".toList :: value1 :: rest1)
        ("movetime".toList :: value2 :: rest2)
/-! ### The positions that the asserts of `board.hpp` allow -/

namespace Board

/-- What the asserts of `board.hpp` ask of a position on which `legalMoves` and `makeMove` are
run: `placePiece` asserts that the square is empty, `removePiece` that the piece is there, and
`legalMoves` that at most two pieces give check. The board functions of this file leave these
asserts out; on a position that is `Sane` none of them fails (`legalMovesAsserts`,
`makeMoveAsserts`), and every move of `legalMoves` leads to such a position again. The
bitboards describe a position with one king for each side in which the side that is not to move
is not in check, the castling rights and the en-passant square agree with the pieces, and at
most two pieces give check. -/
def Sane (b : Board) : Prop :=
  b.Valid ∧ b.castlingConsistent = true ∧ b.enPassantConsistent = true
    ∧ popcount b.checkers ≤ 2

end Board
/-! ### The fifty-move clock, in the words of the claim -/

namespace Board

end Board
/-! ### Discovered attacks -/

/-- Square `s` is the first occupied square beyond `v` on the ray from `k` through `v`: `v` lies
between `k` and `s`, and nothing between `k` and `s` is occupied. -/
def FirstBeyond (occ k v s : Nat) : Prop :=
  s < 64 ∧ isBetween k v s = true ∧ has occ s = true
    ∧ ∀ u, u < 64 → isBetween k u s = true → has occ u = false

/-! ### The asserts of `board.hpp` -/

namespace Board

/-- The assert of `placePiece(color, pieceType, square)`: the square is empty. -/
def placePieceAssert (b : Board) (square : Nat) : Bool := !b.isOccupied square

/-- The two asserts of `removePiece(color, pieceType, square)`: a piece of the colour and of the
type stands on the square. -/
def removePieceAsserts (b : Board) (color : Color) (pieceType : PieceType) (square : Nat) :
    Bool :=
  decide (b.colorBb color &&& 1 <<< square ≠ 0)
    && decide (b.pieceBb pieceType &&& 1 <<< square ≠ 0)

/-- The asserts that `makeMove(move)` reaches, those of its calls of `removePiece` and
`placePiece` (lines 506-533), each taken on the board as it is when the call is made. -/
def makeMoveAsserts (Z : Zobrist) (b : Board) (move : Move) : Bool :=
  let stm := b.mColorToMove
  let b1 := b.removePiece Z stm move.pieceType move.fromSq
  b.removePieceAsserts stm move.pieceType move.fromSq
  && (if move.flag = Move.CASTLING_FLAG then
      let c1 := b1.placePiece Z stm .KING move.toSq
      let c2 := c1.removePiece Z stm .ROOK (CASTLING_ROOK_FROM_TO move.toSq).1
      b1.placePieceAssert move.toSq
        && c1.removePieceAsserts stm .ROOK (CASTLING_ROOK_FROM_TO move.toSq).1
        && c2.placePieceAssert (CASTLING_ROOK_FROM_TO move.toSq).2
    else if move.flag = Move.EN_PASSANT_FLAG then
      let capturedPieceSquare := if stm = .WHITE then subSq move.toSq 8 else addSq move.toSq 8
      let c1 := b1.removePiece Z (oppColor stm) .PAWN capturedPieceSquare
      b1.removePieceAsserts (oppColor stm) .PAWN capturedPieceSquare
        && c1.placePieceAssert move.toSq
    else
      let captured := b1.pieceTypeAt move.toSq
      let c2 := if captured ≠ .NONE then b1.removePiece Z (oppColor stm) captured move.toSq
        else b1
      (decide (captured = .NONE) || b1.removePieceAsserts (oppColor stm) captured move.toSq)
        && c2.placePieceAssert move.toSq)

end Board


end NewCentury

/-! # Properties -/

namespace NewCentury

/-! ## Bitboards -/

theorem mem_bitsAux (fuel : Nat) : ∀ (i bb t : Nat),
    t ∈ bitsAux fuel i bb ↔ i ≤ t ∧ t < i + fuel ∧ bb.testBit (t - i) = true := by
  induction fuel with
  | zero => intro i bb t; simp [bitsAux]; omega
  | succ n ih =>
    intro i bb t
    unfold bitsAux
    by_cases h0 : bb = 0
    · subst h0; simp
    · simp only [h0, if_false]
      have key : ∀ t, i + 1 ≤ t → bb.testBit (t - i) = (bb / 2).testBit (t - (i + 1)) := by
        intro t ht
        have : t - i = (t - (i + 1)) + 1 := by omega
        rw [this, Nat.testBit_add_one]
      by_cases h1 : bb % 2 = 1
      · simp only [h1, if_true, List.mem_cons, ih]
        constructor
        · rintro (rfl | ⟨h2, h3, h4⟩)
          · refine ⟨le_refl _, by omega, ?_⟩
            simp [Nat.testBit_zero, h1]
          · exact ⟨by omega, by omega, by rw [key t h2]; exact h4⟩
        · rintro ⟨h2, h3, h4⟩
          by_cases h5 : t = i
          · exact Or.inl h5
          · exact Or.inr ⟨by omega, by omega, by rw [← key t (by omega)]; exact h4⟩
      · simp only [h1, if_false, ih]
        constructor
        · rintro ⟨h2, h3, h4⟩
          exact ⟨by omega, by omega, by rw [key t h2]; exact h4⟩
        · rintro ⟨h2, h3, h4⟩
          have h5 : t ≠ i := by
            rintro rfl
            simp [Nat.testBit_zero] at h4
            exact h1 h4
          exact ⟨by omega, by omega, by rw [← key t (by omega)]; exact h4⟩

theorem mem_bits {bb t : Nat} : t ∈ bits bb ↔ t < 64 ∧ bb.testBit t = true := by
  unfold bits
  rw [mem_bitsAux]
  simp

theorem bitsAux_sorted (fuel : Nat) : ∀ (i bb : Nat),
    List.Pairwise (fun a b => a < b) (bitsAux fuel i bb) := by
  induction fuel with
  | zero => intro i bb; simp [bitsAux]
  | succ n ih =>
    intro i bb
    unfold bitsAux
    split
    · exact List.Pairwise.nil
    · split
      · refine List.Pairwise.cons ?_ (ih _ _)
        intro a ha
        rw [mem_bitsAux] at ha
        omega
      · exact ih _ _

theorem bits_sorted (bb : Nat) : List.Pairwise (fun a b => a < b) (bits bb) :=
  bitsAux_sorted 64 0 bb

theorem bits_nodup (bb : Nat) : (bits bb).Nodup :=
  (bits_sorted bb).imp (fun h => Nat.ne_of_lt h)

theorem has_and (x y t : Nat) : has (x &&& y) t = (has x t && has y t) := by
  simp [has]

theorem has_or (x y t : Nat) : has (x ||| y) t = (has x t || has y t) := by
  simp [has]

theorem has_xor (x y t : Nat) : has (x ^^^ y) t = (has x t ^^ has y t) := by
  simp [has]

theorem has_zero (t : Nat) : has 0 t = false := by
  simp [has]

theorem has_bit (s t : Nat) : has (1 <<< s) t = decide (s = t) := by
  simp [has, Nat.one_shiftLeft, Nat.testBit_two_pow]

theorem has_squareToBitboard (s t : Nat) : has (squareToBitboard s) t = decide (s = t) :=
  has_bit s t

theorem has_ONES (t : Nat) : has ONES t = decide (t < 64) :=
  Nat.testBit_two_pow_sub_one 64 t

theorem has_not64 (x t : Nat) : has (not64 x) t = (decide (t < 64) && !has x t) := by
  unfold has not64 ONES
  rw [Nat.testBit_xor, Nat.testBit_two_pow_sub_one, Nat.testBit_mod_two_pow]
  by_cases h : t < 64 <;> simp [h]

theorem ne_zero_iff_exists_has {x : Nat} : x ≠ 0 ↔ ∃ t, has x t = true := by
  constructor
  · intro h
    exact Nat.ne_zero_implies_bit_true h
  · rintro ⟨t, ht⟩ rfl
    simp [has] at ht

theorem eq_zero_iff_forall_has {x : Nat} : x = 0 ↔ ∀ t, has x t = false := by
  constructor
  · rintro rfl t
    exact has_zero t
  · intro h
    by_contra hx
    obtain ⟨t, ht⟩ := ne_zero_iff_exists_has.mp hx
    rw [h t] at ht
    exact Bool.false_ne_true ht

theorem and_bit_ne_zero {x s : Nat} : x &&& 1 <<< s ≠ 0 ↔ has x s = true := by
  rw [ne_zero_iff_exists_has]
  constructor
  · rintro ⟨t, ht⟩
    rw [has_and, has_bit] at ht
    simp only [Bool.and_eq_true, decide_eq_true_eq] at ht
    rw [ht.2]
    exact ht.1
  · intro h
    exact ⟨s, by rw [has_and, has_bit]; simp [h]⟩

theorem bit_and_ne_zero {x s : Nat} : 1 <<< s &&& x ≠ 0 ↔ has x s = true := by
  rw [Nat.and_comm]
  exact and_bit_ne_zero

theorem mem_bits_iff {bb t : Nat} : t ∈ bits bb ↔ t < 64 ∧ has bb t = true := mem_bits

theorem mem_map_move {l : List Nat} {k F : Nat} {m : Move} :
    m ∈ l.map (fun t => (⟨k, t, F⟩ : Move)) ↔ m.fromSq = k ∧ m.flag = F ∧ m.toSq ∈ l := by
  rw [List.mem_map]
  constructor
  · rintro ⟨t, ht, rfl⟩
    exact ⟨rfl, rfl, ht⟩
  · rintro ⟨h1, h2, h3⟩
    refine ⟨m.toSq, h3, ?_⟩
    cases m
    simp_all

/-! ## Attack tables -/

theorem has_foldl_squaresWhere (p : Nat → Bool) (u : Nat) : ∀ (l : List Nat) (a : Nat),
    has (l.foldl (fun acc sq => if p sq then acc ||| 1 <<< sq else acc) a) u
      = (has a u || (decide (u ∈ l) && p u)) := by
  intro l
  induction l with
  | nil => intro a; simp
  | cons x l ih =>
    intro a
    rw [List.foldl_cons, ih]
    by_cases hp : p x = true
    · rw [if_pos hp, has_or, has_bit]
      by_cases hx : x = u
      · subst hx; simp [hp]
      · have : ¬ u = x := fun h => hx h.symm
        simp [hx, this]
    · rw [if_neg hp]
      by_cases hx : x = u
      · subst hx
        simp only [Bool.not_eq_true] at hp
        simp [hp]
      · have : ¬ u = x := fun h => hx h.symm
        simp [this]

theorem has_squaresWhere (p : Nat → Bool) (u : Nat) :
    has (squaresWhere p) u = (decide (u < 64) && p u) := by
  unfold squaresWhere
  rw [has_foldl_squaresWhere, has_zero]
  simp

theorem has_BETWEEN {a b u : Nat} :
    has (BETWEEN a b) u = true ↔ a < 64 ∧ b < 64 ∧ u < 64 ∧ isBetween a u b = true := by
  unfold BETWEEN
  by_cases h : a < 64 ∧ b < 64
  · rw [if_pos h, has_squaresWhere]
    simp only [Bool.and_eq_true, decide_eq_true_eq]
    tauto
  · rw [if_neg h, has_zero]
    simp only [Bool.false_eq_true, false_iff]
    tauto

theorem has_LINE_THROUGH {a b u : Nat} :
    has (LINE_THROUGH a b) u = true ↔ a < 64 ∧ b < 64 ∧ u < 64 ∧ isOnLine a b u = true := by
  unfold LINE_THROUGH
  by_cases h : a < 64 ∧ b < 64
  · rw [if_pos h, has_squaresWhere]
    simp only [Bool.and_eq_true, decide_eq_true_eq]
    tauto
  · rw [if_neg h, has_zero]
    simp only [Bool.false_eq_true, false_iff]
    tauto

theorem has_rayAux (occ df dr : Nat) (hdf : df ≤ 2) (hdr : dr ≤ 2) (t : Nat) :
    ∀ (fuel f r : Nat), f < 8 → r < 8 →
    (has (rayAux occ df dr fuel f r) t = true ↔
      ∃ n, 1 ≤ n ∧ n ≤ fuel ∧ t < 64 ∧ t % 8 + n = f + n * df ∧ t / 8 + n = r + n * dr
        ∧ ∀ j u, 1 ≤ j → j < n → u < 64 → u % 8 + j = f + j * df → u / 8 + j = r + j * dr →
          has occ u = false) := by
  intro fuel
  induction fuel with
  | zero =>
    intro f r _ _
    simp only [rayAux, has_zero, Bool.false_eq_true, false_iff]
    rintro ⟨n, h1, h2, _⟩
    omega
  | succ fuel ih =>
    intro f r hf hr
    unfold rayAux
    by_cases hb : 1 ≤ f + df ∧ f + df < 9 ∧ 1 ≤ r + dr ∧ r + dr < 9
    · rw [if_pos hb]
      have hf1 : f + df - 1 < 8 := by omega
      have hr1 : r + dr - 1 < 8 := by omega
      have hsq : ∀ u, u < 64 → (u % 8 + 1 = f + 1 * df ∧ u / 8 + 1 = r + 1 * dr ↔
          u = (r + dr - 1) * 8 + (f + df - 1)) := by
        intro u hu
        omega
      have hsq64 : (r + dr - 1) * 8 + (f + df - 1) < 64 := by omega
      have ih1 := ih (f + df - 1) (r + dr - 1) hf1 hr1
      by_cases ho : has occ ((r + dr - 1) * 8 + (f + df - 1)) = true
      · rw [if_pos ho, has_bit]
        simp only [decide_eq_true_eq]
        clear ih ih1
        constructor
        · intro h
          refine ⟨1, le_refl _, by omega, by omega, ?_, ?_, ?_⟩
          · exact ((hsq t (by omega)).mpr h.symm).1
          · exact ((hsq t (by omega)).mpr h.symm).2
          · intro j u h1 h2
            omega
        · rintro ⟨n, h1, h2, h3, h4, h5, h6⟩
          by_cases hn : n = 1
          · subst hn
            exact ((hsq t h3).mp ⟨h4, h5⟩).symm
          · exfalso
            have := h6 1 ((r + dr - 1) * 8 + (f + df - 1)) (le_refl _) (by omega) hsq64
              (by omega) (by omega)
            rw [this] at ho
            exact Bool.false_ne_true ho
      · rw [if_neg ho, has_or, has_bit]
        simp only [Bool.or_eq_true, decide_eq_true_eq, ih1]
        clear ih ih1
        have hdf' : df = 0 ∨ df = 1 ∨ df = 2 := by omega
        have hdr' : dr = 0 ∨ dr = 1 ∨ dr = 2 := by omega
        constructor
        · rintro (h | ⟨n, h1, h2, h3, h4, h5, h6⟩)
          · refine ⟨1, le_refl _, by omega, by omega, ?_, ?_, ?_⟩
            · exact ((hsq t (by omega)).mpr h.symm).1
            · exact ((hsq t (by omega)).mpr h.symm).2
            · intro j u h1 h2
              omega
          · refine ⟨n + 1, by omega, by omega, h3, ?_, ?_, ?_⟩
            · rcases hdf' with rfl | rfl | rfl <;> omega
            · rcases hdr' with rfl | rfl | rfl <;> omega
            · intro j u hj1 hj2 hu hu1 hu2
              by_cases hj : j = 1
              · subst hj
                have := (hsq u hu).mp ⟨hu1, hu2⟩
                rw [this]
                simpa using ho
              · refine h6 (j - 1) u (by omega) (by omega) hu ?_ ?_
                · rcases hdf' with rfl | rfl | rfl <;> omega
                · rcases hdr' with rfl | rfl | rfl <;> omega
        · rintro ⟨n, h1, h2, h3, h4, h5, h6⟩
          by_cases hn : n = 1
          · subst hn
            exact Or.inl ((hsq t h3).mp ⟨h4, h5⟩).symm
          · refine Or.inr ⟨n - 1, by omega, by omega, h3, ?_, ?_, ?_⟩
            · rcases hdf' with rfl | rfl | rfl <;> omega
            · rcases hdr' with rfl | rfl | rfl <;> omega
            · intro j u hj1 hj2 hu hu1 hu2
              refine h6 (j + 1) u (by omega) (by omega) hu ?_ ?_
              · rcases hdf' with rfl | rfl | rfl <;> omega
              · rcases hdr' with rfl | rfl | rfl <;> omega
    · rw [if_neg hb, has_zero]
      simp only [Bool.false_eq_true, false_iff]
      clear ih
      rintro ⟨n, h1, h2, h3, h4, h5, h6⟩
      clear h6
      have hdf' : df = 0 ∨ df = 1 ∨ df = 2 := by omega
      have hdr' : dr = 0 ∨ dr = 1 ∨ dr = 2 := by omega
      rcases hdf' with rfl | rfl | rfl <;> rcases hdr' with rfl | rfl | rfl <;> omega

theorem has_ray_E {occ s t : Nat} :
    has (ray occ s 2 1) t = true ↔ s < 64 ∧ t < 64 ∧ s / 8 = t / 8 ∧ s % 8 < t % 8
      ∧ ∀ u, u < 64 → u / 8 = s / 8 → s % 8 < u % 8 → u % 8 < t % 8 → has occ u = false := by
  unfold ray
  by_cases hs : s < 64
  · rw [if_pos hs, has_rayAux occ 2 1 (by omega) (by omega) t 7 (s % 8) (s / 8) (by omega)
      (by omega)]
    constructor
    · rintro ⟨n, h1, h2, h3, h4, h5, h6⟩
      refine ⟨hs, h3, by omega, by omega, ?_⟩
      intro u hu hu1 hu2 hu3
      exact h6 (u % 8 - s % 8) u (by omega) (by omega) hu (by omega) (by omega)
    · rintro ⟨_, h3, h4, h5, h6⟩
      refine ⟨t % 8 - s % 8, by omega, by omega, h3, by omega, by omega, ?_⟩
      intro j u hj1 hj2 hu hu1 hu2
      exact h6 u hu (by omega) (by omega) (by omega)
  · rw [if_neg hs, has_zero]
    simp only [Bool.false_eq_true, false_iff]
    tauto

theorem has_ray_W {occ s t : Nat} :
    has (ray occ s 0 1) t = true ↔ s < 64 ∧ t < 64 ∧ s / 8 = t / 8 ∧ t % 8 < s % 8
      ∧ ∀ u, u < 64 → u / 8 = s / 8 → t % 8 < u % 8 → u % 8 < s % 8 → has occ u = false := by
  unfold ray
  by_cases hs : s < 64
  · rw [if_pos hs, has_rayAux occ 0 1 (by omega) (by omega) t 7 (s % 8) (s / 8) (by omega)
      (by omega)]
    constructor
    · rintro ⟨n, h1, h2, h3, h4, h5, h6⟩
      refine ⟨hs, h3, by omega, by omega, ?_⟩
      intro u hu hu1 hu2 hu3
      exact h6 (s % 8 - u % 8) u (by omega) (by omega) hu (by omega) (by omega)
    · rintro ⟨_, h3, h4, h5, h6⟩
      refine ⟨s % 8 - t % 8, by omega, by omega, h3, by omega, by omega, ?_⟩
      intro j u hj1 hj2 hu hu1 hu2
      exact h6 u hu (by omega) (by omega) (by omega)
  · rw [if_neg hs, has_zero]
    simp only [Bool.false_eq_true, false_iff]
    tauto

theorem has_ray_N {occ s t : Nat} :
    has (ray occ s 1 2) t = true ↔ s < 64 ∧ t < 64 ∧ s % 8 = t % 8 ∧ s / 8 < t / 8
      ∧ ∀ u, u < 64 → u % 8 = s % 8 → s / 8 < u / 8 → u / 8 < t / 8 → has occ u = false := by
  unfold ray
  by_cases hs : s < 64
  · rw [if_pos hs, has_rayAux occ 1 2 (by omega) (by omega) t 7 (s % 8) (s / 8) (by omega)
      (by omega)]
    constructor
    · rintro ⟨n, h1, h2, h3, h4, h5, h6⟩
      refine ⟨hs, h3, by omega, by omega, ?_⟩
      intro u hu hu1 hu2 hu3
      exact h6 (u / 8 - s / 8) u (by omega) (by omega) hu (by omega) (by omega)
    · rintro ⟨_, h3, h4, h5, h6⟩
      refine ⟨t / 8 - s / 8, by omega, by omega, h3, by omega, by omega, ?_⟩
      intro j u hj1 hj2 hu hu1 hu2
      exact h6 u hu (by omega) (by omega) (by omega)
  · rw [if_neg hs, has_zero]
    simp only [Bool.false_eq_true, false_iff]
    tauto

theorem has_ray_S {occ s t : Nat} :
    has (ray occ s 1 0) t = true ↔ s < 64 ∧ t < 64 ∧ s % 8 = t % 8 ∧ t / 8 < s / 8
      ∧ ∀ u, u < 64 → u % 8 = s % 8 → t / 8 < u / 8 → u / 8 < s / 8 → has occ u = false := by
  unfold ray
  by_cases hs : s < 64
  · rw [if_pos hs, has_rayAux occ 1 0 (by omega) (by omega) t 7 (s % 8) (s / 8) (by omega)
      (by omega)]
    constructor
    · rintro ⟨n, h1, h2, h3, h4, h5, h6⟩
      refine ⟨hs, h3, by omega, by omega, ?_⟩
      intro u hu hu1 hu2 hu3
      exact h6 (s / 8 - u / 8) u (by omega) (by omega) hu (by omega) (by omega)
    · rintro ⟨_, h3, h4, h5, h6⟩
      refine ⟨s / 8 - t / 8, by omega, by omega, h3, by omega, by omega, ?_⟩
      intro j u hj1 hj2 hu hu1 hu2
      exact h6 u hu (by omega) (by omega) (by omega)
  · rw [if_neg hs, has_zero]
    simp only [Bool.false_eq_true, false_iff]
    tauto

theorem has_ray_NE {occ s t : Nat} :
    has (ray occ s 2 2) t = true ↔ s < 64 ∧ t < 64 ∧ s % 8 + t / 8 = t % 8 + s / 8 ∧ s % 8 < t % 8
      ∧ ∀ u, u < 64 → s % 8 + u / 8 = u % 8 + s / 8 → s % 8 < u % 8 → u % 8 < t % 8 → has occ u = false := by
  unfold ray
  by_cases hs : s < 64
  · rw [if_pos hs, has_rayAux occ 2 2 (by omega) (by omega) t 7 (s % 8) (s / 8) (by omega)
      (by omega)]
    constructor
    · rintro ⟨n, h1, h2, h3, h4, h5, h6⟩
      refine ⟨hs, h3, by omega, by omega, ?_⟩
      intro u hu hu1 hu2 hu3
      exact h6 (u % 8 - s % 8) u (by omega) (by omega) hu (by omega) (by omega)
    · rintro ⟨_, h3, h4, h5, h6⟩
      refine ⟨t % 8 - s % 8, by omega, by omega, h3, by omega, by omega, ?_⟩
      intro j u hj1 hj2 hu hu1 hu2
      exact h6 u hu (by omega) (by omega) (by omega)
  · rw [if_neg hs, has_zero]
    simp only [Bool.false_eq_true, false_iff]
    tauto

theorem has_ray_SW {occ s t : Nat} :
    has (ray occ s 0 0) t = true ↔ s < 64 ∧ t < 64 ∧ s % 8 + t / 8 = t % 8 + s / 8 ∧ t % 8 < s % 8
      ∧ ∀ u, u < 64 → s % 8 + u / 8 = u % 8 + s / 8 → t % 8 < u % 8 → u % 8 < s % 8 → has occ u = false := by
  unfold ray
  by_cases hs : s < 64
  · rw [if_pos hs, has_rayAux occ 0 0 (by omega) (by omega) t 7 (s % 8) (s / 8) (by omega)
      (by omega)]
    constructor
    · rintro ⟨n, h1, h2, h3, h4, h5, h6⟩
      refine ⟨hs, h3, by omega, by omega, ?_⟩
      intro u hu hu1 hu2 hu3
      exact h6 (s % 8 - u % 8) u (by omega) (by omega) hu (by omega) (by omega)
    · rintro ⟨_, h3, h4, h5, h6⟩
      refine ⟨s % 8 - t % 8, by omega, by omega, h3, by omega, by omega, ?_⟩
      intro j u hj1 hj2 hu hu1 hu2
      exact h6 u hu (by omega) (by omega) (by omega)
  · rw [if_neg hs, has_zero]
    simp only [Bool.false_eq_true, false_iff]
    tauto

theorem has_ray_SE {occ s t : Nat} :
    has (ray occ s 2 0) t = true ↔ s < 64 ∧ t < 64 ∧ s % 8 + s / 8 = t % 8 + t / 8 ∧ s % 8 < t % 8
      ∧ ∀ u, u < 64 → s % 8 + s / 8 = u % 8 + u / 8 → s % 8 < u % 8 → u % 8 < t % 8 → has occ u = false := by
  unfold ray
  by_cases hs : s < 64
  · rw [if_pos hs, has_rayAux occ 2 0 (by omega) (by omega) t 7 (s % 8) (s / 8) (by omega)
      (by omega)]
    constructor
    · rintro ⟨n, h1, h2, h3, h4, h5, h6⟩
      refine ⟨hs, h3, by omega, by omega, ?_⟩
      intro u hu hu1 hu2 hu3
      exact h6 (u % 8 - s % 8) u (by omega) (by omega) hu (by omega) (by omega)
    · rintro ⟨_, h3, h4, h5, h6⟩
      refine ⟨t % 8 - s % 8, by omega, by omega, h3, by omega, by omega, ?_⟩
      intro j u hj1 hj2 hu hu1 hu2
      exact h6 u hu (by omega) (by omega) (by omega)
  · rw [if_neg hs, has_zero]
    simp only [Bool.false_eq_true, false_iff]
    tauto

theorem has_ray_NW {occ s t : Nat} :
    has (ray occ s 0 2) t = true ↔ s < 64 ∧ t < 64 ∧ s % 8 + s / 8 = t % 8 + t / 8 ∧ t % 8 < s % 8
      ∧ ∀ u, u < 64 → s % 8 + s / 8 = u % 8 + u / 8 → t % 8 < u % 8 → u % 8 < s % 8 → has occ u = false := by
  unfold ray
  by_cases hs : s < 64
  · rw [if_pos hs, has_rayAux occ 0 2 (by omega) (by omega) t 7 (s % 8) (s / 8) (by omega)
      (by omega)]
    constructor
    · rintro ⟨n, h1, h2, h3, h4, h5, h6⟩
      refine ⟨hs, h3, by omega, by omega, ?_⟩
      intro u hu hu1 hu2 hu3
      exact h6 (s % 8 - u % 8) u (by omega) (by omega) hu (by omega) (by omega)
    · rintro ⟨_, h3, h4, h5, h6⟩
      refine ⟨s % 8 - t % 8, by omega, by omega, h3, by omega, by omega, ?_⟩
      intro j u hj1 hj2 hu hu1 hu2
      exact h6 u hu (by omega) (by omega) (by omega)
  · rw [if_neg hs, has_zero]
    simp only [Bool.false_eq_true, false_iff]
    tauto


theorem isBetween_iff {a u b : Nat} : isBetween a u b = true ↔
    ((a / 8 = u / 8 ∧ u / 8 = b / 8
      ∧ ((a % 8 < u % 8 ∧ u % 8 < b % 8) ∨ (b % 8 < u % 8 ∧ u % 8 < a % 8)))
    ∨ (a % 8 = u % 8 ∧ u % 8 = b % 8
      ∧ ((a / 8 < u / 8 ∧ u / 8 < b / 8) ∨ (b / 8 < u / 8 ∧ u / 8 < a / 8)))
    ∨ (a % 8 + u / 8 = u % 8 + a / 8 ∧ u % 8 + b / 8 = b % 8 + u / 8
      ∧ ((a % 8 < u % 8 ∧ u % 8 < b % 8) ∨ (b % 8 < u % 8 ∧ u % 8 < a % 8)))
    ∨ (a % 8 + a / 8 = u % 8 + u / 8 ∧ u % 8 + u / 8 = b % 8 + b / 8
      ∧ ((a % 8 < u % 8 ∧ u % 8 < b % 8) ∨ (b % 8 < u % 8 ∧ u % 8 < a % 8)))) := by
  unfold isBetween
  exact decide_eq_true_iff

theorem isOnLine_iff {a b u : Nat} : isOnLine a b u = true ↔
    (a ≠ b ∧ ((a / 8 = b / 8 ∧ u / 8 = a / 8)
    ∨ (a % 8 = b % 8 ∧ u % 8 = a % 8)
    ∨ (a % 8 + b / 8 = b % 8 + a / 8 ∧ a % 8 + u / 8 = u % 8 + a / 8)
    ∨ (a % 8 + a / 8 = b % 8 + b / 8 ∧ a % 8 + a / 8 = u % 8 + u / 8))) := by
  unfold isOnLine
  exact decide_eq_true_iff

/-- Rook attacks: the squares on the rank or file of `s` with no occupied square strictly
between. -/
theorem has_rookAttacks {s occ t : Nat} :
    has (rookAttacks s occ) t = true ↔ s < 64 ∧ t < 64 ∧ s ≠ t ∧ (s / 8 = t / 8 ∨ s % 8 = t % 8)
      ∧ ∀ u, u < 64 → isBetween s u t = true → has occ u = false := by
  unfold rookAttacks
  simp only [has_or, Bool.or_eq_true, has_ray_E, has_ray_W, has_ray_N, has_ray_S, isBetween_iff]
  constructor
  · rintro (((⟨h1, h2, h3, h4, h5⟩ | ⟨h1, h2, h3, h4, h5⟩) | ⟨h1, h2, h3, h4, h5⟩)
      | ⟨h1, h2, h3, h4, h5⟩)
    all_goals
      refine ⟨h1, h2, by omega, by omega, ?_⟩
      intro u hu hb
      exact h5 u hu (by omega) (by omega) (by omega)
  · rintro ⟨h1, h2, h3, h4, h5⟩
    have hc : (s / 8 = t / 8 ∧ s % 8 < t % 8) ∨ (s / 8 = t / 8 ∧ t % 8 < s % 8)
        ∨ (s % 8 = t % 8 ∧ s / 8 < t / 8) ∨ (s % 8 = t % 8 ∧ t / 8 < s / 8) := by omega
    rcases hc with ⟨hc1, hc2⟩ | ⟨hc1, hc2⟩ | ⟨hc1, hc2⟩ | ⟨hc1, hc2⟩
    · refine Or.inl (Or.inl (Or.inl ⟨h1, h2, hc1, hc2, ?_⟩))
      intro u hu hu1 hu2 hu3
      exact h5 u hu (by omega)
    · refine Or.inl (Or.inl (Or.inr ⟨h1, h2, hc1, hc2, ?_⟩))
      intro u hu hu1 hu2 hu3
      exact h5 u hu (by omega)
    · refine Or.inl (Or.inr ⟨h1, h2, hc1, hc2, ?_⟩)
      intro u hu hu1 hu2 hu3
      exact h5 u hu (by omega)
    · refine Or.inr ⟨h1, h2, hc1, hc2, ?_⟩
      intro u hu hu1 hu2 hu3
      exact h5 u hu (by omega)

/-- Bishop attacks: the squares on a diagonal of `s` with no occupied square strictly
between. -/
theorem has_bishopAttacks {s occ t : Nat} :
    has (bishopAttacks s occ) t = true ↔ s < 64 ∧ t < 64 ∧ s ≠ t
      ∧ (s % 8 + t / 8 = t % 8 + s / 8 ∨ s % 8 + s / 8 = t % 8 + t / 8)
      ∧ ∀ u, u < 64 → isBetween s u t = true → has occ u = false := by
  unfold bishopAttacks
  simp only [has_or, Bool.or_eq_true, has_ray_NE, has_ray_SW, has_ray_SE, has_ray_NW,
    isBetween_iff]
  constructor
  · rintro (((⟨h1, h2, h3, h4, h5⟩ | ⟨h1, h2, h3, h4, h5⟩) | ⟨h1, h2, h3, h4, h5⟩)
      | ⟨h1, h2, h3, h4, h5⟩)
    all_goals
      refine ⟨h1, h2, by omega, by omega, ?_⟩
      intro u hu hb
      exact h5 u hu (by omega) (by omega) (by omega)
  · rintro ⟨h1, h2, h3, h4, h5⟩
    have hc : (s % 8 + t / 8 = t % 8 + s / 8 ∧ s % 8 < t % 8)
        ∨ (s % 8 + t / 8 = t % 8 + s / 8 ∧ t % 8 < s % 8)
        ∨ (s % 8 + s / 8 = t % 8 + t / 8 ∧ s % 8 < t % 8)
        ∨ (s % 8 + s / 8 = t % 8 + t / 8 ∧ t % 8 < s % 8) := by omega
    rcases hc with ⟨hc1, hc2⟩ | ⟨hc1, hc2⟩ | ⟨hc1, hc2⟩ | ⟨hc1, hc2⟩
    · refine Or.inl (Or.inl (Or.inl ⟨h1, h2, hc1, hc2, ?_⟩))
      intro u hu hu1 hu2 hu3
      exact h5 u hu (by omega)
    · refine Or.inl (Or.inl (Or.inr ⟨h1, h2, hc1, hc2, ?_⟩))
      intro u hu hu1 hu2 hu3
      exact h5 u hu (by omega)
    · refine Or.inl (Or.inr ⟨h1, h2, hc1, hc2, ?_⟩)
      intro u hu hu1 hu2 hu3
      exact h5 u hu (by omega)
    · refine Or.inr ⟨h1, h2, hc1, hc2, ?_⟩
      intro u hu hu1 hu2 hu3
      exact h5 u hu (by omega)

theorem has_leap {sq a b t : Nat} :
    has (leap sq a b) t = true ↔ sq < 64 ∧ t < 64 ∧ t % 8 + 2 = sq % 8 + a
      ∧ t / 8 + 2 = sq / 8 + b := by
  unfold leap
  by_cases h : sq < 64 ∧ 2 ≤ sq % 8 + a ∧ sq % 8 + a < 10 ∧ 2 ≤ sq / 8 + b ∧ sq / 8 + b < 10
  · rw [if_pos h, has_bit]
    simp only [decide_eq_true_eq]
    omega
  · rw [if_neg h, has_zero]
    simp only [Bool.false_eq_true, false_iff]
    omega

theorem has_leap_symm {s a b t : Nat} (ha : a ≤ 4) (hb : b ≤ 4) :
    has (leap s a b) t = has (leap t (4 - a) (4 - b)) s := by
  rw [Bool.eq_iff_iff, has_leap, has_leap]
  omega

theorem has_knightAttacks_lt {s t : Nat} (h : has (knightAttacks s) t = true) :
    s < 64 ∧ t < 64 := by
  unfold knightAttacks at h
  simp only [has_or, Bool.or_eq_true, has_leap] at h
  rcases h with ((((((h | h) | h) | h) | h) | h) | h) | h <;> exact ⟨h.1, h.2.1⟩

theorem has_kingAttacks_lt {s t : Nat} (h : has (kingAttacks s) t = true) :
    s < 64 ∧ t < 64 := by
  unfold kingAttacks at h
  simp only [has_or, Bool.or_eq_true, has_leap] at h
  rcases h with ((((((h | h) | h) | h) | h) | h) | h) | h <;> exact ⟨h.1, h.2.1⟩

/-- A king step changes file and rank by at most one and changes the square. -/
theorem has_kingAttacks_near {s t : Nat} (h : has (kingAttacks s) t = true) :
    s ≠ t ∧ t % 8 ≤ s % 8 + 1 ∧ s % 8 ≤ t % 8 + 1 ∧ t / 8 ≤ s / 8 + 1 ∧ s / 8 ≤ t / 8 + 1 := by
  unfold kingAttacks at h
  simp only [has_or, Bool.or_eq_true, has_leap] at h
  rcases h with ((((((h | h) | h) | h) | h) | h) | h) | h <;> omega

/-- A knight jump leaves the rank, the file and both diagonals of its origin. -/
theorem has_knightAttacks_off_line {s t : Nat} (h : has (knightAttacks s) t = true) :
    s / 8 ≠ t / 8 ∧ s % 8 ≠ t % 8 ∧ s % 8 + t / 8 ≠ t % 8 + s / 8
      ∧ s % 8 + s / 8 ≠ t % 8 + t / 8 := by
  unfold knightAttacks at h
  simp only [has_or, Bool.or_eq_true, has_leap] at h
  rcases h with ((((((h | h) | h) | h) | h) | h) | h) | h <;> omega

theorem has_pawnAttacks_white {s t : Nat} :
    has (pawnAttacks s .WHITE) t = true ↔ s < 64 ∧ t < 64 ∧ t / 8 = s / 8 + 1
      ∧ (t % 8 + 1 = s % 8 ∨ t % 8 = s % 8 + 1) := by
  unfold pawnAttacks
  simp only [has_or, Bool.or_eq_true, has_leap]
  constructor
  · rintro (h | h) <;> omega
  · rintro ⟨h1, h2, h3, h4 | h4⟩
    · exact Or.inl (by omega)
    · exact Or.inr (by omega)

theorem has_pawnAttacks_black {s t : Nat} :
    has (pawnAttacks s .BLACK) t = true ↔ s < 64 ∧ t < 64 ∧ t / 8 + 1 = s / 8
      ∧ (t % 8 + 1 = s % 8 ∨ t % 8 = s % 8 + 1) := by
  unfold pawnAttacks
  simp only [has_or, Bool.or_eq_true, has_leap]
  constructor
  · rintro (h | h) <;> omega
  · rintro ⟨h1, h2, h3, h4 | h4⟩
    · exact Or.inl (by omega)
    · exact Or.inr (by omega)

theorem has_knightAttacks_symm (s t : Nat) :
    has (knightAttacks s) t = has (knightAttacks t) s := by
  unfold knightAttacks
  simp only [has_or]
  rw [has_leap_symm (s := s) (a := 0) (b := 1) (by omega) (by omega),
    has_leap_symm (s := s) (a := 0) (b := 3) (by omega) (by omega),
    has_leap_symm (s := s) (a := 1) (b := 0) (by omega) (by omega),
    has_leap_symm (s := s) (a := 1) (b := 4) (by omega) (by omega),
    has_leap_symm (s := s) (a := 3) (b := 0) (by omega) (by omega),
    has_leap_symm (s := s) (a := 3) (b := 4) (by omega) (by omega),
    has_leap_symm (s := s) (a := 4) (b := 1) (by omega) (by omega),
    has_leap_symm (s := s) (a := 4) (b := 3) (by omega) (by omega)]
  simp only [Nat.sub_zero, Nat.sub_self, Nat.reduceSub]
  cases has (leap t 0 1) s <;> cases has (leap t 0 3) s <;> cases has (leap t 1 0) s <;>
    cases has (leap t 1 4) s <;> cases has (leap t 3 0) s <;> cases has (leap t 3 4) s <;>
    cases has (leap t 4 1) s <;> cases has (leap t 4 3) s <;> rfl

theorem has_kingAttacks_symm (s t : Nat) :
    has (kingAttacks s) t = has (kingAttacks t) s := by
  unfold kingAttacks
  simp only [has_or]
  rw [has_leap_symm (s := s) (a := 1) (b := 1) (by omega) (by omega),
    has_leap_symm (s := s) (a := 1) (b := 2) (by omega) (by omega),
    has_leap_symm (s := s) (a := 1) (b := 3) (by omega) (by omega),
    has_leap_symm (s := s) (a := 2) (b := 1) (by omega) (by omega),
    has_leap_symm (s := s) (a := 2) (b := 3) (by omega) (by omega),
    has_leap_symm (s := s) (a := 3) (b := 1) (by omega) (by omega),
    has_leap_symm (s := s) (a := 3) (b := 2) (by omega) (by omega),
    has_leap_symm (s := s) (a := 3) (b := 3) (by omega) (by omega)]
  simp only [Nat.reduceSub]
  cases has (leap t 1 1) s <;> cases has (leap t 1 2) s <;> cases has (leap t 1 3) s <;>
    cases has (leap t 2 1) s <;> cases has (leap t 2 3) s <;> cases has (leap t 3 1) s <;>
    cases has (leap t 3 2) s <;> cases has (leap t 3 3) s <;> rfl

theorem has_pawnAttacks_symm (s t : Nat) (c : Color) :
    has (pawnAttacks s c) t = has (pawnAttacks t (oppColor c)) s := by
  cases c
  · unfold pawnAttacks oppColor
    simp only [has_or]
    rw [has_leap_symm (s := s) (a := 1) (b := 3) (by omega) (by omega),
      has_leap_symm (s := s) (a := 3) (b := 3) (by omega) (by omega)]
    simp only [Nat.reduceSub]
    rw [Bool.or_comm]
  · unfold pawnAttacks oppColor
    simp only [has_or]
    rw [has_leap_symm (s := s) (a := 1) (b := 1) (by omega) (by omega),
      has_leap_symm (s := s) (a := 3) (b := 1) (by omega) (by omega)]
    simp only [Nat.reduceSub]
    rw [Bool.or_comm]

theorem has_queenAttacks {s occ t : Nat} :
    has (queenAttacks s occ) t = true ↔
      has (bishopAttacks s occ) t = true ∨ has (rookAttacks s occ) t = true := by
  unfold queenAttacks
  rw [has_or, Bool.or_eq_true]

theorem isBetween_symm_imp {a u b : Nat} (h : isBetween a u b = true) :
    isBetween b u a = true := by
  rw [isBetween_iff] at h ⊢
  rcases h with ⟨h1, h2, h3⟩ | ⟨h1, h2, h3⟩ | ⟨h1, h2, h3⟩ | ⟨h1, h2, h3⟩
  · exact Or.inl ⟨h2.symm, h1.symm, h3.symm⟩
  · exact Or.inr (Or.inl ⟨h2.symm, h1.symm, h3.symm⟩)
  · exact Or.inr (Or.inr (Or.inl ⟨h2.symm, h1.symm, h3.symm⟩))
  · exact Or.inr (Or.inr (Or.inr ⟨h2.symm, h1.symm, h3.symm⟩))

theorem isBetween_symm (a u b : Nat) : isBetween a u b = isBetween b u a := by
  rw [Bool.eq_iff_iff]
  exact ⟨isBetween_symm_imp, isBetween_symm_imp⟩

theorem has_rookAttacks_symm (s t occ : Nat) :
    has (rookAttacks s occ) t = has (rookAttacks t occ) s := by
  rw [Bool.eq_iff_iff, has_rookAttacks, has_rookAttacks]
  constructor
  · rintro ⟨h1, h2, h3, h4, h5⟩
    refine ⟨h2, h1, by omega, by omega, ?_⟩
    intro u hu hb
    rw [isBetween_symm] at hb
    exact h5 u hu hb
  · rintro ⟨h1, h2, h3, h4, h5⟩
    refine ⟨h2, h1, by omega, by omega, ?_⟩
    intro u hu hb
    rw [isBetween_symm] at hb
    exact h5 u hu hb

theorem has_bishopAttacks_symm (s t occ : Nat) :
    has (bishopAttacks s occ) t = has (bishopAttacks t occ) s := by
  rw [Bool.eq_iff_iff, has_bishopAttacks, has_bishopAttacks]
  constructor
  · rintro ⟨h1, h2, h3, h4, h5⟩
    refine ⟨h2, h1, by omega, by omega, ?_⟩
    intro u hu hb
    rw [isBetween_symm] at hb
    exact h5 u hu hb
  · rintro ⟨h1, h2, h3, h4, h5⟩
    refine ⟨h2, h1, by omega, by omega, ?_⟩
    intro u hu hb
    rw [isBetween_symm] at hb
    exact h5 u hu hb

/-! ## The shape of `legalMoves` -/

namespace Board

theorem enPassantMade_fields (Z : Zobrist) (b : Board) (p : Nat) :
    let c := b.enPassantMade Z p
    c.mColorToMove = b.mColorToMove ∧ c.knights = b.knights ∧ c.bishops = b.bishops
    ∧ c.rooks = b.rooks ∧ c.queens = b.queens ∧ c.kings = b.kings
    ∧ c.mCastlingRights = b.mCastlingRights ∧ c.mEnPassantSquare = b.mEnPassantSquare
    ∧ c.mPliesSincePawnOrCapture = b.mPliesSincePawnOrCapture
    ∧ c.mCurrentMoveCounter = b.mCurrentMoveCounter ∧ c.mZobristHashes = b.mZobristHashes
    ∧ c.mLastMove = b.mLastMove ∧ c.mCaptured = b.mCaptured := by
  cases hc : b.mColorToMove <;>
    simp [enPassantMade, removePiece, placePiece, setColorBb, setPieceBb, hc, oppColor]

theorem enPassantStep_fst (Z : Zobrist) (st : Board × List Move) (p : Nat) :
    (enPassantStep Z st p).1 = st.1 := by
  obtain ⟨h1, h2, h3, h4, h5, h6, h7, h8, h9, h10, h11, h12, h13⟩ :=
    enPassantMade_fields Z st.1 p
  unfold enPassantStep
  simp only
  generalize st.1.enPassantMade Z p = c at *
  generalize st.1 = b at *
  cases b; cases c
  simp_all

theorem foldl_enPassantStep (Z : Zobrist) (b : Board) (l : List Nat) : ∀ ms : List Move,
    l.foldl (enPassantStep Z) (b, ms) =
      (b, ms ++ (l.filter (fun p => !(b.enPassantMade Z p).inCheck)).map
        (fun p => ⟨p, b.mEnPassantSquare, Move.EN_PASSANT_FLAG⟩)) := by
  induction l with
  | nil => intro ms; simp
  | cons p l ih =>
    intro ms
    have h1 : enPassantStep Z (b, ms) p = (b, (enPassantStep Z (b, ms) p).2) := by
      have := enPassantStep_fst Z (b, ms) p
      exact Prod.ext this rfl
    rw [List.foldl_cons, h1, ih]
    have h8 : (b.enPassantMade Z p).mEnPassantSquare = b.mEnPassantSquare :=
      (enPassantMade_fields Z b p).2.2.2.2.2.2.2.1
    by_cases hc : (b.enPassantMade Z p).inCheck = true
    · simp [enPassantStep, hc]
    · simp [enPassantStep, hc, h8]

theorem legalMoves_eq (Z : Zobrist) (b : Board) (u : Bool) :
    b.legalMoves Z u = kingMoves b b.kingSquare b.theirAttacks
      ++ (if popcount b.checkers > 1 then [] else b.nonKingMoves Z u) := by
  unfold legalMoves legalMovesAux
  simp only
  by_cases h : popcount b.checkers > 1
  · simp [h, kingSquare, theirAttacks]
  · simp only [h, if_false]
    by_cases he : b.mEnPassantSquare ≠ SQUARE_NONE
    · simp only [if_pos he, foldl_enPassantStep]
      simp only [nonKingMoves, enPassantMoves, if_pos he, allPawnMoves, allKnightMoves,
        allBishopMoves, allRookMoves, allQueenMoves, movable, kingSquare, theirAttacks,
        List.append_assoc]
    · simp only [if_neg he]
      simp only [nonKingMoves, enPassantMoves, if_neg he, allPawnMoves, allKnightMoves,
        allBishopMoves, allRookMoves, allQueenMoves, movable, kingSquare, theirAttacks,
        List.append_assoc, List.nil_append]

theorem mem_kingMoves {b : Board} {k ta : Nat} {m : Move} :
    m ∈ kingMoves b k ta ↔ m.fromSq = k ∧ m.flag = Move.KING_FLAG ∧ m.toSq < 64
      ∧ has (kingAttacks k) m.toSq = true ∧ has b.us m.toSq = false
      ∧ has ta m.toSq = false := by
  unfold kingMoves
  simp only [mem_map_move, mem_bits_iff, has_and, has_not64, Bool.and_eq_true,
    decide_eq_true_eq, Bool.not_eq_true']
  tauto

theorem mem_knightMoves {b : Board} {mv sq : Nat} {m : Move} :
    m ∈ knightMoves b mv sq ↔ m.fromSq = sq ∧ m.flag = Move.KNIGHT_FLAG ∧ m.toSq < 64
      ∧ has (knightAttacks sq) m.toSq = true ∧ has b.us m.toSq = false
      ∧ has mv m.toSq = true := by
  unfold knightMoves
  simp only [mem_map_move, mem_bits_iff, has_and, has_not64, Bool.and_eq_true,
    decide_eq_true_eq, Bool.not_eq_true']
  tauto

theorem mem_bishopMoves {b : Board} {k occ mv pd sq : Nat} {m : Move} :
    m ∈ bishopMoves b k occ mv pd sq ↔ m.fromSq = sq ∧ m.flag = Move.BISHOP_FLAG ∧ m.toSq < 64
      ∧ has (bishopAttacks sq occ) m.toSq = true ∧ has b.us m.toSq = false
      ∧ has mv m.toSq = true
      ∧ (has pd sq = true → has (LINE_THROUGH k sq) m.toSq = true) := by
  unfold bishopMoves
  by_cases h : has pd sq = true
  · simp only [bit_and_ne_zero, if_pos h, mem_map_move, mem_bits_iff, has_and, has_not64,
      Bool.and_eq_true, decide_eq_true_eq, Bool.not_eq_true']
    tauto
  · simp only [bit_and_ne_zero, if_neg h, mem_map_move, mem_bits_iff, has_and, has_not64,
      Bool.and_eq_true, decide_eq_true_eq, Bool.not_eq_true']
    tauto

theorem mem_rookMoves {b : Board} {k occ mv pn sq : Nat} {m : Move} :
    m ∈ rookMoves b k occ mv pn sq ↔ m.fromSq = sq ∧ m.flag = Move.ROOK_FLAG ∧ m.toSq < 64
      ∧ has (rookAttacks sq occ) m.toSq = true ∧ has b.us m.toSq = false
      ∧ has mv m.toSq = true
      ∧ (has pn sq = true → has (LINE_THROUGH k sq) m.toSq = true) := by
  unfold rookMoves
  by_cases h : has pn sq = true
  · simp only [bit_and_ne_zero, if_pos h, mem_map_move, mem_bits_iff, has_and, has_not64,
      Bool.and_eq_true, decide_eq_true_eq, Bool.not_eq_true']
    tauto
  · simp only [bit_and_ne_zero, if_neg h, mem_map_move, mem_bits_iff, has_and, has_not64,
      Bool.and_eq_true, decide_eq_true_eq, Bool.not_eq_true']
    tauto

theorem mem_queenMoves {b : Board} {k occ mv pn pd sq : Nat} {m : Move} :
    m ∈ queenMoves b k occ mv pn pd sq ↔ m.fromSq = sq ∧ m.flag = Move.QUEEN_FLAG ∧ m.toSq < 64
      ∧ has (queenAttacks sq occ) m.toSq = true ∧ has b.us m.toSq = false
      ∧ has mv m.toSq = true
      ∧ (has (pd ||| pn) sq = true → has (LINE_THROUGH k sq) m.toSq = true) := by
  unfold queenMoves
  by_cases h : has (pd ||| pn) sq = true
  · simp only [bit_and_ne_zero, if_pos h, mem_map_move, mem_bits_iff, has_and, has_not64,
      Bool.and_eq_true, decide_eq_true_eq, Bool.not_eq_true']
    tauto
  · simp only [bit_and_ne_zero, if_neg h, mem_map_move, mem_bits_iff, has_and, has_not64,
      Bool.and_eq_true, decide_eq_true_eq, Bool.not_eq_true']
    tauto

theorem mem_enPassantMoves {Z : Zobrist} {b : Board} {m : Move} :
    m ∈ b.enPassantMoves Z ↔ b.mEnPassantSquare ≠ SQUARE_NONE
      ∧ m.toSq = b.mEnPassantSquare ∧ m.flag = Move.EN_PASSANT_FLAG ∧ m.fromSq < 64
      ∧ has b.us m.fromSq = true ∧ has b.pawns m.fromSq = true
      ∧ has (pawnAttacks b.mEnPassantSquare (oppColor b.mColorToMove)) m.fromSq = true
      ∧ (b.enPassantMade Z m.fromSq).inCheck = false := by
  unfold enPassantMoves
  by_cases he : b.mEnPassantSquare ≠ SQUARE_NONE
  · rw [if_pos he, List.mem_map]
    simp only [List.mem_filter, mem_bits_iff, has_and, Bool.and_eq_true, Bool.not_eq_true']
    constructor
    · rintro ⟨p, ⟨⟨h1, ⟨h2, h3⟩, h4⟩, h5⟩, rfl⟩
      exact ⟨he, rfl, rfl, h1, h2, h3, h4, h5⟩
    · rintro ⟨_, h0, h0', h1, h2, h3, h4, h5⟩
      refine ⟨m.fromSq, ⟨⟨h1, ⟨h2, h3⟩, h4⟩, h5⟩, ?_⟩
      cases m
      simp_all
  · rw [if_neg he]
    simp [he]

theorem filter_addPromotions (sq t : Nat) :
    (addPromotions sq t true).filter (fun m => !m.isUnderpromotion) = addPromotions sq t false := by
  simp [addPromotions, Move.isUnderpromotion, Move.QUEEN_PROMOTION_FLAG,
    Move.KNIGHT_PROMOTION_FLAG, Move.BISHOP_PROMOTION_FLAG, Move.ROOK_PROMOTION_FLAG]

theorem filter_pawnMoves (b : Board) (k mv pn pd sq : Nat) :
    (pawnMoves b k mv pn pd true sq).filter (fun m => !m.isUnderpromotion)
      = pawnMoves b k mv pn pd false sq := by
  unfold pawnMoves
  simp only [List.filter_append, List.filter_flatMap]
  congr 1
  · congr 1
    funext t
    by_cases hw : b.willPromote sq = true
    · simp only [hw, if_true, filter_addPromotions]
    · simp only [hw]
      simp [Move.isUnderpromotion, Move.PAWN_FLAG, Move.KNIGHT_PROMOTION_FLAG,
        Move.BISHOP_PROMOTION_FLAG, Move.ROOK_PROMOTION_FLAG]
  · have h2 : ∀ l : List Move, (∀ m ∈ l, m.flag = Move.PAWN_TWO_UP_FLAG ∨ m.flag = Move.PAWN_FLAG) →
        l.filter (fun m => !m.isUnderpromotion) = l := by
      intro l hl
      rw [List.filter_eq_self]
      intro m hm
      rcases hl m hm with h | h <;>
        simp [Move.isUnderpromotion, h, Move.PAWN_FLAG, Move.PAWN_TWO_UP_FLAG,
          Move.KNIGHT_PROMOTION_FLAG, Move.BISHOP_PROMOTION_FLAG, Move.ROOK_PROMOTION_FLAG]
    split
    · rfl
    · split
      · rfl
      · split
        · rfl
        · split
          · split
            · exact filter_addPromotions _ _
            · apply h2
              intro m hm
              rw [List.mem_cons] at hm
              rcases hm with rfl | hm
              · exact Or.inr rfl
              · split at hm
                · simp at hm
                · split at hm
                  · simp only [List.mem_singleton] at hm
                    subst hm
                    exact Or.inl rfl
                  · simp at hm
          · apply h2
            intro m hm
            split at hm
            · simp at hm
            · split at hm
              · simp only [List.mem_singleton] at hm
                subst hm
                exact Or.inl rfl
              · simp at hm

theorem mem_castlingMoves {b : Board} {k occ ta n : Nat} {m : Move} :
    m ∈ castlingMoves b k occ ta n ↔ n = 0 ∧ m.fromSq = k ∧ m.flag = Move.CASTLING_FLAG
      ∧ ((b.mCastlingRights &&& CASTLING_MASKS b.mColorToMove CASTLE_SHORT ≠ 0
          ∧ occ &&& (squareToBitboard (addSq k 1) ||| squareToBitboard (addSq k 2)) = 0
          ∧ ta &&& (squareToBitboard (addSq k 1) ||| squareToBitboard (addSq k 2)) = 0
          ∧ m.toSq = addSq k 2)
        ∨ (b.mCastlingRights &&& CASTLING_MASKS b.mColorToMove CASTLE_LONG ≠ 0
          ∧ occ &&& (squareToBitboard (subSq k 1) ||| squareToBitboard (subSq k 2)
              ||| squareToBitboard (subSq k 3)) = 0
          ∧ ta &&& ((squareToBitboard (subSq k 1) ||| squareToBitboard (subSq k 2)
              ||| squareToBitboard (subSq k 3)) ^^^ squareToBitboard (subSq k 3)) = 0
          ∧ m.toSq = subSq k 2)) := by
  have hm : ∀ (t : Nat), m ∈ [(⟨k, t, Move.CASTLING_FLAG⟩ : Move)] ↔
      m.fromSq = k ∧ m.flag = Move.CASTLING_FLAG ∧ m.toSq = t := by
    intro t
    cases m
    simp only [List.mem_singleton, Move.mk.injEq]
    tauto
  unfold castlingMoves
  simp only []
  by_cases hn : n = 0
  · rw [if_pos hn, List.mem_append]
    by_cases h1 : b.mCastlingRights &&& CASTLING_MASKS b.mColorToMove CASTLE_SHORT ≠ 0
    · by_cases h2 : occ &&& (squareToBitboard (addSq k 1) ||| squareToBitboard (addSq k 2)) = 0
          ∧ ta &&& (squareToBitboard (addSq k 1) ||| squareToBitboard (addSq k 2)) = 0
      · by_cases h3 : b.mCastlingRights &&& CASTLING_MASKS b.mColorToMove CASTLE_LONG ≠ 0
        · by_cases h4 : occ &&& (squareToBitboard (subSq k 1) ||| squareToBitboard (subSq k 2)
              ||| squareToBitboard (subSq k 3)) = 0
            ∧ ta &&& ((squareToBitboard (subSq k 1) ||| squareToBitboard (subSq k 2)
              ||| squareToBitboard (subSq k 3)) ^^^ squareToBitboard (subSq k 3)) = 0
          · rw [if_pos h1, if_pos h2, if_pos h3, if_pos h4, hm, hm]; tauto
          · rw [if_pos h1, if_pos h2, if_pos h3, if_neg h4, hm]; simp only [List.not_mem_nil]; tauto
        · rw [if_pos h1, if_pos h2, if_neg h3, hm]; simp only [List.not_mem_nil]; tauto
      · by_cases h3 : b.mCastlingRights &&& CASTLING_MASKS b.mColorToMove CASTLE_LONG ≠ 0
        · by_cases h4 : occ &&& (squareToBitboard (subSq k 1) ||| squareToBitboard (subSq k 2)
              ||| squareToBitboard (subSq k 3)) = 0
            ∧ ta &&& ((squareToBitboard (subSq k 1) ||| squareToBitboard (subSq k 2)
              ||| squareToBitboard (subSq k 3)) ^^^ squareToBitboard (subSq k 3)) = 0
          · rw [if_pos h1, if_neg h2, if_pos h3, if_pos h4, hm]; simp only [List.not_mem_nil]; tauto
          · rw [if_pos h1, if_neg h2, if_pos h3, if_neg h4]; simp only [List.not_mem_nil]; tauto
        · rw [if_pos h1, if_neg h2, if_neg h3]; simp only [List.not_mem_nil]; tauto
    · by_cases h3 : b.mCastlingRights &&& CASTLING_MASKS b.mColorToMove CASTLE_LONG ≠ 0
      · by_cases h4 : occ &&& (squareToBitboard (subSq k 1) ||| squareToBitboard (subSq k 2)
            ||| squareToBitboard (subSq k 3)) = 0
          ∧ ta &&& ((squareToBitboard (subSq k 1) ||| squareToBitboard (subSq k 2)
            ||| squareToBitboard (subSq k 3)) ^^^ squareToBitboard (subSq k 3)) = 0
        · rw [if_neg h1, if_pos h3, if_pos h4, hm]; simp only [List.not_mem_nil]; tauto
        · rw [if_neg h1, if_pos h3, if_neg h4]; simp only [List.not_mem_nil]; tauto
      · rw [if_neg h1, if_neg h3]; simp only [List.not_mem_nil]; tauto
  · rw [if_neg hn]
    simp only [List.not_mem_nil]
    tauto

theorem mem_castlingMoves_flag {b : Board} {k occ ta n : Nat} {m : Move}
    (h : m ∈ castlingMoves b k occ ta n) : m.flag = Move.CASTLING_FLAG ∧ m.fromSq = k :=
  ⟨(mem_castlingMoves.mp h).2.2.1, (mem_castlingMoves.mp h).2.1⟩

theorem filter_eq_self_of_flag {l : List Move} {F : Nat} (hF : F < 10 ∨ 12 < F)
    (h : ∀ m ∈ l, m.flag = F) : l.filter (fun m => !m.isUnderpromotion) = l := by
  rw [List.filter_eq_self]
  intro m hm
  have := h m hm
  simp only [Move.isUnderpromotion, Move.KNIGHT_PROMOTION_FLAG, Move.BISHOP_PROMOTION_FLAG,
    Move.ROOK_PROMOTION_FLAG, this]
  rcases hF with hF | hF <;> simp <;> omega

theorem filter_nonKingMoves (Z : Zobrist) (b : Board) :
    (b.nonKingMoves Z true).filter (fun m => !m.isUnderpromotion) = b.nonKingMoves Z false := by
  unfold nonKingMoves
  simp only [List.filter_append]
  have h1 := filter_eq_self_of_flag (l := castlingMoves b b.kingSquare b.occupancy b.theirAttacks
    (popcount b.checkers)) (F := Move.CASTLING_FLAG) (Or.inl (by decide))
    (fun m hm => (mem_castlingMoves_flag hm).1)
  have h2 := filter_eq_self_of_flag (l := b.enPassantMoves Z) (F := Move.EN_PASSANT_FLAG)
    (Or.inr (by decide)) (fun m hm => (mem_enPassantMoves.mp hm).2.2.1)
  have h3 : (b.allPawnMoves true).filter (fun m => !m.isUnderpromotion) = b.allPawnMoves false := by
    unfold allPawnMoves
    rw [List.filter_flatMap]
    congr 1
    funext sq
    exact filter_pawnMoves b _ _ _ _ sq
  have h4 := filter_eq_self_of_flag (l := b.allKnightMoves) (F := Move.KNIGHT_FLAG)
    (Or.inl (by decide)) (fun m hm => by
      obtain ⟨sq, _, h⟩ := List.mem_flatMap.mp hm
      exact (mem_knightMoves.mp h).2.1)
  have h5 := filter_eq_self_of_flag (l := b.allBishopMoves) (F := Move.BISHOP_FLAG)
    (Or.inl (by decide)) (fun m hm => by
      obtain ⟨sq, _, h⟩ := List.mem_flatMap.mp hm
      exact (mem_bishopMoves.mp h).2.1)
  have h6 := filter_eq_self_of_flag (l := b.allRookMoves) (F := Move.ROOK_FLAG)
    (Or.inl (by decide)) (fun m hm => by
      obtain ⟨sq, _, h⟩ := List.mem_flatMap.mp hm
      exact (mem_rookMoves.mp h).2.1)
  have h7 := filter_eq_self_of_flag (l := b.allQueenMoves) (F := Move.QUEEN_FLAG)
    (Or.inl (by decide)) (fun m hm => by
      obtain ⟨sq, _, h⟩ := List.mem_flatMap.mp hm
      exact (mem_queenMoves.mp h).2.1)
  rw [h1, h2, h3, h4, h5, h6, h7]

theorem filter_legalMoves (Z : Zobrist) (b : Board) :
    (b.legalMoves Z true).filter (fun m => !m.isUnderpromotion) = b.legalMoves Z false := by
  rw [legalMoves_eq, legalMoves_eq, List.filter_append]
  have h0 := filter_eq_self_of_flag (l := kingMoves b b.kingSquare b.theirAttacks)
    (F := Move.KING_FLAG) (Or.inl (by decide)) (fun m hm => (mem_kingMoves.mp hm).2.1)
  rw [h0]
  split
  · rfl
  · rw [filter_nonKingMoves]

/-- C4. Underpromotion flag: `legalMoves(underpromotions = false)` is `legalMoves(true)` with
the moves that carry a knight-, bishop- or rook-promotion flag removed, in the same order; every
queen promotion of the full list is in the reduced list; a move that is not a promotion is in
one list exactly when it is in the other. -/
theorem legalMoves_without_underpromotions (Z : Zobrist) (b : Board) :
    b.legalMoves Z false = (b.legalMoves Z true).filter (fun m => !m.isUnderpromotion)
    ∧ (∀ m, m ∈ b.legalMoves Z true ∧ m.flag = Move.QUEEN_PROMOTION_FLAG →
        m ∈ b.legalMoves Z false)
    ∧ (∀ m, m.promotion = PieceType.NONE →
        (m ∈ b.legalMoves Z false ↔ m ∈ b.legalMoves Z true)) := by
  refine ⟨(filter_legalMoves Z b).symm, ?_, ?_⟩
  · rintro m ⟨hm, hq⟩
    rw [← filter_legalMoves, List.mem_filter]
    refine ⟨hm, ?_⟩
    simp [Move.isUnderpromotion, hq, Move.QUEEN_PROMOTION_FLAG, Move.KNIGHT_PROMOTION_FLAG,
      Move.BISHOP_PROMOTION_FLAG, Move.ROOK_PROMOTION_FLAG]
  · intro m hp
    rw [← filter_legalMoves, List.mem_filter]
    constructor
    · exact fun h => h.1
    · intro h
      refine ⟨h, ?_⟩
      unfold Move.promotion at hp
      simp only [Move.isUnderpromotion, Bool.not_eq_true', Bool.or_eq_false_iff,
        decide_eq_false_iff_not]
      refine ⟨⟨?_, ?_⟩, ?_⟩ <;> intro hf <;> simp [hf, Move.KNIGHT_PROMOTION_FLAG,
        Move.BISHOP_PROMOTION_FLAG, Move.ROOK_PROMOTION_FLAG] at hp

end Board

/-! ## Valid positions -/

theorem has_lt_of_lt {x s : Nat} (hx : x < 2 ^ 64) (h : has x s = true) : s < 64 := by
  by_contra hs
  have h1 : x < 2 ^ s := Nat.lt_of_lt_of_le hx (Nat.pow_le_pow_right (by omega) (by omega))
  have h2 := Nat.testBit_lt_two_pow h1
  unfold has at h
  rw [h2] at h
  exact Bool.false_ne_true h

theorem and_eq_zero_iff {x y : Nat} : x &&& y = 0 ↔ ∀ s, has x s = true → has y s = false := by
  rw [eq_zero_iff_forall_has]
  constructor
  · intro h s hx
    have := h s
    rw [has_and, hx] at this
    simpa using this
  · intro h s
    rw [has_and]
    cases hx : has x s
    · rfl
    · simp [h s hx]

theorem and_ne_zero_iff {x y : Nat} : x &&& y ≠ 0 ↔ ∃ s, has x s = true ∧ has y s = true := by
  rw [ne_zero_iff_exists_has]
  simp only [has_and, Bool.and_eq_true]

theorem eq_of_has_eq {x y : Nat} (h : ∀ s, has x s = has y s) : x = y :=
  Nat.eq_of_testBit_eq h

theorem popcount_eq_one {x : Nat} (h : popcount x = 1) :
    ∃ k, k < 64 ∧ lsb x = k ∧ ∀ s, s < 64 → (has x s = true ↔ s = k) := by
  unfold popcount at h
  match hb : bits x, h with
  | [k], _ =>
    have hk : k ∈ bits x := by rw [hb]; exact List.mem_singleton.mpr rfl
    refine ⟨k, (mem_bits_iff.mp hk).1, ?_, ?_⟩
    · unfold lsb
      rw [hb]
      rfl
    · intro s hs
      constructor
      · intro h1
        have : s ∈ bits x := mem_bits_iff.mpr ⟨hs, h1⟩
        rw [hb] at this
        exact List.mem_singleton.mp this
      · rintro rfl
        exact (mem_bits_iff.mp hk).2

theorem popcount_eq_zero {x : Nat} (hx : x < 2 ^ 64) (h : popcount x = 0) : x = 0 := by
  unfold popcount at h
  have hb : bits x = [] := List.length_eq_zero.mp h
  rw [eq_zero_iff_forall_has]
  intro s
  by_contra hs
  simp only [Bool.not_eq_false] at hs
  have : s ∈ bits x := mem_bits_iff.mpr ⟨has_lt_of_lt hx hs, hs⟩
  rw [hb] at this
  exact List.not_mem_nil _ this

theorem popcount_le_one {x : Nat} (h : popcount x ≤ 1) {s t : Nat} (hs : s < 64) (ht : t < 64)
    (h1 : has x s = true) (h2 : has x t = true) : s = t := by
  unfold popcount at h
  have hs' : s ∈ bits x := mem_bits_iff.mpr ⟨hs, h1⟩
  have ht' : t ∈ bits x := mem_bits_iff.mpr ⟨ht, h2⟩
  match hb : bits x, h with
  | [], _ => rw [hb] at hs'; exact absurd hs' (List.not_mem_nil _)
  | [k], _ =>
    rw [hb] at hs' ht'
    rw [List.mem_singleton.mp hs', List.mem_singleton.mp ht']

theorem lsb_of_has {x s : Nat} (h : popcount x = 1) (hs : s < 64) (h1 : has x s = true) :
    lsb x = s := by
  obtain ⟨k, _, hk2, hk3⟩ := popcount_eq_one h
  rw [hk2, (hk3 s hs).mp h1]

namespace Board

theorem oppColor_oppColor (c : Color) : oppColor (oppColor c) = c := by
  cases c <;> rfl

theorem occupancy_eq (b : Board) : b.occupancy = b.white ||| b.black := by
  unfold occupancy us them
  cases b.mColorToMove
  · rfl
  · exact Nat.or_comm _ _

theorem has_occupancy (b : Board) (c : Color) (s : Nat) :
    has b.occupancy s = (has (b.colorBb c) s || has (b.colorBb (oppColor c)) s) := by
  rw [occupancy_eq, has_or]
  cases c
  · rfl
  · exact Bool.or_comm _ _

theorem Valid.facts {b : Board} (h : b.Valid) : b.ValidFacts := by
  unfold Valid isValid isConsistent at h
  simp only [Bool.and_eq_true, decide_eq_true_eq, Bool.not_eq_true'] at h
  obtain ⟨⟨⟨⟨⟨⟨⟨⟨⟨⟨⟨⟨⟨⟨⟨⟨⟨⟨⟨⟨⟨h1, h2⟩, h3⟩, p1⟩, p2⟩, p3⟩, p4⟩, p5⟩, p6⟩, p7⟩, p8⟩, p9⟩, p10⟩, p11⟩,
    p12⟩, p13⟩, p14⟩, p15⟩, h4⟩, h5⟩, h6⟩, h7⟩ := h
  refine ⟨h1, h2, h3, ?_, h4, h5, h6, h7⟩
  intro p q hpq
  cases p <;> cases q <;> simp only [pieceBb, Nat.and_zero, Nat.zero_and, ne_eq,
    not_true_eq_false] at hpq ⊢ <;> first | assumption | (rw [Nat.and_comm]; assumption)

end Board

namespace Board

/-! ### Consequences of validity -/

theorem Valid.colorBb_lt {b : Board} (h : b.Valid) (c : Color) : b.colorBb c < 2 ^ 64 := by
  cases c
  · exact h.facts.white_lt
  · exact h.facts.black_lt

theorem Valid.color_lt {b : Board} (h : b.Valid) {c : Color} {s : Nat}
    (hs : has (b.colorBb c) s = true) : s < 64 :=
  has_lt_of_lt (h.colorBb_lt c) hs

theorem Valid.color_disjoint {b : Board} (h : b.Valid) {c : Color} {s : Nat}
    (h1 : has (b.colorBb c) s = true) : has (b.colorBb (oppColor c)) s = false := by
  have h0 := and_eq_zero_iff.mp h.facts.colors
  cases c
  · exact h0 s h1
  · simp only [oppColor, colorBb] at h1 ⊢
    by_contra hw
    simp only [Bool.not_eq_false] at hw
    rw [h0 s hw] at h1
    exact Bool.false_ne_true h1

theorem Valid.piece_unique {b : Board} (h : b.Valid) {p q : PieceType} {s : Nat}
    (hp : has (b.pieceBb p) s = true) (hq : has (b.pieceBb q) s = true) : p = q := by
  by_contra hne
  have := and_eq_zero_iff.mp (h.facts.pieces p q hne) s hp
  rw [this] at hq
  exact Bool.false_ne_true hq

theorem has_pieces_union (b : Board) (s : Nat) :
    has (b.pawns ||| b.knights ||| b.bishops ||| b.rooks ||| b.queens ||| b.kings) s = true ↔
      ∃ p, has (b.pieceBb p) s = true := by
  simp only [has_or, Bool.or_eq_true]
  constructor
  · rintro (((((h | h) | h) | h) | h) | h)
    · exact ⟨.PAWN, h⟩
    · exact ⟨.KNIGHT, h⟩
    · exact ⟨.BISHOP, h⟩
    · exact ⟨.ROOK, h⟩
    · exact ⟨.QUEEN, h⟩
    · exact ⟨.KING, h⟩
  · rintro ⟨p, h⟩
    cases p
    · exact Or.inl (Or.inl (Or.inl (Or.inl (Or.inl h))))
    · exact Or.inl (Or.inl (Or.inl (Or.inl (Or.inr h))))
    · exact Or.inl (Or.inl (Or.inl (Or.inr h)))
    · exact Or.inl (Or.inl (Or.inr h))
    · exact Or.inl (Or.inr h)
    · exact Or.inr h
    · simp [pieceBb, has_zero] at h

theorem Valid.occupied_iff {b : Board} (h : b.Valid) (s : Nat) :
    has b.occupancy s = true ↔ ∃ p, has (b.pieceBb p) s = true := by
  rw [occupancy_eq, ← h.facts.union, has_pieces_union]

theorem Valid.piece_lt {b : Board} (h : b.Valid) {p : PieceType} {s : Nat}
    (hs : has (b.pieceBb p) s = true) : s < 64 := by
  have h1 : has b.occupancy s = true := (h.occupied_iff s).mpr ⟨p, hs⟩
  rw [occupancy_eq, has_or, Bool.or_eq_true] at h1
  rcases h1 with h1 | h1
  · exact has_lt_of_lt h.facts.white_lt h1
  · exact has_lt_of_lt h.facts.black_lt h1

theorem Valid.occupied_lt {b : Board} (h : b.Valid) {s : Nat}
    (hs : has b.occupancy s = true) : s < 64 := by
  obtain ⟨p, hp⟩ := (h.occupied_iff s).mp hs
  exact h.piece_lt hp

theorem Valid.color_of_piece {b : Board} (h : b.Valid) {p : PieceType} {s : Nat} (c : Color)
    (hs : has (b.pieceBb p) s = true) :
    has (b.colorBb c) s = true ∨ has (b.colorBb (oppColor c)) s = true := by
  have h1 : has b.occupancy s = true := (h.occupied_iff s).mpr ⟨p, hs⟩
  rw [has_occupancy b c, Bool.or_eq_true] at h1
  exact h1

theorem Valid.pieceTypeAt_eq {b : Board} (h : b.Valid) {p : PieceType} {s : Nat}
    (hs : has (b.pieceBb p) s = true) : b.pieceTypeAt s = p := by
  have ho : has b.occupancy s = true := (h.occupied_iff s).mpr ⟨p, hs⟩
  have hq : ∀ q, has (b.pieceBb q) s = decide (q = p) := by
    intro q
    by_cases hqp : q = p
    · subst hqp
      rw [hs]
      simp
    · have : has (b.pieceBb q) s = false := by
        by_contra hx
        simp only [Bool.not_eq_false] at hx
        exact hqp (h.piece_unique hx hs)
      rw [this]
      simp [hqp]
  have h1 := hq .PAWN
  have h2 := hq .KNIGHT
  have h3 := hq .BISHOP
  have h4 := hq .ROOK
  have h5 := hq .QUEEN
  have h6 := hq .KING
  simp only [pieceBb] at h1 h2 h3 h4 h5 h6
  unfold pieceTypeAt isOccupied
  rw [ho, h1, h2, h3, h4, h5, h6]
  cases p <;> rfl

theorem pieceTypeAt_eq_NONE_iff {b : Board} (h : b.Valid) (s : Nat) :
    b.pieceTypeAt s = .NONE ↔ has b.occupancy s = false := by
  constructor
  · intro hn
    by_contra ho
    simp only [Bool.not_eq_false] at ho
    obtain ⟨p, hp⟩ := (h.occupied_iff s).mp ho
    have := h.pieceTypeAt_eq hp
    rw [hn] at this
    subst this
    simp [pieceBb, has_zero] at hp
  · intro ho
    unfold pieceTypeAt isOccupied
    rw [ho]
    rfl

theorem Valid.has_pieceTypeAt {b : Board} (h : b.Valid) {s : Nat}
    (ho : has b.occupancy s = true) : has (b.pieceBb (b.pieceTypeAt s)) s = true := by
  obtain ⟨p, hp⟩ := (h.occupied_iff s).mp ho
  rw [h.pieceTypeAt_eq hp]
  exact hp

/-- In a valid position each side has one king; `kingOf` is its square. -/
theorem Valid.king {b : Board} (h : b.Valid) (c : Color) :
    ∃ k, k < 64 ∧ lsb (b.colorBb c &&& b.kings) = k
      ∧ ∀ s, (has (b.colorBb c) s = true ∧ has b.kings s = true ↔ s = k) := by
  have hp : popcount (b.colorBb c &&& b.kings) = 1 := by
    cases c
    · exact h.facts.whiteKing
    · exact h.facts.blackKing
  obtain ⟨k, hk1, hk2, hk3⟩ := popcount_eq_one hp
  refine ⟨k, hk1, hk2, ?_⟩
  intro s
  constructor
  · rintro ⟨h1, h2⟩
    exact (hk3 s (h.color_lt h1)).mp (by rw [has_and, h1, h2]; rfl)
  · rintro rfl
    have := (hk3 s hk1).mpr rfl
    rw [has_and, Bool.and_eq_true] at this
    exact this

theorem Valid.kingSquare_spec {b : Board} (h : b.Valid) :
    b.kingSquare < 64 ∧ ∀ s, (has b.us s = true ∧ has b.kings s = true ↔ s = b.kingSquare) := by
  obtain ⟨k, hk1, hk2, hk3⟩ := h.king b.mColorToMove
  unfold kingSquare us
  rw [hk2]
  exact ⟨hk1, hk3⟩

end Board

namespace Board

/-! ### `placePiece` and `removePiece` -/

theorem colorBb_setColorBb (b : Board) (c c' : Color) (v : Nat) :
    (b.setColorBb c v).colorBb c' = if c' = c then v else b.colorBb c' := by
  cases c <;> cases c' <;> rfl

theorem pieceBb_setColorBb (b : Board) (c : Color) (v : Nat) (p : PieceType) :
    (b.setColorBb c v).pieceBb p = b.pieceBb p := by
  cases c <;> cases p <;> rfl

theorem colorBb_setPieceBb (b : Board) (p : PieceType) (v : Nat) (c : Color) :
    (b.setPieceBb p v).colorBb c = b.colorBb c := by
  cases c <;> cases p <;> rfl

theorem pieceBb_setPieceBb (b : Board) (p p' : PieceType) (v : Nat) (hp : p ≠ .NONE) :
    (b.setPieceBb p v).pieceBb p' = if p' = p then v else b.pieceBb p' := by
  cases p <;> cases p' <;> first | rfl | exact absurd rfl hp

theorem colorBb_placePiece (Z : Zobrist) (b : Board) (c c' : Color) (p : PieceType) (sq : Nat) :
    (b.placePiece Z c p sq).colorBb c'
      = if c' = c then b.colorBb c ||| 1 <<< sq else b.colorBb c' := by
  cases c <;> cases c' <;> cases p <;> rfl

theorem colorBb_removePiece (Z : Zobrist) (b : Board) (c c' : Color) (p : PieceType) (sq : Nat) :
    (b.removePiece Z c p sq).colorBb c'
      = if c' = c then b.colorBb c ^^^ 1 <<< sq else b.colorBb c' := by
  cases c <;> cases c' <;> cases p <;> rfl

theorem pieceBb_placePiece (Z : Zobrist) (b : Board) (c : Color) (p p' : PieceType) (sq : Nat)
    (hp : p ≠ .NONE) :
    (b.placePiece Z c p sq).pieceBb p'
      = if p' = p then b.pieceBb p ||| 1 <<< sq else b.pieceBb p' := by
  cases c <;> cases p <;> cases p' <;> first | rfl | exact absurd rfl hp

theorem pieceBb_removePiece (Z : Zobrist) (b : Board) (c : Color) (p p' : PieceType) (sq : Nat)
    (hp : p ≠ .NONE) :
    (b.removePiece Z c p sq).pieceBb p'
      = if p' = p then b.pieceBb p ^^^ 1 <<< sq else b.pieceBb p' := by
  cases c <;> cases p <;> cases p' <;> first | rfl | exact absurd rfl hp

theorem mColorToMove_placePiece (Z : Zobrist) (b : Board) (c : Color) (p : PieceType) (sq : Nat) :
    (b.placePiece Z c p sq).mColorToMove = b.mColorToMove := by
  cases c <;> cases p <;> rfl

theorem mColorToMove_removePiece (Z : Zobrist) (b : Board) (c : Color) (p : PieceType)
    (sq : Nat) : (b.removePiece Z c p sq).mColorToMove = b.mColorToMove := by
  cases c <;> cases p <;> rfl

theorem has_colorBb_placePiece (Z : Zobrist) (b : Board) (c c' : Color) (p : PieceType)
    (sq x : Nat) :
    has ((b.placePiece Z c p sq).colorBb c') x
      = (has (b.colorBb c') x || (decide (c' = c) && decide (sq = x))) := by
  rw [colorBb_placePiece]
  by_cases h : c' = c
  · subst h
    simp [has_or, has_bit]
  · simp [h]

theorem has_colorBb_removePiece (Z : Zobrist) (b : Board) (c c' : Color) (p : PieceType)
    (sq x : Nat) :
    has ((b.removePiece Z c p sq).colorBb c') x
      = (has (b.colorBb c') x ^^ (decide (c' = c) && decide (sq = x))) := by
  rw [colorBb_removePiece]
  by_cases h : c' = c
  · subst h
    simp [has_xor, has_bit]
  · simp [h]

theorem has_pieceBb_placePiece (Z : Zobrist) (b : Board) (c : Color) (p p' : PieceType)
    (sq x : Nat) (hp : p ≠ .NONE) :
    has ((b.placePiece Z c p sq).pieceBb p') x
      = (has (b.pieceBb p') x || (decide (p' = p) && decide (sq = x))) := by
  rw [pieceBb_placePiece Z b c p p' sq hp]
  by_cases h : p' = p
  · subst h
    simp [has_or, has_bit]
  · simp [h]

theorem has_pieceBb_removePiece (Z : Zobrist) (b : Board) (c : Color) (p p' : PieceType)
    (sq x : Nat) (hp : p ≠ .NONE) :
    has ((b.removePiece Z c p sq).pieceBb p') x
      = (has (b.pieceBb p') x ^^ (decide (p' = p) && decide (sq = x))) := by
  rw [pieceBb_removePiece Z b c p p' sq hp]
  by_cases h : p' = p
  · subst h
    simp [has_xor, has_bit]
  · simp [h]

end Board

namespace Board

/-! ### The pieces after `makeMove` -/

theorem pieceTypeAt_congr {b b1 : Board} {t : Nat}
    (hc : ∀ c, has (b1.colorBb c) t = has (b.colorBb c) t)
    (hp : ∀ p, has (b1.pieceBb p) t = has (b.pieceBb p) t) :
    b1.pieceTypeAt t = b.pieceTypeAt t := by
  have h1 := hp .PAWN
  have h2 := hp .KNIGHT
  have h3 := hp .BISHOP
  have h4 := hp .ROOK
  have h5 := hp .QUEEN
  have h6 := hp .KING
  simp only [pieceBb] at h1 h2 h3 h4 h5 h6
  unfold pieceTypeAt isOccupied
  rw [has_occupancy b1 .WHITE, has_occupancy b .WHITE, hc, hc, h1, h2, h3, h4, h5, h6]

/-- The board `makeMove` works on once the hash is pushed on the history. -/
theorem valid_pushed {b : Board} (h : List Nat) (hv : b.Valid) :
    Valid { b with mZobristHashes := h } := hv

theorem colorBb_updateEnPassant (Z : Zobrist) (b : Board) (stm : Color) (m : Move) (c : Color) :
    (updateEnPassant Z b stm m).colorBb c = b.colorBb c := by
  unfold updateEnPassant
  simp only
  split <;> split <;> cases c <;> rfl

theorem pieceBb_updateEnPassant (Z : Zobrist) (b : Board) (stm : Color) (m : Move)
    (p : PieceType) : (updateEnPassant Z b stm m).pieceBb p = b.pieceBb p := by
  unfold updateEnPassant
  simp only
  split <;> split <;> cases p <;> rfl

theorem colorBb_makeMove (Z : Zobrist) (b : Board) (m : Move) (c : Color) :
    (b.makeMove Z m).colorBb c
      = (movePieces Z { b with mZobristHashes := b.mZobristHashes ++ [b.mZobristHash] } m).colorBb c := by
  unfold makeMove
  simp only
  have h1 : ∀ (x : Board), (updateCounters Z x m).colorBb c = x.colorBb c := by
    intro x; cases c <;> rfl
  have h2 : ∀ (x : Board) s, (updateCastlingRights x s m).colorBb c = x.colorBb c := by
    intro x s; cases c <;> rfl
  rw [h1, colorBb_updateEnPassant, h2]

theorem pieceBb_makeMove (Z : Zobrist) (b : Board) (m : Move) (p : PieceType) :
    (b.makeMove Z m).pieceBb p
      = (movePieces Z { b with mZobristHashes := b.mZobristHashes ++ [b.mZobristHash] } m).pieceBb p := by
  unfold makeMove
  simp only
  have h1 : ∀ (x : Board), (updateCounters Z x m).pieceBb p = x.pieceBb p := by
    intro x; cases p <;> rfl
  have h2 : ∀ (x : Board) s, (updateCastlingRights x s m).pieceBb p = x.pieceBb p := by
    intro x s; cases p <;> rfl
  rw [h1, pieceBb_updateEnPassant, h2]

theorem mColorToMove_movePieces (Z : Zobrist) (b : Board) (m : Move) :
    (movePieces Z b m).mColorToMove = b.mColorToMove := by
  unfold movePieces
  simp only
  split
  · simp only [mColorToMove_placePiece, mColorToMove_removePiece]
  · split
    · simp only [mColorToMove_placePiece, mColorToMove_removePiece]
    · rw [mColorToMove_placePiece]
      split
      · rw [mColorToMove_removePiece]
        exact mColorToMove_removePiece Z b _ _ _
      · exact mColorToMove_removePiece Z b _ _ _

theorem mColorToMove_updateEnPassant (Z : Zobrist) (b : Board) (stm : Color) (m : Move) :
    (updateEnPassant Z b stm m).mColorToMove = b.mColorToMove := by
  unfold updateEnPassant
  simp only
  split <;> split <;> rfl

theorem mColorToMove_makeMove (Z : Zobrist) (b : Board) (m : Move) :
    (b.makeMove Z m).mColorToMove = oppColor b.mColorToMove := by
  unfold makeMove
  simp only
  have h1 : ∀ (x : Board), (updateCounters Z x m).mColorToMove = oppColor x.mColorToMove :=
    fun x => rfl
  have h2 : ∀ (x : Board) s, (updateCastlingRights x s m).mColorToMove = x.mColorToMove :=
    fun x s => rfl
  rw [h1, mColorToMove_updateEnPassant, h2, mColorToMove_movePieces]

end Board

namespace Board

theorem colorBb_withCaptured (b : Board) (k : PieceType) (c : Color) :
    ({ b with mCaptured := k } : Board).colorBb c = b.colorBb c := by
  cases c <;> rfl

theorem pieceBb_withCaptured (b : Board) (k : PieceType) (p : PieceType) :
    ({ b with mCaptured := k } : Board).pieceBb p = b.pieceBb p := by
  cases p <;> rfl

theorem mCaptured_placePiece (Z : Zobrist) (b : Board) (c : Color) (p : PieceType) (sq : Nat) :
    (b.placePiece Z c p sq).mCaptured = b.mCaptured := by
  cases c <;> cases p <;> rfl

theorem mCaptured_removePiece (Z : Zobrist) (b : Board) (c : Color) (p : PieceType) (sq : Nat) :
    (b.removePiece Z c p sq).mCaptured = b.mCaptured := by
  cases c <;> cases p <;> rfl

theorem oppColor_ne (c : Color) : oppColor c ≠ c := by
  cases c <;> simp [oppColor]

theorem ne_oppColor (c : Color) : c ≠ oppColor c := by
  cases c <;> simp [oppColor]

/-- The bitboards after the first part of `makeMove`, for a move that is neither castling nor
en passant: the piece leaves `fromSq`, whatever stood on `toSq` is taken off, and the piece (or
the piece it promotes to) stands on `toSq`. -/
theorem movePieces_normal (Z : Zobrist) {b : Board} (hv : b.Valid) {m : Move}
    (hflag1 : m.flag ≠ Move.CASTLING_FLAG) (hflag2 : m.flag ≠ Move.EN_PASSANT_FLAG)
    (hP : m.pieceType ≠ .NONE)
    (hfrom : has b.us m.fromSq = true) (hpiece : has (b.pieceBb m.pieceType) m.fromSq = true)
    (hto : has b.us m.toSq = false) :
    (∀ x, has ((movePieces Z b m).colorBb b.mColorToMove) x
        = (decide (x = m.toSq) || (has b.us x && !decide (x = m.fromSq))))
    ∧ (∀ x, has ((movePieces Z b m).colorBb (oppColor b.mColorToMove)) x
        = (has b.them x && !decide (x = m.toSq)))
    ∧ (∀ R x, has ((movePieces Z b m).pieceBb R) x
        = if x = m.toSq then
            decide (R = if m.promotion ≠ .NONE then m.promotion else m.pieceType)
          else if x = m.fromSq then false else has (b.pieceBb R) x)
    ∧ (movePieces Z b m).mCaptured = b.pieceTypeAt m.toSq := by
  have hft : m.fromSq ≠ m.toSq := by
    intro h
    rw [h, hto] at hfrom
    exact Bool.false_ne_true hfrom
  have hQ : (if m.promotion ≠ .NONE then m.promotion else m.pieceType) ≠ .NONE := by
    split
    · assumption
    · exact hP
  generalize hQdef : (if m.promotion ≠ PieceType.NONE then m.promotion else m.pieceType) = Q at hQ
  have hcap : (b.removePiece Z b.mColorToMove m.pieceType m.fromSq).pieceTypeAt m.toSq
      = b.pieceTypeAt m.toSq := by
    apply pieceTypeAt_congr
    · intro c
      rw [has_colorBb_removePiece]
      simp [hft]
    · intro p
      rw [has_pieceBb_removePiece _ _ _ _ _ _ _ hP]
      simp [hft]
  -- the pieces of the other types are not on `fromSq`
  have hfp : ∀ R, has (b.pieceBb R) m.fromSq = decide (R = m.pieceType) := by
    intro R
    by_cases hR : R = m.pieceType
    · subst hR; simp [hpiece]
    · simp only [hR, decide_False]
      by_contra hx
      simp only [Bool.not_eq_false] at hx
      exact hR (hv.piece_unique hx hpiece)
  have hfthem : has b.them m.fromSq = false := hv.color_disjoint hfrom
  unfold movePieces
  simp only [if_neg hflag1, if_neg hflag2, hcap, hQdef]
  by_cases hk : b.pieceTypeAt m.toSq = .NONE
  · -- no capture
    have hocc : has b.occupancy m.toSq = false := (pieceTypeAt_eq_NONE_iff hv _).mp hk
    have htp : ∀ R, has (b.pieceBb R) m.toSq = false := by
      intro R
      by_contra hx
      simp only [Bool.not_eq_false] at hx
      have := (hv.occupied_iff m.toSq).mpr ⟨R, hx⟩
      rw [hocc] at this
      exact Bool.false_ne_true this
    have htthem : has b.them m.toSq = false := by
      have := hocc
      rw [has_occupancy b b.mColorToMove, Bool.or_eq_false_iff] at this
      exact this.2
    simp only [hk, ne_eq, not_true_eq_false, if_false]
    refine ⟨?_, ?_, ?_, by rw [mCaptured_placePiece]⟩
    · intro x
      rw [has_colorBb_placePiece, colorBb_withCaptured, has_colorBb_removePiece]
      by_cases h1 : x = m.toSq
      · subst h1
        have hft' : ¬ m.toSq = m.fromSq := fun h => hft h.symm
        simp [hft']
      · by_cases h2 : x = m.fromSq
        · subst h2
          have : has (b.colorBb b.mColorToMove) m.fromSq = true := hfrom
          have hft' : ¬ m.toSq = m.fromSq := fun h => hft h.symm
          simp [this, h1, hft, hft']
        · have h1' : ¬ m.toSq = x := fun h => h1 h.symm
          have h2' : ¬ m.fromSq = x := fun h => h2 h.symm
          simp [h1, h2, h1', h2', us]
    · intro x
      rw [has_colorBb_placePiece, colorBb_withCaptured, has_colorBb_removePiece]
      by_cases h1 : x = m.toSq
      · subst h1
        have : has (b.colorBb (oppColor b.mColorToMove)) m.toSq = false := htthem
        simp [oppColor_ne, this, them]
      · simp [oppColor_ne, h1, them]
    · intro R x
      rw [has_pieceBb_placePiece _ _ _ _ _ _ _ hQ, pieceBb_withCaptured,
        has_pieceBb_removePiece _ _ _ _ _ _ _ hP]
      by_cases h1 : x = m.toSq
      · subst h1
        simp [htp, hft]
      · by_cases h2 : x = m.fromSq
        · subst h2
          have h1' : ¬ m.toSq = m.fromSq := fun h => h1 h.symm
          simp [h1, h1', hfp]
        · have h1' : ¬ m.toSq = x := fun h => h1 h.symm
          have h2' : ¬ m.fromSq = x := fun h => h2 h.symm
          simp [h1, h2, h1', h2']
  · -- capture
    have hocc : has b.occupancy m.toSq = true := by
      by_contra hx
      simp only [Bool.not_eq_true] at hx
      exact hk ((pieceTypeAt_eq_NONE_iff hv _).mpr hx)
    have hkp : has (b.pieceBb (b.pieceTypeAt m.toSq)) m.toSq = true := hv.has_pieceTypeAt hocc
    have htp : ∀ R, has (b.pieceBb R) m.toSq = decide (R = b.pieceTypeAt m.toSq) := by
      intro R
      by_cases hR : R = b.pieceTypeAt m.toSq
      · rw [hR]; simp [hkp]
      · simp only [hR, decide_False]
        by_contra hx
        simp only [Bool.not_eq_false] at hx
        exact hR (hv.piece_unique hx hkp)
    have htthem : has b.them m.toSq = true := by
      have := hocc
      rw [has_occupancy b b.mColorToMove, Bool.or_eq_true] at this
      rcases this with h | h
      · rw [us] at hto; rw [hto] at h; exact absurd h Bool.false_ne_true
      · exact h
    simp only [ne_eq, hk, not_false_eq_true, if_true]
    refine ⟨?_, ?_, ?_, ?_⟩
    · intro x
      rw [has_colorBb_placePiece, has_colorBb_removePiece, colorBb_withCaptured,
        has_colorBb_removePiece]
      by_cases h1 : x = m.toSq
      · subst h1
        have hft' : ¬ m.toSq = m.fromSq := fun h => hft h.symm
        simp [hft']
      · by_cases h2 : x = m.fromSq
        · subst h2
          have : has (b.colorBb b.mColorToMove) m.fromSq = true := hfrom
          have hft' : ¬ m.toSq = m.fromSq := fun h => hft h.symm
          simp [this, h1, hft, hft', ne_oppColor]
        · have h1' : ¬ m.toSq = x := fun h => h1 h.symm
          have h2' : ¬ m.fromSq = x := fun h => h2 h.symm
          simp [h1, h2, h1', h2', us, ne_oppColor]
    · intro x
      rw [has_colorBb_placePiece, has_colorBb_removePiece, colorBb_withCaptured,
        has_colorBb_removePiece]
      by_cases h1 : x = m.toSq
      · subst h1
        have : has (b.colorBb (oppColor b.mColorToMove)) m.toSq = true := htthem
        simp [oppColor_ne, this, them]
      · have h1' : ¬ m.toSq = x := fun h => h1 h.symm
        simp [oppColor_ne, h1, h1', them]
    · intro R x
      rw [has_pieceBb_placePiece _ _ _ _ _ _ _ hQ, has_pieceBb_removePiece _ _ _ _ _ _ _ hk,
        pieceBb_withCaptured, has_pieceBb_removePiece _ _ _ _ _ _ _ hP]
      by_cases h1 : x = m.toSq
      · subst h1
        simp [htp, hft]
      · by_cases h2 : x = m.fromSq
        · subst h2
          have h1' : ¬ m.toSq = m.fromSq := fun h => h1 h.symm
          simp [h1, h1', hfp]
        · have h1' : ¬ m.toSq = x := fun h => h1 h.symm
          have h2' : ¬ m.fromSq = x := fun h => h2 h.symm
          simp [h1, h2, h1', h2']
    · rw [mCaptured_placePiece, mCaptured_removePiece]

end Board

namespace Board

/-- The bitboards after the first part of `makeMove` for an en-passant capture: the pawn goes
from `fromSq` to `toSq` and the enemy pawn on `cs`, the square behind `toSq`, is taken off. -/
theorem movePieces_enPassant (Z : Zobrist) {b : Board} (hv : b.Valid) {m : Move}
    (hflag : m.flag = Move.EN_PASSANT_FLAG) {cs : Nat}
    (hcs : cs = if b.mColorToMove = .WHITE then subSq m.toSq 8 else addSq m.toSq 8)
    (hfrom : has b.us m.fromSq = true) (hpiece : has b.pawns m.fromSq = true)
    (hto : has b.occupancy m.toSq = false)
    (hcap : has b.them cs = true) (hcapP : has b.pawns cs = true) :
    (∀ x, has ((movePieces Z b m).colorBb b.mColorToMove) x
        = (decide (x = m.toSq) || (has b.us x && !decide (x = m.fromSq))))
    ∧ (∀ x, has ((movePieces Z b m).colorBb (oppColor b.mColorToMove)) x
        = (has b.them x && !decide (x = cs)))
    ∧ (∀ R x, has ((movePieces Z b m).pieceBb R) x
        = if x = m.toSq then decide (R = .PAWN)
          else if x = m.fromSq ∨ x = cs then false else has (b.pieceBb R) x)
    ∧ (movePieces Z b m).mCaptured = .PAWN := by
  have hpt : m.pieceType = .PAWN := by
    unfold Move.pieceType
    rw [hflag]
    rfl
  have hflag1 : m.flag ≠ Move.CASTLING_FLAG := by rw [hflag]; decide
  have hft : m.fromSq ≠ m.toSq := by
    intro h
    have := hto
    rw [has_occupancy b b.mColorToMove, Bool.or_eq_false_iff, ← h] at this
    rw [us] at hfrom
    rw [hfrom] at this
    exact Bool.noConfusion this.1
  have hct : cs ≠ m.toSq := by
    intro h
    have := hto
    rw [has_occupancy b b.mColorToMove, Bool.or_eq_false_iff, ← h] at this
    rw [them] at hcap
    rw [hcap] at this
    exact Bool.noConfusion this.2
  have hfc : m.fromSq ≠ cs := by
    intro h
    have := hv.color_disjoint hfrom
    rw [h] at this
    rw [them] at hcap
    rw [hcap] at this
    exact Bool.noConfusion this
  have hPn : PieceType.PAWN ≠ PieceType.NONE := by decide
  have hfp : ∀ R, has (b.pieceBb R) m.fromSq = decide (R = .PAWN) := by
    intro R
    by_cases hR : R = .PAWN
    · subst hR; simp [pieceBb, hpiece]
    · simp only [hR, decide_False]
      by_contra hx
      simp only [Bool.not_eq_false] at hx
      exact hR (hv.piece_unique hx hpiece)
  have hcp : ∀ R, has (b.pieceBb R) cs = decide (R = .PAWN) := by
    intro R
    by_cases hR : R = .PAWN
    · subst hR; simp [pieceBb, hcapP]
    · simp only [hR, decide_False]
      by_contra hx
      simp only [Bool.not_eq_false] at hx
      exact hR (hv.piece_unique hx hcapP)
  have htp : ∀ R, has (b.pieceBb R) m.toSq = false := by
    intro R
    by_contra hx
    simp only [Bool.not_eq_false] at hx
    have := (hv.occupied_iff m.toSq).mpr ⟨R, hx⟩
    rw [hto] at this
    exact Bool.false_ne_true this
  have hto2 := hto
  rw [has_occupancy b b.mColorToMove, Bool.or_eq_false_iff] at hto2
  unfold movePieces
  simp only [if_neg hflag1, if_pos hflag, hpt, ← hcs]
  refine ⟨?_, ?_, ?_, trivial⟩
  · intro x
    rw [colorBb_withCaptured, has_colorBb_placePiece, has_colorBb_removePiece,
      has_colorBb_removePiece]
    by_cases h1 : x = m.toSq
    · subst h1
      have hft' : ¬ m.toSq = m.fromSq := fun h => hft h.symm
      simp [hft', ne_oppColor]
    · by_cases h2 : x = m.fromSq
      · subst h2
        have : has (b.colorBb b.mColorToMove) m.fromSq = true := hfrom
        have hft' : ¬ m.toSq = m.fromSq := fun h => hft h.symm
        simp [this, h1, hft, hft', ne_oppColor]
      · have h1' : ¬ m.toSq = x := fun h => h1 h.symm
        have h2' : ¬ m.fromSq = x := fun h => h2 h.symm
        simp [h1, h2, h1', h2', us, ne_oppColor]
  · intro x
    rw [colorBb_withCaptured, has_colorBb_placePiece, has_colorBb_removePiece,
      has_colorBb_removePiece]
    by_cases h1 : x = cs
    · subst h1
      have : has (b.colorBb (oppColor b.mColorToMove)) x = true := hcap
      simp [oppColor_ne, this, them]
    · have h1' : ¬ cs = x := fun h => h1 h.symm
      simp [oppColor_ne, h1, h1', them]
  · intro R x
    rw [pieceBb_withCaptured, has_pieceBb_placePiece _ _ _ _ _ _ _ hPn,
      has_pieceBb_removePiece _ _ _ _ _ _ _ hPn, has_pieceBb_removePiece _ _ _ _ _ _ _ hPn]
    by_cases h1 : x = m.toSq
    · subst h1
      have hct' : ¬ cs = m.toSq := hct
      simp [htp, hft, hct']
    · have h1' : ¬ m.toSq = x := fun h => h1 h.symm
      by_cases h2 : x = m.fromSq
      · subst h2
        have hfc' : ¬ cs = m.fromSq := fun h => hfc h.symm
        simp [h1, h1', hfp, hfc, hfc']
      · have h2' : ¬ m.fromSq = x := fun h => h2 h.symm
        by_cases h3 : x = cs
        · subst h3
          simp [h1, h1', h2, h2', hcp]
        · have h3' : ¬ cs = x := fun h => h3 h.symm
          simp [h1, h2, h3, h1', h2', h3']

end Board

namespace Board

/-- The bitboards after the first part of `makeMove` for castling: the king goes from `fromSq`
to `toSq` and the rook from its corner `rf` to the square `rt` the king crossed. -/
theorem movePieces_castling (Z : Zobrist) {b : Board} (hv : b.Valid) {m : Move}
    (hflag : m.flag = Move.CASTLING_FLAG) {rf rt : Nat}
    (hrf : rf = (CASTLING_ROOK_FROM_TO m.toSq).1) (hrt : rt = (CASTLING_ROOK_FROM_TO m.toSq).2)
    (hfrom : has b.us m.fromSq = true) (hpiece : has b.kings m.fromSq = true)
    (hrook : has b.us rf = true) (hrookP : has b.rooks rf = true)
    (hto : has b.occupancy m.toSq = false) (hrto : has b.occupancy rt = false)
    (htr : m.toSq ≠ rt) :
    (∀ x, has ((movePieces Z b m).colorBb b.mColorToMove) x
        = (decide (x = m.toSq) || decide (x = rt)
            || (has b.us x && !decide (x = m.fromSq) && !decide (x = rf))))
    ∧ (∀ x, has ((movePieces Z b m).colorBb (oppColor b.mColorToMove)) x = has b.them x)
    ∧ (∀ R x, has ((movePieces Z b m).pieceBb R) x
        = if x = m.toSq then decide (R = .KING)
          else if x = rt then decide (R = .ROOK)
          else if x = m.fromSq ∨ x = rf then false else has (b.pieceBb R) x)
    ∧ (movePieces Z b m).mCaptured = .NONE := by
  have hpt : m.pieceType = .KING := by
    unfold Move.pieceType
    rw [hflag]
    rfl
  have hne : ∀ {a c : Nat}, has b.occupancy a = true → has b.occupancy c = false → a ≠ c := by
    intro a c h1 h2 h
    rw [h, h2] at h1
    exact Bool.noConfusion h1
  have hoccf : has b.occupancy m.fromSq = true := (hv.occupied_iff _).mpr ⟨.KING, hpiece⟩
  have hoccr : has b.occupancy rf = true := (hv.occupied_iff _).mpr ⟨.ROOK, hrookP⟩
  have hft : m.fromSq ≠ m.toSq := hne hoccf hto
  have hfrt : m.fromSq ≠ rt := hne hoccf hrto
  have hrft : rf ≠ m.toSq := hne hoccr hto
  have hrfrt : rf ≠ rt := hne hoccr hrto
  have hfrf : m.fromSq ≠ rf := by
    intro h
    rw [← h] at hrookP
    have := hv.piece_unique (p := .KING) (q := .ROOK) hpiece hrookP
    exact PieceType.noConfusion this
  have hKn : PieceType.KING ≠ PieceType.NONE := by decide
  have hRn : PieceType.ROOK ≠ PieceType.NONE := by decide
  have hfp : ∀ R, has (b.pieceBb R) m.fromSq = decide (R = .KING) := by
    intro R
    by_cases hR : R = .KING
    · subst hR; simp [pieceBb, hpiece]
    · simp only [hR, decide_False]
      by_contra hx
      simp only [Bool.not_eq_false] at hx
      exact hR (hv.piece_unique hx hpiece)
  have hrp : ∀ R, has (b.pieceBb R) rf = decide (R = .ROOK) := by
    intro R
    by_cases hR : R = .ROOK
    · subst hR; simp [pieceBb, hrookP]
    · simp only [hR, decide_False]
      by_contra hx
      simp only [Bool.not_eq_false] at hx
      exact hR (hv.piece_unique hx hrookP)
  have hempty : ∀ {a : Nat}, has b.occupancy a = false → ∀ R, has (b.pieceBb R) a = false := by
    intro a ha R
    by_contra hx
    simp only [Bool.not_eq_false] at hx
    have := (hv.occupied_iff a).mpr ⟨R, hx⟩
    rw [ha] at this
    exact Bool.false_ne_true this
  have htp := hempty hto
  have hrtp := hempty hrto
  have hto2 := hto
  rw [has_occupancy b b.mColorToMove, Bool.or_eq_false_iff] at hto2
  have hrto2 := hrto
  rw [has_occupancy b b.mColorToMove, Bool.or_eq_false_iff] at hrto2
  unfold movePieces
  simp only [if_pos hflag, hpt, ← hrf, ← hrt]
  refine ⟨?_, ?_, ?_, trivial⟩
  · intro x
    rw [colorBb_withCaptured, has_colorBb_placePiece, has_colorBb_removePiece,
      has_colorBb_placePiece, has_colorBb_removePiece]
    have e1 := Ne.symm hft
    have e2 := Ne.symm hfrt
    have e3 := Ne.symm hrft
    have e4 := Ne.symm hrfrt
    have e5 := Ne.symm hfrf
    have e6 := Ne.symm htr
    have u1 : has (b.colorBb b.mColorToMove) m.fromSq = true := hfrom
    have u2 : has (b.colorBb b.mColorToMove) rf = true := hrook
    by_cases h1 : x = m.toSq
    · subst h1
      simp [hto2.1, hft, hrft, htr]
    · by_cases h2 : x = rt
      · subst h2
        simp
      · by_cases h3 : x = m.fromSq
        · subst h3
          simp [u1, h1, h2, e1, e2, hfrf, e5]
        · by_cases h4 : x = rf
          · subst h4
            simp [u2, h1, h2, h3, e3, e4, e5, hfrf]
          · have h1' : ¬ m.toSq = x := fun h => h1 h.symm
            have h2' : ¬ rt = x := fun h => h2 h.symm
            have h3' : ¬ m.fromSq = x := fun h => h3 h.symm
            have h4' : ¬ rf = x := fun h => h4 h.symm
            simp [h1, h2, h3, h4, h1', h2', h3', h4', us]
  · intro x
    rw [colorBb_withCaptured, has_colorBb_placePiece, has_colorBb_removePiece,
      has_colorBb_placePiece, has_colorBb_removePiece]
    simp [oppColor_ne, them]
  · intro R x
    rw [pieceBb_withCaptured, has_pieceBb_placePiece _ _ _ _ _ _ _ hRn,
      has_pieceBb_removePiece _ _ _ _ _ _ _ hRn, has_pieceBb_placePiece _ _ _ _ _ _ _ hKn,
      has_pieceBb_removePiece _ _ _ _ _ _ _ hKn]
    have e1 := Ne.symm hft
    have e2 := Ne.symm hfrt
    have e3 := Ne.symm hrft
    have e4 := Ne.symm hrfrt
    have e5 := Ne.symm hfrf
    have e6 := Ne.symm htr
    by_cases h1 : x = m.toSq
    · subst h1
      cases R <;> simp [htp, hft, hrft, htr, e6]
    · by_cases h2 : x = rt
      · subst h2
        cases R <;> simp [hrtp, hfrt, hrfrt, e6, h1, htr]
      · by_cases h3 : x = m.fromSq
        · subst h3
          cases R <;> simp [hfp, h1, h2, e1, e2, hfrf, e5]
        · by_cases h4 : x = rf
          · subst h4
            cases R <;> simp [hrp, h1, h2, h3, e3, e4, e5, hfrf]
          · have h1' : ¬ m.toSq = x := fun h => h1 h.symm
            have h2' : ¬ rt = x := fun h => h2 h.symm
            have h3' : ¬ m.fromSq = x := fun h => h3 h.symm
            have h4' : ¬ rf = x := fun h => h4 h.symm
            simp [h1, h2, h3, h4, h1', h2', h3', h4']

end Board

namespace Board

/-! ### Pawn moves -/

theorem mem_singleton_move {m : Move} {a c F : Nat} :
    m ∈ [(⟨a, c, F⟩ : Move)] ↔ m.fromSq = a ∧ m.toSq = c ∧ m.flag = F := by
  cases m
  simp only [List.mem_singleton, Move.mk.injEq]

theorem mem_addPromotions {sq t : Nat} {u : Bool} {m : Move} :
    m ∈ addPromotions sq t u ↔ m.fromSq = sq ∧ m.toSq = t
      ∧ (m.flag = Move.QUEEN_PROMOTION_FLAG
        ∨ (u = true ∧ (m.flag = Move.ROOK_PROMOTION_FLAG ∨ m.flag = Move.BISHOP_PROMOTION_FLAG
          ∨ m.flag = Move.KNIGHT_PROMOTION_FLAG))) := by
  cases m
  cases u <;> simp only [addPromotions, if_true, Bool.false_eq_true, if_false, List.mem_cons,
    List.mem_singleton, List.not_mem_nil, Move.mk.injEq, or_false, false_and, true_and] <;> tauto

theorem pawnHasntMoved_not_willPromote {b : Board} {sq : Nat}
    (h : b.pawnHasntMoved sq = true) : b.willPromote sq = false := by
  unfold pawnHasntMoved at h
  unfold willPromote
  by_cases h1 : squareRank sq = 1
  · rw [if_pos h1] at h ⊢
    cases hc : b.mColorToMove <;> simp_all
  · rw [if_neg h1] at h ⊢
    by_cases h2 : squareRank sq = 6
    · rw [if_pos h2] at h ⊢
      cases hc : b.mColorToMove <;> simp_all
    · rw [if_neg h2]

theorem mem_pawnMoves {b : Board} {k mv pn pd sq : Nat} {u : Bool} {m : Move} :
    m ∈ pawnMoves b k mv pn pd u sq ↔ m.fromSq = sq ∧
      ((m.toSq < 64 ∧ has (pawnCaptureTargets b k mv pn pd sq) m.toSq = true
          ∧ pawnFlagOK (b.willPromote sq) u m.flag)
      ∨ (has pd sq = false ∧ pinnedHorizontally k pn sq = false
          ∧ b.isOccupied (b.squareOneUp sq) = false
          ∧ ((has mv (b.squareOneUp sq) = true ∧ m.toSq = b.squareOneUp sq
              ∧ pawnFlagOK (b.willPromote sq) u m.flag)
            ∨ (b.pawnHasntMoved sq = true ∧ has mv (b.squareTwoUp sq) = true
              ∧ b.isOccupied (b.squareTwoUp sq) = false ∧ m.toSq = b.squareTwoUp sq
              ∧ m.flag = Move.PAWN_TWO_UP_FLAG)))) := by
  unfold pawnMoves
  simp only [List.mem_append, List.mem_flatMap, mem_bits_iff]
  have hcap : (∃ a, (a < 64 ∧ has (pawnCaptureTargets b k mv pn pd sq) a = true) ∧
      m ∈ (if b.willPromote sq = true then addPromotions sq a u
        else [(⟨sq, a, Move.PAWN_FLAG⟩ : Move)])) ↔
      m.fromSq = sq ∧ m.toSq < 64 ∧ has (pawnCaptureTargets b k mv pn pd sq) m.toSq = true
          ∧ pawnFlagOK (b.willPromote sq) u m.flag := by
    unfold pawnFlagOK
    by_cases hw : b.willPromote sq = true
    · simp only [if_pos hw, mem_addPromotions]
      constructor
      · rintro ⟨a, ⟨h1, h2⟩, h3, h4, h5⟩
        subst h4
        exact ⟨h3, h1, h2, h5⟩
      · rintro ⟨h1, h2, h3, h4⟩
        exact ⟨m.toSq, ⟨h2, h3⟩, h1, rfl, h4⟩
    · simp only [if_neg hw, mem_singleton_move]
      constructor
      · rintro ⟨a, ⟨h1, h2⟩, h3, h4, h5⟩
        subst h4
        exact ⟨h3, h1, h2, h5⟩
      · rintro ⟨h1, h2, h3, h4⟩
        exact ⟨m.toSq, ⟨h2, h3⟩, h1, rfl, h4⟩
  have htwo : m ∈ (if (!b.pawnHasntMoved sq) = true then []
      else if mv &&& 1 <<< b.squareTwoUp sq ≠ 0 ∧ (!b.isOccupied (b.squareTwoUp sq)) = true then
        [(⟨sq, b.squareTwoUp sq, Move.PAWN_TWO_UP_FLAG⟩ : Move)]
      else []) ↔
      m.fromSq = sq ∧ b.pawnHasntMoved sq = true ∧ has mv (b.squareTwoUp sq) = true
        ∧ b.isOccupied (b.squareTwoUp sq) = false ∧ m.toSq = b.squareTwoUp sq
        ∧ m.flag = Move.PAWN_TWO_UP_FLAG := by
    by_cases h1 : b.pawnHasntMoved sq = true
    · by_cases h2 : has mv (b.squareTwoUp sq) = true
      · by_cases h3 : b.isOccupied (b.squareTwoUp sq) = true
        · simp [h1, h2, h3, and_bit_ne_zero]
        · simp only [Bool.not_eq_true] at h3
          simp only [h1, h2, h3, and_bit_ne_zero, Bool.not_true, Bool.false_eq_true, if_false,
            Bool.not_false, and_self, if_true, mem_singleton_move, true_and]
      · simp [h1, h2, and_bit_ne_zero]
    · simp [h1]
  rw [hcap]
  clear hcap
  generalize (if (!b.pawnHasntMoved sq) = true then []
      else if mv &&& 1 <<< b.squareTwoUp sq ≠ 0 ∧ (!b.isOccupied (b.squareTwoUp sq)) = true then
        [(⟨sq, b.squareTwoUp sq, Move.PAWN_TWO_UP_FLAG⟩ : Move)]
      else []) = twoUp at htwo ⊢
  by_cases c1 : has pd sq = true
  · simp only [bit_and_ne_zero, c1, if_true, List.not_mem_nil, or_false, Bool.true_eq_false,
      false_and]
  · simp only [Bool.not_eq_true] at c1
    by_cases c2 : pinnedHorizontally k pn sq = true
    · simp only [bit_and_ne_zero, c1, Bool.false_eq_true, if_false, c2, if_true,
        List.not_mem_nil, or_false, Bool.true_eq_false, false_and, true_and]
    · simp only [Bool.not_eq_true] at c2
      by_cases c3 : b.isOccupied (b.squareOneUp sq) = true
      · simp only [bit_and_ne_zero, c1, Bool.false_eq_true, if_false, c2, c3, if_true,
          List.not_mem_nil, or_false, Bool.true_eq_false, false_and, true_and, and_false]
      · simp only [Bool.not_eq_true] at c3
        by_cases c4 : has mv (b.squareOneUp sq) = true
        · by_cases hw : b.willPromote sq = true
          · have hnm : ¬ b.pawnHasntMoved sq = true := by
              intro hh
              rw [pawnHasntMoved_not_willPromote hh] at hw
              exact Bool.false_ne_true hw
            simp only [bit_and_ne_zero, and_bit_ne_zero, c1, Bool.false_eq_true, if_false, c2,
              c3, c4, if_true, hw, mem_addPromotions, true_and, pawnFlagOK, hnm, false_and,
              and_false, or_false]
            exact and_or_left.symm
          · simp only [bit_and_ne_zero, and_bit_ne_zero, c1, Bool.false_eq_true, if_false, c2,
              c3, c4, if_true, hw, List.mem_cons, htwo, true_and, pawnFlagOK]
            have := @mem_singleton_move m sq (b.squareOneUp sq) Move.PAWN_FLAG
            simp only [List.mem_singleton] at this
            rw [this]
            exact (and_or_left.trans (or_congr Iff.rfl and_or_left)).symm
        · simp only [bit_and_ne_zero, and_bit_ne_zero, c1, Bool.false_eq_true, if_false, c2,
            c3, c4, true_and, false_and, false_or, htwo]
          exact and_or_left.symm

end Board

/-! ## Order along a line -/

theorem LineKind.same_refl (L : LineKind) (a : Nat) : L.same a a := by
  cases L <;> simp [LineKind.same]

theorem LineKind.same_symm {L : LineKind} {a b : Nat} (h : L.same a b) : L.same b a := by
  cases L <;> simp only [LineKind.same] at h ⊢ <;> omega

theorem LineKind.same_trans {L : LineKind} {a b c : Nat} (h1 : L.same a b) (h2 : L.same b c) :
    L.same a c := by
  cases L <;> simp only [LineKind.same] at h1 h2 ⊢ <;> omega

/-- On a line a square is determined by its position. -/
theorem LineKind.eq_of_pos {L : LineKind} {a b : Nat} (h : L.same a b) (hp : L.pos a = L.pos b) :
    a = b := by
  cases L <;> simp only [LineKind.same, LineKind.pos] at h hp <;> omega

/-- Two different squares share at most one line. -/
theorem LineKind.unique {L M : LineKind} {a b : Nat} (hab : a ≠ b) (h1 : L.same a b)
    (h2 : M.same a b) : L = M := by
  cases L <;> cases M <;> simp only [LineKind.same] at h1 h2 <;> first | rfl | (exfalso; omega)

theorem isBetween_iff_line {a u b : Nat} : isBetween a u b = true ↔
    ∃ L : LineKind, L.same a u ∧ L.same u b
      ∧ ((L.pos a < L.pos u ∧ L.pos u < L.pos b) ∨ (L.pos b < L.pos u ∧ L.pos u < L.pos a)) := by
  rw [isBetween_iff]
  constructor
  · rintro (h | h | h | h)
    · exact ⟨.rank, h⟩
    · exact ⟨.file, h⟩
    · exact ⟨.diag, h⟩
    · exact ⟨.anti, h⟩
  · rintro ⟨L, h⟩
    cases L
    · exact Or.inl h
    · exact Or.inr (Or.inl h)
    · exact Or.inr (Or.inr (Or.inl h))
    · exact Or.inr (Or.inr (Or.inr h))

theorem isOnLine_iff_line {a b u : Nat} : isOnLine a b u = true ↔
    a ≠ b ∧ ∃ L : LineKind, L.same a b ∧ L.same a u := by
  rw [isOnLine_iff]
  constructor
  · rintro ⟨h0, h | h | h | h⟩
    · exact ⟨h0, .rank, h.1, h.2.symm⟩
    · exact ⟨h0, .file, h.1, h.2.symm⟩
    · exact ⟨h0, .diag, h⟩
    · exact ⟨h0, .anti, h⟩
  · rintro ⟨h0, L, h⟩
    refine ⟨h0, ?_⟩
    cases L
    · exact Or.inl ⟨h.1, h.2.symm⟩
    · exact Or.inr (Or.inl ⟨h.1, h.2.symm⟩)
    · exact Or.inr (Or.inr (Or.inl h))
    · exact Or.inr (Or.inr (Or.inr h))

/-- Rook attacks, by lines. -/
theorem has_rookAttacks_line {s occ t : Nat} :
    has (rookAttacks s occ) t = true ↔ s < 64 ∧ t < 64 ∧ s ≠ t
      ∧ (∃ L : LineKind, L.straight = true ∧ L.same s t)
      ∧ ∀ u, u < 64 → isBetween s u t = true → has occ u = false := by
  rw [has_rookAttacks]
  constructor
  · rintro ⟨h1, h2, h3, h4 | h4, h5⟩
    · exact ⟨h1, h2, h3, ⟨.rank, rfl, h4⟩, h5⟩
    · exact ⟨h1, h2, h3, ⟨.file, rfl, h4⟩, h5⟩
  · rintro ⟨h1, h2, h3, ⟨L, hL, h4⟩, h5⟩
    refine ⟨h1, h2, h3, ?_, h5⟩
    cases L
    · exact Or.inl h4
    · exact Or.inr h4
    · exact absurd hL (by decide)
    · exact absurd hL (by decide)

/-- Bishop attacks, by lines. -/
theorem has_bishopAttacks_line {s occ t : Nat} :
    has (bishopAttacks s occ) t = true ↔ s < 64 ∧ t < 64 ∧ s ≠ t
      ∧ (∃ L : LineKind, L.straight = false ∧ L.same s t)
      ∧ ∀ u, u < 64 → isBetween s u t = true → has occ u = false := by
  rw [has_bishopAttacks]
  constructor
  · rintro ⟨h1, h2, h3, h4 | h4, h5⟩
    · exact ⟨h1, h2, h3, ⟨.diag, rfl, h4⟩, h5⟩
    · exact ⟨h1, h2, h3, ⟨.anti, rfl, h4⟩, h5⟩
  · rintro ⟨h1, h2, h3, ⟨L, hL, h4⟩, h5⟩
    refine ⟨h1, h2, h3, ?_, h5⟩
    cases L
    · exact absurd hL (by decide)
    · exact absurd hL (by decide)
    · exact Or.inl h4
    · exact Or.inr h4

/-- What is between two squares lies on their line, and the three squares differ. -/
theorem isBetween_line {a u b : Nat} (h : isBetween a u b = true) :
    ∃ L : LineKind, L.same a u ∧ L.same u b ∧ L.same a b ∧ a ≠ u ∧ u ≠ b ∧ a ≠ b := by
  obtain ⟨L, h1, h2, h3⟩ := isBetween_iff_line.mp h
  refine ⟨L, h1, h2, LineKind.same_trans h1 h2, ?_, ?_, ?_⟩
  · rintro rfl; omega
  · rintro rfl; omega
  · rintro rfl; omega

/-- Between two squares of a line lie exactly the squares of the line whose position is
strictly between. -/
theorem isBetween_of_pos {L : LineKind} {a u b : Nat} (h1 : L.same a u) (h2 : L.same a b)
    (h3 : (L.pos a < L.pos u ∧ L.pos u < L.pos b) ∨ (L.pos b < L.pos u ∧ L.pos u < L.pos a)) :
    isBetween a u b = true :=
  isBetween_iff_line.mpr ⟨L, h1, LineKind.same_trans (LineKind.same_symm h1) h2, h3⟩

theorem isBetween_pos {L : LineKind} {a u b : Nat} (hL : L.same a b)
    (h : isBetween a u b = true) :
    L.same a u ∧ ((L.pos a < L.pos u ∧ L.pos u < L.pos b)
      ∨ (L.pos b < L.pos u ∧ L.pos u < L.pos a)) := by
  obtain ⟨M, m1, m2, m3, m4, m5, m6⟩ := isBetween_line h
  obtain ⟨M', n1, n2, n3⟩ := isBetween_iff_line.mp h
  have e1 : M' = M := LineKind.unique m4 n1 m1
  have e2 : L = M := LineKind.unique m6 hL m3
  subst e1
  subst e2
  exact ⟨n1, n3⟩

/-! ## Attack queries -/

theorem has_foldl_or (g : Nat → Nat) (t : Nat) : ∀ (l : List Nat) (a : Nat),
    has (l.foldl (fun acc sq => acc ||| g sq) a) t = true ↔
      has a t = true ∨ ∃ s, s ∈ l ∧ has (g s) t = true := by
  intro l
  induction l with
  | nil => intro a; simp
  | cons x l ih =>
    intro a
    rw [List.foldl_cons, ih, has_or, Bool.or_eq_true]
    constructor
    · rintro ((h | h) | ⟨s, hs, h⟩)
      · exact Or.inl h
      · exact Or.inr ⟨x, List.mem_cons_self _ _, h⟩
      · exact Or.inr ⟨s, List.mem_cons_of_mem _ hs, h⟩
    · rintro (h | ⟨s, hs, h⟩)
      · exact Or.inl (Or.inl h)
      · rcases List.mem_cons.mp hs with rfl | hs
        · exact Or.inl (Or.inr h)
        · exact Or.inr ⟨s, hs, h⟩

theorem has_foldl_bits_or (g : Nat → Nat) (x a t : Nat) :
    has ((bits x).foldl (fun acc sq => acc ||| g sq) a) t = true ↔
      has a t = true ∨ ∃ s, s < 64 ∧ has x s = true ∧ has (g s) t = true := by
  rw [has_foldl_or]
  simp only [mem_bits_iff, and_assoc]

theorem attacksFrom_lt {p : PieceType} {c : Color} {occ s sq : Nat}
    (h : attacksFrom p c occ s sq = true) : s < 64 ∧ sq < 64 := by
  cases p <;> simp only [attacksFrom] at h
  · cases c
    · have := has_pawnAttacks_white.mp h; exact ⟨this.1, this.2.1⟩
    · have := has_pawnAttacks_black.mp h; exact ⟨this.1, this.2.1⟩
  · exact has_knightAttacks_lt h
  · have := has_bishopAttacks.mp h; exact ⟨this.1, this.2.1⟩
  · have := has_rookAttacks.mp h; exact ⟨this.1, this.2.1⟩
  · rcases has_queenAttacks.mp h with h | h
    · have := has_bishopAttacks.mp h; exact ⟨this.1, this.2.1⟩
    · have := has_rookAttacks.mp h; exact ⟨this.1, this.2.1⟩
  · exact has_kingAttacks_lt h
  · exact absurd h Bool.false_ne_true

namespace Board

theorem isSquareAttacked_iff (b : Board) (sq : Nat) (c : Color) :
    b.isSquareAttacked sq c = true ↔ ∃ s p, b.IsAttacker b.occupancy sq c s p := by
  unfold isSquareAttacked IsAttacker
  simp only
  have e : ∀ (A B C D : Prop) [Decidable A] [Decidable B] [Decidable C] [Decidable D] (E : Bool),
      (if A then true else if B then true else if C then true else if D then true else E) = true
        ↔ A ∨ B ∨ C ∨ D ∨ E = true := by
    intro A B C D _ _ _ _ E
    by_cases hA : A <;> by_cases hB : B <;> by_cases hC : C <;> by_cases hD : D <;>
      simp [hA, hB, hC, hD]
  rw [e]
  simp only [decide_eq_true_eq, and_ne_zero_iff, has_and, has_or, Bool.and_eq_true,
    Bool.or_eq_true]
  constructor
  · rintro (⟨s, ⟨h1, h2⟩, h3⟩ | ⟨s, ⟨h1, h2⟩, h3⟩ | ⟨s, (⟨h1, h2⟩ | ⟨h1, h2⟩), h3⟩
      | ⟨s, (⟨h1, h2⟩ | ⟨h1, h2⟩), h3⟩ | ⟨s, ⟨h1, h2⟩, h3⟩)
    · exact ⟨s, .PAWN, h1, h2, by rw [attacksFrom, has_pawnAttacks_symm]; exact h3⟩
    · exact ⟨s, .KNIGHT, h1, h2, by rw [attacksFrom, has_knightAttacks_symm]; exact h3⟩
    · exact ⟨s, .BISHOP, h1, h2, by rw [attacksFrom, has_bishopAttacks_symm]; exact h3⟩
    · exact ⟨s, .QUEEN, h1, h2, by
        rw [attacksFrom, has_queenAttacks, has_bishopAttacks_symm]; exact Or.inl h3⟩
    · exact ⟨s, .ROOK, h1, h2, by rw [attacksFrom, has_rookAttacks_symm]; exact h3⟩
    · exact ⟨s, .QUEEN, h1, h2, by
        rw [attacksFrom, has_queenAttacks, has_rookAttacks_symm s]; exact Or.inr h3⟩
    · exact ⟨s, .KING, h1, h2, by rw [attacksFrom, has_kingAttacks_symm]; exact h3⟩
  · rintro ⟨s, p, h1, h2, h3⟩
    cases p <;> simp only [attacksFrom, pieceBb] at h2 h3
    · exact Or.inl ⟨s, ⟨h1, h2⟩, by rw [← has_pawnAttacks_symm]; exact h3⟩
    · exact Or.inr (Or.inl ⟨s, ⟨h1, h2⟩, by rw [has_knightAttacks_symm]; exact h3⟩)
    · exact Or.inr (Or.inr (Or.inl ⟨s, Or.inl ⟨h1, h2⟩, by
        rw [has_bishopAttacks_symm]; exact h3⟩))
    · exact Or.inr (Or.inr (Or.inr (Or.inl ⟨s, Or.inl ⟨h1, h2⟩, by
        rw [has_rookAttacks_symm]; exact h3⟩)))
    · rcases has_queenAttacks.mp h3 with h3 | h3
      · exact Or.inr (Or.inr (Or.inl ⟨s, Or.inr ⟨h1, h2⟩, by
          rw [has_bishopAttacks_symm]; exact h3⟩))
      · exact Or.inr (Or.inr (Or.inr (Or.inl ⟨s, Or.inr ⟨h1, h2⟩, by
          rw [has_rookAttacks_symm]; exact h3⟩)))
    · exact Or.inr (Or.inr (Or.inr (Or.inr ⟨s, ⟨h1, h2⟩, by
        rw [has_kingAttacks_symm]; exact h3⟩)))
    · exact absurd h3 Bool.false_ne_true

theorem has_attackers (b : Board) (sq : Nat) (c : Color) (s : Nat) :
    has (b.attackers sq c) s = true ↔ ∃ p, b.IsAttacker b.occupancy sq c s p := by
  unfold attackers IsAttacker
  simp only [has_and, has_or, Bool.and_eq_true, Bool.or_eq_true]
  constructor
  · rintro ⟨((((⟨h2, h3⟩ | ⟨h2, h3⟩) | ⟨h2, h3⟩) | ⟨(h2 | h2), h3⟩) | ⟨(h2 | h2), h3⟩), h1⟩
    · exact ⟨.PAWN, h1, h2, by rw [attacksFrom, has_pawnAttacks_symm]; exact h3⟩
    · exact ⟨.KNIGHT, h1, h2, by rw [attacksFrom, has_knightAttacks_symm]; exact h3⟩
    · exact ⟨.KING, h1, h2, by rw [attacksFrom, has_kingAttacks_symm]; exact h3⟩
    · exact ⟨.BISHOP, h1, h2, by rw [attacksFrom, has_bishopAttacks_symm]; exact h3⟩
    · exact ⟨.QUEEN, h1, h2, by
        rw [attacksFrom, has_queenAttacks, has_bishopAttacks_symm]; exact Or.inl h3⟩
    · exact ⟨.ROOK, h1, h2, by rw [attacksFrom, has_rookAttacks_symm]; exact h3⟩
    · exact ⟨.QUEEN, h1, h2, by
        rw [attacksFrom, has_queenAttacks, has_rookAttacks_symm s]; exact Or.inr h3⟩
  · rintro ⟨p, h1, h2, h3⟩
    refine ⟨?_, h1⟩
    cases p <;> simp only [attacksFrom, pieceBb] at h2 h3
    · exact Or.inl (Or.inl (Or.inl (Or.inl ⟨h2, by rw [← has_pawnAttacks_symm]; exact h3⟩)))
    · exact Or.inl (Or.inl (Or.inl (Or.inr ⟨h2, by rw [has_knightAttacks_symm]; exact h3⟩)))
    · exact Or.inl (Or.inr ⟨Or.inl h2, by rw [has_bishopAttacks_symm]; exact h3⟩)
    · exact Or.inr ⟨Or.inl h2, by rw [has_rookAttacks_symm]; exact h3⟩
    · rcases has_queenAttacks.mp h3 with h3 | h3
      · exact Or.inl (Or.inr ⟨Or.inr h2, by rw [has_bishopAttacks_symm]; exact h3⟩)
      · exact Or.inr ⟨Or.inr h2, by rw [has_rookAttacks_symm]; exact h3⟩
    · exact Or.inl (Or.inl (Or.inr ⟨h2, by rw [has_kingAttacks_symm]; exact h3⟩))
    · exact absurd h3 Bool.false_ne_true

end Board

namespace Board

theorem has_attacks {b : Board} (hv : b.Valid) (c : Color) (occ0 t : Nat) :
    has (b.attacks c occ0) t = true ↔
      ∃ s p, b.IsAttacker (if occ0 = 0 then b.occupancy else occ0) t c s p := by
  obtain ⟨k, hk1, hk2, hk3⟩ := hv.king c
  unfold attacks IsAttacker
  simp only
  generalize (if occ0 = 0 then b.occupancy else occ0) = occ
  rw [has_or, Bool.or_eq_true, has_foldl_bits_or, has_foldl_bits_or, has_foldl_bits_or,
    has_foldl_bits_or, hk2]
  simp only [has_zero, Bool.false_eq_true, false_or, has_and, has_or, Bool.and_eq_true,
    Bool.or_eq_true]
  constructor
  · rintro ((((⟨s, _, ⟨h1, h2⟩, h3⟩ | ⟨s, _, ⟨h1, h2⟩, h3⟩) | ⟨s, _, (⟨h1, h2⟩ | ⟨h1, h2⟩), h3⟩)
      | ⟨s, _, (⟨h1, h2⟩ | ⟨h1, h2⟩), h3⟩) | h3)
    · exact ⟨s, .PAWN, h1, h2, h3⟩
    · exact ⟨s, .KNIGHT, h1, h2, h3⟩
    · exact ⟨s, .BISHOP, h1, h2, h3⟩
    · exact ⟨s, .QUEEN, h1, h2, has_queenAttacks.mpr (Or.inl h3)⟩
    · exact ⟨s, .ROOK, h1, h2, h3⟩
    · exact ⟨s, .QUEEN, h1, h2, has_queenAttacks.mpr (Or.inr h3)⟩
    · exact ⟨k, .KING, ((hk3 k).mpr rfl).1, ((hk3 k).mpr rfl).2, h3⟩
  · rintro ⟨s, p, h1, h2, h3⟩
    have hs : s < 64 := hv.color_lt h1
    cases p <;> simp only [attacksFrom, pieceBb] at h2 h3
    · exact Or.inl (Or.inl (Or.inl (Or.inl ⟨s, hs, ⟨h1, h2⟩, h3⟩)))
    · exact Or.inl (Or.inl (Or.inl (Or.inr ⟨s, hs, ⟨h1, h2⟩, h3⟩)))
    · exact Or.inl (Or.inl (Or.inr ⟨s, hs, Or.inl ⟨h1, h2⟩, h3⟩))
    · exact Or.inl (Or.inr ⟨s, hs, Or.inl ⟨h1, h2⟩, h3⟩)
    · rcases has_queenAttacks.mp h3 with h3 | h3
      · exact Or.inl (Or.inl (Or.inr ⟨s, hs, Or.inr ⟨h1, h2⟩, h3⟩))
      · exact Or.inl (Or.inr ⟨s, hs, Or.inr ⟨h1, h2⟩, h3⟩)
    · have := (hk3 s).mp ⟨h1, h2⟩
      subst this
      exact Or.inr h3
    · exact absurd h3 Bool.false_ne_true

/-- The occupancy `legalMoves` hands to `attacks`: the board without the king of the side to
move. It is never empty, so `attacks` does not fall back on the whole occupancy. -/
theorem Valid.occ_without_king {b : Board} (hv : b.Valid) (x : Nat) :
    has (b.occupancy ^^^ 1 <<< b.kingSquare) x = (has b.occupancy x && !decide (x = b.kingSquare)) := by
  rw [has_xor, has_bit]
  by_cases h : x = b.kingSquare
  · subst h
    have := (hv.kingSquare_spec.2 b.kingSquare).mpr rfl
    have ho : has b.occupancy b.kingSquare = true := by
      rw [has_occupancy b b.mColorToMove, Bool.or_eq_true]
      exact Or.inl this.1
    simp [ho]
  · have h' : ¬ b.kingSquare = x := fun e => h e.symm
    simp [h, h']

theorem Valid.occ_without_king_ne_zero {b : Board} (hv : b.Valid) :
    b.occupancy ^^^ 1 <<< b.kingSquare ≠ 0 := by
  obtain ⟨k, hk1, hk2, hk3⟩ := hv.king (oppColor b.mColorToMove)
  rw [ne_zero_iff_exists_has]
  refine ⟨k, ?_⟩
  have h1 := (hk3 k).mpr rfl
  rw [hv.occ_without_king, has_occupancy b b.mColorToMove, h1.1]
  have : k ≠ b.kingSquare := by
    intro e
    have h2 := (hv.kingSquare_spec.2 b.kingSquare).mpr rfl
    have := hv.color_disjoint h2.1
    rw [← e, h1.1] at this
    exact Bool.noConfusion this
  simp [this]

/-- The squares `legalMoves` calls attacked: those a piece of the opponent attacks once the
king of the side to move is taken off the board. -/
theorem has_theirAttacks {b : Board} (hv : b.Valid) (t : Nat) :
    has b.theirAttacks t = true ↔
      ∃ s p, b.IsAttacker (b.occupancy ^^^ 1 <<< b.kingSquare) t (oppColor b.mColorToMove) s p := by
  unfold theirAttacks
  rw [has_attacks hv, if_neg hv.occ_without_king_ne_zero]

theorem has_checkers (b : Board) (s : Nat) :
    has b.checkers s = true ↔
      ∃ p, b.IsAttacker b.occupancy b.kingSquare (oppColor b.mColorToMove) s p := by
  unfold checkers
  rw [has_attackers]
  rfl

theorem inCheck_iff (b : Board) :
    b.inCheck = true ↔
      ∃ s p, b.IsAttacker b.occupancy b.kingSquare (oppColor b.mColorToMove) s p := by
  unfold inCheck
  rw [isSquareAttacked_iff]
  rfl

end Board

/-! ## Blockers on a line -/

/-- Nesting: what is between `a` and `u` is between `a` and `b` when `u` is. -/
theorem isBetween_nest {a v u b : Nat} (h1 : isBetween a v u = true)
    (h2 : isBetween a u b = true) : isBetween a v b = true := by
  obtain ⟨L, l1, l2, l3, l4, l5, l6⟩ := isBetween_line h2
  obtain ⟨p1, p2⟩ := isBetween_pos l3 h2
  obtain ⟨q1, q2⟩ := isBetween_pos l1 h1
  exact isBetween_of_pos q1 l3 (by omega)

/-- The far part: what is between `u` and `b` is between `a` and `b` when `u` is. -/
theorem isBetween_nest_far {a v u b : Nat} (h1 : isBetween u v b = true)
    (h2 : isBetween a u b = true) : isBetween a v b = true := by
  obtain ⟨L, l1, l2, l3, l4, l5, l6⟩ := isBetween_line h2
  obtain ⟨p1, p2⟩ := isBetween_pos l3 h2
  obtain ⟨q1, q2⟩ := isBetween_pos l2 h1
  exact isBetween_of_pos (LineKind.same_trans l1 q1) l3 (by omega)

/-- Two squares between `a` and `b` are equal or one lies between `a` and the other. -/
theorem isBetween_trichotomy {a u v b : Nat} (h1 : isBetween a u b = true)
    (h2 : isBetween a v b = true) :
    u = v ∨ isBetween a u v = true ∨ isBetween a v u = true := by
  obtain ⟨L, l1, l2, l3, l4, l5, l6⟩ := isBetween_line h1
  obtain ⟨p1, p2⟩ := isBetween_pos l3 h1
  obtain ⟨q1, q2⟩ := isBetween_pos l3 h2
  by_cases e : L.pos u = L.pos v
  · exact Or.inl (LineKind.eq_of_pos (LineKind.same_trans (LineKind.same_symm p1) q1) e)
  · by_cases e2 : (L.pos a < L.pos u ∧ L.pos u < L.pos v) ∨ (L.pos v < L.pos u ∧ L.pos u < L.pos a)
    · exact Or.inr (Or.inl (isBetween_of_pos p1 q1 e2))
    · exact Or.inr (Or.inr (isBetween_of_pos q1 p1 (by omega)))

/-- A square `t` of the line through `a` and `b`, other than `a` and `b`, lies between them or
has one of them between itself and the other. -/
theorem line_cases {L : LineKind} {a b t : Nat} (hab : L.same a b) (hat : L.same a t)
    (h1 : t ≠ a) (h2 : t ≠ b) (h3 : a ≠ b) :
    isBetween a t b = true ∨ isBetween t a b = true ∨ isBetween a b t = true := by
  have e1 : L.pos t ≠ L.pos a := fun e => h1 (LineKind.eq_of_pos (LineKind.same_symm hat) e)
  have e2 : L.pos t ≠ L.pos b := fun e =>
    h2 (LineKind.eq_of_pos (LineKind.same_trans (LineKind.same_symm hat) hab) e)
  have e3 : L.pos a ≠ L.pos b := fun e => h3 (LineKind.eq_of_pos hab e)
  by_cases c1 : (L.pos a < L.pos t ∧ L.pos t < L.pos b) ∨ (L.pos b < L.pos t ∧ L.pos t < L.pos a)
  · exact Or.inl (isBetween_of_pos hat hab c1)
  · by_cases c2 : (L.pos t < L.pos a ∧ L.pos a < L.pos b) ∨ (L.pos b < L.pos a ∧ L.pos a < L.pos t)
    · exact Or.inr (Or.inl (isBetween_of_pos (LineKind.same_symm hat)
        (LineKind.same_trans (LineKind.same_symm hat) hab) c2))
    · exact Or.inr (Or.inr (isBetween_of_pos hab hat (by omega)))

theorem not_isBetween_self_left (a b : Nat) : isBetween a a b = false := by
  by_contra h
  simp only [Bool.not_eq_false] at h
  obtain ⟨L, l1, l2, l3, l4, l5, l6⟩ := isBetween_line h
  exact l4 rfl

theorem not_isBetween_self_right (a b : Nat) : isBetween a b b = false := by
  by_contra h
  simp only [Bool.not_eq_false] at h
  obtain ⟨L, l1, l2, l3, l4, l5, l6⟩ := isBetween_line h
  exact l5 rfl

/-- Betweenness is not symmetric in the middle: `u` between `a` and `v` excludes `v` between
`a` and `u`. -/
theorem isBetween_asymm {a u v : Nat} (h1 : isBetween a u v = true) :
    isBetween a v u = false := by
  by_contra h
  simp only [Bool.not_eq_false] at h
  obtain ⟨L, l1, l2, l3, l4, l5, l6⟩ := isBetween_line h1
  obtain ⟨p1, p2⟩ := isBetween_pos l3 h1
  obtain ⟨q1, q2⟩ := isBetween_pos l1 h
  omega

/-! ## X-ray attacks and pins -/

/-- X-ray attacks of a slider `att` from `k`: the squares that `k` sees on a line of the right
kind once the single piece in between, one of `us`, is taken away. -/
theorem has_xray_of {att : Nat → Nat → Nat} {σ : Bool}
    (hatt : ∀ k occ t, has (att k occ) t = true ↔ k < 64 ∧ t < 64 ∧ k ≠ t
      ∧ (∃ L : LineKind, L.straight = σ ∧ L.same k t)
      ∧ ∀ u, u < 64 → isBetween k u t = true → has occ u = false)
    {k occ us s : Nat} (hsub : ∀ x, has us x = true → has occ x = true) :
    has (att k occ ^^^ att k (occ ^^^ (us &&& att k occ))) s = true ↔
      k < 64 ∧ s < 64 ∧ k ≠ s ∧ (∃ L : LineKind, L.straight = σ ∧ L.same k s)
      ∧ ∃ f, has us f = true ∧ SoleBlocker occ k f s := by
  have hocc' : ∀ u, has (occ ^^^ (us &&& att k occ)) u
      = (has occ u && !(has us u && has (att k occ) u)) := by
    intro u
    rw [has_xor, has_and]
    cases h1 : has occ u <;> cases h2 : has us u <;> cases h3 : has (att k occ) u <;>
      first | rfl | exact Bool.noConfusion (h1.symm.trans (hsub u h2))
  rw [has_xor]
  constructor
  · intro hx
    have hA' : has (att k (occ ^^^ (us &&& att k occ))) s = true := by
      cases hA : has (att k occ) s
      · rw [hA] at hx; simpa using hx
      · -- a square seen through `occ` is seen through less
        obtain ⟨a1, a2, a3, a4, a5⟩ := (hatt k occ s).mp hA
        refine (hatt k _ s).mpr ⟨a1, a2, a3, a4, ?_⟩
        intro u hu hb
        rw [hocc', a5 u hu hb]
        rfl
    have hA : has (att k occ) s = false := by
      rw [hA'] at hx
      cases h : has (att k occ) s
      · rfl
      · rw [h] at hx; exact absurd hx (by decide)
    obtain ⟨a1, a2, a3, a4, a5⟩ := (hatt k _ s).mp hA'
    refine ⟨a1, a2, a3, a4, ?_⟩
    -- some square in between is occupied, else `s` would be seen
    have hex : ∃ f, f < 64 ∧ isBetween k f s = true ∧ has occ f = true := by
      by_contra hne
      have : has (att k occ) s = true := by
        refine (hatt k occ s).mpr ⟨a1, a2, a3, a4, ?_⟩
        intro u hu hb
        by_contra ho
        simp only [Bool.not_eq_false] at ho
        exact hne ⟨u, hu, hb, ho⟩
      rw [hA] at this
      exact Bool.noConfusion this
    obtain ⟨f, hf, hfb, hfo⟩ := hex
    -- every occupied square in between is one of the blockers
    have hblock : ∀ u, u < 64 → isBetween k u s = true → has occ u = true →
        has us u = true ∧ has (att k occ) u = true := by
      intro u hu hb ho
      have := a5 u hu hb
      rw [hocc', ho] at this
      simpa using this
    refine ⟨f, (hblock f hf hfb hfo).1, hf, hfb, hfo, ?_⟩
    intro u hu hb ho
    rcases isBetween_trichotomy hb hfb with e | e | e
    · exact e
    · -- `u` is between `k` and `f`, so `f` is not seen from `k`
      have h5 := ((hatt k occ f).mp (hblock f hf hfb hfo).2).2.2.2.2 u hu e
      rw [ho] at h5
      exact Bool.noConfusion h5
    · have h5 := ((hatt k occ u).mp (hblock u hu hb ho).2).2.2.2.2 f hf e
      rw [hfo] at h5
      exact Bool.noConfusion h5
  · rintro ⟨a1, a2, a3, ⟨L, hL, hLs⟩, f, hfu, hf, hfb, hfo, huniq⟩
    have hA : has (att k occ) s = false := by
      by_contra h
      simp only [Bool.not_eq_false] at h
      have := ((hatt k occ s).mp h).2.2.2.2 f hf hfb
      rw [hfo] at this
      exact Bool.noConfusion this
    have hAf : has (att k occ) f = true := by
      obtain ⟨M, m1, m2, m3, m4, m5, m6⟩ := isBetween_line hfb
      have e : L = M := LineKind.unique a3 hLs m3
      subst e
      refine (hatt k occ f).mpr ⟨a1, hf, m4, ⟨L, hL, m1⟩, ?_⟩
      intro u hu hb
      by_contra ho
      simp only [Bool.not_eq_false] at ho
      have := huniq u hu (isBetween_nest hb hfb) ho
      subst this
      rw [not_isBetween_self_right] at hb
      exact Bool.noConfusion hb
    have hA' : has (att k (occ ^^^ (us &&& att k occ))) s = true := by
      refine (hatt k _ s).mpr ⟨a1, a2, a3, ⟨L, hL, hLs⟩, ?_⟩
      intro u hu hb
      rw [hocc']
      cases ho : has occ u
      · rfl
      · have := huniq u hu hb ho
        subst this
        rw [hfu, hAf]
        rfl
    rw [hA, hA']
    rfl

theorem has_xrayRook {k occ us s : Nat} (hsub : ∀ x, has us x = true → has occ x = true) :
    has (xrayRook k occ us) s = true ↔
      k < 64 ∧ s < 64 ∧ k ≠ s ∧ (∃ L : LineKind, L.straight = true ∧ L.same k s)
      ∧ ∃ f, has us f = true ∧ SoleBlocker occ k f s :=
  has_xray_of (fun _ _ _ => has_rookAttacks_line) hsub

theorem has_xrayBishop {k occ us s : Nat} (hsub : ∀ x, has us x = true → has occ x = true) :
    has (xrayBishop k occ us) s = true ↔
      k < 64 ∧ s < 64 ∧ k ≠ s ∧ (∃ L : LineKind, L.straight = false ∧ L.same k s)
      ∧ ∃ f, has us f = true ∧ SoleBlocker occ k f s :=
  has_xray_of (fun _ _ _ => has_bishopAttacks_line) hsub

namespace Board

theorem has_us_occupancy (b : Board) {x : Nat} (h : has b.us x = true) :
    has b.occupancy x = true := by
  rw [has_occupancy b b.mColorToMove, Bool.or_eq_true]
  exact Or.inl h

theorem has_them_occupancy (b : Board) {x : Nat} (h : has b.them x = true) :
    has b.occupancy x = true := by
  rw [has_occupancy b b.mColorToMove, Bool.or_eq_true]
  exact Or.inr h

theorem has_pinned_fst {b : Board} (hv : b.Valid) (f : Nat) :
    has b.pinned.1 f = true ↔ ∃ s, b.PinnedBy true f s := by
  unfold pinned PinnedBy
  simp only [if_true]
  rw [has_foldl_bits_or]
  simp only [has_zero, Bool.false_eq_true, false_or, has_and, has_or, Bool.and_eq_true,
    Bool.or_eq_true, has_BETWEEN]
  change (∃ s, s < 64 ∧ ((_ ∧ has (xrayRook b.kingSquare b.occupancy b.us) s = true) ∧ _) ∧ _) ↔ _
  constructor
  · rintro ⟨s, hs, ⟨⟨hp, hx⟩, ht⟩, ⟨_, _, hf64, hb⟩, hfu⟩
    obtain ⟨x1, x2, x3, x4, f', hf'u, hf', hsb⟩ :=
      (has_xrayRook (fun x hx => b.has_us_occupancy hx)).mp hx
    have hb' : isBetween b.kingSquare f s = true := by rw [isBetween_symm]; exact hb
    have e : f = f' := hsb.2.2 f hf64 hb' (b.has_us_occupancy hfu)
    subst e
    exact ⟨s, hfu, ht, hp, x4, hf', hsb⟩
  · rintro ⟨s, hfu, ht, hp, hL, hsb⟩
    have hs : s < 64 := hv.color_lt (c := oppColor b.mColorToMove) ht
    have hk : b.kingSquare < 64 := hv.kingSquare_spec.1
    have hks : b.kingSquare ≠ s := by
      obtain ⟨L, l1, l2, l3, l4, l5, l6⟩ := isBetween_line hsb.2.1
      exact l6
    refine ⟨s, hs, ⟨⟨hp, ?_⟩, ht⟩, ⟨hs, hk, hsb.1, ?_⟩, hfu⟩
    · exact (has_xrayRook (fun x hx => b.has_us_occupancy hx)).mpr
        ⟨hk, hs, hks, hL, f, hfu, hsb⟩
    · rw [isBetween_symm]; exact hsb.2.1

theorem has_pinned_snd {b : Board} (hv : b.Valid) (f : Nat) :
    has b.pinned.2 f = true ↔ ∃ s, b.PinnedBy false f s := by
  unfold pinned PinnedBy
  simp only [Bool.false_eq_true, if_false]
  rw [has_foldl_bits_or]
  simp only [has_zero, Bool.false_eq_true, false_or, has_and, has_or, Bool.and_eq_true,
    Bool.or_eq_true, has_BETWEEN]
  change (∃ s, s < 64 ∧ ((_ ∧ has (xrayBishop b.kingSquare b.occupancy b.us) s = true) ∧ _) ∧ _)
    ↔ _
  constructor
  · rintro ⟨s, hs, ⟨⟨hp, hx⟩, ht⟩, ⟨_, _, hf64, hb⟩, hfu⟩
    obtain ⟨x1, x2, x3, x4, f', hf'u, hf', hsb⟩ :=
      (has_xrayBishop (fun x hx => b.has_us_occupancy hx)).mp hx
    have hb' : isBetween b.kingSquare f s = true := by rw [isBetween_symm]; exact hb
    have e : f = f' := hsb.2.2 f hf64 hb' (b.has_us_occupancy hfu)
    subst e
    exact ⟨s, hfu, ht, hp, x4, hf', hsb⟩
  · rintro ⟨s, hfu, ht, hp, hL, hsb⟩
    have hs : s < 64 := hv.color_lt (c := oppColor b.mColorToMove) ht
    have hk : b.kingSquare < 64 := hv.kingSquare_spec.1
    have hks : b.kingSquare ≠ s := by
      obtain ⟨L, l1, l2, l3, l4, l5, l6⟩ := isBetween_line hsb.2.1
      exact l6
    refine ⟨s, hs, ⟨⟨hp, ?_⟩, ht⟩, ⟨hs, hk, hsb.1, ?_⟩, hfu⟩
    · exact (has_xrayBishop (fun x hx => b.has_us_occupancy hx)).mpr
        ⟨hk, hs, hks, hL, f, hfu, hsb⟩
    · rw [isBetween_symm]; exact hsb.2.1

end Board

namespace Board

theorem IsAttacker.lt {b : Board} {occ sq : Nat} {c : Color} {s : Nat} {p : PieceType}
    (h : b.IsAttacker occ sq c s p) : s < 64 ∧ sq < 64 :=
  attacksFrom_lt h.2.2

theorem isSlider_iff_has {b : Board} (hv : b.Valid) {s : Nat} {p : PieceType}
    (hp : has (b.pieceBb p) s = true) :
    has (b.bishops ||| b.rooks ||| b.queens) s = true ↔ (p = .BISHOP ∨ p = .ROOK ∨ p = .QUEEN) := by
  simp only [has_or, Bool.or_eq_true]
  constructor
  · rintro ((h | h) | h)
    · exact Or.inl (hv.piece_unique hp (p := p) (q := .BISHOP) h)
    · exact Or.inr (Or.inl (hv.piece_unique hp (p := p) (q := .ROOK) h))
    · exact Or.inr (Or.inr (hv.piece_unique hp (p := p) (q := .QUEEN) h))
  · rintro (rfl | rfl | rfl)
    · exact Or.inl (Or.inl hp)
    · exact Or.inl (Or.inr hp)
    · exact Or.inr hp

/-- The squares a piece other than the king may move to: all of them when there is no check,
and with one checker its square and, for a slider, the squares between it and the king. -/
theorem has_movable {b : Board} (hv : b.Valid) (hle : popcount b.checkers ≤ 1) (t : Nat) :
    has b.movable t = true ↔ t < 64 ∧
      ∀ c p, b.IsAttacker b.occupancy b.kingSquare (oppColor b.mColorToMove) c p →
        (t = c ∨ ((p = .BISHOP ∨ p = .ROOK ∨ p = .QUEEN) ∧ isBetween b.kingSquare t c = true)) := by
  have hk : b.kingSquare < 64 := hv.kingSquare_spec.1
  unfold movable movableBb
  by_cases h1 : popcount b.checkers = 1
  · rw [if_pos h1]
    obtain ⟨c0, hc0, hlsb, hc0iff⟩ := popcount_eq_one h1
    obtain ⟨p0, hatt⟩ := (has_checkers b c0).mp ((hc0iff c0 hc0).mpr rfl)
    have huniq : ∀ c p, b.IsAttacker b.occupancy b.kingSquare (oppColor b.mColorToMove) c p →
        c = c0 ∧ p = p0 := by
      intro c p h
      have e : c = c0 := (hc0iff c h.lt.1).mp ((has_checkers b c).mpr ⟨p, h⟩)
      subst e
      exact ⟨rfl, hv.piece_unique h.2.1 hatt.2.1⟩
    have hsl : b.checkers &&& (b.bishops ||| b.rooks ||| b.queens) ≠ 0 ↔
        (p0 = .BISHOP ∨ p0 = .ROOK ∨ p0 = .QUEEN) := by
      rw [and_ne_zero_iff]
      constructor
      · rintro ⟨s, hs1, hs2⟩
        obtain ⟨p, hp⟩ := (has_checkers b s).mp hs1
        obtain ⟨e1, e2⟩ := huniq s p hp
        subst e1
        exact (isSlider_iff_has hv hatt.2.1).mp hs2
      · intro h
        exact ⟨c0, (hc0iff c0 hc0).mpr rfl, (isSlider_iff_has hv hatt.2.1).mpr h⟩
    have hck : ∀ t, has b.checkers t = true ↔ t = c0 := by
      intro t
      constructor
      · intro h
        obtain ⟨p, hp⟩ := (has_checkers b t).mp h
        exact (huniq t p hp).1
      · rintro rfl
        exact (hc0iff _ hc0).mpr rfl
    by_cases hs : p0 = .BISHOP ∨ p0 = .ROOK ∨ p0 = .QUEEN
    · rw [if_pos (hsl.mpr hs), hlsb, has_or, Bool.or_eq_true, hck, has_BETWEEN]
      constructor
      · rintro (rfl | ⟨_, _, h3, h4⟩)
        · refine ⟨hc0, ?_⟩
          intro c p h
          exact Or.inl (huniq c p h).1.symm
        · refine ⟨h3, ?_⟩
          intro c p h
          obtain ⟨e1, e2⟩ := huniq c p h
          subst e1 e2
          exact Or.inr ⟨hs, h4⟩
      · rintro ⟨h1, h2⟩
        rcases h2 c0 p0 hatt with h | ⟨_, h⟩
        · exact Or.inl h
        · exact Or.inr ⟨hk, hc0, h1, h⟩
    · rw [if_neg (fun h => hs (hsl.mp h)), hck]
      constructor
      · rintro rfl
        refine ⟨hc0, ?_⟩
        intro c p h
        exact Or.inl (huniq c p h).1.symm
      · rintro ⟨h1, h2⟩
        rcases h2 c0 p0 hatt with h | ⟨h, _⟩
        · exact h
        · exact absurd h hs
  · rw [if_neg h1, has_ONES, decide_eq_true_eq]
    have h0 : popcount b.checkers = 0 := by omega
    have hnone : ∀ c p, ¬ b.IsAttacker b.occupancy b.kingSquare (oppColor b.mColorToMove) c p := by
      intro c p h
      have hc : c ∈ bits b.checkers := mem_bits_iff.mpr ⟨h.lt.1, (has_checkers b c).mpr ⟨p, h⟩⟩
      unfold popcount at h0
      rw [List.length_eq_zero.mp h0] at hc
      exact List.not_mem_nil _ hc
    constructor
    · intro h
      exact ⟨h, fun c p hcp => absurd hcp (hnone c p)⟩
    · exact fun h => h.1

end Board

/-! ## Moving a pinned piece -/

/-- A piece that is the only one between `k` and `s` and slides along the line through `k` to
a square `t` it can reach ends on `k`, on `s` or between them. -/
theorem pin_slide {occ k f s t : Nat} (hsb : SoleBlocker occ k f s)
    (hk : has occ k = true) (hs : has occ s = true) (hk64 : k < 64) (hs64 : s < 64)
    (hline : isOnLine k f t = true)
    (hreach : ∀ u, u < 64 → isBetween f u t = true → has occ u = false) :
    t = k ∨ t = s ∨ isBetween k t s = true := by
  obtain ⟨L, l1, l2, l3, l4, l5, l6⟩ := isBetween_line hsb.2.1
  obtain ⟨hkf, M, m1, m2⟩ := isOnLine_iff_line.mp hline
  have e : M = L := LineKind.unique l4 m1 l1
  subst e
  by_cases e1 : t = k
  · exact Or.inl e1
  by_cases e2 : t = s
  · exact Or.inr (Or.inl e2)
  refine Or.inr (Or.inr ?_)
  obtain ⟨p1, p2⟩ := isBetween_pos l3 hsb.2.1
  rcases line_cases l3 m2 e1 e2 l6 with h | h | h
  · exact h
  · -- `k` lies between `f` and `t`
    exfalso
    obtain ⟨q1, q2⟩ := isBetween_pos (LineKind.same_trans (LineKind.same_symm m2) l3) h
    have hb : isBetween f k t = true :=
      isBetween_of_pos (LineKind.same_symm m1) (LineKind.same_trans (LineKind.same_symm m1) m2)
        (by omega)
    have := hreach k hk64 hb
    rw [hk] at this
    exact Bool.noConfusion this
  · -- `s` lies between `f` and `t`
    exfalso
    obtain ⟨q1, q2⟩ := isBetween_pos m2 h
    have hb : isBetween f s t = true :=
      isBetween_of_pos l2 (LineKind.same_trans (LineKind.same_symm m1) m2) (by omega)
    have := hreach s hs64 hb
    rw [hs] at this
    exact Bool.noConfusion this

/-- A square next to a square between `k` and `s`, on their line, is `k`, `s` or between
them. -/
theorem adjacent_between {L : LineKind} {k f s t : Nat} (hb : isBetween k f s = true)
    (hL : L.same k s) (hft : L.same f t)
    (hadj : L.pos t = L.pos f + 1 ∨ L.pos t + 1 = L.pos f) :
    t = k ∨ t = s ∨ isBetween k t s = true := by
  obtain ⟨p1, p2⟩ := isBetween_pos hL hb
  have hkt : L.same k t := LineKind.same_trans p1 hft
  by_cases e1 : L.pos t = L.pos k
  · exact Or.inl (LineKind.eq_of_pos (LineKind.same_symm hkt) e1)
  by_cases e2 : L.pos t = L.pos s
  · exact Or.inr (Or.inl (LineKind.eq_of_pos
      (LineKind.same_trans (LineKind.same_symm hkt) hL) e2))
  exact Or.inr (Or.inr (isBetween_of_pos hkt hL (by omega)))

/-- A slider's reach: between a queen, rook or bishop and a square it attacks nothing is
occupied, and the two squares differ and share a line. -/
theorem slider_reach {p : PieceType} {c : Color} {occ s t : Nat}
    (hp : p = .BISHOP ∨ p = .ROOK ∨ p = .QUEEN) (h : attacksFrom p c occ s t = true) :
    s < 64 ∧ t < 64 ∧ s ≠ t
      ∧ (∃ L : LineKind, L.same s t ∧ ((p = .BISHOP ∧ L.straight = false)
          ∨ (p = .ROOK ∧ L.straight = true) ∨ p = .QUEEN))
      ∧ ∀ u, u < 64 → isBetween s u t = true → has occ u = false := by
  rcases hp with rfl | rfl | rfl <;> simp only [attacksFrom] at h
  · obtain ⟨h1, h2, h3, ⟨L, hL, hs⟩, h5⟩ := has_bishopAttacks_line.mp h
    exact ⟨h1, h2, h3, ⟨L, hs, Or.inl ⟨rfl, hL⟩⟩, h5⟩
  · obtain ⟨h1, h2, h3, ⟨L, hL, hs⟩, h5⟩ := has_rookAttacks_line.mp h
    exact ⟨h1, h2, h3, ⟨L, hs, Or.inr (Or.inl ⟨rfl, hL⟩)⟩, h5⟩
  · rcases has_queenAttacks.mp h with h | h
    · obtain ⟨h1, h2, h3, ⟨L, hL, hs⟩, h5⟩ := has_bishopAttacks_line.mp h
      exact ⟨h1, h2, h3, ⟨L, hs, Or.inr (Or.inr rfl)⟩, h5⟩
    · obtain ⟨h1, h2, h3, ⟨L, hL, hs⟩, h5⟩ := has_rookAttacks_line.mp h
      exact ⟨h1, h2, h3, ⟨L, hs, Or.inr (Or.inr rfl)⟩, h5⟩

/-- The converse of `slider_reach`. -/
theorem attacksFrom_of_reach {p : PieceType} {c : Color} {occ s t : Nat} {L : LineKind}
    (hs : s < 64) (ht : t < 64) (hst : s ≠ t) (hL : L.same s t)
    (hp : (p = .BISHOP ∧ L.straight = false) ∨ (p = .ROOK ∧ L.straight = true) ∨ p = .QUEEN)
    (h : ∀ u, u < 64 → isBetween s u t = true → has occ u = false) :
    attacksFrom p c occ s t = true := by
  rcases hp with ⟨rfl, hσ⟩ | ⟨rfl, hσ⟩ | rfl <;> simp only [attacksFrom]
  · exact has_bishopAttacks_line.mpr ⟨hs, ht, hst, ⟨L, hσ, hL⟩, h⟩
  · exact has_rookAttacks_line.mpr ⟨hs, ht, hst, ⟨L, hσ, hL⟩, h⟩
  · cases hσ : L.straight
    · exact has_queenAttacks.mpr (Or.inl (has_bishopAttacks_line.mpr ⟨hs, ht, hst, ⟨L, hσ, hL⟩, h⟩))
    · exact has_queenAttacks.mpr (Or.inr (has_rookAttacks_line.mpr ⟨hs, ht, hst, ⟨L, hσ, hL⟩, h⟩))

/-- The attack of a pawn, knight or king does not depend on the occupancy. -/
theorem attacksFrom_leaper {p : PieceType} {c : Color} (occ occ' : Nat) {s t : Nat}
    (hp : p = .PAWN ∨ p = .KNIGHT ∨ p = .KING) :
    attacksFrom p c occ s t = attacksFrom p c occ' s t := by
  rcases hp with rfl | rfl | rfl <;> rfl

theorem pieceType_cases (p : PieceType) :
    (p = .PAWN ∨ p = .KNIGHT ∨ p = .KING) ∨ (p = .BISHOP ∨ p = .ROOK ∨ p = .QUEEN)
      ∨ p = .NONE := by
  cases p <;> simp

namespace Board

/-! ## Soundness of the generated moves -/

/-- The heart of soundness for a move of a piece other than the king from `f` to `t`: when
`t` is one of the squares allowed by the checkers and the move respects every pin on `f`, no
enemy piece that is still on the board attacks the king across the new occupancy `occ'`. -/
theorem safe_after_move {b : Board} (hv : b.Valid) {f t occ' : Nat} (hf : has b.us f = true)
    (hocc' : ∀ x, has occ' x = (decide (x = t) || (has b.occupancy x && !decide (x = f))))
    (hle : popcount b.checkers ≤ 1) (hmov : has b.movable t = true)
    (hpin : ∀ σ s, b.PinnedBy σ f s → t = s ∨ isBetween b.kingSquare t s = true)
    {s : Nat} {p : PieceType} (hst : s ≠ t) (hs : has b.them s = true)
    (hp : has (b.pieceBb p) s = true) :
    attacksFrom p (oppColor b.mColorToMove) occ' s b.kingSquare = false := by
  by_contra hatt
  simp only [Bool.not_eq_false] at hatt
  have hmv := (has_movable hv hle t).mp hmov
  -- what follows once `s` is known to end up blocked or captured
  have hfin : ∀ (hsl : p = .BISHOP ∨ p = .ROOK ∨ p = .QUEEN),
      (t = s ∨ isBetween b.kingSquare t s = true) → False := by
    intro hsl h
    rcases h with h | h
    · exact hst h.symm
    · have := (slider_reach hsl hatt).2.2.2.2 t hmv.1 (by rw [isBetween_symm]; exact h)
      rw [hocc'] at this
      simp at this
  rcases pieceType_cases p with hl | hsl | rfl
  · -- pawn, knight, king: the attack was there before the move
    rw [attacksFrom_leaper occ' b.occupancy hl] at hatt
    rcases hmv.2 s p ⟨hs, hp, hatt⟩ with h | ⟨h, _⟩
    · exact hst h.symm
    · rcases hl with rfl | rfl | rfl <;> rcases h with h | h | h <;> cases h
  · obtain ⟨s64, k64, hsk, ⟨L, hL, hty⟩, hreach⟩ := slider_reach hsl hatt
    by_cases hblk : ∃ u, u < 64 ∧ isBetween b.kingSquare u s = true ∧ has b.occupancy u = true
    · obtain ⟨u, hu, hub, huo⟩ := hblk
      have hall : ∀ v, v < 64 → isBetween b.kingSquare v s = true → has b.occupancy v = true →
          v = f := by
        intro v hv64 hvb hvo
        have := hreach v hv64 (by rw [isBetween_symm]; exact hvb)
        rw [hocc', hvo] at this
        simp at this
        exact this.2
      have huf : u = f := hall u hu hub huo
      subst huf
      have hus : has b.us u = true := hf
      have hpinned : b.PinnedBy L.straight u s := by
        refine ⟨hus, hs, ?_, ⟨L, rfl, LineKind.same_symm hL⟩, hu, hub, huo, hall⟩
        rcases hty with ⟨rfl, hσ⟩ | ⟨rfl, hσ⟩ | rfl
        · rw [hσ]; exact Or.inl hp
        · rw [hσ]; exact Or.inl hp
        · exact Or.inr hp
      exact hfin hsl (hpin _ s hpinned)
    · -- nothing stood between: `s` gave check before the move
      have hatt0 : attacksFrom p (oppColor b.mColorToMove) b.occupancy s b.kingSquare = true := by
        refine attacksFrom_of_reach s64 k64 hsk hL hty ?_
        intro u hu hub
        by_contra ho
        simp only [Bool.not_eq_false] at ho
        exact hblk ⟨u, hu, by rw [isBetween_symm]; exact hub, ho⟩
      rcases hmv.2 s p ⟨hs, hp, hatt0⟩ with h | ⟨_, h⟩
      · exact hst h.symm
      · exact hfin hsl (Or.inr h)
  · simp [attacksFrom] at hatt

end Board

theorem eq_singleton_of_nodup {l : List Nat} {k : Nat} (hn : l.Nodup)
    (h : ∀ x, x ∈ l ↔ x = k) : l = [k] := by
  match l, hn, h with
  | [], _, h => exact absurd ((h k).mpr rfl) (List.not_mem_nil _)
  | [a], _, h =>
    have := (h a).mp (List.mem_singleton.mpr rfl)
    rw [this]
  | a :: c :: l, hn, h =>
    exfalso
    have h1 := (h a).mp (List.mem_cons_self _ _)
    have h2 := (h c).mp (List.mem_cons_of_mem _ (List.mem_cons_self _ _))
    rw [List.nodup_cons] at hn
    exact hn.1 (by rw [h1, ← h2]; exact List.mem_cons_self _ _)

theorem lsb_eq_of_has_iff {x k : Nat} (hk : k < 64) (h : ∀ s, has x s = true ↔ s = k) :
    lsb x = k ∧ popcount x = 1 := by
  have hb : bits x = [k] := by
    apply eq_singleton_of_nodup (bits_nodup x)
    intro s
    rw [mem_bits_iff, h]
    constructor
    · exact fun hs => hs.2
    · rintro rfl; exact ⟨hk, rfl⟩
  unfold lsb popcount
  rw [hb]
  exact ⟨rfl, rfl⟩

namespace Board

theorem not_attacked_of {b' : Board} {c : Color} {k' : Nat} (hk64 : k' < 64)
    (hk : ∀ x, (has (b'.colorBb c) x = true ∧ has b'.kings x = true) ↔ x = k')
    (hno : ∀ s p, has (b'.colorBb (oppColor c)) s = true → has (b'.pieceBb p) s = true →
      attacksFrom p (oppColor c) b'.occupancy s k' = false) :
    b'.isSquareAttacked (lsb (b'.colorBb c &&& b'.kings)) (oppColor c) = false := by
  have hl : lsb (b'.colorBb c &&& b'.kings) = k' := by
    refine (lsb_eq_of_has_iff hk64 ?_).1
    intro s
    rw [has_and, Bool.and_eq_true]
    exact hk s
  rw [hl]
  by_contra h
  simp only [Bool.not_eq_false] at h
  obtain ⟨s, p, h1, h2, h3⟩ := (isSquareAttacked_iff _ _ _).mp h
  rw [hno s p h1 h2] at h3
  exact Bool.noConfusion h3

/-- The bitboards after `makeMove`, for a move that is neither castling nor en passant. -/
theorem makeMove_normal (Z : Zobrist) {b : Board} (hv : b.Valid) {m : Move}
    (hflag1 : m.flag ≠ Move.CASTLING_FLAG) (hflag2 : m.flag ≠ Move.EN_PASSANT_FLAG)
    (hP : m.pieceType ≠ .NONE)
    (hfrom : has b.us m.fromSq = true) (hpiece : has (b.pieceBb m.pieceType) m.fromSq = true)
    (hto : has b.us m.toSq = false) :
    (∀ x, has ((b.makeMove Z m).colorBb b.mColorToMove) x
        = (decide (x = m.toSq) || (has b.us x && !decide (x = m.fromSq))))
    ∧ (∀ x, has ((b.makeMove Z m).colorBb (oppColor b.mColorToMove)) x
        = (has b.them x && !decide (x = m.toSq)))
    ∧ (∀ R x, has ((b.makeMove Z m).pieceBb R) x
        = if x = m.toSq then
            decide (R = if m.promotion ≠ .NONE then m.promotion else m.pieceType)
          else if x = m.fromSq then false else has (b.pieceBb R) x)
    ∧ (∀ x, has (b.makeMove Z m).occupancy x
        = (decide (x = m.toSq) || (has b.occupancy x && !decide (x = m.fromSq)))) := by
  have h := movePieces_normal Z (valid_pushed (b.mZobristHashes ++ [b.mZobristHash]) hv)
    hflag1 hflag2 hP hfrom hpiece hto
  have h1 : ∀ x, has ((b.makeMove Z m).colorBb b.mColorToMove) x
        = (decide (x = m.toSq) || (has b.us x && !decide (x = m.fromSq))) := by
    intro x
    rw [colorBb_makeMove]
    exact h.1 x
  have h2 : ∀ x, has ((b.makeMove Z m).colorBb (oppColor b.mColorToMove)) x
        = (has b.them x && !decide (x = m.toSq)) := by
    intro x
    rw [colorBb_makeMove]
    exact h.2.1 x
  refine ⟨h1, h2, ?_, ?_⟩
  · intro R x
    rw [pieceBb_makeMove]
    exact h.2.2.1 R x
  · intro x
    rw [has_occupancy _ b.mColorToMove, h1, h2, has_occupancy b b.mColorToMove]
    have hd := hv.color_disjoint hfrom
    by_cases e1 : x = m.toSq
    · simp [e1]
    · by_cases e2 : x = m.fromSq
      · rw [e2] at e1 ⊢
        have hd' : has b.them m.fromSq = false := hd
        simp [e1, hd']
      · simp [e1, e2, us, them]

/-- A move of a piece other than the king, neither castling nor en passant, that goes where
the checkers allow and respects the pins leaves the king of the mover unattacked. -/
theorem sound_of_safe (Z : Zobrist) {b : Board} (hv : b.Valid) {m : Move}
    (hflag1 : m.flag ≠ Move.CASTLING_FLAG) (hflag2 : m.flag ≠ Move.EN_PASSANT_FLAG)
    (hP : m.pieceType ≠ .NONE) (hK : m.pieceType ≠ .KING) (hpromo : m.promotion ≠ .KING)
    (hfrom : has b.us m.fromSq = true) (hpiece : has (b.pieceBb m.pieceType) m.fromSq = true)
    (hto : has b.us m.toSq = false)
    (hle : popcount b.checkers ≤ 1) (hmov : has b.movable m.toSq = true)
    (hpin : ∀ σ s, b.PinnedBy σ m.fromSq s → m.toSq = s ∨ isBetween b.kingSquare m.toSq s = true) :
    (b.makeMove Z m).isSquareAttacked
      (lsb ((b.makeMove Z m).colorBb b.mColorToMove &&& (b.makeMove Z m).kings))
      (oppColor b.mColorToMove) = false := by
  obtain ⟨h1, h2, h3, h4⟩ := makeMove_normal Z hv hflag1 hflag2 hP hfrom hpiece hto
  obtain ⟨hk64, hkspec⟩ := hv.kingSquare_spec
  have hkf : b.kingSquare ≠ m.fromSq := by
    intro e
    have := ((hkspec b.kingSquare).mpr rfl).2
    rw [e] at this
    exact hK (hv.piece_unique hpiece (q := .KING) this)
  have hkt : b.kingSquare ≠ m.toSq := by
    intro e
    have := ((hkspec b.kingSquare).mpr rfl).1
    rw [e, hto] at this
    exact Bool.noConfusion this
  have hQ : (if m.promotion ≠ PieceType.NONE then m.promotion else m.pieceType) ≠ .KING := by
    split
    · exact hpromo
    · exact hK
  refine not_attacked_of hk64 ?_ ?_
  · intro x
    rw [h1, show (b.makeMove Z m).kings = (b.makeMove Z m).pieceBb .KING from rfl, h3]
    by_cases e1 : x = m.toSq
    · rw [e1]
      have : ¬ m.toSq = b.kingSquare := fun e => hkt e.symm
      have hQ' := Ne.symm hQ
      simp only [if_true, decide_True, Bool.true_or, true_and, decide_eq_true_eq]
      exact ⟨fun h => absurd h hQ', fun h => absurd h this⟩
    · by_cases e2 : x = m.fromSq
      · rw [e2] at e1 ⊢
        have : ¬ m.fromSq = b.kingSquare := fun e => hkf e.symm
        simp [e1, this]
      · simp only [e1, e2, decide_False, Bool.false_or, Bool.not_false, Bool.and_true, if_false]
        exact hkspec x
  · intro s p hs hp
    rw [h2, Bool.and_eq_true] at hs
    have hst : s ≠ m.toSq := by simpa using hs.2
    have hsf : s ≠ m.fromSq := by
      intro e
      have := hv.color_disjoint hfrom
      rw [← e] at this
      have h' : has b.them s = true := hs.1
      rw [them] at h'
      rw [h'] at this
      exact Bool.noConfusion this
    rw [h3, if_neg hst, if_neg hsf] at hp
    exact safe_after_move hv hfrom h4 hle hmov hpin hst hs.1 hp

end Board

namespace Board

/-- A piece that is not pinned has no pin to respect. -/
theorem hpin_of_not_pinned {b : Board} (hv : b.Valid) {f t : Nat}
    (h1 : has b.pinned.1 f = false) (h2 : has b.pinned.2 f = false) :
    ∀ σ s, b.PinnedBy σ f s → t = s ∨ isBetween b.kingSquare t s = true := by
  intro σ s hp
  exfalso
  cases σ
  · rw [(has_pinned_snd hv f).mpr ⟨s, hp⟩] at h2
    exact Bool.noConfusion h2
  · rw [(has_pinned_fst hv f).mpr ⟨s, hp⟩] at h1
    exact Bool.noConfusion h1

/-- A pinned piece that slides along the line through the king and itself stays between the
king and the pinner, or captures the pinner. -/
theorem hpin_of_line {b : Board} (hv : b.Valid) {f t : Nat} (hto : has b.us t = false)
    (hreach : ∀ u, u < 64 → isBetween f u t = true → has b.occupancy u = false)
    (hline : ∀ σ, has (if σ = true then b.pinned.1 else b.pinned.2) f = true →
      has (LINE_THROUGH b.kingSquare f) t = true) :
    ∀ σ s, b.PinnedBy σ f s → t = s ∨ isBetween b.kingSquare t s = true := by
  intro σ s hp
  have hpinned : has (if σ = true then b.pinned.1 else b.pinned.2) f = true := by
    cases σ
    · exact (has_pinned_snd hv f).mpr ⟨s, hp⟩
    · exact (has_pinned_fst hv f).mpr ⟨s, hp⟩
  have hl := (has_LINE_THROUGH.mp (hline σ hpinned)).2.2.2
  obtain ⟨_, hthem, _, _, hsb⟩ := hp
  obtain ⟨hk64, hkspec⟩ := hv.kingSquare_spec
  have hkus : has b.us b.kingSquare = true := ((hkspec _).mpr rfl).1
  have hs64 : s < 64 := hv.color_lt hthem
  rcases pin_slide hsb (b.has_us_occupancy hkus) (b.has_them_occupancy hthem) hk64 hs64 hl hreach
    with h | h | h
  · rw [h, hkus] at hto
    exact Bool.noConfusion hto
  · exact Or.inl h
  · exact Or.inr h

theorem of_has_not64 {x s : Nat} (h : has (not64 x) s = true) : has x s = false := by
  rw [NewCentury.has_not64] at h
  simp only [Bool.and_eq_true, Bool.not_eq_true', decide_eq_true_eq] at h
  exact h.2

end Board

theorem no_between_adjacent {f t : Nat} (h1 : t % 8 ≤ f % 8 + 1) (h2 : f % 8 ≤ t % 8 + 1)
    (h3 : t / 8 ≤ f / 8 + 1) (h4 : f / 8 ≤ t / 8 + 1) (u : Nat) : isBetween f u t = false := by
  by_contra h
  simp only [Bool.not_eq_false] at h
  rcases isBetween_iff.mp h with ⟨_, _, h | h⟩ | ⟨_, _, h | h⟩ | ⟨_, _, h | h⟩ | ⟨_, _, h | h⟩ <;>
    omega

namespace Move

theorem flag_piece {m : Move} {F : Nat} (h : m.flag = F) (h1 : 1 ≤ F) (h6 : F ≤ 6) :
    m.pieceType = PieceType.ofIndex (F - 1) ∧ m.promotion = .NONE
      ∧ m.flag ≠ CASTLING_FLAG ∧ m.flag ≠ EN_PASSANT_FLAG := by
  unfold pieceType promotion
  rw [h]
  simp only [NULL_FLAG, KING_FLAG, CASTLING_FLAG, EN_PASSANT_FLAG, KNIGHT_PROMOTION_FLAG,
    BISHOP_PROMOTION_FLAG, ROOK_PROMOTION_FLAG, QUEEN_PROMOTION_FLAG]
  refine ⟨?_, ?_, by omega, by omega⟩
  · rw [if_neg (by omega), if_pos h6]
  · rw [if_neg (by omega), if_neg (by omega), if_neg (by omega), if_neg (by omega)]

theorem flag_pawn {m : Move} (h : m.flag = PAWN_FLAG ∨ m.flag = PAWN_TWO_UP_FLAG
      ∨ m.flag = QUEEN_PROMOTION_FLAG ∨ m.flag = ROOK_PROMOTION_FLAG
      ∨ m.flag = BISHOP_PROMOTION_FLAG ∨ m.flag = KNIGHT_PROMOTION_FLAG) :
    m.pieceType = .PAWN ∧ m.promotion ≠ .KING
      ∧ m.flag ≠ CASTLING_FLAG ∧ m.flag ≠ EN_PASSANT_FLAG := by
  unfold pieceType promotion
  rcases h with h | h | h | h | h | h <;> rw [h] <;> decide

end Move

namespace Board

/-- A move of a piece other than the king, neither castling nor en passant, that goes where the
checkers allow over empty squares and, when the piece is pinned, along the line through the
king, leaves the king of the mover unattacked. -/
theorem sound_of_line (Z : Zobrist) {b : Board} (hv : b.Valid) {m : Move}
    (hflag1 : m.flag ≠ Move.CASTLING_FLAG) (hflag2 : m.flag ≠ Move.EN_PASSANT_FLAG)
    (hP : m.pieceType ≠ .NONE) (hK : m.pieceType ≠ .KING) (hpromo : m.promotion ≠ .KING)
    (hfrom : has b.us m.fromSq = true) (hpiece : has (b.pieceBb m.pieceType) m.fromSq = true)
    (hto : has b.us m.toSq = false)
    (hle : popcount b.checkers ≤ 1) (hmov : has b.movable m.toSq = true)
    (hreach : ∀ u, u < 64 → isBetween m.fromSq u m.toSq = true → has b.occupancy u = false)
    (hline : ∀ σ, has (if σ = true then b.pinned.1 else b.pinned.2) m.fromSq = true →
      has (LINE_THROUGH b.kingSquare m.fromSq) m.toSq = true) :
    (b.makeMove Z m).isSquareAttacked
      (lsb ((b.makeMove Z m).colorBb b.mColorToMove &&& (b.makeMove Z m).kings))
      (oppColor b.mColorToMove) = false :=
  sound_of_safe Z hv hflag1 hflag2 hP hK hpromo hfrom hpiece hto hle hmov
    (hpin_of_line hv hto hreach hline)

theorem sound_knight (Z : Zobrist) {b : Board} (hv : b.Valid) (hle : popcount b.checkers ≤ 1)
    {m : Move} (hm : m ∈ b.allKnightMoves) :
    (b.makeMove Z m).isSquareAttacked
      (lsb ((b.makeMove Z m).colorBb b.mColorToMove &&& (b.makeMove Z m).kings))
      (oppColor b.mColorToMove) = false := by
  obtain ⟨sq, hsq, hm⟩ := List.mem_flatMap.mp hm
  obtain ⟨_, hsq⟩ := mem_bits_iff.mp hsq
  simp only [has_and, Bool.and_eq_true] at hsq
  obtain ⟨⟨⟨hus, hkn⟩, hpd⟩, hpn⟩ := hsq
  obtain ⟨hf, hflag, _, _, hto, hmov⟩ := mem_knightMoves.mp hm
  obtain ⟨hpt, hpr, hc, he⟩ := Move.flag_piece hflag (by decide) (by decide)
  have hpt' : m.pieceType = .KNIGHT := hpt
  rw [← hf] at hus hkn hpd hpn
  refine sound_of_safe Z hv hc he ?_ ?_ ?_ hus ?_ hto hle hmov
    (hpin_of_not_pinned hv (of_has_not64 hpn) (of_has_not64 hpd))
  · rw [hpt']; decide
  · rw [hpt']; decide
  · rw [hpr]; decide
  · rw [hpt']; exact hkn

theorem sound_bishop (Z : Zobrist) {b : Board} (hv : b.Valid) (hle : popcount b.checkers ≤ 1)
    {m : Move} (hm : m ∈ b.allBishopMoves) :
    (b.makeMove Z m).isSquareAttacked
      (lsb ((b.makeMove Z m).colorBb b.mColorToMove &&& (b.makeMove Z m).kings))
      (oppColor b.mColorToMove) = false := by
  obtain ⟨sq, hsq, hm⟩ := List.mem_flatMap.mp hm
  obtain ⟨_, hsq⟩ := mem_bits_iff.mp hsq
  simp only [has_and, Bool.and_eq_true] at hsq
  obtain ⟨⟨hus, hkn⟩, hpn⟩ := hsq
  obtain ⟨hf, hflag, _, hatt, hto, hmov, hline⟩ := mem_bishopMoves.mp hm
  obtain ⟨hpt, hpr, hc, he⟩ := Move.flag_piece hflag (by decide) (by decide)
  have hpt' : m.pieceType = .BISHOP := hpt
  rw [← hf] at hus hkn hpn hatt hline
  refine sound_of_line Z hv hc he ?_ ?_ ?_ hus ?_ hto hle hmov
    (has_bishopAttacks_line.mp hatt).2.2.2.2 ?_
  · rw [hpt']; decide
  · rw [hpt']; decide
  · rw [hpr]; decide
  · rw [hpt']; exact hkn
  · intro σ hσ
    cases σ
    · exact hline hσ
    · have hσ' : has b.pinned.1 m.fromSq = true := hσ
      rw [of_has_not64 hpn] at hσ'
      exact Bool.noConfusion hσ'

theorem sound_rook (Z : Zobrist) {b : Board} (hv : b.Valid) (hle : popcount b.checkers ≤ 1)
    {m : Move} (hm : m ∈ b.allRookMoves) :
    (b.makeMove Z m).isSquareAttacked
      (lsb ((b.makeMove Z m).colorBb b.mColorToMove &&& (b.makeMove Z m).kings))
      (oppColor b.mColorToMove) = false := by
  obtain ⟨sq, hsq, hm⟩ := List.mem_flatMap.mp hm
  obtain ⟨_, hsq⟩ := mem_bits_iff.mp hsq
  simp only [has_and, Bool.and_eq_true] at hsq
  obtain ⟨⟨hus, hkn⟩, hpd⟩ := hsq
  obtain ⟨hf, hflag, _, hatt, hto, hmov, hline⟩ := mem_rookMoves.mp hm
  obtain ⟨hpt, hpr, hc, he⟩ := Move.flag_piece hflag (by decide) (by decide)
  have hpt' : m.pieceType = .ROOK := hpt
  rw [← hf] at hus hkn hpd hatt hline
  refine sound_of_line Z hv hc he ?_ ?_ ?_ hus ?_ hto hle hmov
    (has_rookAttacks_line.mp hatt).2.2.2.2 ?_
  · rw [hpt']; decide
  · rw [hpt']; decide
  · rw [hpr]; decide
  · rw [hpt']; exact hkn
  · intro σ hσ
    cases σ
    · have hσ' : has b.pinned.2 m.fromSq = true := hσ
      rw [of_has_not64 hpd] at hσ'
      exact Bool.noConfusion hσ'
    · exact hline hσ

theorem sound_queen (Z : Zobrist) {b : Board} (hv : b.Valid) (hle : popcount b.checkers ≤ 1)
    {m : Move} (hm : m ∈ b.allQueenMoves) :
    (b.makeMove Z m).isSquareAttacked
      (lsb ((b.makeMove Z m).colorBb b.mColorToMove &&& (b.makeMove Z m).kings))
      (oppColor b.mColorToMove) = false := by
  obtain ⟨sq, hsq, hm⟩ := List.mem_flatMap.mp hm
  obtain ⟨_, hsq⟩ := mem_bits_iff.mp hsq
  simp only [has_and, Bool.and_eq_true] at hsq
  obtain ⟨hus, hkn⟩ := hsq
  obtain ⟨hf, hflag, _, hatt, hto, hmov, hline⟩ := mem_queenMoves.mp hm
  obtain ⟨hpt, hpr, hc, he⟩ := Move.flag_piece hflag (by decide) (by decide)
  have hpt' : m.pieceType = .QUEEN := hpt
  rw [← hf] at hus hkn hatt hline
  have hreach : ∀ u, u < 64 → isBetween m.fromSq u m.toSq = true → has b.occupancy u = false := by
    rcases has_queenAttacks.mp hatt with h | h
    · exact (has_bishopAttacks_line.mp h).2.2.2.2
    · exact (has_rookAttacks_line.mp h).2.2.2.2
  refine sound_of_line Z hv hc he ?_ ?_ ?_ hus ?_ hto hle hmov hreach ?_
  · rw [hpt']; decide
  · rw [hpt']; decide
  · rw [hpr]; decide
  · rw [hpt']; exact hkn
  · intro σ hσ
    apply hline
    rw [has_or]
    cases σ
    · have hσ' : has b.pinned.2 m.fromSq = true := hσ
      rw [hσ']; rfl
    · have hσ' : has b.pinned.1 m.fromSq = true := hσ
      rw [hσ']; simp

end Board

theorem has_shl1 (x s : Nat) :
    has ((x <<< 1) % 2 ^ 64) s = (decide (s < 64) && decide (1 ≤ s) && has x (s - 1)) := by
  unfold has
  rw [Nat.testBit_mod_two_pow, Nat.testBit_shiftLeft]
  by_cases h : s < 64 <;> by_cases h1 : 1 ≤ s <;> simp [h, h1]

namespace Board

theorem pinnedHorizontally_of_rank {k pn f : Nat} (hk : k < 64) (hf : f < 64) (hne : f ≠ k)
    (hr : f / 8 = k / 8) (hpn : has pn f = true) : pinnedHorizontally k pn f = true := by
  unfold pinnedHorizontally
  rw [decide_eq_true_eq]
  refine ⟨Nat.pos_of_ne_zero (bit_and_ne_zero.mpr hpn), Nat.pos_of_ne_zero ?_⟩
  rw [and_ne_zero_iff]
  refine ⟨8 * (f / 8) + 1, ?_, ?_⟩
  · rw [has_LINE_THROUGH, isOnLine_iff]
    refine ⟨hf, hk, by omega, hne, Or.inl ⟨hr, by omega⟩⟩
  · rw [has_shl1]
    have h1 : has (LINE_THROUGH f k) (8 * (f / 8) + 1 - 1) = true := by
      rw [has_LINE_THROUGH, isOnLine_iff]
      refine ⟨hf, hk, by omega, hne, Or.inl ⟨hr, by omega⟩⟩
    rw [h1]
    have h2 : 8 * (f / 8) + 1 < 64 := by omega
    simp [h2]

theorem has_pawnCaptureTargets {b : Board} {k mv pn pd sq t : Nat} :
    has (pawnCaptureTargets b k mv pn pd sq) t = true ↔
      has (pawnAttacks sq b.mColorToMove) t = true ∧ has b.them t = true ∧ has mv t = true
      ∧ ((has pd sq = true ∨ has pn sq = true) → has (LINE_THROUGH k sq) t = true) := by
  unfold pawnCaptureTargets
  simp only []
  by_cases h : 1 <<< sq &&& (pd ||| pn) ≠ 0
  · rw [if_pos h]
    rw [bit_and_ne_zero, has_or, Bool.or_eq_true] at h
    simp only [has_and, Bool.and_eq_true]
    constructor
    · rintro ⟨⟨⟨h1, h2⟩, h3⟩, h4⟩
      exact ⟨h1, h2, h3, fun _ => h4⟩
    · rintro ⟨h1, h2, h3, h4⟩
      exact ⟨⟨⟨h1, h2⟩, h3⟩, h4 h⟩
  · rw [if_neg h]
    rw [bit_and_ne_zero, has_or, Bool.or_eq_true] at h
    simp only [has_and, Bool.and_eq_true]
    constructor
    · rintro ⟨⟨h1, h2⟩, h3⟩
      exact ⟨h1, h2, h3, fun h' => absurd h' h⟩
    · rintro ⟨h1, h2, h3, _⟩
      exact ⟨⟨h1, h2⟩, h3⟩

theorem pawnFlagOK_cases {w u : Bool} {F : Nat} (h : pawnFlagOK w u F) :
    F = Move.PAWN_FLAG ∨ F = Move.PAWN_TWO_UP_FLAG
      ∨ F = Move.QUEEN_PROMOTION_FLAG ∨ F = Move.ROOK_PROMOTION_FLAG
      ∨ F = Move.BISHOP_PROMOTION_FLAG ∨ F = Move.KNIGHT_PROMOTION_FLAG := by
  unfold pawnFlagOK at h
  split at h
  · rcases h with h | ⟨_, h | h | h⟩ <;> rw [h] <;> decide
  · exact Or.inl h

/-- The squares a pawn attacks are next to it. -/
theorem pawnAttacks_adjacent {s t : Nat} {c : Color} (h : has (pawnAttacks s c) t = true) :
    s < 64 ∧ t < 64 ∧ t % 8 ≤ s % 8 + 1 ∧ s % 8 ≤ t % 8 + 1 ∧ t / 8 ≤ s / 8 + 1 ∧ s / 8 ≤ t / 8 + 1
      ∧ s ≠ t := by
  cases c
  · obtain ⟨h1, h2, h3, h4⟩ := has_pawnAttacks_white.mp h
    refine ⟨h1, h2, ?_, ?_, ?_, ?_, ?_⟩ <;> omega
  · obtain ⟨h1, h2, h3, h4⟩ := has_pawnAttacks_black.mp h
    refine ⟨h1, h2, ?_, ?_, ?_, ?_, ?_⟩ <;> omega

end Board

namespace Board

/-- A pawn pinned along a rank or file, but not along a rank, stays on the line through the
king when it is pushed. -/
theorem push_line {b : Board} (hv : b.Valid) {f t : Nat} (hf : f < 64) (ht : t < 64)
    (hfile : t % 8 = f % 8) (hpn : has b.pinned.1 f = true)
    (hph : pinnedHorizontally b.kingSquare b.pinned.1 f = false) :
    has (LINE_THROUGH b.kingSquare f) t = true := by
  obtain ⟨s, _, _, _, ⟨L, hσ, hL⟩, hsb⟩ := (has_pinned_fst hv f).mp hpn
  have hb := hsb.2.1
  obtain ⟨hkf, _⟩ := isBetween_pos hL hb
  obtain ⟨_, _, _, _, hne, _, _⟩ := isBetween_line hb
  have hk64 := hv.kingSquare_spec.1
  rw [has_LINE_THROUGH]
  refine ⟨hk64, hf, ht, ?_⟩
  cases L
  · rw [pinnedHorizontally_of_rank hk64 hf (Ne.symm hne) hkf.symm hpn] at hph
    exact Bool.noConfusion hph
  · exact isOnLine_iff_line.mpr ⟨hne, .file, hkf, Eq.trans hkf hfile.symm⟩
  · exact Bool.noConfusion hσ
  · exact Bool.noConfusion hσ

theorem squareOneUp_geo (b : Board) {f : Nat} (hf : f < 64) (ht : b.squareOneUp f < 64) :
    b.squareOneUp f % 8 = f % 8
      ∧ ((b.squareOneUp f / 8 = f / 8 + 1 ∧ b.squareOneUp f = f + 8)
        ∨ (b.squareOneUp f / 8 + 1 = f / 8 ∧ b.squareOneUp f + 8 = f)) := by
  unfold squareOneUp addSq subSq at ht ⊢
  by_cases hc : b.mColorToMove = .WHITE
  · rw [if_pos hc] at ht ⊢
    omega
  · rw [if_neg hc] at ht ⊢
    omega

theorem squareTwoUp_geo (b : Board) {f : Nat} (hf : f < 64) (ht : b.squareTwoUp f < 64) :
    b.squareTwoUp f % 8 = f % 8
      ∧ ((b.squareTwoUp f / 8 = f / 8 + 2 ∧ b.squareOneUp f = f + 8)
        ∨ (b.squareTwoUp f / 8 + 2 = f / 8 ∧ b.squareOneUp f + 8 = f)) := by
  unfold squareTwoUp addSq subSq at ht
  unfold squareTwoUp squareOneUp addSq subSq
  by_cases hc : b.mColorToMove = .WHITE
  · simp only [if_pos hc] at ht ⊢
    omega
  · simp only [if_neg hc] at ht ⊢
    omega

theorem not_us_of_empty (b : Board) {t : Nat} (h : has b.occupancy t = false) :
    has b.us t = false := by
  cases hu : has b.us t
  · rfl
  · rw [b.has_us_occupancy hu] at h
    exact Bool.noConfusion h

theorem sound_pawn (Z : Zobrist) {b : Board} (hv : b.Valid) (hle : popcount b.checkers ≤ 1)
    {u : Bool} {m : Move} (hm : m ∈ b.allPawnMoves u) :
    (b.makeMove Z m).isSquareAttacked
      (lsb ((b.makeMove Z m).colorBb b.mColorToMove &&& (b.makeMove Z m).kings))
      (oppColor b.mColorToMove) = false := by
  obtain ⟨sq, hsq, hm⟩ := List.mem_flatMap.mp hm
  obtain ⟨hsq64, hsq⟩ := mem_bits_iff.mp hsq
  simp only [has_and, Bool.and_eq_true] at hsq
  obtain ⟨hus, hpw⟩ := hsq
  obtain ⟨hf, hm⟩ := mem_pawnMoves.mp hm
  subst hf
  have key : ∀ (hflag : m.flag = Move.PAWN_FLAG ∨ m.flag = Move.PAWN_TWO_UP_FLAG
        ∨ m.flag = Move.QUEEN_PROMOTION_FLAG ∨ m.flag = Move.ROOK_PROMOTION_FLAG
        ∨ m.flag = Move.BISHOP_PROMOTION_FLAG ∨ m.flag = Move.KNIGHT_PROMOTION_FLAG)
      (hto : has b.us m.toSq = false) (hmov : has b.movable m.toSq = true)
      (hreach : ∀ u, u < 64 → isBetween m.fromSq u m.toSq = true → has b.occupancy u = false)
      (hline : ∀ σ, has (if σ = true then b.pinned.1 else b.pinned.2) m.fromSq = true →
        has (LINE_THROUGH b.kingSquare m.fromSq) m.toSq = true),
      (b.makeMove Z m).isSquareAttacked
        (lsb ((b.makeMove Z m).colorBb b.mColorToMove &&& (b.makeMove Z m).kings))
        (oppColor b.mColorToMove) = false := by
    intro hflag hto hmov hreach hline
    obtain ⟨hpt, hpr, hc, he⟩ := Move.flag_pawn hflag
    refine sound_of_line Z hv hc he ?_ ?_ hpr hus ?_ hto hle hmov hreach hline
    · rw [hpt]; decide
    · rw [hpt]; decide
    · rw [hpt]; exact hpw
  have hmov64 : ∀ t, has b.movable t = true → t < 64 := fun t h => ((has_movable hv hle t).mp h).1
  rcases hm with ⟨_, hcap, hflag⟩ | ⟨hpd, hph, hocc1, hpush⟩
  · obtain ⟨hatt, hthem, hmov, hline⟩ := has_pawnCaptureTargets.mp hcap
    obtain ⟨_, _, a1, a2, a3, a4, _⟩ := pawnAttacks_adjacent hatt
    refine key (pawnFlagOK_cases hflag) ?_ hmov ?_ ?_
    · have := hv.color_disjoint hthem
      rw [oppColor_oppColor] at this
      exact this
    · intro x _ hx
      rw [no_between_adjacent a1 a2 a3 a4 x] at hx
      exact Bool.noConfusion hx
    · intro σ hσ
      apply hline
      cases σ
      · exact Or.inl hσ
      · exact Or.inr hσ
  · have hline : ∀ t, t < 64 → t % 8 = m.fromSq % 8 →
        ∀ σ, has (if σ = true then b.pinned.1 else b.pinned.2) m.fromSq = true →
        has (LINE_THROUGH b.kingSquare m.fromSq) t = true := by
      intro t ht hfile σ hσ
      cases σ
      · have hσ' : has b.pinned.2 m.fromSq = true := hσ
        rw [hpd] at hσ'
        exact Bool.noConfusion hσ'
      · exact push_line hv hsq64 ht hfile hσ hph
    have hocc1' : has b.occupancy (b.squareOneUp m.fromSq) = false := hocc1
    rcases hpush with ⟨hmov, ht, hflag⟩ | ⟨_, hmov, hocc2, ht, hflag⟩
    · rw [← ht] at hmov hocc1'
      have ht64 := hmov64 _ hmov
      have hgeo : m.toSq % 8 = m.fromSq % 8
          ∧ ((m.toSq / 8 = m.fromSq / 8 + 1 ∧ m.toSq = m.fromSq + 8)
            ∨ (m.toSq / 8 + 1 = m.fromSq / 8 ∧ m.toSq + 8 = m.fromSq)) := by
        rw [ht] at ht64 ⊢
        exact b.squareOneUp_geo hsq64 ht64
      refine key (pawnFlagOK_cases hflag) (b.not_us_of_empty hocc1') hmov ?_
        (hline _ ht64 hgeo.1)
      intro x _ hx
      rw [no_between_adjacent (by omega) (by omega) (by omega) (by omega) x] at hx
      exact Bool.noConfusion hx
    · have hocc2' : has b.occupancy (b.squareTwoUp m.fromSq) = false := hocc2
      rw [← ht] at hmov hocc2'
      have ht64 := hmov64 _ hmov
      have hgeo : m.toSq % 8 = m.fromSq % 8
          ∧ ((m.toSq / 8 = m.fromSq / 8 + 2 ∧ b.squareOneUp m.fromSq = m.fromSq + 8)
            ∨ (m.toSq / 8 + 2 = m.fromSq / 8 ∧ b.squareOneUp m.fromSq + 8 = m.fromSq)) := by
        rw [ht] at ht64 ⊢
        exact b.squareTwoUp_geo hsq64 ht64
      refine key (Or.inr (Or.inl hflag)) (b.not_us_of_empty hocc2') hmov ?_
        (hline _ ht64 hgeo.1)
      intro x _ hx
      have hx1 : x = b.squareOneUp m.fromSq := by
        obtain ⟨g1, g2⟩ := hgeo
        rcases isBetween_iff.mp hx with ⟨_, _, h | h⟩ | ⟨_, _, h | h⟩ | ⟨_, _, h | h⟩
          | ⟨_, _, h | h⟩ <;> omega
      rw [hx1]
      exact hocc1'

end Board

/-- Emptying squares between a piece and its target keeps the attack. -/
theorem attacksFrom_mono {p : PieceType} {c : Color} {occ occ' s t : Nat}
    (h : ∀ u, u < 64 → isBetween s u t = true → has occ u = false → has occ' u = false)
    (ha : attacksFrom p c occ s t = true) : attacksFrom p c occ' s t = true := by
  rcases pieceType_cases p with hp | hp | hp
  · rw [← attacksFrom_leaper occ occ' hp]
    exact ha
  · obtain ⟨hs, ht, hst, ⟨L, hL, hk⟩, hr⟩ := slider_reach hp ha
    exact attacksFrom_of_reach hs ht hst hL hk (fun u hu hb => h u hu hb (hr u hu hb))
  · rw [hp] at ha
    exact Bool.noConfusion ha

namespace Board

theorem sound_king (Z : Zobrist) {b : Board} (hv : b.Valid) {m : Move}
    (hm : m ∈ kingMoves b b.kingSquare b.theirAttacks) :
    (b.makeMove Z m).isSquareAttacked
      (lsb ((b.makeMove Z m).colorBb b.mColorToMove &&& (b.makeMove Z m).kings))
      (oppColor b.mColorToMove) = false := by
  obtain ⟨hf, hflag, ht64, hatt, hto, hta⟩ := mem_kingMoves.mp hm
  obtain ⟨hpt, hpr, hc, he⟩ := Move.flag_piece hflag (by decide) (by decide)
  have hpt' : m.pieceType = .KING := hpt
  obtain ⟨hk64, hkspec⟩ := hv.kingSquare_spec
  have hkus : has b.us m.fromSq = true := by rw [hf]; exact ((hkspec _).mpr rfl).1
  have hkk : has (b.pieceBb m.pieceType) m.fromSq = true := by
    rw [hf, hpt']; exact ((hkspec _).mpr rfl).2
  obtain ⟨h1, h2, h3, h4⟩ := makeMove_normal Z hv hc he (by rw [hpt']; decide) hkus hkk hto
  have hft : m.fromSq ≠ m.toSq := by
    intro e
    rw [← e, hkus] at hto
    exact Bool.noConfusion hto
  refine not_attacked_of ht64 ?_ ?_
  · intro x
    rw [h1, show (b.makeMove Z m).kings = (b.makeMove Z m).pieceBb .KING from rfl, h3]
    by_cases e1 : x = m.toSq
    · rw [e1]
      simp [hpr, hpt']
    · by_cases e2 : x = m.fromSq
      · rw [e2] at e1 ⊢
        simp [e1]
      · simp only [e1, e2, decide_False, Bool.false_or, Bool.not_false, Bool.and_true, if_false,
          iff_false, not_and]
        intro hu hk
        exact e2 (((hkspec x).mp ⟨hu, hk⟩).trans hf.symm)
  · intro s p hs hp
    rw [h2, Bool.and_eq_true] at hs
    have hst : s ≠ m.toSq := by simpa using hs.2
    have hsf : s ≠ m.fromSq := by
      intro e
      have := hv.color_disjoint hkus
      rw [← e] at this
      have h' : has b.them s = true := hs.1
      rw [them] at h'
      rw [h'] at this
      exact Bool.noConfusion this
    rw [h3, if_neg hst, if_neg hsf] at hp
    by_contra hcon
    simp only [Bool.not_eq_false] at hcon
    have hatk : attacksFrom p (oppColor b.mColorToMove) (b.occupancy ^^^ 1 <<< b.kingSquare) s
        m.toSq = true := by
      refine attacksFrom_mono ?_ hcon
      intro u _ hb hu
      rw [h4] at hu
      rw [hv.occ_without_king, ← hf]
      by_cases e1 : u = m.toSq
      · simp [e1] at hu
      · simpa [e1] using hu
    have : has b.theirAttacks m.toSq = true :=
      (has_theirAttacks hv m.toSq).mpr ⟨s, p, hs.1, hp, hatk⟩
    rw [this] at hta
    exact Bool.noConfusion hta

end Board

theorem corner_not_between {s r t : Nat} (hr : r = 0 ∨ r = 7 ∨ r = 56 ∨ r = 63) (hs : s < 64)
    (ht : t < 64) : isBetween s r t = false := by
  by_contra h
  simp only [Bool.not_eq_false] at h
  have h' := isBetween_iff.mp h
  rcases hr with rfl | rfl | rfl | rfl <;>
    rcases h' with ⟨_, _, h | h⟩ | ⟨_, _, h | h⟩ | ⟨_, _, h | h⟩ | ⟨_, _, h | h⟩ <;> omega

theorem not_has_of_and_zero {x y s : Nat} (h : x &&& y = 0) (hy : has y s = true) :
    has x s = false := by
  cases hx : has x s
  · rfl
  · rw [and_eq_zero_iff.mp h s hx] at hy
    exact Bool.noConfusion hy

namespace Board

/-- The bitboards after `makeMove`, for a castling move with king and rook in place. -/
theorem makeMove_castling (Z : Zobrist) {b : Board} (hv : b.Valid) {m : Move}
    (hflag : m.flag = Move.CASTLING_FLAG) {rf rt : Nat}
    (hrf : rf = (CASTLING_ROOK_FROM_TO m.toSq).1) (hrt : rt = (CASTLING_ROOK_FROM_TO m.toSq).2)
    (hfrom : has b.us m.fromSq = true) (hpiece : has b.kings m.fromSq = true)
    (hrook : has b.us rf = true) (hrookP : has b.rooks rf = true)
    (hto : has b.occupancy m.toSq = false) (hrto : has b.occupancy rt = false)
    (htr : m.toSq ≠ rt) :
    (∀ x, has ((b.makeMove Z m).colorBb b.mColorToMove) x
        = (decide (x = m.toSq) || decide (x = rt)
            || (has b.us x && !decide (x = m.fromSq) && !decide (x = rf))))
    ∧ (∀ x, has ((b.makeMove Z m).colorBb (oppColor b.mColorToMove)) x = has b.them x)
    ∧ (∀ R x, has ((b.makeMove Z m).pieceBb R) x
        = if x = m.toSq then decide (R = .KING)
          else if x = rt then decide (R = .ROOK)
          else if x = m.fromSq ∨ x = rf then false else has (b.pieceBb R) x)
    ∧ (∀ x, has (b.makeMove Z m).occupancy x
        = (decide (x = m.toSq) || decide (x = rt)
            || (has b.occupancy x && !decide (x = m.fromSq) && !decide (x = rf)))) := by
  have h := movePieces_castling Z (valid_pushed (b.mZobristHashes ++ [b.mZobristHash]) hv)
    hflag hrf hrt hfrom hpiece hrook hrookP hto hrto htr
  have h1 : ∀ x, has ((b.makeMove Z m).colorBb b.mColorToMove) x
        = (decide (x = m.toSq) || decide (x = rt)
            || (has b.us x && !decide (x = m.fromSq) && !decide (x = rf))) := by
    intro x
    rw [colorBb_makeMove]
    exact h.1 x
  have h2 : ∀ x, has ((b.makeMove Z m).colorBb (oppColor b.mColorToMove)) x = has b.them x := by
    intro x
    rw [colorBb_makeMove]
    exact h.2.1 x
  refine ⟨h1, h2, ?_, ?_⟩
  · intro R x
    rw [pieceBb_makeMove]
    exact h.2.2.1 R x
  · intro x
    rw [has_occupancy _ b.mColorToMove, h1, h2, has_occupancy b b.mColorToMove]
    have hd1 : has b.them m.fromSq = false := hv.color_disjoint hfrom
    have hd2 : has b.them rf = false := hv.color_disjoint hrook
    by_cases e1 : x = m.toSq
    · simp [e1]
    · by_cases e2 : x = rt
      · simp [e2]
      · by_cases e3 : x = m.fromSq
        · rw [e3] at e1 e2 ⊢
          simp [e1, e2, hd1]
        · by_cases e4 : x = rf
          · rw [e4] at e1 e2 e3 ⊢
            simp [e1, e2, e3, hd2]
          · simp [e1, e2, e3, e4, us, them]

/-- Castling over squares that are empty and not attacked, with the rook in its corner, leaves
the king unattacked. -/
theorem sound_castle_of (Z : Zobrist) {b : Board} (hv : b.Valid) {m : Move}
    (hflag : m.flag = Move.CASTLING_FLAG) {rf rt : Nat}
    (hrf : rf = (CASTLING_ROOK_FROM_TO m.toSq).1) (hrt : rt = (CASTLING_ROOK_FROM_TO m.toSq).2)
    (hf : m.fromSq = b.kingSquare)
    (hrook : has b.us rf = true) (hrookP : has b.rooks rf = true)
    (hto : has b.occupancy m.toSq = false) (hrto : has b.occupancy rt = false)
    (htr : m.toSq ≠ rt) (ht64 : m.toSq < 64)
    (hcorner : rf = 0 ∨ rf = 7 ∨ rf = 56 ∨ rf = 63)
    (hta : has b.theirAttacks m.toSq = false) :
    (b.makeMove Z m).isSquareAttacked
      (lsb ((b.makeMove Z m).colorBb b.mColorToMove &&& (b.makeMove Z m).kings))
      (oppColor b.mColorToMove) = false := by
  obtain ⟨hk64, hkspec⟩ := hv.kingSquare_spec
  have hkus : has b.us m.fromSq = true := by rw [hf]; exact ((hkspec _).mpr rfl).1
  have hkk : has b.kings m.fromSq = true := by rw [hf]; exact ((hkspec _).mpr rfl).2
  obtain ⟨h1, h2, h3, h4⟩ :=
    makeMove_castling Z hv hflag hrf hrt hkus hkk hrook hrookP hto hrto htr
  refine not_attacked_of ht64 ?_ ?_
  · intro x
    rw [h1, show (b.makeMove Z m).kings = (b.makeMove Z m).pieceBb .KING from rfl, h3]
    by_cases e1 : x = m.toSq
    · rw [e1]
      simp
    · by_cases e2 : x = rt
      · rw [e2] at e1 ⊢
        simp [e1]
      · by_cases e3 : x = m.fromSq
        · rw [e3] at e1 e2 ⊢
          simp [e1, e2]
        · by_cases e4 : x = rf
          · rw [e4] at e1 e2 e3 ⊢
            simp [e1, e2, e3]
          · simp only [e1, e2, e3, e4, decide_False, Bool.false_or, Bool.not_false,
              Bool.and_true, if_false, iff_false, not_and, or_self]
            intro hu hk
            exact e3 (((hkspec x).mp ⟨hu, hk⟩).trans hf.symm)
  · intro s p hs hp
    rw [h2] at hs
    have hso := b.has_them_occupancy hs
    have hne : ∀ y, has b.occupancy y = false → s ≠ y := by
      intro y hy e
      rw [e, hy] at hso
      exact Bool.noConfusion hso
    have hne' : ∀ y, has b.us y = true → s ≠ y := by
      intro y hy e
      have := hv.color_disjoint hy
      rw [← e] at this
      have h' : has b.them s = true := hs
      rw [them] at h'
      rw [h'] at this
      exact Bool.noConfusion this
    rw [h3, if_neg (hne _ hto), if_neg (hne _ hrto),
      if_neg (not_or.mpr ⟨hne' _ hkus, hne' _ hrook⟩)] at hp
    by_contra hcon
    simp only [Bool.not_eq_false] at hcon
    obtain ⟨hs64, _⟩ := attacksFrom_lt hcon
    have hatk : attacksFrom p (oppColor b.mColorToMove) (b.occupancy ^^^ 1 <<< b.kingSquare) s
        m.toSq = true := by
      refine attacksFrom_mono ?_ hcon
      intro u _ hb hu
      rw [h4] at hu
      rw [hv.occ_without_king, ← hf]
      have hur : u ≠ rf := by
        intro e
        rw [e, corner_not_between hcorner hs64 ht64] at hb
        exact Bool.noConfusion hb
      by_cases e1 : u = m.toSq
      · simp [e1] at hu
      · by_cases e2 : u = rt
        · simp [e2] at hu
        · simpa [e1, e2, hur] using hu
    have : has b.theirAttacks m.toSq = true :=
      (has_theirAttacks hv m.toSq).mpr ⟨s, p, hs, hp, hatk⟩
    rw [this] at hta
    exact Bool.noConfusion hta

end Board

namespace Board

/-- A castling right that is held, in a position whose rights agree with the pieces, finds the
king on its home square and the rook in its corner. -/
theorem castling_held {b : Board} (hv : b.Valid) (hc : b.castlingConsistent = true) {side : Nat}
    (hs : side = CASTLE_SHORT ∨ side = CASTLE_LONG)
    (hr : b.mCastlingRights &&& CASTLING_MASKS b.mColorToMove side ≠ 0) :
    b.kingSquare = kingHome b.mColorToMove
      ∧ b.us &&& b.rooks &&& CASTLING_MASKS b.mColorToMove side ≠ 0 := by
  unfold castlingConsistent at hc
  simp only [Bool.and_eq_true, List.all_cons, List.all_nil, Bool.and_true, Bool.or_eq_true,
    decide_eq_true_eq] at hc
  obtain ⟨_, ⟨hws, hwl⟩, hbs, hbl⟩ := hc
  have key : ∀ c s', (b.mCastlingRights &&& CASTLING_MASKS c s' = 0
        ∨ has (b.colorBb c &&& b.kings) (kingHome c) = true
          ∧ b.colorBb c &&& b.rooks &&& CASTLING_MASKS c s' ≠ 0) →
      c = b.mColorToMove → s' = side →
      b.kingSquare = kingHome b.mColorToMove
        ∧ b.us &&& b.rooks &&& CASTLING_MASKS b.mColorToMove side ≠ 0 := by
    intro c s' h hc' hs'
    subst hc' hs'
    rcases h with h | ⟨h1, h2⟩
    · exact absurd h hr
    · refine ⟨?_, h2⟩
      rw [has_and, Bool.and_eq_true] at h1
      exact ((hv.kingSquare_spec.2 _).mp h1).symm
  have hcols : b.mColorToMove = .WHITE ∨ b.mColorToMove = .BLACK := by
    cases b.mColorToMove
    · exact Or.inl rfl
    · exact Or.inr rfl
  rcases hcols with hcol | hcol <;> rcases hs with rfl | rfl
  · exact key _ _ hws hcol.symm rfl
  · exact key _ _ hwl hcol.symm rfl
  · exact key _ _ hbs hcol.symm rfl
  · exact key _ _ hbl hcol.symm rfl

theorem sound_castling (Z : Zobrist) {b : Board} (hv : b.Valid)
    (hc : b.castlingConsistent = true) {m : Move}
    (hm : m ∈ castlingMoves b b.kingSquare b.occupancy b.theirAttacks (popcount b.checkers)) :
    (b.makeMove Z m).isSquareAttacked
      (lsb ((b.makeMove Z m).colorBb b.mColorToMove &&& (b.makeMove Z m).kings))
      (oppColor b.mColorToMove) = false := by
  obtain ⟨_, hf, hflag, hside⟩ := mem_castlingMoves.mp hm
  rcases hside with ⟨hr, hocc, hta, ht⟩ | ⟨hr, hocc, hta, ht⟩
  · obtain ⟨hk, hrook⟩ := castling_held hv hc (Or.inl rfl) hr
    obtain ⟨rf, h1, h2⟩ := and_ne_zero_iff.mp hrook
    rw [has_and, Bool.and_eq_true] at h1
    rw [hk] at hocc hta ht
    have hcols : b.mColorToMove = .WHITE ∨ b.mColorToMove = .BLACK := by
      cases b.mColorToMove
      · exact Or.inl rfl
      · exact Or.inr rfl
    rcases hcols with hcol | hcol <;> rw [hcol] at ht hocc hta h2
    · have hrf : rf = 7 := by
        have : has (1 <<< 7) rf = true := h2
        rw [has_bit] at this
        exact (of_decide_eq_true this).symm
      subst hrf
      have hocc' := fun s => not_has_of_and_zero (s := s) hocc
      have hta' := fun s => not_has_of_and_zero (s := s) hta
      have ht' : m.toSq = 6 := ht
      refine sound_castle_of Z hv hflag
        (show 7 = (CASTLING_ROOK_FROM_TO m.toSq).1 by rw [ht']; rfl)
        (show 5 = (CASTLING_ROOK_FROM_TO m.toSq).2 by rw [ht']; rfl)
        hf h1.1 h1.2 ?_ ?_ ?_ ?_ ?_ ?_
      · rw [ht']; exact hocc' 6 (by decide)
      · exact hocc' 5 (by decide)
      · rw [ht']; decide
      · rw [ht']; decide
      · exact Or.inr (Or.inl rfl)
      · rw [ht']; exact hta' 6 (by decide)
    · have hrf : rf = 63 := by
        have : has (1 <<< 63) rf = true := h2
        rw [has_bit] at this
        exact (of_decide_eq_true this).symm
      subst hrf
      have hocc' := fun s => not_has_of_and_zero (s := s) hocc
      have hta' := fun s => not_has_of_and_zero (s := s) hta
      have ht' : m.toSq = 62 := ht
      refine sound_castle_of Z hv hflag
        (show 63 = (CASTLING_ROOK_FROM_TO m.toSq).1 by rw [ht']; rfl)
        (show 61 = (CASTLING_ROOK_FROM_TO m.toSq).2 by rw [ht']; rfl) hf h1.1 h1.2 ?_ ?_ ?_ ?_ ?_ ?_
      · rw [ht']; exact hocc' 62 (by decide)
      · exact hocc' 61 (by decide)
      · rw [ht']; decide
      · rw [ht']; decide
      · exact Or.inr (Or.inr (Or.inr rfl))
      · rw [ht']; exact hta' 62 (by decide)
  · obtain ⟨hk, hrook⟩ := castling_held hv hc (Or.inr rfl) hr
    obtain ⟨rf, h1, h2⟩ := and_ne_zero_iff.mp hrook
    rw [has_and, Bool.and_eq_true] at h1
    rw [hk] at hocc hta ht
    have hcols : b.mColorToMove = .WHITE ∨ b.mColorToMove = .BLACK := by
      cases b.mColorToMove
      · exact Or.inl rfl
      · exact Or.inr rfl
    rcases hcols with hcol | hcol <;> rw [hcol] at ht hocc hta h2
    · have hrf : rf = 0 := by
        have : has (1 <<< 0) rf = true := h2
        rw [has_bit] at this
        exact (of_decide_eq_true this).symm
      subst hrf
      have hocc' := fun s => not_has_of_and_zero (s := s) hocc
      have hta' := fun s => not_has_of_and_zero (s := s) hta
      have ht' : m.toSq = 2 := ht
      refine sound_castle_of Z hv hflag
        (show 0 = (CASTLING_ROOK_FROM_TO m.toSq).1 by rw [ht']; rfl)
        (show 3 = (CASTLING_ROOK_FROM_TO m.toSq).2 by rw [ht']; rfl)
        hf h1.1 h1.2 ?_ ?_ ?_ ?_ ?_ ?_
      · rw [ht']; exact hocc' 2 (by decide)
      · exact hocc' 3 (by decide)
      · rw [ht']; decide
      · rw [ht']; decide
      · exact Or.inl rfl
      · rw [ht']; exact hta' 2 (by decide)
    · have hrf : rf = 56 := by
        have : has (1 <<< 56) rf = true := h2
        rw [has_bit] at this
        exact (of_decide_eq_true this).symm
      subst hrf
      have hocc' := fun s => not_has_of_and_zero (s := s) hocc
      have hta' := fun s => not_has_of_and_zero (s := s) hta
      have ht' : m.toSq = 58 := ht
      refine sound_castle_of Z hv hflag
        (show 56 = (CASTLING_ROOK_FROM_TO m.toSq).1 by rw [ht']; rfl)
        (show 59 = (CASTLING_ROOK_FROM_TO m.toSq).2 by rw [ht']; rfl) hf h1.1 h1.2 ?_ ?_ ?_ ?_ ?_ ?_
      · rw [ht']; exact hocc' 58 (by decide)
      · exact hocc' 59 (by decide)
      · rw [ht']; decide
      · rw [ht']; decide
      · exact Or.inr (Or.inr (Or.inl rfl))
      · rw [ht']; exact hta' 58 (by decide)

end Board

namespace Board

/-- The test `isSquareAttacked` looks at the bitboards only. -/
theorem isSquareAttacked_congr {b b' : Board} (hc : ∀ c, b.colorBb c = b'.colorBb c)
    (hp : ∀ p, b.pieceBb p = b'.pieceBb p) (sq : Nat) (c : Color) :
    b.isSquareAttacked sq c = b'.isSquareAttacked sq c := by
  have h1 : b.pawns = b'.pawns := hp .PAWN
  have h2 : b.knights = b'.knights := hp .KNIGHT
  have h3 : b.bishops = b'.bishops := hp .BISHOP
  have h4 : b.rooks = b'.rooks := hp .ROOK
  have h5 : b.queens = b'.queens := hp .QUEEN
  have h6 : b.kings = b'.kings := hp .KING
  have h7 : b.occupancy = b'.occupancy := by
    rw [occupancy_eq, occupancy_eq]
    have hw : b.white = b'.white := hc .WHITE
    have hb : b.black = b'.black := hc .BLACK
    rw [hw, hb]
  unfold isSquareAttacked
  rw [hc c, h1, h2, h3, h4, h5, h6, h7]

theorem mEnPassantSquare_placePiece (Z : Zobrist) (b : Board) (c : Color) (p : PieceType)
    (sq : Nat) : (b.placePiece Z c p sq).mEnPassantSquare = b.mEnPassantSquare := by
  cases c <;> cases p <;> rfl

theorem mEnPassantSquare_removePiece (Z : Zobrist) (b : Board) (c : Color) (p : PieceType)
    (sq : Nat) : (b.removePiece Z c p sq).mEnPassantSquare = b.mEnPassantSquare := by
  cases c <;> cases p <;> rfl

theorem colorBb_pushed (b : Board) (h : List Nat) (c : Color) :
    ({ b with mZobristHashes := h } : Board).colorBb c = b.colorBb c := by
  cases c <;> rfl

theorem pieceBb_pushed (b : Board) (h : List Nat) (p : PieceType) :
    ({ b with mZobristHashes := h } : Board).pieceBb p = b.pieceBb p := by
  cases p <;> rfl

theorem has_colorBb_enPassantMade (Z : Zobrist) (b : Board) (f : Nat) (c : Color) (x : Nat) :
    has ((b.enPassantMade Z f).colorBb c) x
      = (((has (b.colorBb c) x ^^ (decide (c = b.mColorToMove) && decide (f = x)))
          || (decide (c = b.mColorToMove) && decide (b.mEnPassantSquare = x)))
        ^^ (decide (c = oppColor b.mColorToMove)
          && decide ((if b.mColorToMove = .WHITE then subSq b.mEnPassantSquare 8
              else addSq b.mEnPassantSquare 8) = x))) := by
  unfold enPassantMade
  simp only [mColorToMove_removePiece, mColorToMove_placePiece, mEnPassantSquare_removePiece,
    mEnPassantSquare_placePiece]
  rw [has_colorBb_removePiece, has_colorBb_placePiece, has_colorBb_removePiece]

theorem has_pieceBb_enPassantMade (Z : Zobrist) (b : Board) (f : Nat) (p : PieceType) (x : Nat) :
    has ((b.enPassantMade Z f).pieceBb p) x
      = (((has (b.pieceBb p) x ^^ (decide (p = .PAWN) && decide (f = x)))
          || (decide (p = .PAWN) && decide (b.mEnPassantSquare = x)))
        ^^ (decide (p = .PAWN)
          && decide ((if b.mColorToMove = .WHITE then subSq b.mEnPassantSquare 8
              else addSq b.mEnPassantSquare 8) = x))) := by
  have hPn : PieceType.PAWN ≠ PieceType.NONE := by decide
  unfold enPassantMade
  simp only [mColorToMove_removePiece, mColorToMove_placePiece, mEnPassantSquare_removePiece,
    mEnPassantSquare_placePiece]
  rw [has_pieceBb_removePiece _ _ _ _ _ _ _ hPn, has_pieceBb_placePiece _ _ _ _ _ _ _ hPn,
    has_pieceBb_removePiece _ _ _ _ _ _ _ hPn]

theorem has_colorBb_movePieces_ep (Z : Zobrist) (b : Board) {m : Move}
    (hflag : m.flag = Move.EN_PASSANT_FLAG) (c : Color) (x : Nat) :
    has ((movePieces Z b m).colorBb c) x
      = (((has (b.colorBb c) x ^^ (decide (c = b.mColorToMove) && decide (m.fromSq = x)))
          ^^ (decide (c = oppColor b.mColorToMove)
            && decide ((if b.mColorToMove = .WHITE then subSq m.toSq 8
                else addSq m.toSq 8) = x)))
        || (decide (c = b.mColorToMove) && decide (m.toSq = x))) := by
  have hpt : m.pieceType = .PAWN := by
    unfold Move.pieceType
    rw [hflag]
    rfl
  have hflag1 : m.flag ≠ Move.CASTLING_FLAG := by rw [hflag]; decide
  unfold movePieces
  simp only [if_neg hflag1, if_pos hflag, hpt]
  rw [colorBb_withCaptured, has_colorBb_placePiece, has_colorBb_removePiece,
    has_colorBb_removePiece]

theorem has_pieceBb_movePieces_ep (Z : Zobrist) (b : Board) {m : Move}
    (hflag : m.flag = Move.EN_PASSANT_FLAG) (p : PieceType) (x : Nat) :
    has ((movePieces Z b m).pieceBb p) x
      = (((has (b.pieceBb p) x ^^ (decide (p = .PAWN) && decide (m.fromSq = x)))
          ^^ (decide (p = .PAWN)
            && decide ((if b.mColorToMove = .WHITE then subSq m.toSq 8
                else addSq m.toSq 8) = x)))
        || (decide (p = .PAWN) && decide (m.toSq = x))) := by
  have hpt : m.pieceType = .PAWN := by
    unfold Move.pieceType
    rw [hflag]
    rfl
  have hflag1 : m.flag ≠ Move.CASTLING_FLAG := by rw [hflag]; decide
  have hPn : PieceType.PAWN ≠ PieceType.NONE := by decide
  unfold movePieces
  simp only [if_neg hflag1, if_pos hflag, hpt]
  rw [pieceBb_withCaptured, has_pieceBb_placePiece _ _ _ _ _ _ _ hPn,
    has_pieceBb_removePiece _ _ _ _ _ _ _ hPn, has_pieceBb_removePiece _ _ _ _ _ _ _ hPn]

/-- The board on which `legalMoves` tries an en-passant capture has the bitboards that
`makeMove` leaves after that capture. -/
theorem makeMove_enPassantMade (Z : Zobrist) (b : Board) {m : Move}
    (hflag : m.flag = Move.EN_PASSANT_FLAG) (ht : m.toSq = b.mEnPassantSquare) :
    (∀ c, (b.makeMove Z m).colorBb c = (b.enPassantMade Z m.fromSq).colorBb c)
    ∧ (∀ p, (b.makeMove Z m).pieceBb p = (b.enPassantMade Z m.fromSq).pieceBb p) := by
  have hcs : ∀ x, ¬ ((if b.mColorToMove = Color.WHITE then subSq m.toSq 8 else addSq m.toSq 8) = x
      ∧ m.toSq = x) := by
    rintro x ⟨h1, h2⟩
    rw [← h2] at h1
    unfold subSq addSq at h1
    split at h1 <;> omega
  have hb0 : ({ b with mZobristHashes := b.mZobristHashes ++ [b.mZobristHash] } : Board).mColorToMove
      = b.mColorToMove := rfl
  constructor
  · intro c
    apply eq_of_has_eq
    intro x
    rw [colorBb_makeMove, has_colorBb_movePieces_ep Z _ hflag, has_colorBb_enPassantMade,
      colorBb_pushed, hb0, ← ht]
    have hne : ¬ b.mColorToMove = oppColor b.mColorToMove := ne_oppColor b.mColorToMove
    by_cases e1 : c = b.mColorToMove
    · rw [e1]
      simp [hne]
    · simp [e1]
  · intro p
    apply eq_of_has_eq
    intro x
    rw [pieceBb_makeMove, has_pieceBb_movePieces_ep Z _ hflag, has_pieceBb_enPassantMade,
      pieceBb_pushed, hb0, ← ht]
    have := hcs x
    generalize (if b.mColorToMove = Color.WHITE then subSq m.toSq 8 else addSq m.toSq 8) = cs
      at this ⊢
    by_cases e1 : p = .PAWN
    · rw [e1]
      by_cases e2 : m.toSq = x
      · have e3 : ¬ cs = x := fun e => this ⟨e, e2⟩
        simp [e2, e3]
      · simp [e2]
    · simp [e1]

theorem sound_enPassant (Z : Zobrist) {b : Board} {m : Move} (hm : m ∈ b.enPassantMoves Z) :
    (b.makeMove Z m).isSquareAttacked
      (lsb ((b.makeMove Z m).colorBb b.mColorToMove &&& (b.makeMove Z m).kings))
      (oppColor b.mColorToMove) = false := by
  obtain ⟨_, ht, hflag, _, _, _, _, hchk⟩ := mem_enPassantMoves.mp hm
  obtain ⟨hc, hp⟩ := makeMove_enPassantMade Z b hflag ht
  have hk : (b.makeMove Z m).kings = (b.enPassantMade Z m.fromSq).kings := hp .KING
  rw [isSquareAttacked_congr hc hp, hc, hk]
  have hcol : (b.enPassantMade Z m.fromSq).mColorToMove = b.mColorToMove :=
    (enPassantMade_fields Z b m.fromSq).1
  unfold inCheck us at hchk
  rw [hcol] at hchk
  exact hchk

end Board

namespace Board

/-- Every move of `legalMoves` leaves the king of the mover unattacked, in a valid position
whose castling rights agree with the pieces. -/
theorem sound_legalMoves (Z : Zobrist) {b : Board} (hv : b.Valid)
    (hc : b.castlingConsistent = true) {u : Bool} {m : Move} (hm : m ∈ b.legalMoves Z u) :
    (b.makeMove Z m).isSquareAttacked
      (lsb ((b.makeMove Z m).colorBb b.mColorToMove &&& (b.makeMove Z m).kings))
      (oppColor b.mColorToMove) = false := by
  rw [legalMoves_eq, List.mem_append] at hm
  rcases hm with hm | hm
  · exact sound_king Z hv hm
  · by_cases hle : popcount b.checkers > 1
    · rw [if_pos hle] at hm
      exact absurd hm (List.not_mem_nil _)
    · rw [if_neg hle] at hm
      have hle' : popcount b.checkers ≤ 1 := Nat.le_of_not_lt hle
      unfold nonKingMoves at hm
      simp only [List.mem_append] at hm
      rcases hm with (((((hm | hm) | hm) | hm) | hm) | hm) | hm
      · exact sound_castling Z hv hc hm
      · exact sound_enPassant Z hm
      · exact sound_pawn Z hv hle' hm
      · exact sound_knight Z hv hle' hm
      · exact sound_bishop Z hv hle' hm
      · exact sound_rook Z hv hle' hm
      · exact sound_queen Z hv hle' hm

end Board

namespace Board

/-! ### The fields `makeMove` updates -/

theorem sameState_refl (b : Board) : sameState b b := ⟨rfl, rfl, rfl, rfl, rfl, rfl, rfl⟩

theorem sameState_trans {a b c : Board} (h1 : sameState a b) (h2 : sameState b c) :
    sameState a c := by
  obtain ⟨a1, a2, a3, a4, a5, a6, a7⟩ := h1
  obtain ⟨b1, b2, b3, b4, b5, b6, b7⟩ := h2
  exact ⟨b1.trans a1, b2.trans a2, b3.trans a3, b4.trans a4, b5.trans a5, b6.trans a6,
    b7.trans a7⟩

theorem sameState_placePiece (Z : Zobrist) (b : Board) (c : Color) (p : PieceType) (sq : Nat) :
    sameState b (b.placePiece Z c p sq) := by
  cases c <;> cases p <;> exact ⟨rfl, rfl, rfl, rfl, rfl, rfl, rfl⟩

theorem sameState_removePiece (Z : Zobrist) (b : Board) (c : Color) (p : PieceType) (sq : Nat) :
    sameState b (b.removePiece Z c p sq) := by
  cases c <;> cases p <;> exact ⟨rfl, rfl, rfl, rfl, rfl, rfl, rfl⟩

theorem sameState_withCaptured (b : Board) (k : PieceType) :
    sameState b { b with mCaptured := k } := ⟨rfl, rfl, rfl, rfl, rfl, rfl, rfl⟩

theorem sameState_movePieces (Z : Zobrist) (b : Board) (m : Move) :
    sameState b (movePieces Z b m) := by
  unfold movePieces
  simp only
  split
  · exact sameState_trans (sameState_trans (sameState_trans (sameState_trans
      (sameState_removePiece Z b _ _ _) (sameState_placePiece Z _ _ _ _))
      (sameState_removePiece Z _ _ _ _)) (sameState_placePiece Z _ _ _ _))
      (sameState_withCaptured _ _)
  · split
    · exact sameState_trans (sameState_trans (sameState_trans
        (sameState_removePiece Z b _ _ _) (sameState_removePiece Z _ _ _ _))
        (sameState_placePiece Z _ _ _ _)) (sameState_withCaptured _ _)
    · refine sameState_trans ?_ (sameState_placePiece Z _ _ _ _)
      split
      · exact sameState_trans (sameState_trans (sameState_removePiece Z b _ _ _)
          (sameState_withCaptured _ _)) (sameState_removePiece Z _ _ _ _)
      · exact sameState_trans (sameState_removePiece Z b _ _ _) (sameState_withCaptured _ _)

theorem mZobristHashes_makeMove (Z : Zobrist) (b : Board) (m : Move) :
    (b.makeMove Z m).mZobristHashes = b.mZobristHashes ++ [b.mZobristHash] := by
  unfold makeMove
  simp only
  have h1 : ∀ (x : Board), (updateCounters Z x m).mZobristHashes = x.mZobristHashes :=
    fun x => rfl
  have h2 : ∀ (x : Board) s, (updateCastlingRights x s m).mZobristHashes = x.mZobristHashes :=
    fun x s => rfl
  have h3 : ∀ (x : Board) s, (updateEnPassant Z x s m).mZobristHashes = x.mZobristHashes := by
    intro x s
    unfold updateEnPassant
    simp only
    split <;> split <;> rfl
  rw [h1, h3, h2, (sameState_movePieces Z _ m).2.2.2.2.2.1]

theorem mCastlingRights_makeMove (Z : Zobrist) (b : Board) (m : Move) :
    (b.makeMove Z m).mCastlingRights
      = newCastlingRights b.mCastlingRights b.mColorToMove m.pieceType m.fromSq m.toSq := by
  unfold makeMove
  simp only
  have h1 : ∀ (x : Board), (updateCounters Z x m).mCastlingRights = x.mCastlingRights :=
    fun x => rfl
  have h2 : ∀ (x : Board) s, (updateCastlingRights x s m).mCastlingRights
      = newCastlingRights x.mCastlingRights s m.pieceType m.fromSq m.toSq :=
    fun x s => rfl
  have h3 : ∀ (x : Board) s, (updateEnPassant Z x s m).mCastlingRights = x.mCastlingRights := by
    intro x s
    unfold updateEnPassant
    simp only
    split <;> split <;> rfl
  rw [h1, h3, h2, (sameState_movePieces Z _ m).2.1]

theorem mEnPassantSquare_makeMove (Z : Zobrist) (b : Board) (m : Move) :
    (b.makeMove Z m).mEnPassantSquare
      = if m.flag = Move.PAWN_TWO_UP_FLAG then
          (if b.mColorToMove = .WHITE then subSq m.toSq 8 else addSq m.toSq 8)
        else SQUARE_NONE := by
  unfold makeMove
  simp only
  have h1 : ∀ (x : Board), (updateCounters Z x m).mEnPassantSquare = x.mEnPassantSquare :=
    fun x => rfl
  have h3 : ∀ (x : Board) s, (updateEnPassant Z x s m).mEnPassantSquare
      = if m.flag = Move.PAWN_TWO_UP_FLAG then
          (if s = .WHITE then subSq m.toSq 8 else addSq m.toSq 8)
        else SQUARE_NONE := by
    intro x s
    unfold updateEnPassant
    simp only
    by_cases h : m.flag = Move.PAWN_TWO_UP_FLAG
    · rw [if_pos h, if_pos h]
    · rw [if_neg h, if_neg h]
      by_cases h' : x.mEnPassantSquare ≠ SQUARE_NONE
      · rw [if_pos h']
      · rw [if_neg h']
        exact not_not.mp h'
  rw [h1, h3]

theorem mCurrentMoveCounter_makeMove (Z : Zobrist) (b : Board) (m : Move) :
    (b.makeMove Z m).mCurrentMoveCounter
      = if b.mColorToMove = .BLACK then (b.mCurrentMoveCounter + 1) % 65536
        else b.mCurrentMoveCounter := by
  unfold makeMove
  simp only
  have h1 : ∀ (x : Board), (updateCounters Z x m).mCurrentMoveCounter
      = if oppColor x.mColorToMove = .WHITE then (x.mCurrentMoveCounter + 1) % 65536
        else x.mCurrentMoveCounter := fun x => rfl
  have h2 : ∀ (x : Board) s, (updateCastlingRights x s m).mCurrentMoveCounter
      = x.mCurrentMoveCounter := fun x s => rfl
  have h2' : ∀ (x : Board) s, (updateCastlingRights x s m).mColorToMove
      = x.mColorToMove := fun x s => rfl
  have h3 : ∀ (x : Board) s, (updateEnPassant Z x s m).mCurrentMoveCounter
      = x.mCurrentMoveCounter := by
    intro x s
    unfold updateEnPassant
    simp only
    split <;> split <;> rfl
  rw [h1, h3, h2, mColorToMove_updateEnPassant, h2', (sameState_movePieces Z _ m).1,
    (sameState_movePieces Z _ m).2.2.2.2.1]
  cases b.mColorToMove <;> simp [oppColor]

theorem mCaptured_makeMove (Z : Zobrist) (b : Board) (m : Move) :
    (b.makeMove Z m).mCaptured
      = (movePieces Z { b with mZobristHashes := b.mZobristHashes ++ [b.mZobristHash] } m).mCaptured
      := by
  unfold makeMove
  simp only
  have h1 : ∀ (x : Board), (updateCounters Z x m).mCaptured = x.mCaptured := fun x => rfl
  have h2 : ∀ (x : Board) s, (updateCastlingRights x s m).mCaptured = x.mCaptured :=
    fun x s => rfl
  have h3 : ∀ (x : Board) s, (updateEnPassant Z x s m).mCaptured = x.mCaptured := by
    intro x s
    unfold updateEnPassant
    simp only
    split <;> split <;> rfl
  rw [h1, h3, h2]

theorem mPliesSincePawnOrCapture_makeMove (Z : Zobrist) (b : Board) (m : Move) :
    (b.makeMove Z m).mPliesSincePawnOrCapture
      = if m.pieceType = .PAWN ∨ (b.makeMove Z m).mCaptured ≠ .NONE then 0
        else (b.mPliesSincePawnOrCapture + 1) % 256 := by
  rw [mCaptured_makeMove]
  unfold makeMove
  simp only
  have h1 : ∀ (x : Board), (updateCounters Z x m).mPliesSincePawnOrCapture
      = if m.pieceType = .PAWN ∨ x.mCaptured ≠ .NONE then 0
        else (x.mPliesSincePawnOrCapture + 1) % 256 := fun x => rfl
  have h2 : ∀ (x : Board) s, (updateCastlingRights x s m).mPliesSincePawnOrCapture
      = x.mPliesSincePawnOrCapture := fun x s => rfl
  have h2' : ∀ (x : Board) s, (updateCastlingRights x s m).mCaptured = x.mCaptured :=
    fun x s => rfl
  have h3 : ∀ (x : Board) s, (updateEnPassant Z x s m).mPliesSincePawnOrCapture
      = x.mPliesSincePawnOrCapture := by
    intro x s
    unfold updateEnPassant
    simp only
    split <;> split <;> rfl
  have h3' : ∀ (x : Board) s, (updateEnPassant Z x s m).mCaptured = x.mCaptured := by
    intro x s
    unfold updateEnPassant
    simp only
    split <;> split <;> rfl
  rw [h1, h3, h2, h3', h2', (sameState_movePieces Z _ m).2.2.2.1]

end Board

namespace Board

/-- C13: history push. `makeMove` appends exactly one entry to the hash history, the hash of
the position as it was before the move, and keeps the earlier entries; so after the moves `ms`
the history is the initial history followed by the hashes of the positions that preceded each
move, in order. -/
theorem makeMove_pushes_hash (Z : Zobrist) (b : Board) (m : Move) (ms : List Move) :
    (b.makeMove Z m).mZobristHashes = b.mZobristHashes ++ [b.mZobristHash]
    ∧ (ms.foldl (fun x mv => x.makeMove Z mv) b).mZobristHashes
        = b.mZobristHashes
          ++ ((List.scanl (fun x mv => x.makeMove Z mv) b ms).take ms.length).map
              (fun x => x.mZobristHash) := by
  refine ⟨mZobristHashes_makeMove Z b m, ?_⟩
  induction ms generalizing b with
  | nil => simp
  | cons mv ms ih =>
    rw [List.foldl_cons, ih, mZobristHashes_makeMove]
    simp [List.scanl]

end Board

namespace Board

/-- A double push that `legalMoves` returns starts from a pawn on its home rank and lands two
squares ahead. -/
theorem mem_legalMoves_twoUp {Z : Zobrist} {b : Board} {u : Bool} {m : Move}
    (hm : m ∈ b.legalMoves Z u) (hflag : m.flag = Move.PAWN_TWO_UP_FLAG) :
    m.fromSq < 64 ∧ has b.us m.fromSq = true ∧ has b.pawns m.fromSq = true
      ∧ b.pawnHasntMoved m.fromSq = true ∧ m.toSq = b.squareTwoUp m.fromSq
      ∧ b.isOccupied (b.squareOneUp m.fromSq) = false
      ∧ b.isOccupied (b.squareTwoUp m.fromSq) = false := by
  rw [legalMoves_eq, List.mem_append] at hm
  rcases hm with hm | hm
  · have := (mem_kingMoves.mp hm).2.1
    rw [hflag] at this
    exact absurd this (by decide)
  · by_cases hle : popcount b.checkers > 1
    · rw [if_pos hle] at hm
      exact absurd hm (List.not_mem_nil _)
    · rw [if_neg hle] at hm
      unfold nonKingMoves at hm
      simp only [List.mem_append] at hm
      rcases hm with (((((hm | hm) | hm) | hm) | hm) | hm) | hm
      · have := (mem_castlingMoves_flag hm).1
        rw [hflag] at this
        exact absurd this (by decide)
      · have := (mem_enPassantMoves.mp hm).2.2.1
        rw [hflag] at this
        exact absurd this (by decide)
      · obtain ⟨sq, hsq, hm⟩ := List.mem_flatMap.mp hm
        obtain ⟨hsq64, hsq⟩ := mem_bits_iff.mp hsq
        simp only [has_and, Bool.and_eq_true] at hsq
        obtain ⟨hf, hm⟩ := mem_pawnMoves.mp hm
        subst hf
        have hno : ∀ w, ¬ pawnFlagOK w u m.flag := by
          intro w h
          unfold pawnFlagOK at h
          rw [hflag] at h
          split at h
          · rcases h with h | ⟨_, h | h | h⟩ <;> exact absurd h (by decide)
          · exact absurd h (by decide)
        rcases hm with ⟨_, _, h⟩ | ⟨_, _, hocc1, ⟨_, _, h⟩ | ⟨hh, _, hocc2, ht, _⟩⟩
        · exact absurd h (hno _)
        · exact absurd h (hno _)
        · exact ⟨hsq64, hsq.1, hsq.2, hh, ht, hocc1, hocc2⟩
      · obtain ⟨sq, _, hm⟩ := List.mem_flatMap.mp hm
        have := (mem_knightMoves.mp hm).2.1
        rw [hflag] at this
        exact absurd this (by decide)
      · obtain ⟨sq, _, hm⟩ := List.mem_flatMap.mp hm
        have := (mem_bishopMoves.mp hm).2.1
        rw [hflag] at this
        exact absurd this (by decide)
      · obtain ⟨sq, _, hm⟩ := List.mem_flatMap.mp hm
        have := (mem_rookMoves.mp hm).2.1
        rw [hflag] at this
        exact absurd this (by decide)
      · obtain ⟨sq, _, hm⟩ := List.mem_flatMap.mp hm
        have := (mem_queenMoves.mp hm).2.1
        rw [hflag] at this
        exact absurd this (by decide)

theorem pawnHasntMoved_rank {b : Board} {sq : Nat} (h : b.pawnHasntMoved sq = true) :
    (b.mColorToMove = .WHITE ∧ sq / 8 = 1) ∨ (b.mColorToMove = .BLACK ∧ sq / 8 = 6) := by
  unfold pawnHasntMoved squareRank at h
  by_cases h1 : sq / 8 = 1
  · rw [if_pos h1] at h
    exact Or.inl ⟨of_decide_eq_true h, h1⟩
  · rw [if_neg h1] at h
    by_cases h2 : sq / 8 = 6
    · rw [if_pos h2] at h
      exact Or.inr ⟨of_decide_eq_true h, h2⟩
    · rw [if_neg h2] at h
      exact Bool.noConfusion h

/-- C12: the en-passant square after `makeMove`. After a move that is not a pawn double push it
is `SQUARE_NONE`, whatever it was before; after a double push it is `to - 8` for White and
`to + 8` for Black (in `u8` arithmetic). For a move that `legalMoves` returns it is therefore
set if and only if the move is a double push, and then it is the square the pawn passed over:
one rank ahead of the origin and one rank behind the destination. -/
theorem makeMove_enPassantSquare (Z : Zobrist) (b : Board) (m : Move) :
    (m.flag ≠ Move.PAWN_TWO_UP_FLAG → (b.makeMove Z m).mEnPassantSquare = SQUARE_NONE)
    ∧ (m.flag = Move.PAWN_TWO_UP_FLAG → (b.makeMove Z m).mEnPassantSquare
        = if b.mColorToMove = .WHITE then subSq m.toSq 8 else addSq m.toSq 8)
    ∧ (∀ u, m ∈ b.legalMoves Z u →
        ((b.makeMove Z m).mEnPassantSquare ≠ SQUARE_NONE ↔ m.flag = Move.PAWN_TWO_UP_FLAG)
        ∧ (m.flag = Move.PAWN_TWO_UP_FLAG →
            (b.makeMove Z m).mEnPassantSquare < 64
            ∧ (b.mColorToMove = .WHITE →
                (b.makeMove Z m).mEnPassantSquare + 8 = m.toSq
                ∧ (b.makeMove Z m).mEnPassantSquare = m.fromSq + 8)
            ∧ (b.mColorToMove = .BLACK →
                (b.makeMove Z m).mEnPassantSquare = m.toSq + 8
                ∧ (b.makeMove Z m).mEnPassantSquare + 8 = m.fromSq))) := by
  rw [mEnPassantSquare_makeMove]
  refine ⟨fun h => if_neg h, fun h => if_pos h, ?_⟩
  intro u hm
  have key : m.flag = Move.PAWN_TWO_UP_FLAG →
      (if b.mColorToMove = .WHITE then subSq m.toSq 8 else addSq m.toSq 8) < 64
      ∧ (b.mColorToMove = .WHITE →
          (if b.mColorToMove = .WHITE then subSq m.toSq 8 else addSq m.toSq 8) + 8 = m.toSq
          ∧ (if b.mColorToMove = .WHITE then subSq m.toSq 8 else addSq m.toSq 8) = m.fromSq + 8)
      ∧ (b.mColorToMove = .BLACK →
          (if b.mColorToMove = .WHITE then subSq m.toSq 8 else addSq m.toSq 8) = m.toSq + 8
          ∧ (if b.mColorToMove = .WHITE then subSq m.toSq 8 else addSq m.toSq 8) + 8
              = m.fromSq) := by
    intro hflag
    obtain ⟨hf64, _, _, hh, ht, _, _⟩ := mem_legalMoves_twoUp hm hflag
    rw [ht]
    unfold squareTwoUp subSq addSq
    rcases pawnHasntMoved_rank hh with ⟨hc, hr⟩ | ⟨hc, hr⟩
    · simp only [hc, if_true]
      refine ⟨by omega, fun _ => ⟨by omega, by omega⟩, fun h => Color.noConfusion h⟩
    · have hc' : ¬ Color.BLACK = Color.WHITE := by decide
      simp only [hc, hc', if_false]
      refine ⟨by omega, fun h => False.elim h, fun _ => ⟨by omega, by omega⟩⟩
  constructor
  · constructor
    · intro h
      by_contra hf
      rw [if_neg hf] at h
      exact h rfl
    · intro hflag
      rw [if_pos hflag]
      have := (key hflag).1
      intro e
      rw [e] at this
      exact absurd this (by decide)
  · intro hflag
    rw [if_pos hflag]
    exact key hflag

/-- The en-passant square at work: `e2e4` is a move of `legalMoves` in the start position, and
after it the en-passant square is `e3` (square 20), one rank ahead of `e2` and one behind
`e4`. -/
theorem makeMove_enPassantSquare_witness :
    (⟨12, 28, Move.PAWN_TWO_UP_FLAG⟩ : Move) ∈ startBoard.legalMoves Zobrist.sample false
    ∧ (startBoard.makeMove Zobrist.sample ⟨12, 28, Move.PAWN_TWO_UP_FLAG⟩).mEnPassantSquare = 20
    ∧ (startBoard.makeMove Zobrist.sample ⟨12, 28, Move.PAWN_TWO_UP_FLAG⟩).mEnPassantSquare + 8
        = 28 :=
  ⟨by decide!,
    ((((makeMove_enPassantSquare Zobrist.sample startBoard ⟨12, 28, Move.PAWN_TWO_UP_FLAG⟩).2.2
      false (by decide!)).2 rfl).2.1 (by decide!)).2,
    ((((makeMove_enPassantSquare Zobrist.sample startBoard ⟨12, 28, Move.PAWN_TWO_UP_FLAG⟩).2.2
      false (by decide!)).2 rfl).2.1 (by decide!)).1⟩

end Board

namespace Board

/-- C14 (amended): side and fullmove counter. After `makeMove` the side to move is the opposite
colour of the side that moved. The fullmove counter is unchanged after a move by White; after a
move by Black it is one greater than before as long as it was below 65535, the largest value of
its 16-bit field, and it is 0 when it was 65535. -/
theorem makeMove_side_and_counter (Z : Zobrist) (b : Board) (m : Move) :
    (b.makeMove Z m).mColorToMove = oppColor b.mColorToMove
    ∧ (b.mColorToMove = .WHITE →
        (b.makeMove Z m).mCurrentMoveCounter = b.mCurrentMoveCounter)
    ∧ (b.mColorToMove = .BLACK → b.mCurrentMoveCounter < 65535 →
        (b.makeMove Z m).mCurrentMoveCounter = b.mCurrentMoveCounter + 1)
    ∧ (b.mColorToMove = .BLACK → b.mCurrentMoveCounter = 65535 →
        (b.makeMove Z m).mCurrentMoveCounter = 0) := by
  rw [mCurrentMoveCounter_makeMove]
  refine ⟨mColorToMove_makeMove Z b m, ?_, ?_, ?_⟩
  · intro h
    rw [h]
    rfl
  · intro h hlt
    rw [if_pos h]
    exact Nat.mod_eq_of_lt (by omega)
  · intro h he
    rw [if_pos h, he]

/-- The counter at work: after `1. e4 e5` from the start position White is to move again and
the fullmove counter has gone from 1 to 2. -/
theorem makeMove_side_and_counter_witness :
    ((startBoard.makeMove Zobrist.sample ⟨12, 28, Move.PAWN_TWO_UP_FLAG⟩).makeMove Zobrist.sample
        ⟨52, 36, Move.PAWN_TWO_UP_FLAG⟩).mColorToMove = .WHITE
    ∧ ((startBoard.makeMove Zobrist.sample ⟨12, 28, Move.PAWN_TWO_UP_FLAG⟩).makeMove
        Zobrist.sample ⟨52, 36, Move.PAWN_TWO_UP_FLAG⟩).mCurrentMoveCounter = 2 := by
  have h := makeMove_side_and_counter Zobrist.sample
    (startBoard.makeMove Zobrist.sample ⟨12, 28, Move.PAWN_TWO_UP_FLAG⟩)
    ⟨52, 36, Move.PAWN_TWO_UP_FLAG⟩
  refine ⟨h.1.trans (by decide!), (h.2.2.1 (by decide!) (by decide!)).trans (by decide!)⟩

/-- C14, as worded, fails: in the position `4k3/8/8/8/8/8/8/4K3 b - - 0 65535` Black is to move
and the fullmove counter is 65535; after the legal move `e8d8` the counter is 0, not one more
than before. -/
theorem makeMove_counter_wraps :
    ∃ b ∈ Board.ofFen Zobrist.sample "4k3/8/8/8/8/8/8/4K3 b - - 0 65535".toList,
      b.Valid ∧ b.mColorToMove = .BLACK ∧ ∃ m ∈ b.legalMoves Zobrist.sample true,
        (b.makeMove Zobrist.sample m).mCurrentMoveCounter ≠ b.mCurrentMoveCounter + 1 := by
  decide!

end Board

theorem has_and_not64_bit (x c s : Nat) :
    has (x &&& not64 (1 <<< c)) s = (has x s && decide (s < 64) && !decide (s = c)) := by
  rw [has_and, has_not64, has_bit]
  by_cases h : c = s
  · subst h; simp
  · have h' : ¬ s = c := fun e => h e.symm
    simp [h, h']

namespace Board

/-- The rights after a move, square by square: a right is kept unless the king moved and it is
one of the mover's two, or another piece left its corner, or the move lands on its corner. -/
theorem has_newCastlingRights (rights : Nat) (stm : Color) (P : PieceType) (f t s : Nat)
    (hs : s < 64) :
    has (newCastlingRights rights stm P f t) s
      = (has rights s
        && !(decide (P = .KING) && (has (CASTLING_MASKS stm CASTLE_SHORT) s
              || has (CASTLING_MASKS stm CASTLE_LONG) s))
        && !(!decide (P = .KING) && decide (s = f)) && !decide (s = t)) := by
  have hmask : ∀ side, ∃ c, CASTLING_MASKS stm side = 1 <<< c := by
    intro side
    unfold CASTLING_MASKS
    split <;> exact ⟨_, rfl⟩
  obtain ⟨c1, h1⟩ := hmask CASTLE_SHORT
  obtain ⟨c2, h2⟩ := hmask CASTLE_LONG
  rw [h1, h2]
  unfold newCastlingRights
  simp only
  have hto : ∀ r1 : Nat, has (if 1 <<< t &&& r1 ≠ 0 then r1 &&& not64 (1 <<< t) else r1) s
      = (has r1 s && !decide (s = t)) := by
    intro r1
    by_cases h : 1 <<< t &&& r1 ≠ 0
    · rw [if_pos h, has_and_not64_bit]
      simp [hs]
    · rw [if_neg h]
      rw [bit_and_ne_zero] at h
      by_cases e : s = t
      · subst e
        simp [h]
      · simp [e]
  rw [h1, h2, hto]
  by_cases hK : P = .KING
  · rw [if_pos hK, has_and_not64_bit, has_and_not64_bit, has_bit, has_bit]
    have e1 : decide (c1 = s) = decide (s = c1) := by
      by_cases e : s = c1
      · simp [e]
      · have : ¬ c1 = s := fun h => e h.symm
        simp [e, this]
    have e2 : decide (c2 = s) = decide (s = c2) := by
      by_cases e : s = c2
      · simp [e]
      · have : ¬ c2 = s := fun h => e h.symm
        simp [e, this]
    rw [e1, e2]
    cases has rights s <;> cases decide (s = c1) <;> cases decide (s = c2) <;>
      cases decide (s = t) <;> simp [hK, hs]
  · rw [if_neg hK]
    by_cases h : 1 <<< f &&& rights ≠ 0
    · rw [if_pos h, has_and_not64_bit]
      simp [hK, hs]
    · rw [if_neg h]
      rw [bit_and_ne_zero] at h
      by_cases e : s = f
      · subst e
        simp [h]
      · simp [hK, e]

theorem has_newCastlingRights_sub (rights : Nat) (stm : Color) (P : PieceType) (f t s : Nat)
    (h : has (newCastlingRights rights stm P f t) s = true) : has rights s = true := by
  unfold newCastlingRights at h
  simp only at h
  have hand : ∀ x y : Nat, has (x &&& y) s = true → has x s = true := by
    intro x y hxy
    rw [has_and, Bool.and_eq_true] at hxy
    exact hxy.1
  have hto : ∀ r1 : Nat,
      has (if 1 <<< t &&& r1 ≠ 0 then r1 &&& not64 (1 <<< t) else r1) s = true →
      has r1 s = true := by
    intro r1 h'
    by_cases hc : 1 <<< t &&& r1 ≠ 0
    · rw [if_pos hc] at h'
      exact hand _ _ h'
    · rw [if_neg hc] at h'
      exact h'
  have h1 := hto _ h
  by_cases hK : P = .KING
  · rw [if_pos hK] at h1
    exact hand _ _ (hand _ _ h1)
  · rw [if_neg hK] at h1
    by_cases hc : 1 <<< f &&& rights ≠ 0
    · rw [if_pos hc] at h1
      exact hand _ _ h1
    · rw [if_neg hc] at h1
      exact h1

/-- C11 (amended): the castling rights after `makeMove`. If the moved piece is a king, both
rights of the mover are cleared. If a piece other than the king starts from a square, or any
piece lands on a square, the right held on that square is cleared. No other right changes, and
a right that is held after the move was held before it. (A king that starts from a corner
clears the two rights of its own colour, not a right of the other colour held on that
corner.) -/
theorem makeMove_castlingRights (Z : Zobrist) (b : Board) (m : Move) :
    (m.pieceType = .KING →
      (b.makeMove Z m).mCastlingRights &&& CASTLING_MASKS b.mColorToMove CASTLE_SHORT = 0
      ∧ (b.makeMove Z m).mCastlingRights &&& CASTLING_MASKS b.mColorToMove CASTLE_LONG = 0)
    ∧ (m.pieceType ≠ .KING → m.fromSq < 64 →
        has (b.makeMove Z m).mCastlingRights m.fromSq = false)
    ∧ (m.toSq < 64 → has (b.makeMove Z m).mCastlingRights m.toSq = false)
    ∧ (∀ s, s < 64 → s ≠ m.toSq → (m.pieceType ≠ .KING → s ≠ m.fromSq)
        → (m.pieceType = .KING → has (CASTLING_MASKS b.mColorToMove CASTLE_SHORT) s = false
            ∧ has (CASTLING_MASKS b.mColorToMove CASTLE_LONG) s = false)
        → has (b.makeMove Z m).mCastlingRights s = has b.mCastlingRights s)
    ∧ (∀ s, has (b.makeMove Z m).mCastlingRights s = true → has b.mCastlingRights s = true) := by
  rw [mCastlingRights_makeMove]
  refine ⟨?_, ?_, ?_, ?_, ?_⟩
  · intro hK
    have key : ∀ side, newCastlingRights b.mCastlingRights b.mColorToMove m.pieceType m.fromSq
        m.toSq &&& CASTLING_MASKS b.mColorToMove side = 0
        ∨ (side ≠ CASTLE_SHORT ∧ side ≠ CASTLE_LONG) := by
      intro side
      by_cases hside : side = CASTLE_SHORT ∨ side = CASTLE_LONG
      · left
        rw [and_eq_zero_iff]
        intro s hs
        by_contra hm
        simp only [Bool.not_eq_false] at hm
        have hs64 : s < 64 := by
          have : ∃ c, c < 64 ∧ CASTLING_MASKS b.mColorToMove side = 1 <<< c := by
            unfold CASTLING_MASKS
            split <;> exact ⟨_, by decide, rfl⟩
          obtain ⟨c, hc, hc'⟩ := this
          rw [hc', has_bit] at hm
          have := of_decide_eq_true hm
          omega
        rw [has_newCastlingRights _ _ _ _ _ _ hs64] at hs
        rcases hside with rfl | rfl
        · simp [hK, hm] at hs
        · simp [hK, hm] at hs
      · right
        exact not_or.mp hside
    constructor
    · rcases key CASTLE_SHORT with h | h
      · exact h
      · exact absurd rfl h.1
    · rcases key CASTLE_LONG with h | h
      · exact h
      · exact absurd rfl h.2
  · intro hK hf
    rw [has_newCastlingRights _ _ _ _ _ _ hf]
    simp [hK]
  · intro ht
    rw [has_newCastlingRights _ _ _ _ _ _ ht]
    simp
  · intro s hs hst hsf hmask
    rw [has_newCastlingRights _ _ _ _ _ _ hs]
    by_cases hK : m.pieceType = .KING
    · obtain ⟨h1, h2⟩ := hmask hK
      simp [hK, h1, h2, hst]
    · simp [hK, hsf hK, hst]
  · intro s
    exact has_newCastlingRights_sub _ _ _ _ _ _

/-- The rights update at work: after `1. e4 e5 2. Ke2` White holds no right any more and Black
still holds both. -/
theorem makeMove_castlingRights_witness :
    ((startBoard.makeMove Zobrist.sample ⟨12, 28, Move.PAWN_TWO_UP_FLAG⟩).makeMove
        Zobrist.sample ⟨52, 36, Move.PAWN_TWO_UP_FLAG⟩).mCastlingRights
      = 1 <<< 0 ||| 1 <<< 7 ||| 1 <<< 56 ||| 1 <<< 63
    ∧ (((startBoard.makeMove Zobrist.sample ⟨12, 28, Move.PAWN_TWO_UP_FLAG⟩).makeMove
        Zobrist.sample ⟨52, 36, Move.PAWN_TWO_UP_FLAG⟩).makeMove Zobrist.sample
          ⟨4, 12, Move.KING_FLAG⟩).mCastlingRights &&& CASTLING_MASKS .WHITE CASTLE_SHORT = 0
    ∧ (((startBoard.makeMove Zobrist.sample ⟨12, 28, Move.PAWN_TWO_UP_FLAG⟩).makeMove
        Zobrist.sample ⟨52, 36, Move.PAWN_TWO_UP_FLAG⟩).makeMove Zobrist.sample
          ⟨4, 12, Move.KING_FLAG⟩).mCastlingRights &&& CASTLING_MASKS .WHITE CASTLE_LONG = 0 :=
  ⟨by decide!,
   ((makeMove_castlingRights Zobrist.sample
      ((startBoard.makeMove Zobrist.sample ⟨12, 28, Move.PAWN_TWO_UP_FLAG⟩).makeMove
        Zobrist.sample ⟨52, 36, Move.PAWN_TWO_UP_FLAG⟩) ⟨4, 12, Move.KING_FLAG⟩).1
      (by decide!)).1,
   ((makeMove_castlingRights Zobrist.sample
      ((startBoard.makeMove Zobrist.sample ⟨12, 28, Move.PAWN_TWO_UP_FLAG⟩).makeMove
        Zobrist.sample ⟨52, 36, Move.PAWN_TWO_UP_FLAG⟩) ⟨4, 12, Move.KING_FLAG⟩).1
      (by decide!)).2⟩

/-- C11, as worded, fails: in the position `7K/8/8/8/8/8/8/k7 w k - 0 1` Black holds the right
whose rook home is `h8`, where the white king stands. The legal king move `h8g8` starts from
that corner, and the right is still held after it: a king move clears the mover's rights
only. -/
theorem makeMove_castlingRights_king_from_corner :
    ∃ b ∈ Board.ofFen Zobrist.sample "7K/8/8/8/8/8/8/k7 w k - 0 1".toList,
      b.Valid ∧ ∃ m ∈ b.legalMoves Zobrist.sample true,
        m.fromSq = 63 ∧ has b.mCastlingRights 63 = true
        ∧ has (b.makeMove Zobrist.sample m).mCastlingRights 63 = true := by
  decide!

end Board

namespace Board

end Board

namespace Board

theorem isRepetitionLoop_iff (b : Board) (idx : Nat) : ∀ fuel i, i < 2 * fuel →
    (isRepetitionLoop b idx fuel i = true ↔
      ∃ j, idx ≤ j ∧ j ≤ i ∧ j % 2 = i % 2 ∧ b.mZobristHash = b.mZobristHashes.getD j 0) := by
  intro fuel
  induction fuel with
  | zero => intro i hi; omega
  | succ fuel ih =>
    intro i hi
    unfold isRepetitionLoop
    by_cases h1 : i < idx
    · rw [if_pos h1]
      constructor
      · intro h; exact Bool.noConfusion h
      · rintro ⟨j, hj1, hj2, _⟩; omega
    · rw [if_neg h1]
      by_cases h2 : b.mZobristHash = b.mZobristHashes.getD i 0
      · rw [if_pos h2]
        exact ⟨fun _ => ⟨i, Nat.le_of_not_lt h1, Nat.le_refl _, rfl, h2⟩, fun _ => rfl⟩
      · rw [if_neg h2]
        by_cases h3 : i < 2
        · rw [if_pos h3]
          constructor
          · intro h; exact Bool.noConfusion h
          · rintro ⟨j, _, hj2, hj3, hj4⟩
            have : j = i := by omega
            rw [this] at hj4
            exact absurd hj4 h2
        · rw [if_neg h3, ih (i - 2) (by omega)]
          constructor
          · rintro ⟨j, hj1, hj2, hj3, hj4⟩
            exact ⟨j, hj1, by omega, by omega, hj4⟩
          · rintro ⟨j, hj1, hj2, hj3, hj4⟩
            have hne : j ≠ i := by
              intro e
              rw [e] at hj4
              exact h2 hj4
            exact ⟨j, hj1, by omega, by omega, hj4⟩

/-- C16: repetition detection. With `n` the length of the hash history and `p` the halfmove
clock, `isRepetition()` is true if and only if `n ≥ 4`, `p ≥ 4` and some index `i` with
`max(0, n - p) ≤ i ≤ n - 2` and of the parity of `n` has `history[i]` equal to the current hash.
(`n - p` is the subtraction of natural numbers, which stops at zero.) -/
theorem isRepetition_iff (b : Board) :
    b.isRepetition = true ↔
      4 ≤ b.mZobristHashes.length ∧ 4 ≤ b.mPliesSincePawnOrCapture
      ∧ ∃ i, b.mZobristHashes.length - b.mPliesSincePawnOrCapture ≤ i
        ∧ i + 2 ≤ b.mZobristHashes.length ∧ i % 2 = b.mZobristHashes.length % 2
        ∧ b.mZobristHashes[i]? = some b.mZobristHash := by
  unfold isRepetition
  by_cases h : b.mZobristHashes.length < 4 ∨ b.mPliesSincePawnOrCapture < 4
  · rw [if_pos h]
    constructor
    · intro h'; exact Bool.noConfusion h'
    · rintro ⟨h1, h2, _⟩; omega
  · rw [if_neg h]
    simp only
    rw [isRepetitionLoop_iff b _ _ _ (by omega)]
    have hn : 4 ≤ b.mZobristHashes.length := by omega
    have hp : 4 ≤ b.mPliesSincePawnOrCapture := by omega
    constructor
    · rintro ⟨j, hj1, hj2, hj3, hj4⟩
      refine ⟨hn, hp, j, hj1, by omega, by omega, ?_⟩
      have hlt : j < b.mZobristHashes.length := by omega
      rw [List.getElem?_eq_getElem hlt, hj4, List.getD_eq_getElem _ _ hlt]
    · rintro ⟨_, _, j, hj1, hj2, hj3, hj4⟩
      refine ⟨j, hj1, by omega, by omega, ?_⟩
      have hlt : j < b.mZobristHashes.length := by omega
      rw [List.getElem?_eq_getElem hlt, Option.some.injEq] at hj4
      rw [List.getD_eq_getElem _ _ hlt, hj4]

end Board

theorem popcount_card (x : Nat) :
    popcount x = ((Finset.range 64).filter (fun s => has x s = true)).card := by
  unfold popcount
  rw [← List.toFinset_card_of_nodup (bits_nodup x)]
  congr 1
  ext s
  rw [List.mem_toFinset, mem_bits_iff, Finset.mem_filter, Finset.mem_range]

theorem popcount_or_disjoint {x y : Nat} (h : x &&& y = 0) :
    popcount (x ||| y) = popcount x + popcount y := by
  rw [popcount_card, popcount_card, popcount_card, ← Finset.card_union_of_disjoint]
  · congr 1
    ext s
    simp only [Finset.mem_filter, Finset.mem_range, Finset.mem_union, has_or, Bool.or_eq_true]
    constructor
    · rintro ⟨h1, h2 | h2⟩
      · exact Or.inl ⟨h1, h2⟩
      · exact Or.inr ⟨h1, h2⟩
    · rintro (⟨h1, h2⟩ | ⟨h1, h2⟩)
      · exact ⟨h1, Or.inl h2⟩
      · exact ⟨h1, Or.inr h2⟩
  · rw [Finset.disjoint_left]
    intro s hs hs'
    simp only [Finset.mem_filter] at hs hs'
    have := and_eq_zero_iff.mp h s hs.2
    rw [hs'.2] at this
    exact Bool.noConfusion this

theorem popcount_zero : popcount 0 = 0 := by decide

theorem popcount_eq_zero_iff {x : Nat} (hx : x < 2 ^ 64) : popcount x = 0 ↔ x = 0 := by
  constructor
  · exact popcount_eq_zero hx
  · rintro rfl
    exact popcount_zero

theorem or_and_eq_zero {x y z : Nat} (h1 : x &&& z = 0) (h2 : y &&& z = 0) :
    (x ||| y) &&& z = 0 := by
  rw [and_eq_zero_iff] at *
  intro s hs
  rw [has_or, Bool.or_eq_true] at hs
  rcases hs with hs | hs
  · exact h1 s hs
  · exact h2 s hs

theorem lt_of_forall_has {x : Nat} (h : ∀ s, has x s = true → s < 64) : x < 2 ^ 64 := by
  apply Nat.lt_pow_two_of_testBit
  intro i hi
  by_contra hc
  simp only [Bool.not_eq_false] at hc
  have := h i hc
  omega

theorem lt_of_or_eq {x y z : Nat} (h : x ||| y = z) (hz : z < 2 ^ 64) :
    x < 2 ^ 64 ∧ y < 2 ^ 64 := by
  constructor
  · apply lt_of_forall_has
    intro s hs
    apply has_lt_of_lt hz
    rw [← h, has_or, hs]
    rfl
  · apply lt_of_forall_has
    intro s hs
    apply has_lt_of_lt hz
    rw [← h, has_or, hs]
    simp

namespace Board

theorem consistent_facts {b : Board} (h : b.isConsistent = true) :
    b.white < 2 ^ 64 ∧ b.black < 2 ^ 64 ∧ b.white &&& b.black = 0
      ∧ (∀ p q : PieceType, p ≠ q → b.pieceBb p &&& b.pieceBb q = 0)
      ∧ b.pawns ||| b.knights ||| b.bishops ||| b.rooks ||| b.queens ||| b.kings
          = b.white ||| b.black
      ∧ popcount (b.white &&& b.kings) = 1 ∧ popcount (b.black &&& b.kings) = 1 := by
  unfold isConsistent at h
  simp only [Bool.and_eq_true, decide_eq_true_eq] at h
  obtain ⟨⟨⟨⟨⟨⟨⟨⟨⟨⟨⟨⟨⟨⟨⟨⟨⟨⟨⟨⟨h1, h2⟩, h3⟩, p1⟩, p2⟩, p3⟩, p4⟩, p5⟩, p6⟩, p7⟩, p8⟩, p9⟩, p10⟩, p11⟩,
    p12⟩, p13⟩, p14⟩, p15⟩, h4⟩, h5⟩, h6⟩ := h
  refine ⟨h1, h2, h3, ?_, h4, h5, h6⟩
  intro p q hpq
  cases p <;> cases q <;> simp only [pieceBb, Nat.and_zero, Nat.zero_and, ne_eq,
    not_true_eq_false] at hpq ⊢ <;> first | assumption | (rw [Nat.and_comm]; assumption)

/-- The piece counts of a consistent position: the pieces on the board are the pawns, knights,
bishops, rooks, queens and the two kings. -/
theorem consistent_counts {b : Board} (h : b.isConsistent = true) :
    popcount b.occupancy = popcount b.pawns + popcount b.knights + popcount b.bishops
        + popcount b.rooks + popcount b.queens + popcount b.kings
      ∧ popcount b.kings = 2
      ∧ b.pawns < 2 ^ 64 ∧ b.knights < 2 ^ 64 ∧ b.bishops < 2 ^ 64 ∧ b.rooks < 2 ^ 64
      ∧ b.queens < 2 ^ 64 := by
  obtain ⟨h1, h2, h3, hp, hu, hk1, hk2⟩ := consistent_facts h
  have hd : ∀ p q : PieceType, p ≠ q → b.pieceBb p &&& b.pieceBb q = 0 := hp
  have d12 : b.pawns &&& b.knights = 0 := hd .PAWN .KNIGHT (by decide)
  have d13 : b.pawns &&& b.bishops = 0 := hd .PAWN .BISHOP (by decide)
  have d14 : b.pawns &&& b.rooks = 0 := hd .PAWN .ROOK (by decide)
  have d15 : b.pawns &&& b.queens = 0 := hd .PAWN .QUEEN (by decide)
  have d16 : b.pawns &&& b.kings = 0 := hd .PAWN .KING (by decide)
  have d23 : b.knights &&& b.bishops = 0 := hd .KNIGHT .BISHOP (by decide)
  have d24 : b.knights &&& b.rooks = 0 := hd .KNIGHT .ROOK (by decide)
  have d25 : b.knights &&& b.queens = 0 := hd .KNIGHT .QUEEN (by decide)
  have d26 : b.knights &&& b.kings = 0 := hd .KNIGHT .KING (by decide)
  have d34 : b.bishops &&& b.rooks = 0 := hd .BISHOP .ROOK (by decide)
  have d35 : b.bishops &&& b.queens = 0 := hd .BISHOP .QUEEN (by decide)
  have d36 : b.bishops &&& b.kings = 0 := hd .BISHOP .KING (by decide)
  have d45 : b.rooks &&& b.queens = 0 := hd .ROOK .QUEEN (by decide)
  have d46 : b.rooks &&& b.kings = 0 := hd .ROOK .KING (by decide)
  have d56 : b.queens &&& b.kings = 0 := hd .QUEEN .KING (by decide)
  have hocc : b.white ||| b.black < 2 ^ 64 := Nat.or_lt_two_pow h1 h2
  have hsum : popcount (b.pawns ||| b.knights ||| b.bishops ||| b.rooks ||| b.queens ||| b.kings)
      = popcount b.pawns + popcount b.knights + popcount b.bishops
        + popcount b.rooks + popcount b.queens + popcount b.kings := by
    rw [popcount_or_disjoint (or_and_eq_zero (or_and_eq_zero (or_and_eq_zero
        (or_and_eq_zero d16 d26) d36) d46) d56),
      popcount_or_disjoint (or_and_eq_zero (or_and_eq_zero (or_and_eq_zero d15 d25) d35) d45),
      popcount_or_disjoint (or_and_eq_zero (or_and_eq_zero d14 d24) d34),
      popcount_or_disjoint (or_and_eq_zero d13 d23), popcount_or_disjoint d12]
  have hkings : b.kings = (b.white &&& b.kings) ||| (b.black &&& b.kings) := by
    apply eq_of_has_eq
    intro s
    rw [has_or, has_and, has_and]
    cases hk : has b.kings s
    · simp
    · have : has (b.white ||| b.black) s = true := by
        rw [← hu, has_or, hk]
        simp
      rw [has_or] at this
      simpa using this
  have hkd : (b.white &&& b.kings) &&& (b.black &&& b.kings) = 0 := by
    rw [and_eq_zero_iff]
    intro s hs
    rw [has_and, Bool.and_eq_true] at hs
    have := and_eq_zero_iff.mp h3 s hs.1
    rw [has_and, this]
    rfl
  have hl1 := lt_of_or_eq hu hocc
  have hl2 := lt_of_or_eq rfl hl1.1
  have hl3 := lt_of_or_eq rfl hl2.1
  have hl4 := lt_of_or_eq rfl hl3.1
  have hl5 := lt_of_or_eq rfl hl4.1
  refine ⟨?_, ?_, hl5.1, hl5.2, hl4.2, hl3.2, hl2.2⟩
  · rw [occupancy_eq, ← hu, hsum]
  · rw [hkings, popcount_or_disjoint hkd, hk1, hk2]

/-- C17: insufficient material. In a position with consistent bitboards and exactly one king
per side, `insufficientMaterial()` is true if and only if the board holds only the two kings,
or holds exactly three pieces of which the one that is not a king is a knight or a bishop; it
is false whenever a pawn, a rook or a queen is present or four or more pieces are on the
board. -/
theorem insufficientMaterial_iff (b : Board) (h : b.isConsistent = true) :
    (b.insufficientMaterial = true ↔
      (popcount b.occupancy = 2 ∧ b.occupancy = b.kings)
      ∨ (popcount b.occupancy = 3 ∧ popcount b.knights + popcount b.bishops = 1
          ∧ b.pawns = 0 ∧ b.rooks = 0 ∧ b.queens = 0))
    ∧ (b.pawns ≠ 0 ∨ b.rooks ≠ 0 ∨ b.queens ≠ 0 ∨ 4 ≤ popcount b.occupancy →
        b.insufficientMaterial = false) := by
  obtain ⟨hT, hK, lP, lN, lB, lR, lQ⟩ := consistent_counts h
  obtain ⟨_, _, _, _, hu, _, _⟩ := consistent_facts h
  have zP := popcount_eq_zero_iff lP
  have zN := popcount_eq_zero_iff lN
  have zB := popcount_eq_zero_iff lB
  have zR := popcount_eq_zero_iff lR
  have zQ := popcount_eq_zero_iff lQ
  have hocc : b.occupancy = b.kings ↔ (b.pawns = 0 ∧ b.knights = 0 ∧ b.bishops = 0
      ∧ b.rooks = 0 ∧ b.queens = 0) := by
    constructor
    · intro e
      have : popcount b.occupancy = popcount b.kings := by rw [e]
      rw [← zP, ← zN, ← zB, ← zR, ← zQ]
      omega
    · rintro ⟨e1, e2, e3, e4, e5⟩
      rw [occupancy_eq, ← hu, e1, e2, e3, e4, e5]
      simp
  have hNpos : b.knights > 0 ↔ popcount b.knights ≠ 0 := by
    rw [Ne, zN]
    exact Nat.pos_iff_ne_zero
  have hBpos : b.bishops > 0 ↔ popcount b.bishops ≠ 0 := by
    rw [Ne, zB]
    exact Nat.pos_iff_ne_zero
  have hval : b.insufficientMaterial = true ↔
      popcount b.occupancy = 2
      ∨ (popcount b.occupancy = 3 ∧ (b.knights > 0 ∨ b.bishops > 0)) := by
    unfold insufficientMaterial
    simp only
    by_cases h2 : popcount b.occupancy = 2
    · rw [if_pos h2]
      simp [h2]
    · rw [if_neg h2]
      simp [h2]
  constructor
  · rw [hval, hocc, hNpos, hBpos, ← zP, ← zN, ← zB, ← zR, ← zQ]
    constructor
    · rintro (h2 | ⟨h3, h4⟩)
      · left
        refine ⟨h2, ?_, ?_, ?_, ?_, ?_⟩ <;> omega
      · right
        refine ⟨h3, ?_, ?_, ?_, ?_⟩ <;> omega
    · rintro (⟨h2, _⟩ | ⟨h3, h4, _⟩)
      · exact Or.inl h2
      · right
        refine ⟨h3, ?_⟩
        omega
  · intro hx
    rw [← Bool.not_eq_true, hval, hNpos, hBpos]
    rw [Ne, Ne, Ne, ← zP, ← zR, ← zQ] at hx
    omega

/-- Insufficient material at work: king and knight against king is recognised. -/
theorem insufficientMaterial_witness :
    (sampleBoard "4k3/8/8/8/8/8/8/4KN2 w - - 0 1").isConsistent = true
    ∧ popcount (sampleBoard "4k3/8/8/8/8/8/8/4KN2 w - - 0 1").occupancy = 3
    ∧ (sampleBoard "4k3/8/8/8/8/8/8/4KN2 w - - 0 1").insufficientMaterial = true :=
  ⟨by decide!, by decide!,
    (insufficientMaterial_iff (sampleBoard "4k3/8/8/8/8/8/8/4KN2 w - - 0 1") (by decide!)).1.mpr
      (Or.inr (by decide!))⟩

end Board

namespace Board

theorem normalMove_of_attack {b : Board} {m : Move} {F : Nat} (hflag : m.flag = F)
    (h1 : 1 ≤ F) (h6 : F ≤ 6) (hf : m.fromSq < 64) (ht : m.toSq < 64)
    (hus : has b.us m.fromSq = true)
    (hp : has (b.pieceBb (PieceType.ofIndex (F - 1))) m.fromSq = true)
    (hto : has b.us m.toSq = false)
    (hatt : attacksFrom (PieceType.ofIndex (F - 1)) b.mColorToMove b.occupancy m.fromSq m.toSq
      = true) : b.NormalMove m := by
  obtain ⟨hpt, hpr, hc, he⟩ := Move.flag_piece hflag h1 h6
  refine ⟨hc, he, ?_, hf, ht, hus, ?_, hto, ?_, Or.inl ?_⟩
  · rw [hpt]
    intro e
    rw [e, show b.pieceBb .NONE = 0 from rfl, has_zero] at hp
    exact Bool.noConfusion hp
  · rw [hpt]; exact hp
  · intro h; exact absurd hpr h
  · rw [hpt]; exact hatt

theorem normalMove_king {b : Board} (hv : b.Valid) {m : Move}
    (hm : m ∈ kingMoves b b.kingSquare b.theirAttacks) : b.NormalMove m := by
  obtain ⟨hf, hflag, ht64, hatt, hto, _⟩ := mem_kingMoves.mp hm
  obtain ⟨hk64, hkspec⟩ := hv.kingSquare_spec
  have hk := (hkspec _).mpr rfl
  rw [← hf] at hk hk64 hatt
  exact normalMove_of_attack hflag (by decide) (by decide) hk64 ht64 hk.1 hk.2 hto hatt

theorem normalMove_knight {b : Board} {m : Move} (hm : m ∈ b.allKnightMoves) :
    b.NormalMove m := by
  obtain ⟨sq, hsq, hm⟩ := List.mem_flatMap.mp hm
  obtain ⟨hsq64, hsq⟩ := mem_bits_iff.mp hsq
  simp only [has_and, Bool.and_eq_true] at hsq
  obtain ⟨hf, hflag, ht64, hatt, hto, _⟩ := mem_knightMoves.mp hm
  subst hf
  exact normalMove_of_attack hflag (by decide) (by decide) hsq64 ht64 hsq.1.1.1 hsq.1.1.2 hto hatt

theorem normalMove_bishop {b : Board} {m : Move} (hm : m ∈ b.allBishopMoves) :
    b.NormalMove m := by
  obtain ⟨sq, hsq, hm⟩ := List.mem_flatMap.mp hm
  obtain ⟨hsq64, hsq⟩ := mem_bits_iff.mp hsq
  simp only [has_and, Bool.and_eq_true] at hsq
  obtain ⟨hf, hflag, ht64, hatt, hto, _⟩ := mem_bishopMoves.mp hm
  subst hf
  exact normalMove_of_attack hflag (by decide) (by decide) hsq64 ht64 hsq.1.1 hsq.1.2 hto hatt

theorem normalMove_rook {b : Board} {m : Move} (hm : m ∈ b.allRookMoves) :
    b.NormalMove m := by
  obtain ⟨sq, hsq, hm⟩ := List.mem_flatMap.mp hm
  obtain ⟨hsq64, hsq⟩ := mem_bits_iff.mp hsq
  simp only [has_and, Bool.and_eq_true] at hsq
  obtain ⟨hf, hflag, ht64, hatt, hto, _⟩ := mem_rookMoves.mp hm
  subst hf
  exact normalMove_of_attack hflag (by decide) (by decide) hsq64 ht64 hsq.1.1 hsq.1.2 hto hatt

theorem normalMove_queen {b : Board} {m : Move} (hm : m ∈ b.allQueenMoves) :
    b.NormalMove m := by
  obtain ⟨sq, hsq, hm⟩ := List.mem_flatMap.mp hm
  obtain ⟨hsq64, hsq⟩ := mem_bits_iff.mp hsq
  simp only [has_and, Bool.and_eq_true] at hsq
  obtain ⟨hf, hflag, ht64, hatt, hto, _⟩ := mem_queenMoves.mp hm
  subst hf
  exact normalMove_of_attack hflag (by decide) (by decide) hsq64 ht64 hsq.1 hsq.2 hto hatt

theorem promotion_of_pawn_flag {m : Move} (h : m.flag = Move.PAWN_FLAG
      ∨ m.flag = Move.PAWN_TWO_UP_FLAG
      ∨ m.flag = Move.QUEEN_PROMOTION_FLAG ∨ m.flag = Move.ROOK_PROMOTION_FLAG
      ∨ m.flag = Move.BISHOP_PROMOTION_FLAG ∨ m.flag = Move.KNIGHT_PROMOTION_FLAG) :
    m.promotion ≠ .KING ∧ m.promotion ≠ .PAWN := by
  unfold Move.promotion
  rcases h with h | h | h | h | h | h <;> rw [h] <;> decide

theorem normalMove_pawn {b : Board} (hv : b.Valid) {u : Bool} {m : Move}
    (hm : m ∈ b.allPawnMoves u) : b.NormalMove m := by
  obtain ⟨sq, hsq, hm⟩ := List.mem_flatMap.mp hm
  obtain ⟨hsq64, hsq⟩ := mem_bits_iff.mp hsq
  simp only [has_and, Bool.and_eq_true] at hsq
  obtain ⟨hus, hpw⟩ := hsq
  obtain ⟨hf, hm⟩ := mem_pawnMoves.mp hm
  subst hf
  have key : ∀ (hflag : m.flag = Move.PAWN_FLAG ∨ m.flag = Move.PAWN_TWO_UP_FLAG
        ∨ m.flag = Move.QUEEN_PROMOTION_FLAG ∨ m.flag = Move.ROOK_PROMOTION_FLAG
        ∨ m.flag = Move.BISHOP_PROMOTION_FLAG ∨ m.flag = Move.KNIGHT_PROMOTION_FLAG)
      (ht : m.toSq < 64) (hto : has b.us m.toSq = false)
      (hatt : has (pawnAttacks m.fromSq b.mColorToMove) m.toSq = true
        ∨ has b.occupancy m.toSq = false), b.NormalMove m := by
    intro hflag ht hto hatt
    obtain ⟨hpt, _, hc, he⟩ := Move.flag_pawn hflag
    refine ⟨hc, he, by rw [hpt]; decide, hsq64, ht, hus, by rw [hpt]; exact hpw, hto,
      fun _ => ⟨hpt, promotion_of_pawn_flag hflag⟩, ?_⟩
    rw [hpt]
    rcases hatt with h | h
    · exact Or.inl h
    · exact Or.inr ⟨rfl, h⟩
  rcases hm with ⟨ht, hcap, hflag⟩ | ⟨_, _, hocc1, hpush⟩
  · obtain ⟨hatt, hthem, _, _⟩ := has_pawnCaptureTargets.mp hcap
    refine key (pawnFlagOK_cases hflag) ht ?_ (Or.inl hatt)
    have := hv.color_disjoint hthem
    rw [oppColor_oppColor] at this
    exact this
  · have hocc1' : has b.occupancy (b.squareOneUp m.fromSq) = false := hocc1
    rcases hpush with ⟨hmov, ht, hflag⟩ | ⟨_, hmov, hocc2, ht, hflag⟩
    · rw [← ht] at hmov hocc1'
      have ht64 : m.toSq < 64 := by
        unfold movable movableBb at hmov
        split at hmov
        · split at hmov
          · rw [has_or] at hmov
            rcases Bool.or_eq_true _ _ ▸ hmov with h | h
            · exact (IsAttacker.lt ((has_checkers b _).mp h).choose_spec).1
            · exact (has_BETWEEN.mp h).2.2.1
          · exact (IsAttacker.lt ((has_checkers b _).mp hmov).choose_spec).1
        · rw [has_ONES] at hmov
          exact of_decide_eq_true hmov
      exact key (pawnFlagOK_cases hflag) ht64 (b.not_us_of_empty hocc1') (Or.inr hocc1')
    · have hocc2' : has b.occupancy (b.squareTwoUp m.fromSq) = false := hocc2
      rw [← ht] at hmov hocc2'
      have ht64 : m.toSq < 64 := by
        unfold movable movableBb at hmov
        split at hmov
        · split at hmov
          · rw [has_or] at hmov
            rcases Bool.or_eq_true _ _ ▸ hmov with h | h
            · exact (IsAttacker.lt ((has_checkers b _).mp h).choose_spec).1
            · exact (has_BETWEEN.mp h).2.2.1
          · exact (IsAttacker.lt ((has_checkers b _).mp hmov).choose_spec).1
        · rw [has_ONES] at hmov
          exact of_decide_eq_true hmov
      exact key (Or.inr (Or.inl hflag)) ht64 (b.not_us_of_empty hocc2') (Or.inr hocc2')

end Board

namespace Board

theorem enPassantMove_of_mem {Z : Zobrist} {b : Board} {m : Move}
    (hm : m ∈ b.enPassantMoves Z) : b.EnPassantMove m := by
  obtain ⟨hep, ht, hflag, hf, hus, hpw, hatt, _⟩ := mem_enPassantMoves.mp hm
  refine ⟨hflag, hf, hus, hpw, ht, hep, ?_⟩
  rw [ht, has_pawnAttacks_symm]
  exact hatt

theorem castlingMove_of_mem {b : Board} (hv : b.Valid) (hc : b.castlingConsistent = true)
    {m : Move}
    (hm : m ∈ castlingMoves b b.kingSquare b.occupancy b.theirAttacks (popcount b.checkers)) :
    ∃ rf rt, b.CastlingMove m rf rt := by
  obtain ⟨_, hf, hflag, hside⟩ := mem_castlingMoves.mp hm
  have hcols : b.mColorToMove = .WHITE ∨ b.mColorToMove = .BLACK := by
    cases b.mColorToMove
    · exact Or.inl rfl
    · exact Or.inr rfl
  have key : ∀ (side k t rf rt : Nat), (side = CASTLE_SHORT ∨ side = CASTLE_LONG) →
      b.mCastlingRights &&& CASTLING_MASKS b.mColorToMove side ≠ 0 →
      kingHome b.mColorToMove = k → CASTLING_MASKS b.mColorToMove side = 1 <<< rf →
      m.toSq = t → has b.occupancy t = false → has b.occupancy rt = false →
      rf = (CASTLING_ROOK_FROM_TO t).1 → rt = (CASTLING_ROOK_FROM_TO t).2 →
      t ≠ rt → t < 64 → rt < 64 → (rf = 0 ∨ rf = 7 ∨ rf = 56 ∨ rf = 63) →
      (t = k + 2 ∨ t + 2 = k) → ∃ rf rt, b.CastlingMove m rf rt := by
    intro side k t rf rt hside hr hk hmask ht ho1 ho2 h1 h2 h3 h4 h5 h6 h7
    obtain ⟨hk', hrook⟩ := castling_held hv hc hside hr
    obtain ⟨s, hs1, hs2⟩ := and_ne_zero_iff.mp hrook
    rw [has_and, Bool.and_eq_true] at hs1
    rw [hmask, has_bit] at hs2
    have hs : rf = s := of_decide_eq_true hs2
    subst hs
    subst ht
    refine ⟨rf, rt, hflag, hf, h1, h2, hs1.1, hs1.2, ho1, ho2, h3, h4, h5, h6, ?_, ?_⟩
    · rw [hf, hk']
    · rw [hf, hk', hk]
      exact h7
  rcases hside with ⟨hr, hocc, _, ht⟩ | ⟨hr, hocc, _, ht⟩
  · obtain ⟨hk, _⟩ := castling_held hv hc (Or.inl rfl) hr
    rw [hk] at hocc ht
    have hocc' := fun s => not_has_of_and_zero (s := s) hocc
    rcases hcols with hcol | hcol <;> rw [hcol] at ht hocc'
    · exact key CASTLE_SHORT 4 6 7 5 (Or.inl rfl) hr (by rw [hcol]; rfl) (by rw [hcol]; rfl) ht
        (hocc' 6 (by decide)) (hocc' 5 (by decide)) rfl rfl (by decide) (by decide) (by decide)
        (by decide) (by decide)
    · exact key CASTLE_SHORT 60 62 63 61 (Or.inl rfl) hr (by rw [hcol]; rfl) (by rw [hcol]; rfl)
        ht (hocc' 62 (by decide)) (hocc' 61 (by decide)) rfl rfl (by decide) (by decide)
        (by decide) (by decide) (by decide)
  · obtain ⟨hk, _⟩ := castling_held hv hc (Or.inr rfl) hr
    rw [hk] at hocc ht
    have hocc' := fun s => not_has_of_and_zero (s := s) hocc
    rcases hcols with hcol | hcol <;> rw [hcol] at ht hocc'
    · exact key CASTLE_LONG 4 2 0 3 (Or.inr rfl) hr (by rw [hcol]; rfl) (by rw [hcol]; rfl) ht
        (hocc' 2 (by decide)) (hocc' 3 (by decide)) rfl rfl (by decide) (by decide) (by decide)
        (by decide) (by decide)
    · exact key CASTLE_LONG 60 58 56 59 (Or.inr rfl) hr (by rw [hcol]; rfl) (by rw [hcol]; rfl)
        ht (hocc' 58 (by decide)) (hocc' 59 (by decide)) rfl rfl (by decide) (by decide)
        (by decide) (by decide) (by decide)

/-- What the moves of `legalMoves` look like, in a valid position whose castling rights agree
with the pieces. -/
theorem legalMoves_shape (Z : Zobrist) {b : Board} (hv : b.Valid)
    (hc : b.castlingConsistent = true) {u : Bool} {m : Move} (hm : m ∈ b.legalMoves Z u) :
    b.NormalMove m ∨ b.EnPassantMove m ∨ ∃ rf rt, b.CastlingMove m rf rt := by
  rw [legalMoves_eq, List.mem_append] at hm
  rcases hm with hm | hm
  · exact Or.inl (normalMove_king hv hm)
  · by_cases hle : popcount b.checkers > 1
    · rw [if_pos hle] at hm
      exact absurd hm (List.not_mem_nil _)
    · rw [if_neg hle] at hm
      unfold nonKingMoves at hm
      simp only [List.mem_append] at hm
      rcases hm with (((((hm | hm) | hm) | hm) | hm) | hm) | hm
      · exact Or.inr (Or.inr (castlingMove_of_mem hv hc hm))
      · exact Or.inr (Or.inl (enPassantMove_of_mem hm))
      · exact Or.inl (normalMove_pawn hv hm)
      · exact Or.inl (normalMove_knight hm)
      · exact Or.inl (normalMove_bishop hm)
      · exact Or.inl (normalMove_rook hm)
      · exact Or.inl (normalMove_queen hm)

end Board

namespace Board

/-- Consistency, read off the squares: `c` is either colour. -/
theorem consistent_of_has {b : Board} (c : Color)
    (hU : ∀ x, has (b.colorBb c) x = true → x < 64)
    (hT : ∀ x, has (b.colorBb (oppColor c)) x = true → x < 64)
    (hd : ∀ x, has (b.colorBb c) x = true → has (b.colorBb (oppColor c)) x = false)
    (hp : ∀ (p q : PieceType) (x : Nat), p ≠ q → has (b.pieceBb p) x = true →
      has (b.pieceBb q) x = false)
    (hu : ∀ x, (∃ p, has (b.pieceBb p) x = true) ↔
      (has (b.colorBb c) x = true ∨ has (b.colorBb (oppColor c)) x = true))
    (hkU : ∃ k, k < 64 ∧ ∀ x, (has (b.colorBb c) x = true ∧ has b.kings x = true) ↔ x = k)
    (hkT : ∃ k, k < 64 ∧
      ∀ x, (has (b.colorBb (oppColor c)) x = true ∧ has b.kings x = true) ↔ x = k) :
    b.isConsistent = true := by
  have hw : ∀ x, has b.white x = true → x < 64 := by
    cases c
    · exact hU
    · exact hT
  have hb : ∀ x, has b.black x = true → x < 64 := by
    cases c
    · exact hT
    · exact hU
  have hdis : b.white &&& b.black = 0 := by
    rw [and_eq_zero_iff]
    intro x hx
    cases c
    · exact hd x hx
    · by_contra hne
      simp only [Bool.not_eq_false] at hne
      have := hd x hne
      have hx' : has (b.colorBb (oppColor .BLACK)) x = true := hx
      rw [hx'] at this
      exact Bool.noConfusion this
  have hun : b.pawns ||| b.knights ||| b.bishops ||| b.rooks ||| b.queens ||| b.kings
      = b.white ||| b.black := by
    apply eq_of_has_eq
    intro x
    have h1 := has_pieces_union b x
    have h2 := hu x
    have h3 : has (b.white ||| b.black) x = true ↔
        (has (b.colorBb c) x = true ∨ has (b.colorBb (oppColor c)) x = true) := by
      rw [has_or, Bool.or_eq_true]
      cases c
      · exact Iff.rfl
      · exact Or.comm
    exact Bool.eq_iff_iff.mpr (h1.trans (h2.trans h3.symm))
  have hkw : popcount (b.white &&& b.kings) = 1 := by
    have : ∃ k, k < 64 ∧ ∀ x, (has b.white x = true ∧ has b.kings x = true) ↔ x = k := by
      cases c
      · exact hkU
      · exact hkT
    obtain ⟨k, hk, hx⟩ := this
    refine (lsb_eq_of_has_iff hk ?_).2
    intro s
    rw [has_and, Bool.and_eq_true]
    exact hx s
  have hkb : popcount (b.black &&& b.kings) = 1 := by
    have : ∃ k, k < 64 ∧ ∀ x, (has b.black x = true ∧ has b.kings x = true) ↔ x = k := by
      cases c
      · exact hkT
      · exact hkU
    obtain ⟨k, hk, hx⟩ := this
    refine (lsb_eq_of_has_iff hk ?_).2
    intro s
    rw [has_and, Bool.and_eq_true]
    exact hx s
  have hpair : ∀ p q : PieceType, p ≠ q → b.pieceBb p &&& b.pieceBb q = 0 := by
    intro p q hpq
    rw [and_eq_zero_iff]
    intro x hx
    exact hp p q x hpq hx
  unfold isConsistent
  simp only [Bool.and_eq_true, decide_eq_true_eq]
  exact ⟨⟨⟨⟨⟨⟨⟨⟨⟨⟨⟨⟨⟨⟨⟨⟨⟨⟨⟨⟨lt_of_forall_has hw, lt_of_forall_has hb⟩, hdis⟩,
    hpair .PAWN .KNIGHT (by decide)⟩, hpair .PAWN .BISHOP (by decide)⟩,
    hpair .PAWN .ROOK (by decide)⟩, hpair .PAWN .QUEEN (by decide)⟩,
    hpair .PAWN .KING (by decide)⟩, hpair .KNIGHT .BISHOP (by decide)⟩,
    hpair .KNIGHT .ROOK (by decide)⟩, hpair .KNIGHT .QUEEN (by decide)⟩,
    hpair .KNIGHT .KING (by decide)⟩, hpair .BISHOP .ROOK (by decide)⟩,
    hpair .BISHOP .QUEEN (by decide)⟩, hpair .BISHOP .KING (by decide)⟩,
    hpair .ROOK .QUEEN (by decide)⟩, hpair .ROOK .KING (by decide)⟩,
    hpair .QUEEN .KING (by decide)⟩, hun⟩, hkw⟩, hkb⟩

/-- A move of `legalMoves` does not land on a king: the side not to move is not in check. -/
theorem NormalMove.not_king {b : Board} (hv : b.Valid) {m : Move} (hn : b.NormalMove m) :
    has b.kings m.toSq = false := by
  obtain ⟨_, _, _, _, _, hus, hpc, hto, _, hatt⟩ := hn
  by_contra hk
  simp only [Bool.not_eq_false] at hk
  rcases hatt with hatt | ⟨_, hocc⟩
  · have hthem : has (b.colorBb (oppColor b.mColorToMove)) m.toSq = true := by
      rcases hv.color_of_piece (p := .KING) b.mColorToMove hk with h | h
      · have h' : has b.us m.toSq = true := h
        rw [hto] at h'
        exact Bool.noConfusion h'
      · exact h
    obtain ⟨k, _, hk1, hk2⟩ := hv.king (oppColor b.mColorToMove)
    have hkt : m.toSq = k := (hk2 _).mp ⟨hthem, hk⟩
    have hno := hv.facts.notInCheck
    unfold them at hno
    rw [hk1, ← hkt] at hno
    have : b.isSquareAttacked m.toSq b.mColorToMove = true :=
      (isSquareAttacked_iff b _ _).mpr ⟨m.fromSq, m.pieceType, hus, hpc, hatt⟩
    rw [this] at hno
    exact Bool.noConfusion hno
  · have := (hv.occupied_iff m.toSq).mpr ⟨.KING, hk⟩
    rw [hocc] at this
    exact Bool.noConfusion this

end Board

namespace Board

theorem Valid.union_iff {b : Board} (hv : b.Valid) (x : Nat) :
    (∃ p, has (b.pieceBb p) x = true) ↔ (has b.us x = true ∨ has b.them x = true) := by
  rw [← hv.occupied_iff, has_occupancy b b.mColorToMove, Bool.or_eq_true]
  rfl

theorem Valid.us_them {b : Board} (hv : b.Valid) {x : Nat} (h : has b.us x = true) :
    has b.them x = false := hv.color_disjoint h

theorem Valid.them_us {b : Board} (hv : b.Valid) {x : Nat} (h : has b.them x = true) :
    has b.us x = false := by
  have := hv.color_disjoint h
  rw [oppColor_oppColor] at this
  exact this

theorem Valid.theirKing {b : Board} (hv : b.Valid) :
    ∃ k, k < 64 ∧ ∀ x, (has b.them x = true ∧ has b.kings x = true) ↔ x = k := by
  obtain ⟨k, hk, _, h⟩ := hv.king (oppColor b.mColorToMove)
  exact ⟨k, hk, h⟩

/-- After a move that is neither castling nor en passant the bitboards are consistent again. -/
theorem consistent_normal (Z : Zobrist) {b : Board} (hv : b.Valid) {m : Move}
    (hn : b.NormalMove m) : (b.makeMove Z m).isConsistent = true := by
  have hnk := hn.not_king hv
  obtain ⟨hc, he, hP, hf64, ht64, hus, hpc, hto, hpromo, _⟩ := hn
  obtain ⟨h1, h2, h3, _⟩ := makeMove_normal Z hv hc he hP hus hpc hto
  have hft : m.fromSq ≠ m.toSq := by
    intro e
    rw [← e, hus] at hto
    exact Bool.noConfusion hto
  have hQ : (if m.promotion ≠ PieceType.NONE then m.promotion else m.pieceType) ≠ .NONE := by
    split
    · assumption
    · exact hP
  have hQK : (if m.promotion ≠ PieceType.NONE then m.promotion else m.pieceType) = .KING
      ↔ m.pieceType = .KING := by
    by_cases hp : m.promotion ≠ .NONE
    · rw [if_pos hp]
      obtain ⟨a1, a2, _⟩ := hpromo hp
      constructor
      · intro e; exact absurd e a2
      · intro e; rw [a1] at e; exact PieceType.noConfusion e
    · rw [if_neg hp]
  obtain ⟨hk64, hkspec⟩ := hv.kingSquare_spec
  obtain ⟨ke, hke64, hkespec⟩ := hv.theirKing
  have hthemf : has b.them m.fromSq = false := hv.us_them hus
  refine consistent_of_has b.mColorToMove ?_ ?_ ?_ ?_ ?_ ?_ ?_
  · intro x hx
    rw [h1] at hx
    by_cases e : x = m.toSq
    · rw [e]; exact ht64
    · simp only [e, decide_False, Bool.false_or, Bool.and_eq_true] at hx
      exact hv.color_lt hx.1
  · intro x hx
    rw [h2, Bool.and_eq_true] at hx
    exact hv.color_lt hx.1
  · intro x hx
    rw [h1] at hx
    rw [h2]
    by_cases e : x = m.toSq
    · simp [e]
    · simp only [e, decide_False, Bool.false_or, Bool.and_eq_true] at hx
      rw [hv.us_them hx.1]
      rfl
  · intro p q x hpq hx
    rw [h3] at hx ⊢
    by_cases e : x = m.toSq
    · rw [if_pos e] at hx ⊢
      have := of_decide_eq_true hx
      rw [decide_eq_false_iff_not, ← this]
      exact fun e' => hpq e'.symm
    · rw [if_neg e] at hx ⊢
      by_cases e' : x = m.fromSq
      · rw [if_pos e'] at hx
        exact Bool.noConfusion hx
      · rw [if_neg e'] at hx ⊢
        by_contra hne
        simp only [Bool.not_eq_false] at hne
        exact hpq (hv.piece_unique hx hne)
  · intro x
    simp only [h1, h2, h3]
    by_cases e : x = m.toSq
    · simp only [e, if_true, decide_True, Bool.true_or, true_or, iff_true]
      exact ⟨_, decide_eq_true rfl⟩
    · by_cases e' : x = m.fromSq
      · rw [e'] at e ⊢
        simp [e, hthemf]
      · simp only [e, e', if_false, decide_False, Bool.false_or, Bool.not_false, Bool.and_true]
        exact hv.union_iff x
  · by_cases hK : m.pieceType = .KING
    · have hfk : m.fromSq = b.kingSquare := by
        rw [hK] at hpc
        exact (hkspec _).mp ⟨hus, hpc⟩
      refine ⟨m.toSq, ht64, ?_⟩
      intro x
      rw [h1, show (b.makeMove Z m).kings = (b.makeMove Z m).pieceBb .KING from rfl, h3]
      by_cases e : x = m.toSq
      · rw [e]
        simp only [if_true, decide_True, Bool.true_or, true_and, decide_eq_true_eq, iff_true]
        exact (hQK.mpr hK).symm
      · by_cases e' : x = m.fromSq
        · rw [e'] at e ⊢
          simp [e]
        · simp only [e, e', decide_False, Bool.false_or, Bool.not_false, Bool.and_true,
            if_false, iff_false, not_and]
          intro hu hk
          exact e' (((hkspec x).mp ⟨hu, hk⟩).trans hfk.symm)
    · have hkf : b.kingSquare ≠ m.fromSq := by
        intro e
        have := ((hkspec b.kingSquare).mpr rfl).2
        rw [e] at this
        exact hK (hv.piece_unique hpc (q := .KING) this)
      have hkt : b.kingSquare ≠ m.toSq := by
        intro e
        have := ((hkspec b.kingSquare).mpr rfl).1
        rw [e, hto] at this
        exact Bool.noConfusion this
      have hQ' : ¬ PieceType.KING
          = (if m.promotion ≠ PieceType.NONE then m.promotion else m.pieceType) :=
        fun e => hK (hQK.mp e.symm)
      refine ⟨b.kingSquare, hk64, ?_⟩
      intro x
      rw [h1, show (b.makeMove Z m).kings = (b.makeMove Z m).pieceBb .KING from rfl, h3]
      by_cases e : x = m.toSq
      · rw [e]
        have : ¬ m.toSq = b.kingSquare := fun e => hkt e.symm
        simp only [if_true, decide_True, Bool.true_or, true_and, decide_eq_true_eq]
        exact ⟨fun h => absurd h hQ', fun h => absurd h this⟩
      · by_cases e' : x = m.fromSq
        · rw [e'] at e ⊢
          have : ¬ m.fromSq = b.kingSquare := fun e => hkf e.symm
          simp [e, this]
        · simp only [e, e', decide_False, Bool.false_or, Bool.not_false, Bool.and_true,
            if_false]
          exact hkspec x
  · have hket : ke ≠ m.toSq := by
      intro e
      have := ((hkespec ke).mpr rfl).2
      rw [e, hnk] at this
      exact Bool.noConfusion this
    have hkef : ke ≠ m.fromSq := by
      intro e
      have := ((hkespec ke).mpr rfl).1
      rw [e, hthemf] at this
      exact Bool.noConfusion this
    refine ⟨ke, hke64, ?_⟩
    intro x
    rw [h2, show (b.makeMove Z m).kings = (b.makeMove Z m).pieceBb .KING from rfl, h3]
    by_cases e : x = m.toSq
    · rw [e]
      have : ¬ m.toSq = ke := fun e => hket e.symm
      simp [this]
    · by_cases e' : x = m.fromSq
      · rw [e'] at e ⊢
        have : ¬ m.fromSq = ke := fun e => hkef e.symm
        simp [e, this]
      · simp only [e, e', decide_False, Bool.not_false, Bool.and_true, if_false]
        exact hkespec x

end Board

namespace Board

/-- The square of the pawn that an en-passant capture takes, when the en-passant square agrees
with the pieces. -/
theorem enPassant_facts {b : Board} (hepc : b.enPassantConsistent = true) {m : Move}
    (hem : b.EnPassantMove m) {cs : Nat}
    (hcs : cs = if b.mColorToMove = .WHITE then subSq m.toSq 8 else addSq m.toSq 8) :
    m.toSq < 64 ∧ cs < 64 ∧ has b.occupancy m.toSq = false ∧ has b.them cs = true
      ∧ has b.pawns cs = true
      ∧ (b.mColorToMove = .WHITE → m.toSq / 8 = 5 ∧ cs + 8 = m.toSq)
      ∧ (b.mColorToMove = .BLACK → m.toSq / 8 = 2 ∧ cs = m.toSq + 8) := by
  obtain ⟨_, _, _, _, ht, hne, _⟩ := hem
  unfold enPassantConsistent at hepc
  simp only [Bool.or_eq_true, decide_eq_true_eq, Bool.and_eq_true, Bool.not_eq_true'] at hepc
  rcases hepc with h | ⟨⟨⟨h1, h2⟩, h3⟩, h4⟩
  · exact absurd h hne
  · rw [← ht] at h1 h2 h3 h4
    unfold squareRank at h2
    have h3' : has b.occupancy m.toSq = false := h3
    rw [has_and, Bool.and_eq_true] at h4
    have hcols : b.mColorToMove = .WHITE ∨ b.mColorToMove = .BLACK := by
      cases b.mColorToMove
      · exact Or.inl rfl
      · exact Or.inr rfl
    rcases hcols with hc | hc
    · simp only [hc, if_true] at h2 h4 hcs
      have e : cs = m.toSq - 8 := by
        rw [hcs]
        unfold subSq
        omega
      rw [← e] at h4
      refine ⟨h1, by omega, h3', h4.1, h4.2, fun _ => ⟨h2, by omega⟩, ?_⟩
      intro h
      rw [hc] at h
      exact Color.noConfusion h
    · have hc' : ¬ Color.BLACK = Color.WHITE := by decide
      simp only [hc, hc', if_false] at h2 h4 hcs
      have e : cs = m.toSq + 8 := by
        rw [hcs]
        unfold addSq
        omega
      rw [← e] at h4
      refine ⟨h1, by omega, h3', h4.1, h4.2, ?_, fun _ => ⟨h2, e⟩⟩
      intro h
      rw [hc] at h
      exact Color.noConfusion h

/-- The bitboards after `makeMove`, for an en-passant capture. -/
theorem makeMove_enPassant (Z : Zobrist) {b : Board} (hv : b.Valid)
    (hepc : b.enPassantConsistent = true) {m : Move} (hem : b.EnPassantMove m) {cs : Nat}
    (hcs : cs = if b.mColorToMove = .WHITE then subSq m.toSq 8 else addSq m.toSq 8) :
    (∀ x, has ((b.makeMove Z m).colorBb b.mColorToMove) x
        = (decide (x = m.toSq) || (has b.us x && !decide (x = m.fromSq))))
    ∧ (∀ x, has ((b.makeMove Z m).colorBb (oppColor b.mColorToMove)) x
        = (has b.them x && !decide (x = cs)))
    ∧ (∀ R x, has ((b.makeMove Z m).pieceBb R) x
        = if x = m.toSq then decide (R = .PAWN)
          else if x = m.fromSq ∨ x = cs then false else has (b.pieceBb R) x) := by
  obtain ⟨_, _, ho, hthem, hpw, _, _⟩ := enPassant_facts hepc hem hcs
  obtain ⟨hflag, _, hus, hp, _, _, _⟩ := hem
  have h := movePieces_enPassant Z (valid_pushed (b.mZobristHashes ++ [b.mZobristHash]) hv)
    hflag hcs hus hp ho hthem hpw
  refine ⟨?_, ?_, ?_⟩
  · intro x
    rw [colorBb_makeMove]
    exact h.1 x
  · intro x
    rw [colorBb_makeMove]
    exact h.2.1 x
  · intro R x
    rw [pieceBb_makeMove]
    exact h.2.2.1 R x

/-- After an en-passant capture the bitboards are consistent again. -/
theorem consistent_enPassant (Z : Zobrist) {b : Board} (hv : b.Valid)
    (hepc : b.enPassantConsistent = true) {m : Move} (hem : b.EnPassantMove m) :
    (b.makeMove Z m).isConsistent = true := by
  obtain ⟨ht64, hcs64, ho, hthem, hpw, _, _⟩ := enPassant_facts hepc hem rfl
  obtain ⟨h1, h2, h3⟩ := makeMove_enPassant Z hv hepc hem rfl
  obtain ⟨_, hf64, hus, hp, _, _, _⟩ := hem
  generalize (if b.mColorToMove = Color.WHITE then subSq m.toSq 8 else addSq m.toSq 8) = cs
    at hcs64 hthem hpw h2 h3
  have hust : has b.us m.toSq = false := b.not_us_of_empty ho
  have hthemt : has b.them m.toSq = false := by
    cases h : has b.them m.toSq
    · rfl
    · rw [b.has_them_occupancy h] at ho
      exact Bool.noConfusion ho
  have hft : m.fromSq ≠ m.toSq := by
    intro e
    rw [← e, hus] at hust
    exact Bool.noConfusion hust
  have hct : cs ≠ m.toSq := by
    intro e
    rw [← e, hthem] at hthemt
    exact Bool.noConfusion hthemt
  have hthemf : has b.them m.fromSq = false := hv.us_them hus
  have husc : has b.us cs = false := hv.them_us hthem
  have hkt : has b.kings m.toSq = false := by
    cases h : has b.kings m.toSq
    · rfl
    · rw [(hv.occupied_iff m.toSq).mpr ⟨.KING, h⟩] at ho
      exact Bool.noConfusion ho
  have hkf : has b.kings m.fromSq = false := by
    cases h : has b.kings m.fromSq
    · rfl
    · exact PieceType.noConfusion (hv.piece_unique (p := .PAWN) (q := .KING) hp h)
  have hkc : has b.kings cs = false := by
    cases h : has b.kings cs
    · rfl
    · exact PieceType.noConfusion (hv.piece_unique (p := .PAWN) (q := .KING) hpw h)
  obtain ⟨hk64, hkspec⟩ := hv.kingSquare_spec
  obtain ⟨ke, hke64, hkespec⟩ := hv.theirKing
  have kingfix : ∀ (x : Nat),
      (if x = m.toSq then decide (PieceType.KING = PieceType.PAWN)
        else if x = m.fromSq ∨ x = cs then false else has (b.pieceBb .KING) x) = has b.kings x := by
    intro x
    by_cases e : x = m.toSq
    · rw [if_pos e, e, hkt]
      rfl
    · rw [if_neg e]
      by_cases e' : x = m.fromSq ∨ x = cs
      · rw [if_pos e']
        rcases e' with e' | e'
        · rw [e', hkf]
        · rw [e', hkc]
      · rw [if_neg e']
        rfl
  refine consistent_of_has b.mColorToMove ?_ ?_ ?_ ?_ ?_ ?_ ?_
  · intro x hx
    rw [h1] at hx
    by_cases e : x = m.toSq
    · rw [e]; exact ht64
    · simp only [e, decide_False, Bool.false_or, Bool.and_eq_true] at hx
      exact hv.color_lt hx.1
  · intro x hx
    rw [h2, Bool.and_eq_true] at hx
    exact hv.color_lt hx.1
  · intro x hx
    rw [h1] at hx
    rw [h2]
    by_cases e : x = m.toSq
    · rw [e, hthemt]
      rfl
    · simp only [e, decide_False, Bool.false_or, Bool.and_eq_true] at hx
      rw [hv.us_them hx.1]
      rfl
  · intro p q x hpq hx
    rw [h3] at hx ⊢
    by_cases e : x = m.toSq
    · rw [if_pos e] at hx ⊢
      have := of_decide_eq_true hx
      rw [decide_eq_false_iff_not, ← this]
      exact fun e' => hpq e'.symm
    · rw [if_neg e] at hx ⊢
      by_cases e' : x = m.fromSq ∨ x = cs
      · rw [if_pos e'] at hx
        exact Bool.noConfusion hx
      · rw [if_neg e'] at hx ⊢
        by_contra hne
        simp only [Bool.not_eq_false] at hne
        exact hpq (hv.piece_unique hx hne)
  · intro x
    simp only [h1, h2, h3]
    by_cases e : x = m.toSq
    · simp only [e, if_true, decide_True, Bool.true_or, true_or, iff_true]
      exact ⟨_, decide_eq_true rfl⟩
    · by_cases e' : x = m.fromSq
      · rw [e'] at e ⊢
        simp [e, hthemf]
      · by_cases e'' : x = cs
        · rw [e''] at e e' ⊢
          simp [e, e', husc]
        · simp only [e, e', e'', or_self, if_false, decide_False, Bool.false_or, Bool.not_false,
            Bool.and_true]
          exact hv.union_iff x
  · refine ⟨b.kingSquare, hk64, ?_⟩
    intro x
    rw [h1, show (b.makeMove Z m).kings = (b.makeMove Z m).pieceBb .KING from rfl, h3, kingfix]
    by_cases e : x = m.toSq
    · rw [e, hkt]
      simp only [Bool.false_eq_true, and_false, false_iff]
      intro e2
      have := ((hkspec _).mpr e2).2
      rw [hkt] at this
      exact Bool.noConfusion this
    · by_cases e' : x = m.fromSq
      · rw [e', hkf]
        simp only [Bool.false_eq_true, and_false, false_iff]
        intro e2
        have := ((hkspec _).mpr e2).2
        rw [hkf] at this
        exact Bool.noConfusion this
      · simp only [e, e', decide_False, Bool.false_or, Bool.not_false, Bool.and_true]
        exact hkspec x
  · refine ⟨ke, hke64, ?_⟩
    intro x
    rw [h2, show (b.makeMove Z m).kings = (b.makeMove Z m).pieceBb .KING from rfl, h3, kingfix]
    by_cases e : x = cs
    · rw [e, hkc]
      simp only [Bool.false_eq_true, and_false, false_iff]
      intro e2
      have := ((hkespec _).mpr e2).2
      rw [hkc] at this
      exact Bool.noConfusion this
    · simp only [e, decide_False, Bool.not_false, Bool.and_true]
      exact hkespec x

end Board

namespace Board

/-- After castling, with king and rook in place, the bitboards are consistent again. -/
theorem consistent_castling (Z : Zobrist) {b : Board} (hv : b.Valid) {m : Move} {rf rt : Nat}
    (hcm : b.CastlingMove m rf rt) : (b.makeMove Z m).isConsistent = true := by
  obtain ⟨hflag, hf, hrf, hrt, hrook, hrookP, hto, hrto, htr, ht64, hrt64, _, _, _⟩ := hcm
  obtain ⟨hk64, hkspec⟩ := hv.kingSquare_spec
  obtain ⟨ke, hke64, hkespec⟩ := hv.theirKing
  have hkus : has b.us m.fromSq = true := by rw [hf]; exact ((hkspec _).mpr rfl).1
  have hkk : has b.kings m.fromSq = true := by rw [hf]; exact ((hkspec _).mpr rfl).2
  obtain ⟨h1, h2, h3, _⟩ :=
    makeMove_castling Z hv hflag hrf hrt hkus hkk hrook hrookP hto hrto htr
  have hnot : ∀ y, has b.occupancy y = false →
      has b.us y = false ∧ has b.them y = false ∧ ∀ R, has (b.pieceBb R) y = false := by
    intro y hy
    refine ⟨b.not_us_of_empty hy, ?_, ?_⟩
    · cases h : has b.them y
      · rfl
      · rw [b.has_them_occupancy h] at hy
        exact Bool.noConfusion hy
    · intro R
      cases h : has (b.pieceBb R) y
      · rfl
      · rw [(hv.occupied_iff y).mpr ⟨R, h⟩] at hy
        exact Bool.noConfusion hy
  obtain ⟨hust, hthemt, hpt⟩ := hnot _ hto
  obtain ⟨husr, hthemr, hpr⟩ := hnot _ hrto
  have hthemf : has b.them m.fromSq = false := hv.us_them hkus
  have hthemrf : has b.them rf = false := hv.us_them hrook
  have hkrf : has b.kings rf = false := by
    cases h : has b.kings rf
    · rfl
    · exact PieceType.noConfusion (hv.piece_unique (p := .ROOK) (q := .KING) hrookP h)
  refine consistent_of_has b.mColorToMove ?_ ?_ ?_ ?_ ?_ ?_ ?_
  · intro x hx
    rw [h1] at hx
    by_cases e : x = m.toSq
    · rw [e]; exact ht64
    · by_cases e' : x = rt
      · rw [e']; exact hrt64
      · simp only [e, e', decide_False, Bool.false_or, Bool.and_eq_true] at hx
        exact hv.color_lt hx.1.1
  · intro x hx
    rw [h2] at hx
    exact hv.color_lt hx
  · intro x hx
    rw [h1] at hx
    rw [h2]
    by_cases e : x = m.toSq
    · rw [e]; exact hthemt
    · by_cases e' : x = rt
      · rw [e']; exact hthemr
      · simp only [e, e', decide_False, Bool.false_or, Bool.and_eq_true] at hx
        exact hv.us_them hx.1.1
  · intro p q x hpq hx
    rw [h3] at hx ⊢
    by_cases e : x = m.toSq
    · rw [if_pos e] at hx ⊢
      have := of_decide_eq_true hx
      rw [decide_eq_false_iff_not, ← this]
      exact fun e' => hpq e'.symm
    · rw [if_neg e] at hx ⊢
      by_cases e1 : x = rt
      · rw [if_pos e1] at hx ⊢
        have := of_decide_eq_true hx
        rw [decide_eq_false_iff_not, ← this]
        exact fun e' => hpq e'.symm
      · rw [if_neg e1] at hx ⊢
        by_cases e' : x = m.fromSq ∨ x = rf
        · rw [if_pos e'] at hx
          exact Bool.noConfusion hx
        · rw [if_neg e'] at hx ⊢
          by_contra hne
          simp only [Bool.not_eq_false] at hne
          exact hpq (hv.piece_unique hx hne)
  · intro x
    simp only [h1, h2, h3]
    by_cases e : x = m.toSq
    · simp only [e, if_true, decide_True, Bool.true_or, true_or, iff_true]
      exact ⟨_, decide_eq_true rfl⟩
    · by_cases e1 : x = rt
      · rw [e1] at e ⊢
        simp only [e, if_true, if_false, decide_True, Bool.true_or, Bool.or_true, true_or,
          iff_true]
        exact ⟨.ROOK, decide_eq_true rfl⟩
      · by_cases e' : x = m.fromSq
        · rw [e'] at e e1 ⊢
          simp [e, e1, hthemf]
        · by_cases e'' : x = rf
          · rw [e''] at e e1 e' ⊢
            simp [e, e1, e', hthemrf]
          · simp only [e, e1, e', e'', or_self, if_false, decide_False, Bool.false_or,
              Bool.not_false, Bool.and_true]
            exact hv.union_iff x
  · refine ⟨m.toSq, ht64, ?_⟩
    intro x
    rw [h1, show (b.makeMove Z m).kings = (b.makeMove Z m).pieceBb .KING from rfl, h3]
    by_cases e : x = m.toSq
    · rw [e]
      simp
    · by_cases e1 : x = rt
      · rw [e1] at e ⊢
        simp [e]
      · by_cases e' : x = m.fromSq
        · rw [e'] at e e1 ⊢
          simp [e, e1]
        · by_cases e'' : x = rf
          · rw [e''] at e e1 e' ⊢
            simp [e, e1, e']
          · simp only [e, e1, e', e'', decide_False, Bool.false_or, Bool.not_false,
              Bool.and_true, if_false, iff_false, not_and, or_self]
            intro hu hk
            exact e' (((hkspec x).mp ⟨hu, hk⟩).trans hf.symm)
  · refine ⟨ke, hke64, ?_⟩
    intro x
    rw [h2, show (b.makeMove Z m).kings = (b.makeMove Z m).pieceBb .KING from rfl, h3]
    by_cases e : x = m.toSq
    · rw [e, hthemt]
      simp only [Bool.false_eq_true, false_and, false_iff]
      intro e2
      have := ((hkespec _).mpr e2).1
      rw [hthemt] at this
      exact Bool.noConfusion this
    · by_cases e1 : x = rt
      · rw [e1, hthemr]
        simp only [Bool.false_eq_true, false_and, false_iff]
        intro e2
        have := ((hkespec _).mpr e2).1
        rw [hthemr] at this
        exact Bool.noConfusion this
      · by_cases e' : x = m.fromSq
        · rw [e', hthemf]
          simp only [Bool.false_eq_true, false_and, false_iff]
          intro e2
          have := ((hkespec _).mpr e2).1
          rw [hthemf] at this
          exact Bool.noConfusion this
        · by_cases e'' : x = rf
          · rw [e'', hthemrf]
            simp only [Bool.false_eq_true, false_and, false_iff]
            intro e2
            have := ((hkespec _).mpr e2).1
            rw [hthemrf] at this
            exact Bool.noConfusion this
          · simp only [e, e1, e', e'', or_self, if_false]
            exact hkespec x

/-- After a move of `legalMoves` the bitboards are consistent again, in a valid position whose
castling rights and en-passant square agree with the pieces. -/
theorem consistent_makeMove (Z : Zobrist) {b : Board} (hv : b.Valid)
    (hc : b.castlingConsistent = true) (hepc : b.enPassantConsistent = true) {u : Bool}
    {m : Move} (hm : m ∈ b.legalMoves Z u) : (b.makeMove Z m).isConsistent = true := by
  rcases legalMoves_shape Z hv hc hm with h | h | ⟨rf, rt, h⟩
  · exact consistent_normal Z hv h
  · exact consistent_enPassant Z hv hepc h
  · exact consistent_castling Z hv h

end Board

namespace Board

/-- A valid position stays valid under the moves of `legalMoves`, when its castling rights and
en-passant square agree with the pieces. -/
theorem valid_makeMove (Z : Zobrist) {b : Board} (hv : b.Valid)
    (hc : b.castlingConsistent = true) (hepc : b.enPassantConsistent = true) {u : Bool}
    {m : Move} (hm : m ∈ b.legalMoves Z u) : (b.makeMove Z m).Valid := by
  unfold Valid isValid
  rw [consistent_makeMove Z hv hc hepc hm]
  have := sound_legalMoves Z hv hc hm
  unfold them
  rw [mColorToMove_makeMove, oppColor_oppColor, this]
  rfl

end Board
section Environment

variable {V : Type} [LinearOrderedField V]

/-- `EVAL_SCALE` of the sample environment is not zero. -/
theorem SearchEnv.sample_scale : SearchEnv.sample.EVAL_SCALE ≠ 0 := by
  show (200 : ℚ) ≠ 0
  norm_num

/-- Rounding to `float` keeps a sum bounded by the number of its terms and by `2^24`: a sum of
`k` values that is bounded by `k` and by `2^24` stays so when a value between -1 and 1 is
added to it and the result is stored in a `float`. -/
theorem SearchEnv.toFloat_bound (env : SearchEnv V) {s w : V} {k : Nat}
    (hs : |s| ≤ ((min k (2 ^ 24) : Nat) : V)) (hw : |w| ≤ 1) :
    |env.toFloat (s + w)| ≤ ((min (k + 1) (2 ^ 24) : Nat) : V) := by
  have h1 : |s + w| ≤ ((min k (2 ^ 24) : Nat) : V) + 1 :=
    (abs_add _ _).trans (add_le_add hs hw)
  obtain ⟨hlo, hhi⟩ := abs_le.mp h1
  by_cases hk : k < 2 ^ 24
  · have e1 : min k (2 ^ 24) = k := min_eq_left (le_of_lt hk)
    have e2 : min (k + 1) (2 ^ 24) = k + 1 := min_eq_left hk
    rw [e1] at hlo hhi
    rw [e2]
    have hint : env.toFloat (((k + 1 : Nat) : Int) : V) = (((k + 1 : Nat) : Int) : V) :=
      env.toFloat_int _ (by
        rw [abs_of_nonneg (by positivity)]
        exact_mod_cast hk)
    have hneg : env.toFloat ((-((k + 1 : Nat) : Int) : Int) : V)
        = ((-((k + 1 : Nat) : Int) : Int) : V) :=
      env.toFloat_int _ (by
        rw [abs_neg, abs_of_nonneg (by positivity)]
        exact_mod_cast hk)
    push_cast at hint hneg ⊢
    rw [abs_le]
    constructor
    · rw [← hneg]
      exact env.toFloat_mono _ _ hlo
    · rw [← hint]
      exact env.toFloat_mono _ _ hhi
  · have e1 : min k (2 ^ 24) = 2 ^ 24 := min_eq_right (by omega)
    have e2 : min (k + 1) (2 ^ 24) = 2 ^ 24 := min_eq_right (by omega)
    have c : ((2 ^ 24 : Nat) : V) = 2 ^ 24 := by norm_cast
    rw [e1, c] at hlo hhi
    rw [e2, c, abs_le]
    constructor
    · rw [← env.toFloat_below]
      exact env.toFloat_mono _ _ (by linarith)
    · rw [← env.toFloat_above]
      exact env.toFloat_mono _ _ hhi

/-- A sum of `n` values -1 in a `float`: it stops at `-2^24`. -/
theorem SearchEnv.toFloat_pred (env : SearchEnv V) (n : Nat) :
    env.toFloat (-((min n (2 ^ 24) : Nat) : V) + -1) = -((min (n + 1) (2 ^ 24) : Nat) : V) := by
  by_cases hk : n < 2 ^ 24
  · rw [min_eq_left (le_of_lt hk), min_eq_left (show n + 1 ≤ 2 ^ 24 from hk)]
    have h := env.toFloat_int (-((n + 1 : Nat) : Int)) (by
      rw [abs_neg, abs_of_nonneg (by positivity)]
      exact_mod_cast hk)
    push_cast at h ⊢
    rw [← h]
    congr 1
    ring
  · rw [min_eq_right (by omega), min_eq_right (by omega)]
    have c : ((2 ^ 24 : Nat) : V) = 2 ^ 24 := by norm_cast
    have e : (-(2 ^ 24 : V) + -1) = -(2 ^ 24 + 1) := by ring
    rw [c, e]
    exact env.toFloat_below

end Environment


namespace Board

/-- The call `legalMoves` leaves the board as it found it. -/
theorem legalMovesAux_snd (Z : Zobrist) (b : Board) (u : Bool) : (b.legalMovesAux Z u).2 = b := by
  unfold legalMovesAux
  simp only
  split
  · rfl
  · split
    · rw [foldl_enPassantStep]
    · rfl

theorem legalMovesAux_fst (Z : Zobrist) (b : Board) (u : Bool) :
    (b.legalMovesAux Z u).1 = b.legalMoves Z u := rfl

end Board

namespace Node

variable {V : Type} [LinearOrderedField V]

/-- The state that the constructor gives a node that is not the root. -/
theorem new_not_root (env : SearchEnv V) (board : Board) (depth rng : Nat) :
    new env board false depth rng
      = some (⟨[],
          (env.shuffleVector rng (if (board.insufficientMaterial || board.isRepetition) = true
            then [] else board.legalMoves env.Z false)).1,
          (if (board.insufficientMaterial || board.isRepetition) = true then .DRAW
           else if board.legalMoves env.Z false = [] then
             (if board.inCheck = true then .LOST else .DRAW)
           else if board.fiftyMovesDraw = true then .DRAW else .ONGOING),
          0, 0, depth⟩, board,
          (env.shuffleVector rng (if (board.insufficientMaterial || board.isRepetition) = true
            then [] else board.legalMoves env.Z false)).2) := by
  unfold new
  simp only [Bool.false_eq_true, if_false, Board.legalMovesAux_snd, Board.legalMovesAux_fst,
    List.length_eq_zero]
  split <;> rfl

/-- The root node that the constructor builds. -/
theorem new_root (env : SearchEnv V) (board : Board) (depth rng : Nat) :
    new env board true depth rng
      = if board.legalMoves env.Z false = [] then none
        else some (⟨[], (env.shuffleVector rng (board.legalMoves env.Z false)).1, .ONGOING,
          0, 0, depth⟩, board, (env.shuffleVector rng (board.legalMoves env.Z false)).2) := by
  unfold new
  simp only [if_true, Board.legalMovesAux_snd, Board.legalMovesAux_fst, List.length_pos]
  split
  · rfl
  · rw [if_pos (not_not.mp ‹_›)]

theorem shuffle_eq_nil (env : SearchEnv V) (rng : Nat) (ms : List Move) :
    (env.shuffleVector rng ms).1 = [] ↔ ms = [] := by
  constructor
  · intro h
    have := env.shuffle_perm rng ms
    rw [h] at this
    exact List.Perm.nil_eq this |>.symm
  · intro h
    subst h
    exact List.Perm.eq_nil (env.shuffle_perm rng [])

/-- What is known of a fresh node that is not the root. -/
theorem new_facts {env : SearchEnv V} {board : Board} {depth rng : Nat} {c : Node V}
    {board1 : Board} {rng1 : Nat} (h : new env board false depth rng = some (c, board1, rng1)) :
    c.mChildren = [] ∧ c.mVisits = 0 ∧ c.mResultsSum = 0 ∧ c.mDepth = depth
    ∧ c.mGameState ≠ .WON ∧ (c.mGameState = .ONGOING → c.mMoves ≠ []) ∧ board1 = board := by
  rw [new_not_root] at h
  simp only [Option.some.injEq, Prod.mk.injEq] at h
  obtain ⟨h1, h2, _⟩ := h
  subst h1
  refine ⟨rfl, rfl, rfl, rfl, ?_, ?_, h2.symm⟩
  · simp only
    split
    · decide
    · split
      · split <;> decide
      · split <;> decide
  · simp only
    split
    · intro h; exact absurd h (by decide)
    · split
      · split <;> intro h <;> exact absurd h (by decide)
      · rename_i h2
        intro _
        rw [Ne, shuffle_eq_nil]
        exact h2

end Node

namespace Node

section Paths

variable {V : Type}

theorem get?_nil (n : Node V) : n.get? [] = some n := by
  unfold get?
  rfl

theorem get?_cons (n : Node V) (i : Nat) (p : List Nat) :
    n.get? (i :: p) = (n.mChildren.get? i).bind (fun c => c.get? p) := by
  rw [get?]
  cases n.mChildren.get? i <;> rfl

theorem get?_cons_of {n c : Node V} {i : Nat} (h : n.mChildren.get? i = some c) (p : List Nat) :
    n.get? (i :: p) = c.get? p := by
  rw [get?_cons, h]
  rfl

theorem All.here {P : Node V → Prop} {n : Node V} (h : All P n) : P n :=
  h [] n (get?_nil n)

theorem All.child {P : Node V → Prop} {n c : Node V} {i : Nat} (h : All P n)
    (hc : n.mChildren.get? i = some c) : All P c := by
  intro p m hm
  exact h (i :: p) m (by rw [get?_cons_of hc]; exact hm)

theorem All.of_children {P : Node V → Prop} {n : Node V} (h0 : P n)
    (h : ∀ i c, n.mChildren.get? i = some c → All P c) : All P n := by
  intro p m hm
  cases p with
  | nil =>
    rw [get?_nil] at hm
    cases hm
    exact h0
  | cons i p =>
    rw [get?_cons] at hm
    cases hc : n.mChildren.get? i with
    | none => rw [hc] at hm; cases hm
    | some c =>
      rw [hc] at hm
      exact h i c hc p m hm

end Paths

variable {V : Type} [LinearOrderedField V]

/-- The loop of `select` returns the index it started with or an index of the children that it
ran over. -/
theorem selectLoop_range (env : SearchEnv V) (pv : Nat) : ∀ (cs : List (Node V)) (i : Nat)
    (bestUct : V) (best r : Nat), selectLoop env pv cs i bestUct best = some r →
    r = best ∨ (i ≤ r ∧ r < i + cs.length)
  | [], _, _, _, _, h => by
    unfold selectLoop at h
    exact Or.inl (Option.some.inj h).symm
  | c :: cs, i, bestUct, best, r, h => by
    unfold selectLoop at h
    cases hu : c.UCT env pv with
    | none => rw [hu] at h; cases h
    | some u =>
      rw [hu] at h
      simp only at h
      rw [List.length_cons]
      split at h
      · rcases selectLoop_range env pv cs (i + 1) u i r h with h1 | h1
        · exact Or.inr ⟨by omega, by omega⟩
        · exact Or.inr ⟨by omega, by omega⟩
      · rcases selectLoop_range env pv cs (i + 1) bestUct best r h with h1 | h1
        · exact Or.inl h1
        · exact Or.inr ⟨by omega, by omega⟩

/-- The loop of `select` meets no failing assert when the children and their parent have been
visited. -/
theorem selectLoop_isSome (env : SearchEnv V) (pv : Nat) (hpv : 0 < pv) :
    ∀ (cs : List (Node V)) (i : Nat) (bestUct : V) (best : Nat),
    (∀ c ∈ cs, 0 < c.mVisits) → ∃ r, selectLoop env pv cs i bestUct best = some r
  | [], _, _, best, _ => ⟨best, by unfold selectLoop; rfl⟩
  | c :: cs, i, bestUct, best, h => by
    unfold selectLoop
    have hc : 0 < c.mVisits := h c (List.mem_cons_self _ _)
    have hcs : ∀ x ∈ cs, 0 < x.mVisits := fun x hx => h x (List.mem_cons_of_mem _ hx)
    unfold UCT
    rw [if_pos ⟨hc, hpv⟩]
    simp only
    split
    · exact selectLoop_isSome env pv hpv cs _ _ _ hcs
    · exact selectLoop_isSome env pv hpv cs _ _ _ hcs

theorem bestChildIdx_lt {env : SearchEnv V} {n : Node V} {i : Nat}
    (h : bestChildIdx env n = some i) : i < n.mChildren.length := by
  unfold bestChildIdx at h
  split at h
  · rename_i hpos
    cases hcs : n.mChildren with
    | nil => rw [hcs] at hpos; exact absurd hpos.2 (by simp)
    | cons c0 cs =>
      rw [hcs] at h
      simp only at h
      cases hu : c0.UCT env n.mVisits with
      | none => rw [hu] at h; cases h
      | some u =>
        rw [hu] at h
        simp only at h
        rw [List.length_cons]
        rcases selectLoop_range env _ _ _ _ _ _ h with h1 | h1
        · omega
        · omega
  · cases h

theorem bestChildIdx_isSome (env : SearchEnv V) {n : Node V} (hm : n.mMoves ≠ [])
    (hc : n.mChildren ≠ []) (hv : ∀ c ∈ n.mChildren, 1 ≤ c.mVisits ∧ c.mVisits ≤ n.mVisits) :
    ∃ i, bestChildIdx env n = some i := by
  unfold bestChildIdx
  rw [if_pos ⟨List.length_pos.mpr hm, List.length_pos.mpr hc⟩]
  cases hcs : n.mChildren with
  | nil => exact absurd hcs hc
  | cons c0 cs =>
    simp only
    rw [hcs] at hv
    have h0 := hv c0 (List.mem_cons_self _ _)
    unfold UCT
    rw [if_pos ⟨by omega, by omega⟩]
    simp only
    exact selectLoop_isSome env _ (by omega) cs _ _ _
      (fun c hc => (hv c (List.mem_cons_of_mem _ hc)).1)

mutual
/-- What `select` returns is the end of a descent. -/
theorem select_selected (env : SearchEnv V) : ∀ (n : Node V) (board : Board) (p : List Nat)
    (board1 : Board), select env n board = some (p, board1) →
    ∃ leaf, Selected env board n p leaf board1
  | ⟨cs, ms, st, v, rs, d⟩, board, p, board1, h => by
    unfold select at h
    split at h
    · rename_i hstop
      simp only [Option.some.injEq, Prod.mk.injEq] at h
      obtain ⟨h1, h2⟩ := h
      subst h1; subst h2
      exact ⟨_, Selected.stop board _ hstop⟩
    · rename_i hgo
      rw [not_or, not_not, not_not] at hgo
      cases hb : bestChildIdx env ⟨cs, ms, st, v, rs, d⟩ with
      | none => rw [hb] at h; cases h
      | some best =>
        rw [hb] at h
        simp only at h
        cases hmv : ms.get? best with
        | none => rw [hmv] at h; cases h
        | some move =>
          rw [hmv] at h
          simp only at h
          cases hs : selectChild env cs best (board.makeMove env.Z move) with
          | none => rw [hs] at h; cases h
          | some r =>
            rw [hs] at h
            simp only [Option.some.injEq, Prod.mk.injEq] at h
            obtain ⟨h1, h2⟩ := h
            subst h1; subst h2
            obtain ⟨c, hc, leaf, hsel⟩ :=
              selectChild_selected env cs best (board.makeMove env.Z move) r.1 r.2 hs
            exact ⟨leaf, Selected.step board _ best move c r.1 leaf r.2 hgo.1 hgo.2 hb hmv hc hsel⟩
theorem selectChild_selected (env : SearchEnv V) : ∀ (cs : List (Node V)) (i : Nat)
    (board : Board) (p : List Nat) (board1 : Board),
    selectChild env cs i board = some (p, board1) →
    ∃ c, cs.get? i = some c ∧ ∃ leaf, Selected env board c p leaf board1
  | [], _, _, _, _, h => by
    unfold selectChild at h
    cases h
  | c :: _, 0, board, p, board1, h => by
    unfold selectChild at h
    exact ⟨c, rfl, select_selected env c board p board1 h⟩
  | _ :: cs, i + 1, board, p, board1, h => by
    unfold selectChild at h
    obtain ⟨c, hc, hl⟩ := selectChild_selected env cs i board p board1 h
    exact ⟨c, by simpa using hc, hl⟩
end

mutual
/-- On a tree that satisfies the invariant `select` meets no failing assert. -/
theorem select_isSome (env : SearchEnv V) : ∀ (n : Node V) (board : Board), Sound n →
    ∃ r, select env n board = some r
  | ⟨cs, ms, st, v, rs, d⟩, board, h => by
    unfold select
    split
    · exact ⟨_, rfl⟩
    · rename_i hgo
      rw [not_or, not_not, not_not] at hgo
      obtain ⟨_, hmoves, _, hvis⟩ := All.here h
      have hms : ms ≠ [] := hmoves hgo.1
      have hlen : cs.length = ms.length := hgo.2
      have hcs : cs ≠ [] := by
        intro e
        rw [e] at hlen
        exact hms (List.length_eq_zero.mp hlen.symm)
      obtain ⟨best, hb⟩ := bestChildIdx_isSome env (n := ⟨cs, ms, st, v, rs, d⟩) hms hcs hvis
      have hlt : best < cs.length := bestChildIdx_lt hb
      rw [hb]
      simp only
      have hmv : ms.get? best = some (ms.get ⟨best, by omega⟩) := List.get?_eq_get _
      rw [hmv]
      simp only
      obtain ⟨r, hr⟩ := selectChild_isSome env cs best (board.makeMove env.Z _)
        (fun j c hc => All.child h hc) hlt
      rw [hr]
      exact ⟨_, rfl⟩
theorem selectChild_isSome (env : SearchEnv V) : ∀ (cs : List (Node V)) (i : Nat)
    (board : Board), (∀ j c, cs.get? j = some c → Sound c) → i < cs.length →
    ∃ r, selectChild env cs i board = some r
  | [], _, _, _, hi => absurd hi (by simp)
  | c :: _, 0, board, h, _ => by
    unfold selectChild
    exact select_isSome env c board (h 0 c rfl)
  | _ :: cs, i + 1, board, h, hi => by
    unfold selectChild
    exact selectChild_isSome env cs i board (fun j c hc => h (j + 1) c (by simpa using hc))
      (by simpa using hi)
end

end Node

namespace Node

section Paths

variable {V : Type}

theorem set?_isSome {m : Node V} (new : Node V) : ∀ (p : List Nat) (n : Node V),
    n.get? p = some m → ∃ n1, n.set? p new = some n1
  | [], n, _ => ⟨new, by unfold set?; rfl⟩
  | i :: p, n, h => by
    rw [get?_cons] at h
    cases hc : n.mChildren.get? i with
    | none => rw [hc] at h; cases h
    | some c =>
      rw [hc] at h
      obtain ⟨c1, hc1⟩ := set?_isSome new p c h
      refine ⟨{ n with mChildren := n.mChildren.set i c1 }, ?_⟩
      rw [set?, hc]
      simp only
      rw [hc1]

/-- After a write through a path, the paths that extend it lead into the node written. -/
theorem get?_set?_append {leaf1 : Node V} (q : List Nat) : ∀ (p : List Nat) (n n1 : Node V),
    n.set? p leaf1 = some n1 → n1.get? (p ++ q) = leaf1.get? q
  | [], n, n1, h => by
    unfold set? at h
    cases h
    rfl
  | i :: p, n, n1, h => by
    rw [set?] at h
    cases hc : n.mChildren.get? i with
    | none => rw [hc] at h; cases h
    | some c =>
      rw [hc] at h
      simp only at h
      cases hc1 : c.set? p leaf1 with
      | none => rw [hc1] at h; cases h
      | some c1 =>
        rw [hc1] at h
        cases h
        have hi : i < n.mChildren.length := by
          rw [List.get?_eq_some] at hc
          exact hc.1
        rw [List.cons_append, get?_cons]
        simp only
        rw [List.get?_eq_getElem?, List.getElem?_set_self hi]
        exact get?_set?_append q p c c1 hc1

end Paths

variable {V : Type} [LinearOrderedField V]

theorem backpropLoop_isSome (env : SearchEnv V) {m : Node V} (wdl : V) :
    ∀ (p : List Nat) (n : Node V),
    n.get? p = some m → ∃ r, backpropLoop env n p wdl = some r
  | [], n, _ => ⟨_, by unfold backpropLoop; rfl⟩
  | i :: p, n, h => by
    rw [get?_cons] at h
    cases hc : n.mChildren.get? i with
    | none => rw [hc] at h; cases h
    | some c =>
      rw [hc] at h
      obtain ⟨r, hr⟩ := backpropLoop_isSome env wdl p c h
      rw [backpropLoop, hc]
      simp only
      rw [hr]
      exact ⟨_, rfl⟩

theorem Selected.get? {env : SearchEnv V} {board board1 : Board} {n leaf : Node V}
    {p : List Nat} (h : Selected env board n p leaf board1) : n.get? p = some leaf := by
  induction h with
  | stop board n _ => exact get?_nil n
  | step board n i move c p leaf board1 _ _ _ _ hchild _ ih =>
    rw [get?_cons_of hchild]
    exact ih

theorem Selected.leaf {env : SearchEnv V} {board board1 : Board} {n leaf : Node V}
    {p : List Nat} (h : Selected env board n p leaf board1) :
    leaf.mGameState ≠ .ONGOING ∨ leaf.mChildren.length ≠ leaf.mMoves.length := by
  induction h with
  | stop board n h => exact h
  | step board n i move c p leaf board1 _ _ _ _ _ _ ih => exact ih

/-- The descent of `select` only adds to the hash history of the working board. -/
theorem Selected.hashes {env : SearchEnv V} {board board1 : Board} {n leaf : Node V}
    {p : List Nat} (h : Selected env board n p leaf board1) :
    ∃ l, board1.mZobristHashes = board.mZobristHashes ++ l := by
  induction h with
  | stop board n _ => exact ⟨[], (List.append_nil _).symm⟩
  | step board n i move c p leaf board1 _ _ _ _ _ _ ih =>
    obtain ⟨l, hl⟩ := ih
    rw [Board.mZobristHashes_makeMove] at hl
    exact ⟨board.mZobristHash :: l, by rw [hl, List.append_assoc]; rfl⟩

theorem Selected.path_ne_nil {env : SearchEnv V} {board board1 : Board} {n leaf : Node V}
    {p : List Nat} (h : Selected env board n p leaf board1) (hn : n.mGameState = .ONGOING)
    (hl : leaf.mGameState ≠ .ONGOING) : p ≠ [] := by
  cases h with
  | stop _ _ _ => exact absurd hn hl
  | step _ _ _ _ _ _ _ _ _ _ _ _ _ _ => exact List.cons_ne_nil _ _

/-- The iteration that ends on a node that is not `ONGOING`: `backprop` from the node selected
does to the tree what `Iterated` says. -/
theorem Selected.iterated_terminal {env : SearchEnv V} {board board1 : Board}
    {n leaf : Node V} {p : List Nat} (h : Selected env board n p leaf board1)
    (hstate : leaf.mGameState ≠ .ONGOING) {rng rng1 : Nat} {wdl : V}
    (hsim : leaf.simulate env board1 rng = some (wdl, rng1)) :
    ∃ r, backpropLoop env n p wdl = some r ∧ Iterated env board n r.1 r.2 := by
  induction h with
  | stop board n _ =>
    refine ⟨_, by unfold backpropLoop; rfl, ?_⟩
    exact Iterated.terminal board n rng rng1 wdl hstate hsim
  | step board n i move c p leaf board1 hst hfull hbest hmove hchild _ ih =>
    obtain ⟨r, hr, hit⟩ := ih hstate hsim
    refine ⟨_, by rw [backpropLoop, hchild]; simp only; rw [hr], ?_⟩
    exact Iterated.descended board n i move c r.1 r.2 hst hfull hbest hmove hchild hit

/-- The iteration that expands the node selected: `expand` and then `backprop` from the new
child do to the tree what `Iterated` says. -/
theorem Selected.iterated_expanded {env : SearchEnv V} {board board1 : Board}
    {n leaf : Node V} {p : List Nat} (h : Selected env board n p leaf board1)
    (hstate : leaf.mGameState = .ONGOING) (hroom : leaf.mChildren.length < leaf.mMoves.length)
    {move : Move} (hmove : leaf.mMoves.get? leaf.mChildren.length = some move)
    {child : Node V} {board2 : Board} {rng rng1 rng2 : Nat} {wdl : V}
    (hnew : new env (board1.makeMove env.Z move) false ((leaf.mDepth + 1) % 65536) rng
      = some (child, board2, rng1))
    (hsim : child.simulate env board2 rng1 = some (wdl, rng2)) {n1 : Node V}
    (hset : n.set? p { leaf with mChildren := leaf.mChildren ++ [child] } = some n1) :
    ∃ r, backpropLoop env n1 (p ++ [leaf.mChildren.length]) wdl = some r
      ∧ Iterated env board n r.1 r.2 := by
  induction h generalizing n1 with
  | stop board n _ =>
    unfold set? at hset
    cases hset
    have hget : (n.mChildren ++ [child]).get? n.mChildren.length = some child := by
      rw [List.get?_eq_getElem?, List.getElem?_append_right (le_refl _)]
      simp
    refine ⟨(visit env { n with mChildren := n.mChildren ++ [child.visit env (-wdl)] } wdl, wdl), ?_, ?_⟩
    · rw [List.nil_append, backpropLoop]
      simp only
      rw [hget]
      simp only
      rw [backpropLoop]
      simp only [neg_neg]
      congr 3
      rw [List.set_append_right _ _ (le_refl _)]
      simp
    · exact Iterated.expanded board n move child board2 rng rng1 rng2 wdl hstate hroom hmove
        hnew hsim
  | step board n i move1 c p leaf board1 hst hfull hbest hmove1 hchild _ ih =>
    rw [set?, hchild] at hset
    simp only at hset
    cases hc1 : c.set? p { leaf with mChildren := leaf.mChildren ++ [child] } with
    | none => rw [hc1] at hset; cases hset
    | some c1 =>
      rw [hc1] at hset
      cases hset
      obtain ⟨r, hr, hit⟩ := ih hstate hroom hmove hnew hc1
      have hi : i < n.mChildren.length := by
        rw [List.get?_eq_some] at hchild
        exact hchild.1
      refine ⟨(visit env { n with mChildren := n.mChildren.set i r.1 } (-r.2), -r.2), ?_, ?_⟩
      · rw [List.cons_append, backpropLoop]
        simp only
        rw [List.get?_eq_getElem?, List.getElem?_set_self hi]
        simp only
        rw [hr]
        simp only [List.set_set]
      · exact Iterated.descended board n i move1 c r.1 r.2 hst hfull hbest hmove1 hchild hit

end Node

namespace Board

theorem fastCopy_eq_some {this other b : Board} (h : this.fastCopy other = some b) :
    b = other := by
  unfold fastCopy at h
  split at h
  · simp only at h
    split at h
    · rename_i he
      cases h
      rw [he]
    · cases h
  · cases h

theorem fastCopy_of_hashes {this other : Board} {l : List Nat}
    (h : this.mZobristHashes = other.mZobristHashes ++ l) :
    this.fastCopy other = some other := by
  unfold fastCopy
  have h1 : this.mZobristHashes.length ≥ other.mZobristHashes.length := by
    rw [h, List.length_append]
    omega
  have h2 : this.mZobristHashes.take other.mZobristHashes.length = other.mZobristHashes := by
    rw [h, List.take_left']
    rfl
  rw [if_pos h1]
  simp only
  rw [if_pos h2, h2]

end Board

namespace Node

variable {V : Type} [LinearOrderedField V]

/-- What `expand` returns. -/
theorem expand_eq_some {env : SearchEnv V} {n n1 : Node V} {board board1 : Board}
    {rng rng1 : Nat} (h : n.expand env board rng = some (n1, board1, rng1)) :
    n.mGameState = .ONGOING ∧ n.mChildren.length < n.mMoves.length
    ∧ ∃ move child, n.mMoves.get? n.mChildren.length = some move
      ∧ new env (board.makeMove env.Z move) false ((n.mDepth + 1) % 65536) rng
          = some (child, board1, rng1)
      ∧ n1 = { n with mChildren := n.mChildren ++ [child] } := by
  unfold expand at h
  split at h
  · rename_i hc
    cases hm : n.mMoves.get? n.mChildren.length with
    | none => rw [hm] at h; cases h
    | some move =>
      rw [hm] at h
      simp only at h
      cases hn : new env (board.makeMove env.Z move) false ((n.mDepth + 1) % 65536) rng with
      | none => rw [hn] at h; cases h
      | some r =>
        obtain ⟨child, b2, r2⟩ := r
        rw [hn] at h
        simp only [Option.some.injEq, Prod.mk.injEq] at h
        obtain ⟨h1, h2, h3⟩ := h
        subst h1; subst h2; subst h3
        exact ⟨hc.1, hc.2.2, move, child, rfl, hn, rfl⟩
  · cases h

/-- The asserts of `expand` hold on a node that is `ONGOING` and lacks a child. -/
theorem expand_isSome (env : SearchEnv V) {n : Node V} (board : Board) (rng : Nat)
    (hstate : n.mGameState = .ONGOING) (hroom : n.mChildren.length < n.mMoves.length) :
    ∃ r, n.expand env board rng = some r := by
  unfold expand
  rw [if_pos ⟨hstate, by omega, hroom⟩]
  have hmv : n.mMoves.get? n.mChildren.length = some (n.mMoves.get ⟨_, hroom⟩) :=
    List.get?_eq_get _
  rw [hmv]
  simp only
  rw [new_not_root]
  exact ⟨_, rfl⟩

/-- The value of `simulate` lies between -1 and 1. -/
theorem simulate_range {env : SearchEnv V} {n : Node V} {board : Board} {rng rng1 : Nat}
    {wdl : V} (h : n.simulate env board rng = some (wdl, rng1)) : -1 ≤ wdl ∧ wdl ≤ 1 := by
  unfold simulate at h
  split at h
  · rename_i hne
    simp only [Option.some.injEq, Prod.mk.injEq] at h
    obtain ⟨h1, _⟩ := h
    subst h1
    cases hs : n.mGameState
    · simp [GameState.toInt]
    · simp [GameState.toInt]
    · simp [GameState.toInt]
    · exact absurd hs hne
  · simp only at h
    split at h
    · split at h
      · cases h
      · split at h
        · simp only [Option.some.injEq, Prod.mk.injEq] at h
          rw [← h.1]
          norm_num
        · simp only [Option.some.injEq, Prod.mk.injEq] at h
          rw [← h.1]
          norm_num
    · split at h
      · rename_i hr
        simp only [Option.some.injEq, Prod.mk.injEq] at h
        obtain ⟨h1, _⟩ := h
        subst h1
        exact hr
      · cases h

theorem logistic_range {e : V} (he : 0 ≤ e) :
    1 / (1 + e) * 2 - 1 ≥ -1 ∧ 1 / (1 + e) * 2 - 1 ≤ 1 := by
  have h1 : (0 : V) < 1 + e := by linarith
  have h2 : 0 ≤ 1 / (1 + e) := le_of_lt (one_div_pos.mpr h1)
  have h3 : 1 / (1 + e) ≤ 1 := by
    rw [div_le_one h1]
    linarith
  constructor
  · linarith
  · linarith

/-- The assert of `simulate` holds when `EVAL_SCALE` is not zero. -/
theorem simulate_isSome (env : SearchEnv V) (hscale : env.EVAL_SCALE ≠ 0) (n : Node V)
    (board : Board) (rng : Nat) : ∃ r, n.simulate env board rng = some r := by
  unfold simulate
  by_cases h : n.mGameState ≠ .ONGOING
  · rw [if_pos h]
    exact ⟨_, rfl⟩
  · rw [if_neg h]
    simp only
    rw [if_neg hscale, if_pos (logistic_range (env.exp_nonneg _))]
    exact ⟨_, rfl⟩

/-- On a node that is not `ONGOING`, `simulate` returns, whatever `EVAL_SCALE` is. -/
theorem simulate_isSome_of_terminal (env : SearchEnv V) {n : Node V}
    (hstate : n.mGameState ≠ .ONGOING) (board : Board) (rng : Nat) :
    ∃ r, n.simulate env board rng = some r := by
  unfold simulate
  rw [if_pos hstate]
  exact ⟨_, rfl⟩

end Node

section Search

variable {V : Type} [LinearOrderedField V]

/-- What an iteration of the loop of `search` does to the state: the tree changes as `Iterated`
says, the working board is the root board again, and the node count is one more in `u64`. -/
theorem searchIteration_eq_some {env : SearchEnv V} {rootBoard : Board} {s s1 : SearchState V}
    (h : searchIteration env rootBoard s = some s1) :
    (∃ wdl, Node.Iterated env s.board s.root s1.root wdl)
    ∧ s1.board = rootBoard ∧ s1.nodes = (s.nodes + 1) % 2 ^ 64 := by
  unfold searchIteration at h
  cases hsel : s.root.select env s.board with
  | none => rw [hsel] at h; cases h
  | some r =>
    obtain ⟨path, board⟩ := r
    rw [hsel] at h
    simp only at h
    obtain ⟨leaf, hS⟩ := Node.select_selected env _ _ _ _ hsel
    rw [hS.get?] at h
    simp only at h
    by_cases hst : leaf.mGameState = .ONGOING
    · rw [if_pos hst] at h
      cases hexp : leaf.expand env board s.rng with
      | none => rw [hexp] at h; cases h
      | some r =>
        obtain ⟨node1, board1, rng1⟩ := r
        rw [hexp] at h
        simp only at h
        obtain ⟨_, hroom, move, child, hmove, hnew, hnode1⟩ := Node.expand_eq_some hexp
        cases hset : s.root.set? path node1 with
        | none => rw [hset] at h; cases h
        | some root1 =>
          rw [hset] at h
          simp only at h
          have hget1 : root1.get? (path ++ [leaf.mChildren.length]) = some child := by
            rw [Node.get?_set?_append _ _ _ _ hset, hnode1, Node.get?_cons]
            simp only
            rw [List.get?_eq_getElem?, List.getElem?_append_right (le_refl _)]
            simp [Node.get?_nil]
          rw [hget1] at h
          simp only at h
          cases hsim : child.simulate env board1 rng1 with
          | none => rw [hsim] at h; cases h
          | some r =>
            obtain ⟨wdl, rng2⟩ := r
            rw [hsim] at h
            simp only at h
            cases hbp : root1.backprop env (path ++ [leaf.mChildren.length]) wdl with
            | none => rw [hbp] at h; cases h
            | some root2 =>
              rw [hbp] at h
              simp only at h
              cases hfc : board1.fastCopy rootBoard with
              | none => rw [hfc] at h; cases h
              | some board2 =>
                rw [hfc] at h
                simp only [Option.some.injEq] at h
                subst h
                rw [hnode1] at hset
                obtain ⟨r, hr, hit⟩ := hS.iterated_expanded hst hroom hmove hnew hsim hset
                unfold Node.backprop at hbp
                split at hbp
                · rw [hr] at hbp
                  cases hbp
                  exact ⟨⟨_, hit⟩, Board.fastCopy_eq_some hfc, rfl⟩
                · cases hbp
    · rw [if_neg hst] at h
      simp only at h
      rw [hS.get?] at h
      simp only at h
      cases hsim : leaf.simulate env board s.rng with
      | none => rw [hsim] at h; cases h
      | some r =>
        obtain ⟨wdl, rng2⟩ := r
        rw [hsim] at h
        simp only at h
        cases hbp : s.root.backprop env path wdl with
        | none => rw [hbp] at h; cases h
        | some root2 =>
          rw [hbp] at h
          simp only at h
          cases hfc : board.fastCopy rootBoard with
          | none => rw [hfc] at h; cases h
          | some board2 =>
            rw [hfc] at h
            simp only [Option.some.injEq] at h
            subst h
            obtain ⟨r, hr, hit⟩ := hS.iterated_terminal hst hsim
            unfold Node.backprop at hbp
            split at hbp
            · rw [hr] at hbp
              cases hbp
              exact ⟨⟨_, hit⟩, Board.fastCopy_eq_some hfc, rfl⟩
            · cases hbp

/-- No assert of an iteration fails when the tree satisfies the invariant, the root is
`ONGOING`, and the working board continues the history of the root board. -/
theorem searchIteration_isSome (env : SearchEnv V) (hscale : env.EVAL_SCALE ≠ 0)
    (rootBoard : Board) (s : SearchState V)
    (hs : s.root.Sound) (hroot : s.root.mGameState = .ONGOING)
    (hb : ∃ l, s.board.mZobristHashes = rootBoard.mZobristHashes ++ l) :
    ∃ s1, searchIteration env rootBoard s = some s1 := by
  obtain ⟨l, hl⟩ := hb
  obtain ⟨⟨path, board⟩, hsel⟩ := Node.select_isSome env s.root s.board hs
  obtain ⟨leaf, hS⟩ := Node.select_selected env _ _ _ _ hsel
  obtain ⟨l1, hl1⟩ := hS.hashes
  unfold searchIteration
  rw [hsel]
  simp only
  rw [hS.get?]
  simp only
  by_cases hst : leaf.mGameState = .ONGOING
  · rw [if_pos hst]
    have hroom : leaf.mChildren.length < leaf.mMoves.length := by
      have h1 := (hs path leaf hS.get?).1
      rcases hS.leaf with h2 | h2
      · exact absurd hst h2
      · omega
    obtain ⟨⟨node1, board1, rng1⟩, hexp⟩ := Node.expand_isSome env board s.rng hst hroom
    rw [hexp]
    simp only
    obtain ⟨_, _, move, child, hmove, hnew, hnode1⟩ := Node.expand_eq_some hexp
    obtain ⟨root1, hset⟩ := Node.set?_isSome node1 path s.root hS.get?
    rw [hset]
    simp only
    have hget1 : root1.get? (path ++ [leaf.mChildren.length]) = some child := by
      rw [Node.get?_set?_append _ _ _ _ hset, hnode1, Node.get?_cons]
      simp only
      rw [List.get?_eq_getElem?, List.getElem?_append_right (le_refl _)]
      simp [Node.get?_nil]
    rw [hget1]
    simp only
    obtain ⟨⟨wdl, rng2⟩, hsim⟩ := Node.simulate_isSome env hscale child board1 rng1
    rw [hsim]
    simp only
    obtain ⟨r, hr⟩ := Node.backpropLoop_isSome env wdl _ _ hget1
    have hrange := Node.simulate_range hsim
    have hbp : root1.backprop env (path ++ [leaf.mChildren.length]) wdl = some r.1 := by
      unfold Node.backprop
      rw [if_pos ⟨by simp, hrange.1, hrange.2⟩, hr]
      rfl
    rw [hbp]
    simp only
    have hb1 : board1 = board.makeMove env.Z move := (Node.new_facts hnew).2.2.2.2.2.2
    have hh : board1.mZobristHashes
        = rootBoard.mZobristHashes ++ (l ++ l1 ++ [board.mZobristHash]) := by
      rw [hb1, Board.mZobristHashes_makeMove, hl1, hl]
      simp only [List.append_assoc]
    rw [Board.fastCopy_of_hashes hh]
    exact ⟨_, rfl⟩
  · rw [if_neg hst]
    simp only
    rw [hS.get?]
    simp only
    obtain ⟨⟨wdl, rng2⟩, hsim⟩ := Node.simulate_isSome_of_terminal env hst board s.rng
    rw [hsim]
    simp only
    obtain ⟨r, hr⟩ := Node.backpropLoop_isSome env wdl _ _ hS.get?
    have hrange := Node.simulate_range hsim
    have hbp : s.root.backprop env path wdl = some r.1 := by
      unfold Node.backprop
      rw [if_pos ⟨hS.path_ne_nil hroot hst, hrange.1, hrange.2⟩, hr]
      rfl
    rw [hbp]
    simp only
    have hh : board.mZobristHashes = rootBoard.mZobristHashes ++ (l ++ l1) := by
      rw [hl1, hl]
      simp only [List.append_assoc]
    rw [Board.fastCopy_of_hashes hh]
    exact ⟨_, rfl⟩

end Search

namespace Node

section Paths

variable {V : Type}

theorem All.mem {P : Node V → Prop} {n c : Node V} (h : All P n) (hc : c ∈ n.mChildren) :
    All P c := by
  obtain ⟨i, hi⟩ := List.mem_iff_get?.mp hc
  exact h.child hi

theorem All.of_mem {P : Node V → Prop} {n : Node V} (h0 : P n)
    (h : ∀ c ∈ n.mChildren, All P c) : All P n :=
  All.of_children h0 (fun _ c hc => h c (List.get?_mem hc))

end Paths

variable {V : Type} [LinearOrderedField V]

theorem mVisits_visit (env : SearchEnv V) (n : Node V) (wdl : V) :
    (n.visit env wdl).mVisits = (n.mVisits + 1) % 2 ^ 32 := rfl

/-- An iteration changes neither the state nor the moves nor the depth of a node on its path,
adds one to its visit count in `u32`, and adds the value to its result sum, a `float`. -/
theorem Iterated.fields {env : SearchEnv V} {board : Board} {n n1 : Node V} {wdl : V}
    (h : Iterated env board n n1 wdl) :
    n1.mGameState = n.mGameState ∧ n1.mMoves = n.mMoves ∧ n1.mDepth = n.mDepth
    ∧ n1.mVisits = (n.mVisits + 1) % 2 ^ 32
    ∧ n1.mResultsSum = env.toFloat (n.mResultsSum + wdl) := by
  cases h <;> exact ⟨rfl, rfl, rfl, rfl, rfl⟩

/-- The value that an iteration adds to a result sum lies between -1 and 1. -/
theorem Iterated.range {env : SearchEnv V} {board : Board} {n n1 : Node V} {wdl : V}
    (h : Iterated env board n n1 wdl) : -1 ≤ wdl ∧ wdl ≤ 1 := by
  induction h with
  | terminal board n rng rng1 wdl _ hsim =>
    have := simulate_range hsim
    constructor <;> linarith
  | expanded board n move child board1 rng rng1 rng2 wdl _ _ _ _ hsim =>
    exact simulate_range hsim
  | descended board n i move c c1 wdl _ _ _ _ _ _ ih =>
    constructor <;> linarith

/-- The result sum of a node that satisfies the invariant is bounded by its visit count. -/
theorem Local.sum_le {n : Node V} (hn : Local n) : |n.mResultsSum| ≤ (n.mVisits : V) :=
  hn.2.2.1.trans (by exact_mod_cast min_le_left _ _)

theorem local_visit (env : SearchEnv V) {n : Node V} (cs : List (Node V)) {wdl : V}
    (hn : Local n) (hv : n.mVisits + 1 < 2 ^ 32) (hw : -1 ≤ wdl ∧ wdl ≤ 1)
    (hlen : cs.length ≤ n.mMoves.length)
    (hcs : ∀ c ∈ cs, 1 ≤ c.mVisits ∧ c.mVisits ≤ n.mVisits + 1) :
    Local (visit env { n with mChildren := cs } wdl) := by
  obtain ⟨_, h2, h3, _⟩ := hn
  refine ⟨hlen, h2, ?_, ?_⟩
  · show |env.toFloat (n.mResultsSum + wdl)|
      ≤ ((min ((n.mVisits + 1) % 2 ^ 32) (2 ^ 24) : Nat) : V)
    rw [Nat.mod_eq_of_lt hv]
    exact env.toFloat_bound h3 (abs_le.mpr hw)
  · intro c hc
    show 1 ≤ c.mVisits ∧ c.mVisits ≤ (n.mVisits + 1) % 2 ^ 32
    rw [Nat.mod_eq_of_lt hv]
    exact hcs c hc

/-- An iteration keeps the invariant of the tree, as long as the visit count does not leave the
`u32` range. -/
theorem Iterated.sound {env : SearchEnv V} {board : Board} {n n1 : Node V} {wdl : V}
    (h : Iterated env board n n1 wdl) (hs : Sound n) (hv : n.mVisits + 1 < 2 ^ 32) :
    Sound n1 := by
  induction h with
  | terminal board n rng rng1 wdl _ hsim =>
    have hr := simulate_range hsim
    have hl := All.here hs
    refine All.of_mem ?_ (fun c hc => All.mem hs hc)
    refine local_visit env (n := n) n.mChildren hl hv ⟨by linarith, by linarith⟩ hl.1 ?_
    intro c hc
    have := hl.2.2.2 c hc
    omega
  | expanded board n move child board1 rng rng1 rng2 wdl _ hroom _ hnew hsim =>
    have hr := simulate_range hsim
    have hl := All.here hs
    obtain ⟨f1, f2, f3, _, _, f6, _⟩ := new_facts hnew
    have hchild : Sound (child.visit env (-wdl)) := by
      refine All.of_mem ?_ ?_
      · refine ⟨?_, f6, ?_, ?_⟩
        · show child.mChildren.length ≤ child.mMoves.length
          rw [f1]
          exact Nat.zero_le _
        · show |env.toFloat (child.mResultsSum + -wdl)|
            ≤ ((min ((child.mVisits + 1) % 2 ^ 32) (2 ^ 24) : Nat) : V)
          rw [f2, f3]
          have h0 : |(0 : V)| ≤ ((min 0 (2 ^ 24) : Nat) : V) := by simp
          have hw1 : |(-wdl)| ≤ 1 := by
            rw [abs_neg]
            exact abs_le.mpr hr
          exact env.toFloat_bound h0 hw1
        · intro c hc
          have : c ∈ child.mChildren := hc
          rw [f1] at this
          cases this
      · intro c hc
        have : c ∈ child.mChildren := hc
        rw [f1] at this
        cases this
    refine All.of_mem ?_ ?_
    · refine local_visit env (n := n) _ hl hv hr ?_ ?_
      · rw [List.length_append, List.length_singleton]
        omega
      · intro c hc
        rcases List.mem_append.mp hc with hc | hc
        · have := hl.2.2.2 c hc
          omega
        · rw [List.mem_singleton] at hc
          subst hc
          rw [mVisits_visit, f2]
          norm_num
    · intro c hc
      have hc1 : c ∈ n.mChildren ++ [child.visit env (-wdl)] := hc
      rcases List.mem_append.mp hc1 with hc | hc
      · exact All.mem hs hc
      · rw [List.mem_singleton] at hc
        subst hc
        exact hchild
  | descended board n i move c c1 wdl _ _ _ _ hchild hrest ih =>
    have hr := hrest.range
    have hl := All.here hs
    have hcv := hl.2.2.2 c (List.get?_mem hchild)
    have hc1 : Sound c1 := ih (All.child hs hchild) (by omega)
    have hc1v : c1.mVisits = c.mVisits + 1 := by
      rw [hrest.fields.2.2.2.1]
      exact Nat.mod_eq_of_lt (by omega)
    refine All.of_mem ?_ ?_
    · refine local_visit env (n := n) _ hl hv ⟨by linarith, by linarith⟩ ?_ ?_
      · rw [List.length_set]
        exact hl.1
      · intro x hx
        rcases List.mem_or_eq_of_mem_set hx with hx | hx
        · have := hl.2.2.2 x hx
          omega
        · subst hx
          omega
    · intro x hx
      have hx1 : x ∈ n.mChildren.set i c1 := hx
      rcases List.mem_or_eq_of_mem_set hx1 with hx | hx
      · exact All.mem hs hx
      · subst hx
        exact hc1

/-- An iteration leaves a node that is `ONGOING` with a child. -/
theorem Iterated.children_ne_nil {env : SearchEnv V} {board : Board} {n n1 : Node V} {wdl : V}
    (h : Iterated env board n n1 wdl) (hn : n.mGameState = .ONGOING) : n1.mChildren ≠ [] := by
  cases h with
  | terminal _ _ _ _ _ hstate _ => exact absurd hn hstate
  | expanded _ _ _ _ _ _ _ _ _ _ _ _ _ _ =>
    show n.mChildren ++ [_] ≠ []
    simp
  | descended _ _ i _ c _ _ _ _ _ _ hchild _ =>
    show n.mChildren.set i _ ≠ []
    intro e
    have := List.get?_mem hchild
    rw [List.set_eq_nil_iff] at e
    rw [e] at this
    cases this

end Node

section Search

variable {V : Type} [LinearOrderedField V]

theorem searchStates_succ (env : SearchEnv V) (rootBoard : Board) (n : Nat) :
    searchStates env rootBoard (n + 1)
      = (searchStates env rootBoard n).bind (searchIteration env rootBoard) := by
  rw [searchStates]
  cases searchStates env rootBoard n <;> rfl

/-- The start of `search` on a root position with a legal move. -/
theorem searchInit_eq (env : SearchEnv V) (rootBoard : Board)
    (hmoves : rootBoard.legalMoves env.Z false ≠ []) :
    searchInit env rootBoard
      = some ⟨⟨[], (env.shuffleVector env.resetRng (rootBoard.legalMoves env.Z false)).1,
          .ONGOING, 0, 0, 0⟩, rootBoard, 0, 0,
          (env.shuffleVector env.resetRng (rootBoard.legalMoves env.Z false)).2⟩ := by
  unfold searchInit
  rw [Node.new_root, if_neg hmoves]

/-- The counters after `n` iterations: the visit count of the root is `n` in `u32`, the node
count is `n` in `u64`, and the root keeps its state and its moves. -/
theorem searchStates_counts (env : SearchEnv V) (rootBoard : Board)
    (hmoves : rootBoard.legalMoves env.Z false ≠ []) : ∀ (n : Nat) (s : SearchState V),
    searchStates env rootBoard n = some s →
    s.root.mVisits = n % 2 ^ 32 ∧ s.nodes = n % 2 ^ 64 ∧ s.root.mGameState = .ONGOING
    ∧ s.root.mMoves = (env.shuffleVector env.resetRng (rootBoard.legalMoves env.Z false)).1
    ∧ s.board = rootBoard ∧ (1 ≤ n → s.root.mChildren ≠ [])
  | 0, s, h => by
    rw [searchStates, searchInit_eq env rootBoard hmoves] at h
    cases h
    exact ⟨rfl, rfl, rfl, rfl, rfl, fun h => absurd h (by decide)⟩
  | n + 1, s, h => by
    rw [searchStates_succ] at h
    cases h0 : searchStates env rootBoard n with
    | none => rw [h0] at h; cases h
    | some s0 =>
      rw [h0] at h
      obtain ⟨h1, h2, h3, h4, _, _⟩ := searchStates_counts env rootBoard hmoves n s0 h0
      obtain ⟨⟨wdl, hit⟩, hb, hn⟩ := searchIteration_eq_some h
      obtain ⟨f1, f2, _, f4, _⟩ := hit.fields
      refine ⟨?_, ?_, f1.trans h3, f2.trans h4, hb, fun _ => hit.children_ne_nil h3⟩
      · rw [f4, h1]
        omega
      · rw [hn, h2]
        omega

/-- The first `2 ^ 32` iterations meet no failing assert, and up to there the tree satisfies
the invariant. -/
theorem searchStates_sound (env : SearchEnv V) (rootBoard : Board)
    (hmoves : rootBoard.legalMoves env.Z false ≠ []) (hscale : env.EVAL_SCALE ≠ 0) :
    ∀ n : Nat, n < 2 ^ 32 →
    ∃ s, searchStates env rootBoard n = some s ∧ s.root.Sound
  | 0, _ => by
    refine ⟨_, by rw [searchStates]; exact searchInit_eq env rootBoard hmoves, ?_⟩
    refine Node.All.of_mem ⟨Nat.zero_le _, fun _ => ?_, ?_, fun c hc => ?_⟩
      (fun c hc => ?_)
    · show (env.shuffleVector env.resetRng (rootBoard.legalMoves env.Z false)).1 ≠ []
      rw [Ne, Node.shuffle_eq_nil]
      exact hmoves
    · show |(0 : V)| ≤ ((0 : Nat) : V)
      simp
    · cases hc
    · cases hc
  | n + 1, hn => by
    obtain ⟨s0, h0, hs0⟩ := searchStates_sound env rootBoard hmoves hscale n (by omega)
    obtain ⟨h1, _, h3, _, h5, _⟩ := searchStates_counts env rootBoard hmoves n s0 h0
    obtain ⟨s1, hs1⟩ := searchIteration_isSome env hscale rootBoard s0 hs0 h3
      ⟨[], by rw [h5, List.append_nil]⟩
    refine ⟨s1, by rw [searchStates_succ, h0]; exact hs1, ?_⟩
    obtain ⟨⟨wdl, hit⟩, _, _⟩ := searchIteration_eq_some hs1
    refine hit.sound hs0 ?_
    rw [h1, Nat.mod_eq_of_lt (by omega)]
    exact hn

/-- The iteration after those meets no failing assert either. -/
theorem searchStates_isSome (env : SearchEnv V) (rootBoard : Board)
    (hmoves : rootBoard.legalMoves env.Z false ≠ []) (hscale : env.EVAL_SCALE ≠ 0) (n : Nat)
    (hn : n ≤ 2 ^ 32) :
    ∃ s, searchStates env rootBoard n = some s := by
  cases n with
  | zero => exact ⟨_, by rw [searchStates]; exact searchInit_eq env rootBoard hmoves⟩
  | succ n =>
    obtain ⟨s0, h0, hs0⟩ := searchStates_sound env rootBoard hmoves hscale n (by omega)
    obtain ⟨_, _, h3, _, h5, _⟩ := searchStates_counts env rootBoard hmoves n s0 h0
    obtain ⟨s1, hs1⟩ := searchIteration_isSome env hscale rootBoard s0 hs0 h3
      ⟨[], by rw [h5, List.append_nil]⟩
    exact ⟨s1, by rw [searchStates_succ, h0]; exact hs1⟩

end Search

namespace Node

section Paths

variable {V : Type}

theorem mostVisitsLoop_isSome (moves : List Move) : ∀ (cs : List (Node V)) (i mostVisits : Nat)
    (bestMove : Move), i + cs.length ≤ moves.length →
    ∃ r, mostVisitsLoop moves cs i mostVisits bestMove = some r
  | [], _, _, bestMove, _ => ⟨bestMove, by unfold mostVisitsLoop; rfl⟩
  | c :: cs, i, mostVisits, bestMove, h => by
    rw [List.length_cons] at h
    unfold mostVisitsLoop
    split
    · have hmv : moves.get? i = some (moves.get ⟨i, by omega⟩) := List.get?_eq_get _
      rw [hmv]
      exact mostVisitsLoop_isSome moves cs (i + 1) _ _ (by omega)
    · exact mostVisitsLoop_isSome moves cs (i + 1) _ _ (by omega)

/-- The asserts of `mostVisitsMove` hold on a node with a child and no more children than
moves. -/
theorem mostVisitsMove_isSome {n : Node V} (hlen : n.mChildren.length ≤ n.mMoves.length)
    (hc : n.mChildren ≠ []) : ∃ move, n.mostVisitsMove = some move := by
  have h1 : n.mChildren.length > 0 := List.length_pos.mpr hc
  unfold mostVisitsMove
  rw [if_pos ⟨by omega, h1⟩]
  cases hcs : n.mChildren with
  | nil => exact absurd hcs hc
  | cons c0 cs =>
    cases hms : n.mMoves with
    | nil =>
      rw [hms, List.length_nil] at hlen
      omega
    | cons move0 ms =>
      simp only
      rw [hcs, hms] at hlen
      simp only [List.length_cons] at hlen
      exact mostVisitsLoop_isSome _ cs 1 _ _ (by simp only [List.length_cons]; omega)

end Paths

variable {V : Type} [LinearOrderedField V]

/-- The asserts of `scoreCp` hold on a visited node whose result sum is bounded by its visit
count. -/
theorem scoreCp_isSome (env : SearchEnv V) {n : Node V} (hv : 0 < n.mVisits)
    (hr : |n.mResultsSum| ≤ (n.mVisits : V)) : ∃ cp, n.scoreCp env = some cp := by
  have hpos : (0 : V) < (n.mVisits : V) := by exact_mod_cast hv
  have h := abs_le.mp hr
  have h1 : n.mResultsSum / (n.mVisits : V) ≥ -1 := by
    rw [ge_iff_le, le_div_iff₀ hpos]
    linarith
  have h2 : n.mResultsSum / (n.mVisits : V) ≤ 1 := by
    rw [div_le_iff₀ hpos]
    linarith
  unfold scoreCp
  rw [if_pos hv]
  simp only
  rw [if_pos ⟨h1, h2⟩]
  split
  · exact ⟨_, rfl⟩
  · split
    · exact ⟨_, rfl⟩
    · exact ⟨_, rfl⟩

end Node

section Search

variable {V : Type} [LinearOrderedField V]

/-- The asserts behind `printInfo` hold once the root has been visited. -/
theorem printInfo_isSome (env : SearchEnv V) {root : Node V} (hs : root.Sound)
    (hv : 0 < root.mVisits) (hc : root.mChildren ≠ []) : printInfo env root = some () := by
  obtain ⟨h1, _, _, _⟩ := Node.All.here hs
  obtain ⟨cp, hcp⟩ := Node.scoreCp_isSome env hv (Node.All.here hs).sum_le
  obtain ⟨move, hmove⟩ := Node.mostVisitsMove_isSome h1 hc
  unfold printInfo
  rw [hcp, hmove]

/-- The loop of `search` is left after a state of `searchStates`: it has run `k` iterations,
at least one and at most `fuel`. -/
theorem searchLoop_eq_some (env : SearchEnv V) (rootBoard : Board)
    (searchTimeMs maxDepth maxNodes : Nat) (boolPrintInfo : Bool) :
    ∀ (fuel : Nat) (last : Int) (n : Nat) (s s1 : SearchState V),
    searchStates env rootBoard n = some s →
    searchLoop env rootBoard searchTimeMs maxDepth maxNodes boolPrintInfo fuel last s = some s1 →
    ∃ k, 1 ≤ k ∧ k ≤ fuel ∧ searchStates env rootBoard (n + k) = some s1
  | 0, _, _, _, _, _, h => by
    unfold searchLoop at h
    cases h
  | fuel + 1, last, n, s, s1, hs, h => by
    unfold searchLoop at h
    cases hit : searchIteration env rootBoard s with
    | none => rw [hit] at h; cases h
    | some s2 =>
      rw [hit] at h
      simp only at h
      have hs2 : searchStates env rootBoard (n + 1) = some s2 := by
        rw [searchStates_succ, hs]
        exact hit
      split at h
      · cases h
        exact ⟨1, le_refl _, by omega, hs2⟩
      · split at h
        · cases h
        · split at h
          · obtain ⟨k, hk1, hk2, hk3⟩ := searchLoop_eq_some env rootBoard searchTimeMs maxDepth
              maxNodes boolPrintInfo fuel _ (n + 1) s2 s1 hs2 h
            exact ⟨k + 1, by omega, by omega, by rw [← hk3]; congr 1; omega⟩
          · cases h
            exact ⟨1, le_refl _, by omega, hs2⟩

/-- The loop of `search` is left, with no failing assert, when the node budget is below
`2 ^ 32` and the fuel covers it. -/
theorem searchLoop_isSome (env : SearchEnv V) (rootBoard : Board)
    (hmoves : rootBoard.legalMoves env.Z false ≠ []) (hscale : env.EVAL_SCALE ≠ 0)
    (searchTimeMs maxDepth maxNodes : Nat) (boolPrintInfo : Bool) (hmax : maxNodes < 2 ^ 32) :
    ∀ (fuel : Nat) (last : Int) (n : Nat) (s : SearchState V),
    searchStates env rootBoard n = some s → (n = 0 ∨ n < maxNodes) → maxNodes ≤ n + fuel →
    1 ≤ fuel →
    ∃ s1, searchLoop env rootBoard searchTimeMs maxDepth maxNodes boolPrintInfo fuel last s
      = some s1
  | 0, _, _, _, _, _, _, h => absurd h (by decide)
  | fuel + 1, last, n, s, hs, hn, hfuel, _ => by
    obtain ⟨s2, hs2, hsound⟩ := searchStates_sound env rootBoard hmoves hscale (n + 1) (by omega)
    have hit : searchIteration env rootBoard s = some s2 := by
      rw [searchStates_succ, hs] at hs2
      exact hs2
    obtain ⟨h1, h2, _, _, _, h6⟩ := searchStates_counts env rootBoard hmoves (n + 1) s2 hs2
    rw [Nat.mod_eq_of_lt (by omega)] at h1
    rw [Nat.mod_eq_of_lt (by omega)] at h2
    unfold searchLoop
    rw [hit]
    simp only
    split
    · exact ⟨_, rfl⟩
    · have hp : printInfo env s2.root = some () :=
        printInfo_isSome env hsound (by omega) (h6 (by omega))
      rw [hp]
      split
      · rename_i hprinted
        split at hprinted <;> cases hprinted
      · split
        · rename_i hcont
          rw [h2] at hcont
          exact searchLoop_isSome env rootBoard hmoves hscale searchTimeMs maxDepth maxNodes
            boolPrintInfo hmax fuel _ (n + 1) s2 hs2 (Or.inr hcont.1) (by omega) (by omega)
        · exact ⟨_, rfl⟩

end Search

namespace Node

section Paths

variable {V : Type}

theorem SameStates.refl (n : Node V) : SameStates n n :=
  fun _ m h => ⟨m, h, rfl⟩

/-- The states are kept when the state of the node is, and each child has a counterpart with
the same index that keeps the states. -/
theorem SameStates.of_kept_children {n n1 : Node V} (h0 : n1.mGameState = n.mGameState)
    (h : ∀ i c, n.mChildren.get? i = some c →
      ∃ c1, n1.mChildren.get? i = some c1 ∧ SameStates c c1) : SameStates n n1 := by
  intro p m hm
  cases p with
  | nil =>
    rw [get?_nil] at hm
    cases hm
    exact ⟨n1, get?_nil n1, h0⟩
  | cons i p =>
    rw [get?_cons] at hm
    cases hc : n.mChildren.get? i with
    | none => rw [hc] at hm; cases hm
    | some c =>
      rw [hc] at hm
      obtain ⟨c1, hc1, hs⟩ := h i c hc
      obtain ⟨m1, hm1, hst⟩ := hs p m hm
      exact ⟨m1, by rw [get?_cons_of hc1]; exact hm1, hst⟩

/-- The states are kept when one child is replaced by a node that keeps its states. -/
theorem SameStates.of_set {n n1 c c1 : Node V} {i : Nat}
    (h0 : n1.mGameState = n.mGameState) (hc : n.mChildren.get? i = some c)
    (h1 : n1.mChildren = n.mChildren.set i c1) (hs : SameStates c c1) : SameStates n n1 := by
  refine SameStates.of_kept_children h0 (fun j x hx => ?_)
  rw [h1]
  by_cases hj : i = j
  · subst hj
    rw [hc] at hx
    cases hx
    have hi : i < n.mChildren.length := by
      rw [List.get?_eq_some] at hc
      exact hc.1
    exact ⟨c1, by rw [List.get?_eq_getElem?, List.getElem?_set_self hi], hs⟩
  · refine ⟨x, ?_, SameStates.refl x⟩
    rw [List.get?_eq_getElem?, List.getElem?_set_ne hj, ← List.get?_eq_getElem?]
    exact hx

/-- The states are kept when a child is appended. -/
theorem SameStates.of_append {n n1 : Node V} (l : List (Node V))
    (h0 : n1.mGameState = n.mGameState) (h1 : n1.mChildren = n.mChildren ++ l) :
    SameStates n n1 := by
  refine SameStates.of_kept_children h0 (fun j x hx => ⟨x, ?_, SameStates.refl x⟩)
  have hj : j < n.mChildren.length := by
    rw [List.get?_eq_some] at hx
    exact hx.1
  rw [h1, List.get?_eq_getElem?, List.getElem?_append_left hj, ← List.get?_eq_getElem?]
  exact hx

/-- A write through a path keeps the states when the node written keeps those of the node it
replaces. -/
theorem SameStates.of_set? {leaf leaf1 : Node V} (hs : SameStates leaf leaf1) :
    ∀ (p : List Nat) (n n1 : Node V), n.get? p = some leaf → n.set? p leaf1 = some n1 →
    SameStates n n1
  | [], n, n1, hg, h => by
    unfold set? at h
    rw [get?_nil] at hg
    cases h
    cases hg
    exact hs
  | i :: p, n, n1, hg, h => by
    rw [set?] at h
    rw [get?_cons] at hg
    cases hc : n.mChildren.get? i with
    | none => rw [hc] at h; cases h
    | some c =>
      rw [hc] at h hg
      simp only at h
      cases hc1 : c.set? p leaf1 with
      | none => rw [hc1] at h; cases h
      | some c1 =>
        rw [hc1] at h
        cases h
        exact SameStates.of_set rfl hc rfl (SameStates.of_set? hs p c c1 hg hc1)

end Paths

variable {V : Type} [LinearOrderedField V]

/-- The loop of `backprop` keeps the states. -/
theorem backpropLoop_sameStates (env : SearchEnv V) (wdl : V) :
    ∀ (p : List Nat) (n : Node V) (r : Node V × V),
    backpropLoop env n p wdl = some r → SameStates n r.1
  | [], n, r, h => by
    unfold backpropLoop at h
    cases h
    exact SameStates.of_append [] rfl (List.append_nil _).symm
  | i :: p, n, r, h => by
    rw [backpropLoop] at h
    cases hc : n.mChildren.get? i with
    | none => rw [hc] at h; cases h
    | some c =>
      rw [hc] at h
      simp only at h
      cases hr : backpropLoop env c p wdl with
      | none => rw [hr] at h; cases h
      | some r1 =>
        rw [hr] at h
        cases h
        exact SameStates.of_set rfl hc rfl (backpropLoop_sameStates env wdl p c r1 hr)

/-- An iteration keeps the states. -/
theorem Iterated.sameStates {env : SearchEnv V} {board : Board} {n n1 : Node V} {wdl : V}
    (h : Iterated env board n n1 wdl) : SameStates n n1 := by
  induction h with
  | terminal board n rng rng1 wdl _ _ =>
    exact SameStates.of_append [] rfl (List.append_nil _).symm
  | expanded board n move child board1 rng rng1 rng2 wdl _ _ _ _ _ =>
    exact SameStates.of_append [child.visit env (-wdl)] rfl rfl
  | descended board n i move c c1 wdl _ _ _ _ hchild _ ih =>
    exact SameStates.of_set rfl hchild rfl ih

/-- An iteration assigns the state `WON` to no node. -/
theorem Iterated.not_won {env : SearchEnv V} {board : Board} {n n1 : Node V} {wdl : V}
    (h : Iterated env board n n1 wdl) (hn : All (fun m => m.mGameState ≠ .WON) n) :
    All (fun m => m.mGameState ≠ .WON) n1 := by
  induction h with
  | terminal board n rng rng1 wdl _ _ =>
    exact All.of_mem (All.here hn) (fun c hc => All.mem hn hc)
  | expanded board n move child board1 rng rng1 rng2 wdl _ _ _ hnew _ =>
    obtain ⟨f1, _, _, _, f5, _, _⟩ := new_facts hnew
    refine All.of_mem (All.here hn) (fun c hc => ?_)
    have hc1 : c ∈ n.mChildren ++ [child.visit env (-wdl)] := hc
    rcases List.mem_append.mp hc1 with hc | hc
    · exact All.mem hn hc
    · rw [List.mem_singleton] at hc
      subst hc
      refine All.of_mem f5 (fun x hx => ?_)
      have : x ∈ child.mChildren := hx
      rw [f1] at this
      cases this
  | descended board n i move c c1 wdl _ _ _ _ hchild _ ih =>
    refine All.of_mem (All.here hn) (fun x hx => ?_)
    have hx1 : x ∈ n.mChildren.set i c1 := hx
    rcases List.mem_or_eq_of_mem_set hx1 with hx | hx
    · exact All.mem hn hx
    · subst hx
      exact ih (All.child hn hchild)

end Node

section Search

variable {V : Type} [LinearOrderedField V]

/-- The loop of `search` runs at most `max 1 maxNodes` iterations. -/
theorem searchLoop_le (env : SearchEnv V) (rootBoard : Board)
    (hmoves : rootBoard.legalMoves env.Z false ≠ [])
    (searchTimeMs maxDepth maxNodes : Nat) (boolPrintInfo : Bool) (hmax : maxNodes < 2 ^ 64) :
    ∀ (fuel : Nat) (last : Int) (n : Nat) (s s1 : SearchState V),
    searchStates env rootBoard n = some s → (n = 0 ∨ n < maxNodes) →
    searchLoop env rootBoard searchTimeMs maxDepth maxNodes boolPrintInfo fuel last s = some s1 →
    ∃ k, 1 ≤ k ∧ n + k ≤ max 1 maxNodes ∧ searchStates env rootBoard (n + k) = some s1
  | 0, _, _, _, _, _, _, h => by
    unfold searchLoop at h
    cases h
  | fuel + 1, last, n, s, s1, hs, hn, h => by
    unfold searchLoop at h
    cases hit : searchIteration env rootBoard s with
    | none => rw [hit] at h; cases h
    | some s2 =>
      rw [hit] at h
      simp only at h
      have hs2 : searchStates env rootBoard (n + 1) = some s2 := by
        rw [searchStates_succ, hs]
        exact hit
      have hnodes : s2.nodes = n + 1 := by
        rw [(searchStates_counts env rootBoard hmoves (n + 1) s2 hs2).2.1]
        exact Nat.mod_eq_of_lt (by omega)
      have hone : n + 1 ≤ max 1 maxNodes := by
        rcases hn with hn | hn
        · rw [hn]
          exact le_max_left _ _
        · exact le_trans hn (le_max_right _ _)
      split at h
      · cases h
        exact ⟨1, le_refl _, hone, hs2⟩
      · split at h
        · cases h
        · split at h
          · rename_i hcont
            rw [hnodes] at hcont
            obtain ⟨k, _, hk2, hk3⟩ := searchLoop_le env rootBoard hmoves searchTimeMs maxDepth
              maxNodes boolPrintInfo hmax fuel _ (n + 1) s2 s1 hs2 (Or.inr hcont.1) h
            exact ⟨k + 1, by omega, by omega, by rw [← hk3]; congr 1; omega⟩
          · cases h
            exact ⟨1, le_refl _, hone, hs2⟩

/-- The visit count of the root below the wrap of the `u32` counter. For every root position
with a legal move and every `EVAL_SCALE` but zero: after `n` iterations of the loop of `search`,
with `1 ≤ n < 2 ^ 32`, no assert of `search.hpp` has failed, the visit count of the root is
`n`, and so is the node count; for every `n` the visit count of the root after `n` iterations
is `n` modulo `2 ^ 32`, and the node count is `n` modulo `2 ^ 64`; with a node budget below
`2 ^ 32`, `search` returns, and the node count `n` that it returns is at least 1 and is the
number of iterations that the loop has run, after which the visit count of the root is `n`;
and with any budgets, the node count that `search` returns is the number of iterations run,
modulo `2 ^ 64`. -/
theorem search_root_visits (env : SearchEnv V) (rootBoard : Board)
    (hmoves : rootBoard.legalMoves env.Z false ≠ []) (hscale : env.EVAL_SCALE ≠ 0) :
    (∀ n, 1 ≤ n → n < 2 ^ 32 →
      ∃ s, searchStates env rootBoard n = some s ∧ s.root.mVisits = n ∧ s.nodes = n)
    ∧ (∀ n s, searchStates env rootBoard n = some s →
        s.root.mVisits = n % 2 ^ 32 ∧ s.nodes = n % 2 ^ 64)
    ∧ (∀ searchTimeMs maxDepth maxNodes boolPrintInfo fuel, maxNodes < 2 ^ 32 →
        maxNodes ≤ fuel → 1 ≤ fuel →
        ∃ move n s, search env rootBoard searchTimeMs maxDepth maxNodes boolPrintInfo fuel
            = some (move, n)
          ∧ 1 ≤ n ∧ searchStates env rootBoard n = some s ∧ s.root.mVisits = n ∧ s.nodes = n)
    ∧ (∀ searchTimeMs maxDepth maxNodes boolPrintInfo fuel move nodes,
        search env rootBoard searchTimeMs maxDepth maxNodes boolPrintInfo fuel
            = some (move, nodes) →
        ∃ n s, 1 ≤ n ∧ searchStates env rootBoard n = some s ∧ nodes = n % 2 ^ 64
          ∧ s.root.mVisits = n % 2 ^ 32) := by
  have h0 := searchInit_eq env rootBoard hmoves
  have hs0 : searchStates env rootBoard 0 = searchInit env rootBoard := by rw [searchStates]
  refine ⟨?_, ?_, ?_, ?_⟩
  · intro n _ hn
    obtain ⟨s, hs, _⟩ := searchStates_sound env rootBoard hmoves hscale n hn
    obtain ⟨h1, h2, _⟩ := searchStates_counts env rootBoard hmoves n s hs
    rw [Nat.mod_eq_of_lt hn] at h1
    rw [Nat.mod_eq_of_lt (by omega)] at h2
    exact ⟨s, hs, h1, h2⟩
  · intro n s hs
    obtain ⟨h1, h2, _⟩ := searchStates_counts env rootBoard hmoves n s hs
    exact ⟨h1, h2⟩
  · intro searchTimeMs maxDepth maxNodes boolPrintInfo fuel hmax hfuel hone
    rw [h0] at hs0
    obtain ⟨s1, hloop⟩ := searchLoop_isSome env rootBoard hmoves hscale searchTimeMs maxDepth
      maxNodes boolPrintInfo hmax fuel 0 0 _ hs0 (Or.inl rfl) (by omega) hone
    obtain ⟨k, hk1, hk2, hk3⟩ := searchLoop_le env rootBoard hmoves searchTimeMs maxDepth
      maxNodes boolPrintInfo (by omega) fuel 0 0 _ s1 hs0 (Or.inl rfl) hloop
    rw [Nat.zero_add] at hk2 hk3
    have hk : k < 2 ^ 32 := by
      rcases le_max_iff.mp hk2 with h | h
      · omega
      · omega
    obtain ⟨s2, hs2, hsound⟩ := searchStates_sound env rootBoard hmoves hscale k hk
    rw [hk3] at hs2
    cases hs2
    obtain ⟨h1, h2, _, _, _, h6⟩ := searchStates_counts env rootBoard hmoves k s1 hk3
    rw [Nat.mod_eq_of_lt hk] at h1
    rw [Nat.mod_eq_of_lt (by omega)] at h2
    have hp : printInfo env s1.root = some () :=
      printInfo_isSome env hsound (by omega) (h6 hk1)
    obtain ⟨move, hmove⟩ := Node.mostVisitsMove_isSome (Node.All.here hsound).1 (h6 hk1)
    refine ⟨move, k, s1, ?_, hk1, hk3, h1, h2⟩
    unfold search
    rw [h0]
    simp only
    rw [hloop]
    simp only
    rw [hp, hmove, h2]
    cases boolPrintInfo <;> rfl
  · intro searchTimeMs maxDepth maxNodes boolPrintInfo fuel move nodes h
    unfold search at h
    rw [h0] at h hs0
    simp only at h
    cases hloop : searchLoop env rootBoard searchTimeMs maxDepth maxNodes boolPrintInfo fuel 0
        ⟨⟨[], (env.shuffleVector env.resetRng (rootBoard.legalMoves env.Z false)).1,
          .ONGOING, 0, 0, 0⟩, rootBoard, 0, 0,
          (env.shuffleVector env.resetRng (rootBoard.legalMoves env.Z false)).2⟩ with
    | none => rw [hloop] at h; cases h
    | some s1 =>
      rw [hloop] at h
      simp only at h
      obtain ⟨k, hk1, _, hk3⟩ := searchLoop_eq_some env rootBoard searchTimeMs maxDepth maxNodes
        boolPrintInfo fuel 0 0 _ s1 hs0 hloop
      rw [Nat.zero_add] at hk3
      obtain ⟨h1, h2, _⟩ := searchStates_counts env rootBoard hmoves k s1 hk3
      refine ⟨k, s1, hk1, hk3, ?_, h1⟩
      split at h
      · cases h
      · cases hm : s1.root.mostVisitsMove with
        | none => rw [hm] at h; cases h
        | some mv =>
          rw [hm] at h
          simp only [Option.some.injEq, Prod.mk.injEq] at h
          rw [← h.2, h2]

/-- C20, where the code fails it: the visit count `mVisits` is a `u32`, the node count a
`u64`, and `backprop` increments the visit count without a check. From the position
`4k3/8/8/8/8/8/8/4K3 w - - 0 1`, which has a legal move, the loop completes `2 ^ 32`
iterations without a failing assert; after them the root has 0 visits, not `2 ^ 32`, while
the node count is `2 ^ 32`. -/
theorem search_root_visits_wraps :
    (Board.sampleBoard "4k3/8/8/8/8/8/8/4K3 w - - 0 1").legalMoves SearchEnv.sample.Z false ≠ []
    ∧ ∃ s, searchStates SearchEnv.sample (Board.sampleBoard "4k3/8/8/8/8/8/8/4K3 w - - 0 1")
          (2 ^ 32) = some s
        ∧ s.root.mVisits = 0 ∧ s.nodes = 2 ^ 32 := by
  have hmoves : (Board.sampleBoard "4k3/8/8/8/8/8/8/4K3 w - - 0 1").legalMoves
      SearchEnv.sample.Z false ≠ [] := by decide!
  obtain ⟨s, hs⟩ := searchStates_isSome SearchEnv.sample _ hmoves SearchEnv.sample_scale
    (2 ^ 32) (le_refl _)
  obtain ⟨h1, h2, _⟩ := searchStates_counts SearchEnv.sample _ hmoves _ s hs
  exact ⟨hmoves, s, hs, by rw [h1]; norm_num, by rw [h2]; norm_num⟩

end Search

namespace Node

variable {V : Type} [LinearOrderedField V]

/-- The trees of the loop of `search` hold no node in the state `WON`. -/
theorem searchStates_not_won (env : SearchEnv V) (rootBoard : Board) :
    ∀ (n : Nat) (s : SearchState V), searchStates env rootBoard n = some s →
    All (fun m => m.mGameState ≠ .WON) s.root
  | 0, s, h => by
    rw [searchStates] at h
    unfold searchInit at h
    cases hn : new env rootBoard true 0 env.resetRng with
    | none => rw [hn] at h; cases h
    | some r =>
      rw [hn] at h
      cases h
      rw [new_root] at hn
      split at hn
      · cases hn
      · cases hn
        exact All.of_mem (fun e => GameState.noConfusion e) (fun c hc => by cases hc)
  | n + 1, s, h => by
    rw [searchStates_succ] at h
    cases h0 : searchStates env rootBoard n with
    | none => rw [h0] at h; cases h
    | some s0 =>
      rw [h0] at h
      obtain ⟨⟨wdl, hit⟩, _, _⟩ := searchIteration_eq_some h
      exact hit.not_won (searchStates_not_won env rootBoard n s0 h0)

/-- C19: the classification of a node at its construction. The root node is `ONGOING`. A node
that is not the root is `DRAW` if its position has insufficient material or is a repetition;
otherwise, if `legalMoves` finds no move, it is `LOST` when the side to move is in check and
`DRAW` when it is not; otherwise it is `DRAW` if the fifty-move rule is met, and `ONGOING` if
not. The constructor never assigns `WON`. `expand`, `backprop` and a whole iteration of the
loop of `search` leave every node of the tree where it is with the state it has (`select` and
`simulate` write to no node), and no tree of the loop holds a node in the state `WON`. -/
theorem node_classification (env : SearchEnv V) :
    (∀ board depth rng r, new env board true depth rng = some r → r.1.mGameState = .ONGOING)
    ∧ (∀ rootBoard s, searchInit env rootBoard = some s → s.root.mGameState = .ONGOING)
    ∧ (∀ board depth rng, ∃ c rng1, new env board false depth rng = some (c, board, rng1)
        ∧ c.mGameState =
          if board.insufficientMaterial = true ∨ board.isRepetition = true then .DRAW
          else if board.legalMoves env.Z false = [] then
            (if board.inCheck = true then .LOST else .DRAW)
          else if board.fiftyMovesDraw = true then .DRAW
          else .ONGOING)
    ∧ (∀ board isRoot depth rng r, new env board isRoot depth rng = some r →
        r.1.mGameState ≠ .WON)
    ∧ (∀ (n : Node V) board rng r, n.expand env board rng = some r → SameStates n r.1)
    ∧ (∀ (root : Node V) path wdl root1, backprop env root path wdl = some root1 →
        SameStates root root1)
    ∧ (∀ rootBoard s s1, searchIteration env rootBoard s = some s1 → SameStates s.root s1.root)
    ∧ (∀ rootBoard n s, searchStates env rootBoard n = some s →
        All (fun m => m.mGameState ≠ .WON) s.root) := by
  have hroot : ∀ board depth rng r, new env board true depth rng = some r →
      r.1.mGameState = .ONGOING := by
    intro board depth rng r h
    rw [new_root] at h
    split at h
    · cases h
    · cases h
      rfl
  refine ⟨hroot, ?_, ?_, ?_, ?_, ?_, ?_, ?_⟩
  · intro rootBoard s h
    unfold searchInit at h
    cases hn : new env rootBoard true 0 env.resetRng with
    | none => rw [hn] at h; cases h
    | some r =>
      rw [hn] at h
      cases h
      exact hroot _ _ _ _ hn
  · intro board depth rng
    refine ⟨_, _, new_not_root env board depth rng, ?_⟩
    simp only [Bool.or_eq_true]
  · intro board isRoot depth rng r h
    cases isRoot with
    | true =>
      rw [hroot _ _ _ _ h]
      decide
    | false =>
      obtain ⟨c, board1, rng1⟩ := r
      exact (new_facts h).2.2.2.2.1
  · intro n board rng r h
    obtain ⟨n1, board1, rng1⟩ := r
    obtain ⟨_, _, move, child, _, _, h1⟩ := expand_eq_some h
    rw [h1]
    exact SameStates.of_append [child] rfl rfl
  · intro root path wdl root1 h
    unfold backprop at h
    split at h
    · cases hr : backpropLoop env root path wdl with
      | none => rw [hr] at h; cases h
      | some r =>
        rw [hr] at h
        cases h
        exact backpropLoop_sameStates env wdl path root r hr
    · cases h
  · intro rootBoard s s1 h
    obtain ⟨⟨wdl, hit⟩, _, _⟩ := searchIteration_eq_some h
    exact hit.sameStates
  · exact fun rootBoard n s h => searchStates_not_won env rootBoard n s h

/-- The classification at work: in the position after `1. f3 e5 2. g4 Qh4`, White is to move,
in check, and has no legal move: the node built for it is `LOST`. -/
theorem node_classification_witness :
    ∃ c rng1,
      new SearchEnv.sample
          (Board.sampleBoard "rnb1kbnr/pppp1ppp/8/4p3/6Pq/5P2/PPPPP2P/RNBQKBNR w KQkq - 1 3")
          false 1 0
        = some (c,
            Board.sampleBoard "rnb1kbnr/pppp1ppp/8/4p3/6Pq/5P2/PPPPP2P/RNBQKBNR w KQkq - 1 3",
            rng1)
      ∧ c.mGameState = .LOST := by
  obtain ⟨c, rng1, h, hst⟩ := (node_classification SearchEnv.sample).2.2.1
    (Board.sampleBoard "rnb1kbnr/pppp1ppp/8/4p3/6Pq/5P2/PPPPP2P/RNBQKBNR w KQkq - 1 3") 1 0
  refine ⟨c, rng1, h, hst.trans ?_⟩
  rw [if_neg (by decide!), if_pos (by decide!), if_pos (by decide!)]

end Node

namespace Board

end Board

namespace Board

/-- A move of `legalMoves` with the en-passant flag comes from the en-passant loop. -/
theorem mem_legalMoves_enPassant (Z : Zobrist) {b : Board} (hv : b.Valid)
    (hchk : popcount b.checkers ≤ 1) (u : Bool) {m : Move}
    (hflag : m.flag = Move.EN_PASSANT_FLAG) :
    m ∈ b.legalMoves Z u ↔ m ∈ b.enPassantMoves Z := by
  rw [legalMoves_eq, List.mem_append, if_neg (by omega)]
  unfold nonKingMoves
  simp only [List.mem_append]
  constructor
  · rintro (hm | (((((hm | hm) | hm) | hm) | hm) | hm) | hm)
    · exact absurd hflag (normalMove_king hv hm).2.1
    · rw [(mem_castlingMoves_flag hm).1] at hflag
      exact absurd hflag (by decide)
    · exact hm
    · exact absurd hflag (normalMove_pawn hv hm).2.1
    · exact absurd hflag (normalMove_knight hm).2.1
    · exact absurd hflag (normalMove_bishop hm).2.1
    · exact absurd hflag (normalMove_rook hm).2.1
    · exact absurd hflag (normalMove_queen hm).2.1
  · intro hm
    exact Or.inr (Or.inl (Or.inl (Or.inl (Or.inl (Or.inl (Or.inr hm))))))

/-- The test of the en-passant loop is the test of the king after `makeMove`. -/
theorem inCheck_enPassantMade (Z : Zobrist) (b : Board) {m : Move}
    (hflag : m.flag = Move.EN_PASSANT_FLAG) (ht : m.toSq = b.mEnPassantSquare) :
    (b.makeMove Z m).isSquareAttacked
      (lsb ((b.makeMove Z m).them &&& (b.makeMove Z m).kings))
      (b.makeMove Z m).mColorToMove = (b.enPassantMade Z m.fromSq).inCheck := by
  obtain ⟨hc, hp⟩ := makeMove_enPassantMade Z b hflag ht
  have hk : (b.makeMove Z m).kings = (b.enPassantMade Z m.fromSq).kings := hp .KING
  have hcol : (b.enPassantMade Z m.fromSq).mColorToMove = b.mColorToMove :=
    (enPassantMade_fields Z b m.fromSq).1
  unfold them
  rw [mColorToMove_makeMove, oppColor_oppColor, isSquareAttacked_congr hc hp, hc, hk]
  unfold inCheck us
  rw [hcol]

end Board

namespace Board

/-- The square of the pawn that an en-passant capture takes, in plain arithmetic. -/
theorem enPassant_captured {b : Board} (hepc : b.enPassantConsistent = true) {m : Move}
    (hem : b.EnPassantMove m) :
    (if b.mColorToMove = .WHITE then subSq m.toSq 8 else addSq m.toSq 8)
      = if b.mColorToMove = .WHITE then m.toSq - 8 else m.toSq + 8 := by
  obtain ⟨_, _, _, _, _, hW, hB⟩ := enPassant_facts hepc hem rfl
  have hcols : b.mColorToMove = .WHITE ∨ b.mColorToMove = .BLACK := by
    cases b.mColorToMove
    · exact Or.inl rfl
    · exact Or.inr rfl
  rcases hcols with hw | hb
  · have := (hW hw).2
    simp only [hw, if_true] at this ⊢
    omega
  · have := (hB hb).2
    have hc' : ¬ Color.BLACK = Color.WHITE := by decide
    simp only [hb, hc', if_false] at this ⊢
    exact this

/-- An en-passant capture that takes the two pawns off the rank between the king and an enemy
rook or queen leaves the king attacked. -/
theorem enPassant_exposes_rank (Z : Zobrist) {b : Board} (hv : b.Valid)
    (hepc : b.enPassantConsistent = true) {m : Move} (hem : b.EnPassantMove m) {r : Nat}
    (hr : has b.them r = true) (hrq : has b.rooks r = true ∨ has b.queens r = true)
    (hrank : b.kingSquare / 8 = r / 8)
    (hbp : isBetween b.kingSquare m.fromSq r = true)
    (hbc : isBetween b.kingSquare
      (if b.mColorToMove = .WHITE then m.toSq - 8 else m.toSq + 8) r = true)
    (honly : ∀ x, x < 64 → isBetween b.kingSquare x r = true → has b.occupancy x = true →
      x = m.fromSq ∨ x = (if b.mColorToMove = .WHITE then m.toSq - 8 else m.toSq + 8)) :
    (b.makeMove Z m).isSquareAttacked
      (lsb ((b.makeMove Z m).colorBb b.mColorToMove &&& (b.makeMove Z m).kings))
      (oppColor b.mColorToMove) = true := by
  obtain ⟨ht64, hcs64, ho, hthem, hpw, hW, hB⟩ := enPassant_facts hepc hem rfl
  obtain ⟨h1, h2, h3⟩ := makeMove_enPassant Z hv hepc hem rfl
  rw [enPassant_captured hepc hem] at hcs64 hthem hpw hW hB h2 h3
  obtain ⟨hflag, hf64, hus, hp, _, _, _⟩ := hem
  generalize (if b.mColorToMove = Color.WHITE then m.toSq - 8 else m.toSq + 8) = cs
    at hcs64 hthem hpw hW hB h2 h3 hbc honly
  obtain ⟨hk64, hkspec⟩ := hv.kingSquare_spec
  obtain ⟨hkus, hkk⟩ := (hkspec _).mpr rfl
  have hLkr : LineKind.rank.same b.kingSquare r := hrank
  obtain ⟨hLkp, _⟩ := isBetween_pos hLkr hbp
  obtain ⟨hLkc, _⟩ := isBetween_pos hLkr hbc
  have hLkp' : b.kingSquare / 8 = m.fromSq / 8 := hLkp
  have hLkc' : b.kingSquare / 8 = cs / 8 := hLkc
  have hkr : b.kingSquare ≠ r := by
    obtain ⟨_, _, _, _, _, _, h⟩ := isBetween_line hbp
    exact h
  have hr64 : r < 64 := hv.color_lt hr
  have hrcs : r ≠ cs := by
    intro e
    rw [← e] at hpw
    rcases hrq with h | h
    · exact PieceType.noConfusion (hv.piece_unique (p := .PAWN) (q := .ROOK) hpw h)
    · exact PieceType.noConfusion (hv.piece_unique (p := .PAWN) (q := .QUEEN) hpw h)
  have hrp : r ≠ m.fromSq := by
    intro e
    rw [e, hv.us_them hus] at hr
    exact Bool.noConfusion hr
  have hrt : r ≠ m.toSq := by
    intro e
    rw [e] at hr
    rw [b.has_them_occupancy hr] at ho
    exact Bool.noConfusion ho
  have htrank : m.toSq / 8 ≠ b.kingSquare / 8 := by
    have hcols : b.mColorToMove = .WHITE ∨ b.mColorToMove = .BLACK := by
      cases b.mColorToMove
      · exact Or.inl rfl
      · exact Or.inr rfl
    rcases hcols with hw | hb
    · have := (hW hw).2
      omega
    · have := (hB hb).2
      omega
  have hking : ∀ s, has ((b.makeMove Z m).colorBb b.mColorToMove &&& (b.makeMove Z m).kings) s
      = true ↔ s = b.kingSquare := by
    intro s
    have h3k := h3 .KING s
    have h3k' : has (b.makeMove Z m).kings s
        = if s = m.toSq then decide (PieceType.KING = PieceType.PAWN)
          else if s = m.fromSq ∨ s = cs then false else has b.kings s := h3k
    rw [has_and, h1, h3k', Bool.and_eq_true]
    constructor
    · rintro ⟨ha, hb⟩
      by_cases e1 : s = m.toSq
      · rw [if_pos e1] at hb
        exact absurd hb (by decide)
      · rw [if_neg e1] at hb
        by_cases e2 : s = m.fromSq ∨ s = cs
        · rw [if_pos e2] at hb
          exact Bool.noConfusion hb
        · rw [if_neg e2] at hb
          simp only [e1, decide_False, Bool.false_or, Bool.and_eq_true] at ha
          exact (hkspec s).mp ⟨ha.1, hb⟩
    · intro e
      subst e
      have e1 : b.kingSquare ≠ m.toSq := by
        intro e
        rw [← e, b.has_us_occupancy hkus] at ho
        exact Bool.noConfusion ho
      have e2 : b.kingSquare ≠ m.fromSq := by
        intro e
        rw [← e] at hp
        exact PieceType.noConfusion (hv.piece_unique (p := .PAWN) (q := .KING) hp hkk)
      have e3 : b.kingSquare ≠ cs := by
        intro e
        rw [← e, hv.us_them hkus] at hthem
        exact Bool.noConfusion hthem
      simp [e1, e2, e3, hkus, hkk]
  rw [(lsb_eq_of_has_iff hk64 hking).1, isSquareAttacked_iff]
  have hclear : ∀ u, u < 64 → isBetween r u b.kingSquare = true →
      has (b.makeMove Z m).occupancy u = false := by
    intro u hu hb
    rw [isBetween_symm] at hb
    obtain ⟨hLku, _⟩ := isBetween_pos hLkr hb
    have hLku' : b.kingSquare / 8 = u / 8 := hLku
    have hut : u ≠ m.toSq := by
      intro e
      rw [e] at hLku'
      exact htrank hLku'.symm
    rw [has_occupancy _ b.mColorToMove, h1, h2]
    simp only [hut, decide_False, Bool.false_or, Bool.or_eq_false_iff, Bool.and_eq_false_imp,
      Bool.not_eq_eq_eq_not, Bool.not_false, decide_eq_true_eq, Bool.not_true,
      decide_eq_false_iff_not]
    constructor
    · intro hu1
      rcases honly u hu hb (b.has_us_occupancy hu1) with e | e
      · exact e
      · rw [e, hv.them_us hthem] at hu1
        exact Bool.noConfusion hu1
    · intro hu1
      rcases honly u hu hb (b.has_them_occupancy hu1) with e | e
      · rw [e, hv.us_them hus] at hu1
        exact Bool.noConfusion hu1
      · exact e
  have hatt : has (rookAttacks r (b.makeMove Z m).occupancy) b.kingSquare = true :=
    has_rookAttacks_line.mpr ⟨hr64, hk64, Ne.symm hkr,
      ⟨.rank, rfl, LineKind.same_symm hLkr⟩, hclear⟩
  have hcolr : has ((b.makeMove Z m).colorBb (oppColor b.mColorToMove)) r = true := by
    rw [h2, hr]
    simp [hrcs]
  have hpiece : ∀ R, has ((b.makeMove Z m).pieceBb R) r = has (b.pieceBb R) r := by
    intro R
    rw [h3, if_neg hrt, if_neg (by simp [hrp, hrcs])]
  rcases hrq with h | h
  · exact ⟨r, .ROOK, hcolr, by rw [hpiece]; exact h, hatt⟩
  · exact ⟨r, .QUEEN, hcolr, by rw [hpiece]; exact h, has_queenAttacks.mpr (Or.inr hatt)⟩

/-- A piece with a second piece between the king and an enemy slider on the king's rank is not
in `pinned()`. -/
theorem not_pinned_of_two_between {b : Board} (hv : b.Valid) {p cs r : Nat}
    (hus : has b.us p = true) (hthem : has b.them cs = true) (hpw : has b.pawns cs = true)
    (hr : has b.them r = true) (hrank : b.kingSquare / 8 = r / 8)
    (hbp : isBetween b.kingSquare p r = true) (hbc : isBetween b.kingSquare cs r = true)
    (honly : ∀ x, x < 64 → isBetween b.kingSquare x r = true → has b.occupancy x = true →
      x = p ∨ x = cs) :
    has b.pinned.1 p = false ∧ has b.pinned.2 p = false := by
  have hLkr : LineKind.rank.same b.kingSquare r := hrank
  obtain ⟨hLkp, hpos⟩ := isBetween_pos hLkr hbp
  obtain ⟨_, _, _, _, hkp, _, hkr⟩ := isBetween_line hbp
  have hpcs : p ≠ cs := by
    intro e
    rw [e, hv.them_us hthem] at hus
    exact Bool.noConfusion hus
  have hcs64 : cs < 64 := hv.color_lt hthem
  have hr64 : r < 64 := hv.color_lt hr
  constructor
  · cases hpin : has b.pinned.1 p
    · rfl
    · obtain ⟨s, _, hs, hsq, ⟨L, _, hLks⟩, hs64, hbs, _, hsole⟩ := (has_pinned_fst hv p).mp hpin
      exfalso
      obtain ⟨M, m1, _, m3, _, _, hks⟩ := isBetween_line hbs
      have eM : M = .rank := LineKind.unique hkp m1 hLkp
      subst eM
      have hs64' : s < 64 := hv.color_lt hs
      by_cases esr : s = r
      · subst esr
        exact hpcs (hsole cs hcs64 hbc (b.has_them_occupancy hthem)).symm
      · rcases line_cases hLkr m3 (fun e => hks e.symm) esr hkr with h | h | h
        · rcases honly s hs64' h (b.has_them_occupancy hs) with e | e
          · rw [e, hv.us_them hus] at hs
            exact Bool.noConfusion hs
          · rw [e] at hsq
            simp only [if_true] at hsq
            rcases hsq with hq | hq
            · exact PieceType.noConfusion (hv.piece_unique (p := .PAWN) (q := .ROOK) hpw hq)
            · exact PieceType.noConfusion (hv.piece_unique (p := .PAWN) (q := .QUEEN) hpw hq)
        · obtain ⟨q1, q2⟩ :=
            isBetween_pos (LineKind.same_trans (LineKind.same_symm m3) hLkr) h
          obtain ⟨q3, q4⟩ := isBetween_pos m3 hbs
          omega
        · have := hsole r hr64 h (b.has_them_occupancy hr)
          rw [this, hv.us_them hus] at hr
          exact Bool.noConfusion hr
  · cases hpin : has b.pinned.2 p
    · rfl
    · obtain ⟨s, _, _, _, ⟨L, hL, hLks⟩, _, hbs, _, _⟩ := (has_pinned_snd hv p).mp hpin
      exfalso
      obtain ⟨M, m1, _, m3, _, _, hks⟩ := isBetween_line hbs
      have eM : M = .rank := LineKind.unique hkp m1 hLkp
      subst eM
      have eL : L = .rank := LineKind.unique hks hLks m3
      subst eL
      exact absurd hL (by decide)

end Board

namespace Board

/-- The legality of an en-passant capture in terms of the board after `makeMove`: in a valid
position with an en-passant square that is not in double check, the move from `p` to the
en-passant square with the en-passant flag is in `legalMoves` if and only if an own pawn
stands on `p`, it attacks the en-passant square, and after `makeMove` the mover's king is not
attacked. -/
theorem mem_legalMoves_enPassant_iff (Z : Zobrist) {b : Board} (hv : b.Valid)
    (hep : b.mEnPassantSquare ≠ SQUARE_NONE) (hchk : popcount b.checkers ≤ 1) (u : Bool)
    (p : Nat) :
    (⟨p, b.mEnPassantSquare, Move.EN_PASSANT_FLAG⟩ : Move) ∈ b.legalMoves Z u ↔
      has b.us p = true ∧ has b.pawns p = true
      ∧ has (pawnAttacks p b.mColorToMove) b.mEnPassantSquare = true
      ∧ (b.makeMove Z ⟨p, b.mEnPassantSquare, Move.EN_PASSANT_FLAG⟩).isSquareAttacked
          (lsb ((b.makeMove Z ⟨p, b.mEnPassantSquare, Move.EN_PASSANT_FLAG⟩).colorBb
            b.mColorToMove
            &&& (b.makeMove Z ⟨p, b.mEnPassantSquare, Move.EN_PASSANT_FLAG⟩).kings))
          (oppColor b.mColorToMove) = false := by
  have e := inCheck_enPassantMade Z b (m := ⟨p, b.mEnPassantSquare, Move.EN_PASSANT_FLAG⟩)
    rfl rfl
  unfold them at e
  rw [mColorToMove_makeMove, oppColor_oppColor] at e
  rw [mem_legalMoves_enPassant Z hv hchk u rfl, mem_enPassantMoves, e,
    has_pawnAttacks_symm p b.mEnPassantSquare b.mColorToMove]
  constructor
  · rintro ⟨_, _, _, _, h1, h2, h3, h4⟩
    exact ⟨h1, h2, h3, h4⟩
  · rintro ⟨h1, h2, h3, h4⟩
    exact ⟨hep, rfl, rfl, hv.color_lt h1, h1, h2, h3, h4⟩

/-- The board after an en-passant capture by `makeMove` has the bitboards of the position in
the words of the specification, when the en-passant square agrees with the pieces. -/
theorem makeMove_enPassantCaptured (Z : Zobrist) {b : Board} (hv : b.Valid)
    (hepc : b.enPassantConsistent = true) {p : Nat}
    (hem : b.EnPassantMove ⟨p, b.mEnPassantSquare, Move.EN_PASSANT_FLAG⟩) :
    (∀ c, (b.makeMove Z ⟨p, b.mEnPassantSquare, Move.EN_PASSANT_FLAG⟩).colorBb c
      = (b.enPassantCaptured p).colorBb c)
    ∧ (∀ R, (b.makeMove Z ⟨p, b.mEnPassantSquare, Move.EN_PASSANT_FLAG⟩).pieceBb R
      = (b.enPassantCaptured p).pieceBb R) := by
  obtain ⟨f1, f2, f3⟩ := makeMove_enPassant Z hv hepc hem rfl
  rw [enPassant_captured hepc hem] at f2 f3
  have f1' : ∀ x, has ((b.makeMove Z ⟨p, b.mEnPassantSquare, Move.EN_PASSANT_FLAG⟩).colorBb
      b.mColorToMove) x
        = (decide (x = b.mEnPassantSquare) || (has b.us x && !decide (x = p))) := f1
  have f2' : ∀ x, has ((b.makeMove Z ⟨p, b.mEnPassantSquare, Move.EN_PASSANT_FLAG⟩).colorBb
      (oppColor b.mColorToMove)) x
        = (has b.them x && !decide (x = if b.mColorToMove = .WHITE then b.mEnPassantSquare - 8
            else b.mEnPassantSquare + 8)) := f2
  have f3' : ∀ R x, has ((b.makeMove Z ⟨p, b.mEnPassantSquare, Move.EN_PASSANT_FLAG⟩).pieceBb
      R) x
        = if x = b.mEnPassantSquare then decide (R = .PAWN)
          else if x = p ∨ x = (if b.mColorToMove = .WHITE then b.mEnPassantSquare - 8
            else b.mEnPassantSquare + 8) then false
          else has (b.pieceBb R) x := f3
  clear f1 f2 f3
  have hpw := (enPassant_facts hepc hem rfl).2.2.2.2.1
  rw [enPassant_captured hepc hem] at hpw
  have hpp : has b.pawns p = true := hem.2.2.2.1
  have he64 : b.mEnPassantSquare < 64 := (enPassant_facts hepc hem rfl).1
  have hcol : ∀ c : Color, c = b.mColorToMove ∨ c = oppColor b.mColorToMove := by
    intro c
    cases c <;> cases b.mColorToMove <;> simp [oppColor]
  have hE1 : ∀ x, has ((b.enPassantCaptured p).colorBb b.mColorToMove) x
      = ((has b.us x && (decide (x < 64) && !decide (p = x)))
          || decide (b.mEnPassantSquare = x)) := by
    intro x
    cases hc : b.mColorToMove <;>
      simp [enPassantCaptured, colorBb, hc, has_or, has_and, has_not64, has_bit, us]
  have hE2 : ∀ x, has ((b.enPassantCaptured p).colorBb (oppColor b.mColorToMove)) x
      = (has b.them x && (decide (x < 64)
          && !decide ((if b.mColorToMove = .WHITE then b.mEnPassantSquare - 8
            else b.mEnPassantSquare + 8) = x))) := by
    intro x
    cases hc : b.mColorToMove <;>
      simp [enPassantCaptured, colorBb, hc, has_or, has_and, has_not64, has_bit, them, oppColor]
  have hE3 : ∀ R, R ≠ .PAWN → (b.enPassantCaptured p).pieceBb R = b.pieceBb R := by
    intro R hR
    cases R <;> first | rfl | exact absurd rfl hR
  have hE4 : ∀ x, has ((b.enPassantCaptured p).pieceBb .PAWN) x
      = ((has b.pawns x && (decide (x < 64) && !decide (p = x))
          && (decide (x < 64)
            && !decide ((if b.mColorToMove = .WHITE then b.mEnPassantSquare - 8
              else b.mEnPassantSquare + 8) = x)))
          || decide (b.mEnPassantSquare = x)) := by
    intro x
    simp [enPassantCaptured, pieceBb, has_or, has_and, has_not64, has_bit]
  obtain ⟨cs, hcs⟩ : ∃ cs, (if b.mColorToMove = Color.WHITE then b.mEnPassantSquare - 8
      else b.mEnPassantSquare + 8) = cs := ⟨_, rfl⟩
  rw [hcs] at f2' f3' hE2 hE4 hpw
  have key : ∀ (h : Bool) (x : Nat), (h = true → x < 64) →
      (h && (decide (x < 64) && !decide (p = x))) = (h && !decide (x = p))
      ∧ (h && (decide (x < 64) && !decide (cs = x))) = (h && !decide (x = cs)) := by
    intro h x hx
    cases h
    · exact ⟨rfl, rfl⟩
    · have := hx rfl
      simp [this, eq_comm]
  constructor
  · intro c
    apply eq_of_has_eq
    intro x
    rcases hcol c with e | e
    · rw [e, f1', hE1, (key (has b.us x) x (fun h => hv.color_lt h)).1, Bool.or_comm]
      simp [eq_comm]
    · rw [e, f2', hE2, (key (has b.them x) x (fun h => hv.color_lt h)).2]
  · intro R
    apply eq_of_has_eq
    intro x
    rw [f3']
    by_cases hR : R = .PAWN
    · subst hR
      rw [hE4]
      have hx : has b.pawns x = true → x < 64 := fun h => hv.piece_lt (p := .PAWN) h
      have hb : b.pieceBb .PAWN = b.pawns := rfl
      rw [hb]
      by_cases h1 : x = b.mEnPassantSquare
      · simp [h1, eq_comm]
      · by_cases h3 : x = p
        · simp [h1, h3, Ne.symm h1, eq_comm]
        · by_cases h4 : x = cs
          · simp [h1, h4, Ne.symm h1, eq_comm]
          · cases h : has b.pawns x
            · simp [h1, h3, h4, Ne.symm h1]
            · have := hx h
              simp [h1, h3, h4, this, Ne.symm h1, Ne.symm h3, Ne.symm h4]
    · rw [hE3 R hR]
      by_cases h1 : x = b.mEnPassantSquare
      · rw [if_pos h1]
        have hne : has (b.pieceBb R) x = false := by
          cases h : has (b.pieceBb R) x
          · rfl
          · have ho : has b.occupancy b.mEnPassantSquare = false :=
              (enPassant_facts hepc hem rfl).2.2.1
            rw [← h1, (hv.occupied_iff x).mpr ⟨R, h⟩] at ho
            exact Bool.noConfusion ho
        rw [hne]
        simp [hR]
      · rw [if_neg h1]
        by_cases h2 : x = p ∨ x = cs
        · rw [if_pos h2]
          cases h : has (b.pieceBb R) x
          · rfl
          · rcases h2 with h2 | h2
            · rw [h2] at h
              exact absurd (hv.piece_unique (p := R) (q := .PAWN) h hpp) hR
            · rw [h2] at h
              exact absurd (hv.piece_unique (p := R) (q := .PAWN) h hpw) hR
        · rw [if_neg h2]

end Board

namespace Board

/-- C5 (amended): the legality of an en-passant capture. In a valid position whose en-passant
square `e` agrees with the pieces and that is not in double check, the move from `p` to `e`
with the en-passant flag is in `legalMoves` if and only if an own pawn stands on `p`, it
attacks `e`, and in the position obtained by moving that pawn from `p` to `e` and removing the
enemy pawn right behind `e` the mover's king is not attacked; that position is the one that
`makeMove` leaves. In particular, when the mover's king and an enemy rook or queen stand on one
rank with only the capturing pawn and the pawn to be captured between them, the capture is not
in `legalMoves`, although `pinned()` does not hold the capturing pawn. -/
theorem enPassant_legal_iff (Z : Zobrist) (b : Board) (hv : b.Valid)
    (hepc : b.enPassantConsistent = true) (hep : b.mEnPassantSquare ≠ SQUARE_NONE)
    (hchk : popcount b.checkers ≤ 1) (u : Bool) (p : Nat) :
    ((⟨p, b.mEnPassantSquare, Move.EN_PASSANT_FLAG⟩ : Move) ∈ b.legalMoves Z u ↔
      has b.us p = true ∧ has b.pawns p = true
      ∧ has (pawnAttacks p b.mColorToMove) b.mEnPassantSquare = true
      ∧ (b.enPassantCaptured p).inCheck = false)
    ∧ (has b.us p = true → has b.pawns p = true →
        has (pawnAttacks p b.mColorToMove) b.mEnPassantSquare = true →
        has b.them (if b.mColorToMove = .WHITE then b.mEnPassantSquare - 8
          else b.mEnPassantSquare + 8) = true
        ∧ has b.pawns (if b.mColorToMove = .WHITE then b.mEnPassantSquare - 8
          else b.mEnPassantSquare + 8) = true
        ∧ (∀ c, (b.makeMove Z ⟨p, b.mEnPassantSquare, Move.EN_PASSANT_FLAG⟩).colorBb c
            = (b.enPassantCaptured p).colorBb c)
        ∧ (∀ R, (b.makeMove Z ⟨p, b.mEnPassantSquare, Move.EN_PASSANT_FLAG⟩).pieceBb R
            = (b.enPassantCaptured p).pieceBb R))
    ∧ (∀ r, has b.us p = true → has b.pawns p = true →
        has (pawnAttacks p b.mColorToMove) b.mEnPassantSquare = true →
        has b.them r = true → (has b.rooks r = true ∨ has b.queens r = true) →
        b.kingSquare / 8 = r / 8 → isBetween b.kingSquare p r = true →
        isBetween b.kingSquare (if b.mColorToMove = .WHITE then b.mEnPassantSquare - 8
          else b.mEnPassantSquare + 8) r = true →
        (∀ x, x < 64 → isBetween b.kingSquare x r = true → has b.occupancy x = true →
          x = p ∨ x = (if b.mColorToMove = .WHITE then b.mEnPassantSquare - 8
            else b.mEnPassantSquare + 8)) →
        (⟨p, b.mEnPassantSquare, Move.EN_PASSANT_FLAG⟩ : Move) ∉ b.legalMoves Z u
        ∧ has b.pinned.1 p = false ∧ has b.pinned.2 p = false) := by
  have hem : has b.us p = true → has b.pawns p = true →
      has (pawnAttacks p b.mColorToMove) b.mEnPassantSquare = true →
      b.EnPassantMove ⟨p, b.mEnPassantSquare, Move.EN_PASSANT_FLAG⟩ :=
    fun h1 h2 h3 => ⟨rfl, hv.color_lt h1, h1, h2, rfl, hep, h3⟩
  have hsame : has b.us p = true → has b.pawns p = true →
      has (pawnAttacks p b.mColorToMove) b.mEnPassantSquare = true →
      (b.makeMove Z ⟨p, b.mEnPassantSquare, Move.EN_PASSANT_FLAG⟩).isSquareAttacked
          (lsb ((b.makeMove Z ⟨p, b.mEnPassantSquare, Move.EN_PASSANT_FLAG⟩).colorBb
            b.mColorToMove
            &&& (b.makeMove Z ⟨p, b.mEnPassantSquare, Move.EN_PASSANT_FLAG⟩).kings))
          (oppColor b.mColorToMove) = (b.enPassantCaptured p).inCheck := by
    intro h1 h2 h3
    obtain ⟨hc, hp⟩ := makeMove_enPassantCaptured Z hv hepc (hem h1 h2 h3)
    have hk : (b.makeMove Z ⟨p, b.mEnPassantSquare, Move.EN_PASSANT_FLAG⟩).kings
        = (b.enPassantCaptured p).kings := hp .KING
    rw [isSquareAttacked_congr hc hp, hc, hk]
    rfl
  have hiff := mem_legalMoves_enPassant_iff Z hv hep hchk u p
  refine ⟨?_, ?_, ?_⟩
  · rw [hiff]
    constructor
    · rintro ⟨h1, h2, h3, h4⟩
      exact ⟨h1, h2, h3, by rw [← hsame h1 h2 h3]; exact h4⟩
    · rintro ⟨h1, h2, h3, h4⟩
      exact ⟨h1, h2, h3, by rw [hsame h1 h2 h3]; exact h4⟩
  · intro h1 h2 h3
    obtain ⟨_, _, _, hthem, hpw, _, _⟩ := enPassant_facts hepc (hem h1 h2 h3) rfl
    rw [enPassant_captured hepc (hem h1 h2 h3)] at hthem hpw
    obtain ⟨hc, hp⟩ := makeMove_enPassantCaptured Z hv hepc (hem h1 h2 h3)
    exact ⟨hthem, hpw, hc, hp⟩
  · intro r h1 h2 h3 hr hrq hrank hbp hbc honly
    obtain ⟨_, _, _, hthem, hpw, _, _⟩ := enPassant_facts hepc (hem h1 h2 h3) rfl
    rw [enPassant_captured hepc (hem h1 h2 h3)] at hthem hpw
    refine ⟨?_, not_pinned_of_two_between hv h1 hthem hpw hr hrank hbp hbc honly⟩
    intro hm
    have hsafe := (hiff.mp hm).2.2.2
    have hatt := enPassant_exposes_rank Z hv hepc (hem h1 h2 h3) hr hrq hrank hbp hbc honly
    rw [hsafe] at hatt
    exact Bool.noConfusion hatt

/-- The en-passant test at work: in the position `8/8/8/8/k2Pp2Q/8/8/3K4 b - d3 0 1` the black
king on `a4` and the white queen on `h4` have only the pawns on `d4` and `e4` between them.
The capture `e4d3` is not in `legalMoves`, and `pinned()` does not hold the pawn on `e4`. -/
theorem enPassant_legal_iff_witness :
    (sampleBoard "8/8/8/8/k2Pp2Q/8/8/3K4 b - d3 0 1").Valid
    ∧ (sampleBoard "8/8/8/8/k2Pp2Q/8/8/3K4 b - d3 0 1").enPassantConsistent = true
    ∧ (sampleBoard "8/8/8/8/k2Pp2Q/8/8/3K4 b - d3 0 1").mEnPassantSquare = 19
    ∧ (⟨28, 19, Move.EN_PASSANT_FLAG⟩ : Move)
        ∉ (sampleBoard "8/8/8/8/k2Pp2Q/8/8/3K4 b - d3 0 1").legalMoves Zobrist.sample true
    ∧ has (sampleBoard "8/8/8/8/k2Pp2Q/8/8/3K4 b - d3 0 1").pinned.1 28 = false
    ∧ has (sampleBoard "8/8/8/8/k2Pp2Q/8/8/3K4 b - d3 0 1").pinned.2 28 = false :=
  ⟨by decide!, by decide!, by decide!,
    (enPassant_legal_iff Zobrist.sample (sampleBoard "8/8/8/8/k2Pp2Q/8/8/3K4 b - d3 0 1")
      (by decide!) (by decide!) (by decide!) (by decide!) true 28).2.2 31 (by decide!)
      (by decide!) (by decide!) (by decide!) (Or.inr (by decide!)) (by decide!) (by decide!)
      (by decide!) (by decide!)⟩

/-- C5, as worded, fails: the position `4k3/8/8/r3P2K/8/8/8/8 w - d6 0 1` is valid and has the
en-passant square `d6`, but no black pawn stands on `d5`. With the pawn moved from `e5` to `d6`
the white king on `h5` is attacked by the rook on `a5`; yet `legalMoves` returns `e5d6`,
because its test toggles a black pawn onto `d5`, which shields the king. -/
theorem enPassant_legal_needs_consistency :
    ∃ b ∈ Board.ofFen Zobrist.sample "4k3/8/8/r3P2K/8/8/8/8 w - d6 0 1".toList,
      b.Valid ∧ b.mEnPassantSquare = 43 ∧ popcount b.checkers ≤ 1
      ∧ has b.us 36 = true ∧ has b.pawns 36 = true
      ∧ (⟨36, 43, Move.EN_PASSANT_FLAG⟩ : Move) ∈ b.legalMoves Zobrist.sample true
      ∧ (b.enPassantCaptured 36).inCheck = true := by
  decide!

end Board

namespace Board

end Board

namespace Board

end Board

namespace Board

end Board
/-! ## Decimal numbers -/

theorem isdigit_iff (c : Char) : isdigit c = true ↔ 48 ≤ c.toNat ∧ c.toNat ≤ 57 := by
  simp [isdigit]

theorem toNat_ofNat_digit {x : Nat} (hx : x < 10) : (Char.ofNat (48 + x)).toNat = 48 + x := by
  interval_cases x <;> rfl

theorem isdigit_ofNat {x : Nat} (hx : x < 10) : isdigit (Char.ofNat (48 + x)) = true := by
  rw [isdigit_iff, toNat_ofNat_digit hx]
  omega

theorem charToInt_ofNat {x : Nat} (hx : x < 10) : charToInt (Char.ofNat (48 + x)) = x := by
  unfold charToInt
  rw [toNat_ofNat_digit hx]
  omega

theorem ofNat_charToInt {c : Char} (hc : isdigit c = true) :
    Char.ofNat (48 + charToInt c) = c := by
  rw [isdigit_iff] at hc
  unfold charToInt
  have : 48 + (c.toNat - 48) = c.toNat := by omega
  rw [this]
  exact Char.ofNat_toNat c

theorem charToInt_lt {c : Char} (hc : isdigit c = true) : charToInt c < 10 := by
  rw [isdigit_iff] at hc
  unfold charToInt
  omega

theorem stoiAux_digit {c : Char} (hc : isdigit c = true) (cs : List Char) (a : Nat)
    (seen : Bool) : stoiAux (c :: cs) a seen = stoiAux cs (a * 10 + charToInt c) true := by
  rw [stoiAux, if_pos hc]

theorem stoiAux_nil (a : Nat) (seen : Bool) : stoiAux [] a seen = (a, seen) := by
  rw [stoiAux]

/-- Reading what `toStringAux` wrote gives the number back. -/
theorem stoiAux_toStringAux (fuel : Nat) : ∀ (n : Nat) (acc : List Char), n < 10 ^ (fuel + 1) →
    ∃ k, ∀ (a : Nat) (seen : Bool),
      stoiAux (toStringAux (fuel + 1) n acc) a seen = stoiAux acc (a * 10 ^ k + n) true := by
  induction fuel with
  | zero =>
    intro n acc hn
    refine ⟨1, fun a seen => ?_⟩
    have h10 : n % 10 < 10 := Nat.mod_lt _ (by decide)
    have hd : toStringAux 1 n acc = Char.ofNat (48 + n % 10) :: acc := by
      unfold toStringAux
      split <;> rfl
    rw [hd]
    rw [stoiAux_digit (isdigit_ofNat h10), charToInt_ofNat h10]
    congr 1
    have hn10 : n < 10 := by simpa using hn
    rw [pow_one]
    omega
  | succ fuel ih =>
    intro n acc hn
    have h10 : n % 10 < 10 := Nat.mod_lt _ (by decide)
    by_cases h0 : n / 10 = 0
    · refine ⟨1, fun a seen => ?_⟩
      have hd : toStringAux (fuel + 1 + 1) n acc = Char.ofNat (48 + n % 10) :: acc := by
        rw [toStringAux, if_pos h0]
      rw [hd]
      rw [stoiAux_digit (isdigit_ofNat h10), charToInt_ofNat h10]
      congr 1
      rw [pow_one]
      omega
    · have hn' : n / 10 < 10 ^ (fuel + 1) := by
        rw [Nat.div_lt_iff_lt_mul (by decide)]
        rwa [pow_succ] at hn
      obtain ⟨k, hk⟩ := ih (n / 10) (Char.ofNat (48 + n % 10) :: acc) hn'
      refine ⟨k + 1, fun a seen => ?_⟩
      have hd : toStringAux (fuel + 1 + 1) n acc
          = toStringAux (fuel + 1) (n / 10) (Char.ofNat (48 + n % 10) :: acc) := by
        rw [toStringAux, if_neg h0]
      rw [hd, hk]
      rw [stoiAux_digit (isdigit_ofNat h10), charToInt_ofNat h10]
      congr 1
      rw [pow_succ, ← Nat.mul_assoc]
      omega

theorem numberValue_to_string {n : Nat} (hn : n < 2 ^ 31) : numberValue (to_string n) = n := by
  obtain ⟨k, hk⟩ := stoiAux_toStringAux 19 n [] (lt_trans hn (by norm_num))
  unfold numberValue to_string
  simp only [hk 0 false, stoiAux_nil, zero_mul, zero_add]
theorem stoiAux_le (cs : List Char) : ∀ (a : Nat) (seen : Bool), a ≤ (stoiAux cs a seen).1 := by
  induction cs with
  | nil => intro a seen; rw [stoiAux_nil]
  | cons c cs ih =>
    intro a seen
    by_cases hc : isdigit c = true
    · rw [stoiAux_digit hc]
      exact le_trans (by omega) (ih _ _)
    · rw [stoiAux, if_neg hc]

theorem stoiAux_snoc (cs : List Char) (d : Char) (hd : isdigit d = true) :
    ∀ (a : Nat) (seen : Bool), cs.all isdigit = true →
      stoiAux (cs ++ [d]) a seen = ((stoiAux cs a seen).1 * 10 + charToInt d, true) := by
  induction cs with
  | nil =>
    intro a seen _
    rw [List.nil_append, stoiAux_digit hd, stoiAux_nil, stoiAux_nil]
  | cons c cs ih =>
    intro a seen hall
    rw [List.all_cons, Bool.and_eq_true] at hall
    rw [List.cons_append, stoiAux_digit hall.1, stoiAux_digit hall.1, ih _ _ hall.2]

theorem charToInt_pos {c : Char} (hc : isdigit c = true) (h0 : c ≠ '0') : 1 ≤ charToInt c := by
  rw [isdigit_iff] at hc
  unfold charToInt
  have : c.toNat ≠ 48 := fun h => h0 (by
    rw [← Char.ofNat_toNat c, h])
  omega

theorem numberValue_pos {h : List Char} (hall : h.all isdigit = true) (hne : h ≠ [])
    (h0 : h.head? ≠ some '0') : 1 ≤ numberValue h := by
  cases h with
  | nil => exact absurd rfl hne
  | cons c cs =>
    rw [List.all_cons, Bool.and_eq_true] at hall
    unfold numberValue
    rw [stoiAux_digit hall.1]
    refine le_trans ?_ (stoiAux_le _ _ _)
    have := charToInt_pos hall.1 (fun e => h0 (by rw [e]; rfl))
    omega

/-- Writing the value of a number without leading zero gives its digits back. -/
theorem toStringAux_numberValue (h : List Char) : h.all isdigit = true → h ≠ [] →
    h.head? ≠ some '0' → ∀ (fuel : Nat) (acc : List Char), numberValue h < 10 ^ fuel →
      toStringAux fuel (numberValue h) acc = h ++ acc := by
  induction h using List.reverseRecOn with
  | nil => intro _ hne; exact absurd rfl hne
  | append_singleton h d ih =>
    intro hall _ h0 fuel acc hlt
    rw [List.all_append, Bool.and_eq_true, List.all_cons, Bool.and_eq_true] at hall
    have hd := hall.2.1
    have hval : numberValue (h ++ [d]) = numberValue h * 10 + charToInt d := by
      unfold numberValue
      rw [stoiAux_snoc h d hd 0 false hall.1]
    have hpos := numberValue_pos (h := h ++ [d])
      (by rw [List.all_append, Bool.and_eq_true, List.all_cons, Bool.and_eq_true]; exact hall)
      (by simp) h0
    have hx := charToInt_lt hd
    cases fuel with
    | zero =>
      rw [pow_zero] at hlt
      omega
    | succ fuel =>
      rw [hval] at hlt hpos ⊢
      have hmod : (numberValue h * 10 + charToInt d) % 10 = charToInt d := by omega
      have hdiv : (numberValue h * 10 + charToInt d) / 10 = numberValue h := by omega
      rw [toStringAux, hmod, hdiv, ofNat_charToInt hd]
      by_cases hnil : h = []
      · subst hnil
        have hz : numberValue [] = 0 := rfl
        rw [if_pos hz]
        rfl
      · have h0' : h.head? ≠ some '0' := by
          cases h with
          | nil => exact absurd rfl hnil
          | cons c cs => exact h0
        have hp := numberValue_pos hall.1 hnil h0'
        rw [if_neg (by omega), ih hall.1 hnil h0' fuel (d :: acc) (by
          rw [pow_succ] at hlt
          omega)]
        rw [List.append_assoc]
        rfl

/-- The function `to_string` writes back a number without leading zeros that was read. -/
theorem to_string_numberValue {h : List Char} (hc : canonicalNumber h = true)
    (hlt : numberValue h < 10 ^ 20) : to_string (numberValue h) = h := by
  unfold canonicalNumber isNumber at hc
  simp only [Bool.and_eq_true, Bool.or_eq_true, decide_eq_true_eq, ne_eq] at hc
  obtain ⟨⟨hne, hall⟩, h0⟩ := hc
  rcases h0 with h0 | h0
  · subst h0
    rfl
  · have := toStringAux_numberValue h hall hne h0 20 [] hlt
    rw [List.append_nil] at this
    exact this

/-- What `toStringAux` writes: digits, at least one, without a leading zero unless the number
is zero. -/
theorem toStringAux_digits (fuel : Nat) : ∀ (n : Nat) (acc : List Char), n < 10 ^ (fuel + 1) →
    ∃ ds, toStringAux (fuel + 1) n acc = ds ++ acc ∧ ds ≠ [] ∧ ds.all isdigit = true
      ∧ (n = 0 → ds = ['0']) ∧ (n ≠ 0 → ds.head? ≠ some '0') := by
  induction fuel with
  | zero =>
    intro n acc hn
    have hn10 : n < 10 := by simpa using hn
    refine ⟨[Char.ofNat (48 + n % 10)], ?_, by simp, ?_, ?_, ?_⟩
    · unfold toStringAux
      split <;> rfl
    · simp [isdigit_ofNat (Nat.mod_lt n (by decide))]
    · intro h; subst h; rfl
    · intro h e
      simp only [List.head?_cons, Option.some.injEq] at e
      have := congrArg Char.toNat e
      rw [toNat_ofNat_digit (Nat.mod_lt n (by decide))] at this
      have h48 : ('0' : Char).toNat = 48 := rfl
      omega
  | succ fuel ih =>
    intro n acc hn
    by_cases h0 : n / 10 = 0
    · refine ⟨[Char.ofNat (48 + n % 10)], ?_, by simp, ?_, ?_, ?_⟩
      · rw [toStringAux, if_pos h0]
        rfl
      · simp [isdigit_ofNat (Nat.mod_lt n (by decide))]
      · intro h; subst h; rfl
      · intro h e
        simp only [List.head?_cons, Option.some.injEq] at e
        have := congrArg Char.toNat e
        rw [toNat_ofNat_digit (Nat.mod_lt n (by decide))] at this
        have h48 : ('0' : Char).toNat = 48 := rfl
        omega
    · have hn' : n / 10 < 10 ^ (fuel + 1) := by
        rw [Nat.div_lt_iff_lt_mul (by decide)]
        rwa [pow_succ] at hn
      obtain ⟨ds, hds, hne, hall, _, hhead⟩ := ih (n / 10) (Char.ofNat (48 + n % 10) :: acc) hn'
      refine ⟨ds ++ [Char.ofNat (48 + n % 10)], ?_, by simp, ?_, ?_, ?_⟩
      · rw [toStringAux, if_neg h0, hds, List.append_assoc]
        rfl
      · rw [List.all_append, hall]
        simp [isdigit_ofNat (Nat.mod_lt n (by decide))]
      · intro h
        subst h
        exact absurd rfl h0
      · intro _
        cases ds with
        | nil => exact absurd rfl hne
        | cons c cs => exact hhead h0

/-- The function `to_string` writes a number without leading zeros. -/
theorem canonicalNumber_to_string {n : Nat} (hn : n < 10 ^ 20) :
    canonicalNumber (to_string n) = true := by
  obtain ⟨ds, hds, hne, hall, hz, hnz⟩ := toStringAux_digits 19 n [] hn
  unfold to_string
  rw [hds, List.append_nil]
  unfold canonicalNumber isNumber
  simp only [Bool.and_eq_true, Bool.or_eq_true, decide_eq_true_eq, ne_eq]
  refine ⟨⟨hne, hall⟩, ?_⟩
  by_cases h : n = 0
  · exact Or.inl (hz h)
  · exact Or.inr (hnz h)
/-! ## Cutting a text into fields -/

theorem splitAux_ne_nil (d : Char) (s : List Char) : ∀ cur, splitAux d s cur ≠ [] := by
  induction s with
  | nil => intro cur; rw [splitAux]; exact List.cons_ne_nil _ _
  | cons c cs ih =>
    intro cur
    rw [splitAux]
    split
    · exact List.cons_ne_nil _ _
    · exact ih _

/-- Joining the fields of a text by blanks gives the text back. -/
theorem joinFields_splitAux (s : List Char) : ∀ cur,
    joinFields (splitAux ' ' s cur) = cur.reverse ++ s := by
  induction s with
  | nil => intro cur; rw [splitAux, joinFields, List.append_nil]
  | cons c cs ih =>
    intro cur
    rw [splitAux]
    split
    · rename_i hc
      cases hs : splitAux ' ' cs [] with
      | nil => exact absurd hs (splitAux_ne_nil _ _ _)
      | cons g gs =>
        rw [joinFields, ← hs, ih, hc]
        rfl
    · rw [ih, List.reverse_cons, List.append_assoc]
      rfl

/-- A field without the delimiter is cut off as a whole. -/
theorem splitAux_field (d : Char) (f : List Char) (hf : d ∉ f) (rest : List Char) : ∀ cur,
    splitAux d (f ++ d :: rest) cur = (cur.reverse ++ f) :: splitAux d rest [] := by
  induction f with
  | nil =>
    intro cur
    rw [List.nil_append, splitAux, if_pos rfl, List.append_nil]
  | cons c cs ih =>
    intro cur
    rw [List.mem_cons, not_or] at hf
    rw [List.cons_append, splitAux, if_neg (fun e => hf.1 e.symm), ih hf.2, List.reverse_cons,
      List.append_assoc]
    rfl

theorem splitAux_last (d : Char) (f : List Char) (hf : d ∉ f) : ∀ cur,
    splitAux d f cur = [cur.reverse ++ f] := by
  induction f with
  | nil =>
    intro cur
    rw [splitAux, List.append_nil]
  | cons c cs ih =>
    intro cur
    rw [List.mem_cons, not_or] at hf
    rw [splitAux, if_neg (fun e => hf.1 e.symm), ih hf.2, List.reverse_cons, List.append_assoc]
    rfl

/-- A text that neither starts nor ends with white space is left alone by `trim`. -/
theorem trim_eq_self {s : List Char} (h1 : ∀ c, s.head? = some c → isWhite c = false)
    (h2 : ∀ c, s.getLast? = some c → isWhite c = false) : trim s = s := by
  unfold trim
  have e1 : s.dropWhile isWhite = s := by
    cases s with
    | nil => rfl
    | cons c cs =>
      rw [List.dropWhile_cons_of_neg]
      rw [h1 c rfl]
      exact Bool.false_ne_true
  rw [e1]
  have e2 : s.reverse.dropWhile isWhite = s.reverse := by
    rcases List.eq_nil_or_concat s with h | ⟨init, l, h⟩
    · subst h; rfl
    · rw [List.concat_eq_append] at h
      subst h
      rw [List.reverse_append, List.reverse_singleton, List.singleton_append,
        List.dropWhile_cons_of_neg]
      rw [h2 l (by simp)]
      exact Bool.false_ne_true
  rw [e2, List.reverse_reverse]

theorem head?_append_of_ne_nil {f : List Char} (hf : f ≠ []) (rest : List Char) :
    (f ++ rest).head? = f.head? := by
  cases f with
  | nil => exact absurd rfl hf
  | cons c cs => rfl

theorem getLast?_append_of_ne_nil (pre : List Char) {f : List Char} (hf : f ≠ []) :
    (pre ++ f).getLast? = f.getLast? := by
  rcases List.eq_nil_or_concat f with h | ⟨init, l, h⟩
  · exact absurd h hf
  · rw [List.concat_eq_append] at h
    subst h
    rw [← List.append_assoc]
    simp

theorem mem_of_head? {f : List Char} {c : Char} (h : f.head? = some c) : c ∈ f := by
  cases f with
  | nil => exact absurd h (by simp)
  | cons d ds =>
    simp only [List.head?_cons, Option.some.injEq] at h
    subst h
    exact List.mem_cons_self _ _

theorem mem_of_getLast? {f : List Char} {c : Char} (h : f.getLast? = some c) : c ∈ f := by
  rcases List.eq_nil_or_concat f with e | ⟨init, l, e⟩
  · subst e
    exact absurd h (by simp)
  · rw [List.concat_eq_append] at e
    subst e
    simp only [List.getLast?_append, List.getLast?_singleton, Option.or,
      Option.some.injEq] at h
    subst h
    simp
/-! ## The piece-placement field -/

theorem isdigit_ne_slash {c : Char} (hc : isdigit c = true) : c ≠ '/' := by
  rintro rfl
  exact absurd hc (by decide)

theorem isPieceLetter_not_digit {c : Char} (hc : isPieceLetter c = true) :
    isdigit c = false ∧ c ≠ '/' ∧ isWhite c = false ∧ CHAR_TO_PIECE_TYPE c ≠ .NONE
    ∧ PIECE_TO_CHAR (CHAR_TO_PIECE_TYPE c) (if isupper c then Color.WHITE else Color.BLACK)
      = c := by
  simp only [isPieceLetter, Bool.or_eq_true, decide_eq_true_eq] at hc
  rcases hc with ((((((((((rfl | rfl) | rfl) | rfl) | rfl) | rfl) | rfl) | rfl) | rfl) | rfl)
    | rfl) | rfl <;> decide

theorem to_string_digit {n : Nat} (hn : n < 10) : to_string n = [Char.ofNat (48 + n)] := by
  unfold to_string
  rw [toStringAux, if_pos (by omega), Nat.mod_eq_of_lt hn]

theorem to_string_charToInt {c : Char} (hc : isdigit c = true) :
    to_string (charToInt c) = [c] := by
  rw [to_string_digit (charToInt_lt hc), ofNat_charToInt hc]

namespace Board

theorem parseRows_slash (Z : Zobrist) (cs : List Char) (b : Board) {rank : Nat}
    (hr : 0 < rank) (file : Nat) :
    parseRows Z ('/' :: cs) b rank file = parseRows Z cs b (rank - 1 : Nat) (0 : Nat) := by
  rw [parseRows, if_pos rfl]
  congr 1
  omega

theorem parseRows_digit (Z : Zobrist) {c : Char} (hc : isdigit c = true) (cs : List Char)
    (b : Board) (rank file : Nat) :
    parseRows Z (c :: cs) b rank file
      = parseRows Z cs b rank (file + charToInt c : Nat) := by
  rw [parseRows, if_neg (isdigit_ne_slash hc), if_pos hc]
  congr 1

theorem parseRows_letter (Z : Zobrist) {c : Char} (hc : isPieceLetter c = true)
    (cs : List Char) (b : Board) {rank file : Nat} (hsq : rank * 8 + file < 256) :
    parseRows Z (c :: cs) b rank file
      = parseRows Z cs (b.placePiece Z (if isupper c then Color.WHITE else Color.BLACK)
          (CHAR_TO_PIECE_TYPE c) (rank * 8 + file)) rank (file + 1 : Nat) := by
  have h := isPieceLetter_not_digit hc
  rw [parseRows, if_neg h.2.1, if_neg (by rw [h.1]; exact Bool.false_ne_true)]
  have e : (((rank : Int) * 8 + (file : Int)) % 256).toNat = rank * 8 + file := by omega
  simp only [e]
  congr 1

theorem SameAt.same (b : Board) (sq : Nat) : SameAt b b sq := ⟨fun _ => rfl, fun _ => rfl⟩

theorem SameAt.chain {a b c : Board} {sq : Nat} (h1 : SameAt a b sq) (h2 : SameAt b c sq) :
    SameAt a c sq :=
  ⟨fun x => (h1.1 x).trans (h2.1 x), fun x => (h1.2 x).trans (h2.2 x)⟩

theorem sameAt_placePiece (Z : Zobrist) (b : Board) (c : Color) {p : PieceType}
    (hp : p ≠ .NONE) {sq x : Nat} (hx : sq ≠ x) : SameAt (b.placePiece Z c p sq) b x := by
  constructor
  · intro c'
    rw [has_colorBb_placePiece]
    simp [hx]
  · intro p'
    rw [has_pieceBb_placePiece Z b c p p' sq x hp]
    simp [hx]

/-- Reading a well-formed piece-placement field leaves alone the squares that come before the
place where the reading starts. -/
theorem parseRows_frame (Z : Zobrist) : ∀ (cs : List Char) (b : Board) (rank file : Nat),
    wellFormedRows cs rank file = true → rank < 8 → ∀ sq, readBefore sq rank file →
      SameAt (parseRows Z cs b rank file) b sq := by
  intro cs
  induction cs with
  | nil =>
    intro b rank file _ _ sq _
    rw [parseRows]
    exact SameAt.same _ _
  | cons c cs ih =>
    intro b rank file hwf hr sq hsq
    rw [wellFormedRows] at hwf
    by_cases h1 : c = '/'
    · subst h1
      rw [if_pos rfl] at hwf
      simp only [Bool.and_eq_true, decide_eq_true_eq] at hwf
      rw [parseRows_slash Z cs b hwf.1.2]
      refine ih b _ _ hwf.2 (by omega) sq ?_
      unfold readBefore at hsq ⊢
      omega
    · rw [if_neg h1] at hwf
      by_cases h2 : isdigit c = true
      · rw [if_pos h2] at hwf
        simp only [Bool.and_eq_true, decide_eq_true_eq] at hwf
        rw [parseRows_digit Z h2]
        refine ih b _ _ hwf.2 hr sq ?_
        unfold readBefore at hsq ⊢
        omega
      · rw [if_neg h2] at hwf
        simp only [Bool.and_eq_true, decide_eq_true_eq] at hwf
        rw [parseRows_letter Z hwf.1.1 cs b (by omega)]
        refine SameAt.chain (ih _ _ _ hwf.2 hr sq ?_) (sameAt_placePiece Z b _
          (isPieceLetter_not_digit hwf.1.1).2.2.2.1 ?_)
        · unfold readBefore at hsq ⊢
          omega
        · unfold readBefore at hsq
          omega

end Board
namespace Board

theorem pieceTypeAt_of_emptyAt {b : Board} {sq : Nat} (h : b.EmptyAt sq) :
    b.pieceTypeAt sq = .NONE := by
  unfold pieceTypeAt isOccupied
  rw [has_occupancy b .WHITE, h.1, h.1]
  rfl

theorem pieceTypeAt_cell (b : Board) (sq : Nat) (pt : PieceType) (col : Color)
    (hc : ∀ c, has (b.colorBb c) sq = decide (c = col))
    (hp : ∀ p, has (b.pieceBb p) sq = decide (p = pt)) (hpt : pt ≠ .NONE) :
    b.pieceTypeAt sq = pt ∧ has b.white sq = decide (Color.WHITE = col) := by
  have h1 := hp .PAWN
  have h2 := hp .KNIGHT
  have h3 := hp .BISHOP
  have h4 := hp .ROOK
  have h5 := hp .QUEEN
  have h6 := hp .KING
  have w := hc .WHITE
  have k := hc .BLACK
  simp only [pieceBb, colorBb] at h1 h2 h3 h4 h5 h6 w k
  refine ⟨?_, w⟩
  unfold pieceTypeAt isOccupied
  rw [has_occupancy b .WHITE]
  simp only [colorBb, oppColor, w, k, h1, h2, h3, h4, h5, h6]
  cases pt <;> cases col <;> simp at hpt ⊢

theorem fenRank_skip (b : Board) (rank : Nat) : ∀ (d todo file e : Nat),
    (∀ i, i < d → b.pieceTypeAt (rank * 8 + (file + i)) = .NONE) →
      fenRank b rank (todo + d) file e = fenRank b rank todo (file + d) (e + d) := by
  intro d
  induction d with
  | zero => intro todo file e _; rfl
  | succ d ih =>
    intro todo file e h
    have h0 := h 0 (by omega)
    rw [Nat.add_zero] at h0
    rw [← Nat.add_assoc, fenRank]
    simp only [h0, if_true]
    rw [ih todo (file + 1) (e + 1) (fun i hi => by
      have := h (i + 1) (by omega)
      rwa [show file + (i + 1) = file + 1 + i by omega] at this)]
    congr 1 <;> omega

theorem fenRank_zero (b : Board) (rank file e : Nat) :
    fenRank b rank 0 file e = if e > 0 then to_string e else [] := by
  rw [fenRank]

theorem fenRank_piece (b : Board) (rank todo file e : Nat)
    (h : b.pieceTypeAt (rank * 8 + file) ≠ .NONE) :
    fenRank b rank (todo + 1) file e
      = (if e > 0 then to_string e else [])
        ++ PIECE_TO_CHAR (b.pieceTypeAt (rank * 8 + file))
            (if has b.white (rank * 8 + file) then Color.WHITE else Color.BLACK)
          :: fenRank b rank todo (file + 1) 0 := by
  rw [fenRank]
  simp only [h, if_false]

theorem emptyAt_placePiece (Z : Zobrist) {b : Board} (c : Color) {p : PieceType}
    (hp : p ≠ .NONE) {sq x : Nat} (hx : sq ≠ x) (h : b.EmptyAt x) :
    (b.placePiece Z c p sq).EmptyAt x := by
  have hs := sameAt_placePiece Z b c hp hx
  exact ⟨fun c' => (hs.1 c').trans (h.1 c'), fun p' => (hs.2 p').trans (h.2 p')⟩

/-- Printing the board that was read from a well-formed piece-placement field with merged
digits gives the field back, from the place where the reading started. -/
theorem fenRank_parseRows (Z : Zobrist) : ∀ (cs : List Char) (b : Board) (rank file e : Nat),
    wellFormedRows cs rank file = true → mergedDigits cs = true → rank < 8 →
    (0 < e → ∀ c, cs.head? = some c → isdigit c = false) →
    (∀ sq, ¬ readBefore sq rank file → b.EmptyAt sq) →
      fenRank (parseRows Z cs b rank file) rank (8 - file) file e
          ++ fenLowerRanks (parseRows Z cs b rank file) rank
        = (if e > 0 then to_string e else []) ++ cs := by
  intro cs
  induction cs with
  | nil =>
    intro b rank file e hwf _ _ _ _
    rw [wellFormedRows] at hwf
    simp only [Bool.and_eq_true, decide_eq_true_eq] at hwf
    obtain ⟨rfl, rfl⟩ := hwf
    rw [parseRows, Nat.sub_self, fenRank_zero, fenLowerRanks]
  | cons c cs ih =>
    intro b rank file e hwf hmd hr he hb
    have hmd' : mergedDigits cs = true := by
      cases cs with
      | nil => rfl
      | cons d ds =>
        rw [mergedDigits] at hmd
        simp only [Bool.and_eq_true] at hmd
        exact hmd.2
    rw [wellFormedRows] at hwf
    by_cases h1 : c = '/'
    · subst h1
      rw [if_pos rfl] at hwf
      simp only [Bool.and_eq_true, decide_eq_true_eq] at hwf
      obtain ⟨⟨rfl, hr0⟩, hwf⟩ := hwf
      rw [parseRows_slash Z cs b hr0, Nat.sub_self, fenRank_zero]
      obtain ⟨r, rfl⟩ : ∃ r, rank = r + 1 := ⟨rank - 1, by omega⟩
      rw [fenLowerRanks, Nat.add_sub_cancel]
      have := ih b r 0 0 hwf hmd' (by omega) (fun h => absurd h (by decide)) (fun sq hsq =>
        hb sq (by
          unfold readBefore at hsq ⊢
          omega))
      rw [Nat.sub_zero] at this
      rw [this]
      rfl
    · rw [if_neg h1] at hwf
      by_cases h2 : isdigit c = true
      · rw [if_pos h2] at hwf
        simp only [Bool.and_eq_true, decide_eq_true_eq] at hwf
        obtain ⟨⟨hd1, hd8⟩, hwf⟩ := hwf
        have he0 : e = 0 := by
          by_contra hne
          have := he (by omega) c rfl
          rw [h2] at this
          exact Bool.noConfusion this
        subst he0
        rw [parseRows_digit Z h2]
        have hskip := fenRank_skip (parseRows Z cs b rank (file + charToInt c : Nat)) rank
          (charToInt c) (8 - (file + charToInt c)) file 0 (fun i hi => by
            apply pieceTypeAt_of_emptyAt
            have hs := parseRows_frame Z cs b rank (file + charToInt c) hwf hr
              (rank * 8 + (file + i)) (by
                unfold readBefore
                omega)
            have hem := hb (rank * 8 + (file + i)) (by
              unfold readBefore
              omega)
            exact ⟨fun c' => (hs.1 c').trans (hem.1 c'), fun p' => (hs.2 p').trans (hem.2 p')⟩)
        rw [show 8 - (file + charToInt c) + charToInt c = 8 - file by omega] at hskip
        rw [hskip, Nat.zero_add]
        have := ih b rank (file + charToInt c) (charToInt c) hwf hmd' hr (fun _ d hd => by
          cases cs with
          | nil => exact absurd hd (by simp)
          | cons d' ds =>
            simp only [List.head?_cons, Option.some.injEq] at hd
            subst hd
            rw [mergedDigits] at hmd
            simp only [Bool.and_eq_true, Bool.not_eq_true', Bool.and_eq_false_iff] at hmd
            rcases hmd.1 with h | h
            · rw [h2] at h
              exact Bool.noConfusion h
            · exact h) (fun sq hsq => hb sq (by
              unfold readBefore at hsq ⊢
              omega))
        rw [this, if_pos (by omega), to_string_charToInt h2, if_neg (by omega)]
        rfl
      · rw [if_neg h2] at hwf
        simp only [Bool.and_eq_true, decide_eq_true_eq] at hwf
        obtain ⟨⟨hl, hf⟩, hwf⟩ := hwf
        have hL := isPieceLetter_not_digit hl
        rw [parseRows_letter Z hl cs b (by omega)]
        have hs := parseRows_frame Z cs (b.placePiece Z (if isupper c then Color.WHITE
          else Color.BLACK) (CHAR_TO_PIECE_TYPE c) (rank * 8 + file)) rank (file + 1) hwf hr
          (rank * 8 + file) (by
            unfold readBefore
            omega)
        have hem := hb (rank * 8 + file) (by
          unfold readBefore
          omega)
        have hcell := pieceTypeAt_cell (parseRows Z cs (b.placePiece Z
          (if isupper c then Color.WHITE else Color.BLACK) (CHAR_TO_PIECE_TYPE c)
          (rank * 8 + file)) rank (file + 1 : Nat)) (rank * 8 + file)
          (CHAR_TO_PIECE_TYPE c) (if isupper c then Color.WHITE else Color.BLACK)
          (fun c' => by
            rw [hs.1 c', has_colorBb_placePiece, hem.1 c']
            simp)
          (fun p' => by
            rw [hs.2 p', has_pieceBb_placePiece Z b _ _ p' _ _ hL.2.2.2.1, hem.2 p']
            simp) hL.2.2.2.1
        obtain ⟨t, ht⟩ : ∃ t, 8 - file = t + 1 := ⟨7 - file, by omega⟩
        rw [ht, fenRank_piece _ _ _ _ _ (by rw [hcell.1]; exact hL.2.2.2.1), hcell.1, hcell.2]
        have := ih (b.placePiece Z (if isupper c then Color.WHITE else Color.BLACK)
          (CHAR_TO_PIECE_TYPE c) (rank * 8 + file)) rank (file + 1) 0 hwf hmd' hr
          (fun h => absurd h (by decide)) (fun sq hsq => emptyAt_placePiece Z _ hL.2.2.2.1
            (by
              unfold readBefore at hsq
              omega)
            (hb sq (by
              unfold readBefore at hsq ⊢
              omega)))
        rw [show 8 - (file + 1) = t by omega] at this
        rw [List.append_assoc, List.cons_append, this]
        have hcol : (if decide (Color.WHITE = if isupper c = true then Color.WHITE
            else Color.BLACK) = true then Color.WHITE else Color.BLACK)
            = if isupper c = true then Color.WHITE else Color.BLACK := by
          by_cases hu : isupper c = true <;> simp [hu]
        rw [hcol, hL.2.2.2.2]
        rfl

end Board
namespace Board

/-! ## The other fields -/

theorem fenRows_eq (b : Board) : b.fenRows = fenRank b 7 8 0 0 ++ fenLowerRanks b 7 := by
  simp only [fenRows, fenLowerRanks, List.append_nil, List.cons_append, List.append_assoc]

theorem fenRank_congr {b b' : Board} (hw : b'.white = b.white)
    (hp : ∀ sq, b'.pieceTypeAt sq = b.pieceTypeAt sq) (rank : Nat) :
    ∀ todo file e, fenRank b' rank todo file e = fenRank b rank todo file e := by
  intro todo
  induction todo with
  | zero => intro file e; rw [fenRank, fenRank]
  | succ todo ih =>
    intro file e
    rw [fenRank, fenRank]
    simp only [hp, hw, ih]

theorem fenRows_congr {b b' : Board} (hw : b'.white = b.white)
    (hp : ∀ sq, b'.pieceTypeAt sq = b.pieceTypeAt sq) : b'.fenRows = b.fenRows := by
  simp only [fenRows, fenRank_congr hw hp]

theorem emptyAt_empty (c : Color) (h : Nat) (sq : Nat) :
    EmptyAt { empty with mColorToMove := c, mZobristHash := h } sq := by
  constructor
  · intro c'
    cases c' <;> exact has_zero sq
  · intro p
    cases p <;> exact has_zero sq

/-- Printing the board that was read from a well-formed piece-placement field with merged
digits gives the field back. -/
theorem fenRows_parseRows (Z : Zobrist) {rows : List Char} (c : Color) (h : Nat)
    (hwf : wellFormedRows rows 7 0 = true) (hmd : mergedDigits rows = true) :
    (parseRows Z rows { empty with mColorToMove := c, mZobristHash := h } 7 0).fenRows
      = rows := by
  have := fenRank_parseRows Z rows { empty with mColorToMove := c, mZobristHash := h } 7 0 0
    hwf hmd (by decide) (fun h0 => absurd h0 (by decide)) (fun sq _ => emptyAt_empty c h sq)
  rw [fenRows_eq]
  exact this

theorem fenCastling_congr {b b' : Board} (h : b'.mCastlingRights = b.mCastlingRights) :
    b'.fenCastling = b.fenCastling := by
  unfold fenCastling
  rw [h]

/-- Printing the castling rights that were read from a field in canonical form gives the field
back. -/
theorem fenCastling_parseCastling {s : List Char} (hs : canonicalCastling s = true)
    (b : Board) :
    fenCastling { b with mCastlingRights := if s ≠ ['-'] then parseCastling s 0 else 0 } = s := by
  refine Eq.trans (fenCastling_congr (b := { empty with
    mCastlingRights := if s ≠ ['-'] then parseCastling s 0 else 0 }) rfl) ?_
  unfold canonicalCastling at hs
  simp only [decide_eq_true_eq, List.mem_cons, List.mem_singleton, List.not_mem_nil,
    or_false] at hs
  rcases hs with h | h | h | h | h | h | h | h | h | h | h | h | h | h | h | h <;> subst h <;>
    decide

theorem canonicalCastling_chars {s : List Char} (hs : canonicalCastling s = true) :
    s ≠ [] ∧ ∀ c ∈ s, isWhite c = false := by
  unfold canonicalCastling at hs
  simp only [decide_eq_true_eq, List.mem_cons, List.mem_singleton, List.not_mem_nil,
    or_false] at hs
  rcases hs with h | h | h | h | h | h | h | h | h | h | h | h | h | h | h | h <;> subst h <;>
    decide

/-- The name of a square, read and written back. -/
theorem wellFormedEnPassant_square {s : List Char} (hs : wellFormedEnPassant s = true)
    (hne : s ≠ ['-']) :
    strToSquare s < 64 ∧ SQUARE_TO_STR (strToSquare s) = s := by
  unfold wellFormedEnPassant at hs
  simp only [Bool.or_eq_true, decide_eq_true_eq, hne, false_or] at hs
  split at hs
  · rename_i f r
    simp only [Bool.and_eq_true, decide_eq_true_eq] at hs
    have e : strToSquare [f, r] = (r.toNat - 49) * 8 + (f.toNat - 97) := by
      unfold strToSquare
      simp only
      omega
    rw [e]
    refine ⟨by omega, ?_⟩
    unfold SQUARE_TO_STR
    rw [show 97 + ((r.toNat - 49) * 8 + (f.toNat - 97)) % 8 = f.toNat by omega,
      show 49 + ((r.toNat - 49) * 8 + (f.toNat - 97)) / 8 = r.toNat by omega,
      Char.ofNat_toNat, Char.ofNat_toNat]
  · exact absurd hs Bool.false_ne_true

theorem wellFormedEnPassant_chars {s : List Char} (hs : wellFormedEnPassant s = true) :
    s ≠ [] ∧ ∀ c ∈ s, isWhite c = false := by
  unfold wellFormedEnPassant at hs
  simp only [Bool.or_eq_true, decide_eq_true_eq] at hs
  rcases hs with h | hs
  · subst h
    decide
  · split at hs
    · rename_i f r
      simp only [Bool.and_eq_true, decide_eq_true_eq] at hs
      refine ⟨List.cons_ne_nil _ _, ?_⟩
      intro c hc
      simp only [List.mem_cons, List.mem_singleton, List.not_mem_nil, or_false] at hc
      unfold isWhite
      have hb : (' ' : Char).toNat = 32 := rfl
      rcases hc with rfl | rfl
      · simp only [Bool.or_eq_false_iff, decide_eq_false_iff_not]
        refine ⟨⟨⟨fun e => ?_, by omega⟩, by omega⟩, by omega⟩
        rw [e] at hs
        omega
      · simp only [Bool.or_eq_false_iff, decide_eq_false_iff_not]
        refine ⟨⟨⟨fun e => ?_, by omega⟩, by omega⟩, by omega⟩
        rw [e] at hs
        omega
    · exact absurd hs Bool.false_ne_true

end Board

theorem isWhite_of_isdigit {c : Char} (hc : isdigit c = true) : isWhite c = false := by
  rw [isdigit_iff] at hc
  unfold isWhite
  simp only [Bool.or_eq_false_iff, decide_eq_false_iff_not]
  refine ⟨⟨⟨fun e => ?_, by omega⟩, by omega⟩, by omega⟩
  rw [e] at hc
  have hb : (' ' : Char).toNat = 32 := rfl
  omega

theorem isNumber_chars {s : List Char} (hs : isNumber s = true) :
    s ≠ [] ∧ ∀ c ∈ s, isWhite c = false := by
  unfold isNumber at hs
  simp only [Bool.and_eq_true, decide_eq_true_eq, List.all_eq_true] at hs
  exact ⟨hs.1, fun c hc => isWhite_of_isdigit (hs.2 c hc)⟩

theorem wellFormedRows_chars : ∀ (cs : List Char) (rank file : Nat),
    wellFormedRows cs rank file = true → ∀ c ∈ cs, isWhite c = false := by
  intro cs
  induction cs with
  | nil => intro _ _ _ c hc; exact absurd hc (List.not_mem_nil _)
  | cons d ds ih =>
    intro rank file hwf c hc
    rw [wellFormedRows] at hwf
    rw [List.mem_cons] at hc
    by_cases h1 : d = '/'
    · rw [if_pos h1] at hwf
      simp only [Bool.and_eq_true, decide_eq_true_eq] at hwf
      rcases hc with rfl | hc
      · subst h1
        decide
      · exact ih _ _ hwf.2 c hc
    · rw [if_neg h1] at hwf
      by_cases h2 : isdigit d = true
      · rw [if_pos h2] at hwf
        simp only [Bool.and_eq_true, decide_eq_true_eq] at hwf
        rcases hc with rfl | hc
        · exact isWhite_of_isdigit h2
        · exact ih _ _ hwf.2 c hc
      · rw [if_neg h2] at hwf
        simp only [Bool.and_eq_true, decide_eq_true_eq] at hwf
        rcases hc with rfl | hc
        · exact (isPieceLetter_not_digit hwf.1.1).2.2.1
        · exact ih _ _ hwf.2 c hc

theorem stoiAux_seen (cs : List Char) : ∀ a, (stoiAux cs a true).2 = true := by
  induction cs with
  | nil => intro a; rw [stoiAux_nil]
  | cons c cs ih =>
    intro a
    rw [stoiAux]
    split
    · exact ih _
    · rfl

/-- A digit is neither white space nor a sign. -/
theorem isdigit_plain {c : Char} (hc : isdigit c = true) :
    isspace c = false ∧ c ≠ '-' ∧ c ≠ '+' := by
  rw [isdigit_iff] at hc
  refine ⟨?_, ?_, ?_⟩
  · unfold isspace
    have h1 : c ≠ ' ' := by
      intro e
      rw [e] at hc
      exact absurd hc.1 (by decide)
    simp only [Bool.or_eq_false_iff, decide_eq_false_iff_not, Bool.and_eq_false_iff]
    exact ⟨h1, Or.inr (by omega)⟩
  · intro e
    rw [e] at hc
    exact absurd hc.1 (by decide)
  · intro e
    rw [e] at hc
    exact absurd hc.1 (by decide)

/-- The function `stoi` on a text that starts with a digit: the value of its leading digits,
when that fits an `int`. -/
theorem stoi_cons_digit {c : Char} (hc : isdigit c = true) (cs : List Char)
    (hlt : (stoiAux (c :: cs) 0 false).1 < 2 ^ 31) :
    stoi (c :: cs) = some (((stoiAux (c :: cs) 0 false).1 : Nat) : Int) := by
  obtain ⟨h1, h2, h3⟩ := isdigit_plain hc
  have hseen : (stoiAux (c :: cs) 0 false).2 = true := by
    rw [stoiAux_digit hc]
    exact stoiAux_seen _ _
  have hd : (c :: cs).dropWhile isspace = c :: cs := by
    rw [List.dropWhile_cons_of_neg (by rw [h1]; decide)]
  unfold stoi
  simp only [hd, List.head?_cons, Option.some.injEq, h2, h3, or_self, if_false]
  rw [if_pos ⟨hseen, by omega, by exact_mod_cast hlt⟩]

/-- The function `stoi` on a decimal number that fits an `int`. -/
theorem stoi_of_isNumber {s : List Char} (hs : isNumber s = true)
    (hlt : numberValue s < 2 ^ 31) : stoi s = some ((numberValue s : Nat) : Int) := by
  unfold isNumber at hs
  simp only [Bool.and_eq_true, decide_eq_true_eq] at hs
  cases s with
  | nil => exact absurd rfl hs.1
  | cons c cs =>
    rw [List.all_cons, Bool.and_eq_true] at hs
    exact stoi_cons_digit hs.2.1 cs hlt

/-- An `int` that is not negative, stored in a `u8`. -/
theorem toNat_emod_u8 (n : Nat) : ((n : Int) % 256).toNat = n % 256 := by omega

/-- An `int` that is not negative, stored in a `u16`. -/
theorem toNat_emod_u16 (n : Nat) : ((n : Int) % 65536).toNat = n % 65536 := by omega

theorem toNat_emod_u8_lt (p : Int) : (p % 256).toNat < 256 := by omega

theorem toNat_emod_u16_lt (p : Int) : (p % 65536).toNat < 65536 := by omega
namespace Board

/-! ## The constructor, field by field -/

/-- The constructor in terms of `fromFields`. -/
theorem ofFen_eq (Z : Zobrist) (s : List Char) :
    ofFen Z s = match splitString s ' ' with
      | rows :: color :: castling :: ep :: counters =>
        (match counters with
         | [] => some (fromFields Z rows color castling ep)
         | [plies] => (stoi plies).map (fun p =>
            { fromFields Z rows color castling ep with
              mPliesSincePawnOrCapture := (p % 256).toNat })
         | plies :: counter :: _ => (stoi plies).bind (fun p => (stoi counter).map (fun c =>
            { fromFields Z rows color castling ep with
              mPliesSincePawnOrCapture := (p % 256).toNat,
              mCurrentMoveCounter := (c % 65536).toNat })))
      | _ => none := by
  unfold ofFen fromFields
  rfl

theorem parseRows_sameState (Z : Zobrist) : ∀ (cs : List Char) (b : Board) (rank file : Int),
    sameState b (parseRows Z cs b rank file) := by
  intro cs
  induction cs with
  | nil => intro b rank file; rw [parseRows]; exact sameState_refl b
  | cons c cs ih =>
    intro b rank file
    rw [parseRows]
    split
    · exact ih _ _ _
    · split
      · exact ih _ _ _
      · exact sameState_trans (sameState_placePiece Z b _ _ _) (ih _ _ _)

/-- The fields of the board built from four fields, in terms of the board `parseRows`
returns. -/
theorem fromFields_fields (Z : Zobrist) (rows color castling ep : List Char) :
    let b0 : Board := { empty with
      mColorToMove := if color = ['b'] then Color.BLACK else Color.WHITE,
      mZobristHash := if (if color = ['b'] then Color.BLACK else Color.WHITE) = .BLACK
        then Z.color else 0 }
    let b := fromFields Z rows color castling ep
    (∀ c, b.colorBb c = (parseRows Z rows b0 7 0).colorBb c)
    ∧ (∀ p, b.pieceBb p = (parseRows Z rows b0 7 0).pieceBb p)
    ∧ b.mColorToMove = (if color = ['b'] then Color.BLACK else Color.WHITE)
    ∧ b.mCastlingRights = (if castling ≠ ['-'] then parseCastling castling 0 else 0)
    ∧ b.mEnPassantSquare = (if ep ≠ ['-'] then strToSquare ep else SQUARE_NONE)
    ∧ b.mPliesSincePawnOrCapture = 0 ∧ b.mCurrentMoveCounter = 1
    ∧ b.mZobristHashes = [] := by
  intro b0 b
  have hs := parseRows_sameState Z rows b0 7 0
  unfold sameState at hs
  obtain ⟨h1, h2, h3, h4, h5, h6, h7⟩ := hs
  by_cases hep : ep = ['-']
  · have hb : b = { parseRows Z rows b0 7 0 with
        mCastlingRights := if castling ≠ ['-'] then parseCastling castling 0 else 0,
        mZobristHash := if castling ≠ ['-'] then (parseRows Z rows b0 7 0).mZobristHash
          ^^^ (if castling ≠ ['-'] then parseCastling castling 0 else 0)
          else (parseRows Z rows b0 7 0).mZobristHash } := by
      show fromFields Z rows color castling ep = _
      unfold fromFields
      simp only [hep, ne_eq, not_true_eq_false, if_false]
    rw [hb]
    refine ⟨fun c => by cases c <;> rfl, fun p => by cases p <;> rfl, h1, rfl, ?_, h4, h5, h6⟩
    have e : (if ep ≠ ['-'] then strToSquare ep else SQUARE_NONE) = SQUARE_NONE :=
      if_neg (not_not.mpr hep)
    rw [e]
    exact h3
  · have hb : b = { parseRows Z rows b0 7 0 with
        mCastlingRights := if castling ≠ ['-'] then parseCastling castling 0 else 0,
        mEnPassantSquare := strToSquare ep,
        mZobristHash := (if castling ≠ ['-'] then (parseRows Z rows b0 7 0).mZobristHash
          ^^^ (if castling ≠ ['-'] then parseCastling castling 0 else 0)
          else (parseRows Z rows b0 7 0).mZobristHash)
            ^^^ Z.files (squareFile (strToSquare ep)) } := by
      show fromFields Z rows color castling ep = _
      unfold fromFields
      simp only [hep, ne_eq, not_false_eq_true, if_true]
    rw [hb]
    refine ⟨fun c => by cases c <;> rfl, fun p => by cases p <;> rfl, h1, rfl, ?_, h4, h5, h6⟩
    have e : (if ep ≠ ['-'] then strToSquare ep else SQUARE_NONE) = strToSquare ep :=
      if_pos hep
    rw [e]

end Board
theorem getLast?_joinFields : ∀ (fs : List (List Char)) (f : List Char), f ≠ [] →
    (joinFields (fs ++ [f])).getLast? = f.getLast? := by
  intro fs
  induction fs with
  | nil => intro f _; rfl
  | cons g gs ih =>
    intro f hf
    have hJ : joinFields (gs ++ [f]) ≠ [] := by
      intro e
      have := ih f hf
      rw [e] at this
      rcases List.eq_nil_or_concat f with h | ⟨init, l, h⟩
      · exact hf h
      · rw [List.concat_eq_append] at h
        subst h
        simp at this
    cases hgs : gs ++ [f] with
    | nil => simp at hgs
    | cons x xs =>
      rw [List.cons_append, hgs, joinFields, ← hgs]
      rw [show g ++ ' ' :: joinFields (gs ++ [f]) = (g ++ [' ']) ++ joinFields (gs ++ [f]) by simp,
        getLast?_append_of_ne_nil _ hJ]
      exact ih f hf

/-- A text that starts and ends with a field without white space is cut by `splitString` at
its blanks. -/
theorem splitString_eq_fenFields {s : List Char} {f : List Char} {fs : List (List Char)}
    (hf : fenFields s = f :: fs) (hfirst : f ≠ [] ∧ ∀ c ∈ f, isWhite c = false)
    (init : List (List Char)) (l : List Char) (hl : f :: fs = init ++ [l])
    (hlast : l ≠ [] ∧ ∀ c ∈ l, isWhite c = false) : splitString s ' ' = f :: fs := by
  have hjoin : joinFields (f :: fs) = s := by
    have := joinFields_splitAux s []
    unfold fenFields at hf
    rw [hf] at this
    exact this
  have hhead : ∀ c, s.head? = some c → isWhite c = false := by
    intro c hc
    rw [← hjoin] at hc
    cases fs with
    | nil =>
      rw [joinFields] at hc
      exact hfirst.2 c (mem_of_head? hc)
    | cons g gs =>
      rw [joinFields, head?_append_of_ne_nil hfirst.1] at hc
      exact hfirst.2 c (mem_of_head? hc)
  have hlst : ∀ c, s.getLast? = some c → isWhite c = false := by
    intro c hc
    rw [← hjoin, hl, getLast?_joinFields init l hlast.1] at hc
    exact hlast.2 c (mem_of_getLast? hc)
  have hne : s ≠ [] := by
    intro e
    rw [e] at hf
    have : f = [] := by
      have h2 : fenFields [] = [[]] := rfl
      rw [h2] at hf
      exact (List.cons.inj hf).1.symm
    exact hfirst.1 this
  unfold splitString
  rw [trim_eq_self hhead hlst, if_neg hne]
  exact hf

namespace Board

/-- The text that `fen()` writes, from its fields. -/
theorem fen_eq_joinFields (b : Board) :
    b.fen = joinFields [b.fenRows, if b.mColorToMove = .BLACK then ['b'] else ['w'],
      b.fenCastling,
      if b.mEnPassantSquare = SQUARE_NONE then ['-'] else SQUARE_TO_STR b.mEnPassantSquare,
      to_string b.mPliesSincePawnOrCapture, to_string b.mCurrentMoveCounter] := by
  unfold fen
  by_cases h : b.mColorToMove = .BLACK <;>
    simp only [h, if_true, if_false, joinFields, List.append_assoc, List.cons_append,
      List.nil_append]

/-- The text that `fen()` writes for a board whose pieces, side, castling rights and en-passant
square are those read from four fields in canonical form. -/
theorem fen_of_fromFields (Z : Zobrist) {rows color castling ep : List Char}
    (hwf : wellFormedRows rows 7 0 = true) (hmd : mergedDigits rows = true)
    (hcol : color = ['w'] ∨ color = ['b']) (hcast : canonicalCastling castling = true)
    (hep : wellFormedEnPassant ep = true) {b : Board}
    (hc : ∀ c, b.colorBb c = (fromFields Z rows color castling ep).colorBb c)
    (hp : ∀ p, b.pieceBb p = (fromFields Z rows color castling ep).pieceBb p)
    (hside : b.mColorToMove = (fromFields Z rows color castling ep).mColorToMove)
    (hrights : b.mCastlingRights = (fromFields Z rows color castling ep).mCastlingRights)
    (hsq : b.mEnPassantSquare = (fromFields Z rows color castling ep).mEnPassantSquare) :
    b.fen = joinFields [rows, color, castling, ep, to_string b.mPliesSincePawnOrCapture,
      to_string b.mCurrentMoveCounter] := by
  obtain ⟨f1, f2, f3, f4, f5, _⟩ := fromFields_fields Z rows color castling ep
  rw [fen_eq_joinFields]
  have e1 : b.fenRows = rows := by
    rw [← fenRows_parseRows Z (if color = ['b'] then Color.BLACK else Color.WHITE)
      (if (if color = ['b'] then Color.BLACK else Color.WHITE) = .BLACK then Z.color else 0)
      hwf hmd]
    refine fenRows_congr ?_ (fun sq => pieceTypeAt_congr ?_ ?_)
    · exact (hc .WHITE).trans (f1 .WHITE)
    · intro c
      rw [hc c, f1 c]
    · intro p
      rw [hp p, f2 p]
  have e2 : (if b.mColorToMove = .BLACK then ['b'] else ['w']) = color := by
    rw [hside, f3]
    rcases hcol with h | h <;> subst h <;> rfl
  have e3 : b.fenCastling = castling := by
    rw [← fenCastling_parseCastling hcast b]
    exact fenCastling_congr (by rw [hrights, f4])
  have e4 : (if b.mEnPassantSquare = SQUARE_NONE then ['-']
      else SQUARE_TO_STR b.mEnPassantSquare) = ep := by
    rw [hsq, f5]
    by_cases h : ep = ['-']
    · rw [if_neg (not_not.mpr h), if_pos rfl, h]
    · have := wellFormedEnPassant_square hep h
      rw [if_pos h, if_neg (by unfold SQUARE_NONE; omega), this.2]
  rw [e1, e2, e3, e4]

end Board
namespace Board

theorem wellFormedRows_ne_nil {rows : List Char} (h : wellFormedRows rows 7 0 = true) :
    rows ≠ [] := by
  rintro rfl
  exact absurd h (by decide)

theorem canonicalNumber_isNumber {n : List Char} (h : canonicalNumber n = true) :
    isNumber n = true := by
  unfold canonicalNumber at h
  rw [Bool.and_eq_true] at h
  exact h.1

/-- The text that `fen()` writes for the board read from four fields in canonical form, with
any counters. -/
theorem fen_fromFields_counters (Z : Zobrist) {rows color castling ep : List Char}
    (hwf : wellFormedRows rows 7 0 = true) (hmd : mergedDigits rows = true)
    (hcol : color = ['w'] ∨ color = ['b']) (hcast : canonicalCastling castling = true)
    (hep : wellFormedEnPassant ep = true) (p c : Nat) :
    fen { fromFields Z rows color castling ep with
        mPliesSincePawnOrCapture := p, mCurrentMoveCounter := c }
      = joinFields [rows, color, castling, ep, to_string p, to_string c] := by
  have key := @fen_of_fromFields Z rows color castling ep hwf hmd hcol hcast hep
  generalize fromFields Z rows color castling ep = F at key ⊢
  exact key (b := { F with mPliesSincePawnOrCapture := p, mCurrentMoveCounter := c })
    (fun x => by cases x <;> rfl) (fun x => by cases x <;> rfl) rfl rfl rfl

theorem fromFields_counters (Z : Zobrist) (rows color castling ep : List Char) :
    fromFields Z rows color castling ep = { fromFields Z rows color castling ep with
        mPliesSincePawnOrCapture := 0, mCurrentMoveCounter := 1 } := by
  obtain ⟨_, _, _, _, _, g6, g7, _⟩ := fromFields_fields Z rows color castling ep
  generalize fromFields Z rows color castling ep = F at g6 g7 ⊢
  cases F
  simp only at g6 g7
  subst g6 g7
  rfl

theorem fromFields_counter (Z : Zobrist) (rows color castling ep : List Char) (p : Nat) :
    ({ fromFields Z rows color castling ep with mPliesSincePawnOrCapture := p } : Board)
      = { fromFields Z rows color castling ep with
        mPliesSincePawnOrCapture := p, mCurrentMoveCounter := 1 } := by
  obtain ⟨_, _, _, _, _, g6, g7, _⟩ := fromFields_fields Z rows color castling ep
  generalize fromFields Z rows color castling ep = F at g6 g7 ⊢
  cases F
  simp only at g6 g7
  subst g6 g7
  rfl

/-- Printing undoes parsing, for a record in canonical form whose counters fit. -/
theorem ofFen_fen_canonical (Z : Zobrist) (s : List Char) (hs : canonicalFen s = true)
    (hfit : countersFit s = true) :
    ∃ b, ofFen Z s = some b
      ∧ ((fenFields s).length = 6 → b.fen = s)
      ∧ ((fenFields s).length = 5 → b.fen = s ++ [' ', '1'])
      ∧ ((fenFields s).length = 4 → b.fen = s ++ [' ', '0', ' ', '1']) := by
  unfold canonicalFen at hs
  unfold countersFit at hfit
  split at hs
  · rename_i rows color castling ep counters hf
    rw [hf] at hfit
    simp only [Bool.and_eq_true, Bool.or_eq_true, decide_eq_true_eq, List.all_eq_true] at hs
    obtain ⟨⟨⟨⟨⟨⟨hwf, hmd⟩, hcol⟩, hcast⟩, hep⟩, hlen⟩, hnum⟩ := hs
    have hjoin : joinFields (rows :: color :: castling :: ep :: counters) = s := by
      have := joinFields_splitAux s []
      unfold fenFields at hf
      rw [hf] at this
      exact this
    have hfirst : rows ≠ [] ∧ ∀ c ∈ rows, isWhite c = false :=
      ⟨wellFormedRows_ne_nil hwf, wellFormedRows_chars rows 7 0 hwf⟩
    rw [ofFen_eq]
    match counters, hf, hfit, hlen, hnum, hjoin with
    | [], hf, _, _, _, hjoin =>
      rw [splitString_eq_fenFields hf hfirst [rows, color, castling] ep rfl
        (wellFormedEnPassant_chars hep), hf]
      refine ⟨_, rfl, fun h => absurd h (by simp), fun h => absurd h (by simp), fun _ => ?_⟩
      rw [fromFields_counters, fen_fromFields_counters Z hwf hmd hcol hcast hep, ← hjoin]
      simp only [joinFields, List.append_assoc, List.cons_append, List.nil_append]
      rfl
    | [plies], hf, hfit, _, hnum, hjoin =>
      have hn := hnum plies (List.mem_singleton.mpr rfl)
      simp only [decide_eq_true_eq] at hfit
      have hlt : numberValue plies < 256 := hfit
      rw [splitString_eq_fenFields hf hfirst [rows, color, castling, ep] plies
        rfl (isNumber_chars (canonicalNumber_isNumber hn)), hf]
      simp only [stoi_of_isNumber (canonicalNumber_isNumber hn) (lt_trans hlt (by norm_num)),
        Option.map_some', toNat_emod_u8]
      refine ⟨_, rfl, fun h => absurd h (by simp), fun _ => ?_, fun h => absurd h (by simp)⟩
      rw [fromFields_counter, fen_fromFields_counters Z hwf hmd hcol hcast hep,
        Nat.mod_eq_of_lt hlt, to_string_numberValue hn (lt_trans hlt (by norm_num)), ← hjoin]
      simp only [joinFields, List.append_assoc, List.cons_append, List.nil_append]
      rfl
    | [plies, counter], hf, hfit, _, hnum, hjoin =>
      have hn := hnum plies (List.mem_cons_self _ _)
      have hn2 := hnum counter (List.mem_cons_of_mem _ (List.mem_singleton.mpr rfl))
      simp only [Bool.and_eq_true, decide_eq_true_eq] at hfit
      have hlt : numberValue plies < 256 := hfit.1
      have hlt2 : numberValue counter < 65536 := hfit.2
      rw [splitString_eq_fenFields hf hfirst [rows, color, castling, ep, plies]
        counter rfl (isNumber_chars (canonicalNumber_isNumber hn2)), hf]
      simp only [stoi_of_isNumber (canonicalNumber_isNumber hn) (lt_trans hlt (by norm_num)),
        stoi_of_isNumber (canonicalNumber_isNumber hn2) (lt_trans hlt2 (by norm_num)),
        Option.map_some', Option.some_bind, toNat_emod_u8, toNat_emod_u16]
      refine ⟨_, rfl, fun _ => ?_, fun h => absurd h (by simp), fun h => absurd h (by simp)⟩
      rw [fen_fromFields_counters Z hwf hmd hcol hcast hep,
        Nat.mod_eq_of_lt hlt, Nat.mod_eq_of_lt hlt2,
        to_string_numberValue hn (lt_trans hlt (by norm_num)),
        to_string_numberValue hn2 (lt_trans hlt2 (by norm_num)), ← hjoin]
    | _ :: _ :: _ :: _, _, _, hlen, _, _ =>
      simp only [List.length_cons] at hlen
      omega
  · exact absurd hs Bool.false_ne_true

/-- C8 (amended): printing undoes parsing. For every record in canonical form (eight ranks of
eight files with merged empty-square digits, side `w` or `b`, castling letters in the order
`KQkq` or `-`, an en-passant field `-` or the name of a square, decimal counters without
leading zeros) whose halfmove clock is below 256 and whose fullmove counter is below 65536, the
constructor returns a board, and `fen()` of that board is the record itself when it has six
fields, the record followed by ` 1` when it has five, and by ` 0 1` when it has four. -/
theorem ofFen_fen (Z : Zobrist) (s : List Char) (hs : canonicalFen s = true)
    (hfit : countersFit s = true) :
    ∃ b, ofFen Z s = some b
      ∧ ((fenFields s).length = 6 → b.fen = s)
      ∧ ((fenFields s).length = 5 → b.fen = s ++ [' ', '1'])
      ∧ ((fenFields s).length = 4 → b.fen = s ++ [' ', '0', ' ', '1']) :=
  ofFen_fen_canonical Z s hs hfit

/-- The round trip at work on the start position, which is written with all six fields. -/
theorem ofFen_fen_witness :
    canonicalFen START_FEN = true ∧ countersFit START_FEN = true
    ∧ (fenFields START_FEN).length = 6
    ∧ ∃ b, ofFen Zobrist.sample START_FEN = some b ∧ b.fen = START_FEN :=
  ⟨by decide, by decide, by decide,
    (ofFen_fen Zobrist.sample START_FEN (by decide) (by decide)).imp
      (fun _ h => ⟨h.1, h.2.1 (by decide)⟩)⟩

/-- C8, as worded, fails: the record `4k3/8/8/8/8/8/8/4K3 w - - 300 1` is in canonical form with
all six fields; its halfmove clock does not fit the eight bits of `mPliesSincePawnOrCapture`,
and `fen()` of the board built from it ends with `44 1`. -/
theorem ofFen_fen_counter_wraps :
    canonicalFen "4k3/8/8/8/8/8/8/4K3 w - - 300 1".toList = true
    ∧ (fenFields "4k3/8/8/8/8/8/8/4K3 w - - 300 1".toList).length = 6
    ∧ ∃ b, ofFen Zobrist.sample "4k3/8/8/8/8/8/8/4K3 w - - 300 1".toList = some b
      ∧ b.fen = "4k3/8/8/8/8/8/8/4K3 w - - 44 1".toList
      ∧ b.fen ≠ "4k3/8/8/8/8/8/8/4K3 w - - 300 1".toList := by
  decide

end Board
/-! ## What `fen()` writes is in canonical form -/

theorem wellFormedRows_to_string {e : Nat} (h1 : 1 ≤ e) (h8 : e ≤ 8) (l : List Char)
    (rank file : Nat) (hf : file + e ≤ 8) :
    wellFormedRows (to_string e ++ l) rank file = wellFormedRows l rank (file + e) := by
  have hd := isdigit_ofNat (x := e) (by omega)
  rw [to_string_digit (by omega), List.singleton_append, wellFormedRows,
    if_neg (isdigit_ne_slash hd), if_pos hd, charToInt_ofNat (by omega)]
  simp [h1, hf]

theorem isPieceLetter_PIECE_TO_CHAR {pt : PieceType} (h : pt ≠ .NONE) (c : Color) :
    isPieceLetter (PIECE_TO_CHAR pt c) = true := by
  cases pt <;> cases c <;> first | rfl | exact absurd rfl h

theorem wellFormedRows_letter {c : Char} (hc : isPieceLetter c = true) (l : List Char)
    (rank file : Nat) (hf : file < 8) :
    wellFormedRows (c :: l) rank file = wellFormedRows l rank (file + 1) := by
  have h := isPieceLetter_not_digit hc
  rw [wellFormedRows, if_neg h.2.1, if_neg (by rw [h.1]; exact Bool.false_ne_true)]
  simp [hc, hf]

theorem mergedDigits_cons_of_not_digit {c : Char} (hc : isdigit c = false) (l : List Char) :
    mergedDigits (c :: l) = mergedDigits l := by
  cases l with
  | nil => rfl
  | cons d ds =>
    rw [mergedDigits, hc]
    simp

theorem mergedDigits_digit {c : Char} {l : List Char}
    (hl : ∀ d, l.head? = some d → isdigit d = false) (hm : mergedDigits l = true) :
    mergedDigits (c :: l) = true := by
  cases l with
  | nil => rfl
  | cons d ds =>
    rw [mergedDigits, hl d rfl, hm]
    simp

namespace Board

/-- The text of a rank takes the reading of a well-formed field to the end of the rank. -/
theorem wellFormedRows_fenRank (b : Board) (rank : Nat) (rest : List Char) :
    ∀ (todo file e : Nat), file + todo = 8 → e ≤ file →
      wellFormedRows (fenRank b rank todo file e ++ rest) rank (file - e)
        = wellFormedRows rest rank 8 := by
  intro todo
  induction todo with
  | zero =>
    intro file e hft he
    rw [fenRank_zero]
    by_cases h0 : e > 0
    · rw [if_pos h0, wellFormedRows_to_string (by omega) (by omega) _ _ _ (by omega)]
      congr 1
      omega
    · rw [if_neg h0, List.nil_append]
      congr 1
      omega
  | succ todo ih =>
    intro file e hft he
    by_cases hp : b.pieceTypeAt (rank * 8 + file) = .NONE
    · rw [fenRank]
      simp only [hp, if_true]
      have := ih (file + 1) (e + 1) (by omega) (by omega)
      rw [show file + 1 - (e + 1) = file - e by omega] at this
      exact this
    · rw [fenRank_piece b rank todo file e hp, List.append_assoc, List.cons_append]
      have hstep := wellFormedRows_letter (isPieceLetter_PIECE_TO_CHAR hp
        (if has b.white (rank * 8 + file) then Color.WHITE else Color.BLACK))
        (fenRank b rank todo (file + 1) 0 ++ rest) rank file (by omega)
      have := ih (file + 1) 0 (by omega) (by omega)
      rw [Nat.sub_zero] at this
      by_cases h0 : e > 0
      · rw [if_pos h0, wellFormedRows_to_string (by omega) (by omega) _ _ _ (by omega),
          show file - e + e = file by omega, hstep, this]
      · rw [if_neg h0, List.nil_append, show file - e = file by omega, hstep, this]

theorem wellFormedRows_fenLowerRanks (b : Board) : ∀ rank,
    wellFormedRows (fenLowerRanks b rank) rank 8 = true := by
  intro rank
  induction rank with
  | zero => rfl
  | succ r ih =>
    rw [fenLowerRanks, wellFormedRows, if_pos rfl]
    have := wellFormedRows_fenRank b r (fenLowerRanks b r) 8 0 0 rfl (le_refl _)
    rw [Nat.sub_zero] at this
    simp only [Nat.add_sub_cancel, this, ih]
    simp

/-- The piece-placement field that `fen()` writes is well formed. -/
theorem wellFormedRows_fenRows (b : Board) : wellFormedRows b.fenRows 7 0 = true := by
  rw [fenRows_eq]
  have := wellFormedRows_fenRank b 7 (fenLowerRanks b 7) 8 0 0 rfl (le_refl _)
  rw [Nat.sub_zero] at this
  rw [this]
  exact wellFormedRows_fenLowerRanks b 7

theorem mergedDigits_fenRank (b : Board) (rank : Nat) (rest : List Char)
    (hl : ∀ d, rest.head? = some d → isdigit d = false) (hm : mergedDigits rest = true) :
    ∀ (todo file e : Nat), e < 10 →  e + todo < 10 →
      mergedDigits (fenRank b rank todo file e ++ rest) = true := by
  intro todo
  induction todo with
  | zero =>
    intro file e he _
    rw [fenRank_zero]
    by_cases h0 : e > 0
    · rw [if_pos h0, to_string_digit he, List.singleton_append]
      exact mergedDigits_digit hl hm
    · rw [if_neg h0, List.nil_append]
      exact hm
  | succ todo ih =>
    intro file e he het
    by_cases hp : b.pieceTypeAt (rank * 8 + file) = .NONE
    · rw [fenRank]
      simp only [hp, if_true]
      exact ih (file + 1) (e + 1) (by omega) (by omega)
    · rw [fenRank_piece b rank todo file e hp, List.append_assoc, List.cons_append]
      have hL := isPieceLetter_not_digit (isPieceLetter_PIECE_TO_CHAR hp
        (if has b.white (rank * 8 + file) then Color.WHITE else Color.BLACK))
      have hrest : mergedDigits (PIECE_TO_CHAR (b.pieceTypeAt (rank * 8 + file))
          (if has b.white (rank * 8 + file) then Color.WHITE else Color.BLACK)
          :: (fenRank b rank todo (file + 1) 0 ++ rest)) = true := by
        rw [mergedDigits_cons_of_not_digit hL.1]
        exact ih (file + 1) 0 (by omega) (by omega)
      by_cases h0 : e > 0
      · rw [if_pos h0, to_string_digit he, List.singleton_append]
        refine mergedDigits_digit (fun d hd => ?_) hrest
        simp only [List.head?_cons, Option.some.injEq] at hd
        rw [← hd]
        exact hL.1
      · rw [if_neg h0, List.nil_append]
        exact hrest

theorem mergedDigits_fenLowerRanks (b : Board) : ∀ rank,
    mergedDigits (fenLowerRanks b rank) = true
    ∧ ∀ d, (fenLowerRanks b rank).head? = some d → isdigit d = false := by
  intro rank
  induction rank with
  | zero => exact ⟨rfl, fun d hd => absurd hd (by simp [fenLowerRanks])⟩
  | succ r ih =>
    rw [fenLowerRanks]
    refine ⟨?_, fun d hd => ?_⟩
    · rw [mergedDigits_cons_of_not_digit (by decide)]
      exact mergedDigits_fenRank b r _ ih.2 ih.1 8 0 0 (by decide) (by decide)
    · simp only [List.head?_cons, Option.some.injEq] at hd
      rw [← hd]
      decide

/-- The piece-placement field that `fen()` writes has its digits merged. -/
theorem mergedDigits_fenRows (b : Board) : mergedDigits b.fenRows = true := by
  rw [fenRows_eq]
  exact mergedDigits_fenRank b 7 _ (mergedDigits_fenLowerRanks b 7).2
    (mergedDigits_fenLowerRanks b 7).1 8 0 0 (by decide) (by decide)

/-- The castling field that `fen()` writes is in canonical form. -/
theorem canonicalCastling_fenCastling (b : Board) : canonicalCastling b.fenCastling = true := by
  unfold fenCastling
  by_cases h1 : b.mCastlingRights &&& CASTLING_MASKS .WHITE CASTLE_SHORT ≠ 0 <;>
  by_cases h2 : b.mCastlingRights &&& CASTLING_MASKS .WHITE CASTLE_LONG ≠ 0 <;>
  by_cases h3 : b.mCastlingRights &&& CASTLING_MASKS .BLACK CASTLE_SHORT ≠ 0 <;>
  by_cases h4 : b.mCastlingRights &&& CASTLING_MASKS .BLACK CASTLE_LONG ≠ 0 <;>
  simp only [h1, h2, h3, h4, ne_eq, not_false_eq_true, not_true_eq_false, if_true, if_false] <;>
  decide

theorem toNat_ofNat_small {n : Nat} (h : n < 128) : (Char.ofNat n).toNat = n := by
  interval_cases n <;> rfl

/-- The name of a square of the board is a well-formed en-passant field. -/
theorem wellFormedEnPassant_SQUARE_TO_STR {sq : Nat} (h : sq < 64) :
    wellFormedEnPassant (SQUARE_TO_STR sq) = true ∧ SQUARE_TO_STR sq ≠ ['-'] := by
  unfold SQUARE_TO_STR wellFormedEnPassant
  have e1 := toNat_ofNat_small (n := 97 + sq % 8) (by omega)
  have e2 := toNat_ofNat_small (n := 49 + sq / 8) (by omega)
  constructor
  · simp only [e1, e2, Bool.or_eq_true, decide_eq_true_eq, Bool.and_eq_true]
    right
    omega
  · intro e
    have := congrArg List.length e
    simp at this

end Board
theorem not_mem_blank {f : List Char} (h : ∀ c ∈ f, isWhite c = false) : ' ' ∉ f :=
  fun hm => absurd (h ' ' hm) (by decide)

/-- Six fields without blanks, joined and cut again. -/
theorem fenFields_joinFields {a b c d e f : List Char} (ha : ' ' ∉ a) (hb : ' ' ∉ b)
    (hc : ' ' ∉ c) (hd : ' ' ∉ d) (he : ' ' ∉ e) (hf : ' ' ∉ f) :
    fenFields (joinFields [a, b, c, d, e, f]) = [a, b, c, d, e, f] := by
  unfold fenFields
  simp only [joinFields]
  rw [splitAux_field ' ' a ha, splitAux_field ' ' b hb, splitAux_field ' ' c hc,
    splitAux_field ' ' d hd, splitAux_field ' ' e he, splitAux_last ' ' f hf]
  rfl

namespace Board

/-- What `fen()` writes is a record in canonical form with six fields, whose counters fit, as
soon as the en-passant square is a square of the board or none and the counters are in the
range of their types. -/
theorem canonicalFen_fen (b : Board)
    (hep : b.mEnPassantSquare = SQUARE_NONE ∨ b.mEnPassantSquare < 64)
    (hp : b.mPliesSincePawnOrCapture < 2 ^ 8) (hc : b.mCurrentMoveCounter < 2 ^ 16) :
    canonicalFen b.fen = true ∧ countersFit b.fen = true ∧ (fenFields b.fen).length = 6 := by
  have h1 := wellFormedRows_fenRows b
  have h2 := mergedDigits_fenRows b
  have h3 : (if b.mColorToMove = .BLACK then ['b'] else ['w']) = ['w']
      ∨ (if b.mColorToMove = .BLACK then ['b'] else ['w']) = ['b'] := by
    by_cases h : b.mColorToMove = .BLACK
    · exact Or.inr (if_pos h)
    · exact Or.inl (if_neg h)
  have h4 := canonicalCastling_fenCastling b
  have h5 : wellFormedEnPassant (if b.mEnPassantSquare = SQUARE_NONE then ['-']
      else SQUARE_TO_STR b.mEnPassantSquare) = true := by
    by_cases h : b.mEnPassantSquare = SQUARE_NONE
    · rw [if_pos h]
      rfl
    · rw [if_neg h]
      exact (wellFormedEnPassant_SQUARE_TO_STR (hep.resolve_left h)).1
  have h6 := canonicalNumber_to_string (n := b.mPliesSincePawnOrCapture)
    (lt_trans hp (by norm_num))
  have h7 := canonicalNumber_to_string (n := b.mCurrentMoveCounter)
    (lt_trans hc (by norm_num))
  have hf : fenFields b.fen = [b.fenRows, if b.mColorToMove = .BLACK then ['b'] else ['w'],
      b.fenCastling,
      if b.mEnPassantSquare = SQUARE_NONE then ['-'] else SQUARE_TO_STR b.mEnPassantSquare,
      to_string b.mPliesSincePawnOrCapture, to_string b.mCurrentMoveCounter] := by
    rw [fen_eq_joinFields]
    refine fenFields_joinFields (not_mem_blank (wellFormedRows_chars _ _ _ h1)) ?_
      (not_mem_blank (canonicalCastling_chars h4).2)
      (not_mem_blank (wellFormedEnPassant_chars h5).2)
      (not_mem_blank (isNumber_chars (canonicalNumber_isNumber h6)).2)
      (not_mem_blank (isNumber_chars (canonicalNumber_isNumber h7)).2)
    rcases h3 with h | h <;> rw [h] <;> decide
  refine ⟨?_, ?_, by rw [hf]; rfl⟩
  · unfold canonicalFen
    rw [hf]
    simp only [h1, h2, h4, h5, h6, h7, List.all_cons, List.all_nil, Bool.and_true,
      Bool.true_and, Bool.and_eq_true, Bool.or_eq_true, decide_eq_true_eq, List.length_cons,
      List.length_nil]
    exact ⟨h3, by omega⟩
  · unfold countersFit
    rw [hf]
    simp only [numberValue_to_string (lt_trans hp (by norm_num)),
      numberValue_to_string (lt_trans hc (by norm_num)), Bool.and_eq_true, decide_eq_true_eq]
    exact ⟨hp, hc⟩

/-- The board built from a well-formed record has an en-passant square of the board or none,
and counters in the range of their types. -/
theorem ofFen_ranges (Z : Zobrist) {s : List Char} {b : Board}
    (hs : wellFormedFen s = true) (h : ofFen Z s = some b) :
    (b.mEnPassantSquare = SQUARE_NONE ∨ b.mEnPassantSquare < 64)
    ∧ b.mPliesSincePawnOrCapture < 2 ^ 8 ∧ b.mCurrentMoveCounter < 2 ^ 16 := by
  unfold wellFormedFen at hs
  split at hs
  · rename_i rows color castling ep counters hf
    simp only [Bool.and_eq_true, Bool.or_eq_true, decide_eq_true_eq, List.all_eq_true] at hs
    obtain ⟨⟨⟨⟨⟨hwf, hcol⟩, hcast⟩, hep⟩, hlen⟩, hnum⟩ := hs
    have hfirst : rows ≠ [] ∧ ∀ c ∈ rows, isWhite c = false :=
      ⟨fun e => by rw [e] at hwf; exact absurd hwf (by decide),
        wellFormedRows_chars rows 7 0 hwf⟩
    obtain ⟨_, _, _, _, g5, g6, g7, _⟩ := fromFields_fields Z rows color castling ep
    have hsq : (fromFields Z rows color castling ep).mEnPassantSquare = SQUARE_NONE
        ∨ (fromFields Z rows color castling ep).mEnPassantSquare < 64 := by
      rw [g5]
      by_cases he : ep = ['-']
      · exact Or.inl (if_neg (not_not.mpr he))
      · rw [if_pos he]
        exact Or.inr (wellFormedEnPassant_square hep he).1
    rw [ofFen_eq] at h
    match counters, hf, hlen, hnum, h with
    | [], hf, _, _, h =>
      rw [splitString_eq_fenFields hf hfirst [rows, color, castling] ep rfl
        (wellFormedEnPassant_chars hep)] at h
      simp only [Option.some.injEq] at h
      subst h
      exact ⟨hsq, by rw [g6]; norm_num, by rw [g7]; norm_num⟩
    | [plies], hf, _, hnum, h =>
      have hn := (hnum plies (List.mem_singleton.mpr rfl)).1
      rw [splitString_eq_fenFields hf hfirst [rows, color, castling, ep] plies
        rfl (isNumber_chars hn)] at h
      simp only [Option.map_eq_some'] at h
      obtain ⟨p, _, h⟩ := h
      subst h
      exact ⟨hsq, toNat_emod_u8_lt p, by
        show (fromFields Z rows color castling ep).mCurrentMoveCounter < 2 ^ 16
        rw [g7]
        norm_num⟩
    | [plies, counter], hf, _, hnum, h =>
      have hn2 := (hnum counter (List.mem_cons_of_mem _ (List.mem_singleton.mpr rfl))).1
      rw [splitString_eq_fenFields hf hfirst [rows, color, castling, ep, plies]
        counter rfl (isNumber_chars hn2)] at h
      simp only [Option.bind_eq_some, Option.map_eq_some'] at h
      obtain ⟨p, _, c, _, h⟩ := h
      subst h
      exact ⟨hsq, toNat_emod_u8_lt p, toNat_emod_u16_lt c⟩
    | _ :: _ :: _ :: _, _, hlen, _, _ =>
      simp only [List.length_cons] at hlen
      omega
  · exact absurd hs Bool.false_ne_true

/-- A move of `legalMoves` keeps the en-passant square a square of the board or none, and the
counters in the range of their types. -/
theorem makeMove_ranges (Z : Zobrist) {b : Board} {m : Move} {u : Bool}
    (hm : m ∈ b.legalMoves Z u) :
    ((b.makeMove Z m).mEnPassantSquare = SQUARE_NONE ∨ (b.makeMove Z m).mEnPassantSquare < 64)
    ∧ (b.makeMove Z m).mPliesSincePawnOrCapture < 2 ^ 8
    ∧ ((b.mCurrentMoveCounter < 2 ^ 16) → (b.makeMove Z m).mCurrentMoveCounter < 2 ^ 16) := by
  refine ⟨?_, ?_, fun hc => ?_⟩
  · rw [mEnPassantSquare_makeMove]
    by_cases hflag : m.flag = Move.PAWN_TWO_UP_FLAG
    · rw [if_pos hflag]
      right
      obtain ⟨hf64, _, _, hh, ht, _, _⟩ := mem_legalMoves_twoUp hm hflag
      rw [ht]
      unfold squareTwoUp subSq addSq
      rcases pawnHasntMoved_rank hh with ⟨hc, hr⟩ | ⟨hc, hr⟩
      · simp only [hc, if_true]
        omega
      · have hc' : ¬ Color.BLACK = Color.WHITE := by decide
        simp only [hc, hc', if_false]
        omega
    · rw [if_neg hflag]
      exact Or.inl rfl
  · rw [mPliesSincePawnOrCapture_makeMove]
    split
    · norm_num
    · exact Nat.mod_lt _ (by norm_num)
  · rw [mCurrentMoveCounter_makeMove]
    split
    · exact Nat.mod_lt _ (by norm_num)
    · exact hc

theorem Reachable.ranges (Z : Zobrist) {s : List Char} {b0 b : Board}
    (hs : wellFormedFen s = true) (h0 : ofFen Z s = some b0) (hr : Reachable Z b0 b) :
    (b.mEnPassantSquare = SQUARE_NONE ∨ b.mEnPassantSquare < 64)
    ∧ b.mPliesSincePawnOrCapture < 2 ^ 8 ∧ b.mCurrentMoveCounter < 2 ^ 16 := by
  induction hr with
  | start => exact ofFen_ranges Z hs h0
  | move _ hm ih =>
    have := makeMove_ranges Z hm
    exact ⟨this.1, this.2.1, this.2.2 ih.2.2⟩

/-- C7: the round trip of `fen()` on reachable boards. For every board `b` obtained by
constructing a board from a well-formed record and then applying any sequence of moves, each
taken from `legalMoves` of the position it is played in, the constructor returns a board for
`b.fen()`, and `fen()` of that board is `b.fen()` again. -/
theorem fen_roundtrip (Z : Zobrist) (s : List Char) (b0 b : Board)
    (hs : wellFormedFen s = true) (h0 : ofFen Z s = some b0) (hr : Reachable Z b0 b) :
    ∃ b1, ofFen Z b.fen = some b1 ∧ b1.fen = b.fen := by
  obtain ⟨h1, h2, h3⟩ := hr.ranges Z hs h0
  obtain ⟨hcan, hfit, hlen⟩ := canonicalFen_fen b h1 h2 h3
  obtain ⟨b1, hb1, h6, _, _⟩ := ofFen_fen_canonical Z b.fen hcan hfit
  exact ⟨b1, hb1, h6 hlen⟩

/-- The round trip at work: after `e2e4` from the start position, `fen()` is read back and
written again unchanged. -/
theorem fen_roundtrip_witness :
    wellFormedFen START_FEN = true
    ∧ ofFen Zobrist.sample START_FEN = some startBoard
    ∧ Reachable Zobrist.sample startBoard
        (startBoard.makeMove Zobrist.sample ⟨12, 28, Move.PAWN_TWO_UP_FLAG⟩)
    ∧ (startBoard.makeMove Zobrist.sample ⟨12, 28, Move.PAWN_TWO_UP_FLAG⟩).fen
        = "rnbqkbnr/pppppppp/8/8/4P3/8/PPPP1PPP/RNBQKBNR b KQkq e3 0 1".toList
    ∧ ∃ b1, ofFen Zobrist.sample
          (startBoard.makeMove Zobrist.sample ⟨12, 28, Move.PAWN_TWO_UP_FLAG⟩).fen = some b1
        ∧ b1.fen = (startBoard.makeMove Zobrist.sample ⟨12, 28, Move.PAWN_TWO_UP_FLAG⟩).fen :=
  ⟨by decide, by decide!,
    Reachable.move (u := true) Reachable.start (by decide!), by decide!,
    fen_roundtrip Zobrist.sample START_FEN startBoard _ (by decide) (by decide!)
      (Reachable.move (u := true) Reachable.start (by decide!))⟩

end Board
namespace Board

/-! ## The reset of the working board -/

/-- Calls of `makeMove` only add to the hash history. -/
theorem mZobristHashes_foldl_makeMove (Z : Zobrist) (ms : List Move) : ∀ r : Board,
    ∃ l, (ms.foldl (fun w m => w.makeMove Z m) r).mZobristHashes = r.mZobristHashes ++ l := by
  induction ms with
  | nil => intro r; exact ⟨[], (List.append_nil _).symm⟩
  | cons m ms ih =>
    intro r
    obtain ⟨l, hl⟩ := ih (r.makeMove Z m)
    rw [mZobristHashes_makeMove] at hl
    exact ⟨r.mZobristHash :: l, by rw [List.foldl_cons, hl, List.append_assoc]; rfl⟩

/-- C29: the reset of the working board. For every root board `r` and every board `w` obtained
from a copy of `r` by any number of calls of `makeMove`, whatever the moves, the two assertions
inside `w <<= r` hold (the hash history of `w` is at least as long as that of `r`, and cut to
that length it equals it), and after `w <<= r` the board `w` is `r`: every field, the hash
history included, has the value it has in `r`. -/
theorem fastCopy_after_moves (Z : Zobrist) (r : Board) (ms : List Move) :
    (ms.foldl (fun w m => w.makeMove Z m) r).mZobristHashes.length ≥ r.mZobristHashes.length
    ∧ (ms.foldl (fun w m => w.makeMove Z m) r).mZobristHashes.take r.mZobristHashes.length
        = r.mZobristHashes
    ∧ (ms.foldl (fun w m => w.makeMove Z m) r).fastCopy r = some r := by
  obtain ⟨l, hl⟩ := mZobristHashes_foldl_makeMove Z ms r
  refine ⟨?_, ?_, fastCopy_of_hashes hl⟩
  · rw [hl, List.length_append]
    omega
  · rw [hl, List.take_left]

end Board
namespace Node

variable {V : Type} [LinearOrderedField V]

/-- The value of `simulate` when `EVAL_SCALE` is not zero. For a node that is not `ONGOING` it
is the numeric value of the state (`LOST` is -1, `DRAW` is 0, `WON` is 1), whatever the board
and `EVAL_SCALE`, and the random generator is not used. For an `ONGOING` node the integer
evaluation is the jitter `j`, the next random number modulo 7 minus 3, so between -3 and 3,
plus the material difference of the side to move over the other side, counted with 100, 300,
315, 500 and 900 for pawns, knights, bishops, rooks and queens (kings count for nothing); the
value returned is `2 / (1 + exp(-eval / EVAL_SCALE)) - 1`, it lies in `[-1, 1]`, and the
assertion on its range holds. -/
theorem simulate_value (env : SearchEnv V) (hscale : env.EVAL_SCALE ≠ 0) (n : Node V)
    (board : Board) (rng : Nat) :
    (n.mGameState ≠ .ONGOING →
      n.simulate env board rng = some ((n.mGameState.toInt : V), rng))
    ∧ GameState.LOST.toInt = -1 ∧ GameState.DRAW.toInt = 0 ∧ GameState.WON.toInt = 1
    ∧ (n.mGameState = .ONGOING →
        ∃ j eval : Int, j = (((env.randomU64 rng).1 % 7 : Nat) : Int) - 3 ∧ -3 ≤ j ∧ j ≤ 3
          ∧ eval = j
            + 100 * ((popcount (board.us &&& board.pawns) : Int)
                - (popcount (board.them &&& board.pawns) : Int))
            + 300 * ((popcount (board.us &&& board.knights) : Int)
                - (popcount (board.them &&& board.knights) : Int))
            + 315 * ((popcount (board.us &&& board.bishops) : Int)
                - (popcount (board.them &&& board.bishops) : Int))
            + 500 * ((popcount (board.us &&& board.rooks) : Int)
                - (popcount (board.them &&& board.rooks) : Int))
            + 900 * ((popcount (board.us &&& board.queens) : Int)
                - (popcount (board.them &&& board.queens) : Int))
          ∧ n.simulate env board rng
              = some (2 / (1 + env.exp (((-eval : Int) : V) / env.EVAL_SCALE)) - 1,
                  (env.randomU64 rng).2)
          ∧ -1 ≤ 2 / (1 + env.exp (((-eval : Int) : V) / env.EVAL_SCALE)) - 1
          ∧ 2 / (1 + env.exp (((-eval : Int) : V) / env.EVAL_SCALE)) - 1 ≤ 1) := by
  refine ⟨fun h => ?_, rfl, rfl, rfl, fun h => ?_⟩
  · unfold simulate
    rw [if_pos h]
  · refine ⟨(((env.randomU64 rng).1 % 7 : Nat) : Int) - 3, _, rfl, by omega, by omega, rfl, ?_⟩
    have hr := logistic_range (env.exp_nonneg
      (((-((((env.randomU64 rng).1 % 7 : Nat) : Int) - 3
          + 100 * ((popcount (board.us &&& board.pawns) : Int)
              - (popcount (board.them &&& board.pawns) : Int))
          + 300 * ((popcount (board.us &&& board.knights) : Int)
              - (popcount (board.them &&& board.knights) : Int))
          + 315 * ((popcount (board.us &&& board.bishops) : Int)
              - (popcount (board.them &&& board.bishops) : Int))
          + 500 * ((popcount (board.us &&& board.rooks) : Int)
              - (popcount (board.them &&& board.rooks) : Int))
          + 900 * ((popcount (board.us &&& board.queens) : Int)
              - (popcount (board.them &&& board.queens) : Int))) : Int) : V) / env.EVAL_SCALE))
    have e : ∀ x : V, 1 / (1 + x) * 2 - 1 = 2 / (1 + x) - 1 := fun x => by ring
    rw [e] at hr
    refine ⟨?_, hr.1, hr.2⟩
    unfold simulate
    rw [if_neg (not_not.mpr h)]
    simp only [simulateEval, PIECE_VALUES, List.foldl, Board.pieceBb]
    rw [if_neg hscale, e, if_pos ⟨hr.1, hr.2⟩]

/-- The value of `simulate` on an `ONGOING` node when `EVAL_SCALE` is zero: with the integer
evaluation `eval`, the assertion on the range fails for `eval = 0`, and the value is 1 for
`eval > 0` and -1 for `eval < 0`. -/
theorem simulate_zero_scale (env : SearchEnv V) (hscale : env.EVAL_SCALE = 0) (n : Node V)
    (board : Board) (rng : Nat) (h : n.mGameState = .ONGOING) :
    (simulateEval board ((((env.randomU64 rng).1 % 7 : Nat) : Int) - 3) = 0 →
      n.simulate env board rng = none)
    ∧ (simulateEval board ((((env.randomU64 rng).1 % 7 : Nat) : Int) - 3) > 0 →
      n.simulate env board rng = some (1, (env.randomU64 rng).2))
    ∧ (simulateEval board ((((env.randomU64 rng).1 % 7 : Nat) : Int) - 3) < 0 →
      n.simulate env board rng = some (-1, (env.randomU64 rng).2)) := by
  refine ⟨fun h0 => ?_, fun h0 => ?_, fun h0 => ?_⟩
  · unfold simulate
    rw [if_neg (not_not.mpr h)]
    simp only
    rw [if_pos hscale, if_pos h0]
  · unfold simulate
    rw [if_neg (not_not.mpr h)]
    simp only
    rw [if_pos hscale, if_neg (ne_of_gt h0), if_pos h0]
  · unfold simulate
    rw [if_neg (not_not.mpr h)]
    simp only
    rw [if_pos hscale, if_neg (ne_of_lt h0), if_neg (not_lt.mpr (le_of_lt h0))]

end Node

section Search

variable {V : Type} [LinearOrderedField V]

/-- When the first iteration of the loop fails an assert, `search` returns nothing. -/
theorem search_none_of_first (env : SearchEnv V) (rootBoard : Board)
    (h : searchStates env rootBoard 1 = none)
    (searchTimeMs maxDepth maxNodes : Nat) (boolPrintInfo : Bool) (fuel : Nat) :
    search env rootBoard searchTimeMs maxDepth maxNodes boolPrintInfo fuel = none := by
  unfold search
  cases h0 : searchInit env rootBoard with
  | none => rfl
  | some s0 =>
    simp only
    have hit : searchIteration env rootBoard s0 = none := by
      have e : searchStates env rootBoard 1
          = (match searchStates env rootBoard 0 with
            | none => none
            | some s => searchIteration env rootBoard s) := rfl
      rw [e] at h
      have e0 : searchStates env rootBoard 0 = searchInit env rootBoard := rfl
      rw [e0, h0] at h
      exact h
    cases fuel with
    | zero => rfl
    | succ fuel =>
      unfold searchLoop
      rw [hit]

end Search

/-- C28, where the code fails it: the assertion of `simulate` on the range of its value.
`setoption name EVAL_SCALE value 0` is accepted, and leaves `EVAL_SCALE` at 0. On an `ONGOING`
node, for a position with equal material such as the start position and the jitter 0, the
integer evaluation is 0, the quotient `-eval / EVAL_SCALE` is not a number, nor is the value,
and the assertion `wdl >= -1 && wdl <= 1` fails. In the sample environment this happens in the
first iteration of the loop of `search` on the start position, so that `search` returns
nothing, whatever the budgets. -/
theorem simulate_assert_fails_at_zero_scale :
    SearchEnv.zeroScale.EVAL_SCALE = 0
    ∧ Node.sampleDeep.mGameState = .ONGOING
    ∧ Node.simulateEval Board.startBoard
        ((((SearchEnv.zeroScale.randomU64 2).1 % 7 : Nat) : Int) - 3) = 0
    ∧ Node.sampleDeep.simulate SearchEnv.zeroScale Board.startBoard 2 = none
    ∧ (searchStates SearchEnv.zeroScale Board.startBoard 0).isSome = true
    ∧ searchStates SearchEnv.zeroScale Board.startBoard 1 = none
    ∧ ∀ searchTimeMs maxDepth maxNodes boolPrintInfo fuel,
        search SearchEnv.zeroScale Board.startBoard searchTimeMs maxDepth maxNodes
          boolPrintInfo fuel = none := by
  have h1 : (searchStates SearchEnv.zeroScale Board.startBoard 1).isNone = true := by decide!
  have h2 : (Node.sampleDeep.simulate SearchEnv.zeroScale Board.startBoard 2).isNone = true := by
    decide!
  rw [Option.isNone_iff_eq_none] at h1 h2
  exact ⟨rfl, rfl, by decide!, h2, by decide!, h1,
    search_none_of_first SearchEnv.zeroScale Board.startBoard h1⟩
namespace Node

section Robust

variable {V : Type}

/-- The loop of `mostVisitsMove` ends on the move of the first child with the most visits. -/
theorem mostVisitsLoop_spec (L : List (Node V)) (M : List Move) :
    ∀ (cs : List (Node V)) (i mv : Nat) (bm r : Move) (b : Nat) (cb : Node V),
    L.drop i = cs → b < i → L.get? b = some cb → cb.mVisits = mv → M.get? b = some bm →
    (∀ k d, k < i → L.get? k = some d → d.mVisits ≤ mv) →
    (∀ k d, k < b → L.get? k = some d → d.mVisits < mv) →
    mostVisitsLoop M cs i mv bm = some r →
    ∃ b1 c1, L.get? b1 = some c1 ∧ M.get? b1 = some r
      ∧ (∀ k d, L.get? k = some d → d.mVisits ≤ c1.mVisits)
      ∧ (∀ k d, k < b1 → L.get? k = some d → d.mVisits < c1.mVisits) := by
  intro cs
  induction cs with
  | nil =>
    intro i mv bm r b cb hd hb hcb hmv hbm hle hlt h
    unfold mostVisitsLoop at h
    cases h
    refine ⟨b, cb, hcb, hbm, fun k d hk => ?_, fun k d hk hd' => ?_⟩
    · rw [hmv]
      refine hle k d ?_ hk
      have hlen : L.length ≤ i := List.drop_eq_nil_iff.mp hd
      have := (List.get?_eq_some.mp hk).1
      omega
    · rw [hmv]
      exact hlt k d hk hd'
  | cons c cs ih =>
    intro i mv bm r b cb hd hb hcb hmv hbm hle hlt h
    have hci : L.get? i = some c := by
      have := List.head?_drop L i
      rw [hd] at this
      simpa using this.symm
    have hd1 : L.drop (i + 1) = cs := by
      have := List.tail_drop L i
      rw [hd] at this
      simpa using this.symm
    unfold mostVisitsLoop at h
    split at h
    · rename_i hgt
      cases hm : M.get? i with
      | none => rw [hm] at h; cases h
      | some move =>
        rw [hm] at h
        simp only at h
        refine ih (i + 1) c.mVisits move r i c hd1 (by omega) hci rfl hm
          (fun k d hk hkd => ?_) (fun k d hk hkd => ?_) h
        · by_cases hki : k = i
          · subst hki
            rw [hci] at hkd
            cases hkd
            exact le_refl _
          · have := hle k d (by omega) hkd
            omega
        · have := hle k d hk hkd
          omega
    · rename_i hgt
      refine ih (i + 1) mv bm r b cb hd1 (by omega) hcb hmv hbm
        (fun k d hk hkd => ?_) hlt h
      by_cases hki : k = i
      · subst hki
        rw [hci] at hkd
        cases hkd
        omega
      · exact hle k d (by omega) hkd

/-- The loop of `mostVisitsMove` reads the visit counts of the children only. -/
theorem mostVisitsLoop_congr (M : List Move) : ∀ (cs cs1 : List (Node V)) (i mv : Nat)
    (bm : Move), cs.map (fun c => c.mVisits) = cs1.map (fun c => c.mVisits) →
    mostVisitsLoop M cs i mv bm = mostVisitsLoop M cs1 i mv bm := by
  intro cs
  induction cs with
  | nil =>
    intro cs1 i mv bm h
    cases cs1 with
    | nil => rfl
    | cons d ds => simp at h
  | cons c cs ih =>
    intro cs1 i mv bm h
    cases cs1 with
    | nil => simp at h
    | cons d ds =>
      simp only [List.map_cons, List.cons.injEq] at h
      rw [mostVisitsLoop, mostVisitsLoop, h.1]
      split
      · cases M.get? i with
        | none => rfl
        | some move => exact ih ds _ _ _ h.2
      · exact ih ds _ _ _ h.2

/-- What `mostVisitsMove` returns on a node with a child and no more children than moves. -/
theorem mostVisitsMove_first_max {n : Node V} (hc : n.mChildren ≠ [])
    (hlen : n.mChildren.length ≤ n.mMoves.length) :
    ∃ i c move, n.mChildren.get? i = some c ∧ n.mMoves.get? i = some move
      ∧ n.mostVisitsMove = some move
      ∧ (∀ j d, n.mChildren.get? j = some d → d.mVisits ≤ c.mVisits)
      ∧ (∀ j d, j < i → n.mChildren.get? j = some d → d.mVisits < c.mVisits) := by
  obtain ⟨r, hr⟩ := mostVisitsMove_isSome hlen hc
  have hr0 := hr
  unfold mostVisitsMove at hr
  split at hr
  · split at hr
    · rename_i c0 cs move0 ms hcs hms
      obtain ⟨b1, c1, h1, h2, h3, h4⟩ := mostVisitsLoop_spec n.mChildren n.mMoves cs 1
        c0.mVisits move0 r 0 c0 (by rw [hcs]; rfl) (by decide) (by rw [hcs]; rfl) rfl
        (by rw [hms]; rfl)
        (fun k d hk hkd => by
          have : k = 0 := by omega
          subst this
          rw [hcs] at hkd
          cases hkd
          exact le_refl _)
        (fun k d hk _ => absurd hk (by omega)) hr
      exact ⟨b1, c1, r, h1, h2, hr0, h3, h4⟩
    · cases hr
  · cases hr

end Robust

end Node
/-! ## What `search` returns -/

namespace Node

section Robust

variable {V : Type}

end Robust

end Node

section Search

variable {V : Type} [LinearOrderedField V]

end Search
namespace Node

section Robust

variable {V : Type}

theorem mostVisitsMove_congr {n n1 : Node V} (hm : n1.mMoves = n.mMoves)
    (hv : n1.mChildren.map (fun c => c.mVisits) = n.mChildren.map (fun c => c.mVisits)) :
    n1.mostVisitsMove = n.mostVisitsMove := by
  have hl : n1.mChildren.length = n.mChildren.length := by
    have := congrArg List.length hv
    simpa using this
  unfold mostVisitsMove
  rw [hm, hl]
  split
  · cases h1 : n1.mChildren with
    | nil => rw [h1] at hl; simp at hl; rw [List.length_eq_zero.mp hl.symm]
    | cons d ds =>
      cases h2 : n.mChildren with
      | nil => rw [h1, h2] at hl; simp at hl
      | cons c cs =>
        rw [h1, h2] at hv
        simp only [List.map_cons, List.cons.injEq] at hv
        cases n.mMoves with
        | nil => rfl
        | cons move0 ms =>
          simp only
          rw [hv.1]
          exact mostVisitsLoop_congr _ _ _ _ _ _ hv.2
  · rfl

/-- C23: the robust child. For every node with at least one child, and no more children than
moves, `mostVisitsMove` returns the move `mMoves[i]` of the child `i` that has the most visits,
the first such child when several have the most: every child has at most as many visits as
child `i`, and every child before `i` has fewer. The choice reads the visit counts of the
children only: a node with the same moves whose children have the same visit counts gets the
same move, whatever the result sums are. -/
theorem mostVisitsMove_robust (n : Node V) (hc : n.mChildren ≠ [])
    (hlen : n.mChildren.length ≤ n.mMoves.length) :
    (∃ i c move, n.mChildren.get? i = some c ∧ n.mMoves.get? i = some move
      ∧ n.mostVisitsMove = some move
      ∧ (∀ j d, n.mChildren.get? j = some d → d.mVisits ≤ c.mVisits)
      ∧ (∀ j d, j < i → n.mChildren.get? j = some d → d.mVisits < c.mVisits))
    ∧ (∀ n1 : Node V, n1.mMoves = n.mMoves →
        n1.mChildren.map (fun c => c.mVisits) = n.mChildren.map (fun c => c.mVisits) →
        n1.mostVisitsMove = n.mostVisitsMove) :=
  ⟨mostVisitsMove_first_max hc hlen, fun _ hm hv => mostVisitsMove_congr hm hv⟩

end Robust

/-- The robust child at work: of three children visited 3, 5 and 5 times, the second is
chosen. -/
theorem mostVisitsMove_robust_witness :
    sampleNode.mChildren ≠ [] ∧ sampleNode.mChildren.length ≤ sampleNode.mMoves.length
    ∧ sampleNode.mostVisitsMove = some ⟨11, 27, Move.PAWN_TWO_UP_FLAG⟩
    ∧ ∃ i c move, sampleNode.mChildren.get? i = some c ∧ sampleNode.mMoves.get? i = some move
      ∧ sampleNode.mostVisitsMove = some move
      ∧ (∀ j d, sampleNode.mChildren.get? j = some d → d.mVisits ≤ c.mVisits)
      ∧ (∀ j d, j < i → sampleNode.mChildren.get? j = some d → d.mVisits < c.mVisits) :=
  ⟨List.cons_ne_nil _ _, by decide, by decide,
    (mostVisitsMove_robust sampleNode (List.cons_ne_nil _ _) (by decide)).1⟩

end Node
section Search

variable {V : Type} [LinearOrderedField V]

/-- On a root position without a legal move the constructor of the root node fails its
assertion, there is no root node, and `search` returns nothing. -/
theorem search_none_of_no_moves (env : SearchEnv V) (rootBoard : Board)
    (h : rootBoard.legalMoves env.Z false = []) :
    (∀ depth rng, Node.new env rootBoard true depth rng = none)
    ∧ searchInit env rootBoard = none
    ∧ ∀ searchTimeMs maxDepth maxNodes boolPrintInfo fuel,
        search env rootBoard searchTimeMs maxDepth maxNodes boolPrintInfo fuel = none := by
  have hnew : ∀ depth rng, Node.new env rootBoard true depth rng = none := by
    intro depth rng
    rw [Node.new_root, if_pos h]
  have hinit : searchInit env rootBoard = none := by
    unfold searchInit
    rw [hnew]
  refine ⟨hnew, hinit, ?_⟩
  intro searchTimeMs maxDepth maxNodes boolPrintInfo fuel
  unfold search
  rw [hinit]

/-- C30 (amended): `search` on a finished game. `search` has no outcome for a finished game: on
a root position without a legal move, a checkmate or a stalemate, the constructor of the root
node fails its assertion `mMoves.size() > 0`; there is no root node, the loop is never entered,
no child or move list is indexed, and `search` returns nothing, whatever the budgets. -/
theorem search_no_legal_move (env : SearchEnv V) (rootBoard : Board)
    (h : rootBoard.legalMoves env.Z false = []) :
    (∀ depth rng, Node.new env rootBoard true depth rng = none)
    ∧ searchInit env rootBoard = none
    ∧ ∀ searchTimeMs maxDepth maxNodes boolPrintInfo fuel,
        search env rootBoard searchTimeMs maxDepth maxNodes boolPrintInfo fuel = none :=
  search_none_of_no_moves env rootBoard h

end Search

/-- The assertion at work: in the position after the fool's mate White has no legal move, and
`search` returns nothing. -/
theorem search_no_legal_move_witness :
    (Board.sampleBoard "rnb1kbnr/pppp1ppp/8/4p3/6Pq/5P2/PPPPP2P/RNBQKBNR w KQkq - 1 3").legalMoves
        SearchEnv.sample.Z false = []
    ∧ search SearchEnv.sample
        (Board.sampleBoard "rnb1kbnr/pppp1ppp/8/4p3/6Pq/5P2/PPPPP2P/RNBQKBNR w KQkq - 1 3")
        1000 10 100 true 100 = none :=
  ⟨by decide!, (search_no_legal_move SearchEnv.sample _ (by decide!)).2.2 1000 10 100 true 100⟩

/-- C30, as worded, fails: there is no outcome for a finished game. In the stalemate
`7k/5Q2/6K1/8/8/8/8/8 b - - 0 1` Black has no legal move and is not in check; the constructor
of the root node fails its assertion, and `search` returns no outcome at all, whatever the
budgets. -/
theorem search_stalemate_no_outcome :
    (Board.sampleBoard "7k/5Q2/6K1/8/8/8/8/8 b - - 0 1").legalMoves SearchEnv.sample.Z false = []
    ∧ (Board.sampleBoard "7k/5Q2/6K1/8/8/8/8/8 b - - 0 1").inCheck = false
    ∧ Node.new SearchEnv.sample (Board.sampleBoard "7k/5Q2/6K1/8/8/8/8/8 b - - 0 1") true 0
        SearchEnv.sample.resetRng = none
    ∧ ∀ searchTimeMs maxDepth maxNodes boolPrintInfo fuel,
        search SearchEnv.sample (Board.sampleBoard "7k/5Q2/6K1/8/8/8/8/8 b - - 0 1")
          searchTimeMs maxDepth maxNodes boolPrintInfo fuel = none := by
  have h : (Board.sampleBoard "7k/5Q2/6K1/8/8/8/8/8 b - - 0 1").legalMoves SearchEnv.sample.Z
      false = [] := by decide!
  obtain ⟨h1, _, h3⟩ := search_none_of_no_moves SearchEnv.sample _ h
  exact ⟨h, by decide!, h1 0 _, h3⟩
/-! ## The effect of `backprop` -/

namespace Node

variable {V : Type} [LinearOrderedField V]

/-- The value of the last round of the loop of `backprop`: the value given, with the sign
changed once per round. -/
theorem backpropLoop_snd (env : SearchEnv V) (wdl : V) :
    ∀ (p : List Nat) (n : Node V) (r : Node V × V),
    backpropLoop env n p wdl = some r → r.2 = wdl * (-1) ^ (p.length + 1)
  | [], n, r, h => by
    unfold backpropLoop at h
    cases h
    simp
  | i :: p, n, r, h => by
    rw [backpropLoop] at h
    cases hc : n.mChildren.get? i with
    | none => rw [hc] at h; cases h
    | some c =>
      rw [hc] at h
      simp only at h
      cases hr : backpropLoop env c p wdl with
      | none => rw [hr] at h; cases h
      | some r1 =>
        rw [hr] at h
        cases h
        rw [backpropLoop_snd env wdl p c r1 hr, List.length_cons]
        ring

/-- The nodes on the path after the loop of `backprop`: one visit more, and the value of their
round added to the result sum, the sum being stored in a `float`. -/
theorem backpropLoop_on_path (env : SearchEnv V) (wdl : V) :
    ∀ (p : List Nat) (n : Node V) (r : Node V × V),
    backpropLoop env n p wdl = some r → ∀ q t, p = q ++ t →
    ∃ m m1, n.get? q = some m ∧ r.1.get? q = some m1
      ∧ m1.mVisits = (m.mVisits + 1) % 2 ^ 32
      ∧ m1.mResultsSum = env.toFloat (m.mResultsSum + wdl * (-1) ^ (t.length + 1))
      ∧ m1.mMoves = m.mMoves ∧ m1.mGameState = m.mGameState ∧ m1.mDepth = m.mDepth
      ∧ m1.mChildren.length = m.mChildren.length
  | [], n, r, h, q, t, hq => by
    have hq' : q = [] ∧ t = [] := by
      cases q with
      | nil => exact ⟨rfl, by simpa using hq.symm⟩
      | cons a q => simp at hq
    obtain ⟨rfl, rfl⟩ := hq'
    unfold backpropLoop at h
    cases h
    refine ⟨n, _, get?_nil n, get?_nil _, rfl, ?_, rfl, rfl, rfl, rfl⟩
    show env.toFloat (n.mResultsSum + -wdl) = _
    simp
  | i :: p, n, r, h, q, t, hq => by
    rw [backpropLoop] at h
    cases hc : n.mChildren.get? i with
    | none => rw [hc] at h; cases h
    | some c =>
      rw [hc] at h
      simp only at h
      cases hr : backpropLoop env c p wdl with
      | none => rw [hr] at h; cases h
      | some r1 =>
        rw [hr] at h
        cases h
        have hi : i < n.mChildren.length := (List.get?_eq_some.mp hc).1
        cases q with
        | nil =>
          rw [List.nil_append] at hq
          subst hq
          refine ⟨n, _, get?_nil n, get?_nil _, rfl, ?_, rfl, rfl, rfl, ?_⟩
          · show env.toFloat (n.mResultsSum + -r1.2) = _
            rw [backpropLoop_snd env wdl p c r1 hr, List.length_cons]
            congr 1
            ring
          · show (n.mChildren.set i r1.1).length = _
            rw [List.length_set]
        | cons a q =>
          rw [List.cons_append, List.cons.injEq] at hq
          obtain ⟨rfl, hq⟩ := hq
          obtain ⟨m, m1, h1, h2, h3⟩ := backpropLoop_on_path env wdl p c r1 hr q t hq
          refine ⟨m, m1, by rw [get?_cons_of hc]; exact h1, ?_, h3⟩
          have : (visit env { n with mChildren := n.mChildren.set i r1.1 }
              (-r1.2)).mChildren.get? i = some r1.1 := by
            show (n.mChildren.set i r1.1).get? i = _
            rw [List.get?_eq_getElem?, List.getElem?_set_self hi]
          rw [get?_cons_of this]
          exact h2

/-- The nodes off the path are left alone by the loop of `backprop`. -/
theorem backpropLoop_off_path (env : SearchEnv V) (wdl : V) :
    ∀ (p : List Nat) (n : Node V) (r : Node V × V),
    backpropLoop env n p wdl = some r → ∀ p1, ¬ p1 <+: p → r.1.get? p1 = n.get? p1
  | [], n, r, h, p1, hp1 => by
    unfold backpropLoop at h
    cases h
    cases p1 with
    | nil => exact absurd (List.prefix_refl _) hp1
    | cons j p1 =>
      rw [get?_cons, get?_cons]
      rfl
  | i :: p, n, r, h, p1, hp1 => by
    rw [backpropLoop] at h
    cases hc : n.mChildren.get? i with
    | none => rw [hc] at h; cases h
    | some c =>
      rw [hc] at h
      simp only at h
      cases hr : backpropLoop env c p wdl with
      | none => rw [hr] at h; cases h
      | some r1 =>
        rw [hr] at h
        cases h
        have hi : i < n.mChildren.length := (List.get?_eq_some.mp hc).1
        cases p1 with
        | nil => exact absurd (List.nil_prefix) hp1
        | cons j p1 =>
          rw [get?_cons, get?_cons]
          show ((n.mChildren.set i r1.1).get? j).bind _ = _
          by_cases hj : i = j
          · subst hj
            rw [List.get?_eq_getElem?, List.getElem?_set_self hi, hc]
            simp only [Option.some_bind]
            refine backpropLoop_off_path env wdl p c r1 hr p1 (fun hpre => hp1 ?_)
            exact (List.prefix_cons_inj i).mpr hpre
          · rw [List.get?_eq_getElem?, List.getElem?_set_ne hj, ← List.get?_eq_getElem?]

end Node
namespace Node

section Backprop

variable {V : Type} [LinearOrderedField V]

/-- What `backprop` does to the tree, for a value in `[-1, 1]` and a node that is not the
root. -/
theorem backprop_effect (env : SearchEnv V) (root : Node V) (path : List Nat) (node : Node V)
    (wdl : V)
    (hg : root.get? path = some node) (hp : path ≠ []) (hw : -1 ≤ wdl ∧ wdl ≤ 1) :
    ∃ root1, root.backprop env path wdl = some root1
      ∧ (∀ q t, path = q ++ t →
          ∃ m m1, root.get? q = some m ∧ root1.get? q = some m1
            ∧ m1.mVisits = (m.mVisits + 1) % 2 ^ 32
            ∧ m1.mResultsSum = env.toFloat (m.mResultsSum + wdl * (-1) ^ (t.length + 1))
            ∧ m1.mMoves = m.mMoves ∧ m1.mGameState = m.mGameState ∧ m1.mDepth = m.mDepth
            ∧ m1.mChildren.length = m.mChildren.length)
      ∧ (∀ p, ¬ p <+: path → root1.get? p = root.get? p) := by
  obtain ⟨r, hr⟩ := backpropLoop_isSome env wdl path root hg
  refine ⟨r.1, ?_, backpropLoop_on_path env wdl path root r hr,
    backpropLoop_off_path env wdl path root r hr⟩
  unfold backprop
  rw [if_pos ⟨hp, hw.1, hw.2⟩, hr]
  rfl

/-- C22 (amended): the perspective of `backprop`. Called on a node that is not the root, with a
value in `[-1, 1]`, `backprop(value)` meets no failing assertion; it adds one to the visit
count (a `u32`) of the node and of each of its ancestors, and adds `value * (-1)^(k+1)` to the
result sum of the `k`-th ancestor, `k = 0` being the node itself: the node receives `-value`,
its parent `value`, and so on with alternating sign. The result sum is a `float`: what is
stored is the sum rounded to `float`, which is the sum itself as long as that is an integer of
at most `2^24` in absolute value. The moves, the state, the depth and the number of children
of these nodes are unchanged, and so is every node off the path to the root. With the value
that `simulate` produced from the perspective of the player to move at the node, the result
sum of a node is thus accumulated from the perspective of the player who moved into it, the
opponent of the player to move at it. -/
theorem backprop_alternates (env : SearchEnv V) (root : Node V) (path : List Nat)
    (node : Node V) (wdl : V)
    (hg : root.get? path = some node) (hp : path ≠ []) (hw : -1 ≤ wdl ∧ wdl ≤ 1) :
    ∃ root1, root.backprop env path wdl = some root1
      ∧ (∀ q t, path = q ++ t →
          ∃ m m1, root.get? q = some m ∧ root1.get? q = some m1
            ∧ m1.mVisits = (m.mVisits + 1) % 2 ^ 32
            ∧ (m.mVisits + 1 < 2 ^ 32 → m1.mVisits = m.mVisits + 1)
            ∧ m1.mResultsSum = env.toFloat (m.mResultsSum + wdl * (-1) ^ (t.length + 1))
            ∧ m1.mMoves = m.mMoves ∧ m1.mGameState = m.mGameState ∧ m1.mDepth = m.mDepth
            ∧ m1.mChildren.length = m.mChildren.length)
      ∧ (∃ m1, root1.get? path = some m1
          ∧ m1.mResultsSum = env.toFloat (node.mResultsSum - wdl))
      ∧ (∀ k : Int, |k| ≤ 2 ^ 24 → env.toFloat (k : V) = (k : V))
      ∧ (∀ p, ¬ p <+: path → root1.get? p = root.get? p) := by
  obtain ⟨root1, h1, h2, h3⟩ := backprop_effect env root path node wdl hg hp hw
  refine ⟨root1, h1, fun q t hq => ?_, ?_, env.toFloat_int, h3⟩
  · obtain ⟨m, m1, a1, a2, a3, a4⟩ := h2 q t hq
    exact ⟨m, m1, a1, a2, a3, fun hlt => by rw [a3, Nat.mod_eq_of_lt hlt], a4⟩
  · obtain ⟨m, m1, a1, a2, _, a4, _⟩ := h2 path [] (List.append_nil _).symm
    rw [hg] at a1
    cases a1
    refine ⟨m1, a2, ?_⟩
    rw [a4]
    congr 1
    simp
    ring

end Backprop

/-- The rounding to `float` of the sample environment, on a value between `-2^24` and
`2^24`. -/
theorem sample_toFloat {x : ℚ} (h1 : -2 ^ 24 ≤ x) (h2 : x ≤ 2 ^ 24) :
    SearchEnv.sample.toFloat x = x := by
  show max (-2 ^ 24) (min x (2 ^ 24)) = x
  rw [min_eq_left h2, max_eq_right h1]

/-- The effect of `backprop` at work: on the sample node, `backprop(1/2)` called on its second
child takes the result sum of that child from 0 to `-1/2` and that of the node from 0 to
`1/2`. -/
theorem backprop_alternates_witness :
    sampleNode.get? [1] = some (sampleLeaf 5) ∧ ([1] : List Nat) ≠ []
    ∧ (-1 : ℚ) ≤ 1 / 2 ∧ (1 / 2 : ℚ) ≤ 1
    ∧ ∃ root1 m1, sampleNode.backprop SearchEnv.sample [1] (1 / 2) = some root1
        ∧ root1.get? [1] = some m1 ∧ m1.mResultsSum = -1 / 2 := by
  refine ⟨rfl, List.cons_ne_nil _ _, by norm_num, by norm_num, ?_⟩
  obtain ⟨root1, h1, _, ⟨m1, h3, h4⟩, _⟩ := backprop_alternates SearchEnv.sample sampleNode
    [1] (sampleLeaf 5) (1 / 2) rfl (List.cons_ne_nil _ _) ⟨by norm_num, by norm_num⟩
  refine ⟨root1, m1, h1, h3, ?_⟩
  rw [h4]
  have e1 : (sampleLeaf 5).mResultsSum = 0 := rfl
  rw [e1, sample_toFloat (by norm_num) (by norm_num)]
  norm_num

/-- C22, as worded, fails: the node on which `backprop(value)` is called, the ancestor `k = 0`,
receives `-value` and not `value * (-1)^0`. On the sample node, `backprop(1)` called on the
second child leaves that child with the result sum `-1`, and the node, its parent, with the
result sum `1`. -/
theorem backprop_sign :
    ∃ root1 m1, sampleNode.backprop SearchEnv.sample [1] 1 = some root1
      ∧ root1.get? [1] = some m1
      ∧ m1.mResultsSum = -1 ∧ m1.mResultsSum ≠ (sampleLeaf 5).mResultsSum + 1 * (-1) ^ 0
      ∧ root1.mResultsSum = 1 ∧ root1.mResultsSum ≠ sampleNode.mResultsSum + 1 * (-1) ^ 1 := by
  obtain ⟨root1, h1, h2, _⟩ := backprop_effect SearchEnv.sample sampleNode [1] (sampleLeaf 5) 1
    rfl (List.cons_ne_nil _ _) ⟨by norm_num, by norm_num⟩
  obtain ⟨m, m1, a1, a2, _, a4, _⟩ := h2 [1] [] rfl
  obtain ⟨n, n1, b1, b2, _, b4, _⟩ := h2 [] [1] rfl
  have hm : m = sampleLeaf 5 := by
    have : sampleNode.get? [1] = some (sampleLeaf 5) := rfl
    rw [this] at a1
    exact (Option.some.inj a1).symm
  have hn : n = sampleNode := by
    rw [get?_nil] at b1
    exact (Option.some.inj b1).symm
  have hn1 : n1 = root1 := by
    rw [get?_nil] at b2
    exact (Option.some.inj b2).symm
  subst hm hn hn1
  have e1 : (sampleLeaf 5).mResultsSum = 0 := rfl
  have e2 : sampleNode.mResultsSum = 0 := rfl
  have f1 : SearchEnv.sample.toFloat (0 + 1 * (-1) ^ ([] : List Nat).length.succ) = -1 := by
    rw [sample_toFloat (by norm_num) (by norm_num)]
    norm_num
  have f2 : SearchEnv.sample.toFloat (0 + 1 * (-1) ^ ([1] : List Nat).length.succ) = 1 := by
    rw [sample_toFloat (by norm_num) (by norm_num)]
    norm_num
  rw [e1] at a4
  rw [e2] at b4
  refine ⟨n1, m1, h1, a2, ?_, ?_, ?_, ?_⟩
  · rw [a4]
    exact f1
  · rw [a4, e1, f1]
    norm_num
  · rw [b4]
    exact f2
  · rw [b4, e2, f2]
    norm_num

end Node
/-! ## Reading an iteration backwards -/

namespace Node

variable {V : Type} [LinearOrderedField V]

/-- The value of `simulate` on a node that is not `ONGOING`. -/
theorem simulate_terminal {env : SearchEnv V} {n : Node V} {board : Board} {rng rng1 : Nat}
    {wdl : V} (hstate : n.mGameState ≠ .ONGOING)
    (h : n.simulate env board rng = some (wdl, rng1)) : wdl = (n.mGameState.toInt : V) := by
  unfold simulate at h
  rw [if_pos hstate] at h
  simp only [Option.some.injEq, Prod.mk.injEq] at h
  exact h.1.symm

/-- An iteration that arrives at a node that is not `ONGOING` ends there. -/
theorem Iterated.of_terminal {env : SearchEnv V} {board : Board} {n n1 : Node V} {wdl : V}
    (h : Iterated env board n n1 wdl) (hstate : n.mGameState ≠ .ONGOING) :
    n1 = n.visit env (-(n.mGameState.toInt : V)) ∧ wdl = -(n.mGameState.toInt : V) := by
  cases h with
  | terminal _ _ rng rng1 w _ hsim =>
    rw [simulate_terminal hstate hsim]
    exact ⟨rfl, rfl⟩
  | expanded _ _ _ _ _ _ _ _ _ hst _ _ _ _ => exact absurd hst hstate
  | descended _ _ _ _ _ _ _ hst _ _ _ _ _ => exact absurd hst hstate

/-- An iteration that arrives at an `ONGOING` node that lacks a child expands it. -/
theorem Iterated.of_room {env : SearchEnv V} {board : Board} {n n1 : Node V} {wdl : V}
    (h : Iterated env board n n1 wdl) (hstate : n.mGameState = .ONGOING)
    (hroom : n.mChildren.length ≠ n.mMoves.length) :
    ∃ move child board1 rng rng1 rng2,
      n.mMoves.get? n.mChildren.length = some move
      ∧ new env (board.makeMove env.Z move) false ((n.mDepth + 1) % 65536) rng
          = some (child, board1, rng1)
      ∧ child.simulate env board1 rng1 = some (wdl, rng2)
      ∧ n1 = visit env { n with mChildren := n.mChildren ++ [child.visit env (-wdl)] } wdl := by
  cases h with
  | terminal _ _ _ _ _ hst _ => exact absurd hstate hst
  | expanded _ _ move child board1 rng rng1 rng2 _ _ _ hmove hnew hsim =>
    exact ⟨move, child, board1, rng, rng1, rng2, hmove, hnew, hsim, rfl⟩
  | descended _ _ _ _ _ _ _ _ hfull _ _ _ _ => exact absurd hfull hroom

/-- An iteration that arrives at an `ONGOING` node with all its children goes on in the best
child. -/
theorem Iterated.of_full {env : SearchEnv V} {board : Board} {n n1 : Node V} {wdl : V}
    (h : Iterated env board n n1 wdl) (hstate : n.mGameState = .ONGOING)
    (hfull : n.mChildren.length = n.mMoves.length) :
    ∃ i move c c1 w, bestChildIdx env n = some i ∧ n.mMoves.get? i = some move
      ∧ n.mChildren.get? i = some c ∧ Iterated env (board.makeMove env.Z move) c c1 w
      ∧ n1 = visit env { n with mChildren := n.mChildren.set i c1 } (-w) ∧ wdl = -w := by
  cases h with
  | terminal _ _ _ _ _ hst _ => exact absurd hstate hst
  | expanded _ _ _ _ _ _ _ _ _ _ hroom _ _ _ => exact absurd hfull (Nat.ne_of_lt hroom)
  | descended _ _ i move c c1 w _ _ hbest hmove hchild hrest =>
    exact ⟨i, move, c, c1, w, hbest, hmove, hchild, hrest, rfl, rfl⟩

end Node

section Search

variable {V : Type} [LinearOrderedField V]

/-- A root position with one legal move, which mates: after `n` iterations the root has one
child, the mated position, and its result sum, a `float`, is `-n` while `n ≤ 2^24` and stays
at `-2^24` from there on. -/
theorem forced_mate_states (env : SearchEnv V) (rootBoard : Board) (m : Move)
    (h1 : rootBoard.legalMoves env.Z false = [m])
    (hlost : ∀ depth rng c b r,
      Node.new env (rootBoard.makeMove env.Z m) false depth rng = some (c, b, r) →
      c.mGameState = .LOST) :
    ∀ n s, 1 ≤ n → searchStates env rootBoard n = some s →
      ∃ c, s.root.mChildren = [c] ∧ c.mGameState = .LOST
        ∧ s.root.mResultsSum = -((min n (2 ^ 24) : Nat) : V) := by
  have hmoves : rootBoard.legalMoves env.Z false ≠ [] := by
    rw [h1]
    exact List.cons_ne_nil _ _
  have hsh : (env.shuffleVector env.resetRng (rootBoard.legalMoves env.Z false)).1 = [m] := by
    have := env.shuffle_perm env.resetRng (rootBoard.legalMoves env.Z false)
    rw [h1] at this ⊢
    exact List.perm_singleton.mp this
  intro n
  induction n with
  | zero => intro s h; exact absurd h (by decide)
  | succ n ih =>
    intro s _ hs
    rw [searchStates_succ] at hs
    cases h0 : searchStates env rootBoard n with
    | none => rw [h0] at hs; cases hs
    | some s0 =>
      rw [h0] at hs
      simp only [Option.some_bind] at hs
      obtain ⟨⟨wdl, hit⟩, _, _⟩ := searchIteration_eq_some hs
      obtain ⟨_, _, c3, c4, c5, c6⟩ := searchStates_counts env rootBoard hmoves n s0 h0
      rw [hsh] at c4
      by_cases hn : n = 0
      · subst hn
        rw [searchStates, searchInit_eq env rootBoard hmoves] at h0
        cases h0
        obtain ⟨move, child, board1, rng, rng1, rng2, hmove, hnew, hsim, hn1⟩ :=
          hit.of_room rfl (by
            show ([] : List (Node V)).length ≠ _
            rw [hsh]
            simp)
        have hmv : move = m := by
          have : (env.shuffleVector env.resetRng (rootBoard.legalMoves env.Z false)).1.get? 0
              = some move := hmove
          rw [hsh] at this
          exact (Option.some.inj this).symm
        subst hmv
        have hst := hlost _ _ _ _ _ hnew
        have hw := Node.simulate_terminal (by rw [hst]; decide) hsim
        rw [hst] at hw
        refine ⟨child.visit env (-wdl), ?_, hst, ?_⟩
        · rw [hn1]
          rfl
        · rw [hn1]
          show env.toFloat ((0 : V) + wdl) = _
          rw [hw]
          have := env.toFloat_pred 0
          simpa [GameState.toInt] using this
      · obtain ⟨c, hc, hcst, hsum⟩ := ih s0 (by omega) h0
        have hfull : s0.root.mChildren.length = s0.root.mMoves.length := by
          rw [hc, c4]
          rfl
        obtain ⟨i, move, c', c1, w, hbest, hmove, hchild, hrest, hn1, hwdl⟩ :=
          hit.of_full c3 hfull
        have hi : i = 0 ∧ c' = c := by
          rw [hc] at hchild
          cases i with
          | zero => exact ⟨rfl, (Option.some.inj hchild).symm⟩
          | succ i => simp at hchild
        obtain ⟨rfl, rfl⟩ := hi
        obtain ⟨hc1, hw⟩ := hrest.of_terminal (by rw [hcst]; decide)
        rw [hcst] at hw
        refine ⟨c1, ?_, ?_, ?_⟩
        · rw [hn1]
          show s0.root.mChildren.set 0 c1 = _
          rw [hc]
          rfl
        · rw [hc1]
          exact hcst
        · rw [hn1]
          show env.toFloat (s0.root.mResultsSum + -w) = _
          rw [hsum, hw]
          have := env.toFloat_pred n
          simpa [GameState.toInt] using this

end Search
section Search

variable {V : Type} [LinearOrderedField V]

/-- The mean result of a node whose result sum is bounded by its visit count. -/
theorem mean_range {r : V} {v : Nat} (h : |r| ≤ (v : V)) (hv : 1 ≤ v) :
    -1 ≤ r / (v : V) ∧ r / (v : V) ≤ 1 := by
  have hpos : (0 : V) < (v : V) := by exact_mod_cast hv
  have h2 := abs_le.mp h
  constructor
  · rw [le_div_iff₀ hpos]
    linarith [h2.1]
  · rw [div_le_iff₀ hpos]
    linarith [h2.2]

/-- The bound on the result sum below the wrap of the `u32` visit count. On a root position
with a legal move, with `EVAL_SCALE` not zero, the state after `n` iterations of the loop
exists for every `n < 2^32`, and in its tree every node satisfies `|mResultsSum| ≤ mVisits`, so
for every node with at least one visit the mean result `mResultsSum / mVisits` lies in
`[-1, 1]`. The states that the loop of `search` goes through are these states. -/
theorem results_sum_bound (env : SearchEnv V) (rootBoard : Board)
    (hmoves : rootBoard.legalMoves env.Z false ≠ []) (hscale : env.EVAL_SCALE ≠ 0) :
    (∀ n, n < 2 ^ 32 →
      ∃ s, searchStates env rootBoard n = some s
        ∧ ∀ p m, s.root.get? p = some m →
          |m.mResultsSum| ≤ (m.mVisits : V)
          ∧ (1 ≤ m.mVisits → -1 ≤ m.mResultsSum / (m.mVisits : V)
              ∧ m.mResultsSum / (m.mVisits : V) ≤ 1))
    ∧ (∀ searchTimeMs maxDepth maxNodes boolPrintInfo fuel last n s s1,
        searchStates env rootBoard n = some s →
        searchLoop env rootBoard searchTimeMs maxDepth maxNodes boolPrintInfo fuel last s
          = some s1 →
        ∃ k, 1 ≤ k ∧ searchStates env rootBoard (n + k) = some s1) := by
  constructor
  · intro n hn
    obtain ⟨s, hs, hsound⟩ := searchStates_sound env rootBoard hmoves hscale n hn
    refine ⟨s, hs, fun p m hm => ?_⟩
    have hl := (hsound p m hm).sum_le
    exact ⟨hl, fun hv => mean_range hl hv⟩
  · intro searchTimeMs maxDepth maxNodes boolPrintInfo fuel last n s s1 hs hloop
    obtain ⟨k, hk1, _, hk3⟩ := searchLoop_eq_some env rootBoard searchTimeMs maxDepth maxNodes
      boolPrintInfo fuel last n s s1 hs hloop
    exact ⟨k, hk1, hk3⟩

end Search

/-- The position after the only legal move of `8/k1N5/8/8/8/8/5nPP/1R4BK w - - 0 1`, the
capture `g1f2`, is a checkmate: the node built for it is `LOST`. -/
theorem forced_mate_sample (depth rng : Nat) (c : Node ℚ) (b : Board) (r : Nat)
    (h : Node.new SearchEnv.sample
      ((Board.sampleBoard "8/k1N5/8/8/8/8/5nPP/1R4BK w - - 0 1").makeMove SearchEnv.sample.Z
        ⟨6, 13, Move.BISHOP_FLAG⟩) false depth rng = some (c, b, r)) :
    c.mGameState = .LOST := by
  rw [Node.new_not_root] at h
  have e1 : (((Board.sampleBoard "8/k1N5/8/8/8/8/5nPP/1R4BK w - - 0 1").makeMove
      SearchEnv.sample.Z ⟨6, 13, Move.BISHOP_FLAG⟩).insufficientMaterial
      || ((Board.sampleBoard "8/k1N5/8/8/8/8/5nPP/1R4BK w - - 0 1").makeMove
      SearchEnv.sample.Z ⟨6, 13, Move.BISHOP_FLAG⟩).isRepetition) = false := by decide!
  have e2 : ((Board.sampleBoard "8/k1N5/8/8/8/8/5nPP/1R4BK w - - 0 1").makeMove
      SearchEnv.sample.Z ⟨6, 13, Move.BISHOP_FLAG⟩).legalMoves SearchEnv.sample.Z false = [] := by
    decide!
  have e3 : ((Board.sampleBoard "8/k1N5/8/8/8/8/5nPP/1R4BK w - - 0 1").makeMove
      SearchEnv.sample.Z ⟨6, 13, Move.BISHOP_FLAG⟩).inCheck = true := by decide!
  simp only [e1, e2, e3, Bool.false_eq_true, if_false, if_true, Option.some.injEq,
    Prod.mk.injEq] at h
  rw [← h.1]

/-- C21, where the code fails it: the visit count `mVisits` is a `u32` that `backprop`
increments without a check, and it wraps. In `8/k1N5/8/8/8/8/5nPP/1R4BK w - - 0 1` White has
one legal move, which mates. The state after `2^32` iterations exists; its root has the visit
count 0 and the result sum `-2^24`, the least value that the `float` sum of the values -1
reaches, so the result sum is not bounded by the visit count. -/
theorem results_sum_bound_wraps :
    ∃ s, searchStates SearchEnv.sample (Board.sampleBoard "8/k1N5/8/8/8/8/5nPP/1R4BK w - - 0 1")
        (2 ^ 32) = some s
      ∧ s.root.mVisits = 0 ∧ s.root.mResultsSum = -(2 ^ 24 : ℚ)
      ∧ ¬ |s.root.mResultsSum| ≤ (s.root.mVisits : ℚ) := by
  have h1 : (Board.sampleBoard "8/k1N5/8/8/8/8/5nPP/1R4BK w - - 0 1").legalMoves
      SearchEnv.sample.Z false = [⟨6, 13, Move.BISHOP_FLAG⟩] := by decide!
  have hm : (Board.sampleBoard "8/k1N5/8/8/8/8/5nPP/1R4BK w - - 0 1").legalMoves
      SearchEnv.sample.Z false ≠ [] := by
    rw [h1]
    exact List.cons_ne_nil _ _
  obtain ⟨s, hs⟩ := searchStates_isSome SearchEnv.sample _ hm SearchEnv.sample_scale (2 ^ 32)
    (le_refl _)
  obtain ⟨hv, _⟩ := searchStates_counts SearchEnv.sample _ hm _ s hs
  obtain ⟨c, _, _, hsum⟩ := forced_mate_states SearchEnv.sample _ _ h1 forced_mate_sample
    (2 ^ 32) s (by norm_num) hs
  rw [Nat.mod_self] at hv
  have e : min (2 ^ 32) (2 ^ 24) = 2 ^ 24 := by norm_num
  rw [e] at hsum
  refine ⟨s, hs, hv, ?_, ?_⟩
  · rw [hsum]
    norm_num
  · rw [hsum, hv]
    norm_num
/-! ## The descent of `select`, step by step -/

namespace Node

variable {V : Type} [LinearOrderedField V]

theorem UCT_eq_some {env : SearchEnv V} {c : Node V} {pv : Nat} {u : V}
    (h : c.UCT env pv = some u) :
    0 < c.mVisits ∧ 0 < pv
    ∧ u = c.mResultsSum / (c.mVisits : V)
        + env.UCT_C * env.sqrt (env.ln (pv : V) / (c.mVisits : V)) := by
  unfold UCT at h
  split at h
  · rename_i hv
    exact ⟨hv.1, hv.2, (Option.some.inj h).symm⟩
  · cases h

/-- The loop of `select` ends on the first child with the greatest score. -/
theorem selectLoop_spec (env : SearchEnv V) (pv : Nat) (L : List (Node V)) :
    ∀ (cs : List (Node V)) (i : Nat) (bestUct : V) (best r : Nat) (cb : Node V),
    L.drop i = cs → best < i → L.get? best = some cb → cb.UCT env pv = some bestUct →
    (∀ k d, k < i → L.get? k = some d → ∃ w, d.UCT env pv = some w ∧ w ≤ bestUct) →
    (∀ k d, k < best → L.get? k = some d → ∃ w, d.UCT env pv = some w ∧ w < bestUct) →
    selectLoop env pv cs i bestUct best = some r →
    ∃ c u, L.get? r = some c ∧ c.UCT env pv = some u
      ∧ (∀ k d, L.get? k = some d → ∃ w, d.UCT env pv = some w ∧ w ≤ u)
      ∧ (∀ k d, k < r → L.get? k = some d → ∃ w, d.UCT env pv = some w ∧ w < u) := by
  intro cs
  induction cs with
  | nil =>
    intro i bestUct best r cb hd hb hcb hu hle hlt h
    unfold selectLoop at h
    cases h
    refine ⟨cb, bestUct, hcb, hu, fun k d hk => ?_, hlt⟩
    refine hle k d ?_ hk
    have hlen : L.length ≤ i := List.drop_eq_nil_iff.mp hd
    have := (List.get?_eq_some.mp hk).1
    omega
  | cons c cs ih =>
    intro i bestUct best r cb hd hb hcb hu hle hlt h
    have hci : L.get? i = some c := by
      have := List.head?_drop L i
      rw [hd] at this
      simpa using this.symm
    have hd1 : L.drop (i + 1) = cs := by
      have := List.tail_drop L i
      rw [hd] at this
      simpa using this.symm
    unfold selectLoop at h
    cases hcu : c.UCT env pv with
    | none => rw [hcu] at h; cases h
    | some childUct =>
      rw [hcu] at h
      simp only at h
      split at h
      · rename_i hgt
        refine ih (i + 1) childUct i r c hd1 (by omega) hci hcu
          (fun k d hk hkd => ?_) (fun k d hk hkd => ?_) h
        · by_cases hki : k = i
          · subst hki
            rw [hci] at hkd
            cases hkd
            exact ⟨childUct, hcu, le_refl _⟩
          · obtain ⟨w, hw, hwle⟩ := hle k d (by omega) hkd
            exact ⟨w, hw, le_of_lt (lt_of_le_of_lt hwle hgt)⟩
        · obtain ⟨w, hw, hwle⟩ := hle k d hk hkd
          exact ⟨w, hw, lt_of_le_of_lt hwle hgt⟩
      · rename_i hgt
        refine ih (i + 1) bestUct best r cb hd1 (by omega) hcb hu
          (fun k d hk hkd => ?_) hlt h
        by_cases hki : k = i
        · subst hki
          rw [hci] at hkd
          cases hkd
          exact ⟨childUct, hcu, not_lt.mp hgt⟩
        · exact hle k d (by omega) hkd

/-- The index that `select` computes: the first child with the greatest score. -/
theorem bestChildIdx_spec {env : SearchEnv V} {n : Node V} {i : Nat}
    (h : bestChildIdx env n = some i) :
    ∃ c u, n.mChildren.get? i = some c ∧ c.UCT env n.mVisits = some u
      ∧ (∀ k d, n.mChildren.get? k = some d → ∃ w, d.UCT env n.mVisits = some w ∧ w ≤ u)
      ∧ (∀ k d, k < i → n.mChildren.get? k = some d →
          ∃ w, d.UCT env n.mVisits = some w ∧ w < u) := by
  unfold bestChildIdx at h
  split at h
  · split at h
    · cases h
    · rename_i c0 cs hcs
      cases hu : c0.UCT env n.mVisits with
      | none => rw [hu] at h; cases h
      | some bestUct =>
        rw [hu] at h
        simp only at h
        refine selectLoop_spec env n.mVisits n.mChildren cs 1 bestUct 0 i c0
          (by rw [hcs]; rfl) (by decide) (by rw [hcs]; rfl) hu (fun k d hk hkd => ?_)
          (fun k d hk _ => absurd hk (by omega)) h
        have : k = 0 := by omega
        subst this
        rw [hcs] at hkd
        cases hkd
        exact ⟨bestUct, hu, le_refl _⟩
  · cases h

/-- The working board after the descent: the moves that label the path, applied in order. -/
theorem Selected.pathMoves {env : SearchEnv V} {board board1 : Board} {n leaf : Node V}
    {p : List Nat} (h : Selected env board n p leaf board1) :
    ∃ ms, n.pathMoves p = some ms
      ∧ board1 = ms.foldl (fun b m => b.makeMove env.Z m) board := by
  induction h with
  | stop board n _ => exact ⟨[], by rw [Node.pathMoves], rfl⟩
  | step board n i move c p leaf board1 _ _ _ hmove hchild _ ih =>
    obtain ⟨ms, h1, h2⟩ := ih
    refine ⟨move :: ms, ?_, ?_⟩
    · rw [Node.pathMoves, hmove, hchild]
      simp only [h1, Option.map_some']
    · rw [h2]
      rfl

/-- Every node that the descent leaves is `ONGOING`, has all its children, and is left for the
child of the best index. -/
theorem Selected.steps {env : SearchEnv V} {board board1 : Board} {n leaf : Node V}
    {p : List Nat} (h : Selected env board n p leaf board1) :
    ∀ q i t, p = q ++ i :: t →
      ∃ node, n.get? q = some node ∧ node.mGameState = .ONGOING
        ∧ node.mChildren.length = node.mMoves.length ∧ bestChildIdx env node = some i := by
  induction h with
  | stop board n _ =>
    intro q i t hq
    exact absurd hq (by simp)
  | step board n i move c p leaf board1 hstate hfull hbest _ hchild _ ih =>
    intro q j t hq
    cases q with
    | nil =>
      rw [List.nil_append, List.cons.injEq] at hq
      obtain ⟨rfl, _⟩ := hq
      exact ⟨n, get?_nil n, hstate, hfull, hbest⟩
    | cons a q =>
      rw [List.cons_append, List.cons.injEq] at hq
      obtain ⟨rfl, hq⟩ := hq
      obtain ⟨node, h1, h2⟩ := ih q j t hq
      exact ⟨node, by rw [get?_cons_of hchild]; exact h1, h2⟩

/-- On a node that is `ONGOING` and has all its children, but no visit, `select` fails the
assertion of `UCT` on the visit count of the parent. -/
theorem select_unvisited (env : SearchEnv V) (n : Node V) (board : Board)
    (hstate : n.mGameState = .ONGOING) (hfull : n.mChildren.length = n.mMoves.length)
    (hc : n.mChildren ≠ []) (hv : n.mVisits = 0) : select env n board = none := by
  obtain ⟨cs, ms, st, v, rs, d⟩ := n
  simp only at hstate hfull hc hv
  subst hstate hv
  have hb : bestChildIdx env ⟨cs, ms, .ONGOING, 0, rs, d⟩ = none := by
    unfold bestChildIdx
    split
    · cases cs with
      | nil => exact absurd rfl hc
      | cons c0 cs =>
        simp only
        have : c0.UCT env 0 = none := by
          unfold UCT
          rw [if_neg (fun h => absurd h.2 (by decide))]
        rw [this]
    · rfl
  unfold select
  rw [if_neg (by simp [hfull]), hb]

end Node
section Search

variable {V : Type} [LinearOrderedField V]

/-- Selection below the wrap of the `u32` visit count. On a root position with a legal move,
with `EVAL_SCALE` not zero, in the state after `n` iterations of the loop, for every
`n < 2^32`, `select(board)` called on the root with the working board, which is the root
board, meets no failing assertion and returns a node, at the end of `path`, that is not
`ONGOING` or has fewer children than moves. Every node that the descent leaves is `ONGOING`
and has all its children, and it is left for the child `i` with the greatest score
`mResultsSum / mVisits + UCT_C * sqrt(ln(parent visits) / mVisits)`, the first such child: no
child has a greater score and every child before `i` has a smaller one. On return the working
board is the root board with the moves that label the path applied in order. -/
theorem select_descends (env : SearchEnv V) (rootBoard : Board)
    (hmoves : rootBoard.legalMoves env.Z false ≠ []) (hscale : env.EVAL_SCALE ≠ 0) :
    ∀ n, n < 2 ^ 32 →
      ∃ s path board1 leaf ms, searchStates env rootBoard n = some s ∧ s.board = rootBoard
        ∧ s.root.select env s.board = some (path, board1)
        ∧ s.root.get? path = some leaf
        ∧ (leaf.mGameState ≠ .ONGOING ∨ leaf.mChildren.length < leaf.mMoves.length)
        ∧ (∀ q i t, path = q ++ i :: t →
            ∃ node c u, s.root.get? q = some node ∧ node.mGameState = .ONGOING
              ∧ node.mChildren.length = node.mMoves.length
              ∧ node.mChildren.get? i = some c ∧ c.UCT env node.mVisits = some u
              ∧ u = c.mResultsSum / (c.mVisits : V)
                  + env.UCT_C * env.sqrt (env.ln (node.mVisits : V) / (c.mVisits : V))
              ∧ (∀ k d, node.mChildren.get? k = some d →
                  ∃ w, d.UCT env node.mVisits = some w ∧ w ≤ u)
              ∧ (∀ k d, k < i → node.mChildren.get? k = some d →
                  ∃ w, d.UCT env node.mVisits = some w ∧ w < u))
        ∧ s.root.pathMoves path = some ms
        ∧ board1 = ms.foldl (fun b m => b.makeMove env.Z m) rootBoard := by
  intro n hn
  obtain ⟨s, hs, hsound⟩ := searchStates_sound env rootBoard hmoves hscale n hn
  obtain ⟨_, _, _, _, hb, _⟩ := searchStates_counts env rootBoard hmoves n s hs
  obtain ⟨⟨path, board1⟩, hsel⟩ := Node.select_isSome env s.root s.board hsound
  obtain ⟨leaf, hS⟩ := Node.select_selected env _ _ _ _ hsel
  obtain ⟨ms, hms, hboard⟩ := hS.pathMoves
  refine ⟨s, path, board1, leaf, ms, hs, hb, hsel, hS.get?, ?_, ?_, hms, by rw [hboard, hb]⟩
  · rcases hS.leaf with h | h
    · exact Or.inl h
    · exact Or.inr (lt_of_le_of_ne (hsound path leaf hS.get?).1 h)
  · intro q i t hq
    obtain ⟨node, h1, h2, h3, h4⟩ := hS.steps q i t hq
    obtain ⟨c, u, h5, h6, h7, h8⟩ := Node.bestChildIdx_spec h4
    exact ⟨node, c, u, h1, h2, h3, h5, h6, (Node.UCT_eq_some h6).2.2, h7, h8⟩

end Search

/-- C26, where the code fails it: the visit count `mVisits` is a `u32` that `backprop`
increments without a check, and that of the root wraps. In
`8/k1N5/8/8/8/8/5nPP/1R4BK w - - 0 1` White has one legal move. The state after `2^32`
iterations exists; its root is `ONGOING`, has its one child and the visit count 0, and
`select` called on it returns no node: it fails the assertion of `UCT` that the parent has
been visited. -/
theorem select_fails_after_wrap :
    ∃ s, searchStates SearchEnv.sample (Board.sampleBoard "8/k1N5/8/8/8/8/5nPP/1R4BK w - - 0 1")
        (2 ^ 32) = some s
      ∧ s.root.mVisits = 0 ∧ s.root.select SearchEnv.sample s.board = none := by
  have h1 : (Board.sampleBoard "8/k1N5/8/8/8/8/5nPP/1R4BK w - - 0 1").legalMoves
      SearchEnv.sample.Z false = [⟨6, 13, Move.BISHOP_FLAG⟩] := by decide!
  have hm : (Board.sampleBoard "8/k1N5/8/8/8/8/5nPP/1R4BK w - - 0 1").legalMoves
      SearchEnv.sample.Z false ≠ [] := by
    rw [h1]
    exact List.cons_ne_nil _ _
  obtain ⟨s, hs⟩ := searchStates_isSome SearchEnv.sample _ hm SearchEnv.sample_scale (2 ^ 32)
    (le_refl _)
  obtain ⟨hv, _, hst, hmv, _, hch⟩ := searchStates_counts SearchEnv.sample _ hm _ s hs
  obtain ⟨c, hc, _, _⟩ := forced_mate_states SearchEnv.sample _ _ h1 forced_mate_sample
    (2 ^ 32) s (by norm_num) hs
  rw [Nat.mod_self] at hv
  refine ⟨s, hs, hv, Node.select_unvisited _ _ _ hst ?_ (hch (by norm_num)) hv⟩
  rw [hc, hmv, h1]
  have := SearchEnv.sample.shuffle_perm SearchEnv.sample.resetRng
    [(⟨6, 13, Move.BISHOP_FLAG⟩ : Move)]
  rw [List.perm_singleton.mp this]
  rfl
/-! ## Where the nodes of the tree come from -/

namespace Node

section Paths

variable {V : Type}

theorem get?_congr {n n1 : Node V} (hc : n1.mChildren = n.mChildren) (i : Nat) (p : List Nat) :
    n1.get? (i :: p) = n.get? (i :: p) := by
  rw [get?_cons, get?_cons, hc]

theorem pathMoves_congr {n n1 : Node V} (hc : n1.mChildren = n.mChildren)
    (hm : n1.mMoves = n.mMoves) (i : Nat) (p : List Nat) :
    n1.pathMoves (i :: p) = n.pathMoves (i :: p) := by
  rw [pathMoves, pathMoves, hc, hm]

theorem pathMoves_cons_of {n c : Node V} {i : Nat} {move : Move}
    (hm : n.mMoves.get? i = some move) (hc : n.mChildren.get? i = some c) (p : List Nat) :
    n.pathMoves (i :: p) = (c.pathMoves p).map (fun ms => move :: ms) := by
  rw [pathMoves, hm, hc]

theorem get?_of_no_children {n node : Node V} (hc : n.mChildren = []) {p : List Nat}
    (h : n.get? p = some node) : p = [] := by
  cases p with
  | nil => rfl
  | cons i p =>
    rw [get?_cons, hc] at h
    cases h

end Paths

variable {V : Type} [LinearOrderedField V]

/-- A node that differs from a placed node in visits and results only is placed. -/
theorem Placed.congr {env : SearchEnv V} {board : Board} {n n1 : Node V}
    (hc : n1.mChildren = n.mChildren) (hm : n1.mMoves = n.mMoves) (hd : n1.mDepth = n.mDepth)
    (h : Placed env board n) : Placed env board n1 := by
  intro p node hg
  cases p with
  | nil =>
    rw [get?_nil] at hg
    cases hg
    refine ⟨?_, fun hp => absurd rfl hp⟩
    rw [hc, hm]
    exact (h [] n (get?_nil n)).1
  | cons i p =>
    rw [get?_congr hc] at hg
    obtain ⟨h1, h2⟩ := h (i :: p) node hg
    refine ⟨h1, fun hp => ?_⟩
    obtain ⟨ms, a1, a2, a3⟩ := h2 hp
    exact ⟨ms, by rw [pathMoves_congr hc hm]; exact a1, a2, by rw [hd]; exact a3⟩

/-- The children of a placed node are placed, on the position after their move. -/
theorem Placed.of_parent {env : SearchEnv V} {board : Board} {n c : Node V} {i : Nat}
    {move : Move} (h : Placed env board n) (hm : n.mMoves.get? i = some move)
    (hc : n.mChildren.get? i = some c) :
    Placed env (board.makeMove env.Z move) c
    ∧ Built env (board.makeMove env.Z move) c ∧ c.mDepth = (n.mDepth + 1) % 65536 := by
  have hself := (h [i] c (by rw [get?_cons_of hc]; exact get?_nil c)).2 (List.cons_ne_nil _ _)
  obtain ⟨ms, a1, a2, a3⟩ := hself
  rw [pathMoves_cons_of hm hc, pathMoves] at a1
  simp only [Option.map_some', Option.some.injEq] at a1
  subst a1
  refine ⟨?_, a2, a3⟩
  intro p node hg
  cases p with
  | nil =>
    rw [get?_nil] at hg
    cases hg
    exact ⟨(h [i] c (by rw [get?_cons_of hc]; exact get?_nil c)).1, fun hp => absurd rfl hp⟩
  | cons j p =>
    obtain ⟨h1, h2⟩ := h (i :: j :: p) node (by rw [get?_cons_of hc]; exact hg)
    refine ⟨h1, fun _ => ?_⟩
    obtain ⟨ms, b1, b2, b3⟩ := h2 (List.cons_ne_nil _ _)
    rw [pathMoves_cons_of hm hc] at b1
    cases hms : c.pathMoves (j :: p) with
    | none => rw [hms] at b1; cases b1
    | some ms1 =>
      rw [hms] at b1
      simp only [Option.map_some', Option.some.injEq] at b1
      subst b1
      refine ⟨ms1, rfl, b2, ?_⟩
      simp only [List.length_cons, List.length_nil] at a3 b3 ⊢
      rw [b3, a3]
      omega

/-- A node is placed when its children are, each on the position after its move. -/
theorem Placed.from_children {env : SearchEnv V} {board : Board} {n : Node V}
    (hlen : n.mChildren.length ≤ n.mMoves.length)
    (h : ∀ i c, n.mChildren.get? i = some c →
      ∃ move, n.mMoves.get? i = some move ∧ Placed env (board.makeMove env.Z move) c
        ∧ Built env (board.makeMove env.Z move) c ∧ c.mDepth = (n.mDepth + 1) % 65536) :
    Placed env board n := by
  intro p node hg
  cases p with
  | nil =>
    rw [get?_nil] at hg
    cases hg
    exact ⟨hlen, fun hp => absurd rfl hp⟩
  | cons i p =>
    rw [get?_cons] at hg
    cases hc : n.mChildren.get? i with
    | none => rw [hc] at hg; cases hg
    | some c =>
      rw [hc] at hg
      simp only [Option.some_bind] at hg
      obtain ⟨move, hm, hpl, hb, hd⟩ := h i c hc
      obtain ⟨h1, h2⟩ := hpl p node hg
      refine ⟨h1, fun _ => ?_⟩
      cases p with
      | nil =>
        rw [get?_nil] at hg
        cases hg
        refine ⟨[move], ?_, hb, ?_⟩
        · rw [pathMoves_cons_of hm hc, pathMoves]
          rfl
        · rw [hd]
          simp only [List.length_cons, List.length_nil]
      | cons j p =>
        obtain ⟨ms, b1, b2, b3⟩ := h2 (List.cons_ne_nil _ _)
        refine ⟨move :: ms, ?_, b2, ?_⟩
        · rw [pathMoves_cons_of hm hc, b1]
          rfl
        · simp only [List.length_cons] at b3 ⊢
          rw [b3, hd]
          omega

/-- An iteration keeps the tree placed. -/
theorem Iterated.placed {env : SearchEnv V} {board : Board} {n n1 : Node V} {wdl : V}
    (h : Iterated env board n n1 wdl) : Placed env board n → Placed env board n1 := by
  induction h with
  | terminal board n rng rng1 wdl _ _ =>
    intro hp
    exact @Placed.congr V _ env board n (n.visit env (-wdl)) rfl rfl rfl hp
  | expanded board n move child board1 rng rng1 rng2 wdl hstate hroom hmove hnew hsim =>
    intro hp
    obtain ⟨f1, _, _, f4, _, _, f7⟩ := new_facts hnew
    refine Placed.from_children ?_ (fun i c hc => ?_)
    · show (n.mChildren ++ [child.visit env (-wdl)]).length ≤ n.mMoves.length
      rw [List.length_append, List.length_singleton]
      omega
    · have hc' : (n.mChildren ++ [child.visit env (-wdl)]).get? i = some c := hc
      by_cases hi : i < n.mChildren.length
      · rw [List.get?_eq_getElem?, List.getElem?_append_left hi,
          ← List.get?_eq_getElem?] at hc'
        have hmv : ∃ move1, n.mMoves.get? i = some move1 :=
          ⟨n.mMoves.get ⟨i, by omega⟩, List.get?_eq_get _⟩
        obtain ⟨move1, hm1⟩ := hmv
        exact ⟨move1, hm1, hp.of_parent hm1 hc'⟩
      · have hlen := (List.get?_eq_some.mp hc').1
        rw [List.length_append, List.length_singleton] at hlen
        have hi' : i = n.mChildren.length := by omega
        subst hi'
        rw [List.get?_eq_getElem?, List.getElem?_append_right (le_refl _), Nat.sub_self] at hc'
        simp only [List.getElem?_cons_zero, Option.some.injEq] at hc'
        subst hc'
        refine ⟨move, hmove, ?_, ⟨rng, child, board1, rng1, ?_, rfl, rfl⟩, f4⟩
        · refine Placed.from_children ?_ (fun j d hd => ?_)
          · show child.mChildren.length ≤ _
            rw [f1]
            exact Nat.zero_le _
          · have : (child.visit env (-wdl)).mChildren = [] := f1
            rw [this] at hd
            cases hd
        · show new env (board.makeMove env.Z move) false child.mDepth rng = _
          rw [f4]
          exact hnew
  | descended board n i move c c1 wdl hstate hfull hbest hmove hchild hrest ih =>
    intro hp
    obtain ⟨hpc, hbc, hdc⟩ := hp.of_parent hmove hchild
    have hpc1 := ih hpc
    obtain ⟨g1, g2, g3, _⟩ := hrest.fields
    have hi : i < n.mChildren.length := (List.get?_eq_some.mp hchild).1
    refine Placed.from_children ?_ (fun j d hd => ?_)
    · show (n.mChildren.set i c1).length ≤ n.mMoves.length
      rw [List.length_set]
      exact (hp [] n (get?_nil n)).1
    · have hd' : (n.mChildren.set i c1).get? j = some d := hd
      by_cases hj : i = j
      · subst hj
        rw [List.get?_eq_getElem?, List.getElem?_set_self hi] at hd'
        cases hd'
        refine ⟨move, hmove, hpc1, ?_, by rw [g3]; exact hdc⟩
        obtain ⟨rng, c0, b, r, e1, e2, e3⟩ := hbc
        exact ⟨rng, c0, b, r, by rw [g3]; exact e1, by rw [g2]; exact e2, by rw [g1]; exact e3⟩
      · rw [List.get?_eq_getElem?, List.getElem?_set_ne hj, ← List.get?_eq_getElem?] at hd'
        have hlt := (List.get?_eq_some.mp hd').1
        have hfl : j < n.mMoves.length := by omega
        exact ⟨n.mMoves.get ⟨j, hfl⟩, List.get?_eq_get _, hp.of_parent (List.get?_eq_get _) hd'⟩

end Node

section Search

variable {V : Type} [LinearOrderedField V]

/-- The tree of every state of the loop is placed on the root board. -/
theorem searchStates_placed (env : SearchEnv V) (rootBoard : Board)
    (hmoves : rootBoard.legalMoves env.Z false ≠ []) : ∀ (n : Nat) (s : SearchState V),
    searchStates env rootBoard n = some s → s.root.Placed env rootBoard
  | 0, s, h => by
    rw [searchStates, searchInit_eq env rootBoard hmoves] at h
    cases h
    refine Node.Placed.from_children (Nat.zero_le _) (fun i c hc => ?_)
    cases hc
  | n + 1, s, h => by
    rw [searchStates_succ] at h
    cases h0 : searchStates env rootBoard n with
    | none => rw [h0] at h; cases h
    | some s0 =>
      rw [h0] at h
      simp only [Option.some_bind] at h
      obtain ⟨⟨wdl, hit⟩, _, _⟩ := searchIteration_eq_some h
      obtain ⟨_, _, _, _, c5, _⟩ := searchStates_counts env rootBoard hmoves n s0 h0
      rw [c5] at hit
      exact hit.placed (searchStates_placed env rootBoard hmoves n s0 h0)

end Search
namespace Node

variable {V : Type} [LinearOrderedField V]

end Node

section Search

variable {V : Type} [LinearOrderedField V]

end Search

theorem foldXor_congr {f g : Nat → Nat} : ∀ n, (∀ i, i < n → f i = g i) →
    foldXor f n = foldXor g n := by
  intro n
  induction n with
  | zero => intro _; rfl
  | succ n ih =>
    intro h
    rw [foldXor, foldXor, ih (fun i hi => h i (by omega)), h n (by omega)]

theorem foldXor_xor (f g : Nat → Nat) : ∀ n,
    foldXor (fun i => f i ^^^ g i) n = foldXor f n ^^^ foldXor g n := by
  intro n
  induction n with
  | zero => simp [foldXor]
  | succ n ih =>
    simp only [foldXor, ih]
    ac_rfl

theorem foldXor_single (s k : Nat) : ∀ n,
    foldXor (fun i => if i = s then k else 0) n = if s < n then k else 0 := by
  intro n
  induction n with
  | zero => rfl
  | succ n ih =>
    rw [foldXor, ih]
    by_cases h1 : s < n
    · have h2 : ¬ n = s := by omega
      have h3 : s < n + 1 := by omega
      simp [h1, h2, h3]
    · by_cases h2 : n = s
      · subst h2
        simp
      · have h3 : ¬ s < n + 1 := by omega
        simp [h1, h2, h3]

/-- The XOR over the squares when the keys change: the old XOR with, for every square, the
old key and the new one. -/
theorem foldXor_change (f g : Nat → Nat) (n : Nat) :
    foldXor g n = foldXor f n ^^^ foldXor (fun i => f i ^^^ g i) n := by
  rw [foldXor_xor, ← Nat.xor_assoc, Nat.xor_self, Nat.zero_xor]

/-- Keys that change on one square only. -/
theorem foldXor_change1 {f g : Nat → Nat} {n s : Nat} (hs : s < n)
    (h : ∀ i, i < n → i ≠ s → g i = f i) :
    foldXor g n = foldXor f n ^^^ (f s ^^^ g s) := by
  rw [foldXor_change f g n]
  congr 1
  rw [foldXor_congr (g := fun i => if i = s then f s ^^^ g s else 0) n, foldXor_single,
    if_pos hs]
  intro i hi
  by_cases e : i = s
  · subst e; simp
  · simp only [e, if_false]
    rw [h i hi e, Nat.xor_self]

/-- Keys that change on two squares only. -/
theorem foldXor_change2 {f g : Nat → Nat} {n s t : Nat} (hs : s < n) (ht : t < n) (hst : s ≠ t)
    (h : ∀ i, i < n → i ≠ s → i ≠ t → g i = f i) :
    foldXor g n = foldXor f n ^^^ (f s ^^^ g s) ^^^ (f t ^^^ g t) := by
  rw [foldXor_change1 (f := fun i => if i = t then g t else f i) (g := g) hs,
    foldXor_change1 (f := f) (g := fun i => if i = t then g t else f i) ht]
  · simp only [if_true, if_neg hst]
    ac_rfl
  · intro i _ hi
    simp only [hi, if_false]
  · intro i hi1 hi2
    by_cases e : i = t
    · simp only [e, if_true]
    · simp only [e, if_false]
      exact h i hi1 hi2 e
namespace Board

/-! ### The hash of the board the constructor builds -/

end Board
namespace Board

end Board
namespace Board

/-! ### The hash after a move -/

end Board
namespace Board

/-! ### The keys of the squares a move changes -/

theorem eq_oppColor_of_ne {c d : Color} (h : c ≠ d) : c = oppColor d := by
  cases c <;> cases d <;> first | rfl | exact absurd rfl h

end Board
namespace Board

theorem pieceType_of_castling {m : Move} (h : m.flag = Move.CASTLING_FLAG) :
    m.pieceType = .KING := by
  unfold Move.pieceType
  rw [h]
  rfl

end Board
namespace Board

end Board
namespace Board

/-! ### The flags stay in agreement with the pieces -/

theorem sameAt_makeMove_normal (Z : Zobrist) {b : Board} (hv : b.Valid) {m : Move}
    (hn : b.NormalMove m) {x : Nat} (h1 : x ≠ m.fromSq) (h2 : x ≠ m.toSq) :
    SameAt (b.makeMove Z m) b x := by
  obtain ⟨hflag1, hflag2, hP, _, _, hfrom, hpiece, hto, _, _⟩ := hn
  obtain ⟨f1, f2, f3, _⟩ := makeMove_normal Z hv hflag1 hflag2 hP hfrom hpiece hto
  constructor
  · intro c
    by_cases hc : c = b.mColorToMove
    · subst hc
      rw [f1]
      simp [h1, h2, us]
    · rw [eq_oppColor_of_ne hc, f2]
      simp [h2, them]
  · intro p
    rw [f3]
    simp [h1, h2]

theorem sameAt_makeMove_enPassant (Z : Zobrist) {b : Board} (hv : b.Valid)
    (hepc : b.enPassantConsistent = true) {m : Move} (hem : b.EnPassantMove m) {x : Nat}
    (h1 : x ≠ m.fromSq) (h2 : x ≠ m.toSq)
    (h3 : x ≠ if b.mColorToMove = .WHITE then subSq m.toSq 8 else addSq m.toSq 8) :
    SameAt (b.makeMove Z m) b x := by
  obtain ⟨f1, f2, f3⟩ := makeMove_enPassant Z hv hepc hem rfl
  constructor
  · intro c
    by_cases hc : c = b.mColorToMove
    · subst hc
      rw [f1]
      simp [h1, h2, us]
    · rw [eq_oppColor_of_ne hc, f2]
      simp [h3, them]
  · intro p
    rw [f3]
    simp [h1, h2, h3]

theorem sameAt_makeMove_castling (Z : Zobrist) {b : Board} (hv : b.Valid) {m : Move}
    {rf rt : Nat} (hcm : b.CastlingMove m rf rt) {x : Nat}
    (h1 : x ≠ m.fromSq) (h2 : x ≠ m.toSq) (h3 : x ≠ rf) (h4 : x ≠ rt) :
    SameAt (b.makeMove Z m) b x := by
  obtain ⟨hflag, hf, hrf, hrt, hrook, hrookP, hto, hrto, htr, _, _, _, _, _⟩ := hcm
  obtain ⟨_, hkspec⟩ := hv.kingSquare_spec
  have hkus : has b.us m.fromSq = true := by rw [hf]; exact ((hkspec _).mpr rfl).1
  have hkk : has b.kings m.fromSq = true := by rw [hf]; exact ((hkspec _).mpr rfl).2
  obtain ⟨f1, f2, f3, _⟩ := makeMove_castling Z hv hflag hrf hrt hkus hkk hrook hrookP hto
    hrto htr
  constructor
  · intro c
    by_cases hc : c = b.mColorToMove
    · subst hc
      rw [f1]
      simp [h1, h2, h3, h4, us]
    · rw [eq_oppColor_of_ne hc, f2]
      rfl
  · intro p
    rw [f3]
    simp [h1, h2, h3, h4]

/-- After a move of `legalMoves` the en-passant square agrees with the pieces. -/
theorem enPassantConsistent_makeMove (Z : Zobrist) {b : Board} (hv : b.Valid)
    (hc : b.castlingConsistent = true) {u : Bool} {m : Move} (hm : m ∈ b.legalMoves Z u) :
    (b.makeMove Z m).enPassantConsistent = true := by
  unfold enPassantConsistent
  by_cases hflag : m.flag = Move.PAWN_TWO_UP_FLAG
  · obtain ⟨hf64, hus, hpw, hh, ht, ho1, ho2⟩ := mem_legalMoves_twoUp hm hflag
    have hn : b.NormalMove m := by
      rcases legalMoves_shape Z hv hc hm with hn | hem | ⟨rf, rt, hcm⟩
      · exact hn
      · rw [hem.1] at hflag
        exact absurd hflag (by decide)
      · rw [hcm.1] at hflag
        exact absurd hflag (by decide)
    obtain ⟨hflag1, hflag2, hP, _, _, hfrom, hpiece, hto, _, _⟩ := hn
    obtain ⟨f1, _, f3, f4⟩ := makeMove_normal Z hv hflag1 hflag2 hP hfrom hpiece hto
    have hpt : (if m.promotion ≠ .NONE then m.promotion else m.pieceType) = .PAWN := by
      unfold Move.promotion Move.pieceType
      rw [hflag]
      rfl
    have hthem' : (b.makeMove Z m).them = (b.makeMove Z m).colorBb b.mColorToMove := by
      unfold them
      rw [mColorToMove_makeMove, oppColor_oppColor]
    have hocc1 : has b.occupancy (b.squareOneUp m.fromSq) = false := ho1
    have g1 : has ((b.makeMove Z m).colorBb b.mColorToMove) m.toSq = true := by
      rw [f1]
      simp
    have g3 : has (b.makeMove Z m).pawns m.toSq = true := by
      have := f3 .PAWN m.toSq
      rw [if_pos rfl, hpt] at this
      exact this
    rw [Bool.or_eq_true]
    right
    unfold isOccupied
    rw [has_and, hthem', mEnPassantSquare_makeMove, if_pos hflag, mColorToMove_makeMove]
    rcases pawnHasntMoved_rank hh with ⟨hcol, hr⟩ | ⟨hcol, hr⟩
    · have hc' : ¬ Color.BLACK = Color.WHITE := by decide
      have e1 : subSq m.toSq 8 = m.fromSq + 8 := by
        rw [ht]
        unfold squareTwoUp subSq addSq
        simp only [hcol, if_true]
        omega
      have e2 : m.toSq = m.fromSq + 16 := by
        rw [ht]
        unfold squareTwoUp addSq
        simp only [hcol, if_true]
        omega
      have e3 : b.squareOneUp m.fromSq = m.fromSq + 8 := by
        unfold squareOneUp addSq
        simp only [hcol, if_true]
        omega
      rw [e3] at hocc1
      simp only [hcol, if_true, oppColor, hc', if_false, e1]
      rw [hcol] at g1
      have e4 : m.fromSq + 8 + 8 = m.toSq := by omega
      rw [f4, hocc1, e4, g1, g3]
      have : ¬ m.fromSq + 8 = m.toSq := by omega
      unfold squareRank
      simp [this]
      omega
    · have hc' : ¬ Color.BLACK = Color.WHITE := by decide
      have e1 : addSq m.toSq 8 = m.fromSq - 8 := by
        rw [ht]
        unfold squareTwoUp subSq addSq
        simp only [hcol, hc', if_false]
        omega
      have e2 : m.toSq = m.fromSq - 16 := by
        rw [ht]
        unfold squareTwoUp subSq
        simp only [hcol, hc', if_false]
        omega
      have e3 : b.squareOneUp m.fromSq = m.fromSq - 8 := by
        unfold squareOneUp subSq
        simp only [hcol, hc', if_false]
        omega
      rw [e3] at hocc1
      simp only [hcol, hc', if_false, oppColor, if_true, e1]
      have e4 : m.fromSq - 8 - 8 = m.toSq := by omega
      rw [hcol] at g1
      rw [f4, hocc1, e4, g1, g3]
      have : ¬ m.fromSq - 8 = m.toSq := by omega
      unfold squareRank
      simp [this]
      omega
  · rw [mEnPassantSquare_makeMove, if_neg hflag]
    rfl

end Board
namespace Board

theorem agree_iff (rights cb kings rooks H R : Nat) :
    (rights &&& 1 <<< R = 0 ∨ has (cb &&& kings) H = true ∧ cb &&& rooks &&& 1 <<< R ≠ 0)
      ↔ (has rights R = true → has cb H = true ∧ has kings H = true ∧ has cb R = true
          ∧ has rooks R = true) := by
  rw [and_bit_ne_zero, has_and, has_and, Bool.and_eq_true, Bool.and_eq_true]
  constructor
  · intro h hr
    rcases h with h | ⟨h1, h2⟩
    · exact absurd h (and_bit_ne_zero.mpr hr)
    · exact ⟨h1.1, h1.2, h2.1, h2.2⟩
  · intro h
    by_cases hr : has rights R = true
    · obtain ⟨h1, h2, h3, h4⟩ := h hr
      exact Or.inr ⟨⟨h1, h2⟩, h3, h4⟩
    · left
      by_contra hne
      exact hr (and_bit_ne_zero.mp hne)

theorem has_CORNERS (s : Nat) :
    has CORNERS s = true ↔ s = 0 ∨ s = 7 ∨ s = 56 ∨ s = 63 := by
  unfold CORNERS
  simp only [has_or, has_bit, Bool.or_eq_true, decide_eq_true_eq]
  omega

/-- The test `castlingConsistent`, square by square. -/
theorem castlingConsistent_iff (b : Board) : b.castlingConsistent = true ↔ b.RightsAgree := by
  unfold castlingConsistent RightsAgree
  simp only [Bool.and_eq_true, List.all_cons, List.all_nil, Bool.and_true, Bool.or_eq_true,
    decide_eq_true_eq]
  have e1 : CASTLING_MASKS .WHITE CASTLE_SHORT = 1 <<< 7 := rfl
  have e2 : CASTLING_MASKS .WHITE CASTLE_LONG = 1 <<< 0 := rfl
  have e3 : CASTLING_MASKS .BLACK CASTLE_SHORT = 1 <<< 63 := rfl
  have e4 : CASTLING_MASKS .BLACK CASTLE_LONG = 1 <<< 56 := rfl
  rw [e1, e2, e3, e4, agree_iff, agree_iff, agree_iff, agree_iff, and_eq_zero_iff]
  constructor
  · rintro ⟨h0, ⟨h1, h2⟩, h3, h4⟩
    refine ⟨fun s hs hr => ?_, ?_⟩
    · have := h0 s hr
      rw [has_not64] at this
      simp only [hs, decide_True, Bool.true_and, Bool.not_eq_false'] at this
      exact (has_CORNERS s).mp this
    · rintro c R (⟨rfl, rfl | rfl⟩ | ⟨rfl, rfl | rfl⟩) hr
      · exact h1 hr
      · exact h2 hr
      · exact h3 hr
      · exact h4 hr
  · rintro ⟨h0, h⟩
    refine ⟨fun s hr => ?_, ⟨?_, ?_⟩, ?_, ?_⟩
    · rw [has_not64]
      by_cases hs : s < 64
      · have := (has_CORNERS s).mpr (h0 s hs hr)
        simp [this]
      · simp [hs]
    · exact h .WHITE 7 (Or.inl ⟨rfl, Or.inl rfl⟩)
    · exact h .WHITE 0 (Or.inl ⟨rfl, Or.inr rfl⟩)
    · exact h .BLACK 63 (Or.inr ⟨rfl, Or.inl rfl⟩)
    · exact h .BLACK 56 (Or.inr ⟨rfl, Or.inr rfl⟩)

end Board
namespace Board

theorem corner_mask {c : Color} {R : Nat}
    (h : c = Color.WHITE ∧ (R = 7 ∨ R = 0) ∨ c = Color.BLACK ∧ (R = 63 ∨ R = 56)) :
    has (CASTLING_MASKS c CASTLE_SHORT) R = true ∨ has (CASTLING_MASKS c CASTLE_LONG) R = true := by
  have e1 : CASTLING_MASKS .WHITE CASTLE_SHORT = 1 <<< 7 := rfl
  have e2 : CASTLING_MASKS .WHITE CASTLE_LONG = 1 <<< 0 := rfl
  have e3 : CASTLING_MASKS .BLACK CASTLE_SHORT = 1 <<< 63 := rfl
  have e4 : CASTLING_MASKS .BLACK CASTLE_LONG = 1 <<< 56 := rfl
  rcases h with ⟨rfl, rfl | rfl⟩ | ⟨rfl, rfl | rfl⟩
  · left; rw [e1, has_bit]; rfl
  · right; rw [e2, has_bit]; rfl
  · left; rw [e3, has_bit]; rfl
  · right; rw [e4, has_bit]; rfl

theorem ne_of_has_ne {x : Nat} {s t : Nat} (hs : has x s = true) (ht : has x t = false) :
    s ≠ t := by
  intro e
  rw [e, ht] at hs
  exact Bool.noConfusion hs

/-- After a move of `legalMoves` from a valid position the castling rights agree with the
pieces, if they did before. -/
theorem castlingConsistent_makeMove (Z : Zobrist) {b : Board} (hv : b.Valid)
    (hc : b.castlingConsistent = true) {u : Bool}
    {m : Move} (hm : m ∈ b.legalMoves Z u) : (b.makeMove Z m).castlingConsistent = true := by
  obtain ⟨a1, a2⟩ := (castlingConsistent_iff b).mp hc
  rw [castlingConsistent_iff]
  refine ⟨fun s hs hr => a1 s hs (has_newCastlingRights_sub _ _ _ _ _ _ (by
    rw [mCastlingRights_makeMove] at hr
    exact hr)), ?_⟩
  intro c R hcR hr'
  have hR64 : R < 64 := by
    rcases hcR with ⟨_, rfl | rfl⟩ | ⟨_, rfl | rfl⟩ <;> decide
  rw [mCastlingRights_makeMove, has_newCastlingRights _ _ _ _ _ _ hR64] at hr'
  simp only [Bool.and_eq_true, Bool.not_eq_true', Bool.and_eq_false_iff, Bool.or_eq_false_iff,
    decide_eq_true_eq, decide_eq_false_iff_not, Bool.not_eq_false'] at hr'
  obtain ⟨⟨⟨hr, hK⟩, hnf⟩, hnt⟩ := hr'
  obtain ⟨k1, k2, r1, r2⟩ := a2 c R hcR hr
  have hoH : has b.occupancy (kingHome c) = true := (hv.occupied_iff _).mpr ⟨.KING, k2⟩
  have hoR : has b.occupancy R = true := (hv.occupied_iff _).mpr ⟨.ROOK, r2⟩
  have key : SameAt (b.makeMove Z m) b (kingHome c) ∧ SameAt (b.makeMove Z m) b R →
      has ((b.makeMove Z m).colorBb c) (kingHome c) = true ∧
        has (b.makeMove Z m).kings (kingHome c) = true ∧
        has ((b.makeMove Z m).colorBb c) R = true ∧ has (b.makeMove Z m).rooks R = true := by
    rintro ⟨⟨s1, s2⟩, t1, t2⟩
    exact ⟨(s1 c).trans k1, (s2 .KING).trans k2, (t1 c).trans r1, (t2 .ROOK).trans r2⟩
  rcases legalMoves_shape Z hv hc hm with hn | hem | ⟨rf, rt, hcm⟩
  · have hkt := hn.not_king hv
    obtain ⟨_, _, _, _, _, hfrom, hpiece, hto, _, _⟩ := id hn
    have hRf : R ≠ m.fromSq := by
      by_cases hP : m.pieceType = .KING
      · intro e
        rw [hP, ← e] at hpiece
        exact PieceType.noConfusion (hv.piece_unique (p := .KING) (q := .ROOK) hpiece r2)
      · rcases hnf with h | h
        · exact absurd h hP
        · exact h
    have hHf : kingHome c ≠ m.fromSq := by
      intro e
      rw [← e] at hpiece hfrom
      have hP : m.pieceType = .KING := hv.piece_unique hpiece k2
      have hcs : c = b.mColorToMove := by
        by_contra hne
        have k1o : has b.them (kingHome c) = true := by
          unfold them
          rw [← eq_oppColor_of_ne hne]
          exact k1
        rw [hv.us_them hfrom] at k1o
        exact Bool.noConfusion k1o
      rw [hcs] at hcR
      rcases hK with h | ⟨h1, h2⟩
      · exact h hP
      · rcases corner_mask hcR with h | h
        · rw [h1] at h
          exact Bool.noConfusion h
        · rw [h2] at h
          exact Bool.noConfusion h
    exact key ⟨sameAt_makeMove_normal Z hv hn hHf (ne_of_has_ne k2 hkt),
      sameAt_makeMove_normal Z hv hn hRf hnt⟩
  · obtain ⟨hflag, _, hus, hp, _, _, hatt⟩ := id hem
    have hb0 : ({ b with mZobristHashes := b.mZobristHashes ++ [b.mZobristHash] } :
        Board).mColorToMove = b.mColorToMove := rfl
    have hcolor : ∀ x, has (b.colorBb c) x = true →
        (has b.kings x = true ∨ has b.rooks x = true) →
        (c = oppColor b.mColorToMove → x / 8 = if b.mColorToMove = .WHITE then 7 else 0) →
        has ((b.makeMove Z m).colorBb c) x = true := by
      intro x hx hkr hrank
      rw [colorBb_makeMove, has_colorBb_movePieces_ep Z _ hflag, colorBb_pushed, hb0, hx]
      have hfx : m.fromSq ≠ x := by
        intro e
        rw [e] at hp
        rcases hkr with h | h
        · exact PieceType.noConfusion (hv.piece_unique (p := .PAWN) (q := .KING) hp h)
        · exact PieceType.noConfusion (hv.piece_unique (p := .PAWN) (q := .ROOK) hp h)
      by_cases e1 : c = b.mColorToMove
      · have hne : ¬ b.mColorToMove = oppColor b.mColorToMove := ne_oppColor b.mColorToMove
        rw [e1]
        simp [hne, hfx]
      · have e2 : c = oppColor b.mColorToMove := eq_oppColor_of_ne e1
        have hcs : ¬ (if b.mColorToMove = .WHITE then subSq m.toSq 8 else addSq m.toSq 8) = x := by
          have hr := hrank e2
          intro e
          cases hcol : b.mColorToMove
          · rw [hcol] at hatt e hr
            obtain ⟨_, g2, g3, _⟩ := has_pawnAttacks_white.mp hatt
            simp only [if_true] at e hr
            unfold subSq at e
            omega
          · rw [hcol] at hatt e hr
            obtain ⟨g1, g2, g3, _⟩ := has_pawnAttacks_black.mp hatt
            simp only [if_false, reduceCtorEq] at e hr
            unfold addSq at e
            omega
        have hne : ¬ oppColor b.mColorToMove = b.mColorToMove :=
          fun h => ne_oppColor b.mColorToMove h.symm
        simp [e2, hcs, hne]
    have hpiece : ∀ (P : PieceType) x, P ≠ .PAWN →
        has ((b.makeMove Z m).pieceBb P) x = has (b.pieceBb P) x := by
      intro P x hP
      rw [pieceBb_makeMove, has_pieceBb_movePieces_ep Z _ hflag, pieceBb_pushed]
      simp [hP]
    have hHrank : c = oppColor b.mColorToMove →
        kingHome c / 8 = if b.mColorToMove = .WHITE then 7 else 0 := by
      intro e
      cases hcol : b.mColorToMove <;> rw [hcol] at e <;> subst e <;> rfl
    have hRrank : c = oppColor b.mColorToMove →
        R / 8 = if b.mColorToMove = .WHITE then 7 else 0 := by
      intro e
      cases hcol : b.mColorToMove <;> rw [hcol] at e <;>
        rcases hcR with ⟨rfl, h⟩ | ⟨rfl, h⟩ <;> first
          | exact absurd e (by decide)
          | (rcases h with rfl | rfl <;> rfl)
    exact ⟨hcolor _ k1 (Or.inl k2) hHrank,
      (hpiece .KING _ (by decide)).trans k2,
      hcolor _ r1 (Or.inr r2) hRrank,
      (hpiece .ROOK _ (by decide)).trans r2⟩
  · obtain ⟨hflag, hf, _, _, hrook, hrookP, hto, hrto, _, _, _, _, _, _⟩ := id hcm
    obtain ⟨_, hkspec⟩ := hv.kingSquare_spec
    have hkus : has b.us m.fromSq = true := by rw [hf]; exact ((hkspec _).mpr rfl).1
    have hP := pieceType_of_castling hflag
    have hcs : c = oppColor b.mColorToMove := by
      apply eq_oppColor_of_ne
      intro e
      rw [e] at hcR
      rcases hK with h | ⟨h1, h2⟩
      · exact h hP
      · rcases corner_mask hcR with h | h
        · rw [h1] at h
          exact Bool.noConfusion h
        · rw [h2] at h
          exact Bool.noConfusion h
    have k1' : has b.us (kingHome c) = false := hv.them_us (by
      unfold them
      rw [← hcs]
      exact k1)
    have r1' : has b.us R = false := hv.them_us (by
      unfold them
      rw [← hcs]
      exact r1)
    exact key ⟨sameAt_makeMove_castling Z hv hcm (fun e => by
        rw [e, hkus] at k1'
        exact Bool.noConfusion k1') (ne_of_has_ne hoH hto) (fun e => by
        rw [e, hrook] at k1'
        exact Bool.noConfusion k1') (ne_of_has_ne hoH hrto),
      sameAt_makeMove_castling Z hv hcm (fun e => by
        rw [e, hkus] at r1'
        exact Bool.noConfusion r1') (ne_of_has_ne hoR hto) (fun e => by
        rw [e, hrook] at r1'
        exact Bool.noConfusion r1') (ne_of_has_ne hoR hrto)⟩

end Board
namespace Board

/-! ### Reading back what `fen()` wrote, square by square -/

theorem sameCell_of_sameAt {b1 b2 : Board} {sq : Nat} (h : SameAt b1 b2 sq) :
    SameCell b1 b2 sq :=
  ⟨pieceTypeAt_congr h.1 h.2, fun _ => h.1 .WHITE⟩

end Board
namespace Board

end Board
namespace Board

/-! ### The board built from what `fen()` wrote -/

end Board
namespace Board

end Board
namespace Board

end Board
/-! ### Completeness of `legalMoves` -/

theorem popcount_le_one_of_unique {x : Nat}
    (h : ∀ s t, has x s = true → has x t = true → s = t) : popcount x ≤ 1 := by
  unfold popcount
  have hn := bits_nodup x
  match hl : bits x, hn with
  | [], _ => exact Nat.zero_le _
  | [_], _ => exact le_refl _
  | a :: c :: rest, hn =>
    have ha : a ∈ bits x := by rw [hl]; exact List.mem_cons_self _ _
    have hc : c ∈ bits x := by rw [hl]; exact List.mem_cons_of_mem _ (List.mem_cons_self _ _)
    have := h a c (mem_bits_iff.mp ha).2 (mem_bits_iff.mp hc).2
    rw [List.nodup_cons] at hn
    exact absurd (this ▸ List.mem_cons_self _ _) hn.1

namespace Board

theorem QuietShape.from_ne_to {b : Board} {m : Move} (h : b.QuietShape m) :
    m.fromSq ≠ m.toSq := by
  intro e
  have := h.from_us
  rw [e, h.to_free] at this
  exact Bool.noConfusion this

theorem QuietShape.king_ne_from {b : Board} (hv : b.Valid) {m : Move} (h : b.QuietShape m) :
    b.kingSquare ≠ m.fromSq := by
  intro e
  have := ((hv.kingSquare_spec.2 b.kingSquare).mpr rfl).2
  rw [e] at this
  exact h.notKing (hv.piece_unique h.from_piece (q := .KING) this)

theorem QuietShape.king_ne_to {b : Board} (hv : b.Valid) {m : Move} (h : b.QuietShape m) :
    b.kingSquare ≠ m.toSq := by
  intro e
  have := ((hv.kingSquare_spec.2 b.kingSquare).mpr rfl).1
  rw [e, h.to_free] at this
  exact Bool.noConfusion this

/-- After a move that is not the king's the king stands where it stood. -/
theorem QuietShape.kingSquare_makeMove (Z : Zobrist) {b : Board} (hv : b.Valid) {m : Move}
    (h : b.QuietShape m) :
    lsb ((b.makeMove Z m).colorBb b.mColorToMove &&& (b.makeMove Z m).kings) = b.kingSquare := by
  obtain ⟨h1, _, h3, _⟩ := makeMove_normal Z hv h.flag1 h.flag2 h.piece h.from_us h.from_piece
    h.to_free
  obtain ⟨hk64, hkspec⟩ := hv.kingSquare_spec
  have hkf := h.king_ne_from hv
  have hkt := h.king_ne_to hv
  have hQ : (if m.promotion ≠ PieceType.NONE then m.promotion else m.pieceType) ≠ .KING := by
    split
    · exact h.promo
    · exact h.notKing
  refine (lsb_eq_of_has_iff hk64 ?_).1
  intro x
  rw [has_and, Bool.and_eq_true, h1,
    show (b.makeMove Z m).kings = (b.makeMove Z m).pieceBb .KING from rfl, h3]
  by_cases e1 : x = m.toSq
  · rw [e1]
    have : ¬ m.toSq = b.kingSquare := fun e => hkt e.symm
    have hQ' := Ne.symm hQ
    simp only [if_true, decide_True, Bool.true_or, true_and, decide_eq_true_eq]
    exact ⟨fun h => absurd h hQ', fun h => absurd h this⟩
  · by_cases e2 : x = m.fromSq
    · rw [e2] at e1 ⊢
      have : ¬ m.fromSq = b.kingSquare := fun e => hkf e.symm
      simp [e1, this]
    · simp only [e1, e2, decide_False, Bool.false_or, Bool.not_false, Bool.and_true, if_false]
      exact hkspec x

/-- An enemy piece that is not taken and attacks the king's square once the move is made
leaves the king attacked. -/
theorem QuietShape.exposed_of_attacker (Z : Zobrist) {b : Board} (hv : b.Valid) {m : Move}
    (h : b.QuietShape m) {s : Nat} {p : PieceType} (hs : has b.them s = true)
    (hp : has (b.pieceBb p) s = true) (hst : s ≠ m.toSq)
    (hatt : attacksFrom p (oppColor b.mColorToMove) (b.makeMove Z m).occupancy s b.kingSquare
      = true) : ¬ b.KingSafeAfter Z m := by
  obtain ⟨_, h2, h3, _⟩ := makeMove_normal Z hv h.flag1 h.flag2 h.piece h.from_us h.from_piece
    h.to_free
  intro hsafe
  unfold KingSafeAfter at hsafe
  rw [h.kingSquare_makeMove Z hv] at hsafe
  have hsf : s ≠ m.fromSq := by
    intro e
    rw [e, hv.us_them h.from_us] at hs
    exact Bool.noConfusion hs
  have : (b.makeMove Z m).isSquareAttacked b.kingSquare (oppColor b.mColorToMove) = true := by
    rw [isSquareAttacked_iff]
    refine ⟨s, p, ?_, ?_, hatt⟩
    · rw [h2, hs]
      simp [hst]
    · rw [h3, if_neg hst, if_neg hsf]
      exact hp
  rw [this] at hsafe
  exact Bool.noConfusion hsafe

/-- The occupancy after a move that is neither castling nor en passant. -/
theorem QuietShape.occupancy_makeMove (Z : Zobrist) {b : Board} (hv : b.Valid) {m : Move}
    (h : b.QuietShape m) (x : Nat) :
    has (b.makeMove Z m).occupancy x
      = (decide (x = m.toSq) || (has b.occupancy x && !decide (x = m.fromSq))) :=
  (makeMove_normal Z hv h.flag1 h.flag2 h.piece h.from_us h.from_piece h.to_free).2.2.2 x

/-- A move that leaves the king safe takes every checker, or stands in its way. -/
theorem QuietShape.checker_met (Z : Zobrist) {b : Board} (hv : b.Valid) {m : Move}
    (h : b.QuietShape m) (hsafe : b.KingSafeAfter Z m) {c : Nat} {p : PieceType}
    (hc : b.IsAttacker b.occupancy b.kingSquare (oppColor b.mColorToMove) c p) :
    m.toSq = c ∨ ((p = .BISHOP ∨ p = .ROOK ∨ p = .QUEEN)
      ∧ isBetween b.kingSquare m.toSq c = true) := by
  by_contra hcon
  rw [not_or] at hcon
  obtain ⟨hne, hnb⟩ := hcon
  apply h.exposed_of_attacker Z hv hc.1 hc.2.1 (fun e => hne e.symm) ?_ hsafe
  rcases pieceType_cases p with hl | hsl | rfl
  · rw [attacksFrom_leaper _ b.occupancy hl]
    exact hc.2.2
  · refine attacksFrom_mono ?_ hc.2.2
    intro u _ hub ho
    rw [h.occupancy_makeMove Z hv, ho]
    have : u ≠ m.toSq := by
      intro e
      rw [e, isBetween_symm] at hub
      exact hnb ⟨hsl, hub⟩
    simp [this]
  · have := hc.2.2
    simp [attacksFrom] at this

/-- A pinned piece that moves and leaves the king safe takes the piece that pins it, or stays
between it and the king. -/
theorem QuietShape.pin_met (Z : Zobrist) {b : Board} (hv : b.Valid) {m : Move}
    (h : b.QuietShape m) (hsafe : b.KingSafeAfter Z m) {σ : Bool} {s : Nat}
    (hpin : b.PinnedBy σ m.fromSq s) :
    m.toSq = s ∨ isBetween b.kingSquare m.toSq s = true := by
  by_contra hcon
  rw [not_or] at hcon
  obtain ⟨hne, hnb⟩ := hcon
  obtain ⟨_, hs, hty, ⟨L, hσ, hL⟩, hf64, hfb, hfo, hsole⟩ := hpin
  have hs64 : s < 64 := hv.color_lt hs
  have hk64 := hv.kingSquare_spec.1
  have hks : s ≠ b.kingSquare := by
    obtain ⟨_, _, _, _, _, _, hks'⟩ := isBetween_line hfb
    exact hks'.symm
  have hreach : ∀ u, u < 64 → isBetween s u b.kingSquare = true →
      has (b.makeMove Z m).occupancy u = false := by
    intro u hu hub
    rw [isBetween_symm] at hub
    rw [h.occupancy_makeMove Z hv]
    have hut : u ≠ m.toSq := by
      intro e
      rw [e] at hub
      exact hnb hub
    by_cases huf : u = m.fromSq
    · subst huf
      simp [hut]
    · have : has b.occupancy u = false := by
        by_contra ho
        simp only [Bool.not_eq_false] at ho
        exact huf (hsole u hu hub ho)
      simp [hut, this]
  rcases hty with hty | hty
  · by_cases hσt : σ = true
    · rw [if_pos hσt] at hty
      exact h.exposed_of_attacker Z hv hs (p := .ROOK) hty (fun e => hne e.symm)
        (attacksFrom_of_reach hs64 hk64 hks (LineKind.same_symm hL)
          (Or.inr (Or.inl ⟨rfl, hσ.trans hσt⟩)) hreach) hsafe
    · rw [if_neg hσt] at hty
      have hσf : σ = false := by
        cases σ
        · rfl
        · exact absurd rfl hσt
      exact h.exposed_of_attacker Z hv hs (p := .BISHOP) hty (fun e => hne e.symm)
        (attacksFrom_of_reach hs64 hk64 hks (LineKind.same_symm hL)
          (Or.inl ⟨rfl, hσ.trans hσf⟩) hreach) hsafe
  · exact h.exposed_of_attacker Z hv hs (p := .QUEEN) hty (fun e => hne e.symm)
      (attacksFrom_of_reach hs64 hk64 hks (LineKind.same_symm hL) (Or.inr (Or.inr rfl))
        hreach) hsafe

end Board
theorem isBetween_same_side {k t c1 c2 : Nat} (h1 : isBetween k t c1 = true)
    (h2 : isBetween k t c2 = true) :
    c1 = c2 ∨ isBetween k c1 c2 = true ∨ isBetween k c2 c1 = true := by
  obtain ⟨L1, a1, _, a3, a4, _, _⟩ := isBetween_line h1
  obtain ⟨L2, b1, _, b3, _, _, _⟩ := isBetween_line h2
  have hL : L1 = L2 := LineKind.unique a4 a1 b1
  subst hL
  obtain ⟨_, p1⟩ := isBetween_pos a3 h1
  obtain ⟨_, p2⟩ := isBetween_pos b3 h2
  by_cases hp : L1.pos c1 = L1.pos c2
  · exact Or.inl (LineKind.eq_of_pos (LineKind.same_trans (LineKind.same_symm a3) b3) hp)
  · right
    rcases Nat.lt_or_gt_of_ne hp with hlt | hgt
    · rcases p1 with p1 | p1 <;> rcases p2 with p2 | p2
      · exact Or.inl (isBetween_of_pos a3 b3 (Or.inl ⟨by omega, hlt⟩))
      · omega
      · omega
      · exact Or.inr (isBetween_of_pos b3 a3 (Or.inr ⟨hlt, by omega⟩))
    · rcases p1 with p1 | p1 <;> rcases p2 with p2 | p2
      · exact Or.inr (isBetween_of_pos b3 a3 (Or.inl ⟨by omega, hgt⟩))
      · omega
      · omega
      · exact Or.inl (isBetween_of_pos a3 b3 (Or.inr ⟨hgt, by omega⟩))

namespace Board

/-- A checker that a slider's check passes over: there is none. -/
theorem no_checker_between {b : Board} {c1 c2 : Nat} {p2 : PieceType}
    (ho : has b.occupancy c1 = true) (h64 : c1 < 64)
    (hc2 : b.IsAttacker b.occupancy b.kingSquare (oppColor b.mColorToMove) c2 p2)
    (hsl : p2 = .BISHOP ∨ p2 = .ROOK ∨ p2 = .QUEEN)
    (hb : isBetween b.kingSquare c1 c2 = true) : False := by
  have := (slider_reach hsl hc2.2.2).2.2.2.2 c1 h64 (by rw [isBetween_symm]; exact hb)
  rw [ho] at this
  exact Bool.noConfusion this

/-- Conditions that no two checkers can meet at once: each checker is the piece on `x`, or a
slider whose check passes over `t`. -/
theorem checkers_le_one_of_met {b : Board} {x t : Nat}
    (hmet : ∀ c p, b.IsAttacker b.occupancy b.kingSquare (oppColor b.mColorToMove) c p →
      x = c ∨ ((p = .BISHOP ∨ p = .ROOK ∨ p = .QUEEN) ∧ isBetween b.kingSquare t c = true))
    (hx : ∀ p c, b.IsAttacker b.occupancy b.kingSquare (oppColor b.mColorToMove) x p →
      isBetween b.kingSquare t c = true → isBetween b.kingSquare x c = true) :
    popcount b.checkers ≤ 1 := by
  apply popcount_le_one_of_unique
  intro c1 c2 h1 h2
  obtain ⟨p1, a1⟩ := (has_checkers b c1).mp h1
  obtain ⟨p2, a2⟩ := (has_checkers b c2).mp h2
  have o1 : has b.occupancy c1 = true := b.has_them_occupancy a1.1
  have o2 : has b.occupancy c2 = true := b.has_them_occupancy a2.1
  by_contra hne
  rcases hmet c1 p1 a1 with e1 | ⟨s1, b1⟩ <;> rcases hmet c2 p2 a2 with e2 | ⟨s2, b2⟩
  · exact hne (e1.symm.trans e2)
  · subst e1
    exact no_checker_between o1 a1.lt.1 a2 s2 (hx p1 c2 a1 b2)
  · subst e2
    exact no_checker_between o2 a2.lt.1 a1 s1 (hx p2 c1 a2 b1)
  · rcases isBetween_same_side b1 b2 with e | e | e
    · exact hne e
    · exact no_checker_between o1 a1.lt.1 a2 s2 e
    · exact no_checker_between o2 a2.lt.1 a1 s1 e

/-- What a safe move of a piece other than the king gives the generator: at most one checker,
a target in the mask `movable`, and a target on the line of every pin. -/
theorem QuietShape.generator_facts (Z : Zobrist) {b : Board} (hv : b.Valid) {m : Move}
    (h : b.QuietShape m) (ht : m.toSq < 64) (hsafe : b.KingSafeAfter Z m) :
    popcount b.checkers ≤ 1 ∧ has b.movable m.toSq = true
      ∧ ∀ σ s, b.PinnedBy σ m.fromSq s →
          m.toSq = s ∨ isBetween b.kingSquare m.toSq s = true := by
  have hmet := fun c p hc => h.checker_met Z hv hsafe (c := c) (p := p) hc
  have hle := checkers_le_one_of_met hmet (fun _ _ _ h => h)
  exact ⟨hle, (has_movable hv hle m.toSq).mpr ⟨ht, hmet⟩, fun σ s hp => h.pin_met Z hv hsafe hp⟩

end Board
namespace Board

/-- The line of a pin holds the pinned piece and every square the pin allows. -/
theorem PinnedBy.line {b : Board} {σ : Bool} {f s t : Nat} (hp : b.PinnedBy σ f s)
    (ht : t = s ∨ isBetween b.kingSquare t s = true) :
    ∃ L : LineKind, L.straight = σ ∧ L.same b.kingSquare f ∧ L.same b.kingSquare t
      ∧ b.kingSquare ≠ f := by
  obtain ⟨_, _, _, ⟨L, hσ, hL⟩, _, hfb, _, _⟩ := hp
  obtain ⟨_, _, _, _, hkf, _, _⟩ := isBetween_line hfb
  refine ⟨L, hσ, (isBetween_pos hL hfb).1, ?_, hkf⟩
  rcases ht with rfl | ht
  · exact hL
  · exact (isBetween_pos hL ht).1

/-- A target that every pin of the piece allows lies on the line through the king and the
piece, when the piece is pinned. -/
theorem line_of_pin_met {b : Board} (hv : b.Valid) {f t : Nat} (hf : f < 64) (ht : t < 64)
    (hpin : ∀ σ s, b.PinnedBy σ f s → t = s ∨ isBetween b.kingSquare t s = true)
    (hp : has b.pinned.1 f = true ∨ has b.pinned.2 f = true) :
    has (LINE_THROUGH b.kingSquare f) t = true := by
  have key : ∀ σ s, b.PinnedBy σ f s → has (LINE_THROUGH b.kingSquare f) t = true := by
    intro σ s hps
    obtain ⟨L, _, h1, h2, h3⟩ := hps.line (hpin σ s hps)
    exact has_LINE_THROUGH.mpr ⟨hv.kingSquare_spec.1, hf, ht,
      isOnLine_iff_line.mpr ⟨h3, L, h1, h2⟩⟩
  rcases hp with hp | hp
  · obtain ⟨s, hs⟩ := (has_pinned_fst hv f).mp hp
    exact key _ s hs
  · obtain ⟨s, hs⟩ := (has_pinned_snd hv f).mp hp
    exact key _ s hs

/-- A piece that moves along a line of one kind and stays safe is not pinned along a line of
the other kind. -/
theorem not_pinned_of_line {b : Board} (hv : b.Valid) {f t : Nat} {M : LineKind}
    (hft : f ≠ t) (hM : M.same f t)
    (hpin : ∀ σ s, b.PinnedBy σ f s → t = s ∨ isBetween b.kingSquare t s = true) :
    has (if M.straight = true then b.pinned.2 else b.pinned.1) f = false := by
  by_contra hc
  simp only [Bool.not_eq_false] at hc
  have key : ∀ σ s, b.PinnedBy σ f s → σ = M.straight := by
    intro σ s hps
    obtain ⟨L, hσ, h1, h2, _⟩ := hps.line (hpin σ s hps)
    have := LineKind.unique hft (LineKind.same_trans (LineKind.same_symm h1) h2) hM
    rw [← hσ, this]
  by_cases hs : M.straight = true
  · rw [if_pos hs] at hc
    obtain ⟨s, hps⟩ := (has_pinned_snd hv f).mp hc
    have := key _ s hps
    rw [hs] at this
    exact Bool.noConfusion this
  · rw [if_neg hs] at hc
    obtain ⟨s, hps⟩ := (has_pinned_fst hv f).mp hc
    have := key _ s hps
    exact hs this.symm

/-- A knight that moves and stays safe is not pinned. -/
theorem not_pinned_of_knight {b : Board} (hv : b.Valid) {f t : Nat}
    (hatt : has (knightAttacks f) t = true)
    (hpin : ∀ σ s, b.PinnedBy σ f s → t = s ∨ isBetween b.kingSquare t s = true) :
    has b.pinned.1 f = false ∧ has b.pinned.2 f = false := by
  obtain ⟨o1, o2, o3, o4⟩ := has_knightAttacks_off_line hatt
  have key : ∀ σ s, ¬ b.PinnedBy σ f s := by
    intro σ s hps
    obtain ⟨L, _, h1, h2, _⟩ := hps.line (hpin σ s hps)
    have := LineKind.same_trans (LineKind.same_symm h1) h2
    cases L
    · exact o1 this
    · exact o2 this
    · exact o3 this
    · exact o4 this
  constructor
  · by_contra hc
    simp only [Bool.not_eq_false] at hc
    obtain ⟨s, hs⟩ := (has_pinned_fst hv f).mp hc
    exact key _ s hs
  · by_contra hc
    simp only [Bool.not_eq_false] at hc
    obtain ⟨s, hs⟩ := (has_pinned_snd hv f).mp hc
    exact key _ s hs

end Board
namespace Board

theorem quietShape_of_flag {b : Board} {m : Move} {F : Nat} (hflag : m.flag = F)
    (h2 : 2 ≤ F) (h5 : F ≤ 5) (hus : has b.us m.fromSq = true)
    (hp : has (b.pieceBb (PieceType.ofIndex (F - 1))) m.fromSq = true)
    (hto : has b.us m.toSq = false) :
    b.QuietShape m ∧ m.pieceType = PieceType.ofIndex (F - 1) := by
  obtain ⟨hpt, hpr, hc, he⟩ := Move.flag_piece hflag (by omega) (by omega)
  have hne : PieceType.ofIndex (F - 1) ≠ .NONE ∧ PieceType.ofIndex (F - 1) ≠ .KING := by
    have : F = 2 ∨ F = 3 ∨ F = 4 ∨ F = 5 := by omega
    rcases this with rfl | rfl | rfl | rfl <;> exact ⟨by decide, by decide⟩
  refine ⟨⟨hc, he, ?_, ?_, ?_, hus, ?_, hto⟩, hpt⟩
  · rw [hpt]; exact hne.1
  · rw [hpt]; exact hne.2
  · rw [hpr]; decide
  · rw [hpt]; exact hp

/-- A safe knight move is in the list. -/
theorem complete_knight (Z : Zobrist) {b : Board} (hv : b.Valid) {m : Move}
    (hf : m.fromSq < 64) (ht : m.toSq < 64) (hus : has b.us m.fromSq = true)
    (hflag : m.flag = Move.KNIGHT_FLAG) (hp : has b.knights m.fromSq = true)
    (hto : has b.us m.toSq = false) (hatt : has (knightAttacks m.fromSq) m.toSq = true)
    (hsafe : b.KingSafeAfter Z m) : popcount b.checkers ≤ 1 ∧ m ∈ b.allKnightMoves := by
  obtain ⟨hq, _⟩ := quietShape_of_flag hflag (by decide) (by decide) hus hp hto
  obtain ⟨hle, hmov, hpin⟩ := hq.generator_facts Z hv ht hsafe
  obtain ⟨n1, n2⟩ := not_pinned_of_knight hv hatt hpin
  refine ⟨hle, List.mem_flatMap.mpr ⟨m.fromSq, mem_bits_iff.mpr ⟨hf, ?_⟩,
    mem_knightMoves.mpr ⟨rfl, hflag, ht, hatt, hto, hmov⟩⟩⟩
  simp [has_and, has_not64, hus, hp, n1, n2, hf]

/-- A safe bishop move is in the list. -/
theorem complete_bishop (Z : Zobrist) {b : Board} (hv : b.Valid) {m : Move}
    (hf : m.fromSq < 64) (ht : m.toSq < 64) (hus : has b.us m.fromSq = true)
    (hflag : m.flag = Move.BISHOP_FLAG) (hp : has b.bishops m.fromSq = true)
    (hto : has b.us m.toSq = false)
    (hatt : has (bishopAttacks m.fromSq b.occupancy) m.toSq = true)
    (hsafe : b.KingSafeAfter Z m) : popcount b.checkers ≤ 1 ∧ m ∈ b.allBishopMoves := by
  obtain ⟨hq, _⟩ := quietShape_of_flag hflag (by decide) (by decide) hus hp hto
  obtain ⟨hle, hmov, hpin⟩ := hq.generator_facts Z hv ht hsafe
  obtain ⟨_, _, hft, ⟨M, hM, hMs⟩, _⟩ := has_bishopAttacks_line.mp hatt
  have n1 := not_pinned_of_line hv hft hMs hpin
  rw [if_neg (by rw [hM]; exact Bool.false_ne_true)] at n1
  refine ⟨hle, List.mem_flatMap.mpr ⟨m.fromSq, mem_bits_iff.mpr ⟨hf, ?_⟩,
    mem_bishopMoves.mpr ⟨rfl, hflag, ht, hatt, hto, hmov,
      fun h => line_of_pin_met hv hf ht hpin (Or.inr h)⟩⟩⟩
  simp [has_and, has_not64, hus, hp, n1, hf]

/-- A safe rook move is in the list. -/
theorem complete_rook (Z : Zobrist) {b : Board} (hv : b.Valid) {m : Move}
    (hf : m.fromSq < 64) (ht : m.toSq < 64) (hus : has b.us m.fromSq = true)
    (hflag : m.flag = Move.ROOK_FLAG) (hp : has b.rooks m.fromSq = true)
    (hto : has b.us m.toSq = false)
    (hatt : has (rookAttacks m.fromSq b.occupancy) m.toSq = true)
    (hsafe : b.KingSafeAfter Z m) : popcount b.checkers ≤ 1 ∧ m ∈ b.allRookMoves := by
  obtain ⟨hq, _⟩ := quietShape_of_flag hflag (by decide) (by decide) hus hp hto
  obtain ⟨hle, hmov, hpin⟩ := hq.generator_facts Z hv ht hsafe
  obtain ⟨_, _, hft, ⟨M, hM, hMs⟩, _⟩ := has_rookAttacks_line.mp hatt
  have n1 := not_pinned_of_line hv hft hMs hpin
  rw [if_pos hM] at n1
  refine ⟨hle, List.mem_flatMap.mpr ⟨m.fromSq, mem_bits_iff.mpr ⟨hf, ?_⟩,
    mem_rookMoves.mpr ⟨rfl, hflag, ht, hatt, hto, hmov,
      fun h => line_of_pin_met hv hf ht hpin (Or.inl h)⟩⟩⟩
  simp [has_and, has_not64, hus, hp, n1, hf]

/-- A safe queen move is in the list. -/
theorem complete_queen (Z : Zobrist) {b : Board} (hv : b.Valid) {m : Move}
    (hf : m.fromSq < 64) (ht : m.toSq < 64) (hus : has b.us m.fromSq = true)
    (hflag : m.flag = Move.QUEEN_FLAG) (hp : has b.queens m.fromSq = true)
    (hto : has b.us m.toSq = false)
    (hatt : has (queenAttacks m.fromSq b.occupancy) m.toSq = true)
    (hsafe : b.KingSafeAfter Z m) : popcount b.checkers ≤ 1 ∧ m ∈ b.allQueenMoves := by
  obtain ⟨hq, _⟩ := quietShape_of_flag hflag (by decide) (by decide) hus hp hto
  obtain ⟨hle, hmov, hpin⟩ := hq.generator_facts Z hv ht hsafe
  refine ⟨hle, List.mem_flatMap.mpr ⟨m.fromSq, mem_bits_iff.mpr ⟨hf, ?_⟩,
    mem_queenMoves.mpr ⟨rfl, hflag, ht, hatt, hto, hmov, fun h => ?_⟩⟩⟩
  · simp [has_and, hus, hp]
  · rw [has_or, Bool.or_eq_true] at h
    exact line_of_pin_met hv hf ht hpin h.symm

end Board
namespace Board

theorem attacksFrom_ne {p : PieceType} {c : Color} {occ s t : Nat}
    (h : attacksFrom p c occ s t = true) : s ≠ t := by
  rcases pieceType_cases p with hl | hsl | rfl
  · rcases hl with rfl | rfl | rfl
    · exact (pawnAttacks_adjacent h).2.2.2.2.2.2
    · intro e
      exact (has_knightAttacks_off_line h).1 (by rw [e])
    · exact (has_kingAttacks_near h).1
  · exact (slider_reach hsl h).2.2.1
  · simp [attacksFrom] at h

/-- A safe king move is in the list. -/
theorem complete_king (Z : Zobrist) {b : Board} (hv : b.Valid) {m : Move}
    (ht64 : m.toSq < 64) (hus : has b.us m.fromSq = true)
    (hflag : m.flag = Move.KING_FLAG) (hp : has b.kings m.fromSq = true)
    (hto : has b.us m.toSq = false) (hatt : has (kingAttacks m.fromSq) m.toSq = true)
    (hsafe : b.KingSafeAfter Z m) : m ∈ kingMoves b b.kingSquare b.theirAttacks := by
  obtain ⟨hpt, hpr, hc, he⟩ := Move.flag_piece hflag (by decide) (by decide)
  have hpt' : m.pieceType = .KING := hpt
  obtain ⟨hk64, hkspec⟩ := hv.kingSquare_spec
  have hf : m.fromSq = b.kingSquare := (hkspec _).mp ⟨hus, hp⟩
  have hkk : has (b.pieceBb m.pieceType) m.fromSq = true := by
    rw [hpt']; exact hp
  obtain ⟨h1, h2, h3, h4⟩ := makeMove_normal Z hv hc he (by rw [hpt']; decide) hus hkk hto
  have hft : m.fromSq ≠ m.toSq := by
    intro e
    rw [← e, hus] at hto
    exact Bool.noConfusion hto
  have hking : lsb ((b.makeMove Z m).colorBb b.mColorToMove &&& (b.makeMove Z m).kings)
      = m.toSq := by
    refine (lsb_eq_of_has_iff ht64 ?_).1
    intro x
    rw [has_and, Bool.and_eq_true, h1,
      show (b.makeMove Z m).kings = (b.makeMove Z m).pieceBb .KING from rfl, h3]
    by_cases e1 : x = m.toSq
    · rw [e1]
      simp [hpr, hpt']
    · by_cases e2 : x = m.fromSq
      · rw [e2] at e1 ⊢
        simp [e1]
      · simp only [e1, e2, decide_False, Bool.false_or, Bool.not_false, Bool.and_true, if_false,
          iff_false, not_and]
        intro hu hk
        exact e2 (((hkspec x).mp ⟨hu, hk⟩).trans hf.symm)
  refine mem_kingMoves.mpr ⟨hf, hflag, ht64, by rw [← hf]; exact hatt, hto, ?_⟩
  by_contra hta
  simp only [Bool.not_eq_false] at hta
  obtain ⟨s, p, hs, hp', hatk⟩ := (has_theirAttacks hv m.toSq).mp hta
  have hst : s ≠ m.toSq := attacksFrom_ne hatk
  have hsf : s ≠ m.fromSq := by
    intro e
    have h' : has b.them s = true := hs
    rw [e, hv.us_them hus] at h'
    exact Bool.noConfusion h'
  unfold KingSafeAfter at hsafe
  rw [hking] at hsafe
  have : (b.makeMove Z m).isSquareAttacked m.toSq (oppColor b.mColorToMove) = true := by
    rw [isSquareAttacked_iff]
    refine ⟨s, p, ?_, ?_, ?_⟩
    · have h' : has b.them s = true := hs
      rw [h2, h']
      simp [hst]
    · rw [h3, if_neg hst, if_neg hsf]
      exact hp'
    · refine attacksFrom_mono ?_ hatk
      intro u _ hb hu
      rw [hv.occ_without_king, ← hf] at hu
      rw [h4]
      have hut : u ≠ m.toSq := by
        intro e
        rw [e, not_isBetween_self_right] at hb
        exact Bool.noConfusion hb
      simp only [hut, decide_False, Bool.false_or]
      exact hu
  rw [this] at hsafe
  exact Bool.noConfusion hsafe

end Board
namespace Board

/-- The test `pinnedHorizontally` holds only of a piece that stands on the rank of the king and
is pinned along a rank or file. -/
theorem rank_of_pinnedHorizontally {k pn f : Nat} (h : pinnedHorizontally k pn f = true) :
    has pn f = true ∧ f / 8 = k / 8 := by
  unfold pinnedHorizontally at h
  rw [decide_eq_true_eq] at h
  obtain ⟨h1, h2⟩ := h
  refine ⟨bit_and_ne_zero.mp (Nat.pos_iff_ne_zero.mp h1), ?_⟩
  obtain ⟨u, hu1, hu2⟩ := and_ne_zero_iff.mp (Nat.pos_iff_ne_zero.mp h2)
  rw [has_shl1] at hu2
  simp only [Bool.and_eq_true, decide_eq_true_eq] at hu2
  obtain ⟨⟨_, hu1'⟩, hu3⟩ := hu2
  rw [has_LINE_THROUGH] at hu1 hu3
  obtain ⟨hne, L, a1, a2⟩ := isOnLine_iff_line.mp hu1.2.2.2
  obtain ⟨_, L', b1, b2⟩ := isOnLine_iff_line.mp hu3.2.2.2
  have hL : L = L' := LineKind.unique hne a1 b1
  subst hL
  have hu64 := hu1.2.2.1
  have := LineKind.same_trans (LineKind.same_symm a2) b2
  cases L
  · exact a1
  · simp only [LineKind.same] at this
    omega
  · simp only [LineKind.same] at this
    omega
  · simp only [LineKind.same] at this
    omega

theorem quietShape_of_pawn {b : Board} {m : Move} {u : Bool}
    (hflag : pawnFlagOK (b.willPromote m.fromSq) u m.flag ∨ m.flag = Move.PAWN_TWO_UP_FLAG)
    (hus : has b.us m.fromSq = true) (hp : has b.pawns m.fromSq = true)
    (hto : has b.us m.toSq = false) : b.QuietShape m := by
  have hf : m.flag = Move.PAWN_FLAG ∨ m.flag = Move.PAWN_TWO_UP_FLAG
      ∨ m.flag = Move.QUEEN_PROMOTION_FLAG ∨ m.flag = Move.ROOK_PROMOTION_FLAG
      ∨ m.flag = Move.BISHOP_PROMOTION_FLAG ∨ m.flag = Move.KNIGHT_PROMOTION_FLAG := by
    rcases hflag with h | h
    · exact pawnFlagOK_cases h
    · exact Or.inr (Or.inl h)
  obtain ⟨hpt, hpr, hc, he⟩ := Move.flag_pawn hf
  refine ⟨hc, he, ?_, ?_, hpr, hus, ?_, hto⟩
  · rw [hpt]; decide
  · rw [hpt]; decide
  · rw [hpt]; exact hp

/-- A safe pawn capture is in the list of that pawn. -/
theorem complete_pawn_capture (Z : Zobrist) {b : Board} (hv : b.Valid) {m : Move}
    (hf : m.fromSq < 64) (ht : m.toSq < 64) (hus : has b.us m.fromSq = true)
    (hp : has b.pawns m.fromSq = true)
    (hatt : has (pawnAttacks m.fromSq b.mColorToMove) m.toSq = true)
    (hthem : has b.them m.toSq = true)
    (hflag : pawnFlagOK (b.willPromote m.fromSq) true m.flag)
    (hsafe : b.KingSafeAfter Z m) :
    popcount b.checkers ≤ 1
      ∧ m ∈ pawnMoves b b.kingSquare b.movable b.pinned.1 b.pinned.2 true m.fromSq := by
  have hq := quietShape_of_pawn (Or.inl hflag) hus hp (hv.them_us hthem)
  obtain ⟨hle, hmov, hpin⟩ := hq.generator_facts Z hv ht hsafe
  refine ⟨hle, mem_pawnMoves.mpr ⟨rfl, Or.inl ⟨ht, ?_, hflag⟩⟩⟩
  exact has_pawnCaptureTargets.mpr ⟨hatt, hthem, hmov,
    fun h => line_of_pin_met hv hf ht hpin h.symm⟩

/-- What a safe pawn push gives the generator: the pawn is neither pinned along a diagonal nor
along the rank of the king. -/
theorem push_not_pinned (Z : Zobrist) {b : Board} (hv : b.Valid) {m : Move}
    (hq : b.QuietShape m) (ht : m.toSq < 64)
    (hfile : m.toSq % 8 = m.fromSq % 8) (hrank : m.toSq / 8 ≠ m.fromSq / 8)
    (hsafe : b.KingSafeAfter Z m) :
    popcount b.checkers ≤ 1 ∧ has b.movable m.toSq = true
      ∧ has b.pinned.2 m.fromSq = false
      ∧ pinnedHorizontally b.kingSquare b.pinned.1 m.fromSq = false := by
  obtain ⟨hle, hmov, hpin⟩ := hq.generator_facts Z hv ht hsafe
  have n2 := not_pinned_of_line hv (M := .file) hq.from_ne_to hfile.symm hpin
  refine ⟨hle, hmov, n2, ?_⟩
  by_contra hc
  simp only [Bool.not_eq_false] at hc
  obtain ⟨h1, h2⟩ := rank_of_pinnedHorizontally hc
  obtain ⟨s, hps⟩ := (has_pinned_fst hv m.fromSq).mp h1
  obtain ⟨L, _, a1, a2, a3⟩ := hps.line (hpin _ s hps)
  have a4 := LineKind.same_trans (LineKind.same_symm a1) a2
  cases L
  · exact hrank a4.symm
  · simp only [LineKind.same] at a1
    have hk := hv.kingSquare_spec.1
    omega
  · simp only [LineKind.same] at a1
    have hk := hv.kingSquare_spec.1
    omega
  · simp only [LineKind.same] at a1
    have hk := hv.kingSquare_spec.1
    omega

/-- A safe pawn push of one square is in the list of that pawn. -/
theorem complete_pawn_push (Z : Zobrist) {b : Board} (hv : b.Valid) {m : Move}
    (hf : m.fromSq < 64) (ht : m.toSq < 64) (hus : has b.us m.fromSq = true)
    (hp : has b.pawns m.fromSq = true) (hto : m.toSq = b.squareOneUp m.fromSq)
    (hocc : has b.occupancy m.toSq = false)
    (hflag : pawnFlagOK (b.willPromote m.fromSq) true m.flag)
    (hsafe : b.KingSafeAfter Z m) :
    popcount b.checkers ≤ 1
      ∧ m ∈ pawnMoves b b.kingSquare b.movable b.pinned.1 b.pinned.2 true m.fromSq := by
  have hq := quietShape_of_pawn (Or.inl hflag) hus hp (b.not_us_of_empty hocc)
  have hgeo := b.squareOneUp_geo hf (by rw [← hto]; exact ht)
  rw [← hto] at hgeo
  obtain ⟨hle, hmov, n2, n1⟩ := push_not_pinned Z hv hq ht hgeo.1 (by omega) hsafe
  refine ⟨hle, mem_pawnMoves.mpr ⟨rfl, Or.inr ⟨n2, n1, ?_, Or.inl ⟨?_, hto, hflag⟩⟩⟩⟩
  · rw [← hto]
    exact hocc
  · rw [← hto]
    exact hmov

/-- A safe pawn push of two squares is in the list of that pawn. -/
theorem complete_pawn_twoUp (Z : Zobrist) {b : Board} (hv : b.Valid) {m : Move}
    (hf : m.fromSq < 64) (ht : m.toSq < 64) (hus : has b.us m.fromSq = true)
    (hp : has b.pawns m.fromSq = true) (hh : b.pawnHasntMoved m.fromSq = true)
    (hto : m.toSq = b.squareTwoUp m.fromSq)
    (hocc1 : has b.occupancy (b.squareOneUp m.fromSq) = false)
    (hocc : has b.occupancy m.toSq = false) (hflag : m.flag = Move.PAWN_TWO_UP_FLAG)
    (hsafe : b.KingSafeAfter Z m) :
    popcount b.checkers ≤ 1
      ∧ m ∈ pawnMoves b b.kingSquare b.movable b.pinned.1 b.pinned.2 true m.fromSq := by
  have hq := quietShape_of_pawn (u := true) (Or.inr hflag) hus hp (b.not_us_of_empty hocc)
  have hgeo := b.squareTwoUp_geo hf (by rw [← hto]; exact ht)
  rw [← hto] at hgeo
  obtain ⟨hle, hmov, n2, n1⟩ := push_not_pinned Z hv hq ht hgeo.1 (by omega) hsafe
  refine ⟨hle, mem_pawnMoves.mpr ⟨rfl, Or.inr ⟨n2, n1, hocc1, Or.inr ⟨hh, ?_, ?_, hto, hflag⟩⟩⟩⟩
  · rw [← hto]
    exact hmov
  · rw [← hto]
    exact hocc

end Board
namespace Board

/-- A safe en-passant capture deals with every checker: it takes it, or it is a slider whose
check passes over the en-passant square. -/
theorem enPassant_checker_met (Z : Zobrist) {b : Board} (hv : b.Valid)
    (hepc : b.enPassantConsistent = true) {m : Move} (hem : b.EnPassantMove m)
    (hsafe : b.KingSafeAfter Z m) :
    ∀ c p, b.IsAttacker b.occupancy b.kingSquare (oppColor b.mColorToMove) c p →
      (if b.mColorToMove = Color.WHITE then subSq m.toSq 8 else addSq m.toSq 8) = c
        ∨ ((p = .BISHOP ∨ p = .ROOK ∨ p = .QUEEN)
          ∧ isBetween b.kingSquare m.toSq c = true) := by
  obtain ⟨ht64, hcs64, ho, hthem, hpw, hgw, hgb⟩ := enPassant_facts hepc hem rfl
  obtain ⟨f1, f2, f3⟩ := makeMove_enPassant Z hv hepc hem rfl
  obtain ⟨hflag, hf64, hus, hp, _, _, _⟩ := hem
  generalize (if b.mColorToMove = Color.WHITE then subSq m.toSq 8 else addSq m.toSq 8) = cs
    at hcs64 hthem hpw f2 f3 hgw hgb
  obtain ⟨hk64, hkspec⟩ := hv.kingSquare_spec
  have hkf : has b.kings m.fromSq = false := by
    cases h : has b.kings m.fromSq
    · rfl
    · exact PieceType.noConfusion (hv.piece_unique (p := .PAWN) (q := .KING) hp h)
  have hkc : has b.kings cs = false := by
    cases h : has b.kings cs
    · rfl
    · exact PieceType.noConfusion (hv.piece_unique (p := .PAWN) (q := .KING) hpw h)
  have hkt : has b.kings m.toSq = false := by
    cases h : has b.kings m.toSq
    · rfl
    · rw [(hv.occupied_iff m.toSq).mpr ⟨.KING, h⟩] at ho
      exact Bool.noConfusion ho
  have hust : has b.us m.toSq = false := b.not_us_of_empty ho
  have hking : lsb ((b.makeMove Z m).colorBb b.mColorToMove &&& (b.makeMove Z m).kings)
      = b.kingSquare := by
    refine (lsb_eq_of_has_iff hk64 ?_).1
    intro x
    rw [has_and, Bool.and_eq_true, f1,
      show (b.makeMove Z m).kings = (b.makeMove Z m).pieceBb .KING from rfl, f3, ← hkspec x]
    by_cases e1 : x = m.toSq
    · subst e1
      simp [hkt]
    · by_cases e2 : x = m.fromSq
      · subst e2
        simp [e1, hkf]
      · by_cases e3 : x = cs
        · subst e3
          simp [e1, e2, hkc]
        · simp [e1, e2, e3]
          intro _
          rfl
  have hocc : ∀ x, has (b.makeMove Z m).occupancy x = true →
      x = m.toSq ∨ has b.occupancy x = true := by
    intro x hx
    rw [has_occupancy _ b.mColorToMove, f1, f2, Bool.or_eq_true] at hx
    by_cases e1 : x = m.toSq
    · exact Or.inl e1
    · right
      rw [has_occupancy b b.mColorToMove, Bool.or_eq_true]
      rcases hx with hx | hx
      · left
        simp only [e1, decide_False, Bool.false_or, Bool.and_eq_true] at hx
        exact hx.1
      · right
        rw [Bool.and_eq_true] at hx
        exact hx.1
  -- an enemy piece that is not taken and attacks the king after the move
  have hexposed : ∀ s p, has b.them s = true → has (b.pieceBb p) s = true → s ≠ cs →
      attacksFrom p (oppColor b.mColorToMove) (b.makeMove Z m).occupancy s b.kingSquare = true →
      False := by
    intro s p hs hp' hsc hatt
    unfold KingSafeAfter at hsafe
    rw [hking] at hsafe
    have hst : s ≠ m.toSq := by
      intro e
      rw [← e, b.has_them_occupancy hs] at ho
      exact Bool.noConfusion ho
    have hsf : s ≠ m.fromSq := by
      intro e
      rw [e, hv.us_them hus] at hs
      exact Bool.noConfusion hs
    have : (b.makeMove Z m).isSquareAttacked b.kingSquare (oppColor b.mColorToMove) = true := by
      rw [isSquareAttacked_iff]
      refine ⟨s, p, ?_, ?_, hatt⟩
      · rw [f2, hs]
        simp [hsc]
      · rw [f3, if_neg hst, if_neg (by
          rw [not_or]
          exact ⟨hsf, hsc⟩)]
        exact hp'
    rw [this] at hsafe
    exact Bool.noConfusion hsafe
  intro c p hc
  by_contra hcon
  rw [not_or] at hcon
  obtain ⟨hne, hnb⟩ := hcon
  apply hexposed c p hc.1 hc.2.1 (fun e => hne e.symm)
  rcases pieceType_cases p with hl | hsl | rfl
  · rw [attacksFrom_leaper _ b.occupancy hl]
    exact hc.2.2
  · refine attacksFrom_mono ?_ hc.2.2
    intro u _ hub hou
    by_contra hx
    simp only [Bool.not_eq_false] at hx
    rcases hocc u hx with e | e
    · rw [e, isBetween_symm] at hub
      exact hnb ⟨hsl, hub⟩
    · rw [hou] at e
      exact Bool.noConfusion e
  · have := hc.2.2
    simp [attacksFrom] at this

/-- A safe en-passant capture leaves at most one checker to deal with. -/
theorem checkers_le_one_of_enPassant (Z : Zobrist) {b : Board} (hv : b.Valid)
    (hepc : b.enPassantConsistent = true) {m : Move} (hem : b.EnPassantMove m)
    (hsafe : b.KingSafeAfter Z m) : popcount b.checkers ≤ 1 := by
  obtain ⟨_, _, _, _, hpw, hgw, hgb⟩ := enPassant_facts hepc hem rfl
  refine checkers_le_one_of_met (t := m.toSq) (enPassant_checker_met Z hv hepc hem hsafe) ?_
  generalize (if b.mColorToMove = Color.WHITE then subSq m.toSq 8 else addSq m.toSq 8) = cs
    at hpw hgw hgb
  intro p c hc hb
  exfalso
  have hpp : p = .PAWN := hv.piece_unique hc.2.1 hpw
  subst hpp
  have hatt : has (pawnAttacks cs (oppColor b.mColorToMove)) b.kingSquare = true := hc.2.2
  obtain ⟨L, a1, _, _, _, _, _⟩ := isBetween_line hb
  have hcols : b.mColorToMove = .WHITE ∨ b.mColorToMove = .BLACK := by
    cases b.mColorToMove
    · exact Or.inl rfl
    · exact Or.inr rfl
  rcases hcols with hcol | hcol
  · rw [hcol] at hatt
    obtain ⟨_, _, g1, g2⟩ := has_pawnAttacks_black.mp hatt
    obtain ⟨g3, g4⟩ := hgw hcol
    cases L <;> simp only [LineKind.same] at a1 <;> omega
  · rw [hcol] at hatt
    obtain ⟨_, _, g1, g2⟩ := has_pawnAttacks_white.mp hatt
    obtain ⟨g3, g4⟩ := hgb hcol
    cases L <;> simp only [LineKind.same] at a1 <;> omega

/-- A safe en-passant capture is in the list. -/
theorem complete_enPassant (Z : Zobrist) {b : Board} (hv : b.Valid)
    (hepc : b.enPassantConsistent = true) {m : Move} (hus : has b.us m.fromSq = true)
    (hp : has b.pawns m.fromSq = true) (hep : b.mEnPassantSquare ≠ SQUARE_NONE)
    (hto : m.toSq = b.mEnPassantSquare)
    (hatt : has (pawnAttacks m.fromSq b.mColorToMove) m.toSq = true)
    (hflag : m.flag = Move.EN_PASSANT_FLAG) (hsafe : b.KingSafeAfter Z m) :
    m ∈ b.legalMoves Z true := by
  have hem : b.EnPassantMove m := ⟨hflag, hv.color_lt hus, hus, hp, hto, hep, hatt⟩
  have hle := checkers_le_one_of_enPassant Z hv hepc hem hsafe
  have hm : m = ⟨m.fromSq, b.mEnPassantSquare, Move.EN_PASSANT_FLAG⟩ := by
    cases m
    simp only at hto hflag
    rw [hto, hflag]
  rw [hm]
  rw [hm] at hsafe
  rw [hto] at hatt
  exact (mem_legalMoves_enPassant_iff Z hv hep hle true m.fromSq).mpr ⟨hus, hp, hatt, hsafe⟩

end Board
namespace Board

/-- A king that is not attacked does not shield a square from attack: a square that is not
attacked is not attacked with the king taken off the board either. -/
theorem not_theirAttacks_of_safe {b : Board} (hv : b.Valid) {t : Nat}
    (hk : b.isSquareAttacked b.kingSquare (oppColor b.mColorToMove) = false)
    (ht : b.isSquareAttacked t (oppColor b.mColorToMove) = false) :
    has b.theirAttacks t = false := by
  by_contra hc
  simp only [Bool.not_eq_false] at hc
  obtain ⟨s, p, hs, hp, hatt⟩ := (has_theirAttacks hv t).mp hc
  have hkn : ∀ s p, ¬ b.IsAttacker b.occupancy b.kingSquare (oppColor b.mColorToMove) s p := by
    intro s p h
    rw [(isSquareAttacked_iff b _ _).mpr ⟨s, p, h⟩] at hk
    exact Bool.noConfusion hk
  have htn : ∀ s p, ¬ b.IsAttacker b.occupancy t (oppColor b.mColorToMove) s p := by
    intro s p h
    rw [(isSquareAttacked_iff b _ _).mpr ⟨s, p, h⟩] at ht
    exact Bool.noConfusion ht
  rcases pieceType_cases p with hl | hsl | rfl
  · rw [attacksFrom_leaper _ b.occupancy hl] at hatt
    exact htn s p ⟨hs, hp, hatt⟩
  · obtain ⟨s64, t64, hst, ⟨L, hL, hty⟩, hreach⟩ := slider_reach hsl hatt
    by_cases hb : isBetween s b.kingSquare t = true
    · -- the king stands in the way: the piece attacks the king
      apply hkn s p
      refine ⟨hs, hp, attacksFrom_of_reach s64 hv.kingSquare_spec.1 ?_
        (isBetween_pos hL hb).1 hty ?_⟩
      · obtain ⟨_, _, _, _, h, _, _⟩ := isBetween_line hb
        exact h
      · intro u hu hub
        have := hreach u hu (isBetween_nest hub hb)
        rw [hv.occ_without_king] at this
        have hne : u ≠ b.kingSquare := by
          intro e
          rw [e, not_isBetween_self_right] at hub
          exact Bool.noConfusion hub
        simpa [hne] using this
    · apply htn s p
      refine ⟨hs, hp, attacksFrom_of_reach s64 t64 hst hL hty ?_⟩
      intro u hu hub
      have := hreach u hu hub
      rw [hv.occ_without_king] at this
      have hne : u ≠ b.kingSquare := by
        intro e
        rw [e] at hub
        exact hb hub
      simpa [hne] using this
  · simp [attacksFrom] at hatt

theorem popcount_eq_zero_of {x : Nat} (h : ∀ s, has x s = false) : popcount x = 0 := by
  unfold popcount
  rw [List.length_eq_zero, List.eq_nil_iff_forall_not_mem]
  intro s hs
  have := (mem_bits_iff.mp hs).2
  rw [h s] at this
  exact Bool.noConfusion this

theorem checkers_zero_of_safe {b : Board}
    (hk : b.isSquareAttacked b.kingSquare (oppColor b.mColorToMove) = false) :
    popcount b.checkers = 0 := by
  apply popcount_eq_zero_of
  intro s
  by_contra hc
  simp only [Bool.not_eq_false] at hc
  obtain ⟨p, hp⟩ := (has_checkers b s).mp hc
  rw [(isSquareAttacked_iff b _ _).mpr ⟨s, p, hp⟩] at hk
  exact Bool.noConfusion hk

/-- Castling short with the right held, the squares between king and rook empty and the squares
the king crosses unattacked is in the list. -/
theorem complete_castle_short {b : Board} (hv : b.Valid) {m : Move}
    (ht64 : m.toSq < 64) (hflag : m.flag = Move.CASTLING_FLAG) (hf : m.fromSq = b.kingSquare)
    (hto : m.toSq = m.fromSq + 2)
    (hr : b.mCastlingRights &&& CASTLING_MASKS b.mColorToMove CASTLE_SHORT ≠ 0)
    (ho1 : has b.occupancy (m.fromSq + 1) = false) (ho2 : has b.occupancy (m.fromSq + 2) = false)
    (ha0 : b.isSquareAttacked m.fromSq (oppColor b.mColorToMove) = false)
    (ha1 : b.isSquareAttacked (m.fromSq + 1) (oppColor b.mColorToMove) = false)
    (ha2 : b.isSquareAttacked (m.fromSq + 2) (oppColor b.mColorToMove) = false) :
    m ∈ castlingMoves b b.kingSquare b.occupancy b.theirAttacks (popcount b.checkers) := by
  rw [hf] at hto ho1 ho2 ha0 ha1 ha2
  have e1 : addSq b.kingSquare 1 = b.kingSquare + 1 := by
    unfold addSq
    omega
  have e2 : addSq b.kingSquare 2 = b.kingSquare + 2 := by
    unfold addSq
    omega
  have t1 := not_theirAttacks_of_safe hv ha0 ha1
  have t2 := not_theirAttacks_of_safe hv ha0 ha2
  refine mem_castlingMoves.mpr ⟨checkers_zero_of_safe ha0, hf, hflag, Or.inl ⟨hr, ?_, ?_, ?_⟩⟩
  · rw [e1, e2, and_eq_zero_iff]
    intro s hs
    rw [has_or, has_squareToBitboard, has_squareToBitboard]
    by_cases c1 : b.kingSquare + 1 = s
    · rw [← c1, ho1] at hs
      exact Bool.noConfusion hs
    · by_cases c2 : b.kingSquare + 2 = s
      · rw [← c2, ho2] at hs
        exact Bool.noConfusion hs
      · simp [c1, c2]
  · rw [e1, e2, and_eq_zero_iff]
    intro s hs
    rw [has_or, has_squareToBitboard, has_squareToBitboard]
    by_cases c1 : b.kingSquare + 1 = s
    · rw [← c1, t1] at hs
      exact Bool.noConfusion hs
    · by_cases c2 : b.kingSquare + 2 = s
      · rw [← c2, t2] at hs
        exact Bool.noConfusion hs
      · simp [c1, c2]
  · rw [e2]
    exact hto

/-- Castling long with the right held, the squares between king and rook empty and the squares
the king crosses unattacked is in the list. -/
theorem complete_castle_long {b : Board} (hv : b.Valid) {m : Move}
    (hflag : m.flag = Move.CASTLING_FLAG) (hf : m.fromSq = b.kingSquare)
    (hto : m.toSq + 2 = m.fromSq) (h3 : 3 ≤ m.fromSq)
    (hr : b.mCastlingRights &&& CASTLING_MASKS b.mColorToMove CASTLE_LONG ≠ 0)
    (ho1 : has b.occupancy (m.fromSq - 1) = false) (ho2 : has b.occupancy (m.fromSq - 2) = false)
    (ho3 : has b.occupancy (m.fromSq - 3) = false)
    (ha0 : b.isSquareAttacked m.fromSq (oppColor b.mColorToMove) = false)
    (ha1 : b.isSquareAttacked (m.fromSq - 1) (oppColor b.mColorToMove) = false)
    (ha2 : b.isSquareAttacked (m.fromSq - 2) (oppColor b.mColorToMove) = false) :
    m ∈ castlingMoves b b.kingSquare b.occupancy b.theirAttacks (popcount b.checkers) := by
  rw [hf] at hto h3 ho1 ho2 ho3 ha0 ha1 ha2
  have hk64 := hv.kingSquare_spec.1
  have e1 : subSq b.kingSquare 1 = b.kingSquare - 1 := by
    unfold subSq
    omega
  have e2 : subSq b.kingSquare 2 = b.kingSquare - 2 := by
    unfold subSq
    omega
  have e3 : subSq b.kingSquare 3 = b.kingSquare - 3 := by
    unfold subSq
    omega
  have t1 := not_theirAttacks_of_safe hv ha0 ha1
  have t2 := not_theirAttacks_of_safe hv ha0 ha2
  refine mem_castlingMoves.mpr ⟨checkers_zero_of_safe ha0, hf, hflag, Or.inr ⟨hr, ?_, ?_, ?_⟩⟩
  · rw [e1, e2, e3, and_eq_zero_iff]
    intro s hs
    rw [has_or, has_or, has_squareToBitboard, has_squareToBitboard, has_squareToBitboard]
    by_cases c1 : b.kingSquare - 1 = s
    · rw [← c1, ho1] at hs
      exact Bool.noConfusion hs
    · by_cases c2 : b.kingSquare - 2 = s
      · rw [← c2, ho2] at hs
        exact Bool.noConfusion hs
      · by_cases c3 : b.kingSquare - 3 = s
        · rw [← c3, ho3] at hs
          exact Bool.noConfusion hs
        · simp [c1, c2, c3]
  · rw [e1, e2, e3, and_eq_zero_iff]
    intro s hs
    rw [has_xor, has_or, has_or, has_squareToBitboard, has_squareToBitboard,
      has_squareToBitboard]
    by_cases c1 : b.kingSquare - 1 = s
    · rw [← c1, t1] at hs
      exact Bool.noConfusion hs
    · by_cases c2 : b.kingSquare - 2 = s
      · rw [← c2, t2] at hs
        exact Bool.noConfusion hs
      · by_cases c3 : b.kingSquare - 3 = s
        · simp [c1, c2, c3]
        · simp [c1, c2, c3]
  · rw [e2]
    omega

end Board
namespace Board

theorem mem_legalMoves_of_nonKing {Z : Zobrist} {b : Board} {u : Bool} {m : Move}
    (hc : popcount b.checkers ≤ 1) (h : m ∈ b.nonKingMoves Z u) : m ∈ b.legalMoves Z u := by
  rw [legalMoves_eq, List.mem_append, if_neg (by omega)]
  exact Or.inr h

theorem mem_allPawnMoves_of {b : Board} {u : Bool} {m : Move} (hf : m.fromSq < 64)
    (hus : has b.us m.fromSq = true) (hp : has b.pawns m.fromSq = true)
    (h : m ∈ pawnMoves b b.kingSquare b.movable b.pinned.1 b.pinned.2 u m.fromSq) :
    m ∈ b.allPawnMoves u := by
  unfold allPawnMoves
  rw [List.mem_flatMap]
  exact ⟨m.fromSq, mem_bits_iff.mpr ⟨hf, by rw [has_and, hus, hp]; rfl⟩, h⟩

/-- Every pseudo-legal move that leaves the own king unattacked is in the list, in a valid
position whose en-passant square is consistent with the board. -/
theorem legalMoves_complete (Z : Zobrist) {b : Board} (hv : b.Valid)
    (hepc : b.enPassantConsistent = true) {m : Move} (hp : b.PseudoLegal m)
    (hsafe : b.KingSafeAfter Z m) : m ∈ b.legalMoves Z true := by
  obtain ⟨hf, ht, hus, hcase⟩ := hp
  rcases hcase with ⟨pt, hpt, hflag, hpiece, hto, hatt⟩ | ⟨hpw, hto, hocc, hflag⟩
    | ⟨hpw, hh, hto, hocc1, hocc, hflag⟩ | ⟨hpw, hatt, hthem, hflag⟩
    | ⟨hpw, hep, hto, hatt, hflag⟩
    | ⟨hflag, hk, hto, hr, ho1, ho2, ha0, ha1, ha2⟩
    | ⟨hflag, hk, hto, h3, hr, ho1, ho2, ho3, ha0, ha1, ha2⟩
  · rcases hpt with rfl | rfl | rfl | rfl | rfl
    · obtain ⟨hc, hm⟩ := complete_knight Z hv hf ht hus hflag hpiece hto hatt hsafe
      refine mem_legalMoves_of_nonKing hc ?_
      unfold nonKingMoves
      simp only [List.mem_append]
      tauto
    · obtain ⟨hc, hm⟩ := complete_bishop Z hv hf ht hus hflag hpiece hto hatt hsafe
      refine mem_legalMoves_of_nonKing hc ?_
      unfold nonKingMoves
      simp only [List.mem_append]
      tauto
    · obtain ⟨hc, hm⟩ := complete_rook Z hv hf ht hus hflag hpiece hto hatt hsafe
      refine mem_legalMoves_of_nonKing hc ?_
      unfold nonKingMoves
      simp only [List.mem_append]
      tauto
    · obtain ⟨hc, hm⟩ := complete_queen Z hv hf ht hus hflag hpiece hto hatt hsafe
      refine mem_legalMoves_of_nonKing hc ?_
      unfold nonKingMoves
      simp only [List.mem_append]
      tauto
    · rw [legalMoves_eq, List.mem_append]
      exact Or.inl (complete_king Z hv ht hus hflag hpiece hto hatt hsafe)
  · obtain ⟨hc, hm⟩ := complete_pawn_push Z hv hf ht hus hpw hto hocc hflag hsafe
    refine mem_legalMoves_of_nonKing hc ?_
    have := mem_allPawnMoves_of hf hus hpw hm
    unfold nonKingMoves
    simp only [List.mem_append]
    tauto
  · obtain ⟨hc, hm⟩ := complete_pawn_twoUp Z hv hf ht hus hpw hh hto hocc1 hocc hflag hsafe
    refine mem_legalMoves_of_nonKing hc ?_
    have := mem_allPawnMoves_of hf hus hpw hm
    unfold nonKingMoves
    simp only [List.mem_append]
    tauto
  · obtain ⟨hc, hm⟩ := complete_pawn_capture Z hv hf ht hus hpw hatt hthem hflag hsafe
    refine mem_legalMoves_of_nonKing hc ?_
    have := mem_allPawnMoves_of hf hus hpw hm
    unfold nonKingMoves
    simp only [List.mem_append]
    tauto
  · exact complete_enPassant Z hv hepc hus hpw hep hto hatt hflag hsafe
  · have hm := complete_castle_short hv ht hflag hk hto hr ho1 ho2 ha0 ha1 ha2
    rw [hk] at ha0
    refine mem_legalMoves_of_nonKing (by rw [checkers_zero_of_safe ha0]; omega) ?_
    unfold nonKingMoves
    simp only [List.mem_append]
    tauto
  · have hm := complete_castle_long hv hflag hk hto h3 hr ho1 ho2 ho3 ha0 ha1 ha2
    rw [hk] at ha0
    refine mem_legalMoves_of_nonKing (by rw [checkers_zero_of_safe ha0]; omega) ?_
    unfold nonKingMoves
    simp only [List.mem_append]
    tauto

end Board
/-! ### No move is listed twice -/

theorem nodup_flatMap_of_key {α β : Type} (key : β → α) {l : List α} {f : α → List β}
    (hl : l.Nodup) (hf : ∀ a ∈ l, (f a).Nodup) (hk : ∀ a, ∀ m ∈ f a, key m = a) :
    (l.flatMap f).Nodup := by
  rw [List.nodup_flatMap]
  refine ⟨hf, List.Pairwise.imp ?_ hl⟩
  intro a c hne m h1 h2
  exact hne ((hk a m h1).symm.trans (hk c m h2))

theorem nodup_map_move {l : List Nat} (hl : l.Nodup) (k F : Nat) :
    (l.map (fun t => (⟨k, t, F⟩ : Move))).Nodup := by
  apply hl.map
  intro a c h
  simp only [Move.mk.injEq, true_and, and_true] at h
  exact h

theorem nodup_append_of_flag {l1 l2 : List Move} (P : Nat → Prop) (h1 : l1.Nodup)
    (h2 : l2.Nodup) (hP : ∀ m ∈ l1, P m.flag) (hn : ∀ m ∈ l2, ¬ P m.flag) :
    (l1 ++ l2).Nodup :=
  List.Nodup.append h1 h2 (fun m a c => hn m c (hP m a))

namespace Board

theorem kingMoves_nodup (b : Board) (k ta : Nat) : (kingMoves b k ta).Nodup :=
  nodup_map_move (bits_nodup _) _ _

theorem knightMoves_nodup (b : Board) (mv sq : Nat) : (knightMoves b mv sq).Nodup :=
  nodup_map_move (bits_nodup _) _ _

theorem bishopMoves_nodup (b : Board) (k occ mv pd sq : Nat) :
    (bishopMoves b k occ mv pd sq).Nodup :=
  nodup_map_move (bits_nodup _) _ _

theorem rookMoves_nodup (b : Board) (k occ mv pn sq : Nat) :
    (rookMoves b k occ mv pn sq).Nodup :=
  nodup_map_move (bits_nodup _) _ _

theorem queenMoves_nodup (b : Board) (k occ mv pn pd sq : Nat) :
    (queenMoves b k occ mv pn pd sq).Nodup :=
  nodup_map_move (bits_nodup _) _ _

theorem addSq_two_ne_subSq_two (k : Nat) : addSq k 2 ≠ subSq k 2 := by
  unfold addSq subSq
  omega

theorem castlingMoves_nodup (b : Board) (k occ ta n : Nat) :
    (castlingMoves b k occ ta n).Nodup := by
  unfold castlingMoves
  have hne : (⟨k, addSq k 2, Move.CASTLING_FLAG⟩ : Move) ≠ ⟨k, subSq k 2, Move.CASTLING_FLAG⟩ := by
    intro h
    simp only [Move.mk.injEq, true_and, and_true] at h
    exact addSq_two_ne_subSq_two k h
  dsimp only
  split_ifs <;> simp [hne]

theorem enPassantMoves_nodup (Z : Zobrist) (b : Board) : (b.enPassantMoves Z).Nodup := by
  unfold enPassantMoves
  split_ifs
  · apply ((bits_nodup _).filter _).map
    intro a c h
    simp only [Move.mk.injEq, true_and, and_true] at h
    exact h
  · exact List.nodup_nil

theorem addPromotions_nodup (sq t : Nat) (u : Bool) : (addPromotions sq t u).Nodup := by
  cases u <;> simp [addPromotions, Move.QUEEN_PROMOTION_FLAG, Move.ROOK_PROMOTION_FLAG,
    Move.BISHOP_PROMOTION_FLAG, Move.KNIGHT_PROMOTION_FLAG]

theorem pawnMoves_nodup (b : Board) (k mv pn pd : Nat) (u : Bool) (sq : Nat) :
    (pawnMoves b k mv pn pd u sq).Nodup := by
  unfold pawnMoves
  dsimp only
  generalize htw : (if (!b.pawnHasntMoved sq) = true then ([] : List Move)
      else if mv &&& 1 <<< b.squareTwoUp sq ≠ 0 ∧ (!b.isOccupied (b.squareTwoUp sq)) = true then
        [(⟨sq, b.squareTwoUp sq, Move.PAWN_TWO_UP_FLAG⟩ : Move)]
      else []) = tw
  have htwo : tw.Nodup := by
    rw [← htw]
    split_ifs <;> simp
  have htwoflag : ∀ m ∈ tw, m.flag = Move.PAWN_TWO_UP_FLAG := by
    intro m hm
    rw [← htw] at hm
    split_ifs at hm
    · simp at hm
    · simp only [List.mem_singleton] at hm
      rw [hm]
    · simp at hm
  refine List.Nodup.append ?_ ?_ ?_
  · refine nodup_flatMap_of_key Move.toSq (bits_nodup _) ?_ ?_
    · intro t _
      split_ifs
      · exact addPromotions_nodup _ _ _
      · simp
    · intro t m hm
      split_ifs at hm
      · exact (mem_addPromotions.mp hm).2.1
      · exact (mem_singleton_move.mp hm).2.1
  · split_ifs
    · exact List.nodup_nil
    · exact List.nodup_nil
    · exact List.nodup_nil
    · exact addPromotions_nodup _ _ _
    · refine List.nodup_cons.mpr ⟨fun hm => ?_, htwo⟩
      have := htwoflag _ hm
      simp [Move.PAWN_FLAG, Move.PAWN_TWO_UP_FLAG] at this
    · exact htwo
  · intro m hc hp
    -- a capture lands on an occupied square with a flag that is not the double push
    rw [List.mem_flatMap] at hc
    obtain ⟨t, ht, hmt⟩ := hc
    have ht2 := (mem_bits_iff.mp ht).2
    have hthem : has b.them t = true := by
      unfold pawnCaptureTargets at ht2
      simp only at ht2
      split_ifs at ht2
      · simp only [has_and, Bool.and_eq_true] at ht2
        exact ht2.1.1.2
      · simp only [has_and, Bool.and_eq_true] at ht2
        exact ht2.1.2
    have hocc : b.isOccupied t = true := by
      unfold isOccupied occupancy
      rw [has_or, hthem, Bool.or_true]
    have hcap : m.toSq = t ∧ m.flag ≠ Move.PAWN_TWO_UP_FLAG := by
      split_ifs at hmt
      · obtain ⟨_, h2, h3⟩ := mem_addPromotions.mp hmt
        refine ⟨h2, ?_⟩
        simp only [Move.QUEEN_PROMOTION_FLAG, Move.ROOK_PROMOTION_FLAG,
          Move.BISHOP_PROMOTION_FLAG, Move.KNIGHT_PROMOTION_FLAG, Move.PAWN_TWO_UP_FLAG] at h3 ⊢
        omega
      · obtain ⟨_, h2, h3⟩ := mem_singleton_move.mp hmt
        refine ⟨h2, ?_⟩
        simp only [Move.PAWN_FLAG, Move.PAWN_TWO_UP_FLAG] at h3 ⊢
        omega
    have hpush : m.flag = Move.PAWN_TWO_UP_FLAG
        ∨ (m.toSq = b.squareOneUp sq ∧ b.isOccupied (b.squareOneUp sq) = false) := by
      split_ifs at hp with c1 c2 c3 c4 c5
      · simp at hp
      · simp at hp
      · simp at hp
      · exact Or.inr ⟨(mem_addPromotions.mp hp).2.1, by simpa using c3⟩
      · rcases List.mem_cons.mp hp with h | h
        · exact Or.inr ⟨by rw [h], by simpa using c3⟩
        · exact Or.inl (htwoflag _ h)
      · exact Or.inl (htwoflag _ hp)
    rcases hpush with h | ⟨h1, h2⟩
    · exact hcap.2 h
    · rw [← h1, hcap.1, hocc] at h2
      exact Bool.noConfusion h2

theorem allPawnMoves_nodup (b : Board) (u : Bool) : (b.allPawnMoves u).Nodup :=
  nodup_flatMap_of_key Move.fromSq (bits_nodup _) (fun _ _ => pawnMoves_nodup _ _ _ _ _ _ _)
    (fun _ _ hm => (mem_pawnMoves.mp hm).1)

theorem allKnightMoves_nodup (b : Board) : b.allKnightMoves.Nodup :=
  nodup_flatMap_of_key Move.fromSq (bits_nodup _) (fun _ _ => knightMoves_nodup _ _ _)
    (fun _ _ hm => (mem_knightMoves.mp hm).1)

theorem allBishopMoves_nodup (b : Board) : b.allBishopMoves.Nodup :=
  nodup_flatMap_of_key Move.fromSq (bits_nodup _) (fun _ _ => bishopMoves_nodup _ _ _ _ _ _)
    (fun _ _ hm => (mem_bishopMoves.mp hm).1)

theorem allRookMoves_nodup (b : Board) : b.allRookMoves.Nodup :=
  nodup_flatMap_of_key Move.fromSq (bits_nodup _) (fun _ _ => rookMoves_nodup _ _ _ _ _ _)
    (fun _ _ hm => (mem_rookMoves.mp hm).1)

theorem allQueenMoves_nodup (b : Board) : b.allQueenMoves.Nodup :=
  nodup_flatMap_of_key Move.fromSq (bits_nodup _) (fun _ _ => queenMoves_nodup _ _ _ _ _ _ _)
    (fun _ _ hm => (mem_queenMoves.mp hm).1)

theorem flag_of_allPawnMoves {b : Board} {u : Bool} {m : Move} (h : m ∈ b.allPawnMoves u) :
    m.flag = 1 ∨ (10 ≤ m.flag ∧ m.flag ≤ 13) ∨ m.flag = 15 := by
  unfold allPawnMoves at h
  obtain ⟨s, _, hm⟩ := List.mem_flatMap.mp h
  obtain ⟨_, hc⟩ := mem_pawnMoves.mp hm
  have hflag : ∀ w, pawnFlagOK w u m.flag → m.flag = 1 ∨ (10 ≤ m.flag ∧ m.flag ≤ 13) := by
    intro w hw
    unfold pawnFlagOK at hw
    simp only [Move.QUEEN_PROMOTION_FLAG, Move.ROOK_PROMOTION_FLAG,
      Move.BISHOP_PROMOTION_FLAG, Move.KNIGHT_PROMOTION_FLAG, Move.PAWN_FLAG] at hw
    split_ifs at hw
    · right
      rcases hw with h | ⟨_, h | h | h⟩ <;> omega
    · exact Or.inl hw
  rcases hc with ⟨_, _, h⟩ | ⟨_, _, _, ⟨_, _, h⟩ | ⟨_, _, _, _, h⟩⟩
  · rcases hflag _ h with h | h
    · exact Or.inl h
    · exact Or.inr (Or.inl h)
  · rcases hflag _ h with h | h
    · exact Or.inl h
    · exact Or.inr (Or.inl h)
  · exact Or.inr (Or.inr h)

theorem flag_of_allKnightMoves {b : Board} {m : Move} (h : m ∈ b.allKnightMoves) :
    m.flag = 2 := by
  obtain ⟨s, _, hm⟩ := List.mem_flatMap.mp h
  exact (mem_knightMoves.mp hm).2.1

theorem flag_of_allBishopMoves {b : Board} {m : Move} (h : m ∈ b.allBishopMoves) :
    m.flag = 3 := by
  obtain ⟨s, _, hm⟩ := List.mem_flatMap.mp h
  exact (mem_bishopMoves.mp hm).2.1

theorem flag_of_allRookMoves {b : Board} {m : Move} (h : m ∈ b.allRookMoves) :
    m.flag = 4 := by
  obtain ⟨s, _, hm⟩ := List.mem_flatMap.mp h
  exact (mem_rookMoves.mp hm).2.1

theorem flag_of_allQueenMoves {b : Board} {m : Move} (h : m ∈ b.allQueenMoves) :
    m.flag = 5 := by
  obtain ⟨s, _, hm⟩ := List.mem_flatMap.mp h
  exact (mem_queenMoves.mp hm).2.1

theorem flag_of_nonKingMoves {Z : Zobrist} {b : Board} {u : Bool} {m : Move}
    (h : m ∈ b.nonKingMoves Z u) : m.flag ≠ 6 := by
  unfold nonKingMoves at h
  simp only [List.mem_append] at h
  rcases h with (((((h | h) | h) | h) | h) | h) | h
  · have := (mem_castlingMoves_flag h).1
    simp only [Move.CASTLING_FLAG] at this
    omega
  · have := (mem_enPassantMoves.mp h).2.2.1
    simp only [Move.EN_PASSANT_FLAG] at this
    omega
  · have := flag_of_allPawnMoves h
    omega
  · have := flag_of_allKnightMoves h
    omega
  · have := flag_of_allBishopMoves h
    omega
  · have := flag_of_allRookMoves h
    omega
  · have := flag_of_allQueenMoves h
    omega

theorem nonKingMoves_nodup (Z : Zobrist) (b : Board) (u : Bool) : (b.nonKingMoves Z u).Nodup := by
  unfold nonKingMoves
  have c : ∀ m ∈ castlingMoves b b.kingSquare b.occupancy b.theirAttacks (popcount b.checkers),
      m.flag = 7 := fun m h => (mem_castlingMoves_flag h).1
  have e : ∀ m ∈ b.enPassantMoves Z, m.flag = 14 := fun m h => (mem_enPassantMoves.mp h).2.2.1
  have s1 := nodup_append_of_flag (fun f => f = 7) (castlingMoves_nodup _ _ _ _ _)
    (enPassantMoves_nodup Z b) c (fun m h => by rw [e m h]; omega)
  have f1 : ∀ m ∈ castlingMoves b b.kingSquare b.occupancy b.theirAttacks (popcount b.checkers)
      ++ b.enPassantMoves Z, m.flag = 7 ∨ m.flag = 14 := by
    intro m h
    rcases List.mem_append.mp h with h | h
    · exact Or.inl (c m h)
    · exact Or.inr (e m h)
  have s2 := nodup_append_of_flag (fun f => f = 7 ∨ f = 14) s1 (allPawnMoves_nodup b u) f1
    (fun m h => by have := flag_of_allPawnMoves h; omega)
  have f2 : ∀ m ∈ castlingMoves b b.kingSquare b.occupancy b.theirAttacks (popcount b.checkers)
      ++ b.enPassantMoves Z ++ b.allPawnMoves u, 6 < m.flag ∨ m.flag = 1 := by
    intro m h
    rcases List.mem_append.mp h with h | h
    · have := f1 m h
      omega
    · have := flag_of_allPawnMoves h
      omega
  have s3 := nodup_append_of_flag (fun f => 6 < f ∨ f = 1) s2 (allKnightMoves_nodup b) f2
    (fun m h => by have := flag_of_allKnightMoves h; omega)
  have f3 : ∀ m ∈ castlingMoves b b.kingSquare b.occupancy b.theirAttacks (popcount b.checkers)
      ++ b.enPassantMoves Z ++ b.allPawnMoves u ++ b.allKnightMoves, 6 < m.flag ∨ m.flag ≤ 2 := by
    intro m h
    rcases List.mem_append.mp h with h | h
    · have := f2 m h
      omega
    · have := flag_of_allKnightMoves h
      omega
  have s4 := nodup_append_of_flag (fun f => 6 < f ∨ f ≤ 2) s3 (allBishopMoves_nodup b) f3
    (fun m h => by have := flag_of_allBishopMoves h; omega)
  have f4 : ∀ m ∈ castlingMoves b b.kingSquare b.occupancy b.theirAttacks (popcount b.checkers)
      ++ b.enPassantMoves Z ++ b.allPawnMoves u ++ b.allKnightMoves ++ b.allBishopMoves,
      6 < m.flag ∨ m.flag ≤ 3 := by
    intro m h
    rcases List.mem_append.mp h with h | h
    · have := f3 m h
      omega
    · have := flag_of_allBishopMoves h
      omega
  have s5 := nodup_append_of_flag (fun f => 6 < f ∨ f ≤ 3) s4 (allRookMoves_nodup b) f4
    (fun m h => by have := flag_of_allRookMoves h; omega)
  have f5 : ∀ m ∈ castlingMoves b b.kingSquare b.occupancy b.theirAttacks (popcount b.checkers)
      ++ b.enPassantMoves Z ++ b.allPawnMoves u ++ b.allKnightMoves ++ b.allBishopMoves
      ++ b.allRookMoves, 6 < m.flag ∨ m.flag ≤ 4 := by
    intro m h
    rcases List.mem_append.mp h with h | h
    · have := f4 m h
      omega
    · have := flag_of_allRookMoves h
      omega
  exact nodup_append_of_flag (fun f => 6 < f ∨ f ≤ 4) s5 (allQueenMoves_nodup b) f5
    (fun m h => by have := flag_of_allQueenMoves h; omega)

/-- The move list of `legalMoves` holds no move twice. -/
theorem legalMoves_nodup (Z : Zobrist) (b : Board) (u : Bool) : (b.legalMoves Z u).Nodup := by
  rw [legalMoves_eq]
  refine nodup_append_of_flag (fun f => f = 6) (kingMoves_nodup _ _ _) ?_
    (fun m h => (mem_kingMoves.mp h).2.1) ?_
  · split_ifs
    · exact List.nodup_nil
    · exact nonKingMoves_nodup Z b u
  · intro m h
    split_ifs at h
    · simp at h
    · exact flag_of_nonKingMoves h

end Board
namespace Board

/-- C2 (amended): completeness of `legalMoves`. In a valid position whose en-passant square is
consistent with the board (when it is set, the pawn that made the double push stands in front of
it), every pseudo-legal move of the side to move that leaves its own king unattacked once
`makeMove` has made it is in the list `legalMoves` returns with underpromotions, and that list
holds no move twice. -/
theorem legalMoves_complete_nodup (Z : Zobrist) (b : Board) (hv : b.Valid)
    (hepc : b.enPassantConsistent = true) :
    (∀ m : Move, b.PseudoLegal m → b.KingSafeAfter Z m → m ∈ b.legalMoves Z true)
      ∧ (b.legalMoves Z true).Nodup :=
  ⟨fun _ hp hsafe => legalMoves_complete Z hv hepc hp hsafe, legalMoves_nodup Z b true⟩

/-- The completeness of `legalMoves` at work: in the start position the double push `e2e4` is
pseudo-legal and leaves the white king unattacked, so it is in the list, and the list holds no
move twice. -/
theorem legalMoves_complete_nodup_witness :
    startBoard.Valid ∧ startBoard.enPassantConsistent = true
      ∧ startBoard.PseudoLegal ⟨12, 28, Move.PAWN_TWO_UP_FLAG⟩
      ∧ startBoard.KingSafeAfter Zobrist.sample ⟨12, 28, Move.PAWN_TWO_UP_FLAG⟩
      ∧ (⟨12, 28, Move.PAWN_TWO_UP_FLAG⟩ : Move) ∈ startBoard.legalMoves Zobrist.sample true
      ∧ (startBoard.legalMoves Zobrist.sample true).Nodup := by
  have hp : startBoard.PseudoLegal ⟨12, 28, Move.PAWN_TWO_UP_FLAG⟩ :=
    ⟨by decide, by decide, by decide!,
      Or.inr (Or.inr (Or.inl ⟨by decide!, by decide!, by decide!, by decide!, by decide!, rfl⟩))⟩
  have hs : startBoard.KingSafeAfter Zobrist.sample ⟨12, 28, Move.PAWN_TWO_UP_FLAG⟩ := by
    unfold KingSafeAfter
    decide!
  have h := legalMoves_complete_nodup Zobrist.sample startBoard (by decide!) (by decide!)
  exact ⟨by decide!, by decide!, hp, hs, h.1 _ hp hs, h.2⟩

/-- C2, as worded, fails: the position `5b1k/8/8/3nP3/1K6/8/8/8 w - d6 0 1` is valid (consistent
bitboards, one king a side, Black not in check) and names the en-passant square `d6` although
no black pawn stands on `d5`: a knight does, and it checks the white king on `b4`, as does the
bishop on `f8`. The en-passant capture `e5d6` is pseudo-legal, and `makeMove` takes the knight
off `d5` and blocks the bishop on `d6`, so the white king is not attacked after it; `legalMoves`
sees two checkers, returns king moves only, and leaves the capture out. -/
theorem legalMoves_incomplete_without_enPassant_consistency :
    ∃ b ∈ Board.ofFen Zobrist.sample "5b1k/8/8/3nP3/1K6/8/8/8 w - d6 0 1".toList,
      b.Valid ∧ b.enPassantConsistent = false ∧ ∃ m : Move, b.PseudoLegal m
        ∧ b.KingSafeAfter Zobrist.sample m ∧ m ∉ b.legalMoves Zobrist.sample true := by
  have key : ∃ b ∈ Board.ofFen Zobrist.sample "5b1k/8/8/3nP3/1K6/8/8/8 w - d6 0 1".toList,
      b.Valid ∧ b.enPassantConsistent = false
        ∧ has b.us 36 = true ∧ has b.pawns 36 = true ∧ b.mEnPassantSquare ≠ SQUARE_NONE
        ∧ 43 = b.mEnPassantSquare ∧ has (pawnAttacks 36 b.mColorToMove) 43 = true
        ∧ (b.makeMove Zobrist.sample ⟨36, 43, Move.EN_PASSANT_FLAG⟩).isSquareAttacked
            (lsb ((b.makeMove Zobrist.sample ⟨36, 43, Move.EN_PASSANT_FLAG⟩).colorBb b.mColorToMove
              &&& (b.makeMove Zobrist.sample ⟨36, 43, Move.EN_PASSANT_FLAG⟩).kings))
            (oppColor b.mColorToMove) = false
        ∧ (⟨36, 43, Move.EN_PASSANT_FLAG⟩ : Move) ∉ b.legalMoves Zobrist.sample true := by
    decide!
  obtain ⟨b, hb, hv, hepc, h1, h2, h3, h4, h5, h6, h7⟩ := key
  exact ⟨b, hb, hv, hepc, ⟨36, 43, Move.EN_PASSANT_FLAG⟩,
    ⟨by decide, by decide, h1,
      Or.inr (Or.inr (Or.inr (Or.inr (Or.inl ⟨h2, h3, h4, h5, rfl⟩))))⟩, h6, h7⟩

end Board
namespace Board

/-- C33: `legalMoves` leaves the board unchanged. For every board, whether or not it has an
en-passant square, the board after `legalMoves` returns is the board before the call: colour
bitboards, piece-type bitboards, hash, castling rights, en-passant square, counters and hash
history are those the call found; and each turn of the en-passant loop, whatever the outcome
of its test, leaves the board as it found it. -/
theorem legalMoves_leaves_board (Z : Zobrist) (b : Board) (underpromotions : Bool) :
    (b.legalMovesAux Z underpromotions).2 = b
    ∧ (b.legalMovesAux Z underpromotions).2.white = b.white
    ∧ (b.legalMovesAux Z underpromotions).2.black = b.black
    ∧ (∀ p, (b.legalMovesAux Z underpromotions).2.pieceBb p = b.pieceBb p)
    ∧ (b.legalMovesAux Z underpromotions).2.mZobristHash = b.mZobristHash
    ∧ (b.legalMovesAux Z underpromotions).2.mCastlingRights = b.mCastlingRights
    ∧ (b.legalMovesAux Z underpromotions).2.mEnPassantSquare = b.mEnPassantSquare
    ∧ (b.legalMovesAux Z underpromotions).2.mPliesSincePawnOrCapture = b.mPliesSincePawnOrCapture
    ∧ (b.legalMovesAux Z underpromotions).2.mCurrentMoveCounter = b.mCurrentMoveCounter
    ∧ (b.legalMovesAux Z underpromotions).2.mZobristHashes = b.mZobristHashes
    ∧ ∀ (moves : List Move) (ourPawnSquare : Nat),
        (enPassantStep Z (b, moves) ourPawnSquare).1 = b := by
  rw [legalMovesAux_snd]
  exact ⟨rfl, rfl, rfl, fun _ => rfl, rfl, rfl, rfl, rfl, rfl, rfl,
    fun moves p => enPassantStep_fst Z (b, moves) p⟩

end Board
namespace Board

/-- A castling move is in the list of `legalMoves` exactly when the castling step pushes it. -/
theorem mem_legalMoves_castling_iff {Z : Zobrist} {b : Board} {u : Bool} {m : Move}
    (hflag : m.flag = Move.CASTLING_FLAG) :
    m ∈ b.legalMoves Z u
      ↔ m ∈ castlingMoves b b.kingSquare b.occupancy b.theirAttacks (popcount b.checkers) := by
  have h7 : m.flag = 7 := hflag
  rw [legalMoves_eq, List.mem_append]
  constructor
  · rintro (h | h)
    · have := (mem_kingMoves.mp h).2.1
      simp only [Move.KING_FLAG] at this
      omega
    · split_ifs at h
      · simp at h
      · unfold nonKingMoves at h
        simp only [List.mem_append] at h
        rcases h with (((((h | h) | h) | h) | h) | h) | h
        · exact h
        · have := (mem_enPassantMoves.mp h).2.2.1
          simp only [Move.EN_PASSANT_FLAG] at this
          omega
        · have := flag_of_allPawnMoves h
          omega
        · have := flag_of_allKnightMoves h
          omega
        · have := flag_of_allBishopMoves h
          omega
        · have := flag_of_allRookMoves h
          omega
        · have := flag_of_allQueenMoves h
          omega
  · intro h
    have h0 := (mem_castlingMoves.mp h).1
    right
    rw [if_neg (by omega)]
    unfold nonKingMoves
    simp only [List.mem_append]
    tauto

/-- The side to move is not in check exactly when `checkers()` is empty. -/
theorem checkers_zero_iff {b : Board} (hv : b.Valid) :
    popcount b.checkers = 0 ↔ b.inCheck = false := by
  constructor
  · intro h
    by_contra hc
    simp only [Bool.not_eq_false] at hc
    obtain ⟨s, p, hsp⟩ := (inCheck_iff b).mp hc
    have hs : has b.checkers s = true := (has_checkers b s).mpr ⟨p, hsp⟩
    have hs64 : s < 64 := hv.color_lt hsp.1
    have : s ∈ bits b.checkers := mem_bits_iff.mpr ⟨hs64, hs⟩
    unfold popcount at h
    rw [List.length_eq_zero] at h
    rw [h] at this
    cases this
  · intro h
    exact checkers_zero_of_safe h

end Board
namespace Board

/-- The target of a move of a piece other than the king, when it is neither castling nor an
en-passant capture, is in `movableBb`. -/
theorem movable_of_mem {Z : Zobrist} {b : Board} {u : Bool} {m : Move}
    (hm : m ∈ b.nonKingMoves Z u) (h1 : m.flag ≠ Move.CASTLING_FLAG)
    (h2 : m.flag ≠ Move.EN_PASSANT_FLAG) : has b.movable m.toSq = true := by
  unfold nonKingMoves at hm
  simp only [List.mem_append] at hm
  rcases hm with (((((h | h) | h) | h) | h) | h) | h
  · exact absurd (mem_castlingMoves_flag h).1 h1
  · exact absurd (mem_enPassantMoves.mp h).2.2.1 h2
  · obtain ⟨s, _, hs⟩ := List.mem_flatMap.mp h
    obtain ⟨_, hc⟩ := mem_pawnMoves.mp hs
    rcases hc with ⟨_, ht, _⟩ | ⟨_, _, _, ⟨hmv, hto, _⟩ | ⟨_, hmv, _, hto, _⟩⟩
    · exact (has_pawnCaptureTargets.mp ht).2.2.1
    · rw [hto]
      exact hmv
    · rw [hto]
      exact hmv
  · obtain ⟨s, _, hs⟩ := List.mem_flatMap.mp h
    exact (mem_knightMoves.mp hs).2.2.2.2.2
  · obtain ⟨s, _, hs⟩ := List.mem_flatMap.mp h
    exact (mem_bishopMoves.mp hs).2.2.2.2.2.1
  · obtain ⟨s, _, hs⟩ := List.mem_flatMap.mp h
    exact (mem_rookMoves.mp hs).2.2.2.2.2.1
  · obtain ⟨s, _, hs⟩ := List.mem_flatMap.mp h
    exact (mem_queenMoves.mp hs).2.2.2.2.2.1

/-- The en-passant captures of the list leave the king of the side that moved unattacked. -/
theorem kingSafeAfter_of_enPassant {Z : Zobrist} {b : Board} {m : Move}
    (hm : m ∈ b.enPassantMoves Z) : b.KingSafeAfter Z m := by
  obtain ⟨_, ht, hflag, _, _, _, _, hsafe⟩ := mem_enPassantMoves.mp hm
  have e := inCheck_enPassantMade Z b hflag ht
  unfold them at e
  rw [mColorToMove_makeMove, oppColor_oppColor] at e
  unfold KingSafeAfter
  rw [e]
  exact hsafe

/-- C32 (amended): check evasion. In a valid position whose en-passant square agrees with the
pieces and in which the side to move is in check, for every move of `legalMoves` that is not a
king move there is a checking piece, on `c`, that the move captures, by going to `c` or, for an
en-passant capture, by taking the pawn on `c` behind the en-passant square, or that is a
bishop, rook or queen with the target square of the move strictly between the king and `c`.
When two or more pieces give check, every move of `legalMoves` is a king move: it starts on the
king square with the king flag, so none is castling. -/
theorem check_evasion (Z : Zobrist) (b : Board) (hv : b.Valid)
    (hepc : b.enPassantConsistent = true) (underpromotions : Bool) :
    (b.inCheck = true → ∀ m ∈ b.legalMoves Z underpromotions, m.flag ≠ Move.KING_FLAG →
      ∃ c p, b.IsAttacker b.occupancy b.kingSquare (oppColor b.mColorToMove) c p
        ∧ ((m.flag ≠ Move.EN_PASSANT_FLAG ∧ m.toSq = c)
          ∨ (m.flag = Move.EN_PASSANT_FLAG
              ∧ (if b.mColorToMove = .WHITE then subSq m.toSq 8 else addSq m.toSq 8) = c)
          ∨ ((p = .BISHOP ∨ p = .ROOK ∨ p = .QUEEN)
              ∧ isBetween b.kingSquare m.toSq c = true)))
    ∧ (2 ≤ popcount b.checkers → ∀ m ∈ b.legalMoves Z underpromotions,
        m.fromSq = b.kingSquare ∧ m.flag = Move.KING_FLAG
          ∧ m.flag ≠ Move.CASTLING_FLAG) := by
  constructor
  · intro hin m hm hflag
    obtain ⟨c0, p0, hatt0⟩ := (inCheck_iff b).mp hin
    have hpos : popcount b.checkers ≠ 0 := by
      intro h0
      rw [(checkers_zero_iff hv).mp h0] at hin
      exact Bool.noConfusion hin
    rw [legalMoves_eq, List.mem_append] at hm
    rcases hm with hm | hm
    · exact absurd (mem_kingMoves.mp hm).2.1 hflag
    · by_cases hgt : popcount b.checkers > 1
      · rw [if_pos hgt] at hm
        cases hm
      · rw [if_neg hgt] at hm
        have hle : popcount b.checkers ≤ 1 := by omega
        by_cases h1 : m.flag = Move.CASTLING_FLAG
        · exfalso
          have hc : m ∈ castlingMoves b b.kingSquare b.occupancy b.theirAttacks
              (popcount b.checkers) := by
            refine (mem_legalMoves_castling_iff (Z := Z) (u := underpromotions) h1).mp ?_
            rw [legalMoves_eq, List.mem_append, if_neg hgt]
            exact Or.inr hm
          exact hpos (mem_castlingMoves.mp hc).1
        · by_cases h2 : m.flag = Move.EN_PASSANT_FLAG
          · have hep : m ∈ b.enPassantMoves Z := by
              refine (mem_legalMoves_enPassant Z hv hle underpromotions h2).mp ?_
              rw [legalMoves_eq, List.mem_append, if_neg hgt]
              exact Or.inr hm
            rcases enPassant_checker_met Z hv hepc (enPassantMove_of_mem hep)
              (kingSafeAfter_of_enPassant hep) c0 p0 hatt0 with h | h
            · exact ⟨c0, p0, hatt0, Or.inr (Or.inl ⟨h2, h⟩)⟩
            · exact ⟨c0, p0, hatt0, Or.inr (Or.inr h)⟩
          · have hmv := movable_of_mem hm h1 h2
            rcases ((has_movable hv hle m.toSq).mp hmv).2 c0 p0 hatt0 with h | h
            · exact ⟨c0, p0, hatt0, Or.inl ⟨h2, h⟩⟩
            · exact ⟨c0, p0, hatt0, Or.inr (Or.inr h)⟩
  · intro h2 m hm
    rw [legalMoves_eq, if_pos (by omega), List.append_nil] at hm
    obtain ⟨hf, hflag, _⟩ := mem_kingMoves.mp hm
    refine ⟨hf, hflag, ?_⟩
    rw [hflag]
    decide

/-- Check evasion at work: in `4k3/8/8/8/8/8/3N4/r3K3 w - - 0 1` the rook on `a1` checks the
white king on `e1`, and the knight move `d2b1`, which is in the list, goes to a square strictly
between the king and the rook. -/
theorem check_evasion_witness :
    (sampleBoard "4k3/8/8/8/8/8/3N4/r3K3 w - - 0 1").Valid
    ∧ (sampleBoard "4k3/8/8/8/8/8/3N4/r3K3 w - - 0 1").enPassantConsistent = true
    ∧ (sampleBoard "4k3/8/8/8/8/8/3N4/r3K3 w - - 0 1").inCheck = true
    ∧ (⟨11, 1, Move.KNIGHT_FLAG⟩ : Move)
        ∈ (sampleBoard "4k3/8/8/8/8/8/3N4/r3K3 w - - 0 1").legalMoves Zobrist.sample true
    ∧ ∃ c p, (sampleBoard "4k3/8/8/8/8/8/3N4/r3K3 w - - 0 1").IsAttacker
          (sampleBoard "4k3/8/8/8/8/8/3N4/r3K3 w - - 0 1").occupancy
          (sampleBoard "4k3/8/8/8/8/8/3N4/r3K3 w - - 0 1").kingSquare .BLACK c p
        ∧ ((Move.KNIGHT_FLAG ≠ Move.EN_PASSANT_FLAG ∧ 1 = c)
          ∨ (Move.KNIGHT_FLAG = Move.EN_PASSANT_FLAG ∧ subSq 1 8 = c)
          ∨ ((p = .BISHOP ∨ p = .ROOK ∨ p = .QUEEN)
              ∧ isBetween (sampleBoard "4k3/8/8/8/8/8/3N4/r3K3 w - - 0 1").kingSquare 1 c
                = true)) :=
  ⟨by decide!, by decide!, by decide!, by decide!,
    (check_evasion Zobrist.sample (sampleBoard "4k3/8/8/8/8/8/3N4/r3K3 w - - 0 1")
      (by decide!) (by decide!) true).1 (by decide!) ⟨11, 1, Move.KNIGHT_FLAG⟩ (by decide!)
      (by decide)⟩

/-- C32, as worded, fails: the position `b3k3/8/8/2P5/8/8/6K1/8 w - d6 0 1` is valid and names
the en-passant square `d6` although `d5` is empty. The bishop on `a8` checks the white king on
`g2`. The en-passant capture `c5d6` is in the list: `makeMove` toggles a black pawn onto `d5`,
which blocks the check. It is not a king move, it does not take the bishop, and `d6` is not
between the king and the bishop. -/
theorem check_evasion_fails_without_enPassant_consistency :
    ∃ b ∈ Board.ofFen Zobrist.sample "b3k3/8/8/2P5/8/8/6K1/8 w - d6 0 1".toList,
      b.Valid ∧ b.enPassantConsistent = false ∧ b.inCheck = true
        ∧ (⟨34, 43, Move.EN_PASSANT_FLAG⟩ : Move) ∈ b.legalMoves Zobrist.sample true
        ∧ bits b.checkers = [56]
        ∧ isBetween b.kingSquare 43 56 = false
        ∧ has (b.makeMove Zobrist.sample ⟨34, 43, Move.EN_PASSANT_FLAG⟩).black 56 = true
        ∧ has ((b.makeMove Zobrist.sample ⟨34, 43, Move.EN_PASSANT_FLAG⟩).black
            &&& (b.makeMove Zobrist.sample ⟨34, 43, Move.EN_PASSANT_FLAG⟩).pawns) 35 = true := by
  decide!

end Board
namespace Board

/-- The moves of `legalMoves` lead from a valid position whose castling rights and en-passant
square agree with the pieces to such positions only. -/
theorem Reachable.consistent (Z : Zobrist) {b0 b : Board} (hv : b0.Valid)
    (hc : b0.castlingConsistent = true) (hep : b0.enPassantConsistent = true)
    (hr : Reachable Z b0 b) :
    b.Valid ∧ b.castlingConsistent = true ∧ b.enPassantConsistent = true := by
  induction hr with
  | start => exact ⟨hv, hc, hep⟩
  | move _ hm ih =>
    obtain ⟨i1, i2, i3⟩ := ih
    exact ⟨valid_makeMove Z i1 i2 i3 hm, castlingConsistent_makeMove Z i1 i2 hm,
      enPassantConsistent_makeMove Z i1 i2 hm⟩

/-- A right that the side to move holds finds its king on the home square. -/
theorem kingSquare_of_right {b : Board} (hv : b.Valid) (hc : b.castlingConsistent = true)
    {side : Nat} (hside : side = CASTLE_SHORT ∨ side = CASTLE_LONG)
    (hr : b.mCastlingRights &&& CASTLING_MASKS b.mColorToMove side ≠ 0) :
    b.kingSquare = kingHome b.mColorToMove := by
  obtain ⟨_, a2⟩ := (castlingConsistent_iff b).mp hc
  have key : ∃ R, (b.mColorToMove = Color.WHITE ∧ (R = 7 ∨ R = 0)
      ∨ b.mColorToMove = Color.BLACK ∧ (R = 63 ∨ R = 56))
      ∧ CASTLING_MASKS b.mColorToMove side = 1 <<< R := by
    cases hcol : b.mColorToMove <;> rcases hside with rfl | rfl
    · exact ⟨7, Or.inl ⟨rfl, Or.inl rfl⟩, rfl⟩
    · exact ⟨0, Or.inl ⟨rfl, Or.inr rfl⟩, rfl⟩
    · exact ⟨63, Or.inr ⟨rfl, Or.inl rfl⟩, rfl⟩
    · exact ⟨56, Or.inr ⟨rfl, Or.inr rfl⟩, rfl⟩
  obtain ⟨R, hR, hmask⟩ := key
  rw [hmask, and_bit_ne_zero] at hr
  obtain ⟨k1, k2, _, _⟩ := a2 b.mColorToMove R hR hr
  exact ((hv.kingSquare_spec.2 _).mp ⟨k1, k2⟩).symm

/-- C35 (amended): castling rights imply home squares. In a valid position in which every
held castling right finds the king of its colour on its home square and a rook of its colour
in the corner of the right, the same holds after `makeMove` of any move of `legalMoves`
(last part; the en-passant square plays no role in this step). If the en-passant square
agrees with the pieces as well, the same holds in every position `b` that moves of
`legalMoves` lead to. Hence, when the side to move in `b` holds a castling right, its king
stands on `e1` or `e8`, and the squares `k + 1`, `k + 2`, `k - 1`, `k - 2`, `k - 3` that the
castling step of `legalMoves` computes from the king square `k` lie on the rank of the king,
none of them wrapping in the `u8` type of squares. -/
theorem castling_rights_imply_home (Z : Zobrist) (b0 b : Board) (hv : b0.Valid)
    (hc : b0.castlingConsistent = true) (hep : b0.enPassantConsistent = true)
    (hr : Reachable Z b0 b) :
    b.castlingConsistent = true
    ∧ (∀ c R, (c = Color.WHITE ∧ (R = 7 ∨ R = 0) ∨ c = Color.BLACK ∧ (R = 63 ∨ R = 56)) →
        has b.mCastlingRights R = true →
        has (b.colorBb c) (kingHome c) = true ∧ has b.kings (kingHome c) = true
          ∧ has (b.colorBb c) R = true ∧ has b.rooks R = true)
    ∧ (∀ (u : Bool) (m : Move), m ∈ b.legalMoves Z u →
        (b.makeMove Z m).castlingConsistent = true)
    ∧ (∀ side, side = CASTLE_SHORT ∨ side = CASTLE_LONG →
        b.mCastlingRights &&& CASTLING_MASKS b.mColorToMove side ≠ 0 →
        b.kingSquare = kingHome b.mColorToMove
        ∧ addSq b.kingSquare 1 = b.kingSquare + 1 ∧ addSq b.kingSquare 2 = b.kingSquare + 2
        ∧ subSq b.kingSquare 1 = b.kingSquare - 1 ∧ subSq b.kingSquare 2 = b.kingSquare - 2
        ∧ subSq b.kingSquare 3 = b.kingSquare - 3
        ∧ squareRank (b.kingSquare + 1) = squareRank b.kingSquare
        ∧ squareRank (b.kingSquare + 2) = squareRank b.kingSquare
        ∧ squareRank (b.kingSquare - 1) = squareRank b.kingSquare
        ∧ squareRank (b.kingSquare - 2) = squareRank b.kingSquare
        ∧ squareRank (b.kingSquare - 3) = squareRank b.kingSquare)
    ∧ (∀ p : Board, p.Valid → p.castlingConsistent = true →
        ∀ (u : Bool) (m : Move), m ∈ p.legalMoves Z u →
          (p.makeMove Z m).castlingConsistent = true) := by
  obtain ⟨i1, i2, i3⟩ := hr.consistent Z hv hc hep
  refine ⟨i2, ((castlingConsistent_iff b).mp i2).2,
    fun u m hm => castlingConsistent_makeMove Z i1 i2 hm, ?_,
    fun p h1 h2 u m hm => castlingConsistent_makeMove Z h1 h2 hm⟩
  intro side hside hright
  have hk := kingSquare_of_right i1 i2 hside hright
  refine ⟨hk, ?_⟩
  rw [hk]
  cases b.mColorToMove <;> decide

/-- The invariant at work: after `e2e4` from the start position Black holds its short right,
and its king stands on `e8`. -/
theorem castling_rights_imply_home_witness :
    startBoard.Valid ∧ startBoard.castlingConsistent = true
    ∧ startBoard.enPassantConsistent = true
    ∧ Reachable Zobrist.sample startBoard
        (startBoard.makeMove Zobrist.sample ⟨12, 28, Move.PAWN_TWO_UP_FLAG⟩)
    ∧ (startBoard.makeMove Zobrist.sample ⟨12, 28, Move.PAWN_TWO_UP_FLAG⟩).kingSquare = 60 :=
  ⟨by decide!, by decide!, by decide!,
    Reachable.move (u := true) Reachable.start (by decide!),
    ((castling_rights_imply_home Zobrist.sample startBoard _ (by decide!) (by decide!)
      (by decide!) (Reachable.move (u := true) Reachable.start (by decide!))).2.2.2.1
      CASTLE_SHORT (Or.inl rfl) (by decide!)).1⟩

/-- C35, as worded, fails on a board in which the side that is not to move is in check. In
`4k2r/4R3/8/8/8/8/8/4K3 w k - 0 1` the one right that is held, Black's short one, finds the
black king on `e8` and a black rook on `h8`. The rook move `e7e8` is in the list; it takes the
king, and leaves the right held: after it no black king stands on `e8`, and the king square
that `legalMoves` computes for Black is 64, off the board. -/
theorem castling_rights_lost_home_when_king_taken :
    ∃ b ∈ Board.ofFen Zobrist.sample "4k2r/4R3/8/8/8/8/8/4K3 w k - 0 1".toList,
      b.castlingConsistent = true
        ∧ (⟨52, 60, Move.ROOK_FLAG⟩ : Move) ∈ b.legalMoves Zobrist.sample true
        ∧ has (b.makeMove Zobrist.sample ⟨52, 60, Move.ROOK_FLAG⟩).mCastlingRights 63 = true
        ∧ has (b.makeMove Zobrist.sample ⟨52, 60, Move.ROOK_FLAG⟩).kings 60 = false
        ∧ (b.makeMove Zobrist.sample ⟨52, 60, Move.ROOK_FLAG⟩).castlingConsistent = false
        ∧ (b.makeMove Zobrist.sample ⟨52, 60, Move.ROOK_FLAG⟩).kingSquare = 64 := by
  decide!

end Board
namespace Board

end Board
namespace Board

end Board
namespace Node

variable {V : Type} [LinearOrderedField V]

/-- An iteration keeps the invariant that a node with a grandchild has all its children. -/
theorem Iterated.grandFull {env : SearchEnv V} {board : Board} {n n1 : Node V} {wdl : V}
    (h : Iterated env board n n1 wdl) (hn : GrandFull n) : GrandFull n1 := by
  induction h with
  | terminal board n rng rng1 wdl _ _ =>
    exact All.of_mem (All.here hn) (fun c hc => All.mem hn hc)
  | expanded board n move child board1 rng rng1 rng2 wdl _ hroom _ hnew _ =>
    obtain ⟨f1, _⟩ := new_facts hnew
    refine All.of_mem ?_ (fun c hc => ?_)
    · rintro ⟨c, hc, hcc⟩
      exfalso
      have hc1 : c ∈ n.mChildren ++ [child.visit env (-wdl)] := hc
      rcases List.mem_append.mp hc1 with hc | hc
      · have := All.here hn ⟨c, hc, hcc⟩
        omega
      · rw [List.mem_singleton] at hc
        subst hc
        exact hcc f1
    · have hc1 : c ∈ n.mChildren ++ [child.visit env (-wdl)] := hc
      rcases List.mem_append.mp hc1 with hc | hc
      · exact All.mem hn hc
      · rw [List.mem_singleton] at hc
        subst hc
        refine All.of_mem ?_ (fun x hx => ?_)
        · rintro ⟨x, hx, _⟩
          have : x ∈ child.mChildren := hx
          rw [f1] at this
          cases this
        · have : x ∈ child.mChildren := hx
          rw [f1] at this
          cases this
  | descended board n i move c c1 wdl _ hfull _ _ hchild _ ih =>
    refine All.of_mem ?_ (fun x hx => ?_)
    · intro _
      show (n.mChildren.set i c1).length = n.mMoves.length
      rw [List.length_set]
      exact hfull
    · have hx1 : x ∈ n.mChildren.set i c1 := hx
      rcases List.mem_or_eq_of_mem_set hx1 with hx | hx
      · exact All.mem hn hx
      · subst hx
        exact ih (All.child hn hchild)

/-- An iteration leaves a node that has all its children with the children it has: the node at
the end of the same path has as many, and the same moves. -/
theorem Iterated.full_kept {env : SearchEnv V} {board : Board} {n n1 : Node V} {wdl : V}
    (h : Iterated env board n n1 wdl) : ∀ (p : List Nat) (m : Node V), n.get? p = some m →
    m.mChildren.length = m.mMoves.length →
    ∃ m1, n1.get? p = some m1 ∧ m1.mChildren.length = m.mChildren.length
      ∧ m1.mMoves = m.mMoves := by
  induction h with
  | terminal board n rng rng1 wdl _ _ =>
    intro p m hm _
    cases p with
    | nil =>
      rw [get?_nil] at hm
      cases hm
      exact ⟨_, get?_nil _, rfl, rfl⟩
    | cons i q =>
      refine ⟨m, ?_, rfl, rfl⟩
      rw [get?_cons] at hm ⊢
      exact hm
  | expanded board n move child board1 rng rng1 rng2 wdl _ hroom _ _ _ =>
    intro p m hm hfull
    cases p with
    | nil =>
      rw [get?_nil] at hm
      cases hm
      omega
    | cons i q =>
      refine ⟨m, ?_, rfl, rfl⟩
      rw [get?_cons] at hm
      cases hc : n.mChildren.get? i with
      | none => rw [hc] at hm; cases hm
      | some c =>
        rw [hc] at hm
        have hi : i < n.mChildren.length := by
          rw [List.get?_eq_some] at hc
          exact hc.1
        have hc1 : (visit env { n with mChildren := n.mChildren ++ [child.visit env (-wdl)] }
            wdl).mChildren.get? i = some c := by
          show (n.mChildren ++ [child.visit env (-wdl)]).get? i = some c
          rw [List.get?_eq_getElem?, List.getElem?_append_left hi, ← List.get?_eq_getElem?]
          exact hc
        rw [get?_cons_of hc1]
        exact hm
  | descended board n i move c c1 wdl _ hfull _ _ hchild _ ih =>
    intro p m hm hmfull
    cases p with
    | nil =>
      rw [get?_nil] at hm
      cases hm
      refine ⟨_, get?_nil _, ?_, rfl⟩
      show (n.mChildren.set i c1).length = n.mChildren.length
      rw [List.length_set]
    | cons j q =>
      rw [get?_cons] at hm
      cases hc : n.mChildren.get? j with
      | none => rw [hc] at hm; cases hm
      | some x =>
        rw [hc] at hm
        by_cases hj : i = j
        · subst hj
          rw [hchild] at hc
          cases hc
          obtain ⟨m1, hm1, h1, h2⟩ := ih q m hm hmfull
          have hi : i < n.mChildren.length := by
            rw [List.get?_eq_some] at hchild
            exact hchild.1
          have hc1 : (visit env { n with mChildren := n.mChildren.set i c1 }
              (-wdl)).mChildren.get? i = some c1 := by
            show (n.mChildren.set i c1).get? i = some c1
            rw [List.get?_eq_getElem?, List.getElem?_set_self hi]
          exact ⟨m1, by rw [get?_cons_of hc1]; exact hm1, h1, h2⟩
        · have hc1 : (visit env { n with mChildren := n.mChildren.set i c1 }
              (-wdl)).mChildren.get? j = some x := by
            show (n.mChildren.set i c1).get? j = some x
            rw [List.get?_eq_getElem?, List.getElem?_set_ne hj, ← List.get?_eq_getElem?]
            exact hc
          exact ⟨m, by rw [get?_cons_of hc1]; exact hm, rfl, rfl⟩

end Node

section Search

variable {V : Type} [LinearOrderedField V]

/-- In the tree of every state of the loop a node with a grandchild has all its children. -/
theorem searchStates_grandFull (env : SearchEnv V) (rootBoard : Board)
    (hmoves : rootBoard.legalMoves env.Z false ≠ []) : ∀ (n : Nat) (s : SearchState V),
    searchStates env rootBoard n = some s → s.root.GrandFull
  | 0, s, h => by
    rw [searchStates, searchInit_eq env rootBoard hmoves] at h
    cases h
    refine Node.All.of_mem ?_ (fun c hc => ?_)
    · rintro ⟨c, hc, _⟩
      cases hc
    · cases hc
  | n + 1, s, h => by
    rw [searchStates_succ] at h
    cases h0 : searchStates env rootBoard n with
    | none => rw [h0] at h; cases h
    | some s0 =>
      rw [h0] at h
      simp only [Option.some_bind] at h
      obtain ⟨⟨wdl, hit⟩, _, _⟩ := searchIteration_eq_some h
      exact hit.grandFull (searchStates_grandFull env rootBoard hmoves n s0 h0)

/-- A node that has all its children keeps them, as many, in every later state of the loop. -/
theorem searchStates_full_kept (env : SearchEnv V) (rootBoard : Board) (n : Nat)
    (s : SearchState V) (hs : searchStates env rootBoard n = some s) (p : List Nat)
    (m : Node V) (hm : s.root.get? p = some m)
    (hfull : m.mChildren.length = m.mMoves.length) : ∀ (k : Nat) (s1 : SearchState V),
    searchStates env rootBoard (n + k) = some s1 →
    ∃ m1, s1.root.get? p = some m1 ∧ m1.mChildren.length = m.mChildren.length
      ∧ m1.mMoves = m.mMoves
  | 0, s1, h => by
    rw [Nat.add_zero, hs] at h
    cases h
    exact ⟨m, hm, rfl, rfl⟩
  | k + 1, s1, h => by
    rw [← Nat.add_assoc, searchStates_succ] at h
    cases h0 : searchStates env rootBoard (n + k) with
    | none => rw [h0] at h; cases h
    | some s0 =>
      rw [h0] at h
      simp only [Option.some_bind] at h
      obtain ⟨m0, g1, g2, g3⟩ := searchStates_full_kept env rootBoard n s hs p m hm hfull k s0 h0
      obtain ⟨⟨wdl, hit⟩, _, _⟩ := searchIteration_eq_some h
      obtain ⟨m1, e1, e2, e3⟩ := hit.full_kept p m0 g1 (by rw [g2, g3]; exact hfull)
      exact ⟨m1, e1, e2.trans g2, e3.trans g3⟩

end Search
section Search

variable {V : Type} [LinearOrderedField V]

/-- C36: child lists stop growing before grandchildren exist. On a root position with a legal
move, in the tree of every state of the loop: the node that `select` returns, when it is
`ONGOING` so that `expand` is called on it, has fewer children than moves, and every child it
has is childless; every node that has a grandchild has as many children as moves, and in every
later state of the loop the node at the end of the same path has the same number of children
and the same moves: it receives no other child. So the children that an append to a child list
moves are childless, and no node has one of them as its parent. -/
theorem children_stop_growing (env : SearchEnv V) (rootBoard : Board)
    (hmoves : rootBoard.legalMoves env.Z false ≠ []) (n : Nat) (s : SearchState V)
    (hs : searchStates env rootBoard n = some s) :
    (∀ path board node, s.root.select env s.board = some (path, board) →
        s.root.get? path = some node → node.mGameState = .ONGOING →
        node.mChildren.length < node.mMoves.length
        ∧ ∀ c ∈ node.mChildren, c.mChildren = [])
    ∧ (∀ p m, s.root.get? p = some m → (∃ c ∈ m.mChildren, c.mChildren ≠ []) →
        m.mChildren.length = m.mMoves.length
        ∧ ∀ k s1, searchStates env rootBoard (n + k) = some s1 →
            ∃ m1, s1.root.get? p = some m1 ∧ m1.mChildren.length = m.mChildren.length
              ∧ m1.mMoves = m.mMoves) := by
  have hg := searchStates_grandFull env rootBoard hmoves n s hs
  have hp := searchStates_placed env rootBoard hmoves n s hs
  constructor
  · intro path board node hsel hget hst
    obtain ⟨leaf, hS⟩ := Node.select_selected env _ _ _ _ hsel
    have e : node = leaf := Option.some.inj (hget.symm.trans hS.get?)
    subst e
    have hne : node.mChildren.length ≠ node.mMoves.length := by
      rcases hS.leaf with h | h
      · exact absurd hst h
      · exact h
    refine ⟨lt_of_le_of_ne (hp path node hget).1 hne, fun c hc => ?_⟩
    by_contra hcc
    exact hne (hg path node hget ⟨c, hc, hcc⟩)
  · intro p m hm hgrand
    have hfull := hg p m hm hgrand
    exact ⟨hfull, searchStates_full_kept env rootBoard n s hs p m hm hfull⟩

end Search

/-- The invariant at work. In `8/7p/8/8/8/8/2k5/K7 w - - 0 1` White has one legal move, after
which Black has seven. In the state after two iterations the root has its one child, and that
child has one child, a grandchild of the root. `select` goes down into the child of the root
and returns it; it is `ONGOING`, so that `expand` is called on it: it has one child of seven,
and that child is childless. The root, which has a grandchild, has all its children, and keeps
their number in every later state. -/
theorem children_stop_growing_witness :
    (Board.sampleBoard "8/7p/8/8/8/8/2k5/K7 w - - 0 1").legalMoves SearchEnv.sample.Z false ≠ []
    ∧ ∃ s board node, searchStates SearchEnv.sample
          (Board.sampleBoard "8/7p/8/8/8/8/2k5/K7 w - - 0 1") 2 = some s
        ∧ s.root.select SearchEnv.sample s.board = some ([0], board)
        ∧ s.root.get? [0] = some node ∧ node.mGameState = .ONGOING
        ∧ node.mChildren.length = 1 ∧ node.mMoves.length = 7
        ∧ (node.mChildren.length < node.mMoves.length ∧ ∀ c ∈ node.mChildren, c.mChildren = [])
        ∧ (∃ c ∈ s.root.mChildren, c.mChildren ≠ [])
        ∧ s.root.mChildren.length = s.root.mMoves.length
        ∧ ∀ k s1, searchStates SearchEnv.sample
              (Board.sampleBoard "8/7p/8/8/8/8/2k5/K7 w - - 0 1") (2 + k) = some s1 →
            ∃ m1, s1.root.get? [] = some m1
              ∧ m1.mChildren.length = s.root.mChildren.length ∧ m1.mMoves = s.root.mMoves := by
  have hm : (Board.sampleBoard "8/7p/8/8/8/8/2k5/K7 w - - 0 1").legalMoves SearchEnv.sample.Z
      false ≠ [] := by decide!
  have hfacts : ((searchStates SearchEnv.sample
      (Board.sampleBoard "8/7p/8/8/8/8/2k5/K7 w - - 0 1") 2).bind (fun s =>
        (s.root.select SearchEnv.sample s.board).bind (fun r =>
          (s.root.get? r.1).map (fun node =>
            (r.1, node.mGameState, node.mChildren.length, node.mMoves.length,
              s.root.mChildren.map (fun c => c.mChildren.length))))))
      = some ([0], .ONGOING, 1, 7, [1]) := by decide!
  obtain ⟨s, hs, h1⟩ := Option.bind_eq_some.mp hfacts
  obtain ⟨⟨path, board⟩, hsel, h2⟩ := Option.bind_eq_some.mp h1
  obtain ⟨node, hget, h3⟩ := Option.map_eq_some'.mp h2
  simp only [Prod.mk.injEq] at h3
  obtain ⟨rfl, hst, hlen, hmv, hroot⟩ := h3
  have hgrand : ∃ c ∈ s.root.mChildren, c.mChildren ≠ [] := by
    cases hc : s.root.mChildren with
    | nil => rw [hc] at hroot; cases hroot
    | cons c cs =>
      rw [hc] at hroot
      simp only [List.map_cons, List.cons.injEq] at hroot
      refine ⟨c, List.mem_cons_self _ _, fun e => ?_⟩
      rw [e] at hroot
      exact absurd hroot.1 (by decide)
  obtain ⟨g1, g2⟩ := children_stop_growing SearchEnv.sample
    (Board.sampleBoard "8/7p/8/8/8/8/2k5/K7 w - - 0 1") hm 2 s hs
  obtain ⟨g3, g4⟩ := g2 [] s.root (Node.get?_nil _) hgrand
  exact ⟨hm, s, board, node, hs, hsel, hget, hst, hlen, hmv, g1 [0] board node hsel hget hst,
    hgrand, g3, g4⟩
section Search

variable {V : Type} [LinearOrderedField V]

/-- `UCT` is well defined below the wrap of the `u32` visit count. On a root position with a
legal move, with `EVAL_SCALE` not zero, the state after `n` iterations of the loop exists for
every `n < 2^32`, and in its tree every node that is not the root, the child `c` with some
index `i` of a node `parent`, has a visit count of at least 1 and at most that of `parent`, so
that `parent` has a visit count of at least 1 too: the assertions of `UCT()` hold for `c`, its
visit count as a value is not zero, and `UCT()` returns
`mResultsSum / mVisits + UCT_C * sqrt(ln(parent visits) / mVisits)`. The states that the loop
of `search` goes through are these states. -/
theorem uct_well_defined (env : SearchEnv V) (rootBoard : Board)
    (hmoves : rootBoard.legalMoves env.Z false ≠ []) (hscale : env.EVAL_SCALE ≠ 0) :
    (∀ n, n < 2 ^ 32 →
      ∃ s, searchStates env rootBoard n = some s
        ∧ ∀ q i parent c, s.root.get? q = some parent → parent.mChildren.get? i = some c →
          1 ≤ c.mVisits ∧ c.mVisits ≤ parent.mVisits ∧ 1 ≤ parent.mVisits
          ∧ (c.mVisits : V) ≠ 0
          ∧ c.UCT env parent.mVisits
              = some (c.mResultsSum / (c.mVisits : V)
                + env.UCT_C * env.sqrt (env.ln (parent.mVisits : V) / (c.mVisits : V))))
    ∧ (∀ searchTimeMs maxDepth maxNodes boolPrintInfo fuel last n s s1,
        searchStates env rootBoard n = some s →
        searchLoop env rootBoard searchTimeMs maxDepth maxNodes boolPrintInfo fuel last s
          = some s1 →
        ∃ k, 1 ≤ k ∧ searchStates env rootBoard (n + k) = some s1) := by
  constructor
  · intro n hn
    obtain ⟨s, hs, hsound⟩ := searchStates_sound env rootBoard hmoves hscale n hn
    refine ⟨s, hs, fun q i parent c hq hc => ?_⟩
    obtain ⟨h1, h2⟩ := (hsound q parent hq).2.2.2 c (List.get?_mem hc)
    have h3 : 1 ≤ parent.mVisits := le_trans h1 h2
    refine ⟨h1, h2, h3, ?_, ?_⟩
    · have : (0 : V) < (c.mVisits : V) := by exact_mod_cast h1
      exact ne_of_gt this
    · unfold Node.UCT
      rw [if_pos ⟨h1, h3⟩]
  · intro searchTimeMs maxDepth maxNodes boolPrintInfo fuel last n s s1 hs hloop
    obtain ⟨k, hk1, _, hk3⟩ := searchLoop_eq_some env rootBoard searchTimeMs maxDepth maxNodes
      boolPrintInfo fuel last n s s1 hs hloop
    exact ⟨k, hk1, hk3⟩

end Search

/-- C34, where the code fails it: the visit count `mVisits` is a `u32` that `backprop`
increments without a check, and that of the root wraps. In
`8/k1N5/8/8/8/8/5nPP/1R4BK w - - 0 1` White has one legal move. The state after `2^32`
iterations exists; in its tree the root has one child, a node that is not the root, and the
visit count 0, and `UCT()` of that child fails its assertion that the parent has been
visited. -/
theorem uct_parent_unvisited_after_wrap :
    ∃ s c, searchStates SearchEnv.sample
        (Board.sampleBoard "8/k1N5/8/8/8/8/5nPP/1R4BK w - - 0 1") (2 ^ 32) = some s
      ∧ s.root.get? [] = some s.root ∧ s.root.mChildren.get? 0 = some c
      ∧ s.root.mVisits = 0 ∧ c.UCT SearchEnv.sample s.root.mVisits = none := by
  have h1 : (Board.sampleBoard "8/k1N5/8/8/8/8/5nPP/1R4BK w - - 0 1").legalMoves
      SearchEnv.sample.Z false = [⟨6, 13, Move.BISHOP_FLAG⟩] := by decide!
  have hm : (Board.sampleBoard "8/k1N5/8/8/8/8/5nPP/1R4BK w - - 0 1").legalMoves
      SearchEnv.sample.Z false ≠ [] := by
    rw [h1]
    exact List.cons_ne_nil _ _
  obtain ⟨s, hs⟩ := searchStates_isSome SearchEnv.sample _ hm SearchEnv.sample_scale (2 ^ 32)
    (le_refl _)
  obtain ⟨hv, _⟩ := searchStates_counts SearchEnv.sample _ hm _ s hs
  obtain ⟨c, hc, _, _⟩ := forced_mate_states SearchEnv.sample _ _ h1 forced_mate_sample
    (2 ^ 32) s (by norm_num) hs
  rw [Nat.mod_self] at hv
  refine ⟨s, c, hs, Node.get?_nil _, by rw [hc]; rfl, hv, ?_⟩
  rw [hv]
  unfold Node.UCT
  rw [if_neg (fun h => absurd h.2 (by decide))]
/-! ## The command `go` -/

theorem roundDiv_25 (a : Nat) : roundDiv a 25 = (a + 12) / 25 := by
  unfold roundDiv
  split <;> omega

theorem floorLog2Aux_le : ∀ (fuel n k : Nat), n < 2 ^ (k + 1) → floorLog2Aux fuel n ≤ k
  | 0, _, _, _ => Nat.zero_le _
  | fuel + 1, n, k, h => by
    unfold floorLog2Aux
    split
    · exact Nat.zero_le _
    · rename_i h2
      cases k with
      | zero => omega
      | succ k =>
        have : n / 2 < 2 ^ (k + 1) := by
          rw [Nat.div_lt_iff_lt_mul (by norm_num)]
          rw [pow_succ] at h
          exact h
        have := floorLog2Aux_le fuel (n / 2) k this
        omega

/-- The conversion to `double` is exact below `2^53`. -/
theorem toDouble_of_lt {n : Nat} (h : n < 2 ^ 53) : toDouble n = n := by
  unfold toDouble
  rw [if_pos h]

/-- Below `2^53` the quotient by `25.0`, converted to `u64`, is the integer quotient. -/
theorem quotient25_of_lt {x : Nat} (h : x < 2 ^ 53) : quotient25 x = x / 25 := by
  have hq : x / 25 < 2 ^ 49 := by
    rw [Nat.div_lt_iff_lt_mul (by norm_num)]
    norm_num at h ⊢
    omega
  have hl : floorLog2 (x / 25) ≤ 48 := floorLog2Aux_le 64 _ 48 hq
  unfold quotient25
  rw [if_neg (by
    have : (2 : Nat) ^ 49 < 2 ^ 52 := by norm_num
    omega)]
  generalize hs : 52 - floorLog2 (x / 25) = s
  have hs4 : 4 ≤ s := by omega
  have hP : 16 ≤ 2 ^ s := by
    calc 16 = 2 ^ 4 := by norm_num
      _ ≤ 2 ^ s := Nat.pow_le_pow_right (by norm_num) hs4
  generalize 2 ^ s = P at hP
  rw [roundDiv_25, Nat.div_div_eq_div_mul]
  have hx : x = 25 * (x / 25) + x % 25 := (Nat.div_add_mod x 25).symm
  have hr : x % 25 < 25 := Nat.mod_lt _ (by norm_num)
  generalize x / 25 = q at hx
  generalize x % 25 = r at hx hr
  subst hx
  apply Nat.div_eq_of_lt_le
  · nlinarith
  · nlinarith

/-- The loop of `uci::go` does not look at the value that follows a `movetime` token, once
`std::stoll` has read it. -/
theorem goLoop_sameButMoveTime (sideToMove : Color) {t1 t2 : List (List Char)}
    (h : SameButMoveTime t1 t2) : ∀ l, goLoop sideToMove t1 l = goLoop sideToMove t2 l := by
  induction h with
  | same rest => intro l; rfl
  | pair name token rest1 rest2 _ ih =>
    intro l
    unfold goLoop
    cases stoll token with
    | none => rfl
    | some value =>
      simp only
      split
      · exact ih _
      · split
        · exact ih _
        · split
          · exact ih _
          · split
            · exact ih _
            · exact ih _
  | movetime value1 value2 rest1 rest2 h1 h2 _ ih =>
    intro l
    have n1 : ¬ (("movetime".toList = "wtime".toList ∧ sideToMove = .WHITE)
        ∨ ("movetime".toList = "btime".toList ∧ sideToMove = .BLACK)) := by
      rintro (⟨h, _⟩ | ⟨h, _⟩) <;> exact absurd h (by decide)
    obtain ⟨v1, hv1⟩ : ∃ v, stoll value1 = some v := by
      cases h : stoll value1 with
      | none => exact absurd h h1
      | some v => exact ⟨v, rfl⟩
    obtain ⟨v2, hv2⟩ : ∃ v, stoll value2 = some v := by
      cases h : stoll value2 with
      | none => exact absurd h h2
      | some v => exact ⟨v, rfl⟩
    rw [goLoop, goLoop, hv1, hv2]
    simp only [if_neg n1, if_true]
    exact ih _

/-- What the loop of `uci::go` leaves in `milliseconds` and `isMoveTime`: the time of the side
to move that the tokens give, if they give one, and whether a `movetime` token is present. -/
theorem goLoop_spec (sideToMove : Color) : ∀ (tokens : List (List Char)) (l l1 : GoLimits)
    (t : Option Int), l.milliseconds = t.getD (I64_MAX : Int) →
    goLoop sideToMove tokens l = some l1 →
    l1.milliseconds = (goSideTime sideToMove tokens t).getD (I64_MAX : Int)
      ∧ l1.isMoveTime = (l.isMoveTime || goHasMoveTime tokens)
  | [], l, l1, t, h0, h => by
    unfold goLoop at h
    cases h
    exact ⟨h0, by simp [goHasMoveTime]⟩
  | [_], l, l1, t, h0, h => by
    unfold goLoop at h
    cases h
    exact ⟨h0, by simp [goHasMoveTime]⟩
  | name :: token :: rest, l, l1, t, h0, h => by
    rw [goLoop] at h
    cases hv : stoll token with
    | none => rw [hv] at h; cases h
    | some value =>
      rw [hv] at h
      simp only at h
      rw [goSideTime, goHasMoveTime]
      by_cases c1 : (name = "wtime".toList ∧ sideToMove = .WHITE)
          ∨ (name = "btime".toList ∧ sideToMove = .BLACK)
      · rw [if_pos c1] at h ⊢
        have hn : (decide (name = "movetime".toList)) = false := by
          rcases c1 with ⟨e, _⟩ | ⟨e, _⟩ <;> rw [e] <;> decide
        rw [hv, hn, Bool.false_or]
        exact goLoop_spec sideToMove rest { l with milliseconds := max value 0 } l1
          (some (max value 0)) rfl h
      · rw [if_neg c1] at h ⊢
        by_cases c2 : name = "movetime".toList
        · rw [if_pos c2] at h
          obtain ⟨g1, g2⟩ := goLoop_spec sideToMove rest { l with isMoveTime := true } l1 t
            h0 h
          refine ⟨g1, ?_⟩
          rw [g2]
          simp [c2]
        · rw [if_neg c2] at h
          have hn : (decide (name = "movetime".toList)) = false := decide_eq_false c2
          rw [hn, Bool.false_or]
          split at h
          · exact goLoop_spec sideToMove rest { l with maxDepth := (max value 1).toNat } l1 t
              h0 h
          · split at h
            · exact goLoop_spec sideToMove rest { l with maxNodes := (max value 0).toNat } l1 t
                h0 h
            · exact goLoop_spec sideToMove rest l l1 t h0 h
/-- C37 (amended): the time budget of `go`. The budget `searchTimeMs` with which `go` calls
`search` does not depend on the values that follow `movetime` tokens: two commands that differ
in these values only give the same limits. It is determined by the time `T` that the tokens
give for the side to move and by the presence of a `movetime` token. Without such a time, or
with `T = I64_MAX`, it is `2^63`, the `double` nearest to `I64_MAX`; so `go movetime X` alone
gives `2^63` for every number `X`. Otherwise it is `max(0, T - 10)` converted to `double` when
a `movetime` token is present, and that `double` divided by `25.0` and cut to an integer when
none is; for `T < 2^53 + 10` these are `max(0, T - 10)` and `floor(max(0, T - 10) / 25)`. -/
theorem go_time_budget (board : Board) :
    (∀ t1 t2, SameButMoveTime t1 t2 →
      goBudget ("go".toList :: t1) board = goBudget ("go".toList :: t2) board)
    ∧ (∀ tokens r, goBudget tokens board = some r →
        ((goSideTime board.mColorToMove (tokens.drop 1) none = none
            ∨ goSideTime board.mColorToMove (tokens.drop 1) none = some (I64_MAX : Int)) →
          r.1 = 2 ^ 63)
        ∧ ∀ T : Int, goSideTime board.mColorToMove (tokens.drop 1) none = some T →
            T ≠ (I64_MAX : Int) →
            r.1 = (if goHasMoveTime (tokens.drop 1) then toDouble (max 0 (T - 10)).toNat
                   else quotient25 (toDouble (max 0 (T - 10)).toNat))
            ∧ (T < 2 ^ 53 + 10 → r.1 = budgetInWords (some T) (goHasMoveTime (tokens.drop 1))))
    ∧ (∀ (X : List Char) (v : Int), stoll X = some v →
        goBudget ["go".toList, "movetime".toList, X] board = some (2 ^ 63, I64_MAX, I64_MAX)) := by
  have hmax : toDouble I64_MAX = 2 ^ 63 := by decide!
  refine ⟨fun t1 t2 h => ?_, fun tokens r h => ?_, fun X v hX => ?_⟩
  · unfold goBudget
    rw [List.drop_one, List.tail_cons, List.drop_one, List.tail_cons,
      goLoop_sameButMoveTime board.mColorToMove h]
  · unfold goBudget at h
    cases hl : goLoop board.mColorToMove (tokens.drop 1) ⟨I64_MAX, I64_MAX, I64_MAX, false⟩ with
    | none => rw [hl] at h; cases h
    | some l =>
      rw [hl] at h
      simp only [Option.some.injEq] at h
      subst h
      obtain ⟨g1, g2⟩ := goLoop_spec board.mColorToMove _ _ l none rfl hl
      simp only [Bool.false_or] at g2
      constructor
      · intro hT
        have hms : l.milliseconds = (I64_MAX : Int) := by
          rcases hT with e | e <;> rw [g1, e] <;> rfl
        show goSearchTimeMs l = 2 ^ 63
        unfold goSearchTimeMs
        rw [if_pos hms, hmax]
      · intro T hT hne
        have hms : l.milliseconds = T := by
          rw [g1, hT]
          rfl
        have e : goSearchTimeMs l = (if goHasMoveTime (tokens.drop 1) then
            toDouble (max 0 (T - 10)).toNat
            else quotient25 (toDouble (max 0 (T - 10)).toNat)) := by
          unfold goSearchTimeMs
          simp only
          rw [if_neg (by rw [hms]; exact hne), hms, g2]
        refine ⟨e, fun hsmall => ?_⟩
        show goSearchTimeMs l = _
        have hlt : (max 0 (T - 10)).toNat < 2 ^ 53 := by
          have : (max 0 (T - 10)) < 2 ^ 53 := by
            rw [max_lt_iff]
            constructor
            · norm_num
            · omega
          omega
        rw [e, toDouble_of_lt hlt, quotient25_of_lt hlt]
        unfold budgetInWords
        cases goHasMoveTime (tokens.drop 1) <;> rfl
  · have n1 : ¬ (("movetime".toList = "wtime".toList ∧ board.mColorToMove = .WHITE)
        ∨ ("movetime".toList = "btime".toList ∧ board.mColorToMove = .BLACK)) := by
      rintro (⟨h, _⟩ | ⟨h, _⟩) <;> exact absurd h (by decide)
    unfold goBudget
    rw [List.drop_one, List.tail_cons, goLoop, hX]
    simp only [if_neg n1, if_true]
    have e : ∀ l, goLoop board.mColorToMove [] l = some l := fun l => by
      unfold goLoop
      rfl
    rw [e]
    simp only
    unfold goSearchTimeMs
    rw [if_pos rfl, hmax]

/-- The time budget at work: `go movetime 1000` gives the budget `2^63`, whoever is to move. -/
theorem go_time_budget_witness :
    stoll "1000".toList = some 1000
    ∧ goBudget ["go".toList, "movetime".toList, "1000".toList] Board.startBoard
        = some (2 ^ 63, I64_MAX, I64_MAX) :=
  ⟨by decide!, (go_time_budget Board.startBoard).2.2 "1000".toList 1000 (by decide!)⟩

/-- C37, as worded, fails. With White to move, `go` gives the budget `2^63`, not `I64_MAX`;
`go wtime 9223372036854775807` gives `2^63` too, the time `I64_MAX` counting as none, not
`floor((I64_MAX - 10) / 25)`; and `go wtime 9007199254741003 movetime 1` gives `2^53`, the
`double` nearest to `T - 10 = 2^53 + 1`, not `T - 10`. -/
theorem go_time_budget_not_in_words :
    Board.startBoard.mColorToMove = .WHITE
    ∧ goBudget ["go".toList] Board.startBoard = some (2 ^ 63, I64_MAX, I64_MAX)
    ∧ budgetInWords none false = 2 ^ 63 - 1
    ∧ goBudget ["go".toList, "wtime".toList, "9223372036854775807".toList] Board.startBoard
        = some (2 ^ 63, I64_MAX, I64_MAX)
    ∧ budgetInWords (some 9223372036854775807) false = 368934881474191031
    ∧ goBudget ["go".toList, "wtime".toList, "9007199254741003".toList, "movetime".toList,
        "1".toList] Board.startBoard = some (2 ^ 53, I64_MAX, I64_MAX)
    ∧ budgetInWords (some 9007199254741003) true = 2 ^ 53 + 1 := by
  decide!
/-! ## The checkers after a move -/

/-- A bitboard whose bits are among two squares has at most two bits. -/
theorem popcount_le_two {x a c : Nat} (h : ∀ s, s < 64 → has x s = true → s = a ∨ s = c) :
    popcount x ≤ 2 := by
  rw [popcount_card]
  calc ((Finset.range 64).filter (fun s => has x s = true)).card
      ≤ ({a, c} : Finset Nat).card := by
        apply Finset.card_le_card
        intro s hs
        rw [Finset.mem_filter, Finset.mem_range] at hs
        rw [Finset.mem_insert, Finset.mem_singleton]
        exact h s hs.1 hs.2
    _ ≤ 2 := Finset.card_le_two

/-- A bitboard whose bits fall in two classes, each with at most one square, has at most two
bits. -/
theorem popcount_le_two_of_cover {x : Nat} {A B : Nat → Prop}
    (hcases : ∀ s, s < 64 → has x s = true → A s ∨ B s)
    (hA : ∀ s1 s2, A s1 → A s2 → s1 = s2) (hB : ∀ s1 s2, B s1 → B s2 → s1 = s2) :
    popcount x ≤ 2 := by
  by_cases eA : ∃ a, A a
  · obtain ⟨a, ha⟩ := eA
    by_cases eB : ∃ c, B c
    · obtain ⟨c, hc⟩ := eB
      refine @popcount_le_two x a c ?_
      intro s hs hx
      rcases hcases s hs hx with h | h
      · exact Or.inl (hA s a h ha)
      · exact Or.inr (hB s c h hc)
    · refine @popcount_le_two x a a ?_
      intro s hs hx
      rcases hcases s hs hx with h | h
      · exact Or.inl (hA s a h ha)
      · exact absurd ⟨s, h⟩ eB
  · by_cases eB : ∃ c, B c
    · obtain ⟨c, hc⟩ := eB
      refine @popcount_le_two x c c ?_
      intro s hs hx
      rcases hcases s hs hx with h | h
      · exact absurd ⟨s, h⟩ eA
      · exact Or.inr (hB s c h hc)
    · refine @popcount_le_two x 0 0 ?_
      intro s hs hx
      rcases hcases s hs hx with h | h
      · exact absurd ⟨s, h⟩ eA
      · exact absurd ⟨s, h⟩ eB

/-- On the ray from `k` through `v` at most one square is the first occupied one. -/
theorem firstBeyond_unique {occ k v s1 s2 : Nat} (h1 : FirstBeyond occ k v s1)
    (h2 : FirstBeyond occ k v s2) : s1 = s2 := by
  obtain ⟨l1, b1, o1, e1⟩ := h1
  obtain ⟨l2, b2, o2, e2⟩ := h2
  obtain ⟨L, a1, a2, a3, a4, a5, a6⟩ := isBetween_line b1
  obtain ⟨M, c1, c2, c3, c4, c5, c6⟩ := isBetween_line b2
  have e : L = M := LineKind.unique a4 a1 c1
  subst e
  obtain ⟨_, p⟩ := isBetween_pos a3 b1
  obtain ⟨_, q⟩ := isBetween_pos c3 b2
  by_contra hne
  have hpos : L.pos s1 ≠ L.pos s2 := fun e =>
    hne (LineKind.eq_of_pos (LineKind.same_trans (LineKind.same_symm a3) c3) e)
  by_cases c : (L.pos k < L.pos s1 ∧ L.pos s1 < L.pos s2)
      ∨ (L.pos s2 < L.pos s1 ∧ L.pos s1 < L.pos k)
  · have := e2 s1 l1 (isBetween_of_pos a3 c3 c)
    rw [o1] at this
    exact Bool.noConfusion this
  · have := e1 s2 l2 (isBetween_of_pos c3 a3 (by omega))
    rw [o2] at this
    exact Bool.noConfusion this

/-- An attack on `k` that a change of the occupancy brings about is a slider's, along a line
through a square that was occupied and no longer is. -/
theorem new_attack {p : PieceType} {c : Color} {occ occ' s k : Nat}
    (h0 : attacksFrom p c occ s k = false) (h1 : attacksFrom p c occ' s k = true) :
    ∃ v, v < 64 ∧ isBetween k v s = true ∧ has occ v = true ∧ has occ' v = false
      ∧ s < 64 ∧ ∀ u, u < 64 → isBetween k u s = true → has occ' u = false := by
  rcases pieceType_cases p with hl | hsl | rfl
  · rw [attacksFrom_leaper occ occ' hl, h1] at h0
    exact Bool.noConfusion h0
  · obtain ⟨s64, k64, hsk, ⟨L, hL, hty⟩, hreach⟩ := slider_reach hsl h1
    have hreach' : ∀ u, u < 64 → isBetween k u s = true → has occ' u = false := by
      intro u hu hb
      exact hreach u hu (by rw [isBetween_symm]; exact hb)
    by_contra hno
    have : attacksFrom p c occ s k = true := by
      refine attacksFrom_of_reach s64 k64 hsk hL hty ?_
      intro u hu hub
      by_contra ho
      simp only [Bool.not_eq_false] at ho
      exact hno ⟨u, hu, by rw [isBetween_symm]; exact hub, ho,
        hreach u hu hub, s64, hreach'⟩
    rw [this] at h0
    exact Bool.noConfusion h0
  · exact absurd h1 (by simp [attacksFrom])

namespace Board

/-- In a valid position no piece of the side to move attacks the king of the other side. -/
theorem Valid.their_king_safe {b : Board} (hv : b.Valid) {k : Nat} (h1 : has b.them k = true)
    (h2 : has b.kings k = true) {s : Nat} {p : PieceType} (hs : has b.us s = true)
    (hp : has (b.pieceBb p) s = true) :
    attacksFrom p b.mColorToMove b.occupancy s k = false := by
  have hv' := hv
  unfold Valid isValid at hv'
  rw [Bool.and_eq_true, Bool.not_eq_true'] at hv'
  obtain ⟨k0, _, hl, hk⟩ := hv.king (oppColor b.mColorToMove)
  have e : k = k0 := (hk k).mp ⟨h1, h2⟩
  have hna := hv'.2
  unfold them at hna
  rw [hl, ← e] at hna
  by_contra hatt
  simp only [Bool.not_eq_false] at hatt
  have := (isSquareAttacked_iff b k b.mColorToMove).mpr ⟨s, p, hs, hp, hatt⟩
  rw [this] at hna
  exact Bool.noConfusion hna

/-- The squares that hold a checker, in terms of the side that has just moved. -/
theorem has_checkers_after {b b' : Board}
    (hstm : b'.mColorToMove = oppColor b.mColorToMove) (s : Nat) :
    has b'.checkers s = true ↔ ∃ p, has (b'.colorBb b.mColorToMove) s = true
      ∧ has (b'.pieceBb p) s = true
      ∧ attacksFrom p b.mColorToMove b'.occupancy s b'.kingSquare = true := by
  rw [has_checkers, hstm, oppColor_oppColor]
  rfl

/-- The king of the side that is to move after a move stood on the same square before. -/
theorem king_after {b b' : Board} (hv' : b'.Valid)
    (hstm : b'.mColorToMove = oppColor b.mColorToMove)
    (hthem : ∀ x, has (b'.colorBb (oppColor b.mColorToMove)) x = true → has b.them x = true)
    (hking : ∀ x, has (b'.colorBb (oppColor b.mColorToMove)) x = true →
      has (b'.pieceBb .KING) x = true → has (b.pieceBb .KING) x = true) :
    b'.kingSquare < 64 ∧ has b.them b'.kingSquare = true ∧ has b.kings b'.kingSquare = true := by
  obtain ⟨h64, hk⟩ := hv'.kingSquare_spec
  have := (hk b'.kingSquare).mpr rfl
  unfold us at this
  rw [hstm] at this
  exact ⟨h64, hthem _ this.1, hking _ this.1 this.2⟩

end Board
namespace Board

/-- After a move that is neither castling nor en passant at most two pieces give check: the
piece that moved and the first piece behind the square it left. -/
theorem checkers_normal (Z : Zobrist) {b : Board} (hv : b.Valid) {m : Move}
    (hv' : (b.makeMove Z m).Valid) (hn : b.NormalMove m) :
    popcount (b.makeMove Z m).checkers ≤ 2 := by
  obtain ⟨hc, he, hP, hf64, ht64, hus, hpc, hto, hpromo, _⟩ := hn
  obtain ⟨h1, h2, h3, h4⟩ := makeMove_normal Z hv hc he hP hus hpc hto
  have hstm := mColorToMove_makeMove Z b m
  obtain ⟨k64, kt, kk⟩ := king_after hv' hstm
    (fun x hx => by
      rw [h2, Bool.and_eq_true] at hx
      exact hx.1)
    (fun x hx hk => by
      rw [h2, Bool.and_eq_true, Bool.not_eq_true', decide_eq_false_iff_not] at hx
      rw [h3, if_neg hx.2] at hk
      by_cases e : x = m.fromSq
      · rw [if_pos e] at hk
        exact Bool.noConfusion hk
      · rw [if_neg e] at hk
        exact hk)
  refine @popcount_le_two_of_cover _ (fun s => s = m.toSq)
    (FirstBeyond (b.makeMove Z m).occupancy (b.makeMove Z m).kingSquare m.fromSq) ?_
    (fun s1 s2 e1 e2 => e1.trans e2.symm) (fun _ _ e1 e2 => firstBeyond_unique e1 e2)
  intro s hs hx
  obtain ⟨p, c1, c2, c3⟩ := (has_checkers_after hstm s).mp hx
  by_cases e : s = m.toSq
  · exact Or.inl e
  · right
    have c1' := c1
    rw [h1, Bool.or_eq_true, decide_eq_true_eq, Bool.and_eq_true, Bool.not_eq_true',
      decide_eq_false_iff_not] at c1'
    rcases c1' with c1' | c1'
    · exact absurd c1' e
    rw [h3, if_neg e, if_neg c1'.2] at c2
    have h0 := hv.their_king_safe kt kk c1'.1 c2
    obtain ⟨v, v64, vb, vo, vo', s64, hre⟩ := new_attack h0 c3
    have ev : v = m.fromSq := by
      rw [h4, vo] at vo'
      simp at vo'
      exact vo'.2
    subst ev
    refine ⟨s64, vb, ?_, hre⟩
    rw [h4]
    simp [e, c1'.2, has_us_occupancy b c1'.1]

/-- The occupancy after an en-passant capture. -/
theorem occupancy_enPassant (Z : Zobrist) {b : Board} (hv : b.Valid)
    (hepc : b.enPassantConsistent = true) {m : Move} (hem : b.EnPassantMove m) {cs : Nat}
    (hcs : cs = if b.mColorToMove = .WHITE then subSq m.toSq 8 else addSq m.toSq 8) (x : Nat) :
    has (b.makeMove Z m).occupancy x
      = (decide (x = m.toSq)
          || (has b.occupancy x && !decide (x = m.fromSq) && !decide (x = cs))) := by
  obtain ⟨h1, h2, _⟩ := makeMove_enPassant Z hv hepc hem hcs
  obtain ⟨_, _, _, hthem, _, _, _⟩ := enPassant_facts hepc hem hcs
  obtain ⟨_, _, hus, _, _, _, _⟩ := hem
  have d1 : has b.them m.fromSq = false := hv.us_them hus
  have d2 : has b.us cs = false := hv.them_us hthem
  rw [has_occupancy (b.makeMove Z m) b.mColorToMove, h1, h2, has_occupancy b b.mColorToMove]
  have e3 : has (b.colorBb b.mColorToMove) x = has b.us x := rfl
  have e4 : has (b.colorBb (oppColor b.mColorToMove)) x = has b.them x := rfl
  rw [e3, e4]
  by_cases e1 : x = m.fromSq
  · subst e1
    rw [d1, hus]
    simp
  · by_cases e2 : x = cs
    · subst e2
      rw [d2, hthem]
      simp
    · simp only [e1, e2, decide_False, Bool.not_false, Bool.and_true]
      cases has b.us x <;> cases has b.them x <;> simp

/-- A pawn that has captured en passant and gives check does not stand in line with the king
and the square of the pawn it took. -/
theorem enPassant_no_line {c : Color} {t cs k s : Nat} (hatt : has (pawnAttacks t c) k = true)
    (hw : c = .WHITE → cs + 8 = t) (hb : c = .BLACK → cs = t + 8) :
    isBetween k cs s = false := by
  by_contra h
  simp only [Bool.not_eq_false] at h
  obtain ⟨L, l1, _⟩ := isBetween_line h
  cases c
  · have := has_pawnAttacks_white.mp hatt
    have := hw rfl
    cases L <;> simp only [LineKind.same] at l1 <;> omega
  · have := has_pawnAttacks_black.mp hatt
    have := hb rfl
    cases L <;> simp only [LineKind.same] at l1 <;> omega

/-- After an en-passant capture at most two pieces give check. -/
theorem checkers_enPassant (Z : Zobrist) {b : Board} (hv : b.Valid)
    (hepc : b.enPassantConsistent = true) {m : Move}
    (hv' : (b.makeMove Z m).Valid) (hem : b.EnPassantMove m) :
    popcount (b.makeMove Z m).checkers ≤ 2 := by
  obtain ⟨cs, hcs⟩ : ∃ cs, cs = if b.mColorToMove = .WHITE then subSq m.toSq 8
      else addSq m.toSq 8 := ⟨_, rfl⟩
  obtain ⟨h1, h2, h3⟩ := makeMove_enPassant Z hv hepc hem hcs
  have h4 := occupancy_enPassant Z hv hepc hem hcs
  obtain ⟨ht64, hcs64, ho, hthem, hpw, hW, hB⟩ := enPassant_facts hepc hem hcs
  have hstm := mColorToMove_makeMove Z b m
  obtain ⟨k64, kt, kk⟩ := king_after hv' hstm
    (fun x hx => by
      rw [h2, Bool.and_eq_true] at hx
      exact hx.1)
    (fun x hx hk => by
      rw [h2, Bool.and_eq_true] at hx
      have hne : x ≠ m.toSq := by
        rintro rfl
        have := has_them_occupancy b hx.1
        rw [ho] at this
        exact Bool.noConfusion this
      rw [h3, if_neg hne] at hk
      by_cases e : x = m.fromSq ∨ x = cs
      · rw [if_pos e] at hk
        exact Bool.noConfusion hk
      · rw [if_neg e] at hk
        exact hk)
  -- a checker other than the pawn stands behind one of the two squares left
  have hother : ∀ s, s < 64 → has (b.makeMove Z m).checkers s = true → s ≠ m.toSq →
      FirstBeyond (b.makeMove Z m).occupancy (b.makeMove Z m).kingSquare m.fromSq s
      ∨ FirstBeyond (b.makeMove Z m).occupancy (b.makeMove Z m).kingSquare cs s := by
    intro s hs hx e
    obtain ⟨p, c1, c2, c3⟩ := (has_checkers_after hstm s).mp hx
    have c1' := c1
    rw [h1, Bool.or_eq_true, decide_eq_true_eq, Bool.and_eq_true, Bool.not_eq_true',
      decide_eq_false_iff_not] at c1'
    rcases c1' with c1' | c1'
    · exact absurd c1' e
    rw [h3, if_neg e] at c2
    by_cases hne : s = m.fromSq ∨ s = cs
    · rw [if_pos hne] at c2
      exact Bool.noConfusion c2
    rw [if_neg hne] at c2
    have h0 := hv.their_king_safe kt kk c1'.1 c2
    obtain ⟨v, v64, vb, vo, vo', s64, hre⟩ := new_attack h0 c3
    have hso : has (b.makeMove Z m).occupancy s = true := by
      rw [h4]
      have n1 : s ≠ m.fromSq := fun e => hne (Or.inl e)
      have n2 : s ≠ cs := fun e => hne (Or.inr e)
      simp only [has_us_occupancy b c1'.1, n1, n2, decide_False, Bool.not_false, Bool.and_true,
        Bool.or_true]
    have ev : v = m.fromSq ∨ v = cs := by
      rw [h4, vo] at vo'
      simp only [Bool.true_and, Bool.or_eq_false_iff, Bool.and_eq_false_iff,
        Bool.not_eq_false', decide_eq_true_eq, decide_eq_false_iff_not] at vo'
      exact vo'.2
    rcases ev with ev | ev
    · subst ev
      exact Or.inl ⟨s64, vb, hso, hre⟩
    · subst ev
      exact Or.inr ⟨s64, vb, hso, hre⟩
  by_cases hp : has (b.makeMove Z m).checkers m.toSq = true
  · -- the pawn gives check: nothing is discovered through the square of the pawn it took
    obtain ⟨p, c1, c2, c3⟩ := (has_checkers_after hstm m.toSq).mp hp
    rw [h3, if_pos rfl, decide_eq_true_eq] at c2
    subst c2
    have hatt : has (pawnAttacks m.toSq b.mColorToMove) (b.makeMove Z m).kingSquare = true := c3
    refine @popcount_le_two_of_cover _ (fun s => s = m.toSq)
      (FirstBeyond (b.makeMove Z m).occupancy (b.makeMove Z m).kingSquare m.fromSq) ?_
      (fun s1 s2 e1 e2 => e1.trans e2.symm) (fun _ _ e1 e2 => firstBeyond_unique e1 e2)
    intro s hs hx
    by_cases e : s = m.toSq
    · exact Or.inl e
    · rcases hother s hs hx e with h | h
      · exact Or.inr h
      · have := @enPassant_no_line b.mColorToMove m.toSq cs (b.makeMove Z m).kingSquare s hatt
          (fun hw => (hW hw).2) (fun hb => (hB hb).2)
        rw [h.2.1] at this
        exact Bool.noConfusion this
  · refine @popcount_le_two_of_cover _
      (FirstBeyond (b.makeMove Z m).occupancy (b.makeMove Z m).kingSquare m.fromSq)
      (FirstBeyond (b.makeMove Z m).occupancy (b.makeMove Z m).kingSquare cs) ?_
      (fun _ _ e1 e2 => firstBeyond_unique e1 e2) (fun _ _ e1 e2 => firstBeyond_unique e1 e2)
    intro s hs hx
    have e : s ≠ m.toSq := by
      rintro rfl
      exact hp hx
    exact hother s hs hx e

/-- After castling at most two pieces give check. -/
theorem checkers_castling (Z : Zobrist) {b : Board} (hv : b.Valid) {m : Move} {rf rt : Nat}
    (hv' : (b.makeMove Z m).Valid) (hcm : b.CastlingMove m rf rt) :
    popcount (b.makeMove Z m).checkers ≤ 2 := by
  obtain ⟨hflag, hfk, hrf, hrt, hrus, hrook, hto, hrto, htr, ht64, hrt64, hcorner, _, _⟩ := hcm
  obtain ⟨_, hks⟩ := hv.kingSquare_spec
  have hkf := (hks m.fromSq).mpr hfk
  obtain ⟨h1, h2, h3, h4⟩ := makeMove_castling Z hv hflag hrf hrt hkf.1 hkf.2 hrus hrook hto
    hrto htr
  have hstm := mColorToMove_makeMove Z b m
  obtain ⟨k64, kt, kk⟩ := king_after hv' hstm
    (fun x hx => by
      rw [h2] at hx
      exact hx)
    (fun x hx hk => by
      rw [h2] at hx
      have hxo := has_them_occupancy b hx
      have n1 : x ≠ m.toSq := by
        rintro rfl
        rw [hto] at hxo
        exact Bool.noConfusion hxo
      have n2 : x ≠ rt := by
        rintro rfl
        rw [hrto] at hxo
        exact Bool.noConfusion hxo
      rw [h3, if_neg n1, if_neg n2] at hk
      by_cases e : x = m.fromSq ∨ x = rf
      · rw [if_pos e] at hk
        exact Bool.noConfusion hk
      · rw [if_neg e] at hk
        exact hk)
  refine @popcount_le_two_of_cover _ (fun s => s = rt)
    (FirstBeyond (b.makeMove Z m).occupancy (b.makeMove Z m).kingSquare m.fromSq) ?_
    (fun s1 s2 e1 e2 => e1.trans e2.symm) (fun _ _ e1 e2 => firstBeyond_unique e1 e2)
  intro s hs hx
  obtain ⟨p, c1, c2, c3⟩ := (has_checkers_after hstm s).mp hx
  by_cases e : s = rt
  · exact Or.inl e
  right
  by_cases et : s = m.toSq
  · -- the king does not give check
    exfalso
    subst et
    rw [h3, if_pos rfl, decide_eq_true_eq] at c2
    subst c2
    have hK := (hv'.kingSquare_spec.2 (b.makeMove Z m).kingSquare).mpr rfl
    have hthem' : has (b.makeMove Z m).them m.toSq = true := by
      unfold them
      rw [hstm, oppColor_oppColor]
      exact c1
    have hkings' : has (b.makeMove Z m).kings m.toSq = true := by
      have := h3 .KING m.toSq
      rw [if_pos rfl] at this
      simpa using this
    have := hv'.their_king_safe hthem' hkings' hK.1 (p := .KING) hK.2
    have c3' : has (kingAttacks m.toSq) (b.makeMove Z m).kingSquare = true := c3
    rw [has_kingAttacks_symm] at c3'
    have this' : has (kingAttacks (b.makeMove Z m).kingSquare) m.toSq = false := this
    rw [c3'] at this'
    exact Bool.noConfusion this'
  · have c1' := c1
    rw [h1] at c1'
    simp only [et, e, decide_False, Bool.false_or, Bool.and_eq_true, Bool.not_eq_true',
      decide_eq_false_iff_not] at c1'
    obtain ⟨⟨cu, cf⟩, cr⟩ := c1'
    have hn : ¬ (s = m.fromSq ∨ s = rf) := by
      rintro (h | h)
      · exact cf h
      · exact cr h
    rw [h3, if_neg et, if_neg e, if_neg hn] at c2
    have h0 := hv.their_king_safe kt kk cu c2
    obtain ⟨v, v64, vb, vo, vo', s64, hre⟩ := new_attack h0 c3
    have ev : v = m.fromSq ∨ v = rf := by
      rw [h4, vo] at vo'
      simp only [Bool.true_and, Bool.or_eq_false_iff, Bool.and_eq_false_iff,
        Bool.not_eq_false', decide_eq_true_eq, decide_eq_false_iff_not] at vo'
      exact vo'.2
    rcases ev with ev | ev
    · subst ev
      refine ⟨s64, vb, ?_, hre⟩
      rw [h4]
      simp [has_us_occupancy b cu, cf, cr]
    · subst ev
      rw [corner_not_between hcorner k64 s64] at vb
      exact Bool.noConfusion vb

/-- After a move of `legalMoves` from a valid position whose castling rights and en-passant
square agree with the pieces, at most two pieces give check: the assert `numCheckers <= 2` of
`legalMoves` holds in the position that the move leads to. -/
theorem checkers_makeMove (Z : Zobrist) {b : Board} (hv : b.Valid)
    (hc : b.castlingConsistent = true) (hepc : b.enPassantConsistent = true) {u : Bool}
    {m : Move} (hm : m ∈ b.legalMoves Z u) : popcount (b.makeMove Z m).checkers ≤ 2 := by
  have hv' := valid_makeMove Z hv hc hepc hm
  rcases legalMoves_shape Z hv hc hm with h | h | ⟨rf, rt, h⟩
  · exact checkers_normal Z hv hv' h
  · exact checkers_enPassant Z hv hepc hv' h
  · exact checkers_castling Z hv hv' h

end Board
/-! ## The asserts of `board.hpp` hold on the positions the search visits -/

namespace Board

theorem removePieceAsserts_eq (b : Board) (c : Color) (p : PieceType) (sq : Nat) :
    b.removePieceAsserts c p sq = (has (b.colorBb c) sq && has (b.pieceBb p) sq) := by
  unfold removePieceAsserts
  rw [Bool.eq_iff_iff]
  simp only [Bool.and_eq_true, decide_eq_true_eq, and_bit_ne_zero]

theorem placePieceAssert_eq (b : Board) (sq : Nat) :
    b.placePieceAssert sq
      = (!has (b.colorBb b.mColorToMove) sq && !has (b.colorBb (oppColor b.mColorToMove)) sq) := by
  unfold placePieceAssert isOccupied
  rw [has_occupancy b b.mColorToMove, Bool.not_or]

/-- The asserts of `makeMove` hold for a move that is neither castling nor en passant. -/
theorem makeMoveAsserts_normal (Z : Zobrist) {b : Board} (hv : b.Valid) {m : Move}
    (hn : b.NormalMove m) : b.makeMoveAsserts Z m = true := by
  obtain ⟨hc, he, hP, hf64, ht64, hus, hpc, hto, hpromo, _⟩ := hn
  have hft : m.fromSq ≠ m.toSq := by
    intro h
    rw [h, hto] at hus
    exact Bool.false_ne_true hus
  have hcap : (b.removePiece Z b.mColorToMove m.pieceType m.fromSq).pieceTypeAt m.toSq
      = b.pieceTypeAt m.toSq := by
    apply pieceTypeAt_congr
    · intro c
      rw [has_colorBb_removePiece]
      simp [hft]
    · intro p
      rw [has_pieceBb_removePiece _ _ _ _ _ _ _ hP]
      simp [hft]
  have hus' : has (b.colorBb b.mColorToMove) m.fromSq = true := hus
  have hto' : has (b.colorBb b.mColorToMove) m.toSq = false := hto
  unfold makeMoveAsserts
  simp only [if_neg hc, if_neg he, hcap]
  by_cases hk : b.pieceTypeAt m.toSq = .NONE
  · have hocc : has b.occupancy m.toSq = false := (pieceTypeAt_eq_NONE_iff hv _).mp hk
    rw [has_occupancy b b.mColorToMove, Bool.or_eq_false_iff] at hocc
    simp only [hk, ne_eq, not_true_eq_false, if_false, decide_True, Bool.true_or, Bool.true_and,
      removePieceAsserts_eq, placePieceAssert_eq, mColorToMove_removePiece,
      has_colorBb_removePiece, hus', hpc, hocc.1, hocc.2]
    simp [hft, oppColor_ne]
  · have hocc : has b.occupancy m.toSq = true := by
      by_contra hx
      simp only [Bool.not_eq_true] at hx
      exact hk ((pieceTypeAt_eq_NONE_iff hv _).mpr hx)
    have hkp : has (b.pieceBb (b.pieceTypeAt m.toSq)) m.toSq = true := hv.has_pieceTypeAt hocc
    rw [has_occupancy b b.mColorToMove, hto', Bool.false_or] at hocc
    simp only [hk, ne_eq, not_false_eq_true, if_true, decide_False, Bool.false_or,
      removePieceAsserts_eq, placePieceAssert_eq, mColorToMove_removePiece,
      has_colorBb_removePiece, has_pieceBb_removePiece _ _ _ _ _ _ _ hP, hus', hpc, hocc, hto',
      hkp]
    simp [hft, oppColor_ne, ne_oppColor]

/-- The asserts of `makeMove` hold for an en-passant capture. -/
theorem makeMoveAsserts_enPassant (Z : Zobrist) {b : Board} (hv : b.Valid)
    (hepc : b.enPassantConsistent = true) {m : Move} (hem : b.EnPassantMove m) :
    b.makeMoveAsserts Z m = true := by
  obtain ⟨cs, hcs⟩ : ∃ cs, cs = if b.mColorToMove = .WHITE then subSq m.toSq 8
      else addSq m.toSq 8 := ⟨_, rfl⟩
  obtain ⟨ht64, hcs64, ho, hthem, hpw, _, _⟩ := enPassant_facts hepc hem hcs
  obtain ⟨hflag, _, hus, hp, _, _, _⟩ := hem
  have hpt : m.pieceType = .PAWN := by
    unfold Move.pieceType
    rw [hflag]
    rfl
  have hc : m.flag ≠ Move.CASTLING_FLAG := by
    rw [hflag]
    decide
  have hus' : has (b.colorBb b.mColorToMove) m.fromSq = true := hus
  have hthem' : has (b.colorBb (oppColor b.mColorToMove)) cs = true := hthem
  have hp' : has (b.pieceBb .PAWN) m.fromSq = true := hp
  have hpw' : has (b.pieceBb .PAWN) cs = true := hpw
  have hfc : m.fromSq ≠ cs := by
    rintro e
    have := hv.us_them hus
    rw [e, hthem] at this
    exact Bool.noConfusion this
  rw [has_occupancy b b.mColorToMove, Bool.or_eq_false_iff] at ho
  have hft : m.fromSq ≠ m.toSq := by
    intro e
    rw [e, ho.1] at hus'
    exact Bool.noConfusion hus'
  have hct : cs ≠ m.toSq := by
    intro e
    rw [e, ho.2] at hthem'
    exact Bool.noConfusion hthem'
  unfold makeMoveAsserts
  simp only [if_neg hc, if_pos hflag, hpt, ← hcs, removePieceAsserts_eq, placePieceAssert_eq,
    mColorToMove_removePiece, has_colorBb_removePiece,
    has_pieceBb_removePiece _ _ _ _ _ _ _ (show PieceType.PAWN ≠ .NONE by decide), hus', hp',
    hthem', hpw', ho.1, ho.2]
  simp [hft, hfc, hct, oppColor_ne, ne_oppColor]

/-- The asserts of `makeMove` hold for a castling move. -/
theorem makeMoveAsserts_castling (Z : Zobrist) {b : Board} (hv : b.Valid) {m : Move}
    {rf rt : Nat} (hcm : b.CastlingMove m rf rt) : b.makeMoveAsserts Z m = true := by
  obtain ⟨hflag, hfk, hrf, hrt, hrus, hrook, hto, hrto, htr, ht64, hrt64, hcorner, _, _⟩ := hcm
  obtain ⟨_, hks⟩ := hv.kingSquare_spec
  have hkf := (hks m.fromSq).mpr hfk
  have hpt : m.pieceType = .KING := by
    unfold Move.pieceType
    rw [hflag]
    rfl
  have hus' : has (b.colorBb b.mColorToMove) m.fromSq = true := hkf.1
  have hk' : has (b.pieceBb .KING) m.fromSq = true := hkf.2
  have hrus' : has (b.colorBb b.mColorToMove) rf = true := hrus
  have hrook' : has (b.pieceBb .ROOK) rf = true := hrook
  rw [has_occupancy b b.mColorToMove, Bool.or_eq_false_iff] at hto hrto
  have hft : m.fromSq ≠ m.toSq := by
    intro e
    rw [e, hto.1] at hus'
    exact Bool.noConfusion hus'
  have hfrt : m.fromSq ≠ rt := by
    intro e
    rw [e, hrto.1] at hus'
    exact Bool.noConfusion hus'
  have hrfrt : rf ≠ rt := by
    intro e
    rw [e, hrto.1] at hrus'
    exact Bool.noConfusion hrus'
  have hfrf : m.fromSq ≠ rf := by
    intro e
    rw [e] at hk'
    exact absurd (hv.piece_unique hk' hrook') (by decide)
  have htrf : m.toSq ≠ rf := by
    intro e
    rw [← e, hto.1] at hrus'
    exact Bool.noConfusion hrus'
  unfold makeMoveAsserts
  simp only [if_pos hflag, hpt, ← hrf, ← hrt, removePieceAsserts_eq, placePieceAssert_eq,
    mColorToMove_removePiece, mColorToMove_placePiece, has_colorBb_removePiece,
    has_colorBb_placePiece,
    has_pieceBb_removePiece _ _ _ _ _ _ _ (show PieceType.KING ≠ .NONE by decide),
    has_pieceBb_removePiece _ _ _ _ _ _ _ (show PieceType.ROOK ≠ .NONE by decide),
    has_pieceBb_placePiece _ _ _ _ _ _ _ (show PieceType.KING ≠ .NONE by decide),
    hus', hk', hrus', hrook', hto.1, hto.2, hrto.1, hrto.2]
  simp [hft, hfrt, hrfrt, hfrf, htrf, htr, oppColor_ne, ne_oppColor]

/-- The asserts of `makeMove` hold for every move of `legalMoves`, in a valid position whose
castling rights and en-passant square agree with the pieces. -/
theorem makeMoveAsserts_of_mem (Z : Zobrist) {b : Board} (hv : b.Valid)
    (hc : b.castlingConsistent = true) (hepc : b.enPassantConsistent = true) {u : Bool}
    {m : Move} (hm : m ∈ b.legalMoves Z u) : b.makeMoveAsserts Z m = true := by
  rcases legalMoves_shape Z hv hc hm with h | h | ⟨rf, rt, h⟩
  · exact makeMoveAsserts_normal Z hv h
  · exact makeMoveAsserts_enPassant Z hv hepc h
  · exact makeMoveAsserts_castling Z hv h

/-- The asserts of `makeMove` hold for every move of `legalMoves` in a position that the asserts
allow. -/
theorem Sane.makeMoveAsserts (Z : Zobrist) {b : Board} (h : b.Sane) {u : Bool} {m : Move}
    (hm : m ∈ b.legalMoves Z u) : b.makeMoveAsserts Z m = true :=
  makeMoveAsserts_of_mem Z h.1 h.2.1 h.2.2.1 hm

/-- A move of `legalMoves` leads from a position that the asserts allow to such a position. -/
theorem Sane.makeMove (Z : Zobrist) {b : Board} (h : b.Sane) {u : Bool} {m : Move}
    (hm : m ∈ b.legalMoves Z u) : (b.makeMove Z m).Sane :=
  ⟨valid_makeMove Z h.1 h.2.1 h.2.2.1 hm, castlingConsistent_makeMove Z h.1 h.2.1 hm,
    enPassantConsistent_makeMove Z h.1 h.2.1 hm, checkers_makeMove Z h.1 h.2.1 h.2.2.1 hm⟩

/-- Every position that moves of `legalMoves` lead to from a position that the asserts of
`board.hpp` allow is such a position: on it the asserts of `legalMoves` hold, and those of
`makeMove` for each of its moves. -/
theorem Sane.reachable {Z : Zobrist} {b0 b : Board} (h : b0.Sane) (hr : Reachable Z b0 b) :
    b.Sane := by
  induction hr with
  | start => exact h
  | move _ hm ih => exact ih.makeMove Z hm

end Board
/-! ## The positions of the nodes of the tree -/

section Search

variable {V : Type} [LinearOrderedField V]

/-- The moves of a node that the constructor has built on a position are moves of `legalMoves`
on that position. -/
theorem built_moves_legal {env : SearchEnv V} {board : Board} {node : Node V}
    (h : Node.Built env board node) : ∀ m ∈ node.mMoves, m ∈ board.legalMoves env.Z false := by
  obtain ⟨rng, c, b, r, hnew, hm, _⟩ := h
  rw [Node.new_not_root] at hnew
  simp only [Option.some.injEq, Prod.mk.injEq] at hnew
  obtain ⟨h1, _⟩ := hnew
  intro m hmem
  rw [hm, ← h1] at hmem
  simp only at hmem
  have := (env.shuffle_perm _ _).mem_iff.mp hmem
  split at this
  · cases this
  · exact this

/-- The position of every node below a placed node is one that moves of `legalMoves` lead
to. -/
theorem placed_reachable {env : SearchEnv V} {root : Board} :
    ∀ (p : List Nat) {board : Board} {n node : Node V} {ms : List Move},
    Board.Reachable env.Z root board → Node.Placed env board n →
    (∀ m ∈ n.mMoves, m ∈ board.legalMoves env.Z false) →
    n.get? p = some node → n.pathMoves p = some ms →
    Board.Reachable env.Z root (ms.foldl (fun b m => b.makeMove env.Z m) board)
  | [], board, n, node, ms, hr, _, _, _, hms => by
    rw [Node.pathMoves] at hms
    cases hms
    exact hr
  | i :: p, board, n, node, ms, hr, hp, hleg, hg, hms => by
    rw [Node.get?_cons] at hg
    cases hc : n.mChildren.get? i with
    | none => rw [hc] at hg; cases hg
    | some c =>
      rw [hc] at hg
      simp only [Option.some_bind] at hg
      cases hm : n.mMoves.get? i with
      | none =>
        rw [Node.pathMoves, hm] at hms
        cases hms
      | some move =>
        rw [Node.pathMoves_cons_of hm hc] at hms
        cases hms1 : c.pathMoves p with
        | none => rw [hms1] at hms; cases hms
        | some ms1 =>
          rw [hms1] at hms
          simp only [Option.map_some', Option.some.injEq] at hms
          subst hms
          obtain ⟨hpc, hbc, _⟩ := hp.of_parent hm hc
          have hmove : move ∈ board.legalMoves env.Z false := hleg move (List.get?_mem hm)
          rw [List.foldl_cons]
          exact placed_reachable p (Board.Reachable.move hr hmove) hpc (built_moves_legal hbc)
            hg hms1

/-- The position of every node of the tree, in every state of the loop of `search`, is one that
moves of `legalMoves` lead to from the root position: the search runs `legalMoves` and
`makeMove` on such positions only. -/
theorem searchStates_reachable (env : SearchEnv V) (rootBoard : Board)
    (hmoves : rootBoard.legalMoves env.Z false ≠ []) {n : Nat} {s : SearchState V}
    (hs : searchStates env rootBoard n = some s) {p : List Nat} {node : Node V}
    {ms : List Move} (hg : s.root.get? p = some node) (hms : s.root.pathMoves p = some ms) :
    Board.Reachable env.Z rootBoard (ms.foldl (fun b m => b.makeMove env.Z m) rootBoard) := by
  obtain ⟨_, _, _, h4, _⟩ := searchStates_counts env rootBoard hmoves n s hs
  refine placed_reachable p Board.Reachable.start
    (searchStates_placed env rootBoard hmoves n s hs) ?_ hg hms
  intro m hm
  rw [h4] at hm
  exact (env.shuffle_perm _ _).mem_iff.mp hm

/-- From a root position that the asserts of `board.hpp` allow, the position of every node of
the tree is such a position, in every state of the loop of `search`. -/
theorem searchStates_sane (env : SearchEnv V) (rootBoard : Board) (hroot : rootBoard.Sane)
    (hmoves : rootBoard.legalMoves env.Z false ≠ []) {n : Nat} {s : SearchState V}
    (hs : searchStates env rootBoard n = some s) {p : List Nat} {node : Node V}
    {ms : List Move} (hg : s.root.get? p = some node) (hms : s.root.pathMoves p = some ms) :
    (ms.foldl (fun b m => b.makeMove env.Z m) rootBoard).Sane :=
  hroot.reachable (searchStates_reachable env rootBoard hmoves hs hg hms)

end Search
section Search

variable {V : Type} [LinearOrderedField V]

end Search

section Search

variable {V : Type} [LinearOrderedField V]

end Search

end NewCentury
